import Mathlib

/-!
# Rogue: pairing heap, Dijkstra cost fields and dungeon generation

A shallow embedding of `Helpers/pairing-heap.c`, `Source/Dungeon/dijkstra.c` and
`Dungeon/dungeon.c`.  Heap nodes live in an explicit store (`Mem`) indexed by node
addresses; `none` plays the role of `NULL`.  Loops that follow pointers take a fuel
argument; dereferencing `NULL` and the fatal exits of the C code yield `none`.
-/

namespace Rogue

/-! ## The node store -/

/-- A pointer to a `Heap_Node_T`: `none` is `NULL`. -/
abbrev Ptr := Option Nat

/-- The store of `Heap_Node_T` records, one map per struct member
(`key`, `data`, `prev`, `next`, `child`). -/
structure Mem where
  key : Nat → Int
  data : Nat → Option Nat
  prev : Nat → Ptr
  next : Nat → Ptr
  child : Nat → Ptr

/-- Assignment `n->key = k`. -/
def Mem.setKey (m : Mem) (n : Nat) (k : Int) : Mem :=
  { m with key := fun a => if a = n then k else m.key a }

/-- Assignment `n->data = v`. -/
def Mem.setData (m : Mem) (n : Nat) (v : Option Nat) : Mem :=
  { m with data := fun a => if a = n then v else m.data a }

/-- Assignment `n->prev = p`. -/
def Mem.setPrev (m : Mem) (n : Nat) (p : Ptr) : Mem :=
  { m with prev := fun a => if a = n then p else m.prev a }

/-- Assignment `n->next = p`. -/
def Mem.setNext (m : Mem) (n : Nat) (p : Ptr) : Mem :=
  { m with next := fun a => if a = n then p else m.next a }

/-- Assignment `n->child = p`. -/
def Mem.setChild (m : Mem) (n : Nat) (p : Ptr) : Mem :=
  { m with child := fun a => if a = n then p else m.child a }

/-- A store in which every node is zeroed. -/
def Mem.empty : Mem :=
  { key := fun _ => 0, data := fun _ => none, prev := fun _ => none,
    next := fun _ => none, child := fun _ => none }

/-- The `Heap_T` record together with the node store it points into. -/
structure Heap where
  mem : Mem
  size : Int
  intrusive : Bool
  root : Ptr

/-! ## pairing-heap.c -/

/-- Embedding of `merge`: links two trees, the smaller key staying on top
(`a` stays on top when the keys are equal). -/
def merge (m : Mem) (a b : Ptr) : Mem × Ptr :=
  match a, b with
  | none, b => (m, b)
  | some a, none => (m, some a)
  | some a0, some b0 =>
    let a := if m.key a0 > m.key b0 then b0 else a0
    let b := if m.key a0 > m.key b0 then a0 else b0
    let m1 := m.setPrev b (some a)
    let m2 := m1.setNext b (m1.child a)
    let m3 := match m2.child a with
      | some c => m2.setPrev c (some b)
      | none => m2
    let m4 := m3.setChild a (some b)
    let m5 := m4.setPrev a none
    let m6 := m5.setNext a none
    (m6, some a)

/-- Embedding of `remove_siblings`: splices `n` out of its sibling list.
Fails when `n->prev` is `NULL` (the C code would dereference it). -/
def remove_siblings (m : Mem) (n : Nat) : Option Mem :=
  match m.prev n with
  | none => none
  | some p =>
    let m2 :=
      if m.child p = some n then
        let m1 := m.setChild p (m.next n)
        match m1.next n with
        | some x => m1.setPrev x (m1.prev n)
        | none => m1
      else
        let m1 := m.setNext p (m.next n)
        match m1.next n with
        | some x => m1.setPrev x (m1.prev n)
        | none => m1
    some ((m2.setPrev n none).setNext n none)

/-- The expression `node == NULL ? NULL : node->next`. -/
def nextOf (m : Mem) (node : Ptr) : Ptr :=
  match node with
  | none => none
  | some t => m.next t

/-- First loop of `two_pass_merge` together with the `if (node != NULL)` block after it:
merges the siblings in pairs from left to right, pushes each merged pair on the front of
`list`, and finally pushes the unpaired last sibling.  Returns the store and `list`. -/
def pass1 : Nat → Mem → Ptr → Ptr → Ptr → Option (Mem × Ptr)
  | _, m, some nd, none, list => some (m.setNext nd list, some nd)
  | _, m, none, none, list => some (m, list)
  | 0, _, _, some _, _ => none
  | fuel + 1, m, node, some nx, list =>
    let tmp := m.next nx
    match merge m node (some nx) with
    | (_, none) => none
    | (m1, some r) =>
      let m2 := m1.setNext r list
      pass1 fuel m2 tmp (nextOf m2 tmp) (some r)

/-- Second loop of `two_pass_merge`: folds `merge` along `list`. -/
def pass2 : Nat → Mem → Nat → Option (Mem × Nat)
  | fuel, m, list =>
    match m.next list with
    | none => some (m, list)
    | some nx =>
      match fuel with
      | 0 => none
      | fuel + 1 =>
        let tmp := m.next nx
        match merge m (some list) (some nx) with
        | (_, none) => none
        | (m1, some r) => pass2 fuel (m1.setNext r tmp) r

/-- Embedding of `two_pass_merge`: detaches the children of `root` and melds them into
one tree, whose root is returned. -/
def two_pass_merge (fuel : Nat) (m : Mem) (root : Ptr) : Option (Mem × Ptr) :=
  match root with
  | none => some (m, none)
  | some r =>
    match m.child r with
    | none => some (m, none)
    | some c =>
      let m1 := m.setChild r none
      match pass1 fuel m1 (some c) (m1.next c) none with
      | none => none
      | some (_, none) => none
      | some (m3, some l) =>
        match pass2 fuel m3 l with
        | none => none
        | some (m4, l4) => some ((m4.setPrev l4 none).setNext l4 none, some l4)

/-- Embedding of `new_heap`. -/
def new_heap (m : Mem) (intrusive : Bool) : Heap :=
  { mem := m, size := 0, intrusive := intrusive, root := none }

/-- Embedding of `heap_dynamic_insert`; `n` is the address handed out by `safe_malloc`.
Returns `none` for the fatal exit taken on an intrusive heap. -/
def heap_dynamic_insert (h : Heap) (n : Nat) (key : Int) (data : Option Nat) :
    Option (Heap × Nat) :=
  if h.intrusive then none
  else
    let m1 := ((((h.mem.setKey n key).setData n data).setChild n none).setNext n none).setPrev n none
    let r := merge m1 h.root (some n)
    some ({ h with mem := r.1, root := r.2, size := h.size + 1 }, n)

/-- Embedding of `heap_intrusive_insert`.  Returns `none` for the fatal exit taken on a
dynamic heap. -/
def heap_intrusive_insert (h : Heap) (n : Nat) (key : Int) (data : Option Nat) :
    Option Heap :=
  if !h.intrusive then none
  else
    let m1 := ((((h.mem.setKey n key).setData n data).setChild n none).setNext n none).setPrev n none
    let r := merge m1 h.root (some n)
    some { h with mem := r.1, root := r.2, size := h.size + 1 }

/-- Embedding of `heap_min`. -/
def heap_min (h : Heap) : Ptr :=
  if h.size = 0 then none else h.root

/-- Embedding of `heap_remove_min`: returns the removed node (or `NULL`) and the heap. -/
def heap_remove_min (fuel : Nat) (h : Heap) : Option (Ptr × Heap) :=
  if h.size = 0 then some (none, h)
  else
    let tmp := h.root
    match two_pass_merge fuel h.mem tmp with
    | none => none
    | some (m1, r) => some (tmp, { h with mem := m1, root := r, size := h.size - 1 })

/-- Embedding of `heap_delete`. -/
def heap_delete (fuel : Nat) (h : Heap) (n : Nat) : Option Heap :=
  match h.mem.prev n with
  | none =>
    match heap_remove_min fuel h with
    | none => none
    | some (_, h1) => some h1
  | some _ =>
    match remove_siblings h.mem n with
    | none => none
    | some m1 =>
      match two_pass_merge fuel m1 (some n) with
      | none => none
      | some (m2, tmp) =>
        let r := merge m2 h.root tmp
        some { h with mem := r.1, root := r.2, size := h.size - 1 }

/-- Embedding of `heap_decrease_key`. -/
def heap_decrease_key (h : Heap) (n : Nat) (key : Int) : Option Heap :=
  let m1 := h.mem.setKey n key
  match m1.prev n with
  | none => some { h with mem := m1 }
  | some _ =>
    match remove_siblings m1 n with
    | none => none
    | some m2 =>
      let r := merge m2 h.root (some n)
      some { h with mem := r.1, root := r.2 }

/-! ## Ghost trees and the representation invariant -/

/-- The shape of a sibling list in child/next form: `node a c n` is the node at address
`a`, with `c` the list of its children and `n` the siblings to its right. -/
inductive PTree where
  | nil : PTree
  | node (a : Nat) (child next : PTree) : PTree
  deriving DecidableEq

/-- The address at the head of a sibling list (`NULL` when empty). -/
def PTree.ptr : PTree → Ptr
  | .nil => none
  | .node a _ _ => some a

/-- All node addresses of a sibling list, parents before children. -/
def PTree.addrs : PTree → List Nat
  | .nil => []
  | .node a c n => a :: (c.addrs ++ n.addrs)

/-- The store lays out the sibling list `t`, whose head has `prev = pv`: the first child
points back to its parent, every other node to its left sibling. -/
def Rep (m : Mem) : Ptr → PTree → Prop
  | _, .nil => True
  | pv, .node a c n =>
    m.prev a = pv ∧ m.child a = c.ptr ∧ m.next a = n.ptr ∧ Rep m (some a) c ∧ Rep m (some a) n

/-- The children of `a` are laid out as `c` (nothing is said about `a->prev`, `a->next`). -/
def TreeAt (m : Mem) (a : Nat) (c : PTree) : Prop :=
  m.child a = c.ptr ∧ Rep m (some a) c

/-- Every node along the sibling list has key at least `k`. -/
def chainGe (m : Mem) (k : Int) : PTree → Prop
  | .nil => True
  | .node a _ n => k ≤ m.key a ∧ chainGe m k n

/-- Heap order: no child has a smaller key than its parent. -/
def Ord (m : Mem) : PTree → Prop
  | .nil => True
  | .node a c n => chainGe m (m.key a) c ∧ Ord m c ∧ Ord m n

/-- A node is linked from pointer `p` when it can be reached through `child` and `next`. -/
inductive Linked (m : Mem) : Ptr → Nat → Prop where
  | here (a : Nat) : Linked m (some a) a
  | child (b a : Nat) : Linked m (m.child b) a → Linked m (some b) a
  | next (b a : Nat) : Linked m (m.next b) a → Linked m (some b) a

/-- A node is in the heap when it is linked from the root. -/
def InHeap (h : Heap) (a : Nat) : Prop := Linked h.mem h.root a

/-- Well-formedness of a heap with ghost shape `t`: a single tree laid out in the store
without sharing, heap ordered, whose node count is `size`. -/
structure WF (h : Heap) (t : PTree) : Prop where
  root : h.root = t.ptr
  top : t = .nil ∨ ∃ a c, t = .node a c .nil
  rep : Rep h.mem none t
  nodup : t.addrs.Nodup
  ord : Ord h.mem t
  size : h.size = t.addrs.length

/-! ### Field access after an assignment -/

@[simp] theorem key_setKey (m : Mem) (n : Nat) (k : Int) (a : Nat) :
    (m.setKey n k).key a = if a = n then k else m.key a := rfl
@[simp] theorem data_setKey (m : Mem) (n : Nat) (k : Int) : (m.setKey n k).data = m.data := rfl
@[simp] theorem prev_setKey (m : Mem) (n : Nat) (k : Int) : (m.setKey n k).prev = m.prev := rfl
@[simp] theorem next_setKey (m : Mem) (n : Nat) (k : Int) : (m.setKey n k).next = m.next := rfl
@[simp] theorem child_setKey (m : Mem) (n : Nat) (k : Int) : (m.setKey n k).child = m.child := rfl

@[simp] theorem key_setData (m : Mem) (n : Nat) (v : Option Nat) : (m.setData n v).key = m.key := rfl
@[simp] theorem data_setData (m : Mem) (n : Nat) (v : Option Nat) (a : Nat) :
    (m.setData n v).data a = if a = n then v else m.data a := rfl
@[simp] theorem prev_setData (m : Mem) (n : Nat) (v : Option Nat) : (m.setData n v).prev = m.prev := rfl
@[simp] theorem next_setData (m : Mem) (n : Nat) (v : Option Nat) : (m.setData n v).next = m.next := rfl
@[simp] theorem child_setData (m : Mem) (n : Nat) (v : Option Nat) :
    (m.setData n v).child = m.child := rfl

@[simp] theorem key_setPrev (m : Mem) (n : Nat) (p : Ptr) : (m.setPrev n p).key = m.key := rfl
@[simp] theorem data_setPrev (m : Mem) (n : Nat) (p : Ptr) : (m.setPrev n p).data = m.data := rfl
@[simp] theorem prev_setPrev (m : Mem) (n : Nat) (p : Ptr) (a : Nat) :
    (m.setPrev n p).prev a = if a = n then p else m.prev a := rfl
@[simp] theorem next_setPrev (m : Mem) (n : Nat) (p : Ptr) : (m.setPrev n p).next = m.next := rfl
@[simp] theorem child_setPrev (m : Mem) (n : Nat) (p : Ptr) : (m.setPrev n p).child = m.child := rfl

@[simp] theorem key_setNext (m : Mem) (n : Nat) (p : Ptr) : (m.setNext n p).key = m.key := rfl
@[simp] theorem data_setNext (m : Mem) (n : Nat) (p : Ptr) : (m.setNext n p).data = m.data := rfl
@[simp] theorem prev_setNext (m : Mem) (n : Nat) (p : Ptr) : (m.setNext n p).prev = m.prev := rfl
@[simp] theorem next_setNext (m : Mem) (n : Nat) (p : Ptr) (a : Nat) :
    (m.setNext n p).next a = if a = n then p else m.next a := rfl
@[simp] theorem child_setNext (m : Mem) (n : Nat) (p : Ptr) : (m.setNext n p).child = m.child := rfl

@[simp] theorem key_setChild (m : Mem) (n : Nat) (p : Ptr) : (m.setChild n p).key = m.key := rfl
@[simp] theorem data_setChild (m : Mem) (n : Nat) (p : Ptr) : (m.setChild n p).data = m.data := rfl
@[simp] theorem prev_setChild (m : Mem) (n : Nat) (p : Ptr) : (m.setChild n p).prev = m.prev := rfl
@[simp] theorem next_setChild (m : Mem) (n : Nat) (p : Ptr) : (m.setChild n p).next = m.next := rfl
@[simp] theorem child_setChild (m : Mem) (n : Nat) (p : Ptr) (a : Nat) :
    (m.setChild n p).child a = if a = n then p else m.child a := rfl

/-! ### Basic facts about ghost trees -/

theorem PTree.ptr_mem {t : PTree} {a : Nat} (h : t.ptr = some a) : a ∈ t.addrs := by
  cases t with
  | nil => simp [PTree.ptr] at h
  | node b c n =>
    simp only [PTree.ptr, Option.some.injEq] at h
    simp [PTree.addrs, h]

/-- Two stores that agree on the link fields of every node of `t` lay it out alike. -/
theorem Rep_congr {m m2 : Mem} : ∀ (t : PTree) (pv : Ptr),
    (∀ x ∈ t.addrs, m2.prev x = m.prev x ∧ m2.next x = m.next x ∧ m2.child x = m.child x) →
    Rep m pv t → Rep m2 pv t
  | .nil, _, _, _ => trivial
  | .node a c n, pv, hag, hr => by
    obtain ⟨h1, h2, h3, h4, h5⟩ := hr
    have ha := hag a (by simp [PTree.addrs])
    refine ⟨by rw [ha.1, h1], by rw [ha.2.2, h2], by rw [ha.2.1, h3], ?_, ?_⟩
    · exact Rep_congr c (some a) (fun x hx => hag x (by simp [PTree.addrs, hx])) h4
    · exact Rep_congr n (some a) (fun x hx => hag x (by simp [PTree.addrs, hx])) h5

/-- Re-pointing the head of a sibling list: the head may get a new `prev`, all other link
fields of the list must be kept. -/
theorem Rep_rehead {m m2 : Mem} {t : PTree} {pv pv2 : Ptr} (hn : t.addrs.Nodup)
    (hhead : ∀ a, t.ptr = some a → m2.prev a = pv2)
    (hprev : ∀ x ∈ t.addrs, t.ptr ≠ some x → m2.prev x = m.prev x)
    (hrest : ∀ x ∈ t.addrs, m2.next x = m.next x ∧ m2.child x = m.child x)
    (hr : Rep m pv t) : Rep m2 pv2 t := by
  cases t with
  | nil => trivial
  | node a c n =>
    obtain ⟨_, h2, h3, h4, h5⟩ := hr
    simp only [PTree.addrs, List.nodup_cons, List.mem_append, not_or, List.nodup_append] at hn
    have ha := hrest a (by simp [PTree.addrs])
    refine ⟨hhead a rfl, by rw [ha.2, h2], by rw [ha.1, h3], ?_, ?_⟩
    · refine Rep_congr c (some a) (fun x hx => ?_) h4
      have hxa : x ≠ a := fun e => hn.1.1 (e ▸ hx)
      have hm : x ∈ (PTree.node a c n).addrs := by simp [PTree.addrs, hx]
      exact ⟨hprev x hm (by simpa [PTree.ptr] using Ne.symm hxa), hrest x hm⟩
    · refine Rep_congr n (some a) (fun x hx => ?_) h5
      have hxa : x ≠ a := fun e => hn.1.2 (e ▸ hx)
      have hm : x ∈ (PTree.node a c n).addrs := by simp [PTree.addrs, hx]
      exact ⟨hprev x hm (by simpa [PTree.ptr] using Ne.symm hxa), hrest x hm⟩

theorem chainGe_congr {m m2 : Mem} {k : Int} : ∀ (t : PTree),
    (∀ x ∈ t.addrs, m2.key x = m.key x) → chainGe m k t → chainGe m2 k t
  | .nil, _, _ => trivial
  | .node a c n, hag, hr => by
    refine ⟨by rw [hag a (by simp [PTree.addrs])]; exact hr.1, ?_⟩
    exact chainGe_congr n (fun x hx => hag x (by simp [PTree.addrs, hx])) hr.2

theorem chainGe_mono {m : Mem} {k k2 : Int} (hk : k2 ≤ k) : ∀ (t : PTree),
    chainGe m k t → chainGe m k2 t
  | .nil, _ => trivial
  | .node _ _ n, hr => ⟨le_trans hk hr.1, chainGe_mono hk n hr.2⟩

theorem Ord_congr {m m2 : Mem} : ∀ (t : PTree),
    (∀ x ∈ t.addrs, m2.key x = m.key x) → Ord m t → Ord m2 t
  | .nil, _, _ => trivial
  | .node a c n, hag, hr => by
    have hc : ∀ x ∈ c.addrs, m2.key x = m.key x := fun x hx => hag x (by simp [PTree.addrs, hx])
    have hn : ∀ x ∈ n.addrs, m2.key x = m.key x := fun x hx => hag x (by simp [PTree.addrs, hx])
    refine ⟨?_, Ord_congr c hc hr.2.1, Ord_congr n hn hr.2.2⟩
    rw [hag a (by simp [PTree.addrs])]
    exact chainGe_congr c hc hr.1

/-- In a heap-ordered list whose top-level keys are at least `k`, every key is. -/
theorem Ord_lower_bound {m : Mem} {k : Int} : ∀ (t : PTree),
    Ord m t → chainGe m k t → ∀ x ∈ t.addrs, k ≤ m.key x
  | .nil, _, _, x, hx => by simp [PTree.addrs] at hx
  | .node a c n, ho, hc, x, hx => by
    simp only [PTree.addrs, List.mem_cons, List.mem_append] at hx
    rcases hx with rfl | hx | hx
    · exact hc.1
    · exact Ord_lower_bound c ho.2.1 (chainGe_mono hc.1 c ho.1) x hx
    · exact Ord_lower_bound n ho.2.2 hc.2 x hx

/-- The six assignments of `merge` once `a` is known to stay on top. -/
def link (m : Mem) (a b : Nat) : Mem :=
  let m1 := m.setPrev b (some a)
  let m2 := m1.setNext b (m1.child a)
  let m3 := match m2.child a with
    | some c => m2.setPrev c (some b)
    | none => m2
  ((m3.setChild a (some b)).setPrev a none).setNext a none

theorem merge_some (m : Mem) (a b : Nat) :
    merge m (some a) (some b) =
      if m.key a > m.key b then (link m b a, some b) else (link m a b, some a) := by
  simp only [merge, link]
  by_cases h : m.key a > m.key b <;> simp [h]

theorem link_key (m : Mem) (a b : Nat) : (link m a b).key = m.key := by
  unfold link; simp only []; split <;> rfl

theorem link_data (m : Mem) (a b : Nat) : (link m a b).data = m.data := by
  unfold link; simp only []; split <;> rfl

theorem link_child (m : Mem) (a b x : Nat) :
    (link m a b).child x = if x = a then some b else m.child x := by
  unfold link; simp only []; split <;> simp

theorem link_next (m : Mem) (a b x : Nat) :
    (link m a b).next x = if x = a then none else if x = b then m.child a else m.next x := by
  unfold link; simp only []; split <;> simp

theorem link_prev (m : Mem) (a b x : Nat) :
    (link m a b).prev x =
      if x = a then none else if m.child a = some x then some b
      else if x = b then some a else m.prev x := by
  unfold link; simp only []
  split
  · rename_i c hc
    simp at hc
    by_cases h1 : x = a
    · simp [h1]
    · by_cases h2 : x = c
      · simp [h1, h2, hc]
      · have : ¬ (c = x) := fun e => h2 e.symm
        simp [h1, h2, hc, this]
  · rename_i hc
    simp at hc
    simp [hc]

theorem TreeAt_of_Rep {m : Mem} {pv : Ptr} {a : Nat} {c n : PTree}
    (h : Rep m pv (.node a c n)) : TreeAt m a c := ⟨h.2.1, h.2.2.2.1⟩

theorem TreeAt_congr {m m2 : Mem} {a : Nat} {c : PTree} (ha : m2.child a = m.child a)
    (hag : ∀ x ∈ c.addrs, m2.prev x = m.prev x ∧ m2.next x = m.next x ∧ m2.child x = m.child x)
    (h : TreeAt m a c) : TreeAt m2 a c :=
  ⟨by rw [ha]; exact h.1, Rep_congr c (some a) hag h.2⟩

/-- Layout after linking `b` under `a`: `b` becomes the first child of `a`. -/
theorem link_rep {m : Mem} {a b : Nat} {ca cb : PTree} (ha : TreeAt m a ca) (hb : TreeAt m b cb)
    (hnd : (a :: b :: (ca.addrs ++ cb.addrs)).Nodup) :
    Rep (link m a b) none (.node a (.node b cb ca) .nil) := by
  simp only [List.nodup_cons, List.mem_cons, List.mem_append, not_or, List.nodup_append] at hnd
  obtain ⟨⟨hab, haca, hacb⟩, ⟨hbca, hbcb⟩, hnca, hncb, hdis⟩ := hnd
  have hba : b ≠ a := Ne.symm hab
  have hcha : ∀ x, x ∉ ca.addrs → m.child a ≠ some x := fun x hx e =>
    hx (PTree.ptr_mem (ha.1 ▸ e))
  refine ⟨?_, ?_, ?_, ⟨?_, ?_, ?_, ?_, ?_⟩, trivial⟩
  · simp [link_prev]
  · simp [link_child, PTree.ptr]
  · simp [link_next, PTree.ptr]
  · simp [link_prev, hba, hcha b hbca]
  · simp [link_child, hba, hb.1]
  · simp [link_next, hba, ha.1]
  · refine Rep_congr cb (some b) (fun x hx => ?_) hb.2
    have hxa : x ≠ a := fun e => hacb (e ▸ hx)
    have hxb : x ≠ b := fun e => hbcb (e ▸ hx)
    have hxca : x ∉ ca.addrs := fun e => hdis e hx
    simp [link_prev, link_next, link_child, hxa, hxb, hcha x hxca]
  · refine Rep_rehead hnca (fun x hx => ?_) (fun x hx hne => ?_) (fun x hx => ?_) ha.2
    · have hxa : x ≠ a := fun e => haca (e ▸ PTree.ptr_mem hx)
      simp [link_prev, hxa, ha.1, hx]
    · have hxa : x ≠ a := fun e => haca (e ▸ hx)
      have hxb : x ≠ b := fun e => hbca (e ▸ hx)
      simp [link_prev, hxa, hxb, ha.1, hne]
    · have hxa : x ≠ a := fun e => haca (e ▸ hx)
      have hxb : x ≠ b := fun e => hbca (e ▸ hx)
      simp [link_next, link_child, hxa, hxb]

/-- Linking touches only the two roots and the former first child of the winner. -/
theorem link_frame {m : Mem} {a b x : Nat} (hxa : x ≠ a) (hxb : x ≠ b)
    (hxc : m.child a ≠ some x) :
    (link m a b).prev x = m.prev x ∧ (link m a b).next x = m.next x ∧
      (link m a b).child x = m.child x := by
  simp [link_prev, link_next, link_child, hxa, hxb, hxc]

/-- Heap order after linking `b` under `a` when `key a ≤ key b`. -/
theorem link_ord {m : Mem} {a b : Nat} {ca cb : PTree} (hk : m.key a ≤ m.key b)
    (ha : Ord m (.node a ca .nil)) (hb : Ord m (.node b cb .nil)) :
    Ord m (.node a (.node b cb ca) .nil) :=
  ⟨⟨hk, ha.1⟩, ⟨hb.1, hb.2.1, ha.2.1⟩, trivial⟩

/-- The ghost counterpart of `merge` on two rooted trees `(a, ca)` and `(b, cb)`. -/
def linkT (key : Nat → Int) (a : Nat) (ca : PTree) (b : Nat) (cb : PTree) : Nat × PTree :=
  if key a > key b then (b, .node a ca cb) else (a, .node b cb ca)

/-- Specification of `merge` on two disjoint rooted trees. -/
theorem merge_spec {m : Mem} {a b : Nat} {ca cb : PTree} (ha : TreeAt m a ca)
    (hb : TreeAt m b cb) (hnd : (a :: b :: (ca.addrs ++ cb.addrs)).Nodup) :
    (merge m (some a) (some b)).2 = some (linkT m.key a ca b cb).1 ∧
    Rep (merge m (some a) (some b)).1 none
      (.node (linkT m.key a ca b cb).1 (linkT m.key a ca b cb).2 .nil) ∧
    (merge m (some a) (some b)).1.key = m.key ∧
    (merge m (some a) (some b)).1.data = m.data ∧
    (∀ x, x ≠ a → x ≠ b → x ∉ ca.addrs → x ∉ cb.addrs →
      (merge m (some a) (some b)).1.prev x = m.prev x ∧
      (merge m (some a) (some b)).1.next x = m.next x ∧
      (merge m (some a) (some b)).1.child x = m.child x) := by
  rw [merge_some]
  unfold linkT
  by_cases hk : m.key a > m.key b
  · simp only [hk, if_true]
    refine ⟨trivial, link_rep hb ha ?_, link_key _ _ _, link_data _ _ _, ?_⟩
    · have : (b :: a :: (cb.addrs ++ ca.addrs)).Perm (a :: b :: (ca.addrs ++ cb.addrs)) :=
        (List.Perm.swap a b _).trans ((List.perm_append_comm).cons _ |>.cons _)
      exact this.nodup_iff.mpr hnd
    · intro x hxa hxb _ hxcb
      exact link_frame hxb hxa (fun e => hxcb (PTree.ptr_mem (hb.1 ▸ e)))
  · simp only [hk, if_false]
    refine ⟨trivial, link_rep ha hb hnd, link_key _ _ _, link_data _ _ _, ?_⟩
    intro x hxa hxb hxca _
    exact link_frame hxa hxb (fun e => hxca (PTree.ptr_mem (ha.1 ▸ e)))

theorem linkT_ord {m : Mem} {a b : Nat} {ca cb : PTree}
    (ha : Ord m (.node a ca .nil)) (hb : Ord m (.node b cb .nil)) :
    Ord m (.node (linkT m.key a ca b cb).1 (linkT m.key a ca b cb).2 .nil) := by
  unfold linkT
  by_cases hk : m.key a > m.key b
  · simp only [hk, if_true]; exact link_ord (le_of_lt hk) hb ha
  · simp only [hk, if_false]; exact link_ord (not_lt.mp hk) ha hb

theorem linkT_perm (key : Nat → Int) (a b : Nat) (ca cb : PTree) :
    ((linkT key a ca b cb).1 :: (linkT key a ca b cb).2.addrs).Perm
      (a :: b :: (ca.addrs ++ cb.addrs)) := by
  unfold linkT
  by_cases hk : key a > key b
  · simp only [hk, if_true, PTree.addrs]
    exact List.Perm.swap a b _
  · simp only [hk, if_false, PTree.addrs]
    exact (List.perm_append_comm).cons _ |>.cons _

theorem linkT_root_le (m : Mem) (a b : Nat) (ca cb : PTree) :
    m.key (linkT m.key a ca b cb).1 ≤ m.key a ∧ m.key (linkT m.key a ca b cb).1 ≤ m.key b := by
  unfold linkT
  by_cases hk : m.key a > m.key b
  · simp only [hk, if_true]; exact ⟨le_of_lt hk, le_refl _⟩
  · simp only [hk, if_false]; exact ⟨le_refl _, not_lt.mp hk⟩

/-- Under a layout, the linked nodes are exactly the addresses of the ghost tree. -/
theorem Linked_of_mem {m : Mem} : ∀ (t : PTree) (pv : Ptr) (a : Nat),
    Rep m pv t → a ∈ t.addrs → Linked m t.ptr a
  | .nil, _, a, _, h => by simp [PTree.addrs] at h
  | .node b c n, pv, a, hr, h => by
    simp only [PTree.addrs, List.mem_cons, List.mem_append] at h
    rcases h with rfl | h | h
    · exact Linked.here _
    · exact Linked.child b a (hr.2.1 ▸ Linked_of_mem c (some b) a hr.2.2.2.1 h)
    · exact Linked.next b a (hr.2.2.1 ▸ Linked_of_mem n (some b) a hr.2.2.2.2 h)

theorem mem_of_Linked {m : Mem} {p : Ptr} {a : Nat} (hl : Linked m p a) :
    ∀ (t : PTree) (pv : Ptr), p = t.ptr → Rep m pv t → a ∈ t.addrs := by
  induction hl with
  | here a => intro t pv hp _; exact PTree.ptr_mem hp.symm
  | child b a _ ih =>
    intro t pv hp hr
    cases t with
    | nil => simp [PTree.ptr] at hp
    | node b2 c n =>
      simp only [PTree.ptr, Option.some.injEq] at hp
      subst hp
      have := ih c (some b) hr.2.1 hr.2.2.2.1
      simp [PTree.addrs, this]
  | next b a _ ih =>
    intro t pv hp hr
    cases t with
    | nil => simp [PTree.ptr] at hp
    | node b2 c n =>
      simp only [PTree.ptr, Option.some.injEq] at hp
      subst hp
      have := ih n (some b) hr.2.2.1 hr.2.2.2.2
      simp [PTree.addrs, this]

theorem WF.inHeap_iff {h : Heap} {t : PTree} (w : WF h t) (a : Nat) :
    InHeap h a ↔ a ∈ t.addrs := by
  unfold InHeap
  constructor
  · intro hl; exact mem_of_Linked hl t none w.root w.rep
  · intro hm; rw [w.root]; exact Linked_of_mem t none a w.rep hm

/-! ### The two passes of `two_pass_merge` -/

/-- Addresses of a list of rooted trees. -/
def lAddrs : List (Nat × PTree) → List Nat
  | [] => []
  | x :: L => (x.1 :: x.2.addrs) ++ lAddrs L

/-- The intermediate list of `two_pass_merge`: rooted trees chained through `next`
(their `prev` fields are not meaningful at this point). -/
def ListRep (m : Mem) : Ptr → List (Nat × PTree) → Prop
  | p, [] => p = none
  | p, x :: L => p = some x.1 ∧ TreeAt m x.1 x.2 ∧ ListRep m (m.next x.1) L

/-- A sibling list whose head has an arbitrary `prev`. -/
def ChainU (m : Mem) : PTree → Prop
  | .nil => True
  | .node a c n => TreeAt m a c ∧ m.next a = n.ptr ∧ Rep m (some a) n

/-- The `next` pointer of the head of a sibling list. -/
def PTree.nextPtr : PTree → Ptr
  | .nil => none
  | .node _ _ n => n.ptr

/-- Ghost counterpart of `pass1`. -/
def pass1T (key : Nat → Int) : PTree → List (Nat × PTree) → List (Nat × PTree)
  | .node a ca (.node b cb rest), L => pass1T key rest (linkT key a ca b cb :: L)
  | .node a ca .nil, L => (a, ca) :: L
  | .nil, L => L

/-- Ghost counterpart of `pass2`. -/
def pass2T (key : Nat → Int) : Nat × PTree → List (Nat × PTree) → Nat × PTree
  | x, [] => x
  | x, y :: L => pass2T key (linkT key x.1 x.2 y.1 y.2) L

/-- Ghost counterpart of `two_pass_merge` on the list of children. -/
def meldT (key : Nat → Int) (c : PTree) : Option (Nat × PTree) :=
  match pass1T key c [] with
  | [] => none
  | x :: L => some (pass2T key x L)

/-- Two stores agree on the link fields of the listed nodes. -/
def Agree (m m2 : Mem) (S : List Nat) : Prop :=
  ∀ x ∈ S, m2.prev x = m.prev x ∧ m2.next x = m.next x ∧ m2.child x = m.child x

/-- Two stores agree on the link fields of every node outside the list. -/
def AgreeOff (m m2 : Mem) (S : List Nat) : Prop :=
  ∀ x, x ∉ S → m2.prev x = m.prev x ∧ m2.next x = m.next x ∧ m2.child x = m.child x

theorem AgreeOff.trans {m m2 m3 : Mem} {S : List Nat} (h1 : AgreeOff m m2 S)
    (h2 : AgreeOff m2 m3 S) : AgreeOff m m3 S := fun x hx =>
  ⟨(h2 x hx).1.trans (h1 x hx).1, (h2 x hx).2.1.trans (h1 x hx).2.1,
    (h2 x hx).2.2.trans (h1 x hx).2.2⟩

theorem AgreeOff.mono {m m2 : Mem} {S T : List Nat} (h : AgreeOff m m2 S)
    (hst : ∀ x ∈ S, x ∈ T) : AgreeOff m m2 T := fun x hx => h x (fun e => hx (hst x e))

theorem ListRep_congr {m m2 : Mem} : ∀ (L : List (Nat × PTree)) (p : Ptr),
    Agree m m2 (lAddrs L) → ListRep m p L → ListRep m2 p L
  | [], _, _, h => h
  | x :: L, p, hag, h => by
    obtain ⟨h1, h2, h3⟩ := h
    have hx := hag x.1 (by simp [lAddrs])
    refine ⟨h1, TreeAt_congr hx.2.2 (fun y hy => hag y (by simp [lAddrs, hy])) h2, ?_⟩
    rw [hx.2.1]
    exact ListRep_congr L _ (fun y hy => hag y (by simp [lAddrs, hy])) h3

theorem ChainU_congr {m m2 : Mem} {t : PTree} (hag : Agree m m2 t.addrs) (h : ChainU m t) :
    ChainU m2 t := by
  cases t with
  | nil => trivial
  | node a c n =>
    obtain ⟨h1, h2, h3⟩ := h
    have ha := hag a (by simp [PTree.addrs])
    refine ⟨TreeAt_congr ha.2.2 (fun y hy => hag y (by simp [PTree.addrs, hy])) h1, ?_, ?_⟩
    · rw [ha.2.1]; exact h2
    · exact Rep_congr n (some a) (fun y hy => hag y (by simp [PTree.addrs, hy])) h3

theorem ChainU_of_Rep {m : Mem} {pv : Ptr} {t : PTree} (h : Rep m pv t) : ChainU m t := by
  cases t with
  | nil => trivial
  | node a c n => exact ⟨⟨h.2.1, h.2.2.2.1⟩, h.2.2.1, h.2.2.2.2⟩

theorem ChainU_next {m : Mem} {a : Nat} {t : PTree} (h : ChainU m t) (hp : t.ptr = some a) :
    m.next a = t.nextPtr := by
  cases t with
  | nil => simp [PTree.ptr] at hp
  | node b c n =>
    simp only [PTree.ptr, Option.some.injEq] at hp
    subst hp
    exact h.2.1

/-! Counting lemmas: disjointness side conditions are discharged by linear arithmetic
over occurrence counts. -/

theorem cnt_le_one {l : List Nat} (h : l.Nodup) (x : Nat) : l.count x ≤ 1 :=
  List.nodup_iff_count_le_one.mp h x

theorem cnt_pos {l : List Nat} {x : Nat} (h : x ∈ l) : 0 < l.count x :=
  List.count_pos_iff.mpr h

theorem cnt_zero {l : List Nat} {x : Nat} (h : x ∉ l) : l.count x = 0 :=
  List.count_eq_zero.mpr h

theorem not_mem_of_cnt {l : List Nat} {x : Nat} (h : l.count x = 0) : x ∉ l :=
  List.count_eq_zero.mp h

theorem mem_of_cnt {l : List Nat} {x : Nat} (h : 0 < l.count x) : x ∈ l :=
  List.count_pos_iff.mp h

theorem nodup_of_cnt {l : List Nat} (h : ∀ x, l.count x ≤ 1) : l.Nodup :=
  List.nodup_iff_count_le_one.mpr h

theorem ne_of_cnt {a x : Nat} (h : [a].count x = 0) : x ≠ a := by
  intro e; subst e; simp at h

/-- Specification of the first pass. -/
theorem pass1_spec : ∀ (fuel : Nat) (m : Mem) (rest : PTree) (list : Ptr)
    (L : List (Nat × PTree)),
    rest.addrs.length ≤ fuel → ChainU m rest → ListRep m list L →
    (rest.addrs ++ lAddrs L).Nodup →
    ∃ m2 l2, pass1 fuel m rest.ptr rest.nextPtr list = some (m2, l2) ∧
      ListRep m2 l2 (pass1T m.key rest L) ∧ m2.key = m.key ∧ m2.data = m.data ∧
      AgreeOff m m2 (rest.addrs ++ lAddrs L) := by
  intro fuel
  induction fuel with
  | zero =>
    intro m rest list L hf hc hl hnd
    cases rest with
    | nil =>
      exact ⟨m, list, by simp [pass1, PTree.ptr, PTree.nextPtr], by simpa [pass1T] using hl,
        rfl, rfl, fun x _ => ⟨rfl, rfl, rfl⟩⟩
    | node a c n => simp [PTree.addrs] at hf
  | succ fuel ih =>
    intro m rest list L hf hc hl hnd
    match rest, hf, hc, hnd with
    | .nil, _, _, _ =>
      exact ⟨m, list, by simp [pass1, PTree.ptr, PTree.nextPtr], by simpa [pass1T] using hl,
        rfl, rfl, fun x _ => ⟨rfl, rfl, rfl⟩⟩
    | .node a ca .nil, _, hc, hnd =>
      have hne : ∀ y, y ∈ ca.addrs ++ lAddrs L → y ≠ a := by
        intro y hy
        have h1 := cnt_le_one hnd y
        have h2 := cnt_pos hy
        apply ne_of_cnt
        simp only [PTree.addrs, List.count_append, List.count_cons, List.count_nil] at h1 h2 ⊢
        omega
      refine ⟨m.setNext a list, some a, by simp [pass1, PTree.ptr, PTree.nextPtr], ?_, rfl, rfl,
        ?_⟩
      · refine ⟨rfl, ?_, ?_⟩
        · refine TreeAt_congr (m := m) rfl (fun y hy => ⟨rfl, ?_, rfl⟩) hc.1
          simp [hne y (by simp [hy])]
        · simp only [next_setNext, if_true]
          refine ListRep_congr (m := m) L list (fun y hy => ⟨rfl, ?_, rfl⟩) hl
          simp [hne y (by simp [hy])]
      · intro x hx
        have : x ≠ a := fun e => hx (by simp [PTree.addrs, e])
        simp [this]
    | .node a ca (.node b cb rest2), hf, hc, hnd =>
      obtain ⟨hta, _, hrb⟩ := hc
      have htb : TreeAt m b cb := TreeAt_of_Rep hrb
      have hnd2 : (a :: b :: (ca.addrs ++ cb.addrs)).Nodup := by
        apply nodup_of_cnt; intro x
        have h1 := cnt_le_one hnd x
        simp only [PTree.addrs, List.count_append, List.count_cons, List.count_nil] at h1 ⊢
        omega
      obtain ⟨hm2, hrep, hkey, hdata, hframe⟩ := merge_spec hta htb hnd2
      have hperm := linkT_perm m.key a b ca cb
      simp only [pass1, PTree.ptr, PTree.nextPtr]
      generalize merge m (some a) (some b) = mr at hm2 hrep hkey hdata hframe
      obtain ⟨m1, r1⟩ := mr
      simp only at hm2 hrep hkey hdata hframe
      subst hm2
      simp only []
      generalize hr : (linkT m.key a ca b cb).1 = r at hrep hperm
      generalize hk : (linkT m.key a ca b cb).2 = k at hrep hperm
      have hlk : linkT m.key a ca b cb = (r, k) := by rw [← hr, ← hk]
      have hnext_b : m.next b = rest2.ptr := hrb.2.2.1
      have hoff : AgreeOff m (m1.setNext r list) (a :: b :: (ca.addrs ++ cb.addrs)) := by
        intro x hx
        have hxr : x ≠ r := by
          have h1 := hperm.count_eq x
          have h2 := cnt_zero hx
          apply ne_of_cnt
          simp only [List.count_append, List.count_cons, List.count_nil] at h1 h2 ⊢
          omega
        simp only [List.mem_cons, List.mem_append, not_or] at hx
        have := hframe x hx.1 hx.2.1 hx.2.2.1 hx.2.2.2
        simp [hxr, this]
      have hrest2 : ChainU (m1.setNext r list) rest2 := by
        refine ChainU_congr (fun x hx => hoff x ?_) (ChainU_of_Rep hrb.2.2.2.2)
        have h1 := cnt_le_one hnd x
        have h2 := cnt_pos hx
        apply not_mem_of_cnt
        simp only [PTree.addrs, List.count_append, List.count_cons, List.count_nil] at h1 h2 ⊢
        omega
      have hL : ListRep (m1.setNext r list) (some r) ((r, k) :: L) := by
        refine ⟨rfl, ?_, ?_⟩
        · have hnr : (r :: k.addrs).Nodup := hperm.nodup_iff.mpr hnd2
          refine TreeAt_congr (m := m1) rfl (fun y hy => ⟨rfl, ?_, rfl⟩) (TreeAt_of_Rep hrep)
          have : y ≠ r := fun e => (List.nodup_cons.mp hnr).1 (e ▸ hy)
          simp [this]
        · simp only [next_setNext, if_true]
          refine ListRep_congr L list (fun x hx => hoff x ?_) hl
          have h1 := cnt_le_one hnd x
          have h2 := cnt_pos hx
          apply not_mem_of_cnt
          simp only [PTree.addrs, List.count_append, List.count_cons, List.count_nil] at h1 h2 ⊢
          omega
      have hnxt : nextOf (m1.setNext r list) rest2.ptr = rest2.nextPtr := by
        cases hrest : rest2 with
        | nil => simp [PTree.ptr, PTree.nextPtr, nextOf]
        | node c cc cn =>
          simp only [PTree.ptr, PTree.nextPtr, nextOf]
          have := hrest2
          rw [hrest] at this
          exact this.2.1
      rw [hnext_b, hnxt]
      have hnd3 : (rest2.addrs ++ lAddrs ((r, k) :: L)).Nodup := by
        apply nodup_of_cnt; intro x
        have h1 := cnt_le_one hnd x
        have h2 := hperm.count_eq x
        simp only [PTree.addrs, lAddrs, List.count_append, List.count_cons,
          List.count_nil] at h1 h2 ⊢
        omega
      have hlen : rest2.addrs.length ≤ fuel := by
        simp only [PTree.addrs, List.length_cons, List.length_append] at hf
        omega
      obtain ⟨m3, l3, he, hl3, hk3, hd3, hf3⟩ := ih (m1.setNext r list) rest2 (some r)
        ((r, k) :: L) hlen hrest2 hL hnd3
      refine ⟨m3, l3, he, ?_, ?_, ?_, ?_⟩
      · have hkk : (m1.setNext r list).key = m.key := by simp [hkey]
        rw [hkk] at hl3
        simpa [pass1T, hlk] using hl3
      · rw [hk3]; simp [hkey]
      · rw [hd3]; simp [hdata]
      · intro x hx
        have hx0 := cnt_zero hx
        have hp := hperm.count_eq x
        have hx1 : x ∉ a :: b :: (ca.addrs ++ cb.addrs) := by
          apply not_mem_of_cnt
          simp only [PTree.addrs, List.count_append, List.count_cons, List.count_nil] at hx0 ⊢
          omega
        have hx2 : x ∉ rest2.addrs ++ lAddrs ((r, k) :: L) := by
          apply not_mem_of_cnt
          simp only [PTree.addrs, lAddrs, List.count_append, List.count_cons,
            List.count_nil] at hx0 hp ⊢
          omega
        have h1 := hoff x hx1
        have h2 := hf3 x hx2
        exact ⟨h2.1.trans h1.1, h2.2.1.trans h1.2.1, h2.2.2.trans h1.2.2⟩

/-- Specification of the second pass. -/
theorem pass2_spec : ∀ (L : List (Nat × PTree)) (fuel : Nat) (m : Mem) (x : Nat × PTree),
    L.length ≤ fuel → ListRep m (some x.1) (x :: L) → (lAddrs (x :: L)).Nodup →
    ∃ m2, pass2 fuel m x.1 = some (m2, (pass2T m.key x L).1) ∧
      TreeAt m2 (pass2T m.key x L).1 (pass2T m.key x L).2 ∧
      m2.key = m.key ∧ m2.data = m.data ∧ AgreeOff m m2 (lAddrs (x :: L)) := by
  intro L
  induction L with
  | nil =>
    intro fuel m x _ hl _
    have hn : m.next x.1 = none := hl.2.2
    refine ⟨m, ?_, hl.2.1, rfl, rfl, fun y _ => ⟨rfl, rfl, rfl⟩⟩
    unfold pass2
    simp [hn, pass2T]
  | cons y L ih =>
    intro fuel m x hf hl hnd
    obtain ⟨_, htx, hl2⟩ := hl
    obtain ⟨hny, hty, hl3⟩ := hl2
    cases fuel with
    | zero => simp at hf
    | succ fuel =>
      have hnd2 : (x.1 :: y.1 :: (x.2.addrs ++ y.2.addrs)).Nodup := by
        apply nodup_of_cnt; intro z
        have h1 := cnt_le_one hnd z
        simp only [lAddrs, List.count_append, List.count_cons, List.count_nil] at h1 ⊢
        omega
      obtain ⟨hm2, hrep, hkey, hdata, hframe⟩ := merge_spec htx hty hnd2
      have hperm := linkT_perm m.key x.1 y.1 x.2 y.2
      unfold pass2
      simp only [hny]
      generalize merge m (some x.1) (some y.1) = mr at hm2 hrep hkey hdata hframe
      obtain ⟨m1, r1⟩ := mr
      simp only at hm2 hrep hkey hdata hframe
      subst hm2
      simp only []
      generalize hlk : linkT m.key x.1 x.2 y.1 y.2 = rk at hrep hperm
      have hoff : AgreeOff m (m1.setNext rk.1 (m.next y.1))
          (x.1 :: y.1 :: (x.2.addrs ++ y.2.addrs)) := by
        intro z hz
        have hzr : z ≠ rk.1 := by
          have h1 := hperm.count_eq z
          have h2 := cnt_zero hz
          apply ne_of_cnt
          simp only [List.count_append, List.count_cons, List.count_nil] at h1 h2 ⊢
          omega
        simp only [List.mem_cons, List.mem_append, not_or] at hz
        have := hframe z hz.1 hz.2.1 hz.2.2.1 hz.2.2.2
        simp [hzr, this]
      have hL : ListRep (m1.setNext rk.1 (m.next y.1)) (some rk.1) (rk :: L) := by
        refine ⟨rfl, ?_, ?_⟩
        · have hnr : (rk.1 :: rk.2.addrs).Nodup := hperm.nodup_iff.mpr hnd2
          refine TreeAt_congr (m := m1) rfl (fun z hz => ⟨rfl, ?_, rfl⟩) (TreeAt_of_Rep hrep)
          have : z ≠ rk.1 := fun e => (List.nodup_cons.mp hnr).1 (e ▸ hz)
          simp [this]
        · simp only [next_setNext, if_true]
          refine ListRep_congr L _ (fun z hz => hoff z ?_) hl3
          have h1 := cnt_le_one hnd z
          have h2 := cnt_pos hz
          apply not_mem_of_cnt
          simp only [lAddrs, List.count_append, List.count_cons, List.count_nil] at h1 h2 ⊢
          omega
      have hnd3 : (lAddrs (rk :: L)).Nodup := by
        apply nodup_of_cnt; intro z
        have h1 := cnt_le_one hnd z
        have h2 := hperm.count_eq z
        simp only [lAddrs, List.count_append, List.count_cons, List.count_nil] at h1 h2 ⊢
        omega
      obtain ⟨m3, he, ht3, hk3, hd3, hf3⟩ := ih fuel (m1.setNext rk.1 (m.next y.1)) rk
        (by simpa using hf) hL hnd3
      have hkk : (m1.setNext rk.1 (m.next y.1)).key = m.key := by simp [hkey]
      rw [hkk] at he ht3
      refine ⟨m3, ?_, ?_, ?_, ?_, ?_⟩
      · simpa [pass2T, hlk] using he
      · simpa [pass2T, hlk] using ht3
      · rw [hk3]; simp [hkey]
      · rw [hd3]; simp [hdata]
      · intro z hz
        have hz0 := cnt_zero hz
        have hp := hperm.count_eq z
        have hz1 : z ∉ x.1 :: y.1 :: (x.2.addrs ++ y.2.addrs) := by
          apply not_mem_of_cnt
          simp only [lAddrs, List.count_append, List.count_cons, List.count_nil] at hz0 ⊢
          omega
        have hz2 : z ∉ lAddrs (rk :: L) := by
          apply not_mem_of_cnt
          simp only [lAddrs, List.count_append, List.count_cons, List.count_nil] at hz0 hp ⊢
          omega
        have h1 := hoff z hz1
        have h2 := hf3 z hz2
        exact ⟨h2.1.trans h1.1, h2.2.1.trans h1.2.1, h2.2.2.trans h1.2.2⟩

/-! ### Ghost-level facts about the two passes -/

/-- Every rooted tree of the list is heap ordered. -/
def LOrd (m : Mem) (L : List (Nat × PTree)) : Prop :=
  ∀ x ∈ L, Ord m (.node x.1 x.2 .nil)

theorem pass1T_perm (key : Nat → Int) : ∀ (t : PTree) (L : List (Nat × PTree)),
    (lAddrs (pass1T key t L)).Perm (t.addrs ++ lAddrs L)
  | .nil, L => by simp [pass1T, PTree.addrs]
  | .node a ca .nil, L => by simp [pass1T, PTree.addrs, lAddrs]
  | .node a ca (.node b cb rest), L => by
    have ih := pass1T_perm key rest (linkT key a ca b cb :: L)
    simp only [pass1T]
    refine ih.trans ?_
    rw [List.perm_iff_count]; intro x
    have hp := (linkT_perm key a b ca cb).count_eq x
    simp only [PTree.addrs, lAddrs, List.count_append, List.count_cons, List.count_nil] at hp ⊢
    omega

theorem pass1T_ord (m : Mem) : ∀ (t : PTree) (L : List (Nat × PTree)),
    Ord m t → LOrd m L → LOrd m (pass1T m.key t L)
  | .nil, L, _, hl => by simpa [pass1T] using hl
  | .node a ca .nil, L, ho, hl => by
    intro x hx
    simp only [pass1T, List.mem_cons] at hx
    rcases hx with rfl | hx
    · exact ⟨ho.1, ho.2.1, trivial⟩
    · exact hl x hx
  | .node a ca (.node b cb rest), L, ho, hl => by
    simp only [pass1T]
    refine pass1T_ord m rest _ ho.2.2.2.2 ?_
    intro x hx
    simp only [List.mem_cons] at hx
    rcases hx with rfl | hx
    · exact linkT_ord ⟨ho.1, ho.2.1, trivial⟩ ⟨ho.2.2.1, ho.2.2.2.1, trivial⟩
    · exact hl x hx

theorem pass2T_perm (key : Nat → Int) : ∀ (L : List (Nat × PTree)) (x : Nat × PTree),
    ((pass2T key x L).1 :: (pass2T key x L).2.addrs).Perm (lAddrs (x :: L))
  | [], x => by simp [pass2T, lAddrs]
  | y :: L, x => by
    have ih := pass2T_perm key L (linkT key x.1 x.2 y.1 y.2)
    simp only [pass2T]
    refine ih.trans ?_
    rw [List.perm_iff_count]; intro z
    have hp := (linkT_perm key x.1 y.1 x.2 y.2).count_eq z
    simp only [lAddrs, List.count_append, List.count_cons, List.count_nil] at hp ⊢
    omega

theorem pass2T_ord (m : Mem) : ∀ (L : List (Nat × PTree)) (x : Nat × PTree),
    LOrd m (x :: L) → Ord m (.node (pass2T m.key x L).1 (pass2T m.key x L).2 .nil)
  | [], x, hl => by simpa [pass2T] using hl x (by simp)
  | y :: L, x, hl => by
    simp only [pass2T]
    refine pass2T_ord m L _ ?_
    intro z hz
    simp only [List.mem_cons] at hz
    rcases hz with rfl | hz
    · exact linkT_ord (hl x (by simp)) (hl y (by simp))
    · exact hl z (by simp [hz])

theorem meldT_nil (key : Nat → Int) : meldT key .nil = none := by
  simp [meldT, pass1T]

theorem meldT_node (key : Nat → Int) (a : Nat) (c n : PTree) :
    ∃ rk, meldT key (.node a c n) = some rk ∧
      (rk.1 :: rk.2.addrs).Perm (PTree.node a c n).addrs := by
  have hp := pass1T_perm key (.node a c n) []
  unfold meldT
  cases hL : pass1T key (.node a c n) [] with
  | nil =>
    rw [hL] at hp
    have := hp.length_eq
    simp [lAddrs, PTree.addrs] at this
  | cons x L =>
    rw [hL] at hp
    refine ⟨pass2T key x L, rfl, (pass2T_perm key L x).trans ?_⟩
    simpa [lAddrs] using hp

theorem meldT_ord (m : Mem) (t : PTree) (ho : Ord m t) (rk : Nat × PTree)
    (h : meldT m.key t = some rk) : Ord m (.node rk.1 rk.2 .nil) := by
  unfold meldT at h
  have hl := pass1T_ord m t [] ho (fun x hx => by simp at hx)
  cases hL : pass1T m.key t [] with
  | nil => rw [hL] at h; simp at h
  | cons x L =>
    rw [hL] at h hl
    simp only [Option.some.injEq] at h
    subst h
    exact pass2T_ord m L x hl

theorem length_le_lAddrs : ∀ (L : List (Nat × PTree)), L.length ≤ (lAddrs L).length
  | [] => by simp [lAddrs]
  | x :: L => by
    have := length_le_lAddrs L
    simp only [lAddrs, List.length_cons, List.length_append]
    omega

/-- Specification of `two_pass_merge` on a node whose children are laid out as `c`. -/
theorem two_pass_merge_spec {m : Mem} {r : Nat} {c : PTree} {fuel : Nat}
    (ht : TreeAt m r c) (hnd : (r :: c.addrs).Nodup) (hf : c.addrs.length ≤ fuel) :
    ∃ m2 p, two_pass_merge fuel m (some r) = some (m2, p) ∧
      m2.key = m.key ∧ m2.data = m.data ∧
      m2.child r = none ∧ m2.prev r = m.prev r ∧ m2.next r = m.next r ∧
      AgreeOff m m2 (r :: c.addrs) ∧
      (c = .nil → m2 = m) ∧
      match meldT m.key c with
      | none => p = none
      | some rk => p = some rk.1 ∧ Rep m2 none (.node rk.1 rk.2 .nil) := by
  cases c with
  | nil =>
    have hc : m.child r = none := ht.1
    refine ⟨m, none, by simp [two_pass_merge, hc], rfl, rfl, hc, rfl, rfl,
      fun x _ => ⟨rfl, rfl, rfl⟩, fun _ => rfl, ?_⟩
    simp [meldT_nil]
  | node a ca n =>
    have hc : m.child r = some a := ht.1
    have hra : ∀ y ∈ (PTree.node a ca n).addrs, y ≠ r := by
      intro y hy e
      exact (List.nodup_cons.mp hnd).1 (e ▸ hy)
    have hndc : (PTree.node a ca n).addrs.Nodup := (List.nodup_cons.mp hnd).2
    -- after `root->child = NULL`
    have hag1 : Agree m (m.setChild r none) (PTree.node a ca n).addrs := by
      intro y hy
      simp [hra y hy]
    have hch : ChainU (m.setChild r none) (.node a ca n) :=
      ChainU_congr hag1 (ChainU_of_Rep ht.2)
    have hnx : (m.setChild r none).next a = (PTree.node a ca n).nextPtr :=
      ChainU_next hch rfl
    obtain ⟨m3, l3, he1, hl3, hk3, hd3, hf3⟩ := pass1_spec fuel (m.setChild r none)
      (.node a ca n) none [] hf hch rfl (by simpa [lAddrs] using hndc)
    have hp1 := pass1T_perm m.key (.node a ca n) []
    simp only [key_setChild] at hl3 hk3
    simp only [data_setChild] at hd3
    simp only [lAddrs, List.append_nil] at hf3 hp1
    unfold meldT
    cases hL : pass1T m.key (.node a ca n) [] with
    | nil =>
      rw [hL] at hp1
      have := hp1.length_eq
      simp [lAddrs, PTree.addrs] at this
    | cons x L =>
      rw [hL] at hp1 hl3
      have hl3p : l3 = some x.1 := hl3.1
      subst hl3p
      have hlen : L.length ≤ fuel := by
        have h1 := length_le_lAddrs (x :: L)
        have h2 := hp1.length_eq
        simp only [List.length_cons] at h1
        omega
      have hnd3 : (lAddrs (x :: L)).Nodup := hp1.nodup_iff.mpr hndc
      obtain ⟨m4, he2, ht4, hk4, hd4, hf4⟩ := pass2_spec L fuel m3 x hlen hl3 hnd3
      rw [hk3] at he2 ht4
      have hp2 := pass2T_perm m.key L x
      dsimp only
      generalize pass2T m.key x L = rk at he2 ht4 hp2 ⊢
      have hperm : (rk.1 :: rk.2.addrs).Perm (PTree.node a ca n).addrs := hp2.trans hp1
      have hnr : (rk.1 :: rk.2.addrs).Nodup := hperm.nodup_iff.mpr hndc
      have hrk : rk.1 ≠ r := hra rk.1 (hperm.mem_iff.mp (by simp))
      have hoff : ∀ y, y ∉ (PTree.node a ca n).addrs →
          m4.prev y = (m.setChild r none).prev y ∧ m4.next y = (m.setChild r none).next y ∧
          m4.child y = (m.setChild r none).child y := by
        intro y hy
        have h1 := hf3 y hy
        have h2 := hf4 y (fun e => hy (hp1.mem_iff.mp e))
        exact ⟨h2.1.trans h1.1, h2.2.1.trans h1.2.1, h2.2.2.trans h1.2.2⟩
      have hr4 := hoff r (fun e => hra r e rfl)
      refine ⟨(m4.setPrev rk.1 none).setNext rk.1 none, some rk.1, ?_, ?_, ?_, ?_, ?_, ?_, ?_,
        ?_, ?_⟩
      · have he1b : pass1 fuel (m.setChild r none) (some a) n.ptr none = some (m3, some x.1) :=
          he1
        simp only [two_pass_merge, hc, hnx, PTree.nextPtr, he1b, he2]
      · simp [hk4, hk3]
      · simp [hd4, hd3]
      · simp [hr4.2.2]
      · simp [Ne.symm hrk, hr4.1]
      · simp [Ne.symm hrk, hr4.2.1]
      · intro y hy
        simp only [List.mem_cons, not_or] at hy
        have hyk : y ≠ rk.1 := fun e => hy.2 (hperm.mem_iff.mp (by simp [e]))
        have := hoff y hy.2
        simp [hyk, this, hy.1]
      · intro e; cases e
      · refine ⟨rfl, ?_, ?_, ?_, ?_, trivial⟩
        · simp
        · simpa using ht4.1
        · simp [PTree.ptr]
        · refine Rep_congr (m := m4) rk.2 (some rk.1) (fun y hy => ?_) ht4.2
          have : y ≠ rk.1 := fun e => (List.nodup_cons.mp hnr).1 (e ▸ hy)
          simp [this]

/-! ### Splicing a node out: `remove_siblings` -/

/-- The sibling list `t` with node `x` (and its subtree) spliced out. -/
def PTree.cut (x : Nat) : PTree → PTree
  | .nil => .nil
  | .node a c n => if a = x then n else .node a (c.cut x) (n.cut x)

/-- The children of node `x` inside `t`. -/
def PTree.kids (x : Nat) : PTree → PTree
  | .nil => .nil
  | .node a c n => if a = x then c else if x ∈ c.addrs then c.kids x else n.kids x

theorem PTree.cut_not_mem (x : Nat) : ∀ (t : PTree), x ∉ t.addrs → t.cut x = t
  | .nil, _ => rfl
  | .node a c n, h => by
    simp only [PTree.addrs, List.mem_cons, List.mem_append, not_or] at h
    simp [PTree.cut, Ne.symm h.1, PTree.cut_not_mem x c h.2.1, PTree.cut_not_mem x n h.2.2]

theorem PTree.cut_ptr (x : Nat) (t : PTree) (h : t.ptr ≠ some x) : (t.cut x).ptr = t.ptr := by
  cases t with
  | nil => rfl
  | node a c n =>
    have : a ≠ x := fun e => h (by simp [PTree.ptr, e])
    simp [PTree.cut, this, PTree.ptr]

theorem PTree.cut_kids_count (x : Nat) : ∀ (t : PTree), t.addrs.Nodup → x ∈ t.addrs →
    ∀ z, t.addrs.count z = [x].count z + (t.kids x).addrs.count z + (t.cut x).addrs.count z
  | .nil, _, h => by simp [PTree.addrs] at h
  | .node a c n, hnd, hx => by
    intro z
    by_cases hax : a = x
    · subst hax
      simp only [PTree.cut, PTree.kids, if_true, PTree.addrs, List.count_cons, List.count_append,
        List.count_nil]
      omega
    · have hc : c.addrs.Nodup := by
        apply nodup_of_cnt; intro y
        have h1 := cnt_le_one hnd y
        simp only [PTree.addrs, List.count_append, List.count_cons] at h1
        omega
      have hn : n.addrs.Nodup := by
        apply nodup_of_cnt; intro y
        have h1 := cnt_le_one hnd y
        simp only [PTree.addrs, List.count_append, List.count_cons] at h1
        omega
      by_cases hxc : x ∈ c.addrs
      · have hxn : x ∉ n.addrs := by
          have h1 := cnt_le_one hnd x
          have h2 := cnt_pos hxc
          apply not_mem_of_cnt
          simp only [PTree.addrs, List.count_append, List.count_cons] at h1
          omega
        have ih := PTree.cut_kids_count x c hc hxc z
        simp only [PTree.cut, PTree.kids, hax, if_false, hxc, if_true, PTree.addrs,
          List.count_cons, List.count_append, List.count_nil, PTree.cut_not_mem x n hxn] at ih ⊢
        omega
      · have hxn : x ∈ n.addrs := by
          simp only [PTree.addrs, List.mem_cons, List.mem_append] at hx
          rcases hx with e | e | e
          · exact absurd e.symm hax
          · exact absurd e hxc
          · exact e
        have ih := PTree.cut_kids_count x n hn hxn z
        simp only [PTree.cut, PTree.kids, hax, if_false, hxc, PTree.addrs,
          List.count_cons, List.count_append, List.count_nil, PTree.cut_not_mem x c hxc] at ih ⊢
        omega

/-- Outcome of `remove_siblings` on the first child `x` of `a`. -/
theorem remove_siblings_first {m : Mem} {x a : Nat} (hp : m.prev x = some a)
    (hc : m.child a = some x) :
    ∃ m2, remove_siblings m x = some m2 ∧ m2.key = m.key ∧ m2.data = m.data ∧
      (∀ z, m2.child z = if z = a then m.next x else m.child z) ∧
      (∀ z, m2.next z = if z = x then none else m.next z) ∧
      (∀ z, m2.prev z = if z = x then none else if m.next x = some z then some a
        else m.prev z) := by
  unfold remove_siblings
  simp only [hp, hc, if_true]
  cases hn : m.next x with
  | none =>
    refine ⟨_, rfl, ?_, ?_, ?_, ?_, ?_⟩ <;> simp [hn]
  | some y =>
    refine ⟨_, rfl, ?_, ?_, ?_, ?_, ?_⟩
    · simp [hn]
    · simp [hn]
    · simp [hn]
    · simp [hn]
    · intro z
      simp only [next_setChild, hn, prev_setPrev, prev_setNext, prev_setChild, hp]
      by_cases hzx : z = x
      · simp [hzx]
      · by_cases hzy : z = y
        · simp [hzx, hzy]
        · have : ¬ y = z := fun e => hzy e.symm
          simp [hzx, hzy, this]

/-- Outcome of `remove_siblings` on a node `x` whose left sibling is `a`. -/
theorem remove_siblings_next {m : Mem} {x a : Nat} (hp : m.prev x = some a)
    (hc : m.child a ≠ some x) (hax : a ≠ x) :
    ∃ m2, remove_siblings m x = some m2 ∧ m2.key = m.key ∧ m2.data = m.data ∧
      (∀ z, m2.child z = m.child z) ∧
      (∀ z, m2.next z = if z = x then none else if z = a then m.next x else m.next z) ∧
      (∀ z, m2.prev z = if z = x then none else if m.next x = some z then some a
        else m.prev z) := by
  unfold remove_siblings
  simp only [hp, hc, if_false]
  have hxa : x ≠ a := Ne.symm hax
  cases hn : m.next x with
  | none =>
    refine ⟨_, rfl, ?_, ?_, ?_, ?_, ?_⟩ <;> simp [hn, hxa]
  | some y =>
    refine ⟨_, rfl, ?_, ?_, ?_, ?_, ?_⟩
    · simp [hn, hxa]
    · simp [hn, hxa]
    · simp [hn, hxa]
    · simp [hn, hxa]
    · intro z
      simp only [next_setNext, hxa, if_false, hn, prev_setPrev, prev_setNext, hp]
      by_cases hzx : z = x
      · simp [hzx]
      · by_cases hzy : z = y
        · simp [hzx, hzy]
        · have : ¬ y = z := fun e => hzy e.symm
          simp [hzx, hzy, this]

theorem PTree.ptr_ne_of_not_mem {t : PTree} {z : Nat} (h : z ∉ t.addrs) : t.ptr ≠ some z :=
  fun e => h (PTree.ptr_mem e)

/-- Splicing out the first child `x` of `a`. -/
theorem remove_siblings_child {m : Mem} {pv : Ptr} {a x : Nat} {cx nx n : PTree}
    (hr : Rep m pv (.node a (.node x cx nx) n))
    (hnd : (PTree.node a (.node x cx nx) n).addrs.Nodup) :
    ∃ m2, remove_siblings m x = some m2 ∧ m2.key = m.key ∧ m2.data = m.data ∧
      Rep m2 pv (.node a nx n) ∧ TreeAt m2 x cx ∧ m2.prev x = none ∧ m2.next x = none ∧
      AgreeOff m m2 (PTree.node a (.node x cx nx) n).addrs := by
  obtain ⟨hpa, hca, hna, hrc, hrn⟩ := hr
  obtain ⟨hpx, hcx, hnx, hrcx, hrnx⟩ := hrc
  obtain ⟨m2, he, hk, hd, hch, hnxt, hprv⟩ := remove_siblings_first hpx hca
  have hax : a ≠ x := by
    have h1 := cnt_le_one hnd a
    intro e; subst e
    simp only [PTree.addrs, List.count_append, List.count_cons, beq_self_eq_true,
      if_true] at h1
    omega
  -- disequalities for members of the parts
  have hcxm : ∀ z ∈ cx.addrs, z ≠ a ∧ z ≠ x ∧ z ∉ nx.addrs := by
    intro z hz
    have h1 := cnt_le_one hnd z
    have h2 := cnt_pos hz
    refine ⟨ne_of_cnt ?_, ne_of_cnt ?_, not_mem_of_cnt ?_⟩ <;>
    · simp only [PTree.addrs, List.count_append, List.count_cons, List.count_nil] at h1 ⊢
      omega
  have hnxm : ∀ z ∈ nx.addrs, z ≠ a ∧ z ≠ x := by
    intro z hz
    have h1 := cnt_le_one hnd z
    have h2 := cnt_pos hz
    refine ⟨ne_of_cnt ?_, ne_of_cnt ?_⟩ <;>
    · simp only [PTree.addrs, List.count_append, List.count_cons, List.count_nil] at h1 ⊢
      omega
  have hnm : ∀ z ∈ n.addrs, z ≠ a ∧ z ≠ x ∧ z ∉ nx.addrs := by
    intro z hz
    have h1 := cnt_le_one hnd z
    have h2 := cnt_pos hz
    refine ⟨ne_of_cnt ?_, ne_of_cnt ?_, not_mem_of_cnt ?_⟩ <;>
    · simp only [PTree.addrs, List.count_append, List.count_cons, List.count_nil] at h1 ⊢
      omega
  have hanx : a ∉ nx.addrs := by
    have h1 := cnt_le_one hnd a
    apply not_mem_of_cnt
    simp only [PTree.addrs, List.count_append, List.count_cons, beq_self_eq_true,
      if_true] at h1
    omega
  have hndnx : nx.addrs.Nodup := by
    apply nodup_of_cnt; intro z
    have h1 := cnt_le_one hnd z
    simp only [PTree.addrs, List.count_append, List.count_cons] at h1
    omega
  refine ⟨m2, he, hk, hd, ⟨?_, ?_, ?_, ?_, ?_⟩, ⟨?_, ?_⟩, ?_, ?_, ?_⟩
  · rw [hprv, hnx]; simp [hax, PTree.ptr_ne_of_not_mem hanx, hpa]
  · rw [hch, hnx]; simp
  · rw [hnxt]; simp [hax, hna]
  · refine Rep_rehead hndnx (fun z hz => ?_) (fun z hz hne => ?_) (fun z hz => ?_) hrnx
    · rw [hprv, hnx]; simp [(hnxm z (PTree.ptr_mem hz)).2, hz]
    · rw [hprv, hnx]; simp [(hnxm z hz).2, hne]
    · rw [hnxt, hch]; simp [(hnxm z hz).1, (hnxm z hz).2]
  · refine Rep_congr n (some a) (fun z hz => ?_) hrn
    rw [hprv, hnxt, hch, hnx]
    simp [(hnm z hz).1, (hnm z hz).2.1, PTree.ptr_ne_of_not_mem (hnm z hz).2.2]
  · rw [hch]; simp [Ne.symm hax, hcx]
  · refine Rep_congr cx (some x) (fun z hz => ?_) hrcx
    rw [hprv, hnxt, hch, hnx]
    simp [(hcxm z hz).1, (hcxm z hz).2.1, PTree.ptr_ne_of_not_mem (hcxm z hz).2.2]
  · rw [hprv]; simp
  · rw [hnxt]; simp
  · intro z hz
    simp only [PTree.addrs, List.mem_cons, List.mem_append, not_or] at hz
    rw [hprv, hnxt, hch, hnx]
    simp [hz.1, hz.2.1.1, PTree.ptr_ne_of_not_mem hz.2.1.2.2]

/-- Splicing out the right neighbour `x` of `a`. -/
theorem remove_siblings_right {m : Mem} {pv : Ptr} {a x : Nat} {c cx nx : PTree}
    (hr : Rep m pv (.node a c (.node x cx nx)))
    (hnd : (PTree.node a c (.node x cx nx)).addrs.Nodup) :
    ∃ m2, remove_siblings m x = some m2 ∧ m2.key = m.key ∧ m2.data = m.data ∧
      Rep m2 pv (.node a c nx) ∧ TreeAt m2 x cx ∧ m2.prev x = none ∧ m2.next x = none ∧
      AgreeOff m m2 (PTree.node a c (.node x cx nx)).addrs := by
  obtain ⟨hpa, hca, hna, hrc, hrn⟩ := hr
  obtain ⟨hpx, hcx, hnx, hrcx, hrnx⟩ := hrn
  have hax : a ≠ x := by
    have h1 := cnt_le_one hnd a
    intro e; subst e
    simp only [PTree.addrs, List.count_append, List.count_cons, beq_self_eq_true,
      if_true] at h1
    omega
  have hxc : x ∉ c.addrs := by
    have h1 := cnt_le_one hnd x
    apply not_mem_of_cnt
    simp only [PTree.addrs, List.count_append, List.count_cons, beq_self_eq_true,
      if_true] at h1
    omega
  have hcax : m.child a ≠ some x := by rw [hca]; exact PTree.ptr_ne_of_not_mem hxc
  obtain ⟨m2, he, hk, hd, hch, hnxt, hprv⟩ := remove_siblings_next hpx hcax hax
  have hcxm : ∀ z ∈ cx.addrs, z ≠ a ∧ z ≠ x ∧ z ∉ nx.addrs := by
    intro z hz
    have h1 := cnt_le_one hnd z
    have h2 := cnt_pos hz
    refine ⟨ne_of_cnt ?_, ne_of_cnt ?_, not_mem_of_cnt ?_⟩ <;>
    · simp only [PTree.addrs, List.count_append, List.count_cons, List.count_nil] at h1 ⊢
      omega
  have hnxm : ∀ z ∈ nx.addrs, z ≠ a ∧ z ≠ x := by
    intro z hz
    have h1 := cnt_le_one hnd z
    have h2 := cnt_pos hz
    refine ⟨ne_of_cnt ?_, ne_of_cnt ?_⟩ <;>
    · simp only [PTree.addrs, List.count_append, List.count_cons, List.count_nil] at h1 ⊢
      omega
  have hcm : ∀ z ∈ c.addrs, z ≠ a ∧ z ≠ x ∧ z ∉ nx.addrs := by
    intro z hz
    have h1 := cnt_le_one hnd z
    have h2 := cnt_pos hz
    refine ⟨ne_of_cnt ?_, ne_of_cnt ?_, not_mem_of_cnt ?_⟩ <;>
    · simp only [PTree.addrs, List.count_append, List.count_cons, List.count_nil] at h1 ⊢
      omega
  have hanx : a ∉ nx.addrs := by
    have h1 := cnt_le_one hnd a
    apply not_mem_of_cnt
    simp only [PTree.addrs, List.count_append, List.count_cons, beq_self_eq_true,
      if_true] at h1
    omega
  have hndnx : nx.addrs.Nodup := by
    apply nodup_of_cnt; intro z
    have h1 := cnt_le_one hnd z
    simp only [PTree.addrs, List.count_append, List.count_cons] at h1
    omega
  refine ⟨m2, he, hk, hd, ⟨?_, ?_, ?_, ?_, ?_⟩, ⟨?_, ?_⟩, ?_, ?_, ?_⟩
  · rw [hprv, hnx]; simp [hax, PTree.ptr_ne_of_not_mem hanx, hpa]
  · rw [hch, hca]
  · rw [hnxt, hnx]; simp [hax]
  · refine Rep_congr c (some a) (fun z hz => ?_) hrc
    rw [hprv, hnxt, hch, hnx]
    simp [(hcm z hz).1, (hcm z hz).2.1, PTree.ptr_ne_of_not_mem (hcm z hz).2.2]
  · refine Rep_rehead hndnx (fun z hz => ?_) (fun z hz hne => ?_) (fun z hz => ?_) hrnx
    · rw [hprv, hnx]; simp [(hnxm z (PTree.ptr_mem hz)).2, hz]
    · rw [hprv, hnx]; simp [(hnxm z hz).2, hne]
    · rw [hnxt, hch]; simp [(hnxm z hz).1, (hnxm z hz).2]
  · rw [hch, hcx]
  · refine Rep_congr cx (some x) (fun z hz => ?_) hrcx
    rw [hprv, hnxt, hch, hnx]
    simp [(hcxm z hz).1, (hcxm z hz).2.1, PTree.ptr_ne_of_not_mem (hcxm z hz).2.2]
  · rw [hprv]; simp
  · rw [hnxt]; simp
  · intro z hz
    simp only [PTree.addrs, List.mem_cons, List.mem_append, not_or] at hz
    rw [hprv, hnxt, hch, hnx]
    simp [hz.1, hz.2.2.1, PTree.ptr_ne_of_not_mem hz.2.2.2.2]

/-- Specification of `remove_siblings` for a node `x` that is not the head of `t`. -/
theorem remove_siblings_spec {m : Mem} {x : Nat} : ∀ (t : PTree) (pv : Ptr),
    Rep m pv t → t.addrs.Nodup → x ∈ t.addrs → t.ptr ≠ some x →
    ∃ m2, remove_siblings m x = some m2 ∧ m2.key = m.key ∧ m2.data = m.data ∧
      Rep m2 pv (t.cut x) ∧ TreeAt m2 x (t.kids x) ∧ m2.prev x = none ∧ m2.next x = none ∧
      AgreeOff m m2 t.addrs
  | .nil, _, _, _, hx, _ => by simp [PTree.addrs] at hx
  | .node a c n, pv, hr, hnd, hx, hp => by
    have hax : a ≠ x := fun e => hp (by simp [PTree.ptr, e])
    have hndc : c.addrs.Nodup := by
      apply nodup_of_cnt; intro y
      have h1 := cnt_le_one hnd y
      simp only [PTree.addrs, List.count_append, List.count_cons] at h1
      omega
    have hndn : n.addrs.Nodup := by
      apply nodup_of_cnt; intro y
      have h1 := cnt_le_one hnd y
      simp only [PTree.addrs, List.count_append, List.count_cons] at h1
      omega
    by_cases hxc : x ∈ c.addrs
    · have hxn : x ∉ n.addrs := by
        have h1 := cnt_le_one hnd x
        have h2 := cnt_pos hxc
        apply not_mem_of_cnt
        simp only [PTree.addrs, List.count_append, List.count_cons] at h1
        omega
      have hcut : (PTree.node a c n).cut x = .node a (c.cut x) n := by
        simp [PTree.cut, hax, PTree.cut_not_mem x n hxn]
      have hkids : (PTree.node a c n).kids x = c.kids x := by
        simp [PTree.kids, hax, hxc]
      rw [hcut, hkids]
      by_cases hcp : c.ptr = some x
      · -- x is the first child of a
        cases c with
        | nil => simp [PTree.ptr] at hcp
        | node x2 cx nx =>
          simp only [PTree.ptr, Option.some.injEq] at hcp
          subst hcp
          have := remove_siblings_child hr hnd
          simpa [PTree.cut, PTree.kids] using this
      · obtain ⟨hpa, hca, hna, hrc, hrn⟩ := hr
        obtain ⟨m2, he, hk, hd, hrep, hta, hpx, hnx, hoff⟩ :=
          remove_siblings_spec c (some a) hrc hndc hxc hcp
        have hac : a ∉ c.addrs := by
          have h1 := cnt_le_one hnd a
          apply not_mem_of_cnt
          simp only [PTree.addrs, List.count_append, List.count_cons, beq_self_eq_true,
            if_true] at h1
          omega
        have ha := hoff a hac
        refine ⟨m2, he, hk, hd, ⟨?_, ?_, ?_, hrep, ?_⟩, hta, hpx, hnx, ?_⟩
        · rw [ha.1, hpa]
        · rw [ha.2.2, hca, PTree.cut_ptr x c hcp]
        · rw [ha.2.1, hna]
        · refine Rep_congr n (some a) (fun z hz => hoff z ?_) hrn
          have h1 := cnt_le_one hnd z
          have h2 := cnt_pos hz
          apply not_mem_of_cnt
          simp only [PTree.addrs, List.count_append, List.count_cons] at h1
          omega
        · exact hoff.mono (fun z hz => by simp [PTree.addrs, hz])
    · have hxn : x ∈ n.addrs := by
        simp only [PTree.addrs, List.mem_cons, List.mem_append] at hx
        rcases hx with e | e | e
        · exact absurd e.symm hax
        · exact absurd e hxc
        · exact e
      have hcut : (PTree.node a c n).cut x = .node a c (n.cut x) := by
        simp [PTree.cut, hax, PTree.cut_not_mem x c hxc]
      have hkids : (PTree.node a c n).kids x = n.kids x := by
        simp [PTree.kids, hax, hxc]
      rw [hcut, hkids]
      by_cases hnp : n.ptr = some x
      · cases n with
        | nil => simp [PTree.ptr] at hnp
        | node x2 cx nx =>
          simp only [PTree.ptr, Option.some.injEq] at hnp
          subst hnp
          have := remove_siblings_right hr hnd
          simpa [PTree.cut, PTree.kids] using this
      · obtain ⟨hpa, hca, hna, hrc, hrn⟩ := hr
        obtain ⟨m2, he, hk, hd, hrep, hta, hpx, hnx, hoff⟩ :=
          remove_siblings_spec n (some a) hrn hndn hxn hnp
        have han : a ∉ n.addrs := by
          have h1 := cnt_le_one hnd a
          apply not_mem_of_cnt
          simp only [PTree.addrs, List.count_append, List.count_cons, beq_self_eq_true,
            if_true] at h1
          omega
        have ha := hoff a han
        refine ⟨m2, he, hk, hd, ⟨?_, ?_, ?_, ?_, hrep⟩, hta, hpx, hnx, ?_⟩
        · rw [ha.1, hpa]
        · rw [ha.2.2, hca]
        · rw [ha.2.1, hna, PTree.cut_ptr x n hnp]
        · refine Rep_congr c (some a) (fun z hz => hoff z ?_) hrc
          have h1 := cnt_le_one hnd z
          have h2 := cnt_pos hz
          apply not_mem_of_cnt
          simp only [PTree.addrs, List.count_append, List.count_cons] at h1
          omega
        · exact hoff.mono (fun z hz => by simp [PTree.addrs, hz])

/-! ### Heap order under splicing -/

theorem chainGe_cut {m : Mem} {k : Int} (x : Nat) : ∀ (t : PTree),
    chainGe m k t → chainGe m k (t.cut x)
  | .nil, _ => trivial
  | .node a c n, h => by
    by_cases hax : a = x
    · simp only [PTree.cut, hax, if_true]; exact h.2
    · simp only [PTree.cut, hax, if_false]; exact ⟨h.1, chainGe_cut x n h.2⟩

theorem Ord_cut {m : Mem} (x : Nat) : ∀ (t : PTree), Ord m t → Ord m (t.cut x)
  | .nil, _ => trivial
  | .node a c n, h => by
    by_cases hax : a = x
    · simp only [PTree.cut, hax, if_true]; exact h.2.2
    · simp only [PTree.cut, hax, if_false]
      exact ⟨chainGe_cut x c h.1, Ord_cut x c h.2.1, Ord_cut x n h.2.2⟩

/-- The children of `x` are heap ordered and bounded below by the key of `x`. -/
theorem Ord_kids {m : Mem} (x : Nat) : ∀ (t : PTree), Ord m t → x ∈ t.addrs →
    chainGe m (m.key x) (t.kids x) ∧ Ord m (t.kids x)
  | .nil, _, hx => by simp [PTree.addrs] at hx
  | .node a c n, h, hx => by
    by_cases hax : a = x
    · subst hax
      simp only [PTree.kids, if_true]; exact ⟨h.1, h.2.1⟩
    · by_cases hxc : x ∈ c.addrs
      · simp only [PTree.kids, hax, if_false, hxc, if_true]
        exact Ord_kids x c h.2.1 hxc
      · have hxn : x ∈ n.addrs := by
          simp only [PTree.addrs, List.mem_cons, List.mem_append] at hx
          rcases hx with e | e | e
          · exact absurd e.symm hax
          · exact absurd e hxc
          · exact e
        simp only [PTree.kids, hax, if_false, hxc]
        exact Ord_kids x n h.2.2 hxn

/-! ### The heap operations preserve well-formedness -/

/-- The ghost tree left by `heap_remove_min`. -/
def meldTree (key : Nat → Int) (c : PTree) : PTree :=
  match meldT key c with
  | none => .nil
  | some rk => .node rk.1 rk.2 .nil

theorem meldTree_top (key : Nat → Int) (c : PTree) :
    meldTree key c = .nil ∨ ∃ a k, meldTree key c = .node a k .nil := by
  unfold meldTree
  cases meldT key c with
  | none => exact Or.inl rfl
  | some rk => exact Or.inr ⟨rk.1, rk.2, rfl⟩

theorem meldTree_perm (key : Nat → Int) (c : PTree) :
    (meldTree key c).addrs.Perm c.addrs := by
  unfold meldTree
  cases c with
  | nil => simp [meldT_nil, PTree.addrs]
  | node a ca n =>
    obtain ⟨rk, h1, h2⟩ := meldT_node key a ca n
    rw [h1]
    simpa [PTree.addrs] using h2

theorem meldTree_ord (m : Mem) (c : PTree) (ho : Ord m c) : Ord m (meldTree m.key c) := by
  unfold meldTree
  cases h : meldT m.key c with
  | none => trivial
  | some rk => exact meldT_ord m c ho rk h

/-- The ghost tree after inserting the fresh node `n` (with its key already stored). -/
def insertTree (key : Nat → Int) (t : PTree) (n : Nat) : PTree :=
  match t with
  | .nil => .node n .nil .nil
  | .node r c _ => .node (linkT key r c n .nil).1 (linkT key r c n .nil).2 .nil

/-- Core of both insert functions: initialise node `n` and merge it with the root. -/
theorem insert_core {h : Heap} {t : PTree} (w : WF h t) (n : Nat) (k : Int)
    (d : Option Nat) (hn : n ∉ t.addrs) :
    let m1 := ((((h.mem.setKey n k).setData n d).setChild n none).setNext n none).setPrev n none
    let r := merge m1 h.root (some n)
    WF { h with mem := r.1, root := r.2, size := h.size + 1 } (insertTree m1.key t n) ∧
    (insertTree m1.key t n).addrs.Perm (n :: t.addrs) ∧
    r.1.key = m1.key ∧ r.1.data = m1.data := by
  intro m1 r
  have hag : Agree h.mem m1 t.addrs := by
    intro x hx
    have : x ≠ n := fun e => hn (e ▸ hx)
    simp [m1, this]
  have hkeys : ∀ x ∈ t.addrs, m1.key x = h.mem.key x := by
    intro x hx
    have : x ≠ n := fun e => hn (e ▸ hx)
    simp [m1, this]
  have hrep1 : Rep m1 none t := Rep_congr t none hag w.rep
  have hord1 : Ord m1 t := Ord_congr t hkeys w.ord
  rcases w.top with ht | ⟨a, c, ht⟩
  · subst ht
    have hroot : h.root = none := w.root
    have hr : r = (m1, some n) := by simp [r, hroot, merge]
    rw [hr]
    refine ⟨⟨rfl, Or.inr ⟨n, .nil, rfl⟩, ?_, ?_, ?_, ?_⟩, ?_, rfl, rfl⟩
    · simp [insertTree, Rep, m1, PTree.ptr]
    · simp [insertTree, PTree.addrs]
    · simp [insertTree, Ord, chainGe]
    · simp [insertTree, PTree.addrs, w.size]
    · simp [insertTree, PTree.addrs]
  · subst ht
    have hroot : h.root = some a := w.root
    have hta : TreeAt m1 a c := TreeAt_of_Rep hrep1
    have htn : TreeAt m1 n .nil := by
      refine ⟨?_, trivial⟩
      simp [m1, PTree.ptr]
    have hnd : (a :: n :: (c.addrs ++ PTree.nil.addrs)).Nodup := by
      apply nodup_of_cnt; intro x
      have h1 := cnt_le_one w.nodup x
      have h2 : (PTree.node a c .nil).addrs.count n = 0 := cnt_zero hn
      by_cases hxn : x = n
      · subst hxn
        simp only [PTree.addrs, List.count_append, List.count_cons, List.count_nil,
          beq_self_eq_true, if_true] at h2 ⊢
        omega
      · have : [n].count x = 0 := by simp [List.count_cons, Ne.symm hxn]
        simp only [PTree.addrs, List.count_append, List.count_cons, List.count_nil] at h1 this ⊢
        omega
    obtain ⟨hm2, hrep, hkey, hdata, _⟩ := merge_spec hta htn hnd
    have hperm := linkT_perm m1.key a n c .nil
    have hr : r = merge m1 (some a) (some n) := by simp [r, hroot]
    rw [hr]
    refine ⟨⟨?_, Or.inr ⟨_, _, rfl⟩, ?_, ?_, ?_, ?_⟩, ?_, hkey, hdata⟩
    · simpa [insertTree, PTree.ptr] using hm2
    · simpa [insertTree] using hrep
    · simpa [insertTree, PTree.addrs] using hperm.nodup_iff.mpr hnd
    · have := @linkT_ord m1 a n c .nil
        ⟨hord1.1, hord1.2.1, trivial⟩ ⟨trivial, trivial, trivial⟩
      simp only [insertTree]
      exact Ord_congr _ (fun x _ => by rw [hkey]) this
    · have := hperm.length_eq
      simp only [insertTree, PTree.addrs, List.length_cons, List.length_append,
        List.length_nil, w.size] at this ⊢
      push_cast
      omega
    · simp only [insertTree, PTree.addrs, List.append_nil]
      refine hperm.trans ?_
      simp only [PTree.addrs, List.append_nil]
      exact List.Perm.swap n a _

/-- `heap_intrusive_insert` of a node that is not in the heap keeps it well formed. -/
theorem heap_intrusive_insert_wf {h : Heap} {t : PTree} (w : WF h t) (hi : h.intrusive = true)
    (n : Nat) (k : Int) (d : Option Nat) (hn : n ∉ t.addrs) :
    ∃ h2 t2, heap_intrusive_insert h n k d = some h2 ∧ WF h2 t2 ∧
      t2.addrs.Perm (n :: t.addrs) ∧ h2.intrusive = h.intrusive ∧
      (∀ x, h2.mem.key x = if x = n then k else h.mem.key x) ∧
      (∀ x, h2.mem.data x = if x = n then d else h.mem.data x) := by
  obtain ⟨hw, hp, hk, hd⟩ := insert_core w n k d hn
  refine ⟨_, _, by simp only [heap_intrusive_insert, hi]; rfl, hw, hp, rfl, ?_, ?_⟩
  · intro x; simp only [hk]; simp
  · intro x; simp only [hd]; simp

/-- `heap_dynamic_insert` with a fresh node keeps the heap well formed. -/
theorem heap_dynamic_insert_wf {h : Heap} {t : PTree} (w : WF h t) (hi : h.intrusive = false)
    (n : Nat) (k : Int) (d : Option Nat) (hn : n ∉ t.addrs) :
    ∃ h2 t2, heap_dynamic_insert h n k d = some (h2, n) ∧ WF h2 t2 ∧
      t2.addrs.Perm (n :: t.addrs) ∧ h2.intrusive = h.intrusive ∧
      (∀ x, h2.mem.key x = if x = n then k else h.mem.key x) ∧
      (∀ x, h2.mem.data x = if x = n then d else h.mem.data x) := by
  obtain ⟨hw, hp, hk, hd⟩ := insert_core w n k d hn
  refine ⟨_, _, by simp only [heap_dynamic_insert, hi]; rfl, hw, hp, rfl, ?_, ?_⟩
  · intro x; simp only [hk]; simp
  · intro x; simp only [hd]; simp

/-- In a well-formed heap the root carries a minimum key. -/
theorem WF.root_min {h : Heap} {a : Nat} {c : PTree} (w : WF h (.node a c .nil)) :
    ∀ x ∈ (PTree.node a c .nil).addrs, h.mem.key a ≤ h.mem.key x := by
  intro x hx
  simp only [PTree.addrs, List.mem_cons, List.mem_append, List.not_mem_nil, or_false] at hx
  rcases hx with rfl | hx
  · exact le_refl _
  · exact Ord_lower_bound c w.ord.2.1 w.ord.1 x hx

/-- `heap_remove_min` on a well-formed non-empty heap returns the root and leaves a
well-formed heap on the remaining nodes. -/
theorem heap_remove_min_wf {h : Heap} {a : Nat} {c : PTree} {fuel : Nat}
    (w : WF h (.node a c .nil)) (hf : c.addrs.length ≤ fuel) :
    ∃ h2, heap_remove_min fuel h = some (some a, h2) ∧
      WF h2 (meldTree h.mem.key c) ∧ h2.intrusive = h.intrusive ∧
      h2.mem.key = h.mem.key ∧ h2.mem.data = h.mem.data ∧ h2.size = h.size - 1 ∧
      AgreeOff h.mem h2.mem (a :: c.addrs) := by
  have hroot : h.root = some a := w.root
  have hsz : h.size ≠ 0 := by
    rw [w.size]; simp only [PTree.addrs, List.length_cons]; push_cast; omega
  have hta : TreeAt h.mem a c := TreeAt_of_Rep w.rep
  have hnd : (a :: c.addrs).Nodup := by simpa [PTree.addrs] using w.nodup
  obtain ⟨m2, p, he, hk, hd, _, _, _, hoff, _, hm⟩ := two_pass_merge_spec hta hnd hf
  refine ⟨{ h with mem := m2, root := p, size := h.size - 1 }, ?_, ?_, rfl, hk, hd, rfl, hoff⟩
  · simp only [heap_remove_min, hsz, if_false, hroot, he]
  · have hperm := meldTree_perm h.mem.key c
    have hord := meldTree_ord h.mem c w.ord.2.1
    refine ⟨?_, meldTree_top _ _, ?_, ?_, ?_, ?_⟩
    · unfold meldTree
      cases hmt : meldT h.mem.key c with
      | none => rw [hmt] at hm; simpa [PTree.ptr] using hm
      | some rk => rw [hmt] at hm; simpa [PTree.ptr] using hm.1
    · unfold meldTree
      cases hmt : meldT h.mem.key c with
      | none => trivial
      | some rk => rw [hmt] at hm; exact hm.2
    · exact hperm.nodup_iff.mpr (List.nodup_cons.mp hnd).2
    · exact Ord_congr _ (fun x _ => by simp only [hk]) hord
    · have := hperm.length_eq
      simp only [w.size, PTree.addrs, List.length_cons, List.length_append, List.length_nil,
        this]
      push_cast
      omega

theorem remove_siblings_prev {m m2 : Mem} {n : Nat} (h : remove_siblings m n = some m2) :
    ∃ p, m.prev n = some p := by
  unfold remove_siblings at h
  cases hp : m.prev n with
  | none => rw [hp] at h; simp at h
  | some p => exact ⟨p, rfl⟩

/-- The ghost tree after `heap_decrease_key` on node `n`. -/
def decreaseTree (key : Nat → Int) (t : PTree) (n : Nat) : PTree :=
  match t with
  | .nil => .nil
  | .node a c _ =>
    if a = n then .node a c .nil
    else .node (linkT key a (c.cut n) n (c.kids n)).1 (linkT key a (c.cut n) n (c.kids n)).2 .nil

/-- `heap_decrease_key` on a node of the heap, with a key that is not larger, keeps the
heap well formed on the same nodes. -/
theorem heap_decrease_key_wf {h : Heap} {t : PTree} {n : Nat} {k : Int} (w : WF h t)
    (hn : n ∈ t.addrs) (hk : k ≤ h.mem.key n) :
    ∃ h2 t2, heap_decrease_key h n k = some h2 ∧ WF h2 t2 ∧ t2.addrs.Perm t.addrs ∧
      h2.intrusive = h.intrusive ∧ h2.size = h.size ∧
      (∀ x, h2.mem.key x = if x = n then k else h.mem.key x) ∧
      h2.mem.data = h.mem.data := by
  rcases w.top with ht | ⟨a, c, ht⟩
  · subst ht; simp [PTree.addrs] at hn
  subst ht
  have hroot : h.root = some a := w.root
  have hnd : (a :: c.addrs).Nodup := by simpa [PTree.addrs] using w.nodup
  have hac : a ∉ c.addrs := (List.nodup_cons.mp hnd).1
  have hndc : c.addrs.Nodup := (List.nodup_cons.mp hnd).2
  have hrep1 : Rep (h.mem.setKey n k) none (.node a c .nil) :=
    Rep_congr (m := h.mem) _ none (fun x _ => ⟨rfl, rfl, rfl⟩) w.rep
  by_cases han : a = n
  · subst han
    have hp : (h.mem.setKey a k).prev a = none := w.rep.1
    refine ⟨{ h with mem := h.mem.setKey a k }, .node a c .nil, ?_, ?_, List.Perm.refl _, rfl,
      rfl, fun x => rfl, rfl⟩
    · simp only [heap_decrease_key, hp]
    · refine ⟨hroot, Or.inr ⟨a, c, rfl⟩, hrep1, w.nodup, ?_, w.size⟩
      have hkc : ∀ x ∈ c.addrs, (h.mem.setKey a k).key x = h.mem.key x := by
        intro x hx
        have : x ≠ a := fun e => hac (e ▸ hx)
        simp [this]
      refine ⟨?_, Ord_congr c hkc w.ord.2.1, trivial⟩
      have : (h.mem.setKey a k).key a = k := by simp
      rw [this]
      exact chainGe_congr c hkc (chainGe_mono hk c w.ord.1)
  · have hnc : n ∈ c.addrs := by
      simp only [PTree.addrs, List.mem_cons, List.mem_append, List.not_mem_nil, or_false] at hn
      rcases hn with e | e
      · exact absurd e.symm han
      · exact e
    obtain ⟨m2, he, hk2, hd2, hrep2, htn, _, _, _⟩ :=
      remove_siblings_spec (m := h.mem.setKey n k) (x := n) (.node a c .nil) none hrep1 w.nodup hn
        (by simp [PTree.ptr, han])
    have hcut : (PTree.node a c .nil).cut n = .node a (c.cut n) .nil := by
      simp [PTree.cut, han]
    have hkids : (PTree.node a c .nil).kids n = c.kids n := by
      simp [PTree.kids, han, hnc]
    rw [hcut] at hrep2
    rw [hkids] at htn
    have hta : TreeAt m2 a (c.cut n) := TreeAt_of_Rep hrep2
    have hcnt := PTree.cut_kids_count n c hndc hnc
    have hnd2 : (a :: n :: ((c.cut n).addrs ++ (c.kids n).addrs)).Nodup := by
      apply nodup_of_cnt; intro x
      have h1 := cnt_le_one hnd x
      have h2 := hcnt x
      simp only [List.count_append, List.count_cons, List.count_nil] at h1 h2 ⊢
      omega
    obtain ⟨hm3, hrep3, hk3, hd3, _⟩ := merge_spec hta htn hnd2
    have hperm := linkT_perm m2.key a n (c.cut n) (c.kids n)
    obtain ⟨p, hp⟩ := remove_siblings_prev he
    have hkey2 : m2.key = (h.mem.setKey n k).key := hk2
    refine ⟨{ h with mem := (merge m2 h.root (some n)).1, root := (merge m2 h.root (some n)).2 },
      .node (linkT m2.key a (c.cut n) n (c.kids n)).1 (linkT m2.key a (c.cut n) n (c.kids n)).2
        .nil, ?_, ?_, ?_, rfl, rfl, ?_, ?_⟩
    · simp only [heap_decrease_key, hp, he]
    · rw [hroot]
      refine ⟨by simpa [PTree.ptr] using hm3, Or.inr ⟨_, _, rfl⟩, hrep3, ?_, ?_, ?_⟩
      · simpa [PTree.addrs] using hperm.nodup_iff.mpr hnd2
      · -- heap order
        have hkc : ∀ x ∈ c.addrs, x ≠ n → m2.key x = h.mem.key x := by
          intro x _ hx
          rw [hkey2]; simp [hx]
        have hcutm : ∀ x ∈ (c.cut n).addrs, x ∈ c.addrs ∧ x ≠ n := by
          intro x hx
          have h1 := cnt_le_one hndc x
          have h2 := hcnt x
          have h3 := cnt_pos hx
          refine ⟨mem_of_cnt (by omega), ne_of_cnt (by omega)⟩
        have hkidsm : ∀ x ∈ (c.kids n).addrs, x ∈ c.addrs ∧ x ≠ n := by
          intro x hx
          have h1 := cnt_le_one hndc x
          have h2 := hcnt x
          have h3 := cnt_pos hx
          refine ⟨mem_of_cnt (by omega), ne_of_cnt (by omega)⟩
        have ho1 : Ord m2 (.node a (c.cut n) .nil) := by
          have hka : m2.key a = h.mem.key a := by rw [hkey2]; simp [han]
          refine ⟨?_, ?_, trivial⟩
          · rw [hka]
            exact chainGe_congr _ (fun x hx => hkc x (hcutm x hx).1 (hcutm x hx).2)
              (chainGe_cut n c w.ord.1)
          · exact Ord_congr _ (fun x hx => hkc x (hcutm x hx).1 (hcutm x hx).2)
              (Ord_cut n c w.ord.2.1)
        have ho2 : Ord m2 (.node n (c.kids n) .nil) := by
          have hkn : m2.key n = k := by rw [hkey2]; simp
          have := Ord_kids n c w.ord.2.1 hnc
          refine ⟨?_, ?_, trivial⟩
          · rw [hkn]
            exact chainGe_congr _ (fun x hx => hkc x (hkidsm x hx).1 (hkidsm x hx).2)
              (chainGe_mono hk _ this.1)
          · exact Ord_congr _ (fun x hx => hkc x (hkidsm x hx).1 (hkidsm x hx).2) this.2
        exact Ord_congr _ (fun x _ => by rw [hk3]) (linkT_ord ho1 ho2)
      · have h1 := hperm.length_eq
        have h2 : c.addrs.length = 1 + (c.kids n).addrs.length + (c.cut n).addrs.length := by
          have e1 : c.addrs.Perm ([n] ++ (c.kids n).addrs ++ (c.cut n).addrs) := by
            rw [List.perm_iff_count]; intro x
            have := hcnt x
            simp only [List.count_append]
            omega
          have := e1.length_eq
          simp only [List.length_append, List.length_cons, List.length_nil] at this
          omega
        simp only [w.size, PTree.addrs, List.length_cons, List.length_append,
          List.length_nil] at h1 ⊢
        push_cast
        omega
    · rw [List.perm_iff_count]; intro x
      have h1 := hperm.count_eq x
      have h2 := hcnt x
      simp only [PTree.addrs, List.count_append, List.count_cons, List.count_nil] at h1 h2 ⊢
      omega
    · intro x
      rw [hroot]
      simp only [hk3, hkey2]
      simp
    · rw [hroot]
      simp only [hd3, hd2]
      simp

/-- `heap_delete` of a node of the heap leaves a well-formed heap on the other nodes. -/
theorem heap_delete_wf {h : Heap} {t : PTree} {n : Nat} {fuel : Nat} (w : WF h t)
    (hn : n ∈ t.addrs) (hf : t.addrs.length ≤ fuel) :
    ∃ h2 t2, heap_delete fuel h n = some h2 ∧ WF h2 t2 ∧ (n :: t2.addrs).Perm t.addrs ∧
      h2.intrusive = h.intrusive ∧ h2.size = h.size - 1 ∧
      h2.mem.key = h.mem.key ∧ h2.mem.data = h.mem.data := by
  rcases w.top with ht | ⟨a, c, ht⟩
  · subst ht; simp [PTree.addrs] at hn
  subst ht
  have hroot : h.root = some a := w.root
  have hnd : (a :: c.addrs).Nodup := by simpa [PTree.addrs] using w.nodup
  have hac : a ∉ c.addrs := (List.nodup_cons.mp hnd).1
  have hndc : c.addrs.Nodup := (List.nodup_cons.mp hnd).2
  have hfc : c.addrs.length ≤ fuel := by
    simp only [PTree.addrs, List.length_cons, List.length_append, List.length_nil] at hf
    omega
  by_cases han : a = n
  · subst han
    have hp : h.mem.prev a = none := w.rep.1
    obtain ⟨h2, he, hw, hi, hk, hd, hs, _⟩ := heap_remove_min_wf w hfc
    refine ⟨h2, _, ?_, hw, ?_, hi, hs, hk, hd⟩
    · simp only [heap_delete, hp, he]
    · simpa [PTree.addrs] using (meldTree_perm h.mem.key c).cons a
  · have hnc : n ∈ c.addrs := by
      simp only [PTree.addrs, List.mem_cons, List.mem_append, List.not_mem_nil, or_false] at hn
      rcases hn with e | e
      · exact absurd e.symm han
      · exact e
    obtain ⟨m1, he, hk1, hd1, hrep1, htn, _, _, _⟩ :=
      remove_siblings_spec (m := h.mem) (x := n) (.node a c .nil) none w.rep w.nodup hn
        (by simp [PTree.ptr, han])
    have hcut : (PTree.node a c .nil).cut n = .node a (c.cut n) .nil := by
      simp [PTree.cut, han]
    have hkids : (PTree.node a c .nil).kids n = c.kids n := by
      simp [PTree.kids, han, hnc]
    rw [hcut] at hrep1
    rw [hkids] at htn
    obtain ⟨p, hp⟩ := remove_siblings_prev he
    have hcnt := PTree.cut_kids_count n c hndc hnc
    have hndk : (n :: (c.kids n).addrs).Nodup := by
      apply nodup_of_cnt; intro x
      have h1 := cnt_le_one hndc x
      have h2 := hcnt x
      simp only [List.count_append, List.count_cons, List.count_nil] at h1 h2 ⊢
      omega
    have hfk : (c.kids n).addrs.length ≤ fuel := by
      have e1 : c.addrs.Perm ([n] ++ (c.kids n).addrs ++ (c.cut n).addrs) := by
        rw [List.perm_iff_count]; intro x
        have := hcnt x
        simp only [List.count_append]
        omega
      have := e1.length_eq
      simp only [List.length_append, List.length_cons, List.length_nil] at this
      omega
    have hlen : c.addrs.length = 1 + (c.kids n).addrs.length + (c.cut n).addrs.length := by
      have e1 : c.addrs.Perm ([n] ++ (c.kids n).addrs ++ (c.cut n).addrs) := by
        rw [List.perm_iff_count]; intro x
        have := hcnt x
        simp only [List.count_append]
        omega
      have := e1.length_eq
      simp only [List.length_append, List.length_cons, List.length_nil] at this
      omega
    obtain ⟨m2, q, he2, hk2, hd2, _, _, _, hoff, _, hm⟩ := two_pass_merge_spec htn hndk hfk
    rw [hk1] at hm
    -- the rest of the heap is untouched by the meld
    have hrep2 : Rep m2 none (.node a (c.cut n) .nil) := by
      refine Rep_congr _ none (fun x hx => hoff x ?_) hrep1
      have h1 := cnt_le_one hnd x
      have h2 := hcnt x
      have h3 := cnt_pos hx
      apply not_mem_of_cnt
      simp only [PTree.addrs, List.count_append, List.count_cons, List.count_nil] at h1 h2 h3 ⊢
      omega
    have hkey2 : m2.key = h.mem.key := by rw [hk2, hk1]
    have hcutm : ∀ x ∈ (c.cut n).addrs, x ∈ c.addrs := by
      intro x hx
      have h2 := hcnt x
      have h3 := cnt_pos hx
      exact mem_of_cnt (by omega)
    have ho1 : Ord m2 (.node a (c.cut n) .nil) := by
      refine Ord_congr (m := h.mem) _ (fun x _ => by rw [hkey2]) ?_
      exact ⟨chainGe_cut n c w.ord.1, Ord_cut n c w.ord.2.1, trivial⟩
    have hokids := Ord_kids n c w.ord.2.1 hnc
    cases hmt : meldT h.mem.key (c.kids n) with
    | none =>
      rw [hmt] at hm
      subst hm
      refine ⟨{ h with mem := m2, root := some a, size := h.size - 1 },
        .node a (c.cut n) .nil, ?_, ?_, ?_, rfl, rfl,
        hkey2, by rw [hd2, hd1]⟩
      · simp only [heap_delete, hp, he, he2, hroot, merge]
      · have hk0 : (c.kids n).addrs = [] := by
          cases hkk : c.kids n with
          | nil => rfl
          | node b cb nb =>
            obtain ⟨rk, h1, _⟩ := meldT_node h.mem.key b cb nb
            rw [hkk] at hmt
            rw [h1] at hmt
            cases hmt
        refine ⟨rfl, Or.inr ⟨_, _, rfl⟩, hrep2, ?_, ho1, ?_⟩
        · apply nodup_of_cnt; intro x
          have h1 := cnt_le_one hnd x
          have h2 := hcnt x
          simp only [PTree.addrs, List.count_append, List.count_cons, List.count_nil] at h1 h2 ⊢
          omega
        · simp only [w.size, PTree.addrs, List.length_cons, List.length_append,
            List.length_nil, hlen, hk0]
          push_cast
          omega
      · have hk0 : ∀ x, (c.kids n).addrs.count x = 0 := by
          cases hkk : c.kids n with
          | nil => intro x; simp [PTree.addrs]
          | node b cb nb =>
            obtain ⟨rk, h1, _⟩ := meldT_node h.mem.key b cb nb
            rw [hkk] at hmt
            rw [h1] at hmt
            cases hmt
        rw [List.perm_iff_count]; intro x
        have h2 := hcnt x
        have h3 := hk0 x
        simp only [PTree.addrs, List.count_append, List.count_cons, List.count_nil] at h2 ⊢
        omega
    | some rk =>
      rw [hmt] at hm
      obtain ⟨hq, hrepq⟩ := hm
      subst hq
      have hpk : (rk.1 :: rk.2.addrs).Perm (c.kids n).addrs := by
        cases hkk : c.kids n with
        | nil => rw [hkk, meldT_nil] at hmt; cases hmt
        | node b cb nb =>
          obtain ⟨rk2, h1, h2⟩ := meldT_node h.mem.key b cb nb
          rw [hkk, h1] at hmt
          cases hmt
          exact h2
      have hta : TreeAt m2 a (c.cut n) := TreeAt_of_Rep hrep2
      have htq : TreeAt m2 rk.1 rk.2 := TreeAt_of_Rep hrepq
      have hnd3 : (a :: rk.1 :: ((c.cut n).addrs ++ rk.2.addrs)).Nodup := by
        apply nodup_of_cnt; intro x
        have h1 := cnt_le_one hnd x
        have h2 := hcnt x
        have h3 := hpk.count_eq x
        simp only [List.count_append, List.count_cons, List.count_nil] at h1 h2 h3 ⊢
        omega
      obtain ⟨hm3, hrep3, hk3, hd3, _⟩ := merge_spec hta htq hnd3
      have hperm := linkT_perm m2.key a rk.1 (c.cut n) rk.2
      rw [hkey2] at hperm hm3 hrep3
      refine ⟨{ h with mem := (merge m2 h.root (some rk.1)).1,
                       root := (merge m2 h.root (some rk.1)).2, size := h.size - 1 },
        .node (linkT h.mem.key a (c.cut n) rk.1 rk.2).1
          (linkT h.mem.key a (c.cut n) rk.1 rk.2).2 .nil, ?_, ?_, ?_, rfl, rfl, ?_, ?_⟩
      · simp only [heap_delete, hp, he, he2]
      · rw [hroot]
        refine ⟨by simpa [PTree.ptr] using hm3, Or.inr ⟨_, _, rfl⟩, hrep3, ?_, ?_, ?_⟩
        · simpa [PTree.addrs] using hperm.nodup_iff.mpr hnd3
        · have ho2 : Ord m2 (.node rk.1 rk.2 .nil) := by
            refine Ord_congr (m := h.mem) _ (fun x _ => by rw [hkey2]) ?_
            exact meldT_ord h.mem (c.kids n) hokids.2 rk hmt
          have := linkT_ord ho1 ho2
          rw [hkey2] at this
          exact Ord_congr _ (fun x _ => by rw [hk3]) this
        · have h1 := hperm.length_eq
          have h2 := hpk.length_eq
          simp only [w.size, PTree.addrs, List.length_cons, List.length_append,
            List.length_nil] at h1 h2 ⊢
          push_cast
          omega
      · rw [List.perm_iff_count]; intro x
        have h1 := hperm.count_eq x
        have h2 := hcnt x
        have h3 := hpk.count_eq x
        simp only [PTree.addrs, List.count_append, List.count_cons, List.count_nil] at h1 h2 h3 ⊢
        omega
      · rw [hroot]; simp only [hk3, hkey2]
      · rw [hroot]; simp only [hd3, hd2, hd1]

/-! ### More fuel never changes a result -/

theorem pass1_fuel_succ : ∀ (fuel : Nat) (m : Mem) (node next list : Ptr) (r : Mem × Ptr),
    pass1 fuel m node next list = some r → pass1 (fuel + 1) m node next list = some r := by
  intro fuel
  induction fuel with
  | zero =>
    intro m node next list r h
    cases next with
    | none => cases node <;> simpa [pass1] using h
    | some nx => simp [pass1] at h
  | succ fuel ih =>
    intro m node next list r h
    cases next with
    | none => cases node <;> simpa [pass1] using h
    | some nx =>
      simp only [pass1] at h ⊢
      generalize merge m node (some nx) = mr at h ⊢
      obtain ⟨m1, r1⟩ := mr
      cases r1 with
      | none => simp at h
      | some r1 => exact ih _ _ _ _ _ h

theorem pass1_fuel_le {fuel fuel2 : Nat} (hle : fuel ≤ fuel2) {m : Mem} {node next list : Ptr}
    {r : Mem × Ptr} (h : pass1 fuel m node next list = some r) :
    pass1 fuel2 m node next list = some r := by
  induction hle with
  | refl => exact h
  | step _ ih => exact pass1_fuel_succ _ _ _ _ _ _ ih

theorem pass2_fuel_succ : ∀ (fuel : Nat) (m : Mem) (list : Nat) (r : Mem × Nat),
    pass2 fuel m list = some r → pass2 (fuel + 1) m list = some r := by
  intro fuel
  induction fuel with
  | zero =>
    intro m list r h
    unfold pass2 at h ⊢
    cases hn : m.next list with
    | none => simpa [hn] using h
    | some nx => simp [hn] at h
  | succ fuel ih =>
    intro m list r h
    unfold pass2 at h ⊢
    cases hn : m.next list with
    | none => simpa [hn] using h
    | some nx =>
      simp only [hn] at h ⊢
      generalize merge m (some list) (some nx) = mr at h ⊢
      obtain ⟨m1, r1⟩ := mr
      cases r1 with
      | none => simp at h
      | some r1 => exact ih _ _ _ h

theorem pass2_fuel_le {fuel fuel2 : Nat} (hle : fuel ≤ fuel2) {m : Mem} {list : Nat}
    {r : Mem × Nat} (h : pass2 fuel m list = some r) : pass2 fuel2 m list = some r := by
  induction hle with
  | refl => exact h
  | step _ ih => exact pass2_fuel_succ _ _ _ _ ih

theorem two_pass_merge_fuel_le {fuel fuel2 : Nat} (hle : fuel ≤ fuel2) {m : Mem} {root : Ptr}
    {r : Mem × Ptr} (h : two_pass_merge fuel m root = some r) :
    two_pass_merge fuel2 m root = some r := by
  unfold two_pass_merge at h ⊢
  cases root with
  | none => exact h
  | some a =>
    simp only at h ⊢
    cases hc : m.child a with
    | none => simpa [hc] using h
    | some c =>
      simp only [hc, next_setChild] at h ⊢
      cases h1 : pass1 fuel (m.setChild a none) (some c) (m.next c) none with
      | none => simp [h1] at h
      | some r1 =>
        rw [pass1_fuel_le hle h1]
        rw [h1] at h
        obtain ⟨m3, l⟩ := r1
        cases l with
        | none => simp at h
        | some l =>
          simp only at h ⊢
          cases h2 : pass2 fuel m3 l with
          | none => simp [h2] at h
          | some r2 =>
            rw [pass2_fuel_le hle h2]
            rw [h2] at h
            exact h

theorem heap_remove_min_fuel_le {fuel fuel2 : Nat} (hle : fuel ≤ fuel2) {h : Heap}
    {r : Ptr × Heap} (he : heap_remove_min fuel h = some r) :
    heap_remove_min fuel2 h = some r := by
  unfold heap_remove_min at he ⊢
  by_cases hs : h.size = 0
  · simpa [hs] using he
  · simp only [hs, if_false] at he ⊢
    cases h1 : two_pass_merge fuel h.mem h.root with
    | none => simp [h1] at he
    | some r1 =>
      rw [two_pass_merge_fuel_le hle h1]
      rw [h1] at he
      exact he

theorem heap_delete_fuel_le {fuel fuel2 : Nat} (hle : fuel ≤ fuel2) {h : Heap} {n : Nat}
    {r : Heap} (he : heap_delete fuel h n = some r) : heap_delete fuel2 h n = some r := by
  unfold heap_delete at he ⊢
  cases hp : h.mem.prev n with
  | none =>
    simp only [hp] at he ⊢
    cases h1 : heap_remove_min fuel h with
    | none => simp [h1] at he
    | some r1 =>
      rw [heap_remove_min_fuel_le hle h1]
      rw [h1] at he
      exact he
  | some p =>
    simp only [hp] at he ⊢
    cases h0 : remove_siblings h.mem n with
    | none => simp [h0] at he
    | some m1 =>
      simp only [h0] at he ⊢
      cases h1 : two_pass_merge fuel m1 (some n) with
      | none => simp [h1] at he
      | some r1 =>
        rw [two_pass_merge_fuel_le hle h1]
        rw [h1] at he
        exact he

/-! ### Heaps built by the operations -/

/-- The heaps that arise from `new_heap` by inserting nodes that are not in the heap,
decreasing keys of nodes in the heap (never raising them), deleting nodes of the heap and
extracting the minimum. -/
inductive HeapReach : Heap → Prop where
  | new (m : Mem) (intrusive : Bool) : HeapReach (new_heap m intrusive)
  | intrusive_insert {h h2 : Heap} (n : Nat) (k : Int) (d : Option Nat) :
      HeapReach h → ¬ InHeap h n → heap_intrusive_insert h n k d = some h2 → HeapReach h2
  | dynamic_insert {h h2 : Heap} (n : Nat) (k : Int) (d : Option Nat) :
      HeapReach h → ¬ InHeap h n → heap_dynamic_insert h n k d = some (h2, n) → HeapReach h2
  | decrease_key {h h2 : Heap} (n : Nat) (k : Int) :
      HeapReach h → InHeap h n → k ≤ h.mem.key n → heap_decrease_key h n k = some h2 →
      HeapReach h2
  | delete {h h2 : Heap} (fuel n : Nat) :
      HeapReach h → InHeap h n → heap_delete fuel h n = some h2 → HeapReach h2
  | remove_min {h h2 : Heap} (fuel : Nat) (p : Ptr) :
      HeapReach h → heap_remove_min fuel h = some (p, h2) → HeapReach h2

theorem new_heap_wf (m : Mem) (intrusive : Bool) : WF (new_heap m intrusive) .nil :=
  ⟨rfl, Or.inl rfl, trivial, by simp [PTree.addrs], trivial, by simp [new_heap, PTree.addrs]⟩

/-- Every heap built by the operations is well formed. -/
theorem HeapReach.wf {h : Heap} (hr : HeapReach h) : ∃ t, WF h t := by
  induction hr with
  | new m i => exact ⟨.nil, new_heap_wf m i⟩
  | @intrusive_insert h h2 n k d _ hn he ih =>
    obtain ⟨t, w⟩ := ih
    have hi : h.intrusive = true := by
      unfold heap_intrusive_insert at he
      cases hb : h.intrusive with
      | true => rfl
      | false => simp [hb] at he
    obtain ⟨h3, t3, he3, w3, _⟩ := heap_intrusive_insert_wf w hi n k d
      (fun e => hn ((w.inHeap_iff n).mpr e))
    rw [he] at he3
    cases he3
    exact ⟨t3, w3⟩
  | @dynamic_insert h h2 n k d _ hn he ih =>
    obtain ⟨t, w⟩ := ih
    have hi : h.intrusive = false := by
      unfold heap_dynamic_insert at he
      cases hb : h.intrusive with
      | false => rfl
      | true => simp [hb] at he
    obtain ⟨h3, t3, he3, w3, _⟩ := heap_dynamic_insert_wf w hi n k d
      (fun e => hn ((w.inHeap_iff n).mpr e))
    rw [he] at he3
    cases he3
    exact ⟨t3, w3⟩
  | @decrease_key h h2 n k _ hn hk he ih =>
    obtain ⟨t, w⟩ := ih
    obtain ⟨h3, t3, he3, w3, _⟩ := heap_decrease_key_wf w ((w.inHeap_iff n).mp hn) hk
    rw [he] at he3
    cases he3
    exact ⟨t3, w3⟩
  | @delete h h2 fuel n _ hn he ih =>
    obtain ⟨t, w⟩ := ih
    obtain ⟨h3, t3, he3, w3, _⟩ := @heap_delete_wf h t n (max fuel t.addrs.length) w
      ((w.inHeap_iff n).mp hn) (le_max_right _ _)
    rw [heap_delete_fuel_le (le_max_left _ _) he] at he3
    cases he3
    exact ⟨t3, w3⟩
  | @remove_min h h2 fuel p _ he ih =>
    obtain ⟨t, w⟩ := ih
    rcases w.top with ht | ⟨a, c, ht⟩
    · subst ht
      have hs : h.size = 0 := by rw [w.size]; simp [PTree.addrs]
      simp only [heap_remove_min, hs, if_true, Option.some.injEq, Prod.mk.injEq] at he
      rw [← he.2]
      exact ⟨.nil, w⟩
    · subst ht
      obtain ⟨h3, he3, w3, _⟩ := @heap_remove_min_wf h a c (max fuel c.addrs.length) w
        (le_max_right _ _)
      rw [heap_remove_min_fuel_le (le_max_left _ _) he] at he3
      cases he3
      exact ⟨_, w3⟩

theorem Linked_none (m : Mem) (a : Nat) : ¬ Linked m none a := by
  intro h; cases h

theorem Linked_some_iff (m : Mem) (b a : Nat) :
    Linked m (some b) a ↔ a = b ∨ Linked m (m.child b) a ∨ Linked m (m.next b) a := by
  constructor
  · intro h
    cases h with
    | here => exact Or.inl rfl
    | child _ _ h => exact Or.inr (Or.inl h)
    | next _ _ h => exact Or.inr (Or.inr h)
  · rintro (rfl | h | h)
    · exact Linked.here _
    · exact Linked.child _ _ h
    · exact Linked.next _ _ h

/-! ### A small concrete heap used to instantiate the theorems -/

/-- The empty intrusive heap over the zeroed store. -/
def exHeap0 : Heap := new_heap Mem.empty true

/-- Node 1 inserted with key 5. -/
def exHeap1 : Heap := (heap_intrusive_insert exHeap0 1 5 none).getD exHeap0

/-- Node 2 inserted with key 3. -/
def exHeap2 : Heap := (heap_intrusive_insert exHeap1 2 3 none).getD exHeap0

/-- Node 3 inserted with key 4. -/
def exHeap3 : Heap := (heap_intrusive_insert exHeap2 3 4 none).getD exHeap0

theorem exHeap1_reach : HeapReach exHeap1 :=
  HeapReach.intrusive_insert 1 5 none (HeapReach.new Mem.empty true) (Linked_none _ _) rfl

theorem exHeap2_reach : HeapReach exHeap2 := by
  refine HeapReach.intrusive_insert 2 3 none exHeap1_reach ?_ rfl
  show ¬ Linked exHeap1.mem (some 1) 2
  rw [Linked_some_iff]
  have h1 : exHeap1.mem.child 1 = none := rfl
  have h2 : exHeap1.mem.next 1 = none := rfl
  rw [h1, h2]
  simp [Linked_none]

theorem exHeap3_reach : HeapReach exHeap3 := by
  refine HeapReach.intrusive_insert 3 4 none exHeap2_reach ?_ rfl
  show ¬ Linked exHeap2.mem (some 2) 3
  have h1 : exHeap2.mem.child 2 = some 1 := rfl
  have h2 : exHeap2.mem.next 2 = none := rfl
  have h3 : exHeap2.mem.child 1 = none := rfl
  have h4 : exHeap2.mem.next 1 = none := rfl
  rw [Linked_some_iff, h1, h2, Linked_some_iff, h3, h4]
  simp [Linked_none]

/-! ## Claims about the pairing heap -/

/-- C1: on every heap built from `new_heap` by inserts, key decreases, deletes and
extractions, `heap_remove_min` on a non-empty heap returns a node of the heap whose key is
at most the key of every node in the heap, and `heap_min` (a pure read) returns that same
node. -/
theorem heap_remove_min_returns_minimum (h : Heap) (hr : HeapReach h) (hs : 0 < h.size)
    (fuel : Nat) (hf : h.size ≤ (fuel : Int)) :
    ∃ r h2, heap_remove_min fuel h = some (some r, h2) ∧ InHeap h r ∧
      (∀ a, InHeap h a → h.mem.key r ≤ h.mem.key a) ∧ heap_min h = some r := by
  obtain ⟨t, w⟩ := hr.wf
  rcases w.top with ht | ⟨a, c, ht⟩
  · subst ht
    have := w.size
    simp [PTree.addrs] at this
    omega
  · subst ht
    have hfc : c.addrs.length ≤ fuel := by
      have := w.size
      simp only [PTree.addrs, List.length_cons, List.length_append, List.length_nil] at this
      push_cast at this
      omega
    obtain ⟨h2, he, _⟩ := heap_remove_min_wf w hfc
    refine ⟨a, h2, he, (w.inHeap_iff a).mpr (by simp [PTree.addrs]), ?_, ?_⟩
    · intro x hx
      exact w.root_min x ((w.inHeap_iff x).mp hx)
    · have : h.size ≠ 0 := by omega
      simp [heap_min, this, w.root, PTree.ptr]

/-- Instance of C1 on the heap holding node 1 (key 5), node 2 (key 3) and node 3 (key 4). -/
theorem heap_remove_min_returns_minimum_witness :
    HeapReach exHeap3 ∧ 0 < exHeap3.size ∧ exHeap3.size ≤ ((3 : Nat) : Int) ∧
    ∃ r h2, heap_remove_min 3 exHeap3 = some (some r, h2) ∧ InHeap exHeap3 r ∧
      (∀ a, InHeap exHeap3 a → exHeap3.mem.key r ≤ exHeap3.mem.key a) ∧
      heap_min exHeap3 = some r :=
  ⟨exHeap3_reach, by decide, by decide,
    heap_remove_min_returns_minimum exHeap3 exHeap3_reach (by decide) 3 (by decide)⟩

/-- C2: on a heap built by the operations, `heap_remove_min` on size `n > 0` leaves size
`n - 1`, removes exactly the returned node (every other node stays in the heap, keys and
payloads untouched); on size `0` it returns `NULL` and leaves the heap unchanged. -/
theorem heap_remove_min_removes_one (h : Heap) (hr : HeapReach h) (fuel : Nat)
    (hf : h.size ≤ (fuel : Int)) :
    (0 < h.size → ∃ r h2, heap_remove_min fuel h = some (some r, h2) ∧
      h2.size = h.size - 1 ∧ InHeap h r ∧ ¬ InHeap h2 r ∧
      (∀ a, a ≠ r → (InHeap h2 a ↔ InHeap h a)) ∧
      (∀ a, h2.mem.key a = h.mem.key a ∧ h2.mem.data a = h.mem.data a)) ∧
    (h.size = 0 → heap_remove_min fuel h = some (none, h)) := by
  refine ⟨fun hs => ?_, fun hs => by simp [heap_remove_min, hs]⟩
  obtain ⟨t, w⟩ := hr.wf
  rcases w.top with ht | ⟨a, c, ht⟩
  · subst ht
    have := w.size
    simp [PTree.addrs] at this
    omega
  · subst ht
    have hfc : c.addrs.length ≤ fuel := by
      have := w.size
      simp only [PTree.addrs, List.length_cons, List.length_append, List.length_nil] at this
      push_cast at this
      omega
    obtain ⟨h2, he, w2, _, hk, hd, hsz, _⟩ := heap_remove_min_wf w hfc
    have hperm := meldTree_perm h.mem.key c
    have hnd : (a :: c.addrs).Nodup := by simpa [PTree.addrs] using w.nodup
    refine ⟨a, h2, he, hsz, (w.inHeap_iff a).mpr (by simp [PTree.addrs]), ?_, ?_, ?_⟩
    · rw [w2.inHeap_iff, hperm.mem_iff]
      exact (List.nodup_cons.mp hnd).1
    · intro x hx
      rw [w2.inHeap_iff, w.inHeap_iff, hperm.mem_iff]
      simp [PTree.addrs, hx]
    · intro x
      rw [hk, hd]
      exact ⟨rfl, rfl⟩

/-- Instance of C2 on the three-node heap. -/
theorem heap_remove_min_removes_one_witness :
    HeapReach exHeap3 ∧ exHeap3.size ≤ ((3 : Nat) : Int) ∧
    (0 < exHeap3.size → ∃ r h2, heap_remove_min 3 exHeap3 = some (some r, h2) ∧
      h2.size = exHeap3.size - 1 ∧ InHeap exHeap3 r ∧ ¬ InHeap h2 r ∧
      (∀ a, a ≠ r → (InHeap h2 a ↔ InHeap exHeap3 a)) ∧
      (∀ a, h2.mem.key a = exHeap3.mem.key a ∧ h2.mem.data a = exHeap3.mem.data a)) ∧
    (exHeap3.size = 0 → heap_remove_min 3 exHeap3 = some (none, exHeap3)) :=
  ⟨exHeap3_reach, by decide, heap_remove_min_removes_one exHeap3 exHeap3_reach 3 (by decide)⟩

/-- C3: for a node `n` of a well-formed heap and `newKey ≤ key n`, `heap_decrease_key`
keeps `n` in the heap with key `newKey`, keeps the size, and the next `heap_remove_min`
returns a node whose key is at most `newKey`. -/
theorem heap_decrease_key_then_min (h : Heap) (hw : ∃ t, WF h t) (n : Nat) (newKey : Int)
    (hn : InHeap h n) (hk : newKey ≤ h.mem.key n) (fuel : Nat) (hf : h.size ≤ (fuel : Int)) :
    ∃ h2, heap_decrease_key h n newKey = some h2 ∧ InHeap h2 n ∧ h2.mem.key n = newKey ∧
      h2.size = h.size ∧
      ∃ r h3, heap_remove_min fuel h2 = some (some r, h3) ∧ h2.mem.key r ≤ newKey := by
  obtain ⟨t, w⟩ := hw
  have hnt := (w.inHeap_iff n).mp hn
  obtain ⟨h2, t2, he, w2, hperm, _, hsz, hkey, _⟩ := heap_decrease_key_wf w hnt hk
  have hn2 : n ∈ t2.addrs := hperm.mem_iff.mpr hnt
  refine ⟨h2, he, (w2.inHeap_iff n).mpr hn2, by simp [hkey], hsz, ?_⟩
  rcases w2.top with ht | ⟨a, c, ht⟩
  · subst ht; simp [PTree.addrs] at hn2
  · subst ht
    have hfc : c.addrs.length ≤ fuel := by
      have := w2.size
      simp only [PTree.addrs, List.length_cons, List.length_append, List.length_nil] at this
      push_cast at this
      omega
    obtain ⟨h3, he3, _⟩ := heap_remove_min_wf w2 hfc
    refine ⟨a, h3, he3, ?_⟩
    have := w2.root_min n hn2
    simpa [hkey] using this

/-- Instance of C3: lowering the key of node 1 from 5 to 2 in the three-node heap. -/
theorem heap_decrease_key_then_min_witness :
    (∃ t, WF exHeap3 t) ∧ InHeap exHeap3 1 ∧ (2 : Int) ≤ exHeap3.mem.key 1 ∧
    exHeap3.size ≤ ((3 : Nat) : Int) ∧
    ∃ h2, heap_decrease_key exHeap3 1 2 = some h2 ∧ InHeap h2 1 ∧ h2.mem.key 1 = 2 ∧
      h2.size = exHeap3.size ∧
      ∃ r h3, heap_remove_min 3 h2 = some (some r, h3) ∧ h2.mem.key r ≤ 2 :=
  ⟨exHeap3_reach.wf, Linked.child 2 1 (Linked.next 3 1 (Linked.here 1)), by decide, by decide,
    heap_decrease_key_then_min exHeap3 exHeap3_reach.wf 1 2
      (Linked.child 2 1 (Linked.next 3 1 (Linked.here 1))) (by decide) 3 (by decide)⟩

/-! ## Dungeon data model (`dungeon.h`) and settings -/

/-- The constant `INT_MAX` of a 32-bit `int`. -/
def INT_MAX : Int := 2147483647

/-- Addition of two C `int`s, wrapped to 32 bits. -/
def add32 (a b : Int) : Int := (a + b + 2147483648) % 4294967296 - 2147483648

/-- Embedding of `Cell_Type_T`. -/
inductive Cell_Type where
  | ROCK | ROOM | CORRIDOR | STAIR_UP | STAIR_DOWN
  deriving DecidableEq

/-- Embedding of `Dijkstra_T`. -/
inductive Dijkstra_T where
  | CORRIDOR_MAP | TUNNEL_MAP | REGULAR_MAP
  deriving DecidableEq

/-- Embedding of `Cell_T`; `character` is the occupant pointer. -/
structure Cell where
  type : Cell_Type
  hardness : Int
  character : Option Nat

/-- The fields of `Dungeon_T` read by the cost-field code: the flat cell array and the
dimensions. -/
structure Dungeon where
  map : Nat → Cell
  height : Nat
  width : Nat

/-- The macro `MAP(a, b)`, that is `map[(a) * d->width + (b)]`. -/
def Dungeon.MAP (d : Dungeon) (a b : Int) : Cell := d.map (a * d.width + b).toNat

def MIN_ROCK_HARDNESS : Int := 1
def MAX_ROCK_HARDNESS : Int := 254
def IMMUTABLE_ROCK_HARDNESS : Int := 255
def CORR_NUM_HARDNESS_LEVELS : Int := 6
def CORR_ROOM_WEIGHT : Int := 1
def CORR_ROCK_WEIGHT : Int := 5
def CORR_CORRIDOR_WEIGHT : Int := 0
def TUNNEL_NUM_HARDNESS_LEVELS : Int := 3

/-- The macro `DIFFERENCE` of dijkstra.c. -/
def DIFFERENCE : Int := Int.tdiv (MAX_ROCK_HARDNESS - MIN_ROCK_HARDNESS) CORR_NUM_HARDNESS_LEVELS

/-! ## Source/Dungeon/dijkstra.c -/

/-- Embedding of `Vertex_T` without its heap node, which lives in the node store at the
index of the vertex. -/
structure Vertex where
  y : Int
  x : Int
  cost : Int

/-- The macro `COST(a, b)` as an index into the flat cost array. -/
def COST (d : Dungeon) (a b : Int) : Nat := (a * d.width + b).toNat

/-- The macro `COST_TRANSLATE(a, b)` as an index into the flat cost array. -/
def COST_TRANSLATE (d : Dungeon) (a b : Int) : Nat := COST d (a + 1) (b + 1)

/-- The macro `DIJKSTRA(a, b)` as an index into the vertex array. -/
def DIJKSTRA (d : Dungeon) (a b : Int) : Nat := (a * ((d.width : Int) - 2) + b).toNat

/-- Embedding of `corridor_cost` (with `USE_HARDNESS_FOR_CORRIDORS` set). -/
def corridor_cost (d : Dungeon) (y x : Int) : Int :=
  if (d.MAP (y + 1) (x + 1)).hardness = IMMUTABLE_ROCK_HARDNESS then INT_MAX
  else
    match (d.MAP (y + 1) (x + 1)).type with
    | .ROCK =>
      if Int.tdiv (d.MAP (y + 1) (x + 1)).hardness DIFFERENCE > CORR_NUM_HARDNESS_LEVELS then
        CORR_NUM_HARDNESS_LEVELS + 1
      else Int.tdiv (d.MAP (y + 1) (x + 1)).hardness DIFFERENCE + 1
    | .STAIR_UP => 1 + CORR_ROOM_WEIGHT
    | .STAIR_DOWN => 1 + CORR_ROOM_WEIGHT
    | .ROOM => 1 + CORR_ROOM_WEIGHT
    | .CORRIDOR => 1 + CORR_CORRIDOR_WEIGHT

/-- Embedding of `tunnel_cost`. -/
def tunnel_cost (d : Dungeon) (y x : Int) : Int :=
  if (d.MAP (y + 1) (x + 1)).hardness = IMMUTABLE_ROCK_HARDNESS then INT_MAX
  else 1 + Int.tdiv (d.MAP (y + 1) (x + 1)).hardness
    (Int.tdiv (MAX_ROCK_HARDNESS - MIN_ROCK_HARDNESS) TUNNEL_NUM_HARDNESS_LEVELS)

/-- Embedding of `regular_cost`. -/
def regular_cost (d : Dungeon) (y x : Int) : Int :=
  if (d.MAP (y + 1) (x + 1)).type = .ROCK then INT_MAX else 1

/-- The function pointer `cost_function` selected by the `switch` of `dijkstra_helper`. -/
def cost_function (type : Dijkstra_T) : Dungeon → Int → Int → Int :=
  match type with
  | .CORRIDOR_MAP => corridor_cost
  | .TUNNEL_MAP => tunnel_cost
  | .REGULAR_MAP => regular_cost

/-- Assignment to one entry of the flat cost array. -/
def setCost (cost : Nat → Int) (i : Nat) (v : Int) : Nat → Int :=
  fun j => if j = i then v else cost j

/-- Embedding of `check_neighbor`. -/
def check_neighbor (h : Heap) (d : Dungeon) (dijkstra : Nat → Vertex) (cost : Nat → Int)
    (v : Vertex) (y_dir x_dir : Int) (type : Dijkstra_T) : Option (Heap × (Nat → Int)) :=
  if v.y + y_dir < 0 ∨ (d.height : Int) - 3 < v.y + y_dir then some (h, cost)
  else if v.x + x_dir < 0 ∨ (d.width : Int) - 3 < v.x + x_dir then some (h, cost)
  else if h.mem.data (DIJKSTRA d (v.y + y_dir) (v.x + x_dir)) = none then some (h, cost)
  else if (dijkstra (DIJKSTRA d (v.y + y_dir) (v.x + x_dir))).cost = INT_MAX then some (h, cost)
  else if type = .REGULAR_MAP ∧ (dijkstra (DIJKSTRA d (v.y + y_dir) v.x)).cost = INT_MAX ∧
      (dijkstra (DIJKSTRA d v.y (v.x + x_dir))).cost = INT_MAX then some (h, cost)
  else if cost (COST_TRANSLATE d (v.y + y_dir) (v.x + x_dir)) ≤
      add32 (cost (COST_TRANSLATE d v.y v.x))
        (dijkstra (DIJKSTRA d (v.y + y_dir) (v.x + x_dir))).cost then some (h, cost)
  else
    let cost1 := setCost cost (COST_TRANSLATE d (v.y + y_dir) (v.x + x_dir))
      (add32 (cost (COST_TRANSLATE d v.y v.x))
        (dijkstra (DIJKSTRA d (v.y + y_dir) (v.x + x_dir))).cost)
    match heap_decrease_key h (DIJKSTRA d (v.y + y_dir) (v.x + x_dir))
        (cost1 (COST_TRANSLATE d (v.y + y_dir) (v.x + x_dir))) with
    | none => none
    | some h1 => some (h1, cost1)

/-- The state built by the set-up loops of `dijkstra_helper`: the heap (with the node
store of the vertex array) and the `y`, `x`, `cost` members of the vertices. -/
structure DInit where
  h : Heap
  dijkstra : Nat → Vertex

/-- Body of the set-up loops of `dijkstra_helper` for the vertex `(i, j)`. -/
def dijkstra_init_cell (d : Dungeon) (cost : Nat → Int) (type : Dijkstra_T) (s : DInit)
    (i j : Nat) : Option DInit :=
  let idx := DIJKSTRA d i j
  let dij := fun k => if k = idx then Vertex.mk (i : Int) (j : Int) (cost_function type d i j)
    else s.dijkstra k
  let h0 : Heap := { s.h with mem := s.h.mem.setData idx none }
  if type = .REGULAR_MAP then
    if (d.MAP ((i : Int) + 1) ((j : Int) + 1)).type ≠ .ROCK then
      match heap_intrusive_insert h0 idx (cost (COST_TRANSLATE d i j)) (some idx) with
      | none => none
      | some h1 => some { h := h1, dijkstra := dij }
    else some { h := h0, dijkstra := dij }
  else
    match heap_intrusive_insert h0 idx (cost (COST_TRANSLATE d i j)) (some idx) with
    | none => none
    | some h1 => some { h := h1, dijkstra := dij }

/-- The inner set-up loop `for (j = 0; j < d->width - 2; j++)`. -/
def dijkstra_init_row (d : Dungeon) (cost : Nat → Int) (type : Dijkstra_T) (i : Nat) :
    List Nat → DInit → Option DInit
  | [], s => some s
  | j :: js, s =>
    match dijkstra_init_cell d cost type s i j with
    | none => none
    | some s1 => dijkstra_init_row d cost type i js s1

/-- The outer set-up loop `for (i = 0; i < d->height - 2; i++)`. -/
def dijkstra_init (d : Dungeon) (cost : Nat → Int) (type : Dijkstra_T) :
    List Nat → DInit → Option DInit
  | [], s => some s
  | i :: is, s =>
    match dijkstra_init_row d cost type i (List.range (d.width - 2)) s with
    | none => none
    | some s1 => dijkstra_init d cost type is s1

/-- The eight calls of `check_neighbor` in the main loop, the last four under
`if (diagonal)`. -/
def check_neighbors (h : Heap) (d : Dungeon) (dijkstra : Nat → Vertex) (cost : Nat → Int)
    (v : Vertex) (diagonal : Bool) (type : Dijkstra_T) : Option (Heap × (Nat → Int)) :=
  match check_neighbor h d dijkstra cost v (-1) 0 type with
  | none => none
  | some (h1, c1) =>
  match check_neighbor h1 d dijkstra c1 v 1 0 type with
  | none => none
  | some (h2, c2) =>
  match check_neighbor h2 d dijkstra c2 v 0 (-1) type with
  | none => none
  | some (h3, c3) =>
  match check_neighbor h3 d dijkstra c3 v 0 1 type with
  | none => none
  | some (h4, c4) =>
  if diagonal then
    match check_neighbor h4 d dijkstra c4 v (-1) (-1) type with
    | none => none
    | some (h5, c5) =>
    match check_neighbor h5 d dijkstra c5 v (-1) 1 type with
    | none => none
    | some (h6, c6) =>
    match check_neighbor h6 d dijkstra c6 v 1 (-1) type with
    | none => none
    | some (h7, c7) => check_neighbor h7 d dijkstra c7 v 1 1 type
  else some (h4, c4)

/-- The main loop `while (h->size > 0)` of `dijkstra_helper`; `fuel` bounds the number of
iterations and is also handed to `heap_remove_min`. -/
def dijkstra_loop (d : Dungeon) (dijkstra : Nat → Vertex) (diagonal : Bool)
    (type : Dijkstra_T) : Nat → Heap → (Nat → Int) → Option (Nat → Int)
  | fuel, h, cost =>
    if h.size > 0 then
      match fuel with
      | 0 => none
      | fuel + 1 =>
        match heap_remove_min (fuel + 1) h with
        | none => none
        | some (none, _) => none
        | some (some r, h1) =>
          match h1.mem.data r with
          | none => none
          | some vi =>
            let h2 : Heap := { h1 with mem := h1.mem.setData vi none }
            if cost (COST_TRANSLATE d (dijkstra vi).y (dijkstra vi).x) = INT_MAX then
              dijkstra_loop d dijkstra diagonal type fuel h2 cost
            else
              match check_neighbors h2 d dijkstra cost (dijkstra vi) diagonal type with
              | none => none
              | some (h3, cost3) => dijkstra_loop d dijkstra diagonal type fuel h3 cost3
    else some cost

/-- Embedding of `dijkstra_helper`.  `m0` and `v0` are the uninitialised contents of the
vertex array handed out by `safe_malloc`; the updated cost array is returned. -/
def dijkstra_helper (fuel : Nat) (m0 : Mem) (v0 : Nat → Vertex) (d : Dungeon)
    (cost : Nat → Int) (diagonal : Bool) (type : Dijkstra_T) : Option (Nat → Int) :=
  match dijkstra_init d cost type (List.range (d.height - 2))
      { h := new_heap m0 true, dijkstra := v0 } with
  | none => none
  | some s => dijkstra_loop d s.dijkstra diagonal type fuel s.h cost

/-- The loop `for (i = 0; i < num_sources; i++)` of `generate_dijkstra_map`, which reads
`sources[i * num_sources + 0]` and `sources[i * num_sources + 1]`.  Reading past the end
of `sources` or writing outside the cost array fails. -/
def fill_sources (d : Dungeon) (num_sources : Nat) (sources : List Int) :
    List Nat → (Nat → Int) → Option (Nat → Int)
  | [], cost => some cost
  | i :: is, cost =>
    match sources.get? (i * num_sources + 0), sources.get? (i * num_sources + 1) with
    | some sy, some sx =>
      if 0 ≤ sy * d.width + sx ∧ sy * d.width + sx < (d.height : Int) * d.width then
        fill_sources d num_sources sources is (setCost cost (COST d sy sx) 0)
      else none
    | _, _ => none

/-- Embedding of `generate_dijkstra_map`. -/
def generate_dijkstra_map (fuel : Nat) (m0 : Mem) (v0 : Nat → Vertex) (d : Dungeon)
    (num_sources : Nat) (sources : List Int) (diagonal : Bool) (type : Dijkstra_T) :
    Option (Nat → Int) :=
  match fill_sources d num_sources sources (List.range num_sources) (fun _ => INT_MAX) with
  | none => none
  | some cost => dijkstra_helper fuel m0 v0 d cost diagonal type

/-! ### Index arithmetic -/

theorem flat_inj {w y x y2 x2 : Int} (hx : 0 ≤ x) (hxw : x < w) (hx2 : 0 ≤ x2) (hxw2 : x2 < w)
    (h : y * w + x = y2 * w + x2) : y = y2 ∧ x = x2 := by
  have hw : 0 < w := by omega
  have h1 : (y * w + x) / w = y := by
    rw [Int.add_comm, Int.add_mul_ediv_right _ _ (by omega), Int.ediv_eq_zero_of_lt hx hxw]
    simp
  have h2 : (y2 * w + x2) / w = y2 := by
    rw [Int.add_comm, Int.add_mul_ediv_right _ _ (by omega), Int.ediv_eq_zero_of_lt hx2 hxw2]
    simp
  have hy : y = y2 := by rw [← h1, ← h2, h]
  subst hy
  exact ⟨rfl, by omega⟩

/-- The vertex coordinates `(y, x)` lie inside the vertex array. -/
def InB (d : Dungeon) (y x : Int) : Prop :=
  0 ≤ y ∧ y < (d.height : Int) - 2 ∧ 0 ≤ x ∧ x < (d.width : Int) - 2

instance (d : Dungeon) (y x : Int) : Decidable (InB d y x) := by
  unfold InB; infer_instance

theorem DIJKSTRA_inj {d : Dungeon} {y x y2 x2 : Int} (h1 : InB d y x) (h2 : InB d y2 x2)
    (h : DIJKSTRA d y x = DIJKSTRA d y2 x2) : y = y2 ∧ x = x2 := by
  unfold DIJKSTRA at h
  obtain ⟨a1, a2, a3, a4⟩ := h1
  obtain ⟨b1, b2, b3, b4⟩ := h2
  have e1 : 0 ≤ y * ((d.width : Int) - 2) + x :=
    Int.add_nonneg (Int.mul_nonneg a1 (by omega)) a3
  have e2 : 0 ≤ y2 * ((d.width : Int) - 2) + x2 :=
    Int.add_nonneg (Int.mul_nonneg b1 (by omega)) b3
  have h3 : y * ((d.width : Int) - 2) + x = y2 * ((d.width : Int) - 2) + x2 := by
    rw [← Int.toNat_of_nonneg e1, ← Int.toNat_of_nonneg e2, h]
  exact flat_inj a3 a4 b3 b4 h3

theorem COST_TRANSLATE_inj {d : Dungeon} {y x y2 x2 : Int} (h1 : InB d y x) (h2 : InB d y2 x2)
    (h : COST_TRANSLATE d y x = COST_TRANSLATE d y2 x2) : y = y2 ∧ x = x2 := by
  unfold COST_TRANSLATE COST at h
  obtain ⟨a1, a2, a3, a4⟩ := h1
  obtain ⟨b1, b2, b3, b4⟩ := h2
  have e1 : 0 ≤ (y + 1) * (d.width : Int) + (x + 1) :=
    Int.add_nonneg (Int.mul_nonneg (by omega) (by omega)) (by omega)
  have e2 : 0 ≤ (y2 + 1) * (d.width : Int) + (x2 + 1) :=
    Int.add_nonneg (Int.mul_nonneg (by omega) (by omega)) (by omega)
  have h3 : (y + 1) * (d.width : Int) + (x + 1) = (y2 + 1) * (d.width : Int) + (x2 + 1) := by
    rw [← Int.toNat_of_nonneg e1, ← Int.toNat_of_nonneg e2, h]
  have := @flat_inj (d.width : Int) (y + 1) (x + 1) (y2 + 1) (x2 + 1) (by omega) (by omega)
    (by omega) (by omega) h3
  omega

/-! ### Structural invariant of the main loop -/

/-- The vertex `(y, x)` is enqueued by the set-up loops. -/
def Enq (type : Dijkstra_T) (d : Dungeon) (y x : Int) : Prop :=
  type = .REGULAR_MAP → (d.MAP (y + 1) (x + 1)).type ≠ .ROCK

/-- The tests of `check_neighbor` that depend on the dungeon only: the neighbour of `(y, x)`
in direction `(dy, dx)` is inside the vertex array, has a finite weight and, for
`REGULAR_MAP`, the two cells orthogonal to the step are not both of infinite weight. -/
def Relaxable (type : Dijkstra_T) (d : Dungeon) (y x dy dx : Int) : Prop :=
  InB d (y + dy) (x + dx) ∧ cost_function type d (y + dy) (x + dx) ≠ INT_MAX ∧
  ¬ (type = .REGULAR_MAP ∧ cost_function type d (y + dy) x = INT_MAX ∧
      cost_function type d y (x + dx) = INT_MAX)

/-- Structural invariant of `dijkstra_helper`: the heap is well formed, holds only enqueued
vertices, each keyed by its current cost and tagged by its `data` pointer; the cost array
only ever decreases, and only at vertices of finite weight. -/
structure LInv (d : Dungeon) (type : Dijkstra_T) (dijkstra : Nat → Vertex) (cost0 : Nat → Int)
    (h : Heap) (cost : Nat → Int) (t : PTree) : Prop where
  wf : WF h t
  verts : ∀ y x, InB d y x → dijkstra (DIJKSTRA d y x) = ⟨y, x, cost_function type d y x⟩
  mem : ∀ a ∈ t.addrs, ∃ y x, InB d y x ∧ a = DIJKSTRA d y x ∧ Enq type d y x
  key : ∀ y x, InB d y x → DIJKSTRA d y x ∈ t.addrs →
    h.mem.key (DIJKSTRA d y x) = cost (COST_TRANSLATE d y x) ∧
    h.mem.data (DIJKSTRA d y x) = some (DIJKSTRA d y x)
  off : ∀ y x, InB d y x → DIJKSTRA d y x ∉ t.addrs → h.mem.data (DIJKSTRA d y x) = none
  mono : ∀ i, cost i ≤ cost0 i
  frame : ∀ i, cost i ≠ cost0 i → ∃ y x, InB d y x ∧ Enq type d y x ∧
    cost_function type d y x ≠ INT_MAX ∧ i = COST_TRANSLATE d y x

theorem enq_of_finite {type : Dijkstra_T} {d : Dungeon} {y x : Int}
    (h : cost_function type d y x ≠ INT_MAX) : Enq type d y x := by
  intro ht
  subst ht
  intro hr
  apply h
  simp [cost_function, regular_cost, hr]

/-- Effect of one `check_neighbor` call from the off-heap vertex `(y, x)`. -/
theorem check_neighbor_spec {d : Dungeon} {type : Dijkstra_T} {dijkstra : Nat → Vertex}
    {cost0 : Nat → Int} {h : Heap} {cost : Nat → Int} {t : PTree}
    (inv : LInv d type dijkstra cost0 h cost t) {y x : Int} (hu : InB d y x) (dy dx : Int) :
    ∃ h2 cost2 t2, check_neighbor h d dijkstra cost (dijkstra (DIJKSTRA d y x)) dy dx type =
        some (h2, cost2) ∧
      LInv d type dijkstra cost0 h2 cost2 t2 ∧ t2.addrs.Perm t.addrs ∧ h2.size = h.size ∧
      (∀ i, cost2 i ≤ cost i) ∧
      (Relaxable type d y x dy dx → DIJKSTRA d (y + dy) (x + dx) ∈ t.addrs →
        cost2 (COST_TRANSLATE d (y + dy) (x + dx)) ≤
          add32 (cost (COST_TRANSLATE d y x)) (cost_function type d (y + dy) (x + dx))) ∧
      (∀ i, cost2 i ≠ cost i → Relaxable type d y x dy dx ∧
        DIJKSTRA d (y + dy) (x + dx) ∈ t.addrs ∧ i = COST_TRANSLATE d (y + dy) (x + dx) ∧
        cost2 i = add32 (cost (COST_TRANSLATE d y x))
          (cost_function type d (y + dy) (x + dx))) := by
  have hv := inv.verts y x hu
  -- the unchanged outcome
  have same : ∀ (_ : ¬ (Relaxable type d y x dy dx ∧ DIJKSTRA d (y + dy) (x + dx) ∈ t.addrs) ∨
      cost (COST_TRANSLATE d (y + dy) (x + dx)) ≤
        add32 (cost (COST_TRANSLATE d y x)) (cost_function type d (y + dy) (x + dx))),
      LInv d type dijkstra cost0 h cost t ∧ t.addrs.Perm t.addrs ∧ h.size = h.size ∧
      (∀ i, cost i ≤ cost i) ∧
      (Relaxable type d y x dy dx → DIJKSTRA d (y + dy) (x + dx) ∈ t.addrs →
        cost (COST_TRANSLATE d (y + dy) (x + dx)) ≤
          add32 (cost (COST_TRANSLATE d y x)) (cost_function type d (y + dy) (x + dx))) ∧
      (∀ i, cost i ≠ cost i → Relaxable type d y x dy dx ∧
        DIJKSTRA d (y + dy) (x + dx) ∈ t.addrs ∧ i = COST_TRANSLATE d (y + dy) (x + dx) ∧
        cost i = add32 (cost (COST_TRANSLATE d y x))
          (cost_function type d (y + dy) (x + dx))) := by
    intro hc
    refine ⟨inv, List.Perm.refl _, rfl, fun _ => le_refl _, ?_, fun i hi => absurd rfl hi⟩
    intro hr hm
    rcases hc with hc | hc
    · exact absurd ⟨hr, hm⟩ hc
    · exact hc
  unfold check_neighbor
  rw [hv]
  simp only
  by_cases c1 : y + dy < 0 ∨ (d.height : Int) - 3 < y + dy
  · rw [if_pos c1]
    exact ⟨h, cost, t, rfl, same (Or.inl (fun hh => by
      have := hh.1.1; unfold InB at this; omega))⟩
  rw [if_neg c1]
  by_cases c2 : x + dx < 0 ∨ (d.width : Int) - 3 < x + dx
  · rw [if_pos c2]
    exact ⟨h, cost, t, rfl, same (Or.inl (fun hh => by
      have := hh.1.1; unfold InB at this; omega))⟩
  rw [if_neg c2]
  have hn : InB d (y + dy) (x + dx) := by unfold InB; omega
  have hn1 : InB d (y + dy) x := by unfold InB at hu hn ⊢; omega
  have hn2 : InB d y (x + dx) := by unfold InB at hu hn ⊢; omega
  by_cases c3 : h.mem.data (DIJKSTRA d (y + dy) (x + dx)) = none
  · rw [if_pos c3]
    refine ⟨h, cost, t, rfl, same (Or.inl (fun hh => ?_))⟩
    have := (inv.key _ _ hn hh.2).2
    rw [c3] at this
    cases this
  rw [if_neg c3]
  have hmem : DIJKSTRA d (y + dy) (x + dx) ∈ t.addrs := by
    by_contra hc
    exact c3 (inv.off _ _ hn hc)
  rw [inv.verts _ _ hn, inv.verts _ _ hn1, inv.verts _ _ hn2]
  simp only
  by_cases c4 : cost_function type d (y + dy) (x + dx) = INT_MAX
  · rw [if_pos c4]
    exact ⟨h, cost, t, rfl, same (Or.inl (fun hh => hh.1.2.1 c4))⟩
  rw [if_neg c4]
  by_cases c5 : type = .REGULAR_MAP ∧ cost_function type d (y + dy) x = INT_MAX ∧
      cost_function type d y (x + dx) = INT_MAX
  · rw [if_pos c5]
    exact ⟨h, cost, t, rfl, same (Or.inl (fun hh => hh.1.2.2 c5))⟩
  rw [if_neg c5]
  by_cases c6 : cost (COST_TRANSLATE d (y + dy) (x + dx)) ≤
      add32 (cost (COST_TRANSLATE d y x)) (cost_function type d (y + dy) (x + dx))
  · rw [if_pos c6]
    exact ⟨h, cost, t, rfl, same (Or.inr c6)⟩
  rw [if_neg c6]
  -- the relaxation
  have hrel : Relaxable type d y x dy dx := ⟨hn, c4, c5⟩
  have hkey := inv.key _ _ hn hmem
  have hlt : add32 (cost (COST_TRANSLATE d y x)) (cost_function type d (y + dy) (x + dx)) <
      cost (COST_TRANSLATE d (y + dy) (x + dx)) := not_le.mp c6
  have hsc : setCost cost (COST_TRANSLATE d (y + dy) (x + dx))
      (add32 (cost (COST_TRANSLATE d y x)) (cost_function type d (y + dy) (x + dx)))
      (COST_TRANSLATE d (y + dy) (x + dx)) =
      add32 (cost (COST_TRANSLATE d y x)) (cost_function type d (y + dy) (x + dx)) := by
    simp [setCost]
  rw [hsc]
  obtain ⟨h2, t2, he, w2, hperm, _, hsz, hk2, hd2⟩ :=
    @heap_decrease_key_wf h t (DIJKSTRA d (y + dy) (x + dx))
      (add32 (cost (COST_TRANSLATE d y x)) (cost_function type d (y + dy) (x + dx))) inv.wf hmem
      (by rw [hkey.1]; exact le_of_lt hlt)
  rw [he]
  refine ⟨h2, _, t2, rfl, ?_, hperm, hsz, ?_, ?_, ?_⟩
  · refine ⟨w2, inv.verts, ?_, ?_, ?_, ?_, ?_⟩
    · intro a ha
      exact inv.mem a (hperm.mem_iff.mp ha)
    · intro y2 x2 hb hm2
      have hm := hperm.mem_iff.mp hm2
      have hk := inv.key y2 x2 hb hm
      rw [hk2, hd2]
      refine ⟨?_, hk.2⟩
      by_cases hsame : DIJKSTRA d y2 x2 = DIJKSTRA d (y + dy) (x + dx)
      · obtain ⟨e1, e2⟩ := DIJKSTRA_inj hb hn hsame
        subst e1; subst e2
        simp [setCost]
      · have hne : COST_TRANSLATE d y2 x2 ≠ COST_TRANSLATE d (y + dy) (x + dx) := by
          intro e
          obtain ⟨e1, e2⟩ := COST_TRANSLATE_inj hb hn e
          exact hsame (by rw [e1, e2])
        simp [setCost, hsame, hne, hk.1]
    · intro y2 x2 hb hm2
      rw [hd2]
      exact inv.off y2 x2 hb (fun e => hm2 (hperm.mem_iff.mpr e))
    · intro i
      unfold setCost
      by_cases hi : i = COST_TRANSLATE d (y + dy) (x + dx)
      · simp only [hi, if_true]
        exact le_trans (le_of_lt hlt) (inv.mono _)
      · simp only [hi, if_false]
        exact inv.mono i
    · intro i hi
      unfold setCost at hi
      by_cases hi2 : i = COST_TRANSLATE d (y + dy) (x + dx)
      · exact ⟨_, _, hn, enq_of_finite c4, c4, hi2⟩
      · simp only [hi2, if_false] at hi
        exact inv.frame i hi
  · intro i
    unfold setCost
    by_cases hi : i = COST_TRANSLATE d (y + dy) (x + dx)
    · simp only [hi, if_true]; exact le_of_lt hlt
    · simp only [hi, if_false]; exact le_refl _
  · intro _ _
    simp [setCost]
  · intro i hi
    unfold setCost at hi ⊢
    by_cases hi2 : i = COST_TRANSLATE d (y + dy) (x + dx)
    · simp only [hi2, if_true]
      exact ⟨hrel, hmem, trivial, trivial⟩
    · simp only [hi2, if_false] at hi
      exact absurd rfl hi

/-! ### Shortest-path invariant of the main loop -/

/-- The directions scanned by the main loop: the four cardinal ones, and the four
diagonal ones when `diagonal` is set. -/
def Dir (diagonal : Bool) (dy dx : Int) : Prop :=
  (dy = -1 ∧ dx = 0) ∨ (dy = 1 ∧ dx = 0) ∨ (dy = 0 ∧ dx = -1) ∨ (dy = 0 ∧ dx = 1) ∨
  (diagonal = true ∧ ((dy = -1 ∧ dx = -1) ∨ (dy = -1 ∧ dx = 1) ∨ (dy = 1 ∧ dx = -1) ∨
    (dy = 1 ∧ dx = 1)))

/-- Side conditions under which the loop computes shortest paths: finite weights lie in
`1..7`, the initial cost array holds `0` or `INT_MAX` at every vertex, and the dungeon is
small enough for path costs to stay below `INT_MAX`. -/
structure Hyp (d : Dungeon) (type : Dijkstra_T) (cost0 : Nat → Int) : Prop where
  wpos : ∀ y x, InB d y x → cost_function type d y x ≠ INT_MAX →
    1 ≤ cost_function type d y x ∧ cost_function type d y x ≤ 7
  init : ∀ y x, InB d y x →
    cost0 (COST_TRANSLATE d y x) = 0 ∨ cost0 (COST_TRANSLATE d y x) = INT_MAX
  small : 7 * (((d.height - 2) * (d.width - 2) : Nat) : Int) < INT_MAX

/-- The shortest-path invariant.  `t` is the heap content, `k` the number of extractions so
far, `L` the key of the last extraction and `cur` the vertex whose neighbours are being
scanned (it is exempt from the triangle inequality until the scan is over). -/
structure DInv (d : Dungeon) (type : Dijkstra_T) (diagonal : Bool) (cost0 : Nat → Int)
    (cur : Option (Int × Int)) (k : Nat) (L : Int) (cost : Nat → Int) (t : PTree) : Prop where
  lo : ∀ y x, InB d y x → DIJKSTRA d y x ∈ t.addrs → L ≤ cost (COST_TRANSLATE d y x)
  hi : ∀ y x, InB d y x → Enq type d y x → DIJKSTRA d y x ∉ t.addrs →
    cost (COST_TRANSLATE d y x) ≤ L
  tri : ∀ y x, InB d y x → Enq type d y x → DIJKSTRA d y x ∉ t.addrs → cur ≠ some (y, x) →
    cost (COST_TRANSLATE d y x) ≠ INT_MAX → ∀ dy dx, Dir diagonal dy dx →
    Relaxable type d y x dy dx →
    cost (COST_TRANSLATE d (y + dy) (x + dx)) ≤
      cost (COST_TRANSLATE d y x) + cost_function type d (y + dy) (x + dx)
  pred : ∀ y x, InB d y x → cost (COST_TRANSLATE d y x) ≠ cost0 (COST_TRANSLATE d y x) →
    ∃ y2 x2 dy dx, InB d y2 x2 ∧ Enq type d y2 x2 ∧ DIJKSTRA d y2 x2 ∉ t.addrs ∧
      Dir diagonal dy dx ∧ y = y2 + dy ∧ x = x2 + dx ∧ Relaxable type d y2 x2 dy dx ∧
      cost (COST_TRANSLATE d y2 x2) ≠ INT_MAX ∧
      cost (COST_TRANSLATE d y x) = cost (COST_TRANSLATE d y2 x2) + cost_function type d y x
  bound : ∀ y x, InB d y x → cost (COST_TRANSLATE d y x) ≠ INT_MAX →
    0 ≤ cost (COST_TRANSLATE d y x) ∧ cost (COST_TRANSLATE d y x) ≤ 7 * (k : Int)
  cnt : k + t.addrs.length ≤ (d.height - 2) * (d.width - 2)

theorem add32_eq {a b : Int} (h1 : -2147483648 ≤ a + b) (h2 : a + b ≤ 2147483647) :
    add32 a b = a + b := by
  unfold add32
  rw [Int.emod_eq_of_lt (by omega) (by omega)]
  omega

/-- One `check_neighbor` call keeps the shortest-path invariant while the neighbours of
`(y, x)` are scanned. -/
theorem check_neighbor_DInv {d : Dungeon} {type : Dijkstra_T} {diagonal : Bool}
    {cost0 : Nat → Int} {k : Nat} {L : Int} {cost cost2 : Nat → Int} {t t2 : PTree}
    {y x dy dx : Int} (hyp : Hyp d type cost0)
    (dinv : DInv d type diagonal cost0 (some (y, x)) k L cost t)
    (hu : InB d y x) (hue : Enq type d y x) (huo : DIJKSTRA d y x ∉ t.addrs)
    (hcu : cost (COST_TRANSLATE d y x) = L) (hL : L ≠ INT_MAX) (hk : L + 7 ≤ 7 * (k : Int))
    (hdir : Dir diagonal dy dx) (hperm : t2.addrs.Perm t.addrs)
    (hle : ∀ i, cost2 i ≤ cost i)
    (hch : ∀ i, cost2 i ≠ cost i → Relaxable type d y x dy dx ∧
        DIJKSTRA d (y + dy) (x + dx) ∈ t.addrs ∧ i = COST_TRANSLATE d (y + dy) (x + dx) ∧
        cost2 i = add32 (cost (COST_TRANSLATE d y x))
          (cost_function type d (y + dy) (x + dx))) :
    DInv d type diagonal cost0 (some (y, x)) k L cost2 t2 := by
  have hL0 : 0 ≤ L := by
    have := dinv.bound y x hu (by rw [hcu]; exact hL)
    rw [hcu] at this; exact this.1
  have hkb : 7 * (k : Int) < INT_MAX := by
    have h1 := dinv.cnt
    have h2 := hyp.small
    have : (k : Int) ≤ (((d.height - 2) * (d.width - 2) : Nat) : Int) := by
      exact_mod_cast (by omega : k ≤ (d.height - 2) * (d.width - 2))
    omega
  -- a changed entry belongs to the on-heap target and holds `L + weight`
  have hnew : ∀ i, cost2 i ≠ cost i → i = COST_TRANSLATE d (y + dy) (x + dx) ∧
      Relaxable type d y x dy dx ∧ DIJKSTRA d (y + dy) (x + dx) ∈ t.addrs ∧
      cost2 i = L + cost_function type d (y + dy) (x + dx) ∧
      1 ≤ cost_function type d (y + dy) (x + dx) ∧ cost_function type d (y + dy) (x + dx) ≤ 7 := by
    intro i hi
    obtain ⟨hr, hm, he, hv⟩ := hch i hi
    have hw := hyp.wpos _ _ hr.1 hr.2.1
    refine ⟨he, hr, hm, ?_, hw⟩
    rw [hv, hcu]
    unfold INT_MAX at hkb
    exact add32_eq (by omega) (by omega)
  -- entries of off-heap vertices are untouched
  have hoff : ∀ y2 x2, InB d y2 x2 → DIJKSTRA d y2 x2 ∉ t.addrs →
      cost2 (COST_TRANSLATE d y2 x2) = cost (COST_TRANSLATE d y2 x2) := by
    intro y2 x2 hb ho
    by_contra hne
    obtain ⟨he, hr, hm, _⟩ := hnew _ hne
    obtain ⟨e1, e2⟩ := COST_TRANSLATE_inj hb hr.1 he
    rw [e1, e2] at ho
    exact ho hm
  have hmem : ∀ a, a ∈ t2.addrs ↔ a ∈ t.addrs := fun a => hperm.mem_iff
  refine ⟨?_, ?_, ?_, ?_, ?_, ?_⟩
  · intro y2 x2 hb hm
    by_cases hne : cost2 (COST_TRANSLATE d y2 x2) = cost (COST_TRANSLATE d y2 x2)
    · rw [hne]; exact dinv.lo y2 x2 hb ((hmem _).mp hm)
    · obtain ⟨_, _, _, hv, hw, _⟩ := hnew _ hne
      rw [hv]; omega
  · intro y2 x2 hb he ho
    have ho2 : DIJKSTRA d y2 x2 ∉ t.addrs := fun e => ho ((hmem _).mpr e)
    rw [hoff y2 x2 hb ho2]
    exact dinv.hi y2 x2 hb he ho2
  · intro y2 x2 hb he ho hc hf dy2 dx2 hd hr
    have ho2 : DIJKSTRA d y2 x2 ∉ t.addrs := fun e => ho ((hmem _).mpr e)
    rw [hoff y2 x2 hb ho2] at hf ⊢
    exact le_trans (hle _) (dinv.tri y2 x2 hb he ho2 hc hf dy2 dx2 hd hr)
  · intro y2 x2 hb hne0
    by_cases hne : cost2 (COST_TRANSLATE d y2 x2) = cost (COST_TRANSLATE d y2 x2)
    · rw [hne] at hne0
      obtain ⟨y3, x3, dy3, dx3, hb3, he3, ho3, hd3, ey, ex, hr3, hf3, hv3⟩ :=
        dinv.pred y2 x2 hb hne0
      refine ⟨y3, x3, dy3, dx3, hb3, he3, fun e => ho3 ((hmem _).mp e), hd3, ey, ex, hr3, ?_, ?_⟩
      · rw [hoff y3 x3 hb3 ho3]; exact hf3
      · rw [hoff y3 x3 hb3 ho3, hne]; exact hv3
    · obtain ⟨he, hr, hm, hv, _⟩ := hnew _ hne
      obtain ⟨e1, e2⟩ := COST_TRANSLATE_inj hb hr.1 he
      refine ⟨y, x, dy, dx, hu, hue, fun e => huo ((hmem _).mp e), hdir, e1, e2, hr, ?_, ?_⟩
      · rw [hoff y x hu huo, hcu]; exact hL
      · rw [hoff y x hu huo, hcu, hv, e1, e2]
  · intro y2 x2 hb hf
    by_cases hne : cost2 (COST_TRANSLATE d y2 x2) = cost (COST_TRANSLATE d y2 x2)
    · rw [hne] at hf ⊢
      exact dinv.bound y2 x2 hb hf
    · obtain ⟨_, _, _, hv, hw1, hw2⟩ := hnew _ hne
      rw [hv]
      constructor <;> omega
  · rw [hperm.length_eq]; exact dinv.cnt

/-- State of the scan of the neighbours of the extracted vertex `(y, x)`: `ds` lists the
directions already handled. -/
structure MInv (d : Dungeon) (type : Dijkstra_T) (diagonal : Bool) (dijkstra : Nat → Vertex)
    (cost0 : Nat → Int) (y x : Int) (k : Nat) (L : Int) (ds : List (Int × Int))
    (h : Heap) (cost : Nat → Int) (t : PTree) : Prop where
  linv : LInv d type dijkstra cost0 h cost t
  huo : DIJKSTRA d y x ∉ t.addrs
  cu : cost (COST_TRANSLATE d y x) = L
  dinv : Hyp d type cost0 → DInv d type diagonal cost0 (some (y, x)) k L cost t
  rel : Hyp d type cost0 → ∀ p ∈ ds, Relaxable type d y x p.1 p.2 →
    DIJKSTRA d (y + p.1) (x + p.2) ∈ t.addrs →
    cost (COST_TRANSLATE d (y + p.1) (x + p.2)) ≤ L + cost_function type d (y + p.1) (x + p.2)

/-- One step of the scan. -/
theorem check_neighbor_step {d : Dungeon} {type : Dijkstra_T} {diagonal : Bool}
    {dijkstra : Nat → Vertex} {cost0 : Nat → Int} {y x : Int} {k : Nat} {L : Int}
    {ds : List (Int × Int)} {h : Heap} {cost : Nat → Int} {t : PTree}
    (mi : MInv d type diagonal dijkstra cost0 y x k L ds h cost t)
    (hu : InB d y x) (hue : Enq type d y x) (hL : L ≠ INT_MAX)
    (hk : Hyp d type cost0 → L + 7 ≤ 7 * (k : Int)) (dy dx : Int)
    (hdir : Dir diagonal dy dx) :
    ∃ h2 cost2 t2, check_neighbor h d dijkstra cost (dijkstra (DIJKSTRA d y x)) dy dx type =
        some (h2, cost2) ∧
      MInv d type diagonal dijkstra cost0 y x k L ((dy, dx) :: ds) h2 cost2 t2 ∧
      h2.size = h.size ∧ t2.addrs.length = t.addrs.length := by
  obtain ⟨h2, cost2, t2, he, linv2, hperm, hsz, hle, hrel, hch⟩ :=
    check_neighbor_spec mi.linv hu dy dx
  have hmem : ∀ a, a ∈ t2.addrs ↔ a ∈ t.addrs := fun a => hperm.mem_iff
  have hcu2 : cost2 (COST_TRANSLATE d y x) = cost (COST_TRANSLATE d y x) := by
    by_contra hne
    obtain ⟨hr, hm, hi, _⟩ := hch _ hne
    obtain ⟨e1, e2⟩ := COST_TRANSLATE_inj hu hr.1 hi
    rw [← e1, ← e2] at hm
    exact mi.huo hm
  refine ⟨h2, cost2, t2, he, ⟨linv2, fun e => mi.huo ((hmem _).mp e), by rw [hcu2, mi.cu],
    ?_, ?_⟩, hsz, hperm.length_eq⟩
  · intro hyp
    exact check_neighbor_DInv hyp (mi.dinv hyp) hu hue mi.huo mi.cu hL (hk hyp) hdir hperm hle hch
  · intro hyp p hp hr hm
    simp only [List.mem_cons] at hp
    rcases hp with rfl | hp
    · simp only at hr hm ⊢
      have h1 := hrel hr ((hmem _).mp hm)
      have hw := hyp.wpos _ _ hr.1 hr.2.1
      have hL0 := ((mi.dinv hyp).bound y x hu (by rw [mi.cu]; exact hL)).1
      have hkb : 7 * (k : Int) < INT_MAX := by
        have h1 := (mi.dinv hyp).cnt
        have h2 := hyp.small
        have : (k : Int) ≤ (((d.height - 2) * (d.width - 2) : Nat) : Int) := by
          exact_mod_cast (by omega : k ≤ (d.height - 2) * (d.width - 2))
        omega
      have hk2 := hk hyp
      rw [mi.cu] at h1 hL0
      unfold INT_MAX at hkb
      rw [add32_eq (by omega) (by omega)] at h1
      exact h1
    · exact le_trans (hle _) (mi.rel hyp p hp hr ((hmem _).mp hm))

/-- The directions handled by `check_neighbors`. -/
def scanned (diagonal : Bool) : List (Int × Int) :=
  if diagonal then [(1, 1), (1, -1), (-1, 1), (-1, -1), (0, 1), (0, -1), (1, 0), (-1, 0)]
  else [(0, 1), (0, -1), (1, 0), (-1, 0)]

theorem Dir_scanned {diagonal : Bool} {dy dx : Int} (h : Dir diagonal dy dx) :
    (dy, dx) ∈ scanned diagonal := by
  unfold scanned
  rcases h with ⟨rfl, rfl⟩ | ⟨rfl, rfl⟩ | ⟨rfl, rfl⟩ | ⟨rfl, rfl⟩ | ⟨hd, h⟩
  · cases diagonal <;> simp
  · cases diagonal <;> simp
  · cases diagonal <;> simp
  · cases diagonal <;> simp
  · subst hd
    rcases h with ⟨rfl, rfl⟩ | ⟨rfl, rfl⟩ | ⟨rfl, rfl⟩ | ⟨rfl, rfl⟩ <;> simp

/-- The whole scan. -/
theorem check_neighbors_spec {d : Dungeon} {type : Dijkstra_T} {diagonal : Bool}
    {dijkstra : Nat → Vertex} {cost0 : Nat → Int} {y x : Int} {k : Nat} {L : Int}
    {h : Heap} {cost : Nat → Int} {t : PTree}
    (mi : MInv d type diagonal dijkstra cost0 y x k L [] h cost t)
    (hu : InB d y x) (hue : Enq type d y x) (hL : L ≠ INT_MAX)
    (hk : Hyp d type cost0 → L + 7 ≤ 7 * (k : Int)) :
    ∃ h2 cost2 t2, check_neighbors h d dijkstra cost (dijkstra (DIJKSTRA d y x)) diagonal type =
        some (h2, cost2) ∧
      MInv d type diagonal dijkstra cost0 y x k L (scanned diagonal) h2 cost2 t2 ∧
      h2.size = h.size ∧ t2.addrs.length = t.addrs.length := by
  obtain ⟨h1, c1, t1, e1, m1, s1, l1⟩ :=
    check_neighbor_step mi hu hue hL hk (-1) 0 (Or.inl ⟨rfl, rfl⟩)
  obtain ⟨h2, c2, t2, e2, m2, s2, l2⟩ :=
    check_neighbor_step m1 hu hue hL hk 1 0 (Or.inr (Or.inl ⟨rfl, rfl⟩))
  obtain ⟨h3, c3, t3, e3, m3, s3, l3⟩ :=
    check_neighbor_step m2 hu hue hL hk 0 (-1) (Or.inr (Or.inr (Or.inl ⟨rfl, rfl⟩)))
  obtain ⟨h4, c4, t4, e4, m4, s4, l4⟩ :=
    check_neighbor_step m3 hu hue hL hk 0 1 (Or.inr (Or.inr (Or.inr (Or.inl ⟨rfl, rfl⟩))))
  unfold check_neighbors
  rw [e1]; simp only
  rw [e2]; simp only
  rw [e3]; simp only
  rw [e4]; simp only
  cases hd : diagonal with
  | false =>
    subst hd
    refine ⟨h4, c4, t4, by simp, by simpa [scanned] using m4, ?_, ?_⟩
    · rw [s4, s3, s2, s1]
    · rw [l4, l3, l2, l1]
  | true =>
    subst hd
    have dg : ∀ dy dx : Int, ((dy = -1 ∧ dx = -1) ∨ (dy = -1 ∧ dx = 1) ∨ (dy = 1 ∧ dx = -1) ∨
        (dy = 1 ∧ dx = 1)) → Dir true dy dx :=
      fun dy dx hh => Or.inr (Or.inr (Or.inr (Or.inr ⟨rfl, hh⟩)))
    obtain ⟨h5, c5, t5, e5, m5, s5, l5⟩ :=
      check_neighbor_step m4 hu hue hL hk (-1) (-1) (dg _ _ (Or.inl ⟨rfl, rfl⟩))
    obtain ⟨h6, c6, t6, e6, m6, s6, l6⟩ :=
      check_neighbor_step m5 hu hue hL hk (-1) 1 (dg _ _ (Or.inr (Or.inl ⟨rfl, rfl⟩)))
    obtain ⟨h7, c7, t7, e7, m7, s7, l7⟩ :=
      check_neighbor_step m6 hu hue hL hk 1 (-1) (dg _ _ (Or.inr (Or.inr (Or.inl ⟨rfl, rfl⟩))))
    obtain ⟨h8, c8, t8, e8, m8, s8, l8⟩ :=
      check_neighbor_step m7 hu hue hL hk 1 1 (dg _ _ (Or.inr (Or.inr (Or.inr ⟨rfl, rfl⟩))))
    simp only [if_true]
    rw [e5]; simp only
    rw [e6]; simp only
    rw [e7]; simp only
    refine ⟨h8, c8, t8, e8, by simpa [scanned] using m8, ?_, ?_⟩
    · rw [s8, s7, s6, s5, s4, s3, s2, s1]
    · rw [l8, l7, l6, l5, l4, l3, l2, l1]

theorem WF_setData {h : Heap} {t : PTree} (w : WF h t) (a : Nat) (v : Option Nat) :
    WF { h with mem := h.mem.setData a v } t :=
  ⟨w.root, w.top, @Rep_congr h.mem _ t none (fun _ _ => ⟨rfl, rfl, rfl⟩) w.rep, w.nodup,
    @Ord_congr h.mem _ t (fun _ _ => rfl) w.ord, w.size⟩

/-- Extraction of the root `(yr, xr)` moves the shortest-path invariant to the scan state. -/
theorem extract_DInv {d : Dungeon} {type : Dijkstra_T} {diagonal : Bool}
    {dijkstra : Nat → Vertex} {cost0 : Nat → Int} {k : Nat} {L : Int} {h : Heap}
    {cost : Nat → Int} {r : Nat} {c t1 : PTree} {yr xr : Int}
    (inv : LInv d type dijkstra cost0 h cost (.node r c .nil))
    (dinv : DInv d type diagonal cost0 none k L cost (.node r c .nil))
    (hb : InB d yr xr) (hr : r = DIJKSTRA d yr xr) (hperm : t1.addrs.Perm c.addrs) :
    DInv d type diagonal cost0 (some (yr, xr)) (k + 1) (cost (COST_TRANSLATE d yr xr)) cost t1 := by
  have hnd : (r :: c.addrs).Nodup := by simpa [PTree.addrs] using inv.wf.nodup
  have hrc : r ∉ c.addrs := (List.nodup_cons.mp hnd).1
  have hmem1 : ∀ a, a ∈ t1.addrs ↔ a ∈ c.addrs := fun a => hperm.mem_iff
  have hmemt : ∀ a, a ∈ (PTree.node r c .nil).addrs ↔ a = r ∨ a ∈ c.addrs := by
    intro a; simp [PTree.addrs]
  have hrt : DIJKSTRA d yr xr ∈ (PTree.node r c .nil).addrs := by
    rw [hmemt]; exact Or.inl hr.symm
  have hkr := (inv.key yr xr hb hrt).1
  -- an off-heap vertex other than the root was off the heap before
  have hold : ∀ y x, InB d y x → DIJKSTRA d y x ∉ t1.addrs → (y, x) ≠ (yr, xr) →
      DIJKSTRA d y x ∉ (PTree.node r c .nil).addrs := by
    intro y x hyx ho hne hm
    rw [hmemt] at hm
    rcases hm with e | e
    · rw [hr] at e
      obtain ⟨e1, e2⟩ := DIJKSTRA_inj hyx hb e
      exact hne (by rw [e1, e2])
    · exact ho ((hmem1 _).mpr e)
  refine ⟨?_, ?_, ?_, ?_, ?_, ?_⟩
  · intro y x hyx hm
    have hm2 : DIJKSTRA d y x ∈ (PTree.node r c .nil).addrs := by
      rw [hmemt]; exact Or.inr ((hmem1 _).mp hm)
    have h1 := inv.wf.root_min _ hm2
    rw [(inv.key y x hyx hm2).1, hr, hkr] at h1
    exact h1
  · intro y x hyx he ho
    by_cases hne : (y, x) = (yr, xr)
    · cases hne; exact le_refl _
    · exact le_trans (dinv.hi y x hyx he (hold y x hyx ho hne)) (dinv.lo yr xr hb hrt)
  · intro y x hyx he ho hc hf dy dx hd hrel
    have hne : (y, x) ≠ (yr, xr) := fun e => hc (by rw [e])
    exact dinv.tri y x hyx he (hold y x hyx ho hne) (by simp) hf dy dx hd hrel
  · intro y x hyx hne
    obtain ⟨y2, x2, dy, dx, hb2, he2, ho2, hd, ey, ex, hrel, hf, hv⟩ := dinv.pred y x hyx hne
    refine ⟨y2, x2, dy, dx, hb2, he2, ?_, hd, ey, ex, hrel, hf, hv⟩
    intro hm
    exact ho2 ((hmemt _).mpr (Or.inr ((hmem1 _).mp hm)))
  · intro y x hyx hf
    have := dinv.bound y x hyx hf
    push_cast
    omega
  · have h1 := dinv.cnt
    have h2 := hperm.length_eq
    simp only [PTree.addrs, List.length_cons, List.length_append, List.length_nil] at h1
    omega

/-- Closing the scan: once the triangle inequality holds at the scanned vertex, the
invariant holds again without exemption. -/
theorem close_DInv {d : Dungeon} {type : Dijkstra_T} {diagonal : Bool} {cost0 : Nat → Int}
    {k : Nat} {L : Int} {cost : Nat → Int} {t : PTree} {yr xr : Int}
    (dinv : DInv d type diagonal cost0 (some (yr, xr)) k L cost t)
    (htri : cost (COST_TRANSLATE d yr xr) ≠ INT_MAX → ∀ dy dx, Dir diagonal dy dx →
      Relaxable type d yr xr dy dx →
      cost (COST_TRANSLATE d (yr + dy) (xr + dx)) ≤
        cost (COST_TRANSLATE d yr xr) + cost_function type d (yr + dy) (xr + dx)) :
    DInv d type diagonal cost0 none k L cost t := by
  refine ⟨dinv.lo, dinv.hi, ?_, dinv.pred, dinv.bound, dinv.cnt⟩
  intro y x hyx he ho _ hf dy dx hd hrel
  by_cases hne : (y, x) = (yr, xr)
  · cases hne
    exact htri hf dy dx hd hrel
  · exact dinv.tri y x hyx he ho (fun e => hne (Option.some.inj e).symm) hf dy dx hd hrel

/-- Specification of the main loop: it terminates and the invariants hold for the final
cost array with an empty heap. -/
theorem dijkstra_loop_spec {d : Dungeon} {type : Dijkstra_T} {diagonal : Bool}
    {dijkstra : Nat → Vertex} {cost0 : Nat → Int} : ∀ (fuel : Nat) (h : Heap)
    (cost : Nat → Int) (t : PTree) (k : Nat) (L : Int),
    LInv d type dijkstra cost0 h cost t →
    (Hyp d type cost0 → DInv d type diagonal cost0 none k L cost t) →
    t.addrs.length ≤ fuel →
    ∃ D hf kf Lf, dijkstra_loop d dijkstra diagonal type fuel h cost = some D ∧
      LInv d type dijkstra cost0 hf D .nil ∧
      (Hyp d type cost0 → DInv d type diagonal cost0 none kf Lf D .nil) := by
  intro fuel
  induction fuel with
  | zero =>
    intro h cost t k L inv dinv hf
    have ht : t = .nil := by
      cases t with
      | nil => rfl
      | node a c n => simp [PTree.addrs] at hf
    subst ht
    have hs : h.size = 0 := by rw [inv.wf.size]; simp [PTree.addrs]
    refine ⟨cost, h, k, L, ?_, inv, dinv⟩
    unfold dijkstra_loop
    simp [hs]
  | succ fuel ih =>
    intro h cost t k L inv dinv hf
    rcases inv.wf.top with ht | ⟨r, c, ht⟩
    · subst ht
      have hs : h.size = 0 := by rw [inv.wf.size]; simp [PTree.addrs]
      refine ⟨cost, h, k, L, ?_, inv, dinv⟩
      unfold dijkstra_loop
      simp [hs]
    · subst ht
      have hs : h.size > 0 := by
        rw [inv.wf.size]; simp only [PTree.addrs, List.length_cons]; push_cast; omega
      have hfc : c.addrs.length ≤ fuel := by
        simp only [PTree.addrs, List.length_cons, List.length_append, List.length_nil] at hf
        omega
      obtain ⟨h1, he1, w1, _, hk1, hd1, _, _⟩ :=
        @heap_remove_min_wf h r c (fuel + 1) inv.wf (by omega)
      have hperm := meldTree_perm h.mem.key c
      have hrt : r ∈ (PTree.node r c .nil).addrs := by simp [PTree.addrs]
      obtain ⟨yr, xr, hb, hr, hen⟩ := inv.mem r hrt
      have hkr := inv.key yr xr hb (hr ▸ hrt)
      have hnd : (r :: c.addrs).Nodup := by simpa [PTree.addrs] using inv.wf.nodup
      have hrc : r ∉ c.addrs := (List.nodup_cons.mp hnd).1
      have hdata : h1.mem.data r = some r := by rw [hd1, hr]; rw [← hr] at hkr ⊢; exact hr ▸ hkr.2
      have hvert := inv.verts yr xr hb
      rw [← hr] at hvert
      -- the structural invariant after the extraction
      have inv2 : LInv d type dijkstra cost0 { h1 with mem := h1.mem.setData r none } cost
          (meldTree h.mem.key c) := by
        refine ⟨WF_setData w1 r none, inv.verts, ?_, ?_, ?_, inv.mono, inv.frame⟩
        · intro a ha
          exact inv.mem a (by simp [PTree.addrs, hperm.mem_iff.mp ha])
        · intro y x hyx hm
          have hmc := hperm.mem_iff.mp hm
          have hne : DIJKSTRA d y x ≠ r := fun e => hrc (e ▸ hmc)
          have := inv.key y x hyx (by simp [PTree.addrs, hmc])
          simp only [data_setData, key_setData, hne, if_false, hk1, hd1]
          exact this
        · intro y x hyx hm
          by_cases hne : DIJKSTRA d y x = r
          · simp [hne]
          · simp only [data_setData, hne, if_false, hd1]
            refine inv.off y x hyx ?_
            simp only [PTree.addrs, List.mem_cons, List.mem_append, List.not_mem_nil, or_false]
            rintro (e | e)
            · exact hne e
            · exact hm (hperm.mem_iff.mpr e)
      have hro : DIJKSTRA d yr xr ∉ (meldTree h.mem.key c).addrs := by
        rw [← hr]; exact fun e => hrc (hperm.mem_iff.mp e)
      have dinv2 : Hyp d type cost0 → DInv d type diagonal cost0 (some (yr, xr)) (k + 1)
          (cost (COST_TRANSLATE d yr xr)) cost (meldTree h.mem.key c) :=
        fun hyp => extract_DInv inv (dinv hyp) hb hr hperm
      have hlen : (meldTree h.mem.key c).addrs.length ≤ fuel := by
        rw [hperm.length_eq]; exact hfc
      unfold dijkstra_loop
      simp only [hs, if_true, he1, hdata, hvert]
      by_cases hinf : cost (COST_TRANSLATE d yr xr) = INT_MAX
      · rw [if_pos hinf]
        exact ih _ cost _ (k + 1) (cost (COST_TRANSLATE d yr xr)) inv2
          (fun hyp => close_DInv (dinv2 hyp) (fun hf => absurd hinf hf)) hlen
      · rw [if_neg hinf]
        have mi : MInv d type diagonal dijkstra cost0 yr xr (k + 1)
            (cost (COST_TRANSLATE d yr xr)) [] { h1 with mem := h1.mem.setData r none } cost
            (meldTree h.mem.key c) :=
          ⟨inv2, hro, rfl, dinv2, fun _ p hp => by simp at hp⟩
        have hkb : Hyp d type cost0 → cost (COST_TRANSLATE d yr xr) + 7 ≤ 7 * ((k + 1 : Nat) : Int) := by
          intro hyp
          have := ((dinv hyp).bound yr xr hb hinf).2
          push_cast
          omega
        obtain ⟨h3, cost3, t3, e3, m3, _, l3⟩ := check_neighbors_spec mi hb hen hinf hkb
        rw [← hr] at e3
        rw [hvert] at e3
        rw [e3]
        simp only
        refine ih h3 cost3 t3 (k + 1) (cost (COST_TRANSLATE d yr xr)) m3.linv ?_ (by omega)
        intro hyp
        refine close_DInv (m3.dinv hyp) ?_
        intro hf dy dx hd hrel
        rw [m3.cu]
        by_cases hm : DIJKSTRA d (yr + dy) (xr + dx) ∈ t3.addrs
        · exact m3.rel hyp (dy, dx) (Dir_scanned hd) hrel hm
        · have hw := hyp.wpos _ _ hrel.1 hrel.2.1
          have := (m3.dinv hyp).hi _ _ hrel.1 (enq_of_finite hrel.2.1) hm
          omega

/-! ### The set-up loops -/

/-- Invariant of the set-up loops; `S` lists the vertices handled so far. -/
structure IInv (d : Dungeon) (type : Dijkstra_T) (cost : Nat → Int) (S : List (Nat × Nat))
    (s : DInit) (t : PTree) : Prop where
  wf : WF s.h t
  intr : s.h.intrusive = true
  inb : ∀ p ∈ S, InB d p.1 p.2
  mem : ∀ a ∈ t.addrs, ∃ p ∈ S, a = DIJKSTRA d p.1 p.2 ∧ Enq type d p.1 p.2
  cells : ∀ p ∈ S,
    s.dijkstra (DIJKSTRA d p.1 p.2) = ⟨p.1, p.2, cost_function type d p.1 p.2⟩ ∧
    (Enq type d p.1 p.2 → DIJKSTRA d p.1 p.2 ∈ t.addrs ∧
      s.h.mem.key (DIJKSTRA d p.1 p.2) = cost (COST_TRANSLATE d p.1 p.2) ∧
      s.h.mem.data (DIJKSTRA d p.1 p.2) = some (DIJKSTRA d p.1 p.2)) ∧
    (¬ Enq type d p.1 p.2 → s.h.mem.data (DIJKSTRA d p.1 p.2) = none)
  len : t.addrs.length ≤ S.length

theorem pair_of_DIJKSTRA {d : Dungeon} {p q : Nat × Nat} (hp : InB d p.1 p.2)
    (hq : InB d q.1 q.2) (h : DIJKSTRA d p.1 p.2 = DIJKSTRA d q.1 q.2) : p = q := by
  obtain ⟨e1, e2⟩ := DIJKSTRA_inj hp hq h
  exact Prod.ext (by exact_mod_cast e1) (by exact_mod_cast e2)

/-- One vertex of the set-up loops. -/
theorem dijkstra_init_cell_spec {d : Dungeon} {type : Dijkstra_T} {cost : Nat → Int}
    {S : List (Nat × Nat)} {s : DInit} {t : PTree} (inv : IInv d type cost S s t) (i j : Nat)
    (hb : InB d i j) (hS : (i, j) ∉ S) :
    ∃ s2 t2, dijkstra_init_cell d cost type s i j = some s2 ∧
      IInv d type cost ((i, j) :: S) s2 t2 := by
  have hidx : DIJKSTRA d i j ∉ t.addrs := by
    intro hm
    obtain ⟨p, hp, he, _⟩ := inv.mem _ hm
    have := @pair_of_DIJKSTRA d (i, j) p hb (inv.inb p hp) he
    exact hS (this ▸ hp)
  have hne : ∀ p ∈ S, DIJKSTRA d p.1 p.2 ≠ DIJKSTRA d i j := by
    intro p hp he
    have := @pair_of_DIJKSTRA d p (i, j) (inv.inb p hp) hb he
    exact hS (this ▸ hp)
  have w0 := WF_setData inv.wf (DIJKSTRA d i j) none
  by_cases hen : Enq type d i j
  · -- the vertex is inserted
    obtain ⟨h1, t1, he, w1, hperm, hi1, hk1, hd1⟩ :=
      @heap_intrusive_insert_wf { s.h with mem := s.h.mem.setData (DIJKSTRA d i j) none } t w0
        inv.intr (DIJKSTRA d i j) (cost (COST_TRANSLATE d i j)) (some (DIJKSTRA d i j)) hidx
    refine ⟨{ h := h1, dijkstra := fun k => if k = DIJKSTRA d i j then
        Vertex.mk (i : Int) (j : Int) (cost_function type d i j) else s.dijkstra k }, t1, ?_, ?_⟩
    · unfold dijkstra_init_cell
      by_cases hty : type = .REGULAR_MAP
      · have := hen hty
        simp only [hty, if_true, ne_eq, this, not_false_eq_true] at he ⊢
        rw [he]
      · simp only [hty, if_false]
        rw [he]
    · refine ⟨w1, by rw [hi1]; exact inv.intr, ?_, ?_, ?_, ?_⟩
      · intro p hp
        rcases List.mem_cons.mp hp with rfl | hp
        · exact hb
        · exact inv.inb p hp
      · intro a ha
        rcases List.mem_cons.mp (hperm.mem_iff.mp ha) with rfl | ha
        · exact ⟨(i, j), by simp, rfl, hen⟩
        · obtain ⟨p, hp, e, hpe⟩ := inv.mem a ha
          exact ⟨p, List.mem_cons_of_mem _ hp, e, hpe⟩
      · intro p hp
        rcases List.mem_cons.mp hp with rfl | hp
        · refine ⟨by simp, fun _ => ⟨hperm.mem_iff.mpr (by simp), ?_, ?_⟩, fun h => absurd hen h⟩
          · rw [hk1]; simp
          · rw [hd1]; simp
        · have hpn := hne p hp
          obtain ⟨c1, c2, c3⟩ := inv.cells p hp
          refine ⟨by simp [hpn, c1], fun h => ?_, fun h => ?_⟩
          · obtain ⟨m1, m2, m3⟩ := c2 h
            refine ⟨hperm.mem_iff.mpr (List.mem_cons_of_mem _ m1), ?_, ?_⟩
            · rw [hk1]; simp [hpn, m2]
            · rw [hd1]; simp [hpn, m3]
          · rw [hd1]; simp [hpn, c3 h]
      · have := hperm.length_eq
        have := inv.len
        simp only [List.length_cons] at *
        omega
  · -- the vertex is skipped (a rock cell of a regular map)
    have hty : type = .REGULAR_MAP := by
      by_contra hc
      exact hen (fun e => absurd e hc)
    have hrock : (d.MAP ((i : Int) + 1) ((j : Int) + 1)).type = .ROCK := by
      by_contra hc
      exact hen (fun _ => hc)
    refine ⟨{ h := { s.h with mem := s.h.mem.setData (DIJKSTRA d i j) none },
              dijkstra := fun k => if k = DIJKSTRA d i j then
        Vertex.mk (i : Int) (j : Int) (cost_function type d i j) else s.dijkstra k }, t, ?_, ?_⟩
    · unfold dijkstra_init_cell
      simp [hty, hrock]
    · refine ⟨w0, inv.intr, ?_, ?_, ?_, ?_⟩
      · intro p hp
        rcases List.mem_cons.mp hp with rfl | hp
        · exact hb
        · exact inv.inb p hp
      · intro a ha
        obtain ⟨p, hp, e, hpe⟩ := inv.mem a ha
        exact ⟨p, List.mem_cons_of_mem _ hp, e, hpe⟩
      · intro p hp
        rcases List.mem_cons.mp hp with rfl | hp
        · exact ⟨by simp, fun h => absurd h hen, fun _ => by simp⟩
        · have hpn := hne p hp
          obtain ⟨c1, c2, c3⟩ := inv.cells p hp
          refine ⟨by simp [hpn, c1], fun h => ?_, fun h => ?_⟩
          · obtain ⟨m1, m2, m3⟩ := c2 h
            exact ⟨m1, by simp [m2], by simp [hpn, m3]⟩
          · simp [hpn, c3 h]
      · have := inv.len
        simp only [List.length_cons]
        omega

/-- One row of the set-up loops. -/
theorem dijkstra_init_row_spec {d : Dungeon} {type : Dijkstra_T} {cost : Nat → Int} (i : Nat) :
    ∀ (js : List Nat) (S : List (Nat × Nat)) (s : DInit) (t : PTree),
    IInv d type cost S s t → (∀ j ∈ js, InB d i j ∧ (i, j) ∉ S) → js.Nodup →
    ∃ s2 t2 S2, dijkstra_init_row d cost type i js s = some s2 ∧ IInv d type cost S2 s2 t2 ∧
      (∀ p, p ∈ S2 ↔ p ∈ S ∨ (p.1 = i ∧ p.2 ∈ js)) ∧ S2.length = S.length + js.length
  | [], S, s, t, inv, _, _ =>
    ⟨s, t, S, rfl, inv, fun p => by simp, by simp⟩
  | j :: js, S, s, t, inv, hjs, hnd => by
    obtain ⟨hb, hS⟩ := hjs j (by simp)
    obtain ⟨s1, t1, e1, inv1⟩ := dijkstra_init_cell_spec inv i j hb hS
    have hnd2 := List.nodup_cons.mp hnd
    obtain ⟨s2, t2, S2, e2, inv2, hm2, hl2⟩ := dijkstra_init_row_spec i js ((i, j) :: S) s1 t1 inv1
      (fun j2 hj2 => ⟨(hjs j2 (by simp [hj2])).1, by
        intro hc
        rcases List.mem_cons.mp hc with e | e
        · have : j2 = j := by simpa using e
          exact hnd2.1 (this ▸ hj2)
        · exact (hjs j2 (by simp [hj2])).2 e⟩) hnd2.2
    refine ⟨s2, t2, S2, ?_, inv2, ?_, ?_⟩
    · simp only [dijkstra_init_row, e1, e2]
    · intro p
      rw [hm2]
      simp only [List.mem_cons]
      constructor
      · rintro ((rfl | h) | h)
        · exact Or.inr ⟨rfl, Or.inl rfl⟩
        · exact Or.inl h
        · exact Or.inr ⟨h.1, Or.inr h.2⟩
      · rintro (h | ⟨h1, rfl | h2⟩)
        · exact Or.inl (Or.inr h)
        · exact Or.inl (Or.inl (Prod.ext h1 rfl))
        · exact Or.inr ⟨h1, h2⟩
    · rw [hl2]; simp only [List.length_cons]; omega

/-- All rows of the set-up loops. -/
theorem dijkstra_init_spec {d : Dungeon} {type : Dijkstra_T} {cost : Nat → Int} :
    ∀ (rows : List Nat) (S : List (Nat × Nat)) (s : DInit) (t : PTree),
    IInv d type cost S s t → (∀ i ∈ rows, (i : Int) < (d.height : Int) - 2) →
    (∀ p ∈ S, p.1 ∉ rows) → rows.Nodup →
    ∃ s2 t2 S2, dijkstra_init d cost type rows s = some s2 ∧ IInv d type cost S2 s2 t2 ∧
      (∀ p, p ∈ S2 ↔ p ∈ S ∨ (p.1 ∈ rows ∧ p.2 < d.width - 2)) ∧
      S2.length = S.length + rows.length * (d.width - 2)
  | [], S, s, t, inv, _, _, _ =>
    ⟨s, t, S, rfl, inv, fun p => by simp, by simp⟩
  | i :: rows, S, s, t, inv, hrows, hS, hnd => by
    have hnd2 := List.nodup_cons.mp hnd
    obtain ⟨s1, t1, S1, e1, inv1, hm1, hl1⟩ := dijkstra_init_row_spec i
      (List.range (d.width - 2)) S s t inv
      (fun j hj => ⟨by
        have := hrows i (by simp)
        have hj2 := List.mem_range.mp hj
        unfold InB
        omega, fun hc => hS _ hc (by simp)⟩) (List.nodup_range _)
    obtain ⟨s2, t2, S2, e2, inv2, hm2, hl2⟩ := dijkstra_init_spec rows S1 s1 t1 inv1
      (fun i2 hi2 => hrows i2 (by simp [hi2]))
      (fun p hp hc => by
        rcases (hm1 p).mp hp with h | h
        · exact hS p h (by simp [hc])
        · exact hnd2.1 (h.1 ▸ hc)) hnd2.2
    refine ⟨s2, t2, S2, ?_, inv2, ?_, ?_⟩
    · simp only [dijkstra_init, e1, e2]
    · intro p
      rw [hm2, hm1]
      simp only [List.mem_cons, List.mem_range]
      constructor
      · rintro ((h | h) | h)
        · exact Or.inl h
        · exact Or.inr ⟨Or.inl h.1, h.2⟩
        · exact Or.inr ⟨Or.inr h.1, h.2⟩
      · rintro (h | ⟨h1 | h1, h2⟩)
        · exact Or.inl (Or.inl h)
        · exact Or.inl (Or.inr ⟨h1, h2⟩)
        · exact Or.inr ⟨h1, h2⟩
    · rw [hl2, hl1]
      simp only [List.length_cons, List.length_range]
      ring

/-- What `dijkstra_helper` guarantees about the cost array `D` it returns for the initial
array `cost0`. -/
structure DResult (d : Dungeon) (type : Dijkstra_T) (diagonal : Bool) (cost0 D : Nat → Int) :
    Prop where
  mono : ∀ i, D i ≤ cost0 i
  frame : ∀ i, D i ≠ cost0 i → ∃ y x, InB d y x ∧ Enq type d y x ∧
    cost_function type d y x ≠ INT_MAX ∧ i = COST_TRANSLATE d y x
  tri : Hyp d type cost0 → ∀ y x, InB d y x → Enq type d y x →
    D (COST_TRANSLATE d y x) ≠ INT_MAX → ∀ dy dx, Dir diagonal dy dx →
    Relaxable type d y x dy dx →
    D (COST_TRANSLATE d (y + dy) (x + dx)) ≤
      D (COST_TRANSLATE d y x) + cost_function type d (y + dy) (x + dx)
  pred : Hyp d type cost0 → ∀ y x, InB d y x →
    D (COST_TRANSLATE d y x) ≠ cost0 (COST_TRANSLATE d y x) →
    ∃ y2 x2 dy dx, InB d y2 x2 ∧ Enq type d y2 x2 ∧ Dir diagonal dy dx ∧ y = y2 + dy ∧
      x = x2 + dx ∧ Relaxable type d y2 x2 dy dx ∧ D (COST_TRANSLATE d y2 x2) ≠ INT_MAX ∧
      D (COST_TRANSLATE d y x) = D (COST_TRANSLATE d y2 x2) + cost_function type d y x
  bound : Hyp d type cost0 → ∀ y x, InB d y x → D (COST_TRANSLATE d y x) ≠ INT_MAX →
    0 ≤ D (COST_TRANSLATE d y x) ∧
    D (COST_TRANSLATE d y x) ≤ 7 * (((d.height - 2) * (d.width - 2) : Nat) : Int)

/-- `dijkstra_helper` terminates (given fuel for one iteration per vertex) and its result
satisfies `DResult`. -/
theorem dijkstra_helper_spec (fuel : Nat) (m0 : Mem) (v0 : Nat → Vertex) (d : Dungeon)
    (cost : Nat → Int) (diagonal : Bool) (type : Dijkstra_T)
    (hf : (d.height - 2) * (d.width - 2) ≤ fuel) :
    ∃ D, dijkstra_helper fuel m0 v0 d cost diagonal type = some D ∧
      DResult d type diagonal cost D := by
  have inv0 : IInv d type cost [] { h := new_heap m0 true, dijkstra := v0 } .nil :=
    ⟨new_heap_wf m0 true, rfl, fun p hp => by simp at hp,
      fun a ha => by simp [PTree.addrs] at ha, fun p hp => by simp at hp,
      by simp [PTree.addrs]⟩
  obtain ⟨s, t, S, e1, inv, hmS, hlS⟩ := dijkstra_init_spec (List.range (d.height - 2)) []
    { h := new_heap m0 true, dijkstra := v0 } .nil inv0
    (fun i hi => by have := List.mem_range.mp hi; omega) (fun p hp => by simp at hp)
    (List.nodup_range _)
  -- every vertex has been handled
  have hall : ∀ y x, InB d y x → (y.toNat, x.toNat) ∈ S ∧ ((y.toNat : Nat) : Int) = y ∧
      ((x.toNat : Nat) : Int) = x := by
    intro y x hb
    obtain ⟨a1, a2, a3, a4⟩ := hb
    refine ⟨?_, Int.toNat_of_nonneg a1, Int.toNat_of_nonneg a3⟩
    rw [hmS]
    refine Or.inr ⟨List.mem_range.mpr ?_, ?_⟩ <;> simp only <;> omega
  have linv : LInv d type s.dijkstra cost s.h cost t := by
    refine ⟨inv.wf, ?_, ?_, ?_, ?_, fun _ => le_refl _, fun i hi => absurd rfl hi⟩
    · intro y x hb
      obtain ⟨hm, ey, ex⟩ := hall y x hb
      have := (inv.cells _ hm).1
      simp only [ey, ex] at this
      exact this
    · intro a ha
      obtain ⟨p, hp, e, hpe⟩ := inv.mem a ha
      exact ⟨p.1, p.2, inv.inb p hp, e, hpe⟩
    · intro y x hb hm
      obtain ⟨hmS2, ey, ex⟩ := hall y x hb
      obtain ⟨p, hp, e, hpe⟩ := inv.mem _ hm
      obtain ⟨e1, e2⟩ := DIJKSTRA_inj hb (inv.inb p hp) e
      have hen : Enq type d y x := by rw [e1, e2]; exact hpe
      have := (inv.cells _ hmS2).2.1
      simp only [ey, ex] at this
      exact ⟨(this hen).2.1, (this hen).2.2⟩
    · intro y x hb hm
      obtain ⟨hmS2, ey, ex⟩ := hall y x hb
      have hc := inv.cells _ hmS2
      simp only [ey, ex] at hc
      by_cases hen : Enq type d y x
      · exact absurd (hc.2.1 hen).1 hm
      · exact hc.2.2 hen
  have hlen : t.addrs.length ≤ (d.height - 2) * (d.width - 2) := by
    have := inv.len
    simp only [List.length_nil, List.length_range, zero_add] at hlS
    omega
  have dinv : Hyp d type cost → DInv d type diagonal cost none 0 0 cost t := by
    intro hyp
    have hon : ∀ y x, InB d y x → Enq type d y x → DIJKSTRA d y x ∈ t.addrs := by
      intro y x hb hen
      obtain ⟨hmS2, ey, ex⟩ := hall y x hb
      have hc := inv.cells _ hmS2
      simp only [ey, ex] at hc
      exact (hc.2.1 hen).1
    refine ⟨?_, ?_, ?_, ?_, ?_, ?_⟩
    · intro y x hb _
      rcases hyp.init y x hb with h | h <;> rw [h]
      unfold INT_MAX; omega
    · intro y x hb hen ho
      exact absurd (hon y x hb hen) ho
    · intro y x hb hen ho
      exact absurd (hon y x hb hen) ho
    · intro y x _ hne
      exact absurd rfl hne
    · intro y x hb hfin
      rcases hyp.init y x hb with h | h
      · rw [h]; simp
      · exact absurd h hfin
    · simpa using hlen
  obtain ⟨D, hfin, kf, Lf, e2, linvf, dinvf⟩ :=
    dijkstra_loop_spec fuel s.h cost t 0 0 linv dinv (le_trans hlen hf)
  refine ⟨D, ?_, linvf.mono, linvf.frame, ?_, ?_, ?_⟩
  · simp only [dijkstra_helper, e1, e2]
  · intro hyp y x hb hen hfi dy dx hd hr
    exact (dinvf hyp).tri y x hb hen (by simp [PTree.addrs]) (by simp) hfi dy dx hd hr
  · intro hyp y x hb hne
    obtain ⟨y2, x2, dy, dx, h1, h2, _, h4, h5, h6, h7, h8, h9⟩ := (dinvf hyp).pred y x hb hne
    exact ⟨y2, x2, dy, dx, h1, h2, h4, h5, h6, h7, h8, h9⟩
  · intro hyp y x hb hfi
    have h1 := (dinvf hyp).bound y x hb hfi
    have h2 := (dinvf hyp).cnt
    have : (kf : Int) ≤ (((d.height - 2) * (d.width - 2) : Nat) : Int) := by
      exact_mod_cast (by omega : kf ≤ (d.height - 2) * (d.width - 2))
    constructor <;> omega

/-! ### Cells, weights and allowed steps in grid coordinates -/

/-- The cell `(y, x)` is not on the border of the grid. -/
def Interior (d : Dungeon) (y x : Int) : Prop :=
  1 ≤ y ∧ y ≤ (d.height : Int) - 2 ∧ 1 ≤ x ∧ x ≤ (d.width : Int) - 2

/-- The cell `(y, x)` lies in the grid. -/
def InGrid (d : Dungeon) (y x : Int) : Prop :=
  0 ≤ y ∧ y < (d.height : Int) ∧ 0 ≤ x ∧ x < (d.width : Int)

/-- The weight the policy charges for entering the cell `(y, x)`. -/
def weight (type : Dijkstra_T) (d : Dungeon) (y x : Int) : Int :=
  cost_function type d (y - 1) (x - 1)

/-- Every border cell is immutable rock. -/
def BorderOk (d : Dungeon) : Prop :=
  ∀ y < d.height, ∀ x < d.width, ¬ Interior d y x →
    (d.MAP y x).type = .ROCK ∧ (d.MAP y x).hardness = IMMUTABLE_ROCK_HARDNESS

/-- Every hardness lies in `0..255`. -/
def HardnessOk (d : Dungeon) : Prop :=
  ∀ y < d.height, ∀ x < d.width, 0 ≤ (d.MAP y x).hardness ∧ (d.MAP y x).hardness ≤ 255

/-- A step from `(y, x)` to `(y2, x2)` that the policy allows: a 4-neighbour (or, with
`diagonal`, 8-neighbour) step into a cell of the grid of finite weight; under `REGULAR_MAP`
a diagonal step also needs one of the two cells orthogonal to it to be non-rock. -/
def Step (type : Dijkstra_T) (diagonal : Bool) (d : Dungeon) (y x y2 x2 : Int) : Prop :=
  InGrid d y2 x2 ∧ Dir diagonal (y2 - y) (x2 - x) ∧ weight type d y2 x2 ≠ INT_MAX ∧
  (type = .REGULAR_MAP → y2 ≠ y → x2 ≠ x →
    (d.MAP y2 x).type ≠ .ROCK ∨ (d.MAP y x2).type ≠ .ROCK)

/-- There is a path of allowed steps from `(sy, sx)` to `(y, x)` along which the weights of
the cells entered sum up to `c`. -/
inductive PathCost (type : Dijkstra_T) (diagonal : Bool) (d : Dungeon) (sy sx : Int) :
    Int → Int → Int → Prop where
  | start : PathCost type diagonal d sy sx sy sx 0
  | step {y x c y2 x2 : Int} : PathCost type diagonal d sy sx y x c →
      Step type diagonal d y x y2 x2 →
      PathCost type diagonal d sy sx y2 x2 (c + weight type d y2 x2)

theorem DIFFERENCE_eq : DIFFERENCE = 42 := by decide

theorem tunnel_difference_eq :
    Int.tdiv (MAX_ROCK_HARDNESS - MIN_ROCK_HARDNESS) TUNNEL_NUM_HARDNESS_LEVELS = 84 := by decide

theorem interior_of_InB {d : Dungeon} {y x : Int} (h : InB d y x) :
    Interior d (y + 1) (x + 1) := by
  unfold InB at h; unfold Interior; omega

theorem InB_of_interior {d : Dungeon} {y x : Int} (h : Interior d y x) :
    InB d (y - 1) (x - 1) := by
  unfold Interior at h; unfold InB; omega

/-- Finite weights lie between 1 and 7 when hardness values are in range. -/
theorem weight_range {d : Dungeon} (hh : HardnessOk d) (type : Dijkstra_T) {y x : Int}
    (hb : InB d y x) (hf : cost_function type d y x ≠ INT_MAX) :
    1 ≤ cost_function type d y x ∧ cost_function type d y x ≤ 7 := by
  obtain ⟨b1, b2, b3, b4⟩ := hb
  have hy : ((y + 1).toNat : Int) = y + 1 := Int.toNat_of_nonneg (by omega)
  have hx : ((x + 1).toNat : Int) = x + 1 := Int.toNat_of_nonneg (by omega)
  have hc := hh (y + 1).toNat (by omega) (x + 1).toNat (by omega)
  rw [hy, hx] at hc
  obtain ⟨h0, h1⟩ := hc
  cases type with
  | CORRIDOR_MAP =>
    simp only [cost_function, corridor_cost] at hf ⊢
    by_cases h255 : (d.MAP (y + 1) (x + 1)).hardness = IMMUTABLE_ROCK_HARDNESS
    · simp [h255] at hf
    · simp only [h255, if_false] at hf ⊢
      rw [DIFFERENCE_eq, Int.tdiv_eq_ediv h0 (by omega)]
      simp only [CORR_NUM_HARDNESS_LEVELS, CORR_ROOM_WEIGHT, CORR_CORRIDOR_WEIGHT]
      cases (d.MAP (y + 1) (x + 1)).type <;> simp only
      · split <;> omega
      all_goals omega
  | TUNNEL_MAP =>
    simp only [cost_function, tunnel_cost] at hf ⊢
    by_cases h255 : (d.MAP (y + 1) (x + 1)).hardness = IMMUTABLE_ROCK_HARDNESS
    · simp [h255] at hf
    · simp only [h255, if_false] at hf ⊢
      rw [tunnel_difference_eq, Int.tdiv_eq_ediv h0 (by omega)]
      omega
  | REGULAR_MAP =>
    simp only [cost_function, regular_cost] at hf ⊢
    by_cases hr : (d.MAP (y + 1) (x + 1)).type = .ROCK
    · simp [hr] at hf
    · simp [hr]

theorem COST_inj {d : Dungeon} {y x y2 x2 : Int} (h1 : InGrid d y x) (h2 : InGrid d y2 x2)
    (h : COST d y x = COST d y2 x2) : y = y2 ∧ x = x2 := by
  unfold COST at h
  obtain ⟨a1, a2, a3, a4⟩ := h1
  obtain ⟨b1, b2, b3, b4⟩ := h2
  have e1 : 0 ≤ y * (d.width : Int) + x := Int.add_nonneg (Int.mul_nonneg a1 (by omega)) a3
  have e2 : 0 ≤ y2 * (d.width : Int) + x2 := Int.add_nonneg (Int.mul_nonneg b1 (by omega)) b3
  have h3 : y * (d.width : Int) + x = y2 * (d.width : Int) + x2 := by
    rw [← Int.toNat_of_nonneg e1, ← Int.toNat_of_nonneg e2, h]
  exact flat_inj a3 a4 b3 b4 h3

theorem InGrid_of_interior {d : Dungeon} {y x : Int} (h : Interior d y x) : InGrid d y x := by
  unfold Interior at h; unfold InGrid; omega

theorem regular_finite_iff (d : Dungeon) (y x : Int) :
    cost_function .REGULAR_MAP d y x ≠ INT_MAX ↔ (d.MAP (y + 1) (x + 1)).type ≠ .ROCK := by
  simp only [cost_function, regular_cost]
  by_cases h : (d.MAP (y + 1) (x + 1)).type = .ROCK
  · simp [h]
  · simp [h, INT_MAX]

/-- With an immutable rock border, a cell of the grid of finite weight is interior. -/
theorem interior_of_finite {type : Dijkstra_T} {d : Dungeon} {y x : Int} (hb : BorderOk d)
    (hg : InGrid d y x) (hw : weight type d y x ≠ INT_MAX) : Interior d y x := by
  by_contra hni
  obtain ⟨g1, g2, g3, g4⟩ := hg
  have hy : ((y.toNat : Nat) : Int) = y := Int.toNat_of_nonneg g1
  have hx : ((x.toNat : Nat) : Int) = x := Int.toNat_of_nonneg g3
  have h := hb y.toNat (by omega) x.toNat (by omega)
  rw [hy, hx] at h
  obtain ⟨t1, t2⟩ := h hni
  apply hw
  have e1 : y - 1 + 1 = y := by ring
  have e2 : x - 1 + 1 = x := by ring
  cases type <;>
    simp [weight, cost_function, corridor_cost, tunnel_cost, regular_cost, e1, e2, t1, t2]

/-- A step of the claim seen from the vertex array: the tests of `check_neighbor`. -/
theorem relaxable_of_step {type : Dijkstra_T} {diagonal : Bool} {d : Dungeon} {a b dy dx : Int}
    (hb : BorderOk d) (h : Step type diagonal d (a + 1) (b + 1) (a + dy + 1) (b + dx + 1)) :
    Dir diagonal dy dx ∧ Relaxable type d a b dy dx := by
  obtain ⟨h1, h2, h3, h4⟩ := h
  replace h1 := interior_of_finite hb h1 h3
  have e1 : a + dy + 1 - (a + 1) = dy := by ring
  have e2 : b + dx + 1 - (b + 1) = dx := by ring
  have e3 : a + dy + 1 - 1 = a + dy := by ring
  have e4 : b + dx + 1 - 1 = b + dx := by ring
  rw [e1, e2] at h2
  unfold weight at h3
  rw [e3, e4] at h3
  refine ⟨h2, ?_, h3, ?_⟩
  · have := InB_of_interior h1
    rw [e3, e4] at this
    exact this
  · rintro ⟨ht, c1, c2⟩
    subst ht
    have t1 := (regular_finite_iff d (a + dy) (b + dx)).mp h3
    have r1 : (d.MAP (a + dy + 1) (b + 1)).type = .ROCK := by
      by_contra hc; exact (regular_finite_iff d (a + dy) b).mpr hc c1
    have r2 : (d.MAP (a + 1) (b + dx + 1)).type = .ROCK := by
      by_contra hc; exact (regular_finite_iff d a (b + dx)).mpr hc c2
    by_cases hdy : dy = 0
    · subst hdy
      simp only [add_zero] at t1 r2
      exact t1 r2
    · by_cases hdx : dx = 0
      · subst hdx
        simp only [add_zero] at t1 r1
        exact t1 r1
      · rcases h4 rfl (by omega) (by omega) with h | h
        · exact h r1
        · exact h r2

/-- The tests of `check_neighbor` seen from the grid: a step of the claim. -/
theorem step_of_relaxable {type : Dijkstra_T} {diagonal : Bool} {d : Dungeon} {a b dy dx : Int}
    (hd : Dir diagonal dy dx) (h : Relaxable type d a b dy dx) :
    Step type diagonal d (a + 1) (b + 1) (a + dy + 1) (b + dx + 1) := by
  obtain ⟨h1, h2, h3⟩ := h
  have e1 : a + dy + 1 - (a + 1) = dy := by ring
  have e2 : b + dx + 1 - (b + 1) = dx := by ring
  have e3 : a + dy + 1 - 1 = a + dy := by ring
  have e4 : b + dx + 1 - 1 = b + dx := by ring
  refine ⟨InGrid_of_interior (interior_of_InB h1), by rw [e1, e2]; exact hd,
    by unfold weight; rw [e3, e4]; exact h2, ?_⟩
  intro ht _ _
  subst ht
  by_contra hc
  rw [not_or, not_not, not_not] at hc
  apply h3
  refine ⟨rfl, ?_, ?_⟩
  · by_contra hf; exact (regular_finite_iff d (a + dy) b).mp hf hc.1
  · by_contra hf; exact (regular_finite_iff d a (b + dx)).mp hf hc.2

/-- The source loop for a single source inside the grid. -/
theorem fill_sources_single (d : Dungeon) (sy sx : Int) (hs : InGrid d sy sx) :
    fill_sources d 1 [sy, sx] (List.range 1) (fun _ => INT_MAX) =
      some (setCost (fun _ => INT_MAX) (COST d sy sx) 0) := by
  obtain ⟨a1, a2, a3, a4⟩ := hs
  have h1 : 0 ≤ sy * (d.width : Int) + sx := Int.add_nonneg (Int.mul_nonneg a1 (by omega)) a3
  have h2 : sy * (d.width : Int) + sx < (d.height : Int) * d.width := by
    have : (sy + 1) * (d.width : Int) ≤ (d.height : Int) * d.width :=
      Int.mul_le_mul_of_nonneg_right (by omega) (by omega)
    have e : (sy + 1) * (d.width : Int) = sy * d.width + d.width := by ring
    omega
  have hr : List.range 1 = [0] := rfl
  rw [hr]
  simp [fill_sources, h1, h2]

/-- Facts about the cost field of a single in-grid source, as delivered by
`dijkstra_helper_spec`. -/
theorem generate_single_spec (fuel : Nat) (m0 : Mem) (v0 : Nat → Vertex) (d : Dungeon)
    (sy sx : Int) (diagonal : Bool) (type : Dijkstra_T) (hs : InGrid d sy sx)
    (hf : (d.height - 2) * (d.width - 2) ≤ fuel) :
    ∃ D, generate_dijkstra_map fuel m0 v0 d 1 [sy, sx] diagonal type = some D ∧
      DResult d type diagonal (setCost (fun _ => INT_MAX) (COST d sy sx) 0) D := by
  obtain ⟨D, e, r⟩ := dijkstra_helper_spec fuel m0 v0 d
    (setCost (fun _ => INT_MAX) (COST d sy sx) 0) diagonal type hf
  exact ⟨D, by simp only [generate_dijkstra_map, fill_sources_single d sy sx hs, e], r⟩

/-- The side conditions of the shortest-path invariant for a single source. -/
theorem hyp_single {d : Dungeon} (type : Dijkstra_T) (sy sx : Int) (hh : HardnessOk d)
    (hsmall : 7 * ((((d.height - 2) * (d.width - 2) : Nat) : Int) + 1) < INT_MAX) :
    Hyp d type (setCost (fun _ => INT_MAX) (COST d sy sx) 0) :=
  ⟨fun _ _ hb hfin => weight_range hh type hb hfin,
    fun y x _ => by
      unfold setCost
      by_cases h : COST_TRANSLATE d y x = COST d sy sx
      · simp [h]
      · simp [h],
    by omega⟩

theorem COST_TRANSLATE_eq (d : Dungeon) (a b : Int) :
    COST_TRANSLATE d a b = COST d (a + 1) (b + 1) := rfl

/-- Consequences of `DResult` for a single interior source that is enqueued. -/
structure SingleFacts (type : Dijkstra_T) (diagonal : Bool) (d : Dungeon) (sy sx : Int)
    (D : Nat → Int) : Prop where
  src : D (COST d sy sx) = 0
  le_path : ∀ y x c, PathCost type diagonal d sy sx y x c →
    Interior d y x ∧ D (COST d y x) ≠ INT_MAX ∧ D (COST d y x) ≤ c
  path : ∀ y x, Interior d y x → D (COST d y x) ≠ INT_MAX →
    PathCost type diagonal d sy sx y x (D (COST d y x))
  border : ∀ y x, InGrid d y x → ¬ Interior d y x → D (COST d y x) = INT_MAX
  tri : ∀ y x y2 x2, PathCost type diagonal d sy sx y x (D (COST d y x)) →
    Step type diagonal d y x y2 x2 →
    D (COST d y2 x2) ≤ D (COST d y x) + weight type d y2 x2 ∧ D (COST d y2 x2) ≠ INT_MAX
  zero : ∀ y x, InGrid d y x → D (COST d y x) = 0 → y = sy ∧ x = sx
  nonneg : ∀ y x, InGrid d y x → 0 ≤ D (COST d y x)
  le_max : ∀ y x, InGrid d y x → D (COST d y x) ≤ INT_MAX
  bound : ∀ y x, Interior d y x → D (COST d y x) ≠ INT_MAX →
    D (COST d y x) ≤ 7 * (((d.height - 2) * (d.width - 2) : Nat) : Int)

theorem single_facts_of {type : Dijkstra_T} {diagonal : Bool} {d : Dungeon} {sy sx : Int}
    {cost0 D : Nat → Int} (R : DResult d type diagonal cost0 D)
    (hc0 : ∀ y x, InGrid d y x → cost0 (COST d y x) = if y = sy ∧ x = sx then 0 else INT_MAX)
    (hbo : BorderOk d) (hh : HardnessOk d)
    (hsmall : 7 * ((((d.height - 2) * (d.width - 2) : Nat) : Int) + 1) < INT_MAX)
    (hs : Interior d sy sx) (helig : type = .REGULAR_MAP → (d.MAP sy sx).type ≠ .ROCK) :
    SingleFacts type diagonal d sy sx D := by
  have hyp : Hyp d type cost0 :=
    ⟨fun _ _ hb hfin => weight_range hh type hb hfin,
      fun y x hb => by
        rw [COST_TRANSLATE_eq, hc0 _ _ (InGrid_of_interior (interior_of_InB hb))]
        split <;> simp,
      by omega⟩
  have hsg := InGrid_of_interior hs
  obtain ⟨sa, rfl⟩ : ∃ a, sy = a + 1 := ⟨sy - 1, by ring⟩
  obtain ⟨sb, rfl⟩ : ∃ b, sx = b + 1 := ⟨sx - 1, by ring⟩
  have hsb : InB d sa sb := by
    have := InB_of_interior hs
    simpa using this
  have hsen : Enq type d sa sb := helig
  have hsrc : D (COST d (sa + 1) (sb + 1)) = 0 := by
    have h1 := R.mono (COST d (sa + 1) (sb + 1))
    rw [hc0 _ _ hsg] at h1
    simp only [and_self, if_true] at h1
    have h2 := (R.bound hyp sa sb hsb (by
      rw [COST_TRANSLATE_eq]; unfold INT_MAX; omega)).1
    rw [COST_TRANSLATE_eq] at h2
    omega
  -- triangle inequality in grid coordinates
  have htri : ∀ a b dy dx, InB d a b → Enq type d a b → D (COST d (a + 1) (b + 1)) ≠ INT_MAX →
      Step type diagonal d (a + 1) (b + 1) (a + dy + 1) (b + dx + 1) →
      D (COST d (a + dy + 1) (b + dx + 1)) ≤
        D (COST d (a + 1) (b + 1)) + weight type d (a + dy + 1) (b + dx + 1) ∧
      D (COST d (a + dy + 1) (b + dx + 1)) ≠ INT_MAX := by
    intro a b dy dx hb hen hfin hst
    obtain ⟨hd, hr⟩ := relaxable_of_step hbo hst
    have h1 := R.tri hyp a b hb hen hfin dy dx hd hr
    have h2 := (R.bound hyp a b hb hfin).2
    have hw := hyp.wpos _ _ hr.1 hr.2.1
    simp only [COST_TRANSLATE_eq] at h1 h2
    have e3 : a + dy + 1 - 1 = a + dy := by ring
    have e4 : b + dx + 1 - 1 = b + dx := by ring
    unfold weight
    rw [e3, e4]
    refine ⟨h1, ?_⟩
    omega
  have hpath : ∀ y x c, PathCost type diagonal d (sa + 1) (sb + 1) y x c →
      Interior d y x ∧ D (COST d y x) ≠ INT_MAX ∧ D (COST d y x) ≤ c ∧
      Enq type d (y - 1) (x - 1) := by
    intro y x c hp
    induction hp with
    | start =>
      refine ⟨hs, by rw [hsrc]; simp [INT_MAX], by rw [hsrc], ?_⟩
      simpa using hsen
    | @step y x c y2 x2 _ hst ih =>
      obtain ⟨hi, hfin, hle, hen⟩ := ih
      obtain ⟨a, rfl⟩ : ∃ a, y = a + 1 := ⟨y - 1, by ring⟩
      obtain ⟨b, rfl⟩ : ∃ b, x = b + 1 := ⟨x - 1, by ring⟩
      obtain ⟨dy, rfl⟩ : ∃ dy, y2 = a + dy + 1 := ⟨y2 - (a + 1), by ring⟩
      obtain ⟨dx, rfl⟩ : ∃ dx, x2 = b + dx + 1 := ⟨x2 - (b + 1), by ring⟩
      have hb : InB d a b := by simpa using InB_of_interior hi
      have hen2 : Enq type d a b := by simpa using hen
      obtain ⟨h1, h2⟩ := htri a b dy dx hb hen2 hfin hst
      refine ⟨interior_of_finite hbo hst.1 hst.2.2.1, h2, by omega, ?_⟩
      exact enq_of_finite hst.2.2.1
  have hgrid : ∀ a b, InB d a b → InGrid d (a + 1) (b + 1) := fun a b hb =>
    InGrid_of_interior (interior_of_InB hb)
  -- every finite entry is the cost of a path
  have hreal : ∀ (n : Nat) a b, InB d a b → D (COST d (a + 1) (b + 1)) ≠ INT_MAX →
      D (COST d (a + 1) (b + 1)) ≤ n →
      PathCost type diagonal d (sa + 1) (sb + 1) (a + 1) (b + 1) (D (COST d (a + 1) (b + 1))) := by
    intro n
    induction n with
    | zero =>
      intro a b hb hfin hle
      by_cases h0 : D (COST d (a + 1) (b + 1)) =
          cost0 (COST d (a + 1) (b + 1))
      · rw [hc0 _ _ (hgrid a b hb)] at h0
        by_cases hsame : a + 1 = sa + 1 ∧ b + 1 = sb + 1
        · rw [hsame.1, hsame.2, hsrc]; exact PathCost.start
        · simp only [hsame, if_false] at h0; exact absurd h0 hfin
      · obtain ⟨a2, b2, dy, dx, hb2, _, _, e1, e2, hr, hf2, hv⟩ := R.pred hyp a b hb
          (by rw [COST_TRANSLATE_eq]; exact h0)
        have h1 := (R.bound hyp a2 b2 hb2 hf2).1
        have hw := hyp.wpos a b hb (by rw [e1, e2]; exact hr.2.1)
        simp only [COST_TRANSLATE_eq] at hv h1
        simp only [Nat.cast_zero] at hle
        omega
    | succ n ih =>
      intro a b hb hfin hle
      by_cases h0 : D (COST d (a + 1) (b + 1)) =
          cost0 (COST d (a + 1) (b + 1))
      · rw [hc0 _ _ (hgrid a b hb)] at h0
        by_cases hsame : a + 1 = sa + 1 ∧ b + 1 = sb + 1
        · rw [hsame.1, hsame.2, hsrc]; exact PathCost.start
        · simp only [hsame, if_false] at h0; exact absurd h0 hfin
      · obtain ⟨a2, b2, dy, dx, hb2, _, hd, e1, e2, hr, hf2, hv⟩ := R.pred hyp a b hb
          (by rw [COST_TRANSLATE_eq]; exact h0)
        subst e1; subst e2
        have hw := hyp.wpos _ _ hr.1 hr.2.1
        simp only [COST_TRANSLATE_eq] at hv hf2
        have hp := ih a2 b2 hb2 hf2 (by push_cast at hle; omega)
        have hst := step_of_relaxable hd hr
        have := PathCost.step hp hst
        rw [hv]
        have e3 : a2 + dy + 1 - 1 = a2 + dy := by ring
        have e4 : b2 + dx + 1 - 1 = b2 + dx := by ring
        unfold weight at this
        rw [e3, e4] at this
        exact this
  have hnn : ∀ a b, InB d a b → 0 ≤ D (COST d (a + 1) (b + 1)) := by
    intro a b hb
    by_cases hfin : D (COST d (a + 1) (b + 1)) = INT_MAX
    · rw [hfin]; simp [INT_MAX]
    · exact (R.bound hyp a b hb (by rw [COST_TRANSLATE_eq]; exact hfin)).1
  have hbord : ∀ y x, InGrid d y x → ¬ Interior d y x → D (COST d y x) = INT_MAX := by
    intro y x hg hni
    by_contra hne
    have hc : D (COST d y x) ≠ cost0
        (COST d y x) := by
      rw [hc0 _ _ hg]
      have : ¬ (y = sa + 1 ∧ x = sb + 1) := fun e => hni (by rw [e.1, e.2]; exact hs)
      simp only [this, if_false]
      exact hne
    obtain ⟨a, b, hb, _, _, he⟩ := R.frame _ hc
    rw [COST_TRANSLATE_eq] at he
    obtain ⟨e1, e2⟩ := COST_inj hg (hgrid a b hb) he
    exact hni (by rw [e1, e2]; exact interior_of_InB hb)
  refine ⟨hsrc, fun y x c hp => ⟨(hpath y x c hp).1, (hpath y x c hp).2.1, (hpath y x c hp).2.2.1⟩,
    ?_, hbord, ?_, ?_, ?_, ?_, ?_⟩
  · intro y x hi hfin
    obtain ⟨a, rfl⟩ : ∃ a, y = a + 1 := ⟨y - 1, by ring⟩
    obtain ⟨b, rfl⟩ : ∃ b, x = b + 1 := ⟨x - 1, by ring⟩
    have hb : InB d a b := by simpa using InB_of_interior hi
    have hnn0 := hnn a b hb
    exact hreal (D (COST d (a + 1) (b + 1))).toNat a b hb hfin
      (by rw [Int.toNat_of_nonneg hnn0])
  · intro y x y2 x2 hp hst
    obtain ⟨hi, hfin, _, hen⟩ := hpath _ _ _ hp
    obtain ⟨a, rfl⟩ : ∃ a, y = a + 1 := ⟨y - 1, by ring⟩
    obtain ⟨b, rfl⟩ : ∃ b, x = b + 1 := ⟨x - 1, by ring⟩
    obtain ⟨dy, rfl⟩ : ∃ dy, y2 = a + dy + 1 := ⟨y2 - (a + 1), by ring⟩
    obtain ⟨dx, rfl⟩ : ∃ dx, x2 = b + dx + 1 := ⟨x2 - (b + 1), by ring⟩
    have hb : InB d a b := by simpa using InB_of_interior hi
    exact htri a b dy dx hb (by simpa using hen) hfin hst
  · intro y x hg hz
    by_cases hi : Interior d y x
    · by_contra hne
      obtain ⟨a, rfl⟩ : ∃ a, y = a + 1 := ⟨y - 1, by ring⟩
      obtain ⟨b, rfl⟩ : ∃ b, x = b + 1 := ⟨x - 1, by ring⟩
      have hb : InB d a b := by simpa using InB_of_interior hi
      have hc : D (COST_TRANSLATE d a b) ≠
          cost0 (COST_TRANSLATE d a b) := by
        rw [COST_TRANSLATE_eq, hc0 _ _ hg, hz]
        simp only [hne, if_false]
        simp [INT_MAX]
      obtain ⟨a2, b2, dy, dx, hb2, _, _, e1, e2, hr, hf2, hv⟩ := R.pred hyp a b hb hc
      have h1 := (R.bound hyp a2 b2 hb2 hf2).1
      have hw := hyp.wpos a b hb (by rw [e1, e2]; exact hr.2.1)
      simp only [COST_TRANSLATE_eq] at hv h1
      omega
    · have := hbord y x hg hi
      rw [hz] at this
      simp [INT_MAX] at this
  · intro y x hg
    by_cases hi : Interior d y x
    · obtain ⟨a, rfl⟩ : ∃ a, y = a + 1 := ⟨y - 1, by ring⟩
      obtain ⟨b, rfl⟩ : ∃ b, x = b + 1 := ⟨x - 1, by ring⟩
      exact hnn a b (by simpa using InB_of_interior hi)
    · rw [hbord y x hg hi]; simp [INT_MAX]
  · intro y x hg
    refine le_trans (R.mono _) ?_
    rw [hc0 y x hg]
    split <;> simp [INT_MAX]
  · intro y x hi hfin
    obtain ⟨a, rfl⟩ : ∃ a, y = a + 1 := ⟨y - 1, by ring⟩
    obtain ⟨b, rfl⟩ : ∃ b, x = b + 1 := ⟨x - 1, by ring⟩
    have hb : InB d a b := by simpa using InB_of_interior hi
    have := (R.bound hyp a b hb (by rw [COST_TRANSLATE_eq]; exact hfin)).2
    rw [COST_TRANSLATE_eq] at this
    exact this

/-- The facts for the field `generate_dijkstra_map` computes from a single source. -/
theorem single_facts {type : Dijkstra_T} {diagonal : Bool} {d : Dungeon} {sy sx : Int}
    {D : Nat → Int} (R : DResult d type diagonal (setCost (fun _ => INT_MAX) (COST d sy sx) 0) D)
    (hbo : BorderOk d) (hh : HardnessOk d)
    (hsmall : 7 * ((((d.height - 2) * (d.width - 2) : Nat) : Int) + 1) < INT_MAX)
    (hs : Interior d sy sx) (helig : type = .REGULAR_MAP → (d.MAP sy sx).type ≠ .ROCK) :
    SingleFacts type diagonal d sy sx D := by
  refine single_facts_of R ?_ hbo hh hsmall hs helig
  intro y x hg
  unfold setCost
  by_cases h : y = sy ∧ x = sx
  · simp [h]
  · have : COST d y x ≠ COST d sy sx := fun e => h (COST_inj hg (InGrid_of_interior hs) e)
    simp [h, this]

instance (d : Dungeon) (y x : Int) : Decidable (Interior d y x) := by
  unfold Interior; infer_instance

instance (d : Dungeon) (y x : Int) : Decidable (InGrid d y x) := by
  unfold InGrid; infer_instance

instance (d : Dungeon) : Decidable (BorderOk d) := by
  unfold BorderOk; infer_instance

instance (d : Dungeon) : Decidable (HardnessOk d) := by
  unfold HardnessOk; infer_instance

/-! ### A small concrete dungeon used to instantiate the theorems -/

/-- A 5 x 5 dungeon: an immutable rock border, a ring of room cells around one interior rock
cell of hardness 100 at `(2, 2)`. -/
def exDungeon : Dungeon :=
  { map := fun i =>
      if i = 12 then ⟨.ROCK, 100, none⟩
      else if i ∈ [6, 7, 8, 11, 13, 16, 17, 18] then ⟨.ROOM, 0, none⟩
      else ⟨.ROCK, 255, none⟩
    height := 5
    width := 5 }

/-- The vertex pool before `dijkstra_helper` initialises it. -/
def exVertices : Nat → Vertex := fun _ => Vertex.mk 0 0 0

theorem exDungeon_border : BorderOk exDungeon := by decide

theorem exDungeon_hardness : HardnessOk exDungeon := by decide

theorem exDungeon_small :
    7 * ((((exDungeon.height - 2) * (exDungeon.width - 2) : Nat) : Int) + 1) < INT_MAX := by
  decide

/-- C4: for a dungeon with an immutable rock border (hardness values in 0..255 and small
enough for path costs to fit in an `int`), any policy, either diagonal setting and a single
interior source eligible under the policy, `generate_dijkstra_map` returns a grid that holds at
each interior cell the minimum over all allowed paths from the source of the sum of the
weights of the cells entered (a lower bound of every path cost that is attained whenever a
path exists), holds `INT_MAX` exactly when no such path exists, and holds `INT_MAX` at every
border cell. -/
theorem generate_dijkstra_map_minimum_path_cost (fuel : Nat) (m0 : Mem) (v0 : Nat → Vertex)
    (d : Dungeon) (sy sx : Int) (diagonal : Bool) (type : Dijkstra_T)
    (hbo : BorderOk d) (hh : HardnessOk d)
    (hsmall : 7 * ((((d.height - 2) * (d.width - 2) : Nat) : Int) + 1) < INT_MAX)
    (hs : Interior d sy sx) (helig : type = .REGULAR_MAP → (d.MAP sy sx).type ≠ .ROCK)
    (hf : (d.height - 2) * (d.width - 2) ≤ fuel) :
    ∃ D, generate_dijkstra_map fuel m0 v0 d 1 [sy, sx] diagonal type = some D ∧
      (∀ y x, Interior d y x →
        (∀ c, PathCost type diagonal d sy sx y x c → D (COST d y x) ≤ c) ∧
        ((∃ c, PathCost type diagonal d sy sx y x c) →
          PathCost type diagonal d sy sx y x (D (COST d y x))) ∧
        (D (COST d y x) = INT_MAX ↔ ¬ ∃ c, PathCost type diagonal d sy sx y x c)) ∧
      (∀ y x, InGrid d y x → ¬ Interior d y x → D (COST d y x) = INT_MAX) := by
  obtain ⟨D, e, R⟩ := generate_single_spec fuel m0 v0 d sy sx diagonal type
    (InGrid_of_interior hs) hf
  have F := single_facts R hbo hh hsmall hs helig
  refine ⟨D, e, ?_, F.border⟩
  intro y x hi
  refine ⟨fun c hp => (F.le_path y x c hp).2.2, ?_, ?_⟩
  · rintro ⟨c, hp⟩
    exact F.path y x hi (F.le_path y x c hp).2.1
  · constructor
    · rintro h ⟨c, hp⟩
      exact (F.le_path y x c hp).2.1 h
    · intro h
      by_contra hne
      exact h ⟨_, F.path y x hi hne⟩

theorem generate_dijkstra_map_minimum_path_cost_witness :
    BorderOk exDungeon ∧ HardnessOk exDungeon ∧
    7 * ((((exDungeon.height - 2) * (exDungeon.width - 2) : Nat) : Int) + 1) < INT_MAX ∧
    Interior exDungeon 1 1 ∧
    (Dijkstra_T.REGULAR_MAP = .REGULAR_MAP → (exDungeon.MAP 1 1).type ≠ .ROCK) ∧
    (exDungeon.height - 2) * (exDungeon.width - 2) ≤ 9 ∧
    ∃ D, generate_dijkstra_map 9 Mem.empty exVertices exDungeon 1 [1, 1] true .REGULAR_MAP
        = some D ∧
      (∀ y x, Interior exDungeon y x →
        (∀ c, PathCost .REGULAR_MAP true exDungeon 1 1 y x c → D (COST exDungeon y x) ≤ c) ∧
        ((∃ c, PathCost .REGULAR_MAP true exDungeon 1 1 y x c) →
          PathCost .REGULAR_MAP true exDungeon 1 1 y x (D (COST exDungeon y x))) ∧
        (D (COST exDungeon y x) = INT_MAX ↔
          ¬ ∃ c, PathCost .REGULAR_MAP true exDungeon 1 1 y x c)) ∧
      (∀ y x, InGrid exDungeon y x → ¬ Interior exDungeon y x →
        D (COST exDungeon y x) = INT_MAX) :=
  ⟨by decide, by decide, by decide, by decide, by decide, by decide,
    generate_dijkstra_map_minimum_path_cost 9 Mem.empty exVertices exDungeon 1 1 true
      .REGULAR_MAP (by decide) (by decide) (by decide) (by decide) (by decide) (by decide)⟩

/-- Under `REGULAR_MAP` a source on a rock cell is never enqueued, so nothing is relaxed:
the returned array is the seeded array. -/
theorem rock_source_field {diagonal : Bool} {d : Dungeon} {sy sx : Int} {D : Nat → Int}
    (R : DResult d .REGULAR_MAP diagonal (setCost (fun _ => INT_MAX) (COST d sy sx) 0) D)
    (hh : HardnessOk d)
    (hsmall : 7 * ((((d.height - 2) * (d.width - 2) : Nat) : Int) + 1) < INT_MAX)
    (hs : InGrid d sy sx) (hrock : (d.MAP sy sx).type = .ROCK) :
    ∀ i, D i = setCost (fun _ => INT_MAX) (COST d sy sx) 0 i := by
  have hyp := hyp_single .REGULAR_MAP sy sx hh hsmall
  have hkey : ∀ (n : Nat) y x, InB d y x →
      D (COST_TRANSLATE d y x) ≠
        setCost (fun _ => INT_MAX) (COST d sy sx) 0 (COST_TRANSLATE d y x) →
      D (COST_TRANSLATE d y x) ≤ n → False := by
    intro n
    induction n with
    | zero =>
      intro y x hb hne hle
      obtain ⟨y2, x2, dy, dx, hb2, _, _, e1, e2, hr, hf2, hv⟩ := R.pred hyp y x hb hne
      have h1 := (R.bound hyp y2 x2 hb2 hf2).1
      have hw := hyp.wpos y x hb (by rw [e1, e2]; exact hr.2.1)
      simp only [Nat.cast_zero] at hle
      omega
    | succ n ih =>
      intro y x hb hne hle
      obtain ⟨y2, x2, dy, dx, hb2, hen, _, e1, e2, hr, hf2, hv⟩ := R.pred hyp y x hb hne
      have hw := hyp.wpos y x hb (by rw [e1, e2]; exact hr.2.1)
      refine ih y2 x2 hb2 ?_ (by push_cast at hle; omega)
      have hc : COST_TRANSLATE d y2 x2 ≠ COST d sy sx := by
        intro e
        rw [COST_TRANSLATE_eq] at e
        obtain ⟨e3, e4⟩ := COST_inj (InGrid_of_interior (interior_of_InB hb2)) hs e
        apply hen rfl
        rw [e3, e4]
        exact hrock
      unfold setCost
      simp only [hc, if_false]
      exact hf2
  intro i
  by_contra hne
  obtain ⟨y, x, hb, _, _, e⟩ := R.frame i hne
  subst e
  by_cases hfin : D (COST_TRANSLATE d y x) = INT_MAX
  · apply hne
    have h1 := R.mono (COST_TRANSLATE d y x)
    rw [hfin] at h1 ⊢
    have h2 : setCost (fun _ => INT_MAX) (COST d sy sx) 0 (COST_TRANSLATE d y x) ≤ INT_MAX := by
      unfold setCost; split <;> simp [INT_MAX]
    omega
  · have h0 := (R.bound hyp y x hb hfin).1
    exact hkey (D (COST_TRANSLATE d y x)).toNat y x hb hne (by rw [Int.toNat_of_nonneg h0])

/-- With an immutable rock border and hardness values in range, the weight of the cell an
allowed step enters is at least 1. -/
theorem step_weight_pos {type : Dijkstra_T} {diagonal : Bool} {d : Dungeon} {y x y2 x2 : Int}
    (hbo : BorderOk d) (hh : HardnessOk d) (h : Step type diagonal d y x y2 x2) :
    1 ≤ weight type d y2 x2 := by
  have hi := interior_of_finite hbo h.1 h.2.2.1
  exact (weight_range hh type (InB_of_interior hi) h.2.2.1).1

instance (diagonal : Bool) (dy dx : Int) : Decidable (Dir diagonal dy dx) := by
  unfold Dir; infer_instance

instance (type : Dijkstra_T) (diagonal : Bool) (d : Dungeon) (y x y2 x2 : Int) :
    Decidable (Step type diagonal d y x y2 x2) := by
  unfold Step; infer_instance

/-- C5 fails as written: with policy `REGULAR_MAP` and the single source on the interior rock
cell `(2, 2)` of `exDungeon`, the source holds 0 and the step from it to the room cell
`(1, 2)` is allowed, yet that cell holds `INT_MAX`. -/
theorem rock_source_breaks_triangle_inequality :
    ∃ D, generate_dijkstra_map 9 Mem.empty exVertices exDungeon 1 [2, 2] false .REGULAR_MAP
        = some D ∧
      D (COST exDungeon 2 2) = 0 ∧ D (COST exDungeon 2 2) ≠ INT_MAX ∧
      Step .REGULAR_MAP false exDungeon 2 2 1 2 ∧
      ¬ D (COST exDungeon 1 2) ≤ D (COST exDungeon 2 2) + weight .REGULAR_MAP exDungeon 1 2 := by
  obtain ⟨D, e, R⟩ := generate_single_spec 9 Mem.empty exVertices exDungeon 2 2 false
    .REGULAR_MAP (by decide) (by decide)
  have h := rock_source_field R exDungeon_hardness exDungeon_small (by decide) (by decide)
  have h1 : D (COST exDungeon 2 2) = 0 := by rw [h]; decide
  have h2 : D (COST exDungeon 1 2) = INT_MAX := by rw [h]; decide
  refine ⟨D, e, h1, by rw [h1]; decide, by decide, ?_⟩
  rw [h1, h2]
  decide

/-- C5 (amended): for a dungeon with an immutable rock border and a single interior source
eligible under the policy, the field returned by `generate_dijkstra_map` holds 0 at the
source and at no other cell of the grid, satisfies `cost[v] ≤ cost[u] + weight(v)` for every
allowed step `u → v` with `cost[u]` finite, and along a shortest path (a path whose cost
through `u` equals `cost[v]`) the prefix is itself shortest and the cost does not decrease. -/
theorem generate_dijkstra_map_single_source_field (fuel : Nat) (m0 : Mem) (v0 : Nat → Vertex)
    (d : Dungeon) (sy sx : Int) (diagonal : Bool) (type : Dijkstra_T)
    (hbo : BorderOk d) (hh : HardnessOk d)
    (hsmall : 7 * ((((d.height - 2) * (d.width - 2) : Nat) : Int) + 1) < INT_MAX)
    (hs : Interior d sy sx) (helig : type = .REGULAR_MAP → (d.MAP sy sx).type ≠ .ROCK)
    (hf : (d.height - 2) * (d.width - 2) ≤ fuel) :
    ∃ D, generate_dijkstra_map fuel m0 v0 d 1 [sy, sx] diagonal type = some D ∧
      D (COST d sy sx) = 0 ∧
      (∀ y x, InGrid d y x → D (COST d y x) = 0 → y = sy ∧ x = sx) ∧
      (∀ y x y2 x2, InGrid d y x → D (COST d y x) ≠ INT_MAX →
        Step type diagonal d y x y2 x2 →
        D (COST d y2 x2) ≤ D (COST d y x) + weight type d y2 x2) ∧
      (∀ y x c y2 x2, PathCost type diagonal d sy sx y x c →
        Step type diagonal d y x y2 x2 → D (COST d y2 x2) = c + weight type d y2 x2 →
        D (COST d y x) = c ∧ D (COST d y x) ≤ D (COST d y2 x2)) := by
  obtain ⟨D, e, R⟩ := generate_single_spec fuel m0 v0 d sy sx diagonal type
    (InGrid_of_interior hs) hf
  have F := single_facts R hbo hh hsmall hs helig
  refine ⟨D, e, F.src, F.zero, ?_, ?_⟩
  · intro y x y2 x2 hg hfin hst
    have hi : Interior d y x := by
      by_contra hni
      exact hfin (F.border y x hg hni)
    exact (F.tri y x y2 x2 (F.path y x hi hfin) hst).1
  · intro y x c y2 x2 hp hst hv
    obtain ⟨hi, hfin, hle⟩ := F.le_path y x c hp
    have ht := (F.tri y x y2 x2 (F.path y x hi hfin) hst).1
    have hw := step_weight_pos hbo hh hst
    constructor <;> omega

theorem generate_dijkstra_map_single_source_field_witness :
    BorderOk exDungeon ∧ HardnessOk exDungeon ∧
    7 * ((((exDungeon.height - 2) * (exDungeon.width - 2) : Nat) : Int) + 1) < INT_MAX ∧
    Interior exDungeon 1 2 ∧
    (Dijkstra_T.REGULAR_MAP = .REGULAR_MAP → (exDungeon.MAP 1 2).type ≠ .ROCK) ∧
    (exDungeon.height - 2) * (exDungeon.width - 2) ≤ 10 ∧
    ∃ D, generate_dijkstra_map 10 Mem.empty exVertices exDungeon 1 [1, 2] false .REGULAR_MAP
        = some D ∧
      D (COST exDungeon 1 2) = 0 ∧
      (∀ y x, InGrid exDungeon y x → D (COST exDungeon y x) = 0 → y = 1 ∧ x = 2) ∧
      (∀ y x y2 x2, InGrid exDungeon y x → D (COST exDungeon y x) ≠ INT_MAX →
        Step .REGULAR_MAP false exDungeon y x y2 x2 →
        D (COST exDungeon y2 x2) ≤ D (COST exDungeon y x) + weight .REGULAR_MAP exDungeon y2 x2) ∧
      (∀ y x c y2 x2, PathCost .REGULAR_MAP false exDungeon 1 2 y x c →
        Step .REGULAR_MAP false exDungeon y x y2 x2 →
        D (COST exDungeon y2 x2) = c + weight .REGULAR_MAP exDungeon y2 x2 →
        D (COST exDungeon y x) = c ∧ D (COST exDungeon y x) ≤ D (COST exDungeon y2 x2)) :=
  ⟨by decide, by decide, by decide, by decide, by decide, by decide,
    generate_dijkstra_map_single_source_field 10 Mem.empty exVertices exDungeon 1 2 false
      .REGULAR_MAP (by decide) (by decide) (by decide) (by decide) (by decide) (by decide)⟩

/-- Iteration `i` of the source loop writes entry `k` of the cost array: the two entries it
reads from `sources` are the coordinates of `k`. -/
def SeededBy (d : Dungeon) (num_sources : Nat) (sources : List Int) (i k : Nat) : Prop :=
  ∃ sy sx, sources.get? (i * num_sources + 0) = some sy ∧
    sources.get? (i * num_sources + 1) = some sx ∧ COST d sy sx = k

/-- Some iteration of the source loop writes entry `k` of the cost array. -/
def Seeded (d : Dungeon) (num_sources : Nat) (sources : List Int) (k : Nat) : Prop :=
  ∃ i < num_sources, SeededBy d num_sources sources i k

/-- What the source loop leaves in the cost array. -/
theorem fill_sources_spec (d : Dungeon) (n : Nat) (sources : List Int) :
    ∀ (is : List Nat) (c c0 : Nat → Int), fill_sources d n sources is c = some c0 →
      ∀ k, ((∃ i ∈ is, SeededBy d n sources i k) → c0 k = 0) ∧
        ((¬ ∃ i ∈ is, SeededBy d n sources i k) → c0 k = c k) := by
  intro is
  induction is with
  | nil =>
    intro c c0 h k
    simp only [fill_sources, Option.some.injEq] at h
    subst h
    simp
  | cons i is ih =>
    intro c c0 h k
    simp only [fill_sources] at h
    cases h1 : sources.get? (i * n + 0) with
    | none => rw [h1] at h; simp at h
    | some sy =>
      cases h2 : sources.get? (i * n + 1) with
      | none => rw [h1, h2] at h; simp at h
      | some sx =>
        rw [h1, h2] at h
        simp only at h
        split at h
        · obtain ⟨ih1, ih2⟩ := ih _ _ h k
          constructor
          · rintro ⟨j, hj, hs⟩
            by_cases hex : ∃ i ∈ is, SeededBy d n sources i k
            · exact ih1 hex
            · rw [ih2 hex]
              rcases List.mem_cons.mp hj with rfl | hj
              · obtain ⟨sy2, sx2, e1, e2, e3⟩ := hs
                rw [h1] at e1; rw [h2] at e2
                simp only [Option.some.injEq] at e1 e2
                subst e1; subst e2
                simp [setCost, e3]
              · exact absurd ⟨j, hj, hs⟩ hex
          · intro hne
            have hex : ¬ ∃ i ∈ is, SeededBy d n sources i k := fun ⟨j, hj, hs⟩ =>
              hne ⟨j, List.mem_cons_of_mem _ hj, hs⟩
            rw [ih2 hex]
            have : k ≠ COST d sy sx := fun e =>
              hne ⟨i, List.mem_cons_self _ _, sy, sx, h1, h2, e.symm⟩
            simp [setCost, this]
        · simp at h

/-- Under `REGULAR_MAP` the entry of a rock cell is never written by `dijkstra_helper`. -/
theorem regular_rock_unchanged {diagonal : Bool} {d : Dungeon} {cost0 D : Nat → Int}
    (R : DResult d .REGULAR_MAP diagonal cost0 D) {y x : Int} (hg : InGrid d y x)
    (hrock : (d.MAP y x).type = .ROCK) : D (COST d y x) = cost0 (COST d y x) := by
  by_contra hne
  obtain ⟨a, b, hb, hen, _, e⟩ := R.frame _ hne
  rw [COST_TRANSLATE_eq] at e
  obtain ⟨e1, e2⟩ := COST_inj hg (InGrid_of_interior (interior_of_InB hb)) e
  apply hen rfl
  rw [← e1, ← e2]
  exact hrock

/-- C6 fails as written: with policy `REGULAR_MAP` and the source on the interior rock cell
`(2, 2)` of `exDungeon`, that rock cell holds 0, not `INT_MAX`. -/
theorem rock_source_has_cost_zero :
    ∃ D, generate_dijkstra_map 9 Mem.empty exVertices exDungeon 1 [2, 2] true .REGULAR_MAP
        = some D ∧
      (exDungeon.MAP 2 2).type = .ROCK ∧ D (COST exDungeon 2 2) ≠ INT_MAX := by
  obtain ⟨D, e, R⟩ := generate_single_spec 9 Mem.empty exVertices exDungeon 2 2 true
    .REGULAR_MAP (by decide) (by decide)
  have h := regular_rock_unchanged R (y := 2) (x := 2) (by decide) (by decide)
  refine ⟨D, e, by decide, ?_⟩
  rw [h]
  decide

/-- C6 (amended): for every dungeon, diagonal setting and source array whose source loop
completes, `generate_dijkstra_map` with policy `REGULAR_MAP` returns a field in which every
rock cell of the grid holds `INT_MAX` unless the source loop seeded it, in which case it
holds 0. -/
theorem generate_dijkstra_map_regular_rock_cells (fuel : Nat) (m0 : Mem) (v0 : Nat → Vertex)
    (d : Dungeon) (num_sources : Nat) (sources : List Int) (diagonal : Bool)
    (hsrc : (fill_sources d num_sources sources (List.range num_sources)
      (fun _ => INT_MAX)).isSome = true)
    (hf : (d.height - 2) * (d.width - 2) ≤ fuel) :
    ∃ D, generate_dijkstra_map fuel m0 v0 d num_sources sources diagonal .REGULAR_MAP = some D ∧
      ∀ y x, InGrid d y x → (d.MAP y x).type = .ROCK →
        (Seeded d num_sources sources (COST d y x) → D (COST d y x) = 0) ∧
        (¬ Seeded d num_sources sources (COST d y x) → D (COST d y x) = INT_MAX) := by
  obtain ⟨c0, hc0⟩ := Option.isSome_iff_exists.mp hsrc
  obtain ⟨D, e, R⟩ := dijkstra_helper_spec fuel m0 v0 d c0 diagonal .REGULAR_MAP hf
  refine ⟨D, by simp only [generate_dijkstra_map, hc0, e], ?_⟩
  intro y x hg hrock
  rw [regular_rock_unchanged R hg hrock]
  obtain ⟨h1, h2⟩ := fill_sources_spec d num_sources sources _ _ _ hc0 (COST d y x)
  constructor
  · rintro ⟨i, hi, hs⟩
    exact h1 ⟨i, List.mem_range.mpr hi, hs⟩
  · intro hne
    rw [h2 (fun ⟨i, hi, hs⟩ => hne ⟨i, List.mem_range.mp hi, hs⟩)]

theorem generate_dijkstra_map_regular_rock_cells_witness :
    (fill_sources exDungeon 1 [1, 1] (List.range 1) (fun _ => INT_MAX)).isSome = true ∧
    (exDungeon.height - 2) * (exDungeon.width - 2) ≤ 9 ∧
    ∃ D, generate_dijkstra_map 9 Mem.empty exVertices exDungeon 1 [1, 1] true .REGULAR_MAP
        = some D ∧
      ∀ y x, InGrid exDungeon y x → (exDungeon.MAP y x).type = .ROCK →
        (Seeded exDungeon 1 [1, 1] (COST exDungeon y x) → D (COST exDungeon y x) = 0) ∧
        (¬ Seeded exDungeon 1 [1, 1] (COST exDungeon y x) →
          D (COST exDungeon y x) = INT_MAX) :=
  ⟨by decide, by decide,
    generate_dijkstra_map_regular_rock_cells 9 Mem.empty exVertices exDungeon 1 [1, 1] true
      (by decide) (by decide)⟩

/-- A 3 x 5 dungeon with an immutable rock border whose interior row is: an open cell, an
immutable cell, an open cell. -/
def exWalled : Dungeon :=
  { map := fun i => if i = 6 ∨ i = 8 then ⟨.ROOM, 0, none⟩ else ⟨.ROCK, 255, none⟩
    height := 3
    width := 5 }

/-- Every interior cell can be tunnelled through. -/
def InteriorMutable (d : Dungeon) : Prop :=
  ∀ y < d.height, ∀ x < d.width, Interior d y x →
    (d.MAP y x).hardness ≠ IMMUTABLE_ROCK_HARDNESS

instance (d : Dungeon) : Decidable (InteriorMutable d) := by
  unfold InteriorMutable; infer_instance

/-- No allowed step leaves the source `(1, 1)` of `exWalled`. -/
theorem exWalled_paths {y x c : Int}
    (hp : PathCost .TUNNEL_MAP true exWalled 1 1 y x c) : y = 1 ∧ x = 1 := by
  induction hp with
  | start => exact ⟨rfl, rfl⟩
  | @step y x c y2 x2 _ hst ih =>
    obtain ⟨rfl, rfl⟩ := ih
    obtain ⟨_, hd, hw, _⟩ := hst
    exfalso
    have hb : 0 ≤ y2 ∧ y2 ≤ 2 ∧ 0 ≤ x2 ∧ x2 ≤ 2 := by
      simp only [Dir] at hd
      omega
    obtain ⟨b1, b2, b3, b4⟩ := hb
    interval_cases y2 <;> interval_cases x2 <;>
      first
      | exact absurd hd (by decide)
      | exact hw (by decide)

/-- C7 fails as written: in `exWalled` with policy `TUNNEL_MAP` and the source on the interior
cell `(1, 1)`, the cell `(1, 3)` has hardness 0 but is cut off by the immutable cell `(1, 2)`
and holds `INT_MAX`. -/
theorem walled_off_cell_has_infinite_cost :
    ∃ D, generate_dijkstra_map 3 Mem.empty exVertices exWalled 1 [1, 1] true .TUNNEL_MAP
        = some D ∧
      Interior exWalled 1 1 ∧ (exWalled.MAP 1 3).hardness ≠ 255 ∧
      D (COST exWalled 1 3) = INT_MAX := by
  obtain ⟨D, e, R⟩ := generate_single_spec 3 Mem.empty exVertices exWalled 1 1 true
    .TUNNEL_MAP (by decide) (by decide)
  have F := single_facts R (by decide) (by decide) (by decide) (by decide) (by decide)
  refine ⟨D, e, by decide, by decide, ?_⟩
  by_contra hne
  have := exWalled_paths (F.path 1 3 (by decide) hne)
  omega

/-- The tunnelling weight of a cell that is not immutable is finite. -/
theorem tunnel_weight_finite {d : Dungeon} (hh : HardnessOk d) {y x : Int}
    (hg : InGrid d y x) (hm : (d.MAP y x).hardness ≠ IMMUTABLE_ROCK_HARDNESS) :
    weight .TUNNEL_MAP d y x ≠ INT_MAX := by
  obtain ⟨g1, g2, g3, g4⟩ := hg
  have hy : ((y.toNat : Nat) : Int) = y := Int.toNat_of_nonneg g1
  have hx : ((x.toNat : Nat) : Int) = x := Int.toNat_of_nonneg g3
  have h := hh y.toNat (by omega) x.toNat (by omega)
  rw [hy, hx] at h
  have e1 : y - 1 + 1 = y := by ring
  have e2 : x - 1 + 1 = x := by ring
  simp only [weight, cost_function, tunnel_cost, e1, e2, hm, if_false]
  rw [tunnel_difference_eq, Int.tdiv_eq_ediv h.1 (by omega)]
  unfold INT_MAX
  omega

/-- With every interior cell mutable, the source reaches every interior cell. -/
theorem tunnel_all_finite {diagonal : Bool} {d : Dungeon} {sy sx : Int} {D : Nat → Int}
    (F : SingleFacts .TUNNEL_MAP diagonal d sy sx D) (hh : HardnessOk d)
    (hm : InteriorMutable d) (hs : Interior d sy sx) :
    ∀ (n : Nat) (y x : Int), Interior d y x → (y - sy).natAbs + (x - sx).natAbs ≤ n →
      D (COST d y x) ≠ INT_MAX := by
  have hmut : ∀ y x, Interior d y x → weight .TUNNEL_MAP d y x ≠ INT_MAX := by
    intro y x hi
    have hg := InGrid_of_interior hi
    refine tunnel_weight_finite hh hg ?_
    obtain ⟨g1, g2, g3, g4⟩ := hg
    have hy : ((y.toNat : Nat) : Int) = y := Int.toNat_of_nonneg g1
    have hx : ((x.toNat : Nat) : Int) = x := Int.toNat_of_nonneg g3
    have h := hm y.toNat (by omega) x.toNat (by omega)
    rw [hy, hx] at h
    exact h hi
  have hstep : ∀ y x y2 x2, Interior d y x → D (COST d y x) ≠ INT_MAX → Interior d y2 x2 →
      ((y2 - y = 1 ∨ y2 - y = -1) ∧ x2 - x = 0 ∨ y2 - y = 0 ∧ (x2 - x = 1 ∨ x2 - x = -1)) →
      D (COST d y2 x2) ≠ INT_MAX := by
    intro y x y2 x2 hi hfin hi2 hd
    refine (F.tri y x y2 x2 (F.path y x hi hfin) ⟨InGrid_of_interior hi2, ?_, hmut y2 x2 hi2,
      fun h => by cases h⟩).2
    unfold Dir
    omega
  intro n
  induction n with
  | zero =>
    intro y x _ hd
    have e1 : y = sy := by omega
    have e2 : x = sx := by omega
    rw [e1, e2, F.src]
    simp [INT_MAX]
  | succ n ih =>
    intro y x hi hd
    unfold Interior at hi hs
    by_cases hy : y = sy
    · by_cases hx : x = sx
      · rw [hy, hx, F.src]; simp [INT_MAX]
      · by_cases hlt : x < sx
        · exact hstep y (x + 1) y x (by unfold Interior; omega)
            (ih y (x + 1) (by unfold Interior; omega) (by omega)) (by unfold Interior; omega)
            (by omega)
        · exact hstep y (x - 1) y x (by unfold Interior; omega)
            (ih y (x - 1) (by unfold Interior; omega) (by omega)) (by unfold Interior; omega)
            (by omega)
    · by_cases hlt : y < sy
      · exact hstep (y + 1) x y x (by unfold Interior; omega)
          (ih (y + 1) x (by unfold Interior; omega) (by omega)) (by unfold Interior; omega)
          (by omega)
      · exact hstep (y - 1) x y x (by unfold Interior; omega)
          (ih (y - 1) x (by unfold Interior; omega) (by omega)) (by unfold Interior; omega)
          (by omega)

/-! ### The border is never read -/

/-- Proof device: the dungeon `d` with every cell off the interior replaced by immutable
rock. `generate_dijkstra_map` reads interior cells only, so what it guarantees for `d` it
guarantees for this dungeon, whose border is immutable. -/
def reborder (d : Dungeon) : Dungeon :=
  { map := fun k =>
      if 1 ≤ k / d.width ∧ k / d.width + 2 ≤ d.height ∧ 1 ≤ k % d.width ∧
          k % d.width + 2 ≤ d.width then d.map k
      else ⟨.ROCK, IMMUTABLE_ROCK_HARDNESS, (d.map k).character⟩
    height := d.height
    width := d.width }

theorem reborder_MAP {d : Dungeon} {y x : Int} (hg : InGrid d y x) :
    (reborder d).MAP y x =
      if Interior d y x then d.MAP y x
      else ⟨.ROCK, IMMUTABLE_ROCK_HARDNESS, (d.MAP y x).character⟩ := by
  obtain ⟨g1, g2, g3, g4⟩ := hg
  obtain ⟨a, rfl⟩ : ∃ a : Nat, y = a := ⟨y.toNat, (Int.toNat_of_nonneg g1).symm⟩
  obtain ⟨b, rfl⟩ : ∃ b : Nat, x = b := ⟨x.toNat, (Int.toNat_of_nonneg g3).symm⟩
  have hb : b < d.width := by omega
  have hw : 0 < d.width := by omega
  have e : ((a : Int) * (d.width : Int) + (b : Int)).toNat = a * d.width + b := by
    have : (a : Int) * (d.width : Int) + (b : Int) = ((a * d.width + b : Nat) : Int) := by
      push_cast; ring
    rw [this, Int.toNat_ofNat]
  have e1 : (a * d.width + b) / d.width = a := by
    rw [Nat.add_comm, Nat.add_mul_div_right _ _ hw, Nat.div_eq_of_lt hb, Nat.zero_add]
  have e2 : (a * d.width + b) % d.width = b := by
    rw [Nat.add_comm, Nat.add_mul_mod_self_right, Nat.mod_eq_of_lt hb]
  have hi : Interior d (a : Int) (b : Int) ↔
      (1 ≤ a ∧ a + 2 ≤ d.height ∧ 1 ≤ b ∧ b + 2 ≤ d.width) := by
    unfold Interior
    omega
  show (reborder d).map ((a : Int) * ((reborder d).width : Int) + (b : Int)).toNat = _
  show (if _ then _ else _) = _
  simp only [Dungeon.MAP]
  rw [show ((reborder d).width : Int) = (d.width : Int) from rfl, e, e1, e2]
  by_cases h : Interior d (a : Int) (b : Int)
  · rw [if_pos h, if_pos (hi.mp h)]
  · rw [if_neg h, if_neg (fun c => h (hi.mpr c))]

theorem reborder_MAP_interior {d : Dungeon} {y x : Int} (hi : Interior d y x) :
    (reborder d).MAP y x = d.MAP y x := by
  rw [reborder_MAP (InGrid_of_interior hi), if_pos hi]

theorem cost_function_reborder (type : Dijkstra_T) {d : Dungeon} {y x : Int} (hb : InB d y x) :
    cost_function type (reborder d) y x = cost_function type d y x := by
  have hm := reborder_MAP_interior (interior_of_InB hb)
  cases type <;> simp only [cost_function, corridor_cost, tunnel_cost, regular_cost, hm]

theorem Enq_reborder {type : Dijkstra_T} {d : Dungeon} {y x : Int} (hb : InB d y x) :
    Enq type (reborder d) y x ↔ Enq type d y x := by
  unfold Enq
  rw [reborder_MAP_interior (interior_of_InB hb)]

theorem Relaxable_reborder {type : Dijkstra_T} {d : Dungeon} {y x dy dx : Int}
    (hb : InB d y x) :
    Relaxable type (reborder d) y x dy dx ↔ Relaxable type d y x dy dx := by
  have key : InB d (y + dy) (x + dx) →
      cost_function type (reborder d) (y + dy) (x + dx) = cost_function type d (y + dy) (x + dx) ∧
      cost_function type (reborder d) (y + dy) x = cost_function type d (y + dy) x ∧
      cost_function type (reborder d) y (x + dx) = cost_function type d y (x + dx) := by
    intro h1
    refine ⟨cost_function_reborder type h1, cost_function_reborder type ?_,
      cost_function_reborder type ?_⟩
    · exact ⟨h1.1, h1.2.1, hb.2.2.1, hb.2.2.2⟩
    · exact ⟨hb.1, hb.2.1, h1.2.2.1, h1.2.2.2⟩
  unfold Relaxable
  constructor
  · rintro ⟨h1, h2, h3⟩
    have h1b : InB d (y + dy) (x + dx) := h1
    obtain ⟨k1, k2, k3⟩ := key h1b
    rw [k1] at h2
    rw [k2, k3] at h3
    exact ⟨h1b, h2, h3⟩
  · rintro ⟨h1, h2, h3⟩
    obtain ⟨k1, k2, k3⟩ := key h1
    rw [← k1] at h2
    rw [← k2, ← k3] at h3
    exact ⟨h1, h2, h3⟩

theorem Hyp_of_reborder {type : Dijkstra_T} {d : Dungeon} {cost0 : Nat → Int}
    (h : Hyp (reborder d) type cost0) : Hyp d type cost0 :=
  ⟨fun y x hb hfin => by
      have := h.wpos y x hb (by rw [cost_function_reborder type hb]; exact hfin)
      rw [cost_function_reborder type hb] at this
      exact this,
    fun y x hb => h.init y x hb, h.small⟩

/-- What `dijkstra_helper` guarantees for a dungeon it guarantees for the dungeon with the
border replaced. -/
theorem DResult_reborder {type : Dijkstra_T} {diagonal : Bool} {d : Dungeon}
    {cost0 D : Nat → Int} (R : DResult d type diagonal cost0 D) :
    DResult (reborder d) type diagonal cost0 D := by
  refine ⟨R.mono, ?_, ?_, ?_, ?_⟩
  · intro i hi
    obtain ⟨y, x, hb, hen, hw, e⟩ := R.frame i hi
    exact ⟨y, x, hb, (Enq_reborder hb).mpr hen, by rw [cost_function_reborder type hb]; exact hw,
      e⟩
  · intro hyp y x hb hen hfin dy dx hd hr
    have hb2 : InB d y x := hb
    have hr2 := (Relaxable_reborder hb2).mp hr
    rw [cost_function_reborder type hr2.1]
    exact R.tri (Hyp_of_reborder hyp) y x hb2 ((Enq_reborder hb2).mp hen) hfin dy dx hd hr2
  · intro hyp y x hb hne
    have hb2 : InB d y x := hb
    obtain ⟨y2, x2, dy, dx, h1, h2, h3, h4, h5, h6, h7, h8⟩ :=
      R.pred (Hyp_of_reborder hyp) y x hb2 hne
    refine ⟨y2, x2, dy, dx, h1, (Enq_reborder h1).mpr h2, h3, h4, h5,
      (Relaxable_reborder h1).mpr h6, h7, ?_⟩
    rw [cost_function_reborder type hb2]
    exact h8
  · intro hyp y x hb hfin
    exact R.bound (Hyp_of_reborder hyp) y x hb hfin

theorem BorderOk_reborder (d : Dungeon) : BorderOk (reborder d) := by
  intro y hy x hx hni
  have hy2 : y < d.height := hy
  have hx2 : x < d.width := hx
  have hg : InGrid d (y : Int) (x : Int) := by
    unfold InGrid
    omega
  have hni2 : ¬ Interior d (y : Int) (x : Int) := hni
  rw [reborder_MAP hg, if_neg hni2]
  exact ⟨rfl, rfl⟩

theorem HardnessOk_reborder {d : Dungeon} (hh : HardnessOk d) : HardnessOk (reborder d) := by
  intro y hy x hx
  have hy2 : y < d.height := hy
  have hx2 : x < d.width := hx
  have hg : InGrid d (y : Int) (x : Int) := by
    unfold InGrid
    omega
  rw [reborder_MAP hg]
  split
  · exact hh y hy2 x hx2
  · simp [IMMUTABLE_ROCK_HARDNESS]

theorem InteriorMutable_reborder {d : Dungeon} (hm : InteriorMutable d) :
    InteriorMutable (reborder d) := by
  intro y hy x hx hi
  have hi2 : Interior d (y : Int) (x : Int) := hi
  rw [reborder_MAP_interior hi2]
  exact hm y hy x hx hi2

/-- The shortest-path facts of a single interior source, for a dungeon with any border:
they hold on the dungeon with the border replaced. -/
theorem single_facts_reborder {type : Dijkstra_T} {diagonal : Bool} {d : Dungeon}
    {sy sx : Int} {D : Nat → Int}
    (R : DResult d type diagonal (setCost (fun _ => INT_MAX) (COST d sy sx) 0) D)
    (hh : HardnessOk d)
    (hsmall : 7 * ((((d.height - 2) * (d.width - 2) : Nat) : Int) + 1) < INT_MAX)
    (hs : Interior d sy sx) (helig : type = .REGULAR_MAP → (d.MAP sy sx).type ≠ .ROCK) :
    SingleFacts type diagonal (reborder d) sy sx D := by
  have R2 : DResult (reborder d) type diagonal
      (setCost (fun _ => INT_MAX) (COST (reborder d) sy sx) 0) D := DResult_reborder R
  have hs2 : Interior (reborder d) sy sx := hs
  refine single_facts R2 (BorderOk_reborder d) (HardnessOk_reborder hh) hsmall hs2 ?_
  intro e
  rw [reborder_MAP_interior hs]
  exact helig e

/-- In the field of a single interior source, whatever the border: cells off the interior
hold `INT_MAX`, no cost exceeds `INT_MAX`, and an interior cell of finite positive cost has
an interior neighbour of strictly smaller cost. -/
theorem field_predecessor {type : Dijkstra_T} {diagonal : Bool} {d : Dungeon}
    {sy sx : Int} {D : Nat → Int}
    (R : DResult d type diagonal (setCost (fun _ => INT_MAX) (COST d sy sx) 0) D)
    (hh : HardnessOk d)
    (hsmall : 7 * ((((d.height - 2) * (d.width - 2) : Nat) : Int) + 1) < INT_MAX)
    (hs : Interior d sy sx) (helig : type = .REGULAR_MAP → (d.MAP sy sx).type ≠ .ROCK) :
    (∀ y x, InGrid d y x → ¬ Interior d y x → D (COST d y x) = INT_MAX) ∧
    (∀ y x, InGrid d y x → D (COST d y x) ≤ INT_MAX) ∧
    (∀ y x, Interior d y x → D (COST d y x) ≠ INT_MAX → 0 < D (COST d y x) →
      ∃ y2 x2, Interior d y2 x2 ∧ Dir diagonal (y - y2) (x - x2) ∧
        D (COST d y2 x2) < D (COST d y x)) := by
  have F := single_facts_reborder R hh hsmall hs helig
  refine ⟨fun y x hg hni => F.border y x hg hni, fun y x hg => F.le_max y x hg, ?_⟩
  intro y x hi hfin hpos
  have hp : PathCost type diagonal (reborder d) sy sx y x (D (COST d y x)) := F.path y x hi hfin
  generalize hv : D (COST d y x) = v at hp hpos
  cases hp with
  | start => omega
  | @step y2 x2 c2 _ _ hpath hstep =>
    have hw := step_weight_pos (BorderOk_reborder d) (HardnessOk_reborder hh) hstep
    obtain ⟨hi2, _, hle2⟩ := F.le_path y2 x2 c2 hpath
    have hle3 : D (COST d y2 x2) ≤ c2 := hle2
    exact ⟨y2, x2, hi2, hstep.2.1, by omega⟩

/-! ### Cells a tunneller can reach -/

/-- A chain of steps leads from `(sy, sx)` to the cell: each step goes to one of the four
(with `diagonal`, eight) neighbours, an interior cell of hardness other than 255. -/
inductive TunnelReach (diagonal : Bool) (d : Dungeon) (sy sx : Int) : Int → Int → Prop where
  | start : TunnelReach diagonal d sy sx sy sx
  | step {y x y2 x2 : Int} : TunnelReach diagonal d sy sx y x →
      Dir diagonal (y2 - y) (x2 - x) → Interior d y2 x2 →
      (d.MAP y2 x2).hardness ≠ IMMUTABLE_ROCK_HARDNESS → TunnelReach diagonal d sy sx y2 x2

theorem tunnel_reach_of_path {diagonal : Bool} {d : Dungeon} {sy sx y x c : Int}
    (hp : PathCost .TUNNEL_MAP diagonal (reborder d) sy sx y x c) :
    TunnelReach diagonal d sy sx y x := by
  induction hp with
  | start => exact TunnelReach.start
  | @step y x c y2 x2 _ hst ih =>
    obtain ⟨hg, hd, hw, _⟩ := hst
    have hg2 : InGrid d y2 x2 := hg
    have e1 : y2 - 1 + 1 = y2 := by ring
    have e2 : x2 - 1 + 1 = x2 := by ring
    have hne : ((reborder d).MAP y2 x2).hardness ≠ IMMUTABLE_ROCK_HARDNESS := by
      intro e
      apply hw
      simp only [weight, cost_function, tunnel_cost, e1, e2, e, if_true]
    rw [reborder_MAP hg2] at hne
    by_cases hi : Interior d y2 x2
    · rw [if_pos hi] at hne
      exact TunnelReach.step ih hd hi hne
    · rw [if_neg hi] at hne
      exact absurd rfl hne

theorem path_of_tunnel_reach {diagonal : Bool} {d : Dungeon} {sy sx y x : Int}
    (hh : HardnessOk d) (hr : TunnelReach diagonal d sy sx y x) :
    ∃ c, PathCost .TUNNEL_MAP diagonal (reborder d) sy sx y x c := by
  induction hr with
  | start => exact ⟨0, PathCost.start⟩
  | @step y x y2 x2 _ hd hi hne ih =>
    obtain ⟨c, hp⟩ := ih
    have hg : InGrid (reborder d) y2 x2 := InGrid_of_interior hi
    have hne2 : ((reborder d).MAP y2 x2).hardness ≠ IMMUTABLE_ROCK_HARDNESS := by
      rw [reborder_MAP_interior hi]
      exact hne
    exact ⟨_, PathCost.step hp ⟨hg, hd, tunnel_weight_finite (HardnessOk_reborder hh) hg hne2,
      fun h => by cases h⟩⟩

/-- C7 (amended): for every dungeon with hardness values in `0..255` (small enough for path
costs to fit in an `int`) and a single source on an interior cell, `generate_dijkstra_map`
with policy `TUNNEL_MAP` returns a field in which an interior cell has a finite cost exactly
when a chain of steps leads from the source to it, each step entering a neighbouring
interior cell of hardness other than 255. So an interior cell holds `INT_MAX` only if its
hardness is 255 or it is cut off from the source by cells of hardness 255; the cells on the
border hold `INT_MAX` whatever their hardness; and when no interior cell has hardness 255
every interior cell receives a finite cost. -/
theorem generate_dijkstra_map_tunnel_finite (fuel : Nat) (m0 : Mem) (v0 : Nat → Vertex)
    (d : Dungeon) (sy sx : Int) (diagonal : Bool) (hh : HardnessOk d)
    (hsmall : 7 * ((((d.height - 2) * (d.width - 2) : Nat) : Int) + 1) < INT_MAX)
    (hs : Interior d sy sx) (hf : (d.height - 2) * (d.width - 2) ≤ fuel) :
    ∃ D, generate_dijkstra_map fuel m0 v0 d 1 [sy, sx] diagonal .TUNNEL_MAP = some D ∧
      (∀ y x, Interior d y x →
        (D (COST d y x) ≠ INT_MAX ↔ TunnelReach diagonal d sy sx y x)) ∧
      (∀ y x, Interior d y x → D (COST d y x) = INT_MAX →
        (d.MAP y x).hardness = IMMUTABLE_ROCK_HARDNESS ∨
          ¬ TunnelReach diagonal d sy sx y x) ∧
      (∀ y x, InGrid d y x → ¬ Interior d y x → D (COST d y x) = INT_MAX) ∧
      (InteriorMutable d → ∀ y x, Interior d y x → D (COST d y x) ≠ INT_MAX) := by
  obtain ⟨D, e, R⟩ := generate_single_spec fuel m0 v0 d sy sx diagonal .TUNNEL_MAP
    (InGrid_of_interior hs) hf
  have F := single_facts_reborder R hh hsmall hs (fun h => by cases h)
  have hiff : ∀ y x, Interior d y x →
      (D (COST d y x) ≠ INT_MAX ↔ TunnelReach diagonal d sy sx y x) := by
    intro y x hi
    constructor
    · intro hfin
      exact tunnel_reach_of_path (F.path y x hi hfin)
    · intro hr
      obtain ⟨c, hp⟩ := path_of_tunnel_reach hh hr
      exact (F.le_path y x c hp).2.1
  refine ⟨D, e, hiff, ?_, fun y x hg hni => F.border y x hg hni, ?_⟩
  · intro y x hi hmax
    exact Or.inr (fun hr => ((hiff y x hi).mpr hr) hmax)
  · intro hm y x hi
    exact tunnel_all_finite F (HardnessOk_reborder hh) (InteriorMutable_reborder hm) hs _ y x hi
      (le_refl _)

theorem generate_dijkstra_map_tunnel_finite_witness :
    HardnessOk exWalled ∧
    7 * ((((exWalled.height - 2) * (exWalled.width - 2) : Nat) : Int) + 1) < INT_MAX ∧
    Interior exWalled 1 1 ∧ (exWalled.height - 2) * (exWalled.width - 2) ≤ 3 ∧
    ∃ D, generate_dijkstra_map 3 Mem.empty exVertices exWalled 1 [1, 1] true .TUNNEL_MAP
        = some D ∧
      ∀ y x, Interior exWalled y x →
        (D (COST exWalled y x) ≠ INT_MAX ↔ TunnelReach true exWalled 1 1 y x) := by
  obtain ⟨D, e, h, _⟩ := generate_dijkstra_map_tunnel_finite 3 Mem.empty exVertices exWalled
    1 1 true (by decide) (by decide) (by decide) (by decide)
  exact ⟨by decide, by decide, by decide, by decide, D, e, h⟩

/-- Every iteration of a completed source loop read inside the array. -/
theorem fill_sources_reads (d : Dungeon) (n : Nat) (sources : List Int) :
    ∀ (is : List Nat) (c c0 : Nat → Int), fill_sources d n sources is c = some c0 →
      ∀ i ∈ is, i * n + 1 < sources.length := by
  intro is
  induction is with
  | nil => intro c c0 _ i hi; simp at hi
  | cons j is ih =>
    intro c c0 h i hi
    simp only [fill_sources] at h
    cases h1 : sources.get? (j * n + 0) with
    | none => rw [h1] at h; simp at h
    | some sy =>
      cases h2 : sources.get? (j * n + 1) with
      | none => rw [h1, h2] at h; simp at h
      | some sx =>
        rw [h1, h2] at h
        simp only at h
        split at h
        · rcases List.mem_cons.mp hi with rfl | hi
          · by_contra hge
            rw [List.get?_eq_none.mpr (by omega)] at h2
            cases h2
          · exact ih _ _ h i hi
        · simp at h

/-- C8: with three or more sources the source loop of `generate_dijkstra_map` indexes the
array by `i * num_sources` instead of `2 * i`, so its last iteration reads past the `2n`
entries of the array: no field is produced. -/
theorem generate_dijkstra_map_reads_past_sources (fuel : Nat) (m0 : Mem) (v0 : Nat → Vertex)
    (d : Dungeon) (n : Nat) (sources : List Int) (diagonal : Bool) (type : Dijkstra_T)
    (hn : 3 ≤ n) (hlen : sources.length = 2 * n) :
    generate_dijkstra_map fuel m0 v0 d n sources diagonal type = none := by
  unfold generate_dijkstra_map
  cases h : fill_sources d n sources (List.range n) (fun _ => INT_MAX) with
  | none => rfl
  | some c0 =>
    exfalso
    have h1 := fill_sources_reads d n sources _ _ _ h (n - 1) (List.mem_range.mpr (by omega))
    have h2 : 2 * n ≤ (n - 1) * n := Nat.mul_le_mul_right n (by omega)
    omega

theorem generate_dijkstra_map_reads_past_sources_witness :
    3 ≤ 3 ∧ [(1 : Int), 1, 2, 2, 3, 3].length = 2 * 3 ∧
    generate_dijkstra_map 9 Mem.empty exVertices exDungeon 3 [1, 1, 2, 2, 3, 3] false
      .TUNNEL_MAP = none :=
  ⟨by decide, by decide,
    generate_dijkstra_map_reads_past_sources 9 Mem.empty exVertices exDungeon 3
      [1, 1, 2, 2, 3, 3] false .TUNNEL_MAP (by decide) (by decide)⟩

/-! ## The cost field of `src/Dungeon/dijkstra.c`

The first version of the cost field takes one source `(y, x)`, fills the cost array itself
and relaxes the eight directions inline.  Its cost functions are those of
`src/Source/Dungeon/dijkstra.c`. -/

namespace Old

/-- Setting `DIAGONAL_NEEDS_OPEN_SPACE` of `src/Settings/misc-settings.h`. -/
def DIAGONAL_NEEDS_OPEN_SPACE : Bool := true

/-- The two loops that write `INT_MAX` to the border entries of the cost array. -/
def cost_border (d : Dungeon) (cost : Nat → Int) : Nat → Int :=
  let c1 := (List.range (d.height - 2)).foldl
    (fun c (k : Nat) => setCost (setCost c (COST d ((k : Int) + 1) 0) INT_MAX)
      (COST d ((k : Int) + 1) ((d.width : Int) - 1)) INT_MAX) cost
  (List.range d.width).foldl
    (fun c (i : Nat) => setCost (setCost c (COST d 0 i) INT_MAX)
      (COST d ((d.height : Int) - 1) i) INT_MAX) c1

/-- Body of the set-up loops of `generate_dijkstra_map` for the vertex `(i, j)`; `(y, x)` is
the source. -/
def dijkstra_init_cell (d : Dungeon) (y x : Int) (type : Dijkstra_T) (s : DInit)
    (cost : Nat → Int) (i j : Nat) : Option (DInit × (Nat → Int)) :=
  let idx := DIJKSTRA d i j
  let dij := fun k => if k = idx then Vertex.mk (i : Int) (j : Int) (cost_function type d i j)
    else s.dijkstra k
  let h0 : Heap := { s.h with mem := s.h.mem.setData idx none }
  if (i : Int) + 1 = y ∧ (j : Int) + 1 = x then
    match heap_intrusive_insert h0 idx 0 (some idx) with
    | none => none
    | some h1 => some ({ h := h1, dijkstra := dij }, setCost cost (COST_TRANSLATE d i j) 0)
  else if type = .REGULAR_MAP then
    if (d.MAP ((i : Int) + 1) ((j : Int) + 1)).type ≠ .ROCK then
      match heap_intrusive_insert h0 idx INT_MAX (some idx) with
      | none => none
      | some h1 =>
        some ({ h := h1, dijkstra := dij }, setCost cost (COST_TRANSLATE d i j) INT_MAX)
    else some ({ h := h0, dijkstra := dij }, setCost cost (COST_TRANSLATE d i j) INT_MAX)
  else if (d.MAP ((i : Int) + 1) ((j : Int) + 1)).hardness ≠ IMMUTABLE_ROCK_HARDNESS then
    match heap_intrusive_insert h0 idx INT_MAX (some idx) with
    | none => none
    | some h1 =>
      some ({ h := h1, dijkstra := dij }, setCost cost (COST_TRANSLATE d i j) INT_MAX)
  else some ({ h := h0, dijkstra := dij }, setCost cost (COST_TRANSLATE d i j) INT_MAX)

/-- The inner set-up loop `for (j = 0; j < d->width - 2; j++)`. -/
def dijkstra_init_row (d : Dungeon) (y x : Int) (type : Dijkstra_T) (i : Nat) :
    List Nat → DInit → (Nat → Int) → Option (DInit × (Nat → Int))
  | [], s, cost => some (s, cost)
  | j :: js, s, cost =>
    match dijkstra_init_cell d y x type s cost i j with
    | none => none
    | some (s1, cost1) => dijkstra_init_row d y x type i js s1 cost1

/-- The outer set-up loop `for (i = 0; i < d->height - 2; i++)`. -/
def dijkstra_init (d : Dungeon) (y x : Int) (type : Dijkstra_T) :
    List Nat → DInit → (Nat → Int) → Option (DInit × (Nat → Int))
  | [], s, cost => some (s, cost)
  | i :: is, s, cost =>
    match dijkstra_init_row d y x type i (List.range (d.width - 2)) s cost with
    | none => none
    | some (s1, cost1) => dijkstra_init d y x type is s1 cost1

/-- The tests after the bounds check of one inline relaxation, and its two assignments:
the neighbour `(ty, tx)` must still be on the heap, have a finite weight and a recorded
cost above `self` plus its weight; it then gets the cost `self + w` and the matching key.
`w` is the weight the code adds in the assignment. -/
def relax (h : Heap) (d : Dungeon) (dijkstra : Nat → Vertex) (cost : Nat → Int) (self : Int)
    (ty tx : Int) (w : Int) : Option (Heap × (Nat → Int)) :=
  if h.mem.data (DIJKSTRA d ty tx) = none then some (h, cost)
  else if (dijkstra (DIJKSTRA d ty tx)).cost = INT_MAX then some (h, cost)
  else if cost (COST_TRANSLATE d ty tx) ≤ add32 self (dijkstra (DIJKSTRA d ty tx)).cost then
    some (h, cost)
  else
    let cost1 := setCost cost (COST_TRANSLATE d ty tx) (add32 self w)
    match heap_decrease_key h (DIJKSTRA d ty tx) (cost1 (COST_TRANSLATE d ty tx)) with
    | none => none
    | some h1 => some (h1, cost1)

/-- One inline relaxation guarded by its bounds check (and, for the diagonal steps of a
regular map, by the open-space test). -/
def relax_if (guard : Bool) (h : Heap) (d : Dungeon) (dijkstra : Nat → Vertex)
    (cost : Nat → Int) (self : Int) (ty tx : Int) (w : Int) : Option (Heap × (Nat → Int)) :=
  if guard then relax h d dijkstra cost self ty tx w else some (h, cost)

/-- The four cardinal relaxations of the main loop, in the order north, south, west, east. -/
def relax_cardinal (h : Heap) (d : Dungeon) (dijkstra : Nat → Vertex) (cost : Nat → Int)
    (v : Vertex) (self : Int) : Option (Heap × (Nat → Int)) :=
  match relax_if (decide (v.y - 1 ≥ 0)) h d dijkstra cost self (v.y - 1) v.x
      (dijkstra (DIJKSTRA d (v.y - 1) v.x)).cost with
  | none => none
  | some (h1, c1) =>
  match relax_if (decide (v.y + 1 < (d.height : Int) - 2)) h1 d dijkstra c1 self (v.y + 1) v.x
      (dijkstra (DIJKSTRA d (v.y + 1) v.x)).cost with
  | none => none
  | some (h2, c2) =>
  match relax_if (decide (v.x - 1 ≥ 0)) h2 d dijkstra c2 self v.y (v.x - 1)
      (dijkstra (DIJKSTRA d v.y (v.x - 1))).cost with
  | none => none
  | some (h3, c3) =>
  relax_if (decide (v.x + 1 < (d.width : Int) - 2)) h3 d dijkstra c3 self v.y (v.x + 1)
    (dijkstra (DIJKSTRA d v.y (v.x + 1))).cost

/-- The four diagonal relaxations, in the order north-west, north-east, south-west,
south-east.  `open_space` is the test `DIAGONAL_NEEDS_OPEN_SPACE && type == REGULAR_MAP`: in
that branch a diagonal step needs one of the two cells orthogonal to it to have a finite
weight.  In both branches the north-west assignment adds the weight of the extracted vertex
itself, `DIJKSTRA(v->y, v->x).cost`. -/
def relax_diagonal (h : Heap) (d : Dungeon) (dijkstra : Nat → Vertex) (cost : Nat → Int)
    (v : Vertex) (self : Int) (open_space : Bool) : Option (Heap × (Nat → Int)) :=
  let n := (dijkstra (DIJKSTRA d (v.y - 1) v.x)).cost
  let s := (dijkstra (DIJKSTRA d (v.y + 1) v.x)).cost
  let w := (dijkstra (DIJKSTRA d v.y (v.x - 1))).cost
  let e := (dijkstra (DIJKSTRA d v.y (v.x + 1))).cost
  match relax_if (decide (v.y - 1 ≥ 0 ∧ v.x - 1 ≥ 0 ∧
        (open_space = true → n ≠ INT_MAX ∨ w ≠ INT_MAX)))
      h d dijkstra cost self (v.y - 1) (v.x - 1) (dijkstra (DIJKSTRA d v.y v.x)).cost with
  | none => none
  | some (h1, c1) =>
  match relax_if (decide (v.y - 1 ≥ 0 ∧ v.x + 1 < (d.width : Int) - 2 ∧
        (open_space = true → n ≠ INT_MAX ∨ e ≠ INT_MAX)))
      h1 d dijkstra c1 self (v.y - 1) (v.x + 1)
      (dijkstra (DIJKSTRA d (v.y - 1) (v.x + 1))).cost with
  | none => none
  | some (h2, c2) =>
  match relax_if (decide (v.y + 1 < (d.height : Int) - 2 ∧ v.x - 1 ≥ 0 ∧
        (open_space = true → s ≠ INT_MAX ∨ w ≠ INT_MAX)))
      h2 d dijkstra c2 self (v.y + 1) (v.x - 1)
      (dijkstra (DIJKSTRA d (v.y + 1) (v.x - 1))).cost with
  | none => none
  | some (h3, c3) =>
  relax_if (decide (v.y + 1 < (d.height : Int) - 2 ∧ v.x + 1 < (d.width : Int) - 2 ∧
        (open_space = true → s ≠ INT_MAX ∨ e ≠ INT_MAX)))
    h3 d dijkstra c3 self (v.y + 1) (v.x + 1)
    (dijkstra (DIJKSTRA d (v.y + 1) (v.x + 1))).cost

/-- All relaxations of one iteration of the main loop. -/
def relax_all (h : Heap) (d : Dungeon) (dijkstra : Nat → Vertex) (cost : Nat → Int)
    (v : Vertex) (self : Int) (diagonal : Bool) (type : Dijkstra_T) :
    Option (Heap × (Nat → Int)) :=
  match relax_cardinal h d dijkstra cost v self with
  | none => none
  | some (h4, c4) =>
    if diagonal then
      relax_diagonal h4 d dijkstra c4 v self
        (DIAGONAL_NEEDS_OPEN_SPACE && decide (type = .REGULAR_MAP))
    else some (h4, c4)

/-- The main loop `while (h->size > 0)` of `generate_dijkstra_map`; `fuel` bounds the
number of iterations and is also handed to `heap_remove_min`. -/
def dijkstra_loop (d : Dungeon) (dijkstra : Nat → Vertex) (diagonal : Bool)
    (type : Dijkstra_T) : Nat → Heap → (Nat → Int) → Option (Nat → Int)
  | fuel, h, cost =>
    if h.size > 0 then
      match fuel with
      | 0 => none
      | fuel + 1 =>
        match heap_remove_min (fuel + 1) h with
        | none => none
        | some (none, _) => none
        | some (some r, h1) =>
          match h1.mem.data r with
          | none => none
          | some vi =>
            let h2 : Heap := { h1 with mem := h1.mem.setData vi none }
            if cost (COST_TRANSLATE d (dijkstra vi).y (dijkstra vi).x) = INT_MAX then
              dijkstra_loop d dijkstra diagonal type fuel h2 cost
            else
              match relax_all h2 d dijkstra cost (dijkstra vi)
                  (cost (COST_TRANSLATE d (dijkstra vi).y (dijkstra vi).x)) diagonal type with
              | none => none
              | some (h3, cost3) => dijkstra_loop d dijkstra diagonal type fuel h3 cost3
    else some cost

/-- Embedding of `generate_dijkstra_map` of `src/Dungeon/dijkstra.c`.  `m0`, `v0` and `c0`
are the uninitialised contents of the vertex array and of the cost array handed out by
`safe_malloc`. -/
def generate_dijkstra_map (fuel : Nat) (m0 : Mem) (v0 : Nat → Vertex) (c0 : Nat → Int)
    (d : Dungeon) (y x : Int) (diagonal : Bool) (type : Dijkstra_T) : Option (Nat → Int) :=
  match dijkstra_init d y x type (List.range (d.height - 2))
      { h := new_heap m0 true, dijkstra := v0 } (cost_border d c0) with
  | none => none
  | some (s, cost) => dijkstra_loop d s.dijkstra diagonal type fuel s.h cost

end Old

/-- A guarded inline relaxation in a cardinal direction is a call of `check_neighbor` when
the policy is not `REGULAR_MAP`. -/
theorem old_relax_eq {h : Heap} {d : Dungeon} {dijkstra : Nat → Vertex} {cost : Nat → Int}
    {v : Vertex} {self ty tx : Int} {guard : Bool} {type : Dijkstra_T} (dy dx : Int)
    (hty : ty = v.y + dy) (htx : tx = v.x + dx)
    (hg : guard = true ↔ InB d ty tx) (hself : self = cost (COST_TRANSLATE d v.y v.x))
    (ht : type ≠ .REGULAR_MAP) :
    Old.relax_if guard h d dijkstra cost self ty tx (dijkstra (DIJKSTRA d ty tx)).cost =
      check_neighbor h d dijkstra cost v dy dx type := by
  subst hty htx hself
  unfold Old.relax_if Old.relax check_neighbor
  cases guard with
  | false =>
    have hb : ¬ InB d (v.y + dy) (v.x + dx) := fun e => by simpa using hg.mpr e
    unfold InB at hb
    by_cases h1 : v.y + dy < 0 ∨ (d.height : Int) - 3 < v.y + dy
    · simp [h1]
    · have h2 : v.x + dx < 0 ∨ (d.width : Int) - 3 < v.x + dx := by omega
      simp [h1, h2]
  | true =>
    have hb : InB d (v.y + dy) (v.x + dx) := hg.mp rfl
    unfold InB at hb
    have h1 : ¬ (v.y + dy < 0 ∨ (d.height : Int) - 3 < v.y + dy) := by omega
    have h2 : ¬ (v.x + dx < 0 ∨ (d.width : Int) - 3 < v.x + dx) := by omega
    simp only [h1, h2, if_false, if_true, ht, false_and]

/-- A call of `check_neighbor` from `(y, x)` in a direction other than `(0, 0)` leaves the
cost of `(y, x)` alone. -/
theorem check_neighbor_self {d : Dungeon} {type : Dijkstra_T} {dijkstra : Nat → Vertex}
    {cost0 : Nat → Int} {h : Heap} {cost : Nat → Int} {t : PTree}
    (inv : LInv d type dijkstra cost0 h cost t) {y x : Int} (hu : InB d y x) (dy dx : Int)
    (hne : dy ≠ 0 ∨ dx ≠ 0) :
    ∃ h2 cost2 t2, check_neighbor h d dijkstra cost (dijkstra (DIJKSTRA d y x)) dy dx type =
        some (h2, cost2) ∧
      LInv d type dijkstra cost0 h2 cost2 t2 ∧ t2.addrs.length = t.addrs.length ∧
      cost2 (COST_TRANSLATE d y x) = cost (COST_TRANSLATE d y x) := by
  obtain ⟨h2, cost2, t2, e, inv2, hp, _, _, _, hch⟩ := check_neighbor_spec inv hu dy dx
  refine ⟨h2, cost2, t2, e, inv2, hp.length_eq, ?_⟩
  by_contra hc
  obtain ⟨hr, _, hi, _⟩ := hch _ hc
  obtain ⟨e1, e2⟩ := COST_TRANSLATE_inj hu hr.1 hi
  omega

/-- Without diagonal steps and for a policy other than `REGULAR_MAP`, the inline
relaxations of the first version are the four `check_neighbor` calls of the second. -/
theorem old_relax_all_eq {d : Dungeon} {type : Dijkstra_T} {dijkstra : Nat → Vertex}
    {cost0 : Nat → Int} {h : Heap} {cost : Nat → Int} {t : PTree}
    (inv : LInv d type dijkstra cost0 h cost t) {y x : Int} (hu : InB d y x)
    (ht : type ≠ .REGULAR_MAP) :
    Old.relax_all h d dijkstra cost (dijkstra (DIJKSTRA d y x)) (cost (COST_TRANSLATE d y x))
        false type =
      check_neighbors h d dijkstra cost (dijkstra (DIJKSTRA d y x)) false type ∧
    ∃ h2 cost2 t2, check_neighbors h d dijkstra cost (dijkstra (DIJKSTRA d y x)) false type =
        some (h2, cost2) ∧ LInv d type dijkstra cost0 h2 cost2 t2 ∧
      t2.addrs.length = t.addrs.length := by
  have hv := inv.verts y x hu
  obtain ⟨h1, c1, t1, e1, inv1, l1, s1⟩ := check_neighbor_self inv hu (-1) 0 (Or.inl (by decide))
  obtain ⟨h2, c2, t2, e2, inv2, l2, s2⟩ := check_neighbor_self inv1 hu 1 0 (Or.inl (by decide))
  obtain ⟨h3, c3, t3, e3, inv3, l3, s3⟩ :=
    check_neighbor_self inv2 hu 0 (-1) (Or.inr (by decide))
  obtain ⟨h4, c4, t4, e4, inv4, l4, s4⟩ := check_neighbor_self inv3 hu 0 1 (Or.inr (by decide))
  have hvy : (dijkstra (DIJKSTRA d y x)).y = y := by rw [hv]
  have hvx : (dijkstra (DIJKSTRA d y x)).x = x := by rw [hv]
  have hb := hu
  unfold InB at hb
  have q1 := @old_relax_eq h d dijkstra cost (dijkstra (DIJKSTRA d y x))
    (cost (COST_TRANSLATE d y x)) ((dijkstra (DIJKSTRA d y x)).y - 1)
    (dijkstra (DIJKSTRA d y x)).x (decide ((dijkstra (DIJKSTRA d y x)).y - 1 ≥ 0)) type (-1) 0
    (by ring) (by ring) (by rw [hvy, hvx]; unfold InB; simp only [decide_eq_true_eq]; omega)
    (by rw [hvy, hvx]) ht
  have q2 := @old_relax_eq h1 d dijkstra c1 (dijkstra (DIJKSTRA d y x))
    (cost (COST_TRANSLATE d y x)) ((dijkstra (DIJKSTRA d y x)).y + 1)
    (dijkstra (DIJKSTRA d y x)).x
    (decide ((dijkstra (DIJKSTRA d y x)).y + 1 < (d.height : Int) - 2)) type 1 0
    (by ring) (by ring) (by rw [hvy, hvx]; unfold InB; simp only [decide_eq_true_eq]; omega)
    (by rw [hvy, hvx, s1]) ht
  have q3 := @old_relax_eq h2 d dijkstra c2 (dijkstra (DIJKSTRA d y x))
    (cost (COST_TRANSLATE d y x)) (dijkstra (DIJKSTRA d y x)).y
    ((dijkstra (DIJKSTRA d y x)).x - 1)
    (decide ((dijkstra (DIJKSTRA d y x)).x - 1 ≥ 0)) type 0 (-1)
    (by ring) (by ring) (by rw [hvy, hvx]; unfold InB; simp only [decide_eq_true_eq]; omega)
    (by rw [hvy, hvx, s2, s1]) ht
  have q4 := @old_relax_eq h3 d dijkstra c3 (dijkstra (DIJKSTRA d y x))
    (cost (COST_TRANSLATE d y x)) (dijkstra (DIJKSTRA d y x)).y
    ((dijkstra (DIJKSTRA d y x)).x + 1)
    (decide ((dijkstra (DIJKSTRA d y x)).x + 1 < (d.width : Int) - 2)) type 0 1
    (by ring) (by ring) (by rw [hvy, hvx]; unfold InB; simp only [decide_eq_true_eq]; omega)
    (by rw [hvy, hvx, s3, s2, s1]) ht
  have hnew : check_neighbors h d dijkstra cost (dijkstra (DIJKSTRA d y x)) false type =
      some (h4, c4) := by
    unfold check_neighbors
    rw [e1]; simp only
    rw [e2]; simp only
    rw [e3]; simp only
    rw [e4]; simp
  refine ⟨?_, h4, c4, t4, hnew, inv4, by omega⟩
  rw [hnew]
  unfold Old.relax_all Old.relax_cardinal
  rw [q1, e1]; simp only
  rw [q2, e2]; simp only
  rw [q3, e3]; simp only
  rw [q4, e4]; simp

/-- Extraction of the minimum keeps the structural invariant. -/
theorem extract_LInv {d : Dungeon} {type : Dijkstra_T} {dijkstra : Nat → Vertex}
    {cost0 : Nat → Int} {h : Heap} {cost : Nat → Int} {r : Nat} {c : PTree} (fuel : Nat)
    (inv : LInv d type dijkstra cost0 h cost (.node r c .nil)) (hfc : c.addrs.length ≤ fuel) :
    ∃ h1 yr xr, heap_remove_min (fuel + 1) h = some (some r, h1) ∧ h1.mem.data r = some r ∧
      InB d yr xr ∧ r = DIJKSTRA d yr xr ∧
      LInv d type dijkstra cost0 { h1 with mem := h1.mem.setData r none } cost
        (meldTree h.mem.key c) ∧
      (meldTree h.mem.key c).addrs.length = c.addrs.length := by
  obtain ⟨h1, he1, w1, _, hk1, hd1, _, _⟩ :=
    @heap_remove_min_wf h r c (fuel + 1) inv.wf (by omega)
  have hperm := meldTree_perm h.mem.key c
  have hrt : r ∈ (PTree.node r c .nil).addrs := by simp [PTree.addrs]
  obtain ⟨yr, xr, hb, hr, hen⟩ := inv.mem r hrt
  have hkr := inv.key yr xr hb (hr ▸ hrt)
  have hnd : (r :: c.addrs).Nodup := by simpa [PTree.addrs] using inv.wf.nodup
  have hrc : r ∉ c.addrs := (List.nodup_cons.mp hnd).1
  have hdata : h1.mem.data r = some r := by rw [hd1, hr]; rw [← hr] at hkr ⊢; exact hr ▸ hkr.2
  refine ⟨h1, yr, xr, he1, hdata, hb, hr, ?_, hperm.length_eq⟩
  refine ⟨WF_setData w1 r none, inv.verts, ?_, ?_, ?_, inv.mono, inv.frame⟩
  · intro a ha
    exact inv.mem a (by simp [PTree.addrs, hperm.mem_iff.mp ha])
  · intro y x hyx hm
    have hmc := hperm.mem_iff.mp hm
    have hne : DIJKSTRA d y x ≠ r := fun e => hrc (e ▸ hmc)
    have := inv.key y x hyx (by simp [PTree.addrs, hmc])
    simp only [data_setData, key_setData, hne, if_false, hk1, hd1]
    exact this
  · intro y x hyx hm
    by_cases hne : DIJKSTRA d y x = r
    · simp [hne]
    · simp only [data_setData, hne, if_false, hd1]
      refine inv.off y x hyx ?_
      simp only [PTree.addrs, List.mem_cons, List.mem_append, List.not_mem_nil, or_false]
      rintro (e | e)
      · exact hne e
      · exact hm (hperm.mem_iff.mpr e)

/-- Without diagonal steps and for a policy other than `REGULAR_MAP`, the main loop of the
first version computes what the main loop of the second computes. -/
theorem old_dijkstra_loop_eq {d : Dungeon} {type : Dijkstra_T} {dijkstra : Nat → Vertex}
    {cost0 : Nat → Int} (ht : type ≠ .REGULAR_MAP) : ∀ (fuel : Nat) (h : Heap)
    (cost : Nat → Int) (t : PTree), LInv d type dijkstra cost0 h cost t →
    t.addrs.length ≤ fuel →
    Old.dijkstra_loop d dijkstra false type fuel h cost =
      dijkstra_loop d dijkstra false type fuel h cost := by
  intro fuel
  induction fuel with
  | zero =>
    intro h cost t inv hf
    unfold Old.dijkstra_loop dijkstra_loop
    rfl
  | succ fuel ih =>
    intro h cost t inv hf
    rcases inv.wf.top with ht0 | ⟨r, c, ht0⟩
    · subst ht0
      have hs : h.size = 0 := by rw [inv.wf.size]; simp [PTree.addrs]
      unfold Old.dijkstra_loop dijkstra_loop
      simp [hs]
    · subst ht0
      have hs : h.size > 0 := by
        rw [inv.wf.size]; simp only [PTree.addrs, List.length_cons]; push_cast; omega
      have hfc : c.addrs.length ≤ fuel := by
        simp only [PTree.addrs, List.length_cons, List.length_append, List.length_nil] at hf
        omega
      obtain ⟨h1, yr, xr, he1, hdata, hb, hr, inv2, hlen⟩ := extract_LInv fuel inv hfc
      have hvert := inv.verts yr xr hb
      rw [← hr] at hvert
      unfold Old.dijkstra_loop dijkstra_loop
      simp only [hs, if_true, he1, hdata, hvert]
      by_cases hinf : cost (COST_TRANSLATE d yr xr) = INT_MAX
      · rw [if_pos hinf, if_pos hinf]
        exact ih _ cost _ inv2 (by omega)
      · rw [if_neg hinf, if_neg hinf]
        obtain ⟨q, h3, cost3, t3, e3, inv3, l3⟩ := old_relax_all_eq inv2 hb ht
        rw [← hr, hvert] at q e3
        rw [q, e3]
        simp only
        exact ih h3 cost3 t3 inv3 (by omega)

/-- The cost entries written by one row of the set-up loops, when the entry of a vertex
is the value `K` holds there. -/
def init_cost_row (d : Dungeon) (K : Nat → Int) (i : Nat) : List Nat → (Nat → Int) → Nat → Int
  | [], c => c
  | j :: js, c => init_cost_row d K i js (setCost c (COST_TRANSLATE d i j) (K (COST_TRANSLATE d i j)))

/-- The cost entries written by the set-up loops. -/
def init_cost (d : Dungeon) (K : Nat → Int) : List Nat → (Nat → Int) → Nat → Int
  | [], c => c
  | i :: is, c => init_cost d K is (init_cost_row d K i (List.range (d.width - 2)) c)

theorem init_cost_row_keep (d : Dungeon) (K : Nat → Int) (i : Nat) :
    ∀ (js : List Nat) (c : Nat → Int) (k : Nat),
      init_cost_row d K i js c k = K k ∨ init_cost_row d K i js c k = c k
  | [], _, _ => Or.inr rfl
  | j :: js, c, k => by
    rcases init_cost_row_keep d K i js (setCost c (COST_TRANSLATE d i j)
      (K (COST_TRANSLATE d i j))) k with h | h
    · exact Or.inl h
    · simp only [init_cost_row]
      rw [h]
      unfold setCost
      by_cases e : k = COST_TRANSLATE d i j
      · left; simp [e]
      · right; simp [e]

theorem init_cost_row_hit (d : Dungeon) (K : Nat → Int) (i : Nat) :
    ∀ (js : List Nat) (c : Nat → Int) (j : Nat), j ∈ js →
      init_cost_row d K i js c (COST_TRANSLATE d i j) = K (COST_TRANSLATE d i j)
  | [], _, _, hj => by simp at hj
  | j0 :: js, c, j, hj => by
    simp only [init_cost_row]
    rcases List.mem_cons.mp hj with rfl | hj
    · rcases init_cost_row_keep d K i js (setCost c (COST_TRANSLATE d i j)
        (K (COST_TRANSLATE d i j))) (COST_TRANSLATE d i j) with h | h
      · exact h
      · rw [h]; simp [setCost]
    · exact init_cost_row_hit d K i js _ j hj

theorem init_cost_keep (d : Dungeon) (K : Nat → Int) :
    ∀ (is : List Nat) (c : Nat → Int) (k : Nat),
      init_cost d K is c k = K k ∨ init_cost d K is c k = c k
  | [], _, _ => Or.inr rfl
  | i :: is, c, k => by
    simp only [init_cost]
    rcases init_cost_keep d K is (init_cost_row d K i (List.range (d.width - 2)) c) k with h | h
    · exact Or.inl h
    · rw [h]; exact init_cost_row_keep d K i _ c k

theorem init_cost_hit (d : Dungeon) (K : Nat → Int) :
    ∀ (is : List Nat) (c : Nat → Int) (i j : Nat), i ∈ is → j < d.width - 2 →
      init_cost d K is c (COST_TRANSLATE d i j) = K (COST_TRANSLATE d i j)
  | [], _, _, _, hi, _ => by simp at hi
  | i0 :: is, c, i, j, hi, hj => by
    simp only [init_cost]
    rcases List.mem_cons.mp hi with rfl | hi
    · rcases init_cost_keep d K is (init_cost_row d K i (List.range (d.width - 2)) c)
        (COST_TRANSLATE d i j) with h | h
      · exact h
      · rw [h]; exact init_cost_row_hit d K i _ c j (List.mem_range.mpr hj)
    · exact init_cost_hit d K is _ i j hi hj

/-- One vertex of the set-up loops of the first version, seen through the second. -/
theorem old_init_cell_eq {d : Dungeon} {y x : Int} {type : Dijkstra_T} (s : DInit)
    (cost K : Nat → Int) (i j : Nat) (ht : type ≠ .REGULAR_MAP)
    (hK : K (COST_TRANSLATE d i j) = if (i : Int) + 1 = y ∧ (j : Int) + 1 = x then 0 else INT_MAX)
    (hm : (d.MAP ((i : Int) + 1) ((j : Int) + 1)).hardness ≠ IMMUTABLE_ROCK_HARDNESS) :
    Old.dijkstra_init_cell d y x type s cost i j =
      (dijkstra_init_cell d K type s i j).map
        (fun s1 => (s1, setCost cost (COST_TRANSLATE d i j) (K (COST_TRANSLATE d i j)))) := by
  unfold Old.dijkstra_init_cell dijkstra_init_cell
  by_cases hsrc : (i : Int) + 1 = y ∧ (j : Int) + 1 = x
  · rw [hK]
    simp only [hsrc, and_self, if_true, ht, if_false]
    cases heap_intrusive_insert _ (DIJKSTRA d i j) 0 (some (DIJKSTRA d i j)) <;> rfl
  · rw [hK]
    simp only [hsrc, if_false, ht, hm, ne_eq, not_false_eq_true, if_true]
    cases heap_intrusive_insert _ (DIJKSTRA d i j) INT_MAX (some (DIJKSTRA d i j)) <;> rfl

theorem old_init_row_eq {d : Dungeon} {y x : Int} {type : Dijkstra_T} (K : Nat → Int) (i : Nat)
    (ht : type ≠ .REGULAR_MAP) :
    ∀ (js : List Nat) (s : DInit) (cost : Nat → Int),
    (∀ j ∈ js, K (COST_TRANSLATE d i j) =
        (if (i : Int) + 1 = y ∧ (j : Int) + 1 = x then 0 else INT_MAX) ∧
      (d.MAP ((i : Int) + 1) ((j : Int) + 1)).hardness ≠ IMMUTABLE_ROCK_HARDNESS) →
    Old.dijkstra_init_row d y x type i js s cost =
      (dijkstra_init_row d K type i js s).map (fun s1 => (s1, init_cost_row d K i js cost))
  | [], s, cost, _ => rfl
  | j :: js, s, cost, h => by
    have hj := h j (List.mem_cons_self _ _)
    simp only [Old.dijkstra_init_row, dijkstra_init_row, init_cost_row]
    rw [old_init_cell_eq s cost K i j ht hj.1 hj.2]
    cases dijkstra_init_cell d K type s i j with
    | none => rfl
    | some s1 =>
      simp only [Option.map_some']
      exact old_init_row_eq K i ht js s1 _ (fun j hj => h j (List.mem_cons_of_mem _ hj))

theorem old_init_eq {d : Dungeon} {y x : Int} {type : Dijkstra_T} (K : Nat → Int)
    (ht : type ≠ .REGULAR_MAP) :
    ∀ (is : List Nat) (s : DInit) (cost : Nat → Int),
    (∀ i ∈ is, ∀ j < d.width - 2, K (COST_TRANSLATE d i j) =
        (if (i : Int) + 1 = y ∧ (j : Int) + 1 = x then 0 else INT_MAX) ∧
      (d.MAP ((i : Int) + 1) ((j : Int) + 1)).hardness ≠ IMMUTABLE_ROCK_HARDNESS) →
    Old.dijkstra_init d y x type is s cost =
      (dijkstra_init d K type is s).map (fun s1 => (s1, init_cost d K is cost))
  | [], s, cost, _ => rfl
  | i :: is, s, cost, h => by
    simp only [Old.dijkstra_init, dijkstra_init, init_cost]
    rw [old_init_row_eq K i ht _ s cost
      (fun j hj => h i (List.mem_cons_self _ _) j (List.mem_range.mp hj))]
    cases dijkstra_init_row d K type i (List.range (d.width - 2)) s with
    | none => rfl
    | some s1 =>
      simp only [Option.map_some']
      exact old_init_eq K ht is s1 _ (fun i hi => h i (List.mem_cons_of_mem _ hi))

theorem dijkstra_init_cell_congr {d : Dungeon} {type : Dijkstra_T} {K1 K2 : Nat → Int}
    (s : DInit) (i j : Nat) (h : K1 (COST_TRANSLATE d i j) = K2 (COST_TRANSLATE d i j)) :
    dijkstra_init_cell d K1 type s i j = dijkstra_init_cell d K2 type s i j := by
  unfold dijkstra_init_cell
  rw [h]

theorem dijkstra_init_row_congr {d : Dungeon} {type : Dijkstra_T} {K1 K2 : Nat → Int} (i : Nat) :
    ∀ (js : List Nat) (s : DInit),
    (∀ j ∈ js, K1 (COST_TRANSLATE d i j) = K2 (COST_TRANSLATE d i j)) →
    dijkstra_init_row d K1 type i js s = dijkstra_init_row d K2 type i js s
  | [], _, _ => rfl
  | j :: js, s, h => by
    simp only [dijkstra_init_row]
    rw [dijkstra_init_cell_congr s i j (h j (List.mem_cons_self _ _))]
    cases dijkstra_init_cell d K2 type s i j with
    | none => rfl
    | some s1 => exact dijkstra_init_row_congr i js s1 (fun j hj => h j (List.mem_cons_of_mem _ hj))

theorem dijkstra_init_congr {d : Dungeon} {type : Dijkstra_T} {K1 K2 : Nat → Int} :
    ∀ (is : List Nat) (s : DInit),
    (∀ i ∈ is, ∀ j < d.width - 2, K1 (COST_TRANSLATE d i j) = K2 (COST_TRANSLATE d i j)) →
    dijkstra_init d K1 type is s = dijkstra_init d K2 type is s
  | [], _, _ => rfl
  | i :: is, s, h => by
    simp only [dijkstra_init]
    rw [dijkstra_init_row_congr i _ s
      (fun j hj => h i (List.mem_cons_self _ _) j (List.mem_range.mp hj))]
    cases dijkstra_init_row d K2 type i (List.range (d.width - 2)) s with
    | none => rfl
    | some s1 => exact dijkstra_init_congr is s1 (fun i hi => h i (List.mem_cons_of_mem _ hi))

/-- The set-up loops of `dijkstra_helper` succeed and establish the structural invariant. -/
theorem dijkstra_init_LInv (m0 : Mem) (v0 : Nat → Vertex) (d : Dungeon) (cost : Nat → Int)
    (type : Dijkstra_T) :
    ∃ s t, dijkstra_init d cost type (List.range (d.height - 2))
        { h := new_heap m0 true, dijkstra := v0 } = some s ∧
      LInv d type s.dijkstra cost s.h cost t ∧
      t.addrs.length ≤ (d.height - 2) * (d.width - 2) := by
  have inv0 : IInv d type cost [] { h := new_heap m0 true, dijkstra := v0 } .nil :=
    ⟨new_heap_wf m0 true, rfl, fun p hp => by simp at hp,
      fun a ha => by simp [PTree.addrs] at ha, fun p hp => by simp at hp,
      by simp [PTree.addrs]⟩
  obtain ⟨s, t, S, e1, inv, hmS, hlS⟩ := dijkstra_init_spec (List.range (d.height - 2)) []
    { h := new_heap m0 true, dijkstra := v0 } .nil inv0
    (fun i hi => by have := List.mem_range.mp hi; omega) (fun p hp => by simp at hp)
    (List.nodup_range _)
  have hall : ∀ y x, InB d y x → (y.toNat, x.toNat) ∈ S ∧ ((y.toNat : Nat) : Int) = y ∧
      ((x.toNat : Nat) : Int) = x := by
    intro y x hb
    obtain ⟨a1, a2, a3, a4⟩ := hb
    refine ⟨?_, Int.toNat_of_nonneg a1, Int.toNat_of_nonneg a3⟩
    rw [hmS]
    refine Or.inr ⟨List.mem_range.mpr ?_, ?_⟩ <;> simp only <;> omega
  refine ⟨s, t, e1, ?_, ?_⟩
  · refine ⟨inv.wf, ?_, ?_, ?_, ?_, fun _ => le_refl _, fun i hi => absurd rfl hi⟩
    · intro y x hb
      obtain ⟨hm, ey, ex⟩ := hall y x hb
      have := (inv.cells _ hm).1
      simp only [ey, ex] at this
      exact this
    · intro a ha
      obtain ⟨p, hp, e, hpe⟩ := inv.mem a ha
      exact ⟨p.1, p.2, inv.inb p hp, e, hpe⟩
    · intro y x hb hm
      obtain ⟨hmS2, ey, ex⟩ := hall y x hb
      obtain ⟨p, hp, e, hpe⟩ := inv.mem _ hm
      obtain ⟨e1, e2⟩ := DIJKSTRA_inj hb (inv.inb p hp) e
      have hen : Enq type d y x := by rw [e1, e2]; exact hpe
      have := (inv.cells _ hmS2).2.1
      simp only [ey, ex] at this
      exact ⟨(this hen).2.1, (this hen).2.2⟩
    · intro y x hb hm
      obtain ⟨hmS2, ey, ex⟩ := hall y x hb
      have hc := inv.cells _ hmS2
      simp only [ey, ex] at hc
      by_cases hen : Enq type d y x
      · exact absurd (hc.2.1 hen).1 hm
      · exact hc.2.2 hen
  · have := inv.len
    simp only [List.length_nil, List.length_range, zero_add] at hlS
    omega

theorem foldl_setmax (A B : Nat → Nat) : ∀ (l : List Nat) (c : Nat → Int) (idx : Nat),
    (c idx = INT_MAX ∨ ∃ k ∈ l, A k = idx ∨ B k = idx) →
    (l.foldl (fun c k => setCost (setCost c (A k) INT_MAX) (B k) INT_MAX) c) idx = INT_MAX
  | [], c, idx, h => by
    rcases h with h | ⟨k, hk, _⟩
    · exact h
    · simp at hk
  | k0 :: l, c, idx, h => by
    simp only [List.foldl_cons]
    apply foldl_setmax A B l
    rcases h with h | ⟨k, hk, hh⟩
    · left
      unfold setCost
      split
      · rfl
      · split
        · rfl
        · exact h
    · rcases List.mem_cons.mp hk with rfl | hk
      · left
        unfold setCost
        rcases hh with hh | hh
        · by_cases e : idx = B k
          · simp [e]
          · simp [e, hh]
        · simp [hh]
      · exact Or.inr ⟨k, hk, hh⟩

/-- After the border loops every border entry of the cost array holds `INT_MAX`. -/
theorem cost_border_spec (d : Dungeon) (c0 : Nat → Int) {a b : Int} (hg : InGrid d a b)
    (hni : ¬ Interior d a b) : Old.cost_border d c0 (COST d a b) = INT_MAX := by
  obtain ⟨g1, g2, g3, g4⟩ := hg
  unfold Interior at hni
  have ha : ((a.toNat : Nat) : Int) = a := Int.toNat_of_nonneg g1
  have hb : ((b.toNat : Nat) : Int) = b := Int.toNat_of_nonneg g3
  unfold Old.cost_border
  refine foldl_setmax (fun i => COST d 0 i) (fun i => COST d ((d.height : Int) - 1) i) _ _ _ ?_
  by_cases hrow : a = 0 ∨ a = (d.height : Int) - 1
  · right
    refine ⟨b.toNat, List.mem_range.mpr (by omega), ?_⟩
    simp only [hb]
    rcases hrow with e | e
    · left; rw [e]
    · right; rw [e]
  · left
    refine foldl_setmax (fun k => COST d ((k : Int) + 1) 0)
      (fun k => COST d ((k : Int) + 1) ((d.width : Int) - 1)) _ _ _ ?_
    right
    have hk : (((a - 1).toNat : Nat) : Int) = a - 1 := Int.toNat_of_nonneg (by omega)
    refine ⟨(a - 1).toNat, List.mem_range.mpr (by omega), ?_⟩
    simp only [hk, sub_add_cancel]
    have : b = 0 ∨ b = (d.width : Int) - 1 := by omega
    rcases this with e | e
    · left; rw [e]
    · right; rw [e]

/-- For a policy other than `REGULAR_MAP`, without diagonal steps, an interior source and no
immutable interior cell, the first version of `generate_dijkstra_map` returns (with one unit
of fuel per interior cell) the field `dijkstra_helper` computes from the array that holds 0
at the source and `INT_MAX` at every other cell of the grid. -/
theorem old_generate_spec (fuel : Nat) (m0 : Mem) (v0 : Nat → Vertex) (c0 : Nat → Int)
    (d : Dungeon) (sy sx : Int) (type : Dijkstra_T) (ht : type ≠ .REGULAR_MAP)
    (hs : Interior d sy sx) (hm : InteriorMutable d)
    (hf : (d.height - 2) * (d.width - 2) ≤ fuel) :
    ∃ D cost0, Old.generate_dijkstra_map fuel m0 v0 c0 d sy sx false type = some D ∧
      DResult d type false cost0 D ∧
      ∀ y x, InGrid d y x → cost0 (COST d y x) = if y = sy ∧ x = sx then 0 else INT_MAX := by
  have hsg := InGrid_of_interior hs
  let K : Nat → Int := fun k => if k = COST d sy sx then 0 else INT_MAX
  have hKg : ∀ y x, InGrid d y x → K (COST d y x) = if y = sy ∧ x = sx then 0 else INT_MAX := by
    intro y x hg
    show (if COST d y x = COST d sy sx then 0 else INT_MAX) = _
    by_cases h : y = sy ∧ x = sx
    · simp [h]
    · have : COST d y x ≠ COST d sy sx := fun e => h (COST_inj hg hsg e)
      simp [h, this]
  have hcell : ∀ i ∈ List.range (d.height - 2), ∀ j < d.width - 2,
      InB d (i : Int) (j : Int) := by
    intro i hi j hj
    have := List.mem_range.mp hi
    unfold InB
    omega
  have hKc : ∀ i ∈ List.range (d.height - 2), ∀ j < d.width - 2,
      K (COST_TRANSLATE d i j) =
        (if (i : Int) + 1 = sy ∧ (j : Int) + 1 = sx then 0 else INT_MAX) ∧
      (d.MAP ((i : Int) + 1) ((j : Int) + 1)).hardness ≠ IMMUTABLE_ROCK_HARDNESS := by
    intro i hi j hj
    have hb := hcell i hi j hj
    have hi2 := interior_of_InB hb
    refine ⟨by rw [COST_TRANSLATE_eq]; exact hKg _ _ (InGrid_of_interior hi2), ?_⟩
    have hlt := List.mem_range.mp hi
    have := hm (i + 1) (by omega) (j + 1) (by omega)
    push_cast at this
    exact this hi2
  let cF := init_cost d K (List.range (d.height - 2)) (Old.cost_border d c0)
  have hcong : ∀ i ∈ List.range (d.height - 2), ∀ j < d.width - 2,
      K (COST_TRANSLATE d i j) = cF (COST_TRANSLATE d i j) := by
    intro i hi j hj
    exact (init_cost_hit d K _ _ i j hi hj).symm
  obtain ⟨s, t, e1, linv, hlen⟩ := dijkstra_init_LInv m0 v0 d cF type
  have e2 := old_init_eq (y := sy) (x := sx) K ht (List.range (d.height - 2))
    { h := new_heap m0 true, dijkstra := v0 } (Old.cost_border d c0) hKc
  rw [dijkstra_init_congr _ _ hcong, e1] at e2
  obtain ⟨D, eD, R⟩ := dijkstra_helper_spec fuel m0 v0 d cF false type hf
  simp only [dijkstra_helper, e1] at eD
  refine ⟨D, cF, ?_, R, ?_⟩
  · simp only [Old.generate_dijkstra_map, e2, Option.map_some']
    rw [old_dijkstra_loop_eq ht fuel s.h cF t linv (le_trans hlen hf)]
    exact eD
  · intro y x hg
    rw [← hKg y x hg]
    by_cases hi : Interior d y x
    · have hb := InB_of_interior hi
      obtain ⟨b1, b2, b3, b4⟩ := hb
      have ey : (((y - 1).toNat : Nat) : Int) = y - 1 := Int.toNat_of_nonneg b1
      have ex : (((x - 1).toNat : Nat) : Int) = x - 1 := Int.toNat_of_nonneg b3
      have := init_cost_hit d K (List.range (d.height - 2)) (Old.cost_border d c0)
        (y - 1).toNat (x - 1).toNat (List.mem_range.mpr (by omega)) (by omega)
      rw [COST_TRANSLATE_eq, ey, ex] at this
      simp only [sub_add_cancel] at this
      exact this
    · rcases init_cost_keep d K (List.range (d.height - 2)) (Old.cost_border d c0)
        (COST d y x) with h | h
      · exact h
      · show init_cost d K (List.range (d.height - 2)) (Old.cost_border d c0) (COST d y x) = _
        rw [h, cost_border_spec d c0 hg hi, hKg y x hg]
        have : ¬ (y = sy ∧ x = sx) := fun e => hi (by rw [e.1, e.2]; exact hs)
        simp [this]

/-- The shortest-path facts for the field the first version computes for corridor carving
and tunnelling. -/
theorem old_generate_facts (fuel : Nat) (m0 : Mem) (v0 : Nat → Vertex) (c0 : Nat → Int)
    (d : Dungeon) (sy sx : Int) (type : Dijkstra_T) (ht : type ≠ .REGULAR_MAP)
    (hbo : BorderOk d) (hh : HardnessOk d) (hm : InteriorMutable d)
    (hsmall : 7 * ((((d.height - 2) * (d.width - 2) : Nat) : Int) + 1) < INT_MAX)
    (hs : Interior d sy sx) (hf : (d.height - 2) * (d.width - 2) ≤ fuel) :
    ∃ D, Old.generate_dijkstra_map fuel m0 v0 c0 d sy sx false type = some D ∧
      SingleFacts type false d sy sx D := by
  obtain ⟨D, cost0, e, R, hK⟩ := old_generate_spec fuel m0 v0 c0 d sy sx type ht hs hm hf
  exact ⟨D, e, single_facts_of R hK hbo hh hsmall hs (fun h => absurd h ht)⟩

/-! ## The dungeon generator of `src/Dungeon/dungeon.c`

`rand()` is a stream of natural numbers consumed from the front; a call on the exhausted
stream, a remainder by zero and an access outside the map fail.  The two floating-point
tests are embedded exactly: `p->height * 1.25 < (float) p->width` as `5 * height < 4 * width`
and the coverage test as a parameter `covered count cells` that stands for
`count / (double) cells > percentage_covered`. -/

def FAILED_ROOM_PLACEMENT : Int := 2000
def FAILED_DUNGEON_GENERATION : Int := 2000
def MIN_ROOM_HEIGHT : Int := 4
def MIN_ROOM_WIDTH : Int := 7
def MIN_PARTITION_HEIGHT : Int := 7
def MAX_PARTITION_HEIGHT : Int := 13
def MIN_PARTITION_WIDTH : Int := 13
def MAX_PARTITION_WIDTH : Int := 27
def DEFAULT_HARDNESS : Int := 0
def OPEN_SPACE_HARDNESS : Int := 0

namespace Old

/-- Embedding of `Room_T`. -/
structure Room_T where
  y : Int
  x : Int
  height : Int
  width : Int
  deriving DecidableEq

/-- Embedding of `Partition_T`. -/
structure Partition_T where
  y : Int
  x : Int
  height : Int
  width : Int

/-- Embedding of `Direction_T`. -/
inductive Direction_T where
  | UP | DOWN | LEFT | RIGHT
  deriving DecidableEq

/-- Embedding of `Dungeon_T` of `src/Dungeon/dungeon.h`: the map and the dimensions, the
room array with its counter, and the position of the player character.  `rooms_size` is the
number of entries `safe_realloc` last allocated for `rooms` and `rooms_overflow` records
whether a room was ever written past them. -/
structure Dungeon_T extends Dungeon where
  rooms : Nat → Room_T
  num_rooms : Nat
  player : Option (Int × Int)
  rooms_size : Nat
  rooms_overflow : Bool

/-- Embedding of `rand_int_in_range`: `rand() % (upper - lower + 1) + lower`, with the
remainder of C (the sign of the dividend). -/
def rand_int_in_range (lower upper : Int) : List Nat → Option (Int × List Nat)
  | [] => none
  | r :: rng =>
    if upper - lower + 1 = 0 then none
    else some (Int.tmod (r : Int) (upper - lower + 1) + lower, rng)

/-- The values `lo, lo + 1, ..., lo + n - 1` of a counting `for` loop. -/
def intRange (lo : Int) (n : Nat) : List Int :=
  (List.range n).map (fun (k : Nat) => lo + (k : Int))

/-- The index `a * d->width + b` lies inside the map. -/
def inMap (d : Dungeon) (a b : Int) : Prop :=
  0 ≤ a * d.width + b ∧ a * d.width + b < (d.height : Int) * d.width

instance (d : Dungeon) (a b : Int) : Decidable (inMap d a b) := by
  unfold inMap; infer_instance

/-- A read of `d->MAP(a, b)`. -/
def getCell (d : Dungeon) (a b : Int) : Option Cell :=
  if inMap d a b then some (d.MAP a b) else none

/-- A write to `d->MAP(a, b)`. -/
def setCell (d : Dungeon_T) (a b : Int) (c : Cell) : Option Dungeon_T :=
  if inMap d.toDungeon a b then
    some { d with map := fun k => if k = (a * d.width + b).toNat then c else d.map k }
  else none

/-- The first loop of `is_valid_room`: the columns left and right of the room. -/
def is_valid_room_sides (d : Dungeon) (x width : Int) : List Int → Option Bool
  | [] => some true
  | i :: is =>
    match getCell d i (x - 1) with
    | none => none
    | some c1 =>
      if c1.type ≠ .ROCK then some false
      else
        match getCell d i (x + width) with
        | none => none
        | some c2 =>
          if c2.type ≠ .ROCK then some false else is_valid_room_sides d x width is

/-- The second loop of `is_valid_room`: the rows above and below the room. -/
def is_valid_room_ends (d : Dungeon) (y height : Int) : List Int → Option Bool
  | [] => some true
  | i :: is =>
    match getCell d (y - 1) i with
    | none => none
    | some c1 =>
      if c1.type ≠ .ROCK then some false
      else
        match getCell d (y + height) i with
        | none => none
        | some c2 =>
          if c2.type ≠ .ROCK then some false else is_valid_room_ends d y height is

/-- Embedding of `is_valid_room`. -/
def is_valid_room (d : Dungeon) (y x height width : Int) : Option Bool :=
  match is_valid_room_sides d x width (intRange (y - 1) (height + 2).toNat) with
  | none => none
  | some false => some false
  | some true => is_valid_room_ends d y height (intRange x width.toNat)

/-- The `do ... while` loop of `fill_partition`: the room parameters it settles on, or
nothing after `FAILED_ROOM_PLACEMENT` failed tries. -/
def fill_partition_try (d : Dungeon_T) (p : Partition_T) :
    Nat → Int → List Nat → Option (Option Room_T × List Nat)
  | 0, _, _ => none
  | fuel + 1, tries, rng =>
    if tries > FAILED_ROOM_PLACEMENT then some (none, rng)
    else
      match rand_int_in_range p.y (p.y + p.height - MIN_ROOM_HEIGHT) rng with
      | none => none
      | some (y, rng1) =>
      match rand_int_in_range p.x (p.x + p.height - MIN_ROOM_WIDTH) rng1 with
      | none => none
      | some (x, rng2) =>
      match rand_int_in_range MIN_ROOM_HEIGHT (p.y + p.height - y) rng2 with
      | none => none
      | some (height, rng3) =>
      match rand_int_in_range MIN_ROOM_WIDTH (p.x + p.height - x) rng3 with
      | none => none
      | some (width, rng4) =>
      match is_valid_room d.toDungeon y x height width with
      | none => none
      | some true => some (some ⟨y, x, height, width⟩, rng4)
      | some false => fill_partition_try d p fuel (tries + 1) rng4

/-- The inner painting loop of `fill_partition`. -/
def paint_room_row (i : Int) : List Int → Dungeon_T → Option Dungeon_T
  | [], d => some d
  | j :: js, d =>
    match setCell d i j { d.MAP i j with type := .ROOM, hardness := OPEN_SPACE_HARDNESS } with
    | none => none
    | some d1 => paint_room_row i js d1

/-- The outer painting loop of `fill_partition`. -/
def paint_room (x : Int) (width : Nat) : List Int → Dungeon_T → Option Dungeon_T
  | [], d => some d
  | i :: is, d =>
    match paint_room_row i (intRange x width) d with
    | none => none
    | some d1 => paint_room x width is d1

/-- Embedding of `fill_partition`. -/
def fill_partition (d : Dungeon_T) (p : Partition_T) (rng : List Nat) :
    Option (Bool × Dungeon_T × List Nat) :=
  match fill_partition_try d p (FAILED_ROOM_PLACEMENT.toNat + 2) 0 rng with
  | none => none
  | some (none, rng1) => some (false, d, rng1)
  | some (some r, rng1) =>
    let d1 : Dungeon_T :=
      { d with
        num_rooms := d.num_rooms + 1
        rooms := fun k => if k = d.num_rooms then r else d.rooms k
        rooms_overflow := d.rooms_overflow || decide (d.rooms_size ≤ d.num_rooms) }
    match paint_room r.x r.width.toNat (intRange r.y r.height.toNat) d1 with
    | none => none
    | some d2 => some (true, d2, rng1)

/-- The test that a partition needs no more splitting. -/
def in_range (p : Partition_T) : Bool :=
  decide (MIN_PARTITION_HEIGHT ≤ p.height ∧ p.height ≤ MAX_PARTITION_HEIGHT ∧
    MIN_PARTITION_WIDTH ≤ p.width ∧ p.width ≤ MAX_PARTITION_WIDTH)

/-- The choice of `split_horizontal` in `generate_rooms`. -/
def split_horizontal (p : Partition_T) (rng : List Nat) : Option (Bool × List Nat) :=
  if MIN_PARTITION_HEIGHT ≤ p.height ∧ p.height ≤ MAX_PARTITION_HEIGHT then some (false, rng)
  else if MIN_PARTITION_WIDTH ≤ p.width ∧ p.width ≤ MAX_PARTITION_WIDTH then some (true, rng)
  else if 5 * p.height < 4 * p.width then some (false, rng)
  else if 5 * p.width < 4 * p.height then some (true, rng)
  else
    match rng with
    | [] => none
    | r :: rng1 => some (decide (r % 2 ≠ 0), rng1)

/-- What `generate_rooms` does with one child partition: push it back on the stack, or fill
it with a room; the flag is `false` when `generate_rooms` bails out. -/
def place_child (max_rooms : Int) (c : Partition_T) (s : List Partition_T) (d : Dungeon_T)
    (rng : List Nat) : Option (Bool × List Partition_T × Dungeon_T × List Nat) :=
  if in_range c = false then some (true, c :: s, d, rng)
  else if (d.num_rooms : Int) > max_rooms then some (false, s, d, rng)
  else
    match fill_partition d c rng with
    | none => none
    | some (ok, d1, rng1) => some (ok, s, d1, rng1)

/-- The work-stack loop of `generate_rooms`; the head of the list is the top of the stack. -/
def generate_rooms_loop (max_rooms : Int) :
    Nat → List Partition_T → Dungeon_T → List Nat → Option (Bool × Dungeon_T × List Nat)
  | _, [], d, rng => some (true, d, rng)
  | 0, _ :: _, _, _ => none
  | fuel + 1, p :: s, d, rng =>
    match split_horizontal p rng with
    | none => none
    | some (horizontal, rng1) =>
    match (if horizontal then
        rand_int_in_range MIN_PARTITION_HEIGHT (p.height - MIN_PARTITION_HEIGHT) rng1
      else rand_int_in_range MIN_PARTITION_WIDTH (p.width - MIN_PARTITION_WIDTH) rng1) with
    | none => none
    | some (split, rng2) =>
      let left : Partition_T :=
        if horizontal then ⟨p.y, p.x, split, p.width⟩ else ⟨p.y, p.x, p.height, split⟩
      let right : Partition_T :=
        if horizontal then ⟨p.y + split, p.x, p.height - split, p.width⟩
        else ⟨p.y, p.x + split, p.height, p.width - split⟩
      match place_child max_rooms left s d rng2 with
      | none => none
      | some (false, _, d1, rng3) => some (false, d1, rng3)
      | some (true, s1, d1, rng3) =>
        match place_child max_rooms right s1 d1 rng3 with
        | none => none
        | some (false, _, d2, rng4) => some (false, d2, rng4)
        | some (true, s2, d2, rng4) => generate_rooms_loop max_rooms fuel s2 d2 rng4

/-- Embedding of `generate_rooms`. -/
def generate_rooms (fuel : Nat) (d : Dungeon_T) (max_rooms : Int) (rng : List Nat) :
    Option (Bool × Dungeon_T × List Nat) :=
  generate_rooms_loop max_rooms fuel [⟨1, 1, (d.height : Int) - 2, (d.width : Int) - 2⟩] d rng

/-- Embedding of `is_room_percentage_covered`. -/
def is_room_percentage_covered (d : Dungeon) (covered : Nat → Nat → Bool) : Bool :=
  covered
    (((List.range d.height).map (fun (i : Nat) =>
      (List.range d.width).countP (fun (j : Nat) => decide ((d.MAP i j).type = .ROOM)))).sum)
    (d.height * d.width)

/-- The inner loop of `randomize_hardness`. -/
def randomize_hardness_row (i : Int) : List Int → Dungeon_T → List Nat →
    Option (Dungeon_T × List Nat)
  | [], d, rng => some (d, rng)
  | j :: js, d, rng =>
    match getCell d.toDungeon i j with
    | none => none
    | some c =>
      if c.type = .ROCK then
        match rand_int_in_range MIN_ROCK_HARDNESS MAX_ROCK_HARDNESS rng with
        | none => none
        | some (r, rng1) =>
          match setCell d i j { c with hardness := c.hardness + r } with
          | none => none
          | some d1 => randomize_hardness_row i js d1 rng1
      else randomize_hardness_row i js d rng

/-- The outer loop of `randomize_hardness`. -/
def randomize_hardness_rows (cols : List Int) : List Int → Dungeon_T → List Nat →
    Option (Dungeon_T × List Nat)
  | [], d, rng => some (d, rng)
  | i :: is, d, rng =>
    match randomize_hardness_row i cols d rng with
    | none => none
    | some (d1, rng1) => randomize_hardness_rows cols is d1 rng1

/-- Embedding of `randomize_hardness`. -/
def randomize_hardness (d : Dungeon_T) (rng : List Nat) : Option (Dungeon_T × List Nat) :=
  randomize_hardness_rows (intRange 1 (d.width - 2)) (intRange 1 (d.height - 2)) d rng

/-- A read of `COST(a, b)`. -/
def getCost (d : Dungeon) (cost : Nat → Int) (a b : Int) : Option Int :=
  if inMap d a b then some (cost (COST d a b)) else none

/-- The direction `paint_corridor` picks from the costs of the four neighbours: up unless a
later one in the order down, left, right is strictly cheaper. -/
def pick_direction (up down left right : Int) : Direction_T :=
  let d1 := if up > down then (down, Direction_T.DOWN) else (up, Direction_T.UP)
  let d2 := if d1.1 > left then (left, Direction_T.LEFT) else d1
  if d2.1 > right then .RIGHT else d2.2

/-- The `switch (direction)` of `paint_corridor`: the cell reached from `(i, j)`. -/
def travel (i j : Int) : Direction_T → Int × Int
  | .UP => (i - 1, j)
  | .DOWN => (i + 1, j)
  | .LEFT => (i, j - 1)
  | .RIGHT => (i, j + 1)

/-- The roll-downhill loop of `paint_corridor`, the walker standing on `(i, j)`. -/
def roll_downhill (cost : Nat → Int) (src_y src_x : Int) :
    Nat → Dungeon_T → Int → Int → Option Dungeon_T
  | fuel, d, i, j =>
    if i ≠ src_y ∨ j ≠ src_x then
      match fuel with
      | 0 => none
      | fuel + 1 =>
        match getCost d.toDungeon cost (i - 1) j, getCost d.toDungeon cost (i + 1) j,
            getCost d.toDungeon cost i (j - 1), getCost d.toDungeon cost i (j + 1) with
        | some up, some down, some left, some right =>
          let i1 := (travel i j (pick_direction up down left right)).1
          let j1 := (travel i j (pick_direction up down left right)).2
          match getCell d.toDungeon i1 j1 with
          | none => none
          | some c =>
            if c.type = .ROCK then
              match setCell d i1 j1 { c with type := .CORRIDOR, hardness := OPEN_SPACE_HARDNESS } with
              | none => none
              | some d1 => roll_downhill cost src_y src_x fuel d1 i1 j1
            else roll_downhill cost src_y src_x fuel d i1 j1
        | _, _, _, _ => none
    else some d

/-- Embedding of `paint_corridor`. -/
def paint_corridor (fuel : Nat) (m0 : Mem) (v0 : Nat → Vertex) (c0 : Nat → Int)
    (d : Dungeon_T) (src_y src_x dst_y dst_x : Int) : Option Dungeon_T :=
  match generate_dijkstra_map fuel m0 v0 c0 d.toDungeon src_y src_x false .CORRIDOR_MAP with
  | none => none
  | some cost => roll_downhill cost src_y src_x fuel d dst_y dst_x

/-- Embedding of `shuffle_int_array`; the first argument is the loop variable `i`. -/
def shuffle_int_array : Nat → (Nat → Nat) → List Nat → Option ((Nat → Nat) × List Nat)
  | 0, arr, rng => some (arr, rng)
  | i + 1, arr, rng =>
    match rand_int_in_range 0 ((i : Int) + 1) rng with
    | none => none
    | some (swap, rng1) =>
      shuffle_int_array i
        (fun k => if k = swap.toNat then arr (i + 1) else if k = i + 1 then arr swap.toNat
          else arr k) rng1

/-- The connecting loop of `generate_corridors`. -/
def generate_corridors_loop (fuel : Nat) (m0 : Mem) (v0 : Nat → Vertex) (c0 : Nat → Int)
    (shuffle : Nat → Nat) : List Nat → Dungeon_T → List Nat → Option (Dungeon_T × List Nat)
  | [], d, rng => some (d, rng)
  | i :: is, d, rng =>
    match rand_int_in_range (d.rooms (shuffle i)).y
        ((d.rooms (shuffle i)).y + (d.rooms (shuffle i)).height - 1) rng with
    | none => none
    | some (src_y, rng1) =>
    match rand_int_in_range (d.rooms (shuffle i)).x
        ((d.rooms (shuffle i)).x + (d.rooms (shuffle i)).width - 1) rng1 with
    | none => none
    | some (src_x, rng2) =>
    match rand_int_in_range (d.rooms (shuffle (i + 1))).y
        ((d.rooms (shuffle (i + 1))).y + (d.rooms (shuffle (i + 1))).height - 1) rng2 with
    | none => none
    | some (dst_y, rng3) =>
    match rand_int_in_range (d.rooms (shuffle (i + 1))).x
        ((d.rooms (shuffle (i + 1))).x + (d.rooms (shuffle (i + 1))).width - 1) rng3 with
    | none => none
    | some (dst_x, rng4) =>
    match paint_corridor fuel m0 v0 c0 d src_y src_x dst_y dst_x with
    | none => none
    | some d1 => generate_corridors_loop fuel m0 v0 c0 shuffle is d1 rng4

/-- Embedding of `generate_corridors`. -/
def generate_corridors (fuel : Nat) (m0 : Mem) (v0 : Nat → Vertex) (c0 : Nat → Int)
    (d : Dungeon_T) (rng : List Nat) : Option (Dungeon_T × List Nat) :=
  match shuffle_int_array (d.num_rooms - 1) (fun i => i) rng with
  | none => none
  | some (shuffle, rng1) =>
    generate_corridors_loop fuel m0 v0 c0 shuffle (List.range (d.num_rooms - 1)) d rng1

/-- The loop `do { r2 = ... } while (r1 == r2)` of `place_stairs`. -/
def pick_other_room (num_rooms : Nat) (r1 : Int) : Nat → List Nat → Option (Int × List Nat)
  | 0, _ => none
  | fuel + 1, rng =>
    match rand_int_in_range 0 ((num_rooms : Int) - 1) rng with
    | none => none
    | some (r2, rng1) =>
      if r1 = r2 then pick_other_room num_rooms r1 fuel rng1 else some (r2, rng1)

/-- The stair placement inside room `r`: a random cell off the walls of the room gets the
type `t`. -/
def place_stair (d : Dungeon_T) (r : Room_T) (t : Cell_Type) (rng : List Nat) :
    Option (Dungeon_T × List Nat) :=
  match rand_int_in_range (r.y + 1) (r.y + r.height - 2) rng with
  | none => none
  | some (y, rng1) =>
  match rand_int_in_range (r.x + 1) (r.x + r.width - 2) rng1 with
  | none => none
  | some (x, rng2) =>
  match getCell d.toDungeon y x with
  | none => none
  | some c =>
    match setCell d y x { c with type := t } with
    | none => none
    | some d1 => some (d1, rng2)

/-- Embedding of `place_stairs`. -/
def place_stairs (fuel : Nat) (d : Dungeon_T) (rng : List Nat) :
    Option (Dungeon_T × List Nat) :=
  match rand_int_in_range 0 ((d.num_rooms : Int) - 1) rng with
  | none => none
  | some (r1, rng1) =>
  match place_stair d (d.rooms r1.toNat) .STAIR_UP rng1 with
  | none => none
  | some (d1, rng2) =>
  match pick_other_room d1.num_rooms r1 fuel rng2 with
  | none => none
  | some (r2, rng3) => place_stair d1 (d1.rooms r2.toNat) .STAIR_DOWN rng3

/-- Embedding of `place_pc`; the player character is identified with its position and the
cell it stands on points to it. -/
def place_pc (d : Dungeon_T) (rng : List Nat) : Option (Dungeon_T × List Nat) :=
  match rand_int_in_range 0 ((d.num_rooms : Int) - 1) rng with
  | none => none
  | some (room, rng1) =>
  match rand_int_in_range (d.rooms room.toNat).y
      ((d.rooms room.toNat).y + (d.rooms room.toNat).height - 1) rng1 with
  | none => none
  | some (y, rng2) =>
  match rand_int_in_range (d.rooms room.toNat).x
      ((d.rooms room.toNat).x + (d.rooms room.toNat).width - 1) rng2 with
  | none => none
  | some (x, rng3) =>
  match getCell d.toDungeon y x with
  | none => none
  | some c =>
    match setCell { d with player := some (y, x) } y x { c with character := some 0 } with
    | none => none
    | some d1 => some (d1, rng3)

/-- Embedding of `init_dungeon`. -/
def init_dungeon (height width : Nat) : Dungeon_T :=
  { map := fun _ => ⟨.ROCK, DEFAULT_HARDNESS, none⟩
    height := height
    width := width
    rooms := fun _ => ⟨0, 0, 0, 0⟩
    num_rooms := 0
    player := none
    rooms_size := 0
    rooms_overflow := false }

/-- One assignment `d->MAP(a, b).hardness = IMMUTABLE_ROCK_HARDNESS`. -/
def set_immutable (d : Dungeon_T) (a b : Int) : Option Dungeon_T :=
  match getCell d.toDungeon a b with
  | none => none
  | some c => setCell d a b { c with hardness := IMMUTABLE_ROCK_HARDNESS }

/-- The first loop of `generate_dungeon_border`: the left and right columns. -/
def border_sides : List Int → Dungeon_T → Option Dungeon_T
  | [], d => some d
  | i :: is, d =>
    match set_immutable d i 0 with
    | none => none
    | some d1 =>
      match set_immutable d1 i ((d.width : Int) - 1) with
      | none => none
      | some d2 => border_sides is d2

/-- The second loop of `generate_dungeon_border`: the top and bottom rows. -/
def border_ends : List Int → Dungeon_T → Option Dungeon_T
  | [], d => some d
  | i :: is, d =>
    match set_immutable d 0 i with
    | none => none
    | some d1 =>
      match set_immutable d1 ((d.height : Int) - 1) i with
      | none => none
      | some d2 => border_ends is d2

/-- Embedding of `generate_dungeon_border`. -/
def generate_dungeon_border (d : Dungeon_T) : Option Dungeon_T :=
  match border_sides (intRange 1 (d.height - 2)) d with
  | none => none
  | some d1 => border_ends (intRange 0 d.width) d1

/-- The `do ... while` loop of `new_dungeon`; `n` bounds the number of iterations. -/
def new_dungeon_loop (fuel : Nat) (min_rooms max_rooms : Int) (covered : Nat → Nat → Bool) :
    Nat → Int → Dungeon_T → List Nat → Option (Dungeon_T × List Nat)
  | 0, _, _, _ => none
  | n + 1, tries, d, rng =>
    if tries > FAILED_DUNGEON_GENERATION then none
    else
      match generate_rooms fuel { d with rooms_size := max_rooms.toNat } max_rooms rng with
      | none => none
      | some (success, d1, rng1) =>
        if success = false ∨ is_room_percentage_covered d1.toDungeon covered = false ∨
            min_rooms > (d1.num_rooms : Int) then
          new_dungeon_loop fuel min_rooms max_rooms covered n (tries + 1) d1 rng1
        else some (d1, rng1)

/-- Embedding of `new_dungeon`.  `fuel` bounds the loops that have no counter of their own
(the work stack, the cost field, the walker and the choice of the second stair room); `m0`,
`v0`, `c0` are the uninitialised contents of the arrays of the cost field. -/
def new_dungeon (fuel : Nat) (m0 : Mem) (v0 : Nat → Vertex) (c0 : Nat → Int)
    (height width : Nat) (min_rooms max_rooms : Int) (covered : Nat → Nat → Bool)
    (rng : List Nat) : Option Dungeon_T :=
  match generate_dungeon_border (init_dungeon height width) with
  | none => none
  | some d0 =>
  match new_dungeon_loop fuel min_rooms max_rooms covered
      (FAILED_DUNGEON_GENERATION.toNat + 2) 0 d0 rng with
  | none => none
  | some (d1, rng1) =>
  match randomize_hardness { d1 with rooms_size := d1.num_rooms } rng1 with
  | none => none
  | some (d2, rng2) =>
  match generate_corridors fuel m0 v0 c0 d2 rng2 with
  | none => none
  | some (d3, rng3) =>
  match place_stairs fuel d3 rng3 with
  | none => none
  | some (d4, rng4) =>
  match place_pc d4 rng4 with
  | none => none
  | some (d5, _) => some d5

end Old

open Old

/-! ### Random draws, loop ranges and cell accesses -/

theorem rand_int_in_range_some {l u v : Int} {rng rng2 : List Nat}
    (h : rand_int_in_range l u rng = some (v, rng2)) :
    ∃ r : Nat, rng = r :: rng2 ∧ u - l + 1 ≠ 0 ∧ v = Int.tmod r (u - l + 1) + l := by
  cases rng with
  | nil => simp [rand_int_in_range] at h
  | cons r rest =>
    simp only [rand_int_in_range] at h
    split at h
    · cases h
    · simp only [Option.some.injEq, Prod.mk.injEq] at h
      exact ⟨r, by rw [h.2], by assumption, h.1.symm⟩

/-- A draw is never below the lower bound. -/
theorem rand_int_in_range_ge {l u v : Int} {rng rng2 : List Nat}
    (h : rand_int_in_range l u rng = some (v, rng2)) : l ≤ v := by
  obtain ⟨r, _, _, e⟩ := rand_int_in_range_some h
  have := Int.tmod_nonneg (u - l + 1) (Int.natCast_nonneg r)
  omega

/-- A draw from a non-empty range lies in the range. -/
theorem rand_int_in_range_le {l u v : Int} {rng rng2 : List Nat}
    (h : rand_int_in_range l u rng = some (v, rng2)) (hlu : l ≤ u) : v ≤ u := by
  obtain ⟨r, _, _, e⟩ := rand_int_in_range_some h
  have := Int.tmod_lt_of_pos (r : Int) (by omega : 0 < u - l + 1)
  omega

theorem rand_int_in_range_length {l u v : Int} {rng rng2 : List Nat}
    (h : rand_int_in_range l u rng = some (v, rng2)) : rng2 = rng.drop 1 := by
  obtain ⟨r, e, _, _⟩ := rand_int_in_range_some h
  rw [e]; rfl

/-- A draw from a non-empty range on a non-empty stream succeeds. -/
theorem rand_int_in_range_total (l u : Int) (r : Nat) (rest : List Nat) (hlu : l ≤ u) :
    ∃ v, rand_int_in_range l u (r :: rest) = some (v, rest) ∧ l ≤ v ∧ v ≤ u := by
  have hne : u - l + 1 ≠ 0 := by omega
  refine ⟨Int.tmod r (u - l + 1) + l, by simp [rand_int_in_range, hne], ?_, ?_⟩
  · have := Int.tmod_nonneg (u - l + 1) (Int.natCast_nonneg r)
    omega
  · have := Int.tmod_lt_of_pos (r : Int) (by omega : 0 < u - l + 1)
    omega

theorem mem_intRange {lo i : Int} {n : Nat} : i ∈ intRange lo n ↔ lo ≤ i ∧ i < lo + n := by
  unfold intRange
  simp only [List.mem_map, List.mem_range]
  constructor
  · rintro ⟨k, hk, rfl⟩
    omega
  · intro h
    have e : (((i - lo).toNat : Nat) : Int) = i - lo := Int.toNat_of_nonneg (by omega)
    exact ⟨(i - lo).toNat, by omega, by omega⟩

theorem intRange_nodup (lo : Int) (n : Nat) : (intRange lo n).Nodup := by
  unfold intRange
  refine List.Nodup.map ?_ (List.nodup_range n)
  intro a b h
  simp only at h
  omega

theorem inMap_of_InGrid {d : Dungeon} {a b : Int} (h : InGrid d a b) : inMap d a b := by
  obtain ⟨a1, a2, a3, a4⟩ := h
  unfold inMap
  have h1 : 0 ≤ a * (d.width : Int) := Int.mul_nonneg a1 (by omega)
  have h2 : (a + 1) * (d.width : Int) ≤ (d.height : Int) * d.width :=
    Int.mul_le_mul_of_nonneg_right (by omega) (by omega)
  have e : (a + 1) * (d.width : Int) = a * d.width + d.width := by ring
  omega

theorem getCell_of_InGrid {d : Dungeon} {a b : Int} (h : InGrid d a b) :
    getCell d a b = some (d.MAP a b) := by
  unfold getCell
  rw [if_pos (inMap_of_InGrid h)]

theorem getCost_of_InGrid {d : Dungeon} (cost : Nat → Int) {a b : Int} (h : InGrid d a b) :
    getCost d cost a b = some (cost (COST d a b)) := by
  unfold getCost
  rw [if_pos (inMap_of_InGrid h)]

/-- The dungeon after the assignment `d->MAP(a, b) = c`. -/
def putCell (d : Dungeon_T) (a b : Int) (c : Cell) : Dungeon_T :=
  { d with map := fun k => if k = (a * d.width + b).toNat then c else d.map k }

theorem setCell_of_InGrid {d : Dungeon_T} {a b : Int} (c : Cell) (h : InGrid d.toDungeon a b) :
    setCell d a b c = some (putCell d a b c) := by
  unfold setCell
  rw [if_pos (inMap_of_InGrid h)]
  rfl

theorem setCell_some {d d2 : Dungeon_T} {a b : Int} {c : Cell}
    (h : setCell d a b c = some d2) : d2 = putCell d a b c := by
  unfold setCell at h
  split at h
  · simp only [Option.some.injEq] at h
    rw [← h]; rfl
  · cases h

theorem putCell_MAP_same (d : Dungeon_T) (a b : Int) (c : Cell) :
    (putCell d a b c).toDungeon.MAP a b = c := by
  simp [putCell, Dungeon.MAP]

theorem putCell_MAP_other {d : Dungeon_T} {a b a2 b2 : Int} (c : Cell)
    (h1 : InGrid d.toDungeon a b) (h2 : InGrid d.toDungeon a2 b2) (hne : ¬ (a2 = a ∧ b2 = b)) :
    (putCell d a b c).toDungeon.MAP a2 b2 = d.toDungeon.MAP a2 b2 := by
  have : COST d.toDungeon a2 b2 ≠ COST d.toDungeon a b := fun e => hne (COST_inj h2 h1 e)
  unfold COST at this
  simp [putCell, Dungeon.MAP, this]

/-! ### Invariants of the generator -/

/-- Every border cell is immutable rock and every interior cell satisfies `Q`. -/
structure CellInv (Q : Cell → Prop) (d : Dungeon) : Prop where
  border : ∀ y x, InGrid d y x → ¬ Interior d y x →
    (d.MAP y x).type = .ROCK ∧ (d.MAP y x).hardness = IMMUTABLE_ROCK_HARDNESS
  inner : ∀ y x, Interior d y x → Q (d.MAP y x)

/-- The two dungeons have the same dimensions and the same room records. -/
structure SameShape (d1 d2 : Dungeon_T) : Prop where
  height : d2.height = d1.height
  width : d2.width = d1.width
  rooms : d2.rooms = d1.rooms
  num_rooms : d2.num_rooms = d1.num_rooms

theorem SameShape.refl (d : Dungeon_T) : SameShape d d := ⟨rfl, rfl, rfl, rfl⟩

theorem SameShape.shapeTrans {d1 d2 d3 : Dungeon_T} (h1 : SameShape d1 d2) (h2 : SameShape d2 d3) :
    SameShape d1 d3 :=
  ⟨h2.height.trans h1.height, h2.width.trans h1.width, h2.rooms.trans h1.rooms,
    h2.num_rooms.trans h1.num_rooms⟩

/-- A room record lies inside the interior and has at least the minimum size. -/
def RoomOk (d : Dungeon) (r : Room_T) : Prop :=
  1 ≤ r.y ∧ 1 ≤ r.x ∧ MIN_ROOM_HEIGHT ≤ r.height ∧ MIN_ROOM_WIDTH ≤ r.width ∧
  r.y + r.height ≤ (d.height : Int) - 1 ∧ r.x + r.width ≤ (d.width : Int) - 1

/-- All recorded rooms lie inside the interior. -/
def RoomsOk (d : Dungeon_T) : Prop := ∀ k < d.num_rooms, RoomOk d.toDungeon (d.rooms k)

theorem RoomsOk.shape {d1 d2 : Dungeon_T} (h : RoomsOk d1) (s : SameShape d1 d2) :
    RoomsOk d2 := by
  intro k hk
  rw [s.num_rooms] at hk
  have := h k hk
  unfold RoomOk at this ⊢
  rw [s.rooms, s.height, s.width]
  exact this

theorem InGrid_shape {d1 d2 : Dungeon} (hh : d2.height = d1.height) (hw : d2.width = d1.width)
    {y x : Int} : InGrid d2 y x ↔ InGrid d1 y x := by
  unfold InGrid; rw [hh, hw]

theorem Interior_shape {d1 d2 : Dungeon} (hh : d2.height = d1.height)
    (hw : d2.width = d1.width) {y x : Int} : Interior d2 y x ↔ Interior d1 y x := by
  unfold Interior; rw [hh, hw]

theorem CellInv.borderOk {Q : Cell → Prop} {d : Dungeon} (h : CellInv Q d) : BorderOk d := by
  intro y hy x hx hni
  exact h.border y x ⟨by omega, by omega, by omega, by omega⟩ hni

theorem CellInv.weaken {Q R : Cell → Prop} {d : Dungeon} (h : CellInv Q d)
    (hqr : ∀ c, Q c → R c) : CellInv R d :=
  ⟨h.border, fun y x hi => hqr _ (h.inner y x hi)⟩

/-- An assignment to an interior cell keeps the invariant when the new cell satisfies `Q`. -/
theorem putCell_inv {Q : Cell → Prop} {d : Dungeon_T} {a b : Int} {c : Cell}
    (inv : CellInv Q d.toDungeon) (hi : Interior d.toDungeon a b) (hc : Q c) :
    CellInv Q (putCell d a b c).toDungeon := by
  have hg := InGrid_of_interior hi
  constructor
  · intro y x hg2 hni
    have hg3 : InGrid d.toDungeon y x := hg2
    have hni3 : ¬ Interior d.toDungeon y x := hni
    rw [putCell_MAP_other c hg hg3 (fun e => hni3 (by rw [e.1, e.2]; exact hi))]
    exact inv.border y x hg3 hni3
  · intro y x hi2
    have hi3 : Interior d.toDungeon y x := hi2
    by_cases e : y = a ∧ x = b
    · rw [e.1, e.2, putCell_MAP_same]; exact hc
    · rw [putCell_MAP_other c hg (InGrid_of_interior hi3) e]
      exact inv.inner y x hi3

theorem putCell_shape (d : Dungeon_T) (a b : Int) (c : Cell) : SameShape d (putCell d a b c) :=
  ⟨rfl, rfl, rfl, rfl⟩

/-- The inner painting loop over interior cells. -/
theorem paint_room_row_spec {Q : Cell → Prop} (i : Int)
    (hQ : ∀ c : Cell, Q { c with type := .ROOM, hardness := OPEN_SPACE_HARDNESS }) :
    ∀ (js : List Int) (d : Dungeon_T), CellInv Q d.toDungeon →
    (∀ j ∈ js, Interior d.toDungeon i j) →
    ∃ d2, paint_room_row i js d = some d2 ∧ CellInv Q d2.toDungeon ∧ SameShape d d2
  | [], d, inv, _ => ⟨d, rfl, inv, SameShape.refl d⟩
  | j :: js, d, inv, h => by
    have hi := h j (List.mem_cons_self _ _)
    have inv1 := @putCell_inv Q d i j _ inv hi (hQ (d.MAP i j))
    obtain ⟨d2, e, inv2, s2⟩ := paint_room_row_spec i hQ js _ inv1
      (fun j2 hj2 => h j2 (List.mem_cons_of_mem _ hj2))
    refine ⟨d2, ?_, inv2, (putCell_shape d i j _).shapeTrans s2⟩
    simp only [paint_room_row, setCell_of_InGrid _ (InGrid_of_interior hi)]
    exact e

/-- The outer painting loop over interior cells. -/
theorem paint_room_spec {Q : Cell → Prop} (x : Int) (width : Nat)
    (hQ : ∀ c : Cell, Q { c with type := .ROOM, hardness := OPEN_SPACE_HARDNESS }) :
    ∀ (is : List Int) (d : Dungeon_T), CellInv Q d.toDungeon →
    (∀ i ∈ is, ∀ j ∈ intRange x width, Interior d.toDungeon i j) →
    ∃ d2, paint_room x width is d = some d2 ∧ CellInv Q d2.toDungeon ∧ SameShape d d2
  | [], d, inv, _ => ⟨d, rfl, inv, SameShape.refl d⟩
  | i :: is, d, inv, h => by
    obtain ⟨d1, e1, inv1, s1⟩ := paint_room_row_spec i hQ (intRange x width) d inv
      (h i (List.mem_cons_self _ _))
    obtain ⟨d2, e2, inv2, s2⟩ := paint_room_spec x width hQ is d1 inv1
      (fun i2 hi2 j hj => (Interior_shape s1.height s1.width).mpr
        (h i2 (List.mem_cons_of_mem _ hi2) j hj))
    refine ⟨d2, ?_, inv2, s1.shapeTrans s2⟩
    simp only [paint_room, e1]
    exact e2

/-- Invariant of the generator: the cell invariant and the room records. -/
structure GenInv (Q : Cell → Prop) (d : Dungeon_T) : Prop where
  cells : CellInv Q d.toDungeon
  rooms : RoomsOk d

/-- The two dungeons have the same dimensions. -/
def SameDims (d1 d2 : Dungeon_T) : Prop := d2.height = d1.height ∧ d2.width = d1.width

theorem SameDims.dimsTrans {d1 d2 d3 : Dungeon_T} (h1 : SameDims d1 d2) (h2 : SameDims d2 d3) :
    SameDims d1 d3 := ⟨h2.1.trans h1.1, h2.2.trans h1.2⟩

/-- A partition lies inside the interior. -/
def PInside (d : Dungeon) (p : Partition_T) : Prop :=
  1 ≤ p.y ∧ 1 ≤ p.x ∧ p.y + p.height ≤ (d.height : Int) - 1 ∧
  p.x + p.width ≤ (d.width : Int) - 1

/-- A partition whose splitting never draws from an empty range. -/
def Splittable (p : Partition_T) : Prop :=
  7 ≤ p.height ∧ 13 ≤ p.width ∧ (p.height ≤ 13 → 26 ≤ p.width)

theorem in_range_iff (p : Partition_T) :
    in_range p = true ↔ 7 ≤ p.height ∧ p.height ≤ 13 ∧ 13 ≤ p.width ∧ p.width ≤ 27 := by
  simp [in_range, MIN_PARTITION_HEIGHT, MAX_PARTITION_HEIGHT, MIN_PARTITION_WIDTH,
    MAX_PARTITION_WIDTH]

/-- The room `fill_partition` settles on lies in the partition, in the square its draws
span. -/
theorem fill_partition_try_spec (d : Dungeon_T) (p : Partition_T) (hp : 7 ≤ p.height) :
    ∀ (fuel : Nat) (tries : Int) (rng : List Nat) (r : Room_T) (rng2 : List Nat),
    fill_partition_try d p fuel tries rng = some (some r, rng2) →
    p.y ≤ r.y ∧ 4 ≤ r.height ∧ r.y + r.height ≤ p.y + p.height ∧
    p.x ≤ r.x ∧ 7 ≤ r.width ∧ r.x + r.width ≤ p.x + p.height := by
  intro fuel
  induction fuel with
  | zero => intro tries rng r rng2 h; simp [fill_partition_try] at h
  | succ fuel ih =>
    intro tries rng r rng2 h
    simp only [fill_partition_try] at h
    split at h
    · simp at h
    · cases h1 : rand_int_in_range p.y (p.y + p.height - MIN_ROOM_HEIGHT) rng with
      | none => rw [h1] at h; simp at h
      | some v1 =>
        obtain ⟨y, rng1⟩ := v1
        rw [h1] at h
        simp only at h
        cases h2 : rand_int_in_range p.x (p.x + p.height - MIN_ROOM_WIDTH) rng1 with
        | none => rw [h2] at h; simp at h
        | some v2 =>
          obtain ⟨x, rng2b⟩ := v2
          rw [h2] at h
          simp only at h
          cases h3 : rand_int_in_range MIN_ROOM_HEIGHT (p.y + p.height - y) rng2b with
          | none => rw [h3] at h; simp at h
          | some v3 =>
            obtain ⟨height, rng3⟩ := v3
            rw [h3] at h
            simp only at h
            cases h4 : rand_int_in_range MIN_ROOM_WIDTH (p.x + p.height - x) rng3 with
            | none => rw [h4] at h; simp at h
            | some v4 =>
              obtain ⟨width, rng4⟩ := v4
              rw [h4] at h
              simp only at h
              cases h5 : is_valid_room d.toDungeon y x height width with
              | none => rw [h5] at h; simp at h
              | some b =>
                rw [h5] at h
                cases b with
                | false => exact ih _ _ _ _ h
                | true =>
                  simp only [Option.some.injEq, Prod.mk.injEq] at h
                  obtain ⟨hr, _⟩ := h
                  subst hr
                  simp only [MIN_ROOM_HEIGHT, MIN_ROOM_WIDTH] at h1 h2 h3 h4
                  have a1 := rand_int_in_range_ge h1
                  have a2 := rand_int_in_range_le h1 (by omega)
                  have b1 := rand_int_in_range_ge h2
                  have b2 := rand_int_in_range_le h2 (by omega)
                  have c1 := rand_int_in_range_ge h3
                  have c2 := rand_int_in_range_le h3 (by omega)
                  have e1 := rand_int_in_range_ge h4
                  have e2 := rand_int_in_range_le h4 (by omega)
                  simp only
                  omega

/-- Filling a partition that needs no more splitting and lies inside the interior keeps
the invariant of the generator. -/
theorem fill_partition_spec {Q : Cell → Prop} {d d2 : Dungeon_T} {p : Partition_T}
    {rng rng2 : List Nat} {ok : Bool}
    (hQ : ∀ c : Cell, Q { c with type := .ROOM, hardness := OPEN_SPACE_HARDNESS })
    (h : fill_partition d p rng = some (ok, d2, rng2)) (inv : GenInv Q d)
    (hr : in_range p = true) (hin : PInside d.toDungeon p) :
    GenInv Q d2 ∧ SameDims d d2 := by
  have hr2 := (in_range_iff p).mp hr
  unfold fill_partition at h
  cases h1 : fill_partition_try d p (FAILED_ROOM_PLACEMENT.toNat + 2) 0 rng with
  | none => rw [h1] at h; simp at h
  | some v =>
    obtain ⟨ro, rng1⟩ := v
    rw [h1] at h
    cases ro with
    | none =>
      simp only [Option.some.injEq, Prod.mk.injEq] at h
      obtain ⟨_, e, _⟩ := h
      subst e
      exact ⟨inv, rfl, rfl⟩
    | some r =>
      simp only at h
      obtain ⟨q1, q2, q3, q4, q5, q6⟩ := fill_partition_try_spec d p hr2.1 _ _ _ _ _ h1
      obtain ⟨p1, p2, p3, p4⟩ := hin
      have hrh : ((r.height.toNat : Nat) : Int) = r.height := Int.toNat_of_nonneg (by omega)
      have hrw : ((r.width.toNat : Nat) : Int) = r.width := Int.toNat_of_nonneg (by omega)
      obtain ⟨d3, e3, inv3, s3⟩ := paint_room_spec r.x r.width.toNat hQ
        (intRange r.y r.height.toNat)
        { d with
          num_rooms := d.num_rooms + 1
          rooms := fun k => if k = d.num_rooms then r else d.rooms k
          rooms_overflow := d.rooms_overflow || decide (d.rooms_size ≤ d.num_rooms) }
        inv.cells
        (fun i hi j hj => by
          have hi2 := mem_intRange.mp hi
          have hj2 := mem_intRange.mp hj
          show Interior d.toDungeon i j
          unfold Interior
          omega)
      rw [e3] at h
      simp only [Option.some.injEq, Prod.mk.injEq] at h
      obtain ⟨_, e, _⟩ := h
      subst e
      refine ⟨⟨inv3, ?_⟩, s3.height, s3.width⟩
      intro k hk
      rw [s3.num_rooms] at hk
      unfold RoomOk
      rw [s3.rooms, s3.height, s3.width]
      simp only at hk ⊢
      by_cases e : k = d.num_rooms
      · simp only [e, if_true, MIN_ROOM_HEIGHT, MIN_ROOM_WIDTH]
        omega
      · simp only [e, if_false]
        exact inv.rooms k (by omega)

/-- The direction chosen for a splittable partition has a non-empty range of split
positions. -/
theorem split_horizontal_spec {p : Partition_T} {rng rng1 : List Nat} {hz : Bool}
    (h : split_horizontal p rng = some (hz, rng1)) (hp : Splittable p) :
    (hz = true → 14 ≤ p.height) ∧ (hz = false → 26 ≤ p.width) := by
  obtain ⟨p1, p2, p3⟩ := hp
  unfold split_horizontal at h
  simp only [MIN_PARTITION_HEIGHT, MAX_PARTITION_HEIGHT, MIN_PARTITION_WIDTH,
    MAX_PARTITION_WIDTH] at h
  split at h
  · simp only [Option.some.injEq, Prod.mk.injEq] at h
    rw [← h.1]
    exact ⟨fun e => (by cases e), fun _ => (by omega)⟩
  · split at h
    · simp only [Option.some.injEq, Prod.mk.injEq] at h
      rw [← h.1]
      exact ⟨fun _ => (by omega), fun e => (by cases e)⟩
    · exact ⟨fun _ => (by omega), fun _ => (by omega)⟩

/-- The two children of a split. -/
def leftChild (p : Partition_T) (hz : Bool) (split : Int) : Partition_T :=
  if hz then ⟨p.y, p.x, split, p.width⟩ else ⟨p.y, p.x, p.height, split⟩

def rightChild (p : Partition_T) (hz : Bool) (split : Int) : Partition_T :=
  if hz then ⟨p.y + split, p.x, p.height - split, p.width⟩
  else ⟨p.y, p.x + split, p.height, p.width - split⟩

/-- A child of a proper split lies inside the interior, is large enough, and is splittable
when it is pushed back on the stack. -/
def ChildOk (d : Dungeon) (c : Partition_T) : Prop :=
  PInside d c ∧ 7 ≤ c.height ∧ 13 ≤ c.width

theorem childOk_splittable {d : Dungeon} {c : Partition_T} (h : ChildOk d c)
    (hr : in_range c = false) : Splittable c := by
  obtain ⟨_, h1, h2⟩ := h
  refine ⟨h1, h2, ?_⟩
  intro h3
  by_contra h4
  have : in_range c = true := (in_range_iff c).mpr ⟨h1, h3, h2, by omega⟩
  rw [hr] at this
  cases this

theorem children_ok {d : Dungeon} {p : Partition_T} {hz : Bool} {split : Int}
    (hin : PInside d p) (hp : Splittable p)
    (h1 : hz = true → 7 ≤ split ∧ split ≤ p.height - 7)
    (h2 : hz = false → 13 ≤ split ∧ split ≤ p.width - 13) :
    ChildOk d (leftChild p hz split) ∧ ChildOk d (rightChild p hz split) := by
  obtain ⟨a1, a2, a3, a4⟩ := hin
  obtain ⟨b1, b2, _⟩ := hp
  cases hz with
  | true =>
    have := h1 rfl
    simp only [leftChild, rightChild, if_true, ChildOk, PInside]
    omega
  | false =>
    have := h2 rfl
    simp only [leftChild, rightChild, Bool.false_eq_true, if_false, ChildOk, PInside]
    omega

theorem PInside_dims {d1 d2 : Dungeon} (hh : d2.height = d1.height) (hw : d2.width = d1.width)
    {p : Partition_T} (h : PInside d1 p) : PInside d2 p := by
  unfold PInside at h ⊢
  rw [hh, hw]
  exact h

/-- What `generate_rooms` does with a child of a proper split keeps the invariant. -/
theorem place_child_spec {Q : Cell → Prop} {max_rooms : Int} {c : Partition_T}
    {s s2 : List Partition_T} {d d2 : Dungeon_T} {rng rng2 : List Nat} {ok : Bool}
    (hQ : ∀ c : Cell, Q { c with type := .ROOM, hardness := OPEN_SPACE_HARDNESS })
    (h : place_child max_rooms c s d rng = some (ok, s2, d2, rng2)) (inv : GenInv Q d)
    (hc : ChildOk d.toDungeon c)
    (hs : ∀ q ∈ s, PInside d.toDungeon q ∧ Splittable q) :
    GenInv Q d2 ∧ SameDims d d2 ∧ ∀ q ∈ s2, PInside d2.toDungeon q ∧ Splittable q := by
  unfold place_child at h
  by_cases hr : in_range c = false
  · rw [if_pos hr] at h
    simp only [Option.some.injEq, Prod.mk.injEq] at h
    obtain ⟨_, e1, e2, _⟩ := h
    subst e1 e2
    refine ⟨inv, ⟨rfl, rfl⟩, ?_⟩
    intro q hq
    rcases List.mem_cons.mp hq with rfl | hq
    · exact ⟨hc.1, childOk_splittable hc hr⟩
    · exact hs q hq
  · rw [if_neg hr] at h
    split at h
    · simp only [Option.some.injEq, Prod.mk.injEq] at h
      obtain ⟨_, e1, e2, _⟩ := h
      subst e1 e2
      exact ⟨inv, ⟨rfl, rfl⟩, hs⟩
    · cases h1 : fill_partition d c rng with
      | none => rw [h1] at h; simp at h
      | some v =>
        obtain ⟨ok1, d1, rng1⟩ := v
        rw [h1] at h
        simp only [Option.some.injEq, Prod.mk.injEq] at h
        obtain ⟨_, e1, e2, _⟩ := h
        subst e1 e2
        have hr2 : in_range c = true := by
          cases hrc : in_range c
          · exact absurd hrc hr
          · rfl
        obtain ⟨inv1, sd⟩ := fill_partition_spec hQ h1 inv hr2 hc.1
        exact ⟨inv1, sd, fun q hq => ⟨PInside_dims sd.1 sd.2 (hs q hq).1, (hs q hq).2⟩⟩

/-- One iteration of the work-stack loop, with the children named. -/
theorem generate_rooms_loop_succ (max_rooms : Int) (fuel : Nat) (p : Partition_T)
    (s : List Partition_T) (d : Dungeon_T) (rng : List Nat) :
    generate_rooms_loop max_rooms (fuel + 1) (p :: s) d rng =
      match split_horizontal p rng with
      | none => none
      | some (horizontal, rng1) =>
      match (if horizontal then
          rand_int_in_range MIN_PARTITION_HEIGHT (p.height - MIN_PARTITION_HEIGHT) rng1
        else rand_int_in_range MIN_PARTITION_WIDTH (p.width - MIN_PARTITION_WIDTH) rng1) with
      | none => none
      | some (split, rng2) =>
        match place_child max_rooms (leftChild p horizontal split) s d rng2 with
        | none => none
        | some (false, _, d1, rng3) => some (false, d1, rng3)
        | some (true, s1, d1, rng3) =>
          match place_child max_rooms (rightChild p horizontal split) s1 d1 rng3 with
          | none => none
          | some (false, _, d2, rng4) => some (false, d2, rng4)
          | some (true, s2, d2, rng4) => generate_rooms_loop max_rooms fuel s2 d2 rng4 := by
  rfl

/-- With only splittable partitions inside the interior on the stack, the work-stack loop
keeps the invariant of the generator, whatever it returns. -/
theorem generate_rooms_loop_spec {Q : Cell → Prop} {max_rooms : Int}
    (hQ : ∀ c : Cell, Q { c with type := .ROOM, hardness := OPEN_SPACE_HARDNESS }) :
    ∀ (fuel : Nat) (s : List Partition_T) (d : Dungeon_T) (rng : List Nat) (b : Bool)
      (d2 : Dungeon_T) (rng2 : List Nat),
    generate_rooms_loop max_rooms fuel s d rng = some (b, d2, rng2) → GenInv Q d →
    (∀ q ∈ s, PInside d.toDungeon q ∧ Splittable q) → GenInv Q d2 ∧ SameDims d d2 := by
  intro fuel
  induction fuel with
  | zero =>
    intro s d rng b d2 rng2 h inv hs
    cases s with
    | nil =>
      simp only [generate_rooms_loop, Option.some.injEq, Prod.mk.injEq] at h
      obtain ⟨_, e, _⟩ := h
      subst e
      exact ⟨inv, rfl, rfl⟩
    | cons p s => simp [generate_rooms_loop] at h
  | succ fuel ih =>
    intro s d rng b d2 rng2 h inv hs
    cases s with
    | nil =>
      simp only [generate_rooms_loop, Option.some.injEq, Prod.mk.injEq] at h
      obtain ⟨_, e, _⟩ := h
      subst e
      exact ⟨inv, rfl, rfl⟩
    | cons p s =>
      rw [generate_rooms_loop_succ] at h
      obtain ⟨hpin, hpsp⟩ := hs p (List.mem_cons_self _ _)
      have hs2 : ∀ q ∈ s, PInside d.toDungeon q ∧ Splittable q :=
        fun q hq => hs q (List.mem_cons_of_mem _ hq)
      cases h1 : split_horizontal p rng with
      | none => rw [h1] at h; simp at h
      | some v1 =>
        obtain ⟨hz, rng1⟩ := v1
        rw [h1] at h
        simp only at h
        obtain ⟨z1, z2⟩ := split_horizontal_spec h1 hpsp
        cases h2 : (if hz = true then
            rand_int_in_range MIN_PARTITION_HEIGHT (p.height - MIN_PARTITION_HEIGHT) rng1
          else rand_int_in_range MIN_PARTITION_WIDTH (p.width - MIN_PARTITION_WIDTH) rng1) with
        | none => rw [h2] at h; simp at h
        | some v2 =>
          obtain ⟨split, rng2b⟩ := v2
          rw [h2] at h
          simp only at h
          have hch : ChildOk d.toDungeon (leftChild p hz split) ∧
              ChildOk d.toDungeon (rightChild p hz split) := by
            refine children_ok hpin hpsp ?_ ?_
            · intro e
              have := z1 e
              rw [if_pos e] at h2
              simp only [MIN_PARTITION_HEIGHT] at h2
              exact ⟨rand_int_in_range_ge h2, rand_int_in_range_le h2 (by omega)⟩
            · intro e
              have := z2 e
              rw [e] at h2
              simp only [Bool.false_eq_true, if_false, MIN_PARTITION_WIDTH] at h2
              exact ⟨rand_int_in_range_ge h2, rand_int_in_range_le h2 (by omega)⟩
          cases h3 : place_child max_rooms (leftChild p hz split) s d rng2b with
          | none => rw [h3] at h; simp at h
          | some v3 =>
            obtain ⟨ok1, s1, d1, rng3⟩ := v3
            rw [h3] at h
            obtain ⟨inv1, sd1, hs1⟩ := place_child_spec hQ h3 inv hch.1 hs2
            cases ok1 with
            | false =>
              simp only [Option.some.injEq, Prod.mk.injEq] at h
              obtain ⟨_, e, _⟩ := h
              subst e
              exact ⟨inv1, sd1⟩
            | true =>
              simp only at h
              have hc2 : ChildOk d1.toDungeon (rightChild p hz split) :=
                ⟨PInside_dims sd1.1 sd1.2 hch.2.1, hch.2.2⟩
              cases h4 : place_child max_rooms (rightChild p hz split) s1 d1 rng3 with
              | none => rw [h4] at h; simp at h
              | some v4 =>
                obtain ⟨ok2, s2, d2b, rng4⟩ := v4
                rw [h4] at h
                obtain ⟨inv2, sd2, hs3⟩ := place_child_spec hQ h4 inv1 hc2 hs1
                cases ok2 with
                | false =>
                  simp only [Option.some.injEq, Prod.mk.injEq] at h
                  obtain ⟨_, e, _⟩ := h
                  subst e
                  exact ⟨inv2, sd1.dimsTrans sd2⟩
                | true =>
                  simp only at h
                  obtain ⟨inv3, sd3⟩ := ih s2 d2b rng4 b d2 rng2 h inv2 hs3
                  exact ⟨inv3, (sd1.dimsTrans sd2).dimsTrans sd3⟩

/-! ### Dimensions never change -/

theorem paint_room_row_dims (i : Int) : ∀ (js : List Int) (d d2 : Dungeon_T),
    paint_room_row i js d = some d2 → SameDims d d2
  | [], d, d2, h => by
    simp only [paint_room_row, Option.some.injEq] at h
    subst h
    exact ⟨rfl, rfl⟩
  | j :: js, d, d2, h => by
    simp only [paint_room_row] at h
    cases h1 : setCell d i j { d.MAP i j with type := .ROOM, hardness := OPEN_SPACE_HARDNESS } with
    | none => rw [h1] at h; simp at h
    | some d1 =>
      rw [h1] at h
      have e := setCell_some h1
      have := paint_room_row_dims i js d1 d2 h
      rw [e] at this
      exact this

theorem paint_room_dims (x : Int) (width : Nat) : ∀ (is : List Int) (d d2 : Dungeon_T),
    paint_room x width is d = some d2 → SameDims d d2
  | [], d, d2, h => by
    simp only [paint_room, Option.some.injEq] at h
    subst h
    exact ⟨rfl, rfl⟩
  | i :: is, d, d2, h => by
    simp only [paint_room] at h
    cases h1 : paint_room_row i (intRange x width) d with
    | none => rw [h1] at h; simp at h
    | some d1 =>
      rw [h1] at h
      exact (paint_room_row_dims i _ d d1 h1).dimsTrans (paint_room_dims x width is d1 d2 h)

theorem fill_partition_dims {d d2 : Dungeon_T} {p : Partition_T} {rng rng2 : List Nat}
    {ok : Bool} (h : fill_partition d p rng = some (ok, d2, rng2)) : SameDims d d2 := by
  unfold fill_partition at h
  cases h1 : fill_partition_try d p (FAILED_ROOM_PLACEMENT.toNat + 2) 0 rng with
  | none => rw [h1] at h; simp at h
  | some v =>
    obtain ⟨ro, rng1⟩ := v
    rw [h1] at h
    cases ro with
    | none =>
      simp only [Option.some.injEq, Prod.mk.injEq] at h
      obtain ⟨_, e, _⟩ := h
      subst e
      exact ⟨rfl, rfl⟩
    | some r =>
      simp only at h
      split at h
      · cases h
      · rename_i d3 e3
        simp only [Option.some.injEq, Prod.mk.injEq] at h
        obtain ⟨_, e, _⟩ := h
        subst e
        have := paint_room_dims _ _ _ _ _ e3
        exact this

/-- The stack and the dimensions after `generate_rooms` has dealt with one child. -/
theorem place_child_stack {max_rooms : Int} {c : Partition_T} {s s2 : List Partition_T}
    {d d2 : Dungeon_T} {rng rng2 : List Nat} {ok : Bool}
    (h : place_child max_rooms c s d rng = some (ok, s2, d2, rng2)) :
    SameDims d d2 ∧ (∀ q ∈ s, q ∈ s2) ∧ (in_range c = false → c ∈ s2) := by
  unfold place_child at h
  by_cases hr : in_range c = false
  · rw [if_pos hr] at h
    simp only [Option.some.injEq, Prod.mk.injEq] at h
    obtain ⟨_, e1, e2, _⟩ := h
    subst e1 e2
    exact ⟨⟨rfl, rfl⟩, fun q hq => List.mem_cons_of_mem _ hq, fun _ => List.mem_cons_self _ _⟩
  · rw [if_neg hr] at h
    split at h
    · simp only [Option.some.injEq, Prod.mk.injEq] at h
      obtain ⟨_, e1, e2, _⟩ := h
      subst e1 e2
      exact ⟨⟨rfl, rfl⟩, fun q hq => hq, fun e => absurd e hr⟩
    · cases h1 : fill_partition d c rng with
      | none => rw [h1] at h; simp at h
      | some v =>
        obtain ⟨ok1, d1, rng1⟩ := v
        rw [h1] at h
        simp only [Option.some.injEq, Prod.mk.injEq] at h
        obtain ⟨_, e1, e2, _⟩ := h
        subst e1 e2
        exact ⟨fill_partition_dims h1, fun q hq => hq, fun e => absurd e hr⟩

/-- The direction is vertical whenever the height is in the stop-splitting range. -/
theorem split_horizontal_true {p : Partition_T} {rng rng1 : List Nat}
    (h : split_horizontal p rng = some (true, rng1)) : ¬ (7 ≤ p.height ∧ p.height ≤ 13) := by
  intro hc
  unfold split_horizontal at h
  simp only [MIN_PARTITION_HEIGHT, MAX_PARTITION_HEIGHT] at h
  rw [if_pos hc] at h
  simp at h

/-- The right child of a partition that is not splittable is too small in one dimension:
it is pushed back on the stack and is not splittable either. -/
theorem rightChild_stuck {p : Partition_T} {rng rng1 rng2 : List Nat} {hz : Bool} {split : Int}
    (hp : ¬ Splittable p) (h1 : split_horizontal p rng = some (hz, rng1))
    (h2 : (if hz = true then
        rand_int_in_range MIN_PARTITION_HEIGHT (p.height - MIN_PARTITION_HEIGHT) rng1
      else rand_int_in_range MIN_PARTITION_WIDTH (p.width - MIN_PARTITION_WIDTH) rng1) =
        some (split, rng2)) :
    in_range (rightChild p hz split) = false ∧ ¬ Splittable (rightChild p hz split) := by
  have key : (rightChild p hz split).height < 7 ∨ (rightChild p hz split).width < 13 := by
    unfold Splittable at hp
    cases hz with
    | true =>
      have hn := split_horizontal_true h1
      simp only [if_true, MIN_PARTITION_HEIGHT] at h2
      have := rand_int_in_range_ge h2
      simp only [rightChild, if_true]
      omega
    | false =>
      simp only [Bool.false_eq_true, if_false, MIN_PARTITION_WIDTH] at h2
      have := rand_int_in_range_ge h2
      simp only [rightChild, Bool.false_eq_true, if_false]
      omega
  constructor
  · cases hr : in_range (rightChild p hz split)
    · rfl
    · have := (in_range_iff _).mp hr
      omega
  · unfold Splittable
    omega

/-- The work-stack loop never changes the dimensions, and with a partition on the stack
that is not splittable it never reports success: such a partition always leaves a child
behind that is not splittable either. -/
theorem generate_rooms_loop_stuck {max_rooms : Int} :
    ∀ (fuel : Nat) (s : List Partition_T) (d : Dungeon_T) (rng : List Nat) (b : Bool)
      (d2 : Dungeon_T) (rng2 : List Nat),
    generate_rooms_loop max_rooms fuel s d rng = some (b, d2, rng2) →
    SameDims d d2 ∧ ((∃ q ∈ s, ¬ Splittable q) → b = false) := by
  intro fuel
  induction fuel with
  | zero =>
    intro s d rng b d2 rng2 h
    cases s with
    | nil =>
      simp only [generate_rooms_loop, Option.some.injEq, Prod.mk.injEq] at h
      obtain ⟨_, e, _⟩ := h
      subst e
      exact ⟨⟨rfl, rfl⟩, fun ⟨q, hq, _⟩ => by simp at hq⟩
    | cons p s => simp [generate_rooms_loop] at h
  | succ fuel ih =>
    intro s d rng b d2 rng2 h
    cases s with
    | nil =>
      simp only [generate_rooms_loop, Option.some.injEq, Prod.mk.injEq] at h
      obtain ⟨_, e, _⟩ := h
      subst e
      exact ⟨⟨rfl, rfl⟩, fun ⟨q, hq, _⟩ => by simp at hq⟩
    | cons p s =>
      rw [generate_rooms_loop_succ] at h
      cases h1 : split_horizontal p rng with
      | none => rw [h1] at h; simp at h
      | some v1 =>
        obtain ⟨hz, rng1⟩ := v1
        rw [h1] at h
        simp only at h
        cases h2 : (if hz = true then
            rand_int_in_range MIN_PARTITION_HEIGHT (p.height - MIN_PARTITION_HEIGHT) rng1
          else rand_int_in_range MIN_PARTITION_WIDTH (p.width - MIN_PARTITION_WIDTH) rng1) with
        | none => rw [h2] at h; simp at h
        | some v2 =>
          obtain ⟨split, rng2b⟩ := v2
          rw [h2] at h
          simp only at h
          cases h3 : place_child max_rooms (leftChild p hz split) s d rng2b with
          | none => rw [h3] at h; simp at h
          | some v3 =>
            obtain ⟨ok1, s1, d1, rng3⟩ := v3
            rw [h3] at h
            obtain ⟨sd1, k1, _⟩ := place_child_stack h3
            cases ok1 with
            | false =>
              simp only [Option.some.injEq, Prod.mk.injEq] at h
              obtain ⟨e0, e, _⟩ := h
              subst e
              exact ⟨sd1, fun _ => e0.symm⟩
            | true =>
              simp only at h
              cases h4 : place_child max_rooms (rightChild p hz split) s1 d1 rng3 with
              | none => rw [h4] at h; simp at h
              | some v4 =>
                obtain ⟨ok2, s2, d2b, rng4⟩ := v4
                rw [h4] at h
                obtain ⟨sd2, k2, k3⟩ := place_child_stack h4
                cases ok2 with
                | false =>
                  simp only [Option.some.injEq, Prod.mk.injEq] at h
                  obtain ⟨e0, e, _⟩ := h
                  subst e
                  exact ⟨sd1.dimsTrans sd2, fun _ => e0.symm⟩
                | true =>
                  simp only at h
                  obtain ⟨sd3, hb⟩ := ih s2 d2b rng4 b d2 rng2 h
                  refine ⟨(sd1.dimsTrans sd2).dimsTrans sd3, ?_⟩
                  rintro ⟨q, hq, hqs⟩
                  apply hb
                  rcases List.mem_cons.mp hq with rfl | hq
                  · obtain ⟨r1, r2⟩ := rightChild_stuck hqs h1 h2
                    exact ⟨_, k3 r1, r2⟩
                  · exact ⟨q, k2 q (k1 q hq), hqs⟩

/-- The partition `generate_rooms` starts from. -/
def rootPartition (d : Dungeon) : Partition_T :=
  ⟨1, 1, (d.height : Int) - 2, (d.width : Int) - 2⟩

/-- The retry loop of `new_dungeon` keeps the invariant of the generator: either the
interior can be split to the end and every room lands inside it, or no attempt ever
succeeds. -/
theorem new_dungeon_loop_spec {Q : Cell → Prop} {fuel : Nat} {min_rooms max_rooms : Int}
    {covered : Nat → Nat → Bool}
    (hQ : ∀ c : Cell, Q { c with type := .ROOM, hardness := OPEN_SPACE_HARDNESS }) :
    ∀ (n : Nat) (tries : Int) (d : Dungeon_T) (rng : List Nat) (d2 : Dungeon_T)
      (rng2 : List Nat),
    new_dungeon_loop fuel min_rooms max_rooms covered n tries d rng = some (d2, rng2) →
    SameDims d d2 ∧ Splittable (rootPartition d.toDungeon) ∧ (GenInv Q d → GenInv Q d2) := by
  intro n
  induction n with
  | zero => intro tries d rng d2 rng2 h; simp [new_dungeon_loop] at h
  | succ n ih =>
    intro tries d rng d2 rng2 h
    simp only [new_dungeon_loop] at h
    split at h
    · cases h
    · cases h1 : generate_rooms fuel { d with rooms_size := max_rooms.toNat } max_rooms rng with
      | none => rw [h1] at h; simp at h
      | some v =>
        obtain ⟨success, d1, rng1⟩ := v
        rw [h1] at h
        simp only at h
        unfold generate_rooms at h1
        obtain ⟨sd, hst⟩ := generate_rooms_loop_stuck _ _ _ _ _ _ _ h1
        have sd1 : SameDims d d1 := sd
        by_cases hsp : Splittable (rootPartition d.toDungeon)
        · have hinv1 : GenInv Q d → GenInv Q d1 := by
            intro inv
            have inv0 : GenInv Q { d with rooms_size := max_rooms.toNat } :=
              ⟨inv.cells, inv.rooms⟩
            exact (generate_rooms_loop_spec hQ _ _ _ _ _ _ _ h1 inv0
              (fun q hq => by
                rw [List.mem_singleton] at hq
                subst hq
                refine ⟨?_, hsp⟩
                show PInside d.toDungeon _
                unfold PInside
                simp only
                omega)).1
          split at h
          · obtain ⟨sd2, _, inv2⟩ := ih _ _ _ _ _ h
            exact ⟨sd1.dimsTrans sd2, hsp, fun inv => inv2 (hinv1 inv)⟩
          · simp only [Option.some.injEq, Prod.mk.injEq] at h
            rw [← h.1]
            exact ⟨sd1, hsp, hinv1⟩
        · have hf : success = false := hst ⟨_, List.mem_singleton.mpr rfl, hsp⟩
          rw [hf] at h
          simp only [true_or, if_true] at h
          -- every later attempt starts from the same root partition
          exfalso
          have hroot : ∀ (m : Nat) (t : Int) (e : Dungeon_T) (r : List Nat) (e2 : Dungeon_T)
              (r2 : List Nat), SameDims d e →
              new_dungeon_loop fuel min_rooms max_rooms covered m t e r ≠ some (e2, r2) := by
            intro m
            induction m with
            | zero => intro t e r e2 r2 _ hc; simp [new_dungeon_loop] at hc
            | succ m ihm =>
              intro t e r e2 r2 se hc
              simp only [new_dungeon_loop] at hc
              split at hc
              · cases hc
              · cases g1 : generate_rooms fuel { e with rooms_size := max_rooms.toNat }
                    max_rooms r with
                | none => rw [g1] at hc; simp at hc
                | some w =>
                  obtain ⟨su, e1, r1⟩ := w
                  rw [g1] at hc
                  simp only at hc
                  unfold generate_rooms at g1
                  obtain ⟨se1, hst1⟩ := generate_rooms_loop_stuck _ _ _ _ _ _ _ g1
                  have se2 : SameDims e e1 := se1
                  have hf1 : su = false := by
                    refine hst1 ⟨_, List.mem_singleton.mpr rfl, ?_⟩
                    intro hc2
                    apply hsp
                    have e3 : e.height = d.height := se.1
                    have e4 : e.width = d.width := se.2
                    unfold rootPartition
                    rw [← e3, ← e4]
                    exact hc2
                  rw [hf1] at hc
                  simp only [true_or, if_true] at hc
                  exact ihm _ _ _ _ _ (se.dimsTrans se2) hc
          exact hroot n _ _ _ _ _ sd1 h

/-! ### The border -/

/-- Every cell of the grid is rock and every interior cell has hardness 0. -/
def Fresh (d : Dungeon) : Prop :=
  ∀ y x, InGrid d y x → (d.MAP y x).type = .ROCK ∧ (Interior d y x → (d.MAP y x).hardness = 0)

/-- The cell `(a, b)` has been made immutable. -/
def Imm (d : Dungeon) (a b : Int) : Prop := (d.MAP a b).hardness = IMMUTABLE_ROCK_HARDNESS

/-- One assignment of `generate_dungeon_border` to a border cell. -/
theorem set_immutable_spec {d : Dungeon_T} {a b : Int} (hg : InGrid d.toDungeon a b)
    (hni : ¬ Interior d.toDungeon a b) (hf : Fresh d.toDungeon) :
    ∃ d2, set_immutable d a b = some d2 ∧ SameShape d d2 ∧ Fresh d2.toDungeon ∧
      Imm d2.toDungeon a b ∧
      ∀ y x, InGrid d.toDungeon y x → Imm d.toDungeon y x → Imm d2.toDungeon y x := by
  refine ⟨putCell d a b { d.MAP a b with hardness := IMMUTABLE_ROCK_HARDNESS }, ?_,
    putCell_shape _ _ _ _, ?_, ?_, ?_⟩
  · unfold set_immutable
    rw [getCell_of_InGrid hg]
    exact setCell_of_InGrid _ hg
  · intro y x hg2
    have hg3 : InGrid d.toDungeon y x := hg2
    by_cases e : y = a ∧ x = b
    · rw [e.1, e.2, putCell_MAP_same]
      exact ⟨(hf a b hg).1, fun hi => absurd hi hni⟩
    · rw [putCell_MAP_other _ hg hg3 e]
      exact hf y x hg3
  · unfold Imm
    rw [putCell_MAP_same]
  · intro y x hg2 him
    unfold Imm at him ⊢
    by_cases e : y = a ∧ x = b
    · rw [e.1, e.2, putCell_MAP_same]
    · rw [putCell_MAP_other _ hg hg2 e]
      exact him

/-- The loop over the left and right columns. -/
theorem border_sides_spec : ∀ (is : List Int) (d : Dungeon_T), 1 ≤ d.width →
    (∀ i ∈ is, 1 ≤ i ∧ i ≤ (d.height : Int) - 2) → Fresh d.toDungeon →
    ∃ d2, border_sides is d = some d2 ∧ SameShape d d2 ∧ Fresh d2.toDungeon ∧
      (∀ i ∈ is, Imm d2.toDungeon i 0 ∧ Imm d2.toDungeon i ((d.width : Int) - 1)) ∧
      ∀ y x, InGrid d.toDungeon y x → Imm d.toDungeon y x → Imm d2.toDungeon y x
  | [], d, _, _, hf => ⟨d, rfl, SameShape.refl d, hf, fun i hi => by simp at hi,
      fun _ _ _ h => h⟩
  | i :: is, d, hw, h, hf => by
    have hi := h i (List.mem_cons_self _ _)
    have g1 : InGrid d.toDungeon i 0 := by unfold InGrid; omega
    obtain ⟨d1, e1, s1, f1, m1, k1⟩ := set_immutable_spec g1 (by unfold Interior; omega) hf
    have g2 : InGrid d1.toDungeon i ((d.width : Int) - 1) := by
      unfold InGrid; rw [s1.height, s1.width]; omega
    obtain ⟨d2, e2, s2, f2, m2, k2⟩ := set_immutable_spec g2
      (by unfold Interior; rw [s1.height, s1.width]; omega) f1
    have s12 := s1.shapeTrans s2
    obtain ⟨d3, e3, s3, f3, m3, k3⟩ := border_sides_spec is d2 (by rw [s12.width]; exact hw)
      (fun j hj => by rw [s12.height]; exact h j (List.mem_cons_of_mem _ hj)) f2
    have gi : ∀ {y x : Int}, InGrid d.toDungeon y x → InGrid d1.toDungeon y x :=
      fun hg => (InGrid_shape s1.height s1.width).mpr hg
    have gi2 : ∀ {y x : Int}, InGrid d.toDungeon y x → InGrid d2.toDungeon y x :=
      fun hg => (InGrid_shape s12.height s12.width).mpr hg
    refine ⟨d3, ?_, s12.shapeTrans s3, f3, ?_, ?_⟩
    · simp only [border_sides, e1, e2]
      exact e3
    · intro j hj
      rcases List.mem_cons.mp hj with rfl | hj
      · refine ⟨k3 _ _ (gi2 g1) (k2 _ _ (gi g1) m1), ?_⟩
        exact k3 _ _ ((InGrid_shape s2.height s2.width).mpr g2) m2
      · have := m3 j hj
        rw [s12.width] at this
        exact this
    · intro y x hg him
      exact k3 y x (gi2 hg) (k2 y x (gi hg) (k1 y x hg him))

/-- The loop over the top and bottom rows. -/
theorem border_ends_spec : ∀ (is : List Int) (d : Dungeon_T), 1 ≤ d.height →
    (∀ i ∈ is, 0 ≤ i ∧ i < (d.width : Int)) → Fresh d.toDungeon →
    ∃ d2, border_ends is d = some d2 ∧ SameShape d d2 ∧ Fresh d2.toDungeon ∧
      (∀ i ∈ is, Imm d2.toDungeon 0 i ∧ Imm d2.toDungeon ((d.height : Int) - 1) i) ∧
      ∀ y x, InGrid d.toDungeon y x → Imm d.toDungeon y x → Imm d2.toDungeon y x
  | [], d, _, _, hf => ⟨d, rfl, SameShape.refl d, hf, fun i hi => by simp at hi,
      fun _ _ _ h => h⟩
  | i :: is, d, hw, h, hf => by
    have hi := h i (List.mem_cons_self _ _)
    have g1 : InGrid d.toDungeon 0 i := by unfold InGrid; omega
    obtain ⟨d1, e1, s1, f1, m1, k1⟩ := set_immutable_spec g1 (by unfold Interior; omega) hf
    have g2 : InGrid d1.toDungeon ((d.height : Int) - 1) i := by
      unfold InGrid; rw [s1.height, s1.width]; omega
    obtain ⟨d2, e2, s2, f2, m2, k2⟩ := set_immutable_spec g2
      (by unfold Interior; rw [s1.height, s1.width]; omega) f1
    have s12 := s1.shapeTrans s2
    obtain ⟨d3, e3, s3, f3, m3, k3⟩ := border_ends_spec is d2 (by rw [s12.height]; exact hw)
      (fun j hj => by rw [s12.width]; exact h j (List.mem_cons_of_mem _ hj)) f2
    have gi : ∀ {y x : Int}, InGrid d.toDungeon y x → InGrid d1.toDungeon y x :=
      fun hg => (InGrid_shape s1.height s1.width).mpr hg
    have gi2 : ∀ {y x : Int}, InGrid d.toDungeon y x → InGrid d2.toDungeon y x :=
      fun hg => (InGrid_shape s12.height s12.width).mpr hg
    refine ⟨d3, ?_, s12.shapeTrans s3, f3, ?_, ?_⟩
    · simp only [border_ends, e1, e2]
      exact e3
    · intro j hj
      rcases List.mem_cons.mp hj with rfl | hj
      · refine ⟨k3 _ _ (gi2 g1) (k2 _ _ (gi g1) m1), ?_⟩
        exact k3 _ _ ((InGrid_shape s2.height s2.width).mpr g2) m2
      · have := m3 j hj
        rw [s12.height] at this
        exact this
    · intro y x hg him
      exact k3 y x (gi2 hg) (k2 y x (gi hg) (k1 y x hg him))

/-- A cell of hardness 0. -/
def Soft (c : Cell) : Prop := c.hardness = 0

/-- A cell whose hardness lies in `0..254`. -/
def Mutable (c : Cell) : Prop := 0 ≤ c.hardness ∧ c.hardness ≤ 254

theorem Soft.mutable {c : Cell} (h : Soft c) : Mutable c := by
  unfold Soft at h; unfold Mutable; omega

/-- `init_dungeon` followed by `generate_dungeon_border` yields a grid of rock with an
immutable border, an interior of hardness 0 and no rooms. -/
theorem generate_dungeon_border_spec (height width : Nat) (hh : 1 ≤ height) (hw : 1 ≤ width) :
    ∃ d0, generate_dungeon_border (init_dungeon height width) = some d0 ∧
      SameShape (init_dungeon height width) d0 ∧ GenInv Soft d0 := by
  have hf : Fresh (init_dungeon height width).toDungeon := by
    intro y x _
    exact ⟨rfl, fun _ => rfl⟩
  obtain ⟨d1, e1, s1, f1, m1, _⟩ := border_sides_spec (intRange 1 (height - 2))
    (init_dungeon height width) hw
    (fun i hi => by
      have := mem_intRange.mp hi
      show 1 ≤ i ∧ i ≤ ((height : Nat) : Int) - 2
      omega) hf
  obtain ⟨d2, e2, s2, f2, m2, k2⟩ := border_ends_spec (intRange 0 width) d1
    (by rw [s1.height]; exact hh)
    (fun i hi => by
      have := mem_intRange.mp hi
      rw [s1.width]
      show 0 ≤ i ∧ i < ((width : Nat) : Int)
      omega) f1
  have s12 := s1.shapeTrans s2
  have eh : d2.height = height := s12.height
  have ew : d2.width = width := s12.width
  have eh1 : d1.height = height := s1.height
  have ew1 : d1.width = width := s1.width
  refine ⟨d2, ?_, s12, ⟨?_, ?_⟩, ?_⟩
  · unfold generate_dungeon_border
    have e1b : border_sides (intRange 1 ((init_dungeon height width).height - 2))
        (init_dungeon height width) = some d1 := e1
    rw [e1b]
    exact e2
  · intro y x hg hni
    refine ⟨(f2 y x hg).1, ?_⟩
    obtain ⟨g1, g2, g3, g4⟩ := hg
    rw [eh] at g2
    rw [ew] at g4
    unfold Interior at hni
    rw [eh, ew] at hni
    have hx : x ∈ intRange 0 width := mem_intRange.mpr (by omega)
    by_cases hrow : y = 0 ∨ y = (height : Int) - 1
    · rcases hrow with e | e
      · rw [e]; exact (m2 x hx).1
      · have := (m2 x hx).2
        rw [eh1] at this
        rw [e]; exact this
    · have hy : y ∈ intRange 1 (height - 2) := mem_intRange.mpr (by omega)
      have hgd1 : InGrid d1.toDungeon y x := by
        unfold InGrid; rw [eh1, ew1]; omega
      have hc : x = 0 ∨ x = (width : Int) - 1 := by omega
      rcases hc with e | e
      · rw [e] at hgd1 ⊢
        exact k2 y 0 hgd1 (m1 y hy).1
      · rw [e] at hgd1 ⊢
        exact k2 y _ hgd1 (m1 y hy).2
  · intro y x hi
    exact (f2 y x (InGrid_of_interior hi)).2 hi
  · intro k hk
    rw [s12.num_rooms] at hk
    exact absurd hk (Nat.not_lt_zero k)

/-- The inner loop of `randomize_hardness` over cells of hardness 0. -/
theorem randomize_hardness_row_spec (i : Int) : ∀ (js : List Int) (d : Dungeon_T)
    (rng : List Nat) (d2 : Dungeon_T) (rng2 : List Nat),
    randomize_hardness_row i js d rng = some (d2, rng2) →
    (∀ j ∈ js, Interior d.toDungeon i j) → js.Nodup → CellInv Mutable d.toDungeon →
    (∀ j ∈ js, (d.MAP i j).hardness = 0) →
    CellInv Mutable d2.toDungeon ∧ SameShape d d2 ∧
      ∀ y x, InGrid d.toDungeon y x → y ≠ i → d2.MAP y x = d.MAP y x
  | [], d, rng, d2, rng2, h, _, _, inv, _ => by
    simp only [randomize_hardness_row, Option.some.injEq, Prod.mk.injEq] at h
    rw [← h.1]
    exact ⟨inv, SameShape.refl d, fun _ _ _ _ => rfl⟩
  | j :: js, d, rng, d2, rng2, h, hint, hnd, inv, hz => by
    have hi := hint j (List.mem_cons_self _ _)
    have hg := InGrid_of_interior hi
    have hnd2 := List.nodup_cons.mp hnd
    simp only [randomize_hardness_row, getCell_of_InGrid hg] at h
    split at h
    · cases h1 : rand_int_in_range MIN_ROCK_HARDNESS MAX_ROCK_HARDNESS rng with
      | none => rw [h1] at h; simp at h
      | some v =>
        obtain ⟨r, rng1⟩ := v
        rw [h1] at h
        simp only [setCell_of_InGrid _ hg] at h
        simp only [MIN_ROCK_HARDNESS, MAX_ROCK_HARDNESS] at h1
        have r1 := rand_int_in_range_ge h1
        have r2 := rand_int_in_range_le h1 (by omega)
        have hz0 := hz j (List.mem_cons_self _ _)
        have inv1 := @putCell_inv Mutable d i j
          { d.MAP i j with hardness := (d.MAP i j).hardness + r } inv hi
          (by unfold Mutable; simp only; omega)
        obtain ⟨inv2, s2, k2⟩ := randomize_hardness_row_spec i js _ rng1 d2 rng2 h
          (fun j2 hj2 => hint j2 (List.mem_cons_of_mem _ hj2)) hnd2.2 inv1
          (fun j2 hj2 => by
            have hg2 := InGrid_of_interior (hint j2 (List.mem_cons_of_mem _ hj2))
            have hne : ¬ (i = i ∧ j2 = j) := fun e => hnd2.1 (e.2 ▸ hj2)
            show ((putCell d i j _).toDungeon.MAP i j2).hardness = 0
            rw [putCell_MAP_other _ hg hg2 hne]
            exact hz j2 (List.mem_cons_of_mem _ hj2))
        refine ⟨inv2, (putCell_shape d i j _).shapeTrans s2, ?_⟩
        intro y x hg3 hne
        rw [k2 y x hg3 hne]
        exact putCell_MAP_other _ hg hg3 (fun e => hne e.1)
    · exact randomize_hardness_row_spec i js d rng d2 rng2 h
        (fun j2 hj2 => hint j2 (List.mem_cons_of_mem _ hj2)) hnd2.2 inv
        (fun j2 hj2 => hz j2 (List.mem_cons_of_mem _ hj2))

/-- The outer loop of `randomize_hardness`. -/
theorem randomize_hardness_rows_spec (cols : List Int) (hc : cols.Nodup) :
    ∀ (is : List Int) (d : Dungeon_T) (rng : List Nat) (d2 : Dungeon_T) (rng2 : List Nat),
    randomize_hardness_rows cols is d rng = some (d2, rng2) →
    (∀ i ∈ is, ∀ j ∈ cols, Interior d.toDungeon i j) → is.Nodup →
    CellInv Mutable d.toDungeon → (∀ i ∈ is, ∀ j ∈ cols, (d.MAP i j).hardness = 0) →
    CellInv Mutable d2.toDungeon ∧ SameShape d d2
  | [], d, rng, d2, rng2, h, _, _, inv, _ => by
    simp only [randomize_hardness_rows, Option.some.injEq, Prod.mk.injEq] at h
    rw [← h.1]
    exact ⟨inv, SameShape.refl d⟩
  | i :: is, d, rng, d2, rng2, h, hint, hnd, inv, hz => by
    have hnd2 := List.nodup_cons.mp hnd
    simp only [randomize_hardness_rows] at h
    cases h1 : randomize_hardness_row i cols d rng with
    | none => rw [h1] at h; simp at h
    | some v =>
      obtain ⟨d1, rng1⟩ := v
      rw [h1] at h
      simp only at h
      obtain ⟨inv1, s1, k1⟩ := randomize_hardness_row_spec i cols d rng d1 rng1 h1
        (hint i (List.mem_cons_self _ _)) hc inv (hz i (List.mem_cons_self _ _))
      obtain ⟨inv2, s2⟩ := randomize_hardness_rows_spec cols hc is d1 rng1 d2 rng2 h
        (fun i2 hi2 j hj => (Interior_shape s1.height s1.width).mpr
          (hint i2 (List.mem_cons_of_mem _ hi2) j hj)) hnd2.2 inv1
        (fun i2 hi2 j hj => by
          have hg := InGrid_of_interior (hint i2 (List.mem_cons_of_mem _ hi2) j hj)
          rw [k1 i2 j hg (fun e => hnd2.1 (e ▸ hi2))]
          exact hz i2 (List.mem_cons_of_mem _ hi2) j hj)
      exact ⟨inv2, s1.shapeTrans s2⟩

/-- `randomize_hardness` takes an interior of hardness 0 to hardness values in `0..254`
and leaves the border and the room records alone. -/
theorem randomize_hardness_spec {d d2 : Dungeon_T} {rng rng2 : List Nat}
    (h : randomize_hardness d rng = some (d2, rng2)) (inv : GenInv Soft d) :
    GenInv Mutable d2 ∧ SameShape d d2 := by
  unfold randomize_hardness at h
  obtain ⟨inv2, s2⟩ := randomize_hardness_rows_spec _ (intRange_nodup _ _) _ _ _ _ _ h
    (fun i hi j hj => by
      have := mem_intRange.mp hi
      have := mem_intRange.mp hj
      unfold Interior
      omega) (intRange_nodup _ _) (inv.cells.weaken (fun _ hc => hc.mutable))
    (fun i hi j hj => by
      have := mem_intRange.mp hi
      have := mem_intRange.mp hj
      exact inv.cells.inner i j (by unfold Interior; omega))
  exact ⟨⟨inv2, inv.rooms.shape s2⟩, s2⟩

/-! ### Rolling downhill -/

/-- What the walker of `paint_corridor` needs from the cost field: border cells hold
`INT_MAX`, costs lie in `0..INT_MAX`, and every interior cell of finite cost other than the
source has a 4-neighbour of smaller cost. -/
structure Downhill (d : Dungeon) (sy sx : Int) (D : Nat → Int) : Prop where
  border : ∀ y x, InGrid d y x → ¬ Interior d y x → D (COST d y x) = INT_MAX
  nonneg : ∀ y x, InGrid d y x → 0 ≤ D (COST d y x)
  le_max : ∀ y x, InGrid d y x → D (COST d y x) ≤ INT_MAX
  pred : ∀ y x, Interior d y x → D (COST d y x) ≠ INT_MAX → ¬ (y = sy ∧ x = sx) →
    D (COST d (y - 1) x) < D (COST d y x) ∨ D (COST d (y + 1) x) < D (COST d y x) ∨
    D (COST d y (x - 1)) < D (COST d y x) ∨ D (COST d y (x + 1)) < D (COST d y x)

theorem PathCost_inv {type : Dijkstra_T} {diagonal : Bool} {d : Dungeon} {sy sx y x c : Int}
    (h : PathCost type diagonal d sy sx y x c) :
    (y = sy ∧ x = sx ∧ c = 0) ∨
    ∃ y2 x2 c2, PathCost type diagonal d sy sx y2 x2 c2 ∧ Step type diagonal d y2 x2 y x ∧
      c = c2 + weight type d y x := by
  cases h with
  | start => exact Or.inl ⟨rfl, rfl, rfl⟩
  | step hp hs => exact Or.inr ⟨_, _, _, hp, hs, rfl⟩

/-- The shortest-path facts without diagonal steps give the walker what it needs. -/
theorem downhill_of_facts {type : Dijkstra_T} {d : Dungeon} {sy sx : Int} {D : Nat → Int}
    (F : SingleFacts type false d sy sx D) (hbo : BorderOk d) (hh : HardnessOk d) :
    Downhill d sy sx D := by
  refine ⟨F.border, F.nonneg, F.le_max, ?_⟩
  intro y x hi hfin hne
  rcases PathCost_inv (F.path y x hi hfin) with ⟨e1, e2, _⟩ | ⟨y2, x2, c2, hp, hs, hc⟩
  · exact absurd ⟨e1, e2⟩ hne
  · have hw := step_weight_pos hbo hh hs
    have hle := (F.le_path y2 x2 c2 hp).2.2
    have hd := hs.2.1
    simp only [Dir, Bool.false_eq_true, false_and, or_false] at hd
    rcases hd with ⟨a, b⟩ | ⟨a, b⟩ | ⟨a, b⟩ | ⟨a, b⟩
    · have ey : y2 = y + 1 := by omega
      have ex : x2 = x := by omega
      subst ey ex
      right; left; omega
    · have ey : y2 = y - 1 := by omega
      have ex : x2 = x := by omega
      subst ey ex
      left; omega
    · have ey : y2 = y := by omega
      have ex : x2 = x + 1 := by omega
      subst ey ex
      right; right; right; omega
    · have ey : y2 = y := by omega
      have ex : x2 = x - 1 := by omega
      subst ey ex
      right; right; left; omega

/-- The cost the walker reads in a direction. -/
def costTo (up down left right : Int) : Direction_T → Int
  | .UP => up
  | .DOWN => down
  | .LEFT => left
  | .RIGHT => right

/-- The direction picked has the smallest of the four costs. -/
theorem pick_direction_min (up down left right : Int) :
    costTo up down left right (pick_direction up down left right) ≤ up ∧
    costTo up down left right (pick_direction up down left right) ≤ down ∧
    costTo up down left right (pick_direction up down left right) ≤ left ∧
    costTo up down left right (pick_direction up down left right) ≤ right := by
  unfold pick_direction
  by_cases h1 : up > down <;> by_cases h2 : down > left <;> by_cases h3 : up > left <;>
    by_cases h4 : left > right <;> by_cases h5 : down > right <;> by_cases h6 : up > right <;>
    simp [h1, h2, h3, h4, h5, h6, costTo] <;> omega

/-- The cell the walker moves to from `(i, j)`. -/
def walkNext (D : Nat → Int) (d : Dungeon) (i j : Int) : Int × Int :=
  travel i j (pick_direction (D (COST d (i - 1) j)) (D (COST d (i + 1) j))
    (D (COST d i (j - 1))) (D (COST d i (j + 1))))

/-- The dungeon after the walker has stepped on `(a, b)`. -/
def walkPaint (d : Dungeon_T) (a b : Int) : Dungeon_T :=
  if (d.MAP a b).type = .ROCK then
    putCell d a b { d.MAP a b with type := .CORRIDOR, hardness := OPEN_SPACE_HARDNESS }
  else d

theorem walkNext_cases (D : Nat → Int) (d : Dungeon) (i j : Int) :
    walkNext D d i j = (i - 1, j) ∨ walkNext D d i j = (i + 1, j) ∨
    walkNext D d i j = (i, j - 1) ∨ walkNext D d i j = (i, j + 1) := by
  unfold walkNext
  cases pick_direction (D (COST d (i - 1) j)) (D (COST d (i + 1) j))
    (D (COST d i (j - 1))) (D (COST d i (j + 1))) <;> simp [travel]

theorem walkNext_inGrid {D : Nat → Int} {d : Dungeon} {i j : Int} (hi : Interior d i j) :
    InGrid d (walkNext D d i j).1 (walkNext D d i j).2 := by
  unfold Interior at hi
  rcases walkNext_cases D d i j with e | e | e | e <;> rw [e] <;> unfold InGrid <;>
    simp only <;> omega

/-- The walker moves to a cell of smallest cost among the four neighbours. -/
theorem walkNext_min (D : Nat → Int) (d : Dungeon) (i j : Int) :
    D (COST d (walkNext D d i j).1 (walkNext D d i j).2) ≤ D (COST d (i - 1) j) ∧
    D (COST d (walkNext D d i j).1 (walkNext D d i j).2) ≤ D (COST d (i + 1) j) ∧
    D (COST d (walkNext D d i j).1 (walkNext D d i j).2) ≤ D (COST d i (j - 1)) ∧
    D (COST d (walkNext D d i j).1 (walkNext D d i j).2) ≤ D (COST d i (j + 1)) := by
  have h := pick_direction_min (D (COST d (i - 1) j)) (D (COST d (i + 1) j))
    (D (COST d i (j - 1))) (D (COST d i (j + 1)))
  have e : D (COST d (walkNext D d i j).1 (walkNext D d i j).2) =
      costTo (D (COST d (i - 1) j)) (D (COST d (i + 1) j)) (D (COST d i (j - 1)))
        (D (COST d i (j + 1)))
        (pick_direction (D (COST d (i - 1) j)) (D (COST d (i + 1) j))
          (D (COST d i (j - 1))) (D (COST d i (j + 1)))) := by
    unfold walkNext
    cases pick_direction (D (COST d (i - 1) j)) (D (COST d (i + 1) j))
      (D (COST d i (j - 1))) (D (COST d i (j + 1))) <;> rfl
  rw [e]
  exact h

/-- One iteration of the roll-downhill loop from an interior cell other than the source. -/
theorem roll_downhill_succ (D : Nat → Int) (sy sx : Int) (fuel : Nat) (d : Dungeon_T)
    (i j : Int) (hi : Interior d.toDungeon i j) (hne : i ≠ sy ∨ j ≠ sx) :
    roll_downhill D sy sx (fuel + 1) d i j =
      roll_downhill D sy sx fuel
        (walkPaint d (walkNext D d.toDungeon i j).1 (walkNext D d.toDungeon i j).2)
        (walkNext D d.toDungeon i j).1 (walkNext D d.toDungeon i j).2 := by
  have hn := walkNext_inGrid (D := D) hi
  have g1 : InGrid d.toDungeon (i - 1) j := by unfold Interior at hi; unfold InGrid; omega
  have g2 : InGrid d.toDungeon (i + 1) j := by unfold Interior at hi; unfold InGrid; omega
  have g3 : InGrid d.toDungeon i (j - 1) := by unfold Interior at hi; unfold InGrid; omega
  have g4 : InGrid d.toDungeon i (j + 1) := by unfold Interior at hi; unfold InGrid; omega
  rw [roll_downhill]
  simp only [if_pos hne, getCost_of_InGrid D g1, getCost_of_InGrid D g2,
    getCost_of_InGrid D g3, getCost_of_InGrid D g4]
  unfold walkPaint walkNext
  unfold walkNext at hn
  generalize travel i j (pick_direction (D (COST d.toDungeon (i - 1) j))
    (D (COST d.toDungeon (i + 1) j)) (D (COST d.toDungeon i (j - 1)))
    (D (COST d.toDungeon i (j + 1)))) = n at hn ⊢
  rw [getCell_of_InGrid hn]
  simp only
  by_cases hr : (d.MAP n.1 n.2).type = .ROCK
  · rw [if_pos hr, if_pos hr, setCell_of_InGrid _ hn]
  · rw [if_neg hr, if_neg hr]

theorem roll_downhill_source (D : Nat → Int) (sy sx : Int) (fuel : Nat) (d : Dungeon_T) :
    roll_downhill D sy sx fuel d sy sx = some d := by
  cases fuel <;> simp [roll_downhill]

/-- The roll-downhill loop reaches the source, stepping on interior cells only: it keeps
the border, hardness values in `0..254` and the room records. -/
theorem roll_downhill_spec {D : Nat → Int} {sy sx : Int} : ∀ (fuel : Nat) (d : Dungeon_T)
    (i j : Int), Downhill d.toDungeon sy sx D → Interior d.toDungeon i j →
    D (COST d.toDungeon i j) ≠ INT_MAX → CellInv Mutable d.toDungeon →
    D (COST d.toDungeon i j) < fuel →
    ∃ d2, roll_downhill D sy sx fuel d i j = some d2 ∧ CellInv Mutable d2.toDungeon ∧
      SameShape d d2 := by
  intro fuel
  induction fuel with
  | zero =>
    intro d i j dh hi _ _ hlt
    have := dh.nonneg i j (InGrid_of_interior hi)
    simp only [Nat.cast_zero] at hlt
    omega
  | succ fuel ih =>
    intro d i j dh hi hfin inv hlt
    by_cases hsrc : i = sy ∧ j = sx
    · rw [hsrc.1, hsrc.2, roll_downhill_source]
      exact ⟨d, rfl, inv, SameShape.refl d⟩
    · have hne : i ≠ sy ∨ j ≠ sx := by
        by_contra hc
        exact hsrc ⟨by_contra (fun h => hc (Or.inl h)), by_contra (fun h => hc (Or.inr h))⟩
      rw [roll_downhill_succ D sy sx fuel d i j hi hne]
      have hn := walkNext_inGrid (D := D) hi
      have hmin := walkNext_min D d.toDungeon i j
      have hp := dh.pred i j hi hfin hsrc
      have hlt2 : D (COST d.toDungeon (walkNext D d.toDungeon i j).1
          (walkNext D d.toDungeon i j).2) < D (COST d.toDungeon i j) := by omega
      have hmax := dh.le_max i j (InGrid_of_interior hi)
      have hni : Interior d.toDungeon (walkNext D d.toDungeon i j).1
          (walkNext D d.toDungeon i j).2 := by
        by_contra hc
        have := dh.border _ _ hn hc
        omega
      have hstep : CellInv Mutable
          (walkPaint d (walkNext D d.toDungeon i j).1 (walkNext D d.toDungeon i j).2).toDungeon ∧
          SameShape d
            (walkPaint d (walkNext D d.toDungeon i j).1 (walkNext D d.toDungeon i j).2) := by
        unfold walkPaint
        split
        · exact ⟨putCell_inv inv hni (by unfold Mutable; simp [OPEN_SPACE_HARDNESS]),
            putCell_shape _ _ _ _⟩
        · exact ⟨inv, SameShape.refl d⟩
      obtain ⟨inv1, s1⟩ := hstep
      have hD : ∀ a b, COST (walkPaint d (walkNext D d.toDungeon i j).1
          (walkNext D d.toDungeon i j).2).toDungeon a b = COST d.toDungeon a b := by
        intro a b
        unfold COST
        rw [s1.width]
      have dh1 : Downhill (walkPaint d (walkNext D d.toDungeon i j).1
          (walkNext D d.toDungeon i j).2).toDungeon sy sx D := by
        refine ⟨?_, ?_, ?_, ?_⟩
        · intro y x hg hnint
          rw [hD]
          exact dh.border y x ((InGrid_shape s1.height s1.width).mp hg)
            (fun h => hnint ((Interior_shape s1.height s1.width).mpr h))
        · intro y x hg
          rw [hD]
          exact dh.nonneg y x ((InGrid_shape s1.height s1.width).mp hg)
        · intro y x hg
          rw [hD]
          exact dh.le_max y x ((InGrid_shape s1.height s1.width).mp hg)
        · intro y x hint hf hs
          simp only [hD] at hf ⊢
          exact dh.pred y x ((Interior_shape s1.height s1.width).mp hint) hf hs
      obtain ⟨d2, e2, inv2, s2⟩ := ih _ (walkNext D d.toDungeon i j).1
        (walkNext D d.toDungeon i j).2 dh1 ((Interior_shape s1.height s1.width).mpr hni)
        (by rw [hD]; omega) inv1 (by rw [hD]; push_cast at hlt; omega)
      exact ⟨d2, e2, inv2, s1.shapeTrans s2⟩

theorem CellInv.hardnessOk {d : Dungeon} (h : CellInv Mutable d) : HardnessOk d := by
  intro y hy x hx
  by_cases hi : Interior d y x
  · have := h.inner y x hi
    unfold Mutable at this
    omega
  · have := (h.border y x ⟨by omega, by omega, by omega, by omega⟩ hi).2
    rw [this]
    simp [IMMUTABLE_ROCK_HARDNESS]

theorem CellInv.interiorMutable {d : Dungeon} (h : CellInv Mutable d) : InteriorMutable d := by
  intro y _ x _ hi
  have := h.inner y x hi
  unfold Mutable at this
  unfold IMMUTABLE_ROCK_HARDNESS
  omega

/-- The corridor weight of an interior cell of hardness `0..254` is finite. -/
theorem corridor_weight_finite {d : Dungeon} (h : CellInv Mutable d) {y x : Int}
    (hi : Interior d y x) : weight .CORRIDOR_MAP d y x ≠ INT_MAX := by
  have hm := h.inner y x hi
  unfold Mutable at hm
  have e1 : y - 1 + 1 = y := by ring
  have e2 : x - 1 + 1 = x := by ring
  have h255 : (d.MAP y x).hardness ≠ IMMUTABLE_ROCK_HARDNESS := by
    unfold IMMUTABLE_ROCK_HARDNESS; omega
  simp only [weight, cost_function, corridor_cost, e1, e2, h255, if_false]
  rw [DIFFERENCE_eq, Int.tdiv_eq_ediv hm.1 (by omega)]
  simp only [CORR_NUM_HARDNESS_LEVELS, CORR_ROOM_WEIGHT, CORR_CORRIDOR_WEIGHT]
  unfold INT_MAX
  cases (d.MAP y x).type <;> simp only
  · split <;> omega
  all_goals omega

/-- Without `REGULAR_MAP`, when every interior cell has a finite weight the source reaches
every interior cell. -/
theorem all_finite_of_weights {type : Dijkstra_T} {diagonal : Bool} {d : Dungeon}
    {sy sx : Int} {D : Nat → Int} (F : SingleFacts type diagonal d sy sx D)
    (ht : type ≠ .REGULAR_MAP) (hw : ∀ y x, Interior d y x → weight type d y x ≠ INT_MAX)
    (hs : Interior d sy sx) :
    ∀ (n : Nat) (y x : Int), Interior d y x → (y - sy).natAbs + (x - sx).natAbs ≤ n →
      D (COST d y x) ≠ INT_MAX := by
  have hstep : ∀ y x y2 x2, Interior d y x → D (COST d y x) ≠ INT_MAX → Interior d y2 x2 →
      ((y2 - y = 1 ∨ y2 - y = -1) ∧ x2 - x = 0 ∨ y2 - y = 0 ∧ (x2 - x = 1 ∨ x2 - x = -1)) →
      D (COST d y2 x2) ≠ INT_MAX := by
    intro y x y2 x2 hi hfin hi2 hd
    refine (F.tri y x y2 x2 (F.path y x hi hfin) ⟨InGrid_of_interior hi2, ?_, hw y2 x2 hi2,
      fun h => absurd h ht⟩).2
    unfold Dir
    omega
  intro n
  induction n with
  | zero =>
    intro y x _ hd
    have e1 : y = sy := by omega
    have e2 : x = sx := by omega
    rw [e1, e2, F.src]
    simp [INT_MAX]
  | succ n ih =>
    intro y x hi hd
    unfold Interior at hi hs
    by_cases hy : y = sy
    · by_cases hx : x = sx
      · rw [hy, hx, F.src]; simp [INT_MAX]
      · by_cases hlt : x < sx
        · exact hstep y (x + 1) y x (by unfold Interior; omega)
            (ih y (x + 1) (by unfold Interior; omega) (by omega)) (by unfold Interior; omega)
            (by omega)
        · exact hstep y (x - 1) y x (by unfold Interior; omega)
            (ih y (x - 1) (by unfold Interior; omega) (by omega)) (by unfold Interior; omega)
            (by omega)
    · by_cases hlt : y < sy
      · exact hstep (y + 1) x y x (by unfold Interior; omega)
          (ih (y + 1) x (by unfold Interior; omega) (by omega)) (by unfold Interior; omega)
          (by omega)
      · exact hstep (y - 1) x y x (by unfold Interior; omega)
          (ih (y - 1) x (by unfold Interior; omega) (by omega)) (by unfold Interior; omega)
          (by omega)

/-- Fuel for the cost field and for the walker: more than seven units per interior cell. -/
def FuelOk (d : Dungeon) (fuel : Nat) : Prop := 7 * ((d.height - 2) * (d.width - 2)) < fuel

/-- The dungeon is small enough for path costs to fit in an `int`. -/
def SmallGrid (d : Dungeon) : Prop :=
  7 * ((((d.height - 2) * (d.width - 2) : Nat) : Int) + 1) < INT_MAX

/-- `paint_corridor` between two interior points returns, and keeps the border, hardness
values in `0..254` and the room records. -/
theorem paint_corridor_spec (fuel : Nat) (m0 : Mem) (v0 : Nat → Vertex) (c0 : Nat → Int)
    (d : Dungeon_T) (sy sx ty tx : Int) (inv : CellInv Mutable d.toDungeon)
    (hsm : SmallGrid d.toDungeon) (hf : FuelOk d.toDungeon fuel)
    (hs : Interior d.toDungeon sy sx) (ht : Interior d.toDungeon ty tx) :
    ∃ d2, paint_corridor fuel m0 v0 c0 d sy sx ty tx = some d2 ∧
      CellInv Mutable d2.toDungeon ∧ SameShape d d2 := by
  unfold FuelOk at hf
  obtain ⟨D, e, F⟩ := old_generate_facts fuel m0 v0 c0 d.toDungeon sy sx .CORRIDOR_MAP
    (by decide) inv.borderOk inv.hardnessOk inv.interiorMutable hsm hs (by omega)
  have dh := downhill_of_facts F inv.borderOk inv.hardnessOk
  have hfin := all_finite_of_weights F (by decide) (fun y x hi => corridor_weight_finite inv hi)
    hs _ ty tx ht (le_refl _)
  have hb := F.bound ty tx ht hfin
  obtain ⟨d2, e2, inv2, s2⟩ := roll_downhill_spec fuel d ty tx dh ht hfin inv
    (by
      have : ((7 * ((d.height - 2) * (d.width - 2)) : Nat) : Int) < (fuel : Int) := by
        exact_mod_cast hf
      push_cast at this hb ⊢
      omega)
  refine ⟨d2, ?_, inv2, s2⟩
  unfold paint_corridor
  rw [e]
  exact e2

/-! ### Stairs and the player character -/

theorem rand_int_in_range_cons (l u : Int) (r : Nat) (rest : List Nat) (hne : u - l + 1 ≠ 0) :
    rand_int_in_range l u (r :: rest) = some (Int.tmod r (u - l + 1) + l, rest) := by
  simp [rand_int_in_range, hne]

/-- A stair placed in a room inside the interior. -/
theorem place_stair_spec (d : Dungeon_T) (r : Room_T) (t : Cell_Type) (a b : Nat)
    (rest : List Nat) (inv : CellInv Mutable d.toDungeon) (hr : RoomOk d.toDungeon r) :
    ∃ d2, place_stair d r t (a :: b :: rest) = some (d2, rest) ∧
      CellInv Mutable d2.toDungeon ∧ SameShape d d2 := by
  obtain ⟨r1, r2, r3, r4, r5, r6⟩ := hr
  simp only [MIN_ROOM_HEIGHT, MIN_ROOM_WIDTH] at r3 r4
  obtain ⟨y, ey, y1, y2⟩ := rand_int_in_range_total (r.y + 1) (r.y + r.height - 2) a
    (b :: rest) (by omega)
  obtain ⟨x, ex, x1, x2⟩ := rand_int_in_range_total (r.x + 1) (r.x + r.width - 2) b rest
    (by omega)
  have hi : Interior d.toDungeon y x := by unfold Interior; omega
  have hg := InGrid_of_interior hi
  refine ⟨putCell d y x { d.MAP y x with type := t }, ?_, ?_, putCell_shape _ _ _ _⟩
  · unfold place_stair
    rw [ey]; simp only
    rw [ex]; simp only
    rw [getCell_of_InGrid hg]; simp only
    rw [setCell_of_InGrid _ hg]
  · exact putCell_inv inv hi (inv.inner y x hi)

/-- The conditional form of `place_stair_spec`. -/
theorem place_stair_some {d d2 : Dungeon_T} {r : Room_T} {t : Cell_Type} {rng rng2 : List Nat}
    (h : place_stair d r t rng = some (d2, rng2)) (inv : CellInv Mutable d.toDungeon)
    (hr : RoomOk d.toDungeon r) : CellInv Mutable d2.toDungeon ∧ SameShape d d2 := by
  have hshape : ∃ a b rest, rng = a :: b :: rest := by
    unfold place_stair at h
    cases h1 : rand_int_in_range (r.y + 1) (r.y + r.height - 2) rng with
    | none => rw [h1] at h; simp at h
    | some v1 =>
      obtain ⟨y, rng1⟩ := v1
      rw [h1] at h
      simp only at h
      cases h2 : rand_int_in_range (r.x + 1) (r.x + r.width - 2) rng1 with
      | none => rw [h2] at h; simp at h
      | some v2 =>
        obtain ⟨x, rng2b⟩ := v2
        obtain ⟨a, ea, _⟩ := rand_int_in_range_some h1
        obtain ⟨b, eb, _⟩ := rand_int_in_range_some h2
        exact ⟨a, b, rng2b, by rw [ea, eb]⟩
  obtain ⟨a, b, rest, e⟩ := hshape
  subst e
  obtain ⟨d3, e3, inv3, s3⟩ := place_stair_spec d r t a b rest inv hr
  rw [e3] at h
  simp only [Option.some.injEq, Prod.mk.injEq] at h
  rw [← h.1]
  exact ⟨inv3, s3⟩

/-- The room `pick_other_room` returns is one of the rooms. -/
theorem pick_other_room_some {n : Nat} {r1 : Int} : ∀ (fuel : Nat) (rng : List Nat) (r2 : Int)
    (rng2 : List Nat), pick_other_room n r1 fuel rng = some (r2, rng2) →
    0 ≤ r2 ∧ r2 < n := by
  intro fuel
  induction fuel with
  | zero => intro rng r2 rng2 h; simp [pick_other_room] at h
  | succ fuel ih =>
    intro rng r2 rng2 h
    simp only [pick_other_room] at h
    cases h1 : rand_int_in_range 0 ((n : Int) - 1) rng with
    | none => rw [h1] at h; simp at h
    | some v =>
      obtain ⟨q, rng1⟩ := v
      rw [h1] at h
      simp only at h
      split at h
      · exact ih _ _ _ h
      · simp only [Option.some.injEq, Prod.mk.injEq] at h
        rw [← h.1]
        obtain ⟨a, _, hne, _⟩ := rand_int_in_range_some h1
        have g1 := rand_int_in_range_ge h1
        by_cases hn : 0 ≤ (n : Int) - 1
        · have g2 := rand_int_in_range_le h1 hn
          omega
        · omega

/-- `place_stairs` keeps the border, hardness values in `0..254` and the room records. -/
theorem place_stairs_some {fuel : Nat} {d d2 : Dungeon_T} {rng rng2 : List Nat}
    (h : place_stairs fuel d rng = some (d2, rng2)) (inv : GenInv Mutable d) :
    GenInv Mutable d2 ∧ SameShape d d2 := by
  unfold place_stairs at h
  cases h1 : rand_int_in_range 0 ((d.num_rooms : Int) - 1) rng with
  | none => rw [h1] at h; simp at h
  | some v1 =>
    obtain ⟨r1, rng1⟩ := v1
    rw [h1] at h
    simp only at h
    obtain ⟨a, _, hne, _⟩ := rand_int_in_range_some h1
    have g1 := rand_int_in_range_ge h1
    have g2 := rand_int_in_range_le h1 (by omega)
    cases h2 : place_stair d (d.rooms r1.toNat) .STAIR_UP rng1 with
    | none => rw [h2] at h; simp at h
    | some v2 =>
      obtain ⟨d1, rng2b⟩ := v2
      rw [h2] at h
      simp only at h
      obtain ⟨inv1, s1⟩ := place_stair_some h2 inv.cells (inv.rooms _ (by omega))
      have rooms1 := inv.rooms.shape s1
      cases h3 : pick_other_room d1.num_rooms r1 fuel rng2b with
      | none => rw [h3] at h; simp at h
      | some v3 =>
        obtain ⟨r2, rng3⟩ := v3
        rw [h3] at h
        simp only at h
        have hr2 := pick_other_room_some _ _ _ _ h3
        obtain ⟨inv2, s2⟩ := place_stair_some h inv1 (rooms1 _ (by omega))
        exact ⟨⟨inv2, rooms1.shape s2⟩, s1.shapeTrans s2⟩

/-- `place_stairs` returns when the stream holds six more draws, the first and the fourth
of which pick different rooms. -/
theorem place_stairs_total (fuel : Nat) (d : Dungeon_T) (a b c e f g : Nat) (rest : List Nat)
    (inv : GenInv Mutable d) (hn : 1 ≤ d.num_rooms) (hfuel : 1 ≤ fuel)
    (hne : Int.tmod a d.num_rooms ≠ Int.tmod e d.num_rooms) :
    ∃ d2, place_stairs fuel d (a :: b :: c :: e :: f :: g :: rest) = some (d2, rest) := by
  have hnz : ((d.num_rooms : Int) - 1) - 0 + 1 ≠ 0 := by omega
  have en : ((d.num_rooms : Int) - 1) - 0 + 1 = d.num_rooms := by ring
  have h1 := rand_int_in_range_cons 0 ((d.num_rooms : Int) - 1) a
    (b :: c :: e :: f :: g :: rest) hnz
  rw [en, add_zero] at h1
  have g1 := rand_int_in_range_ge h1
  have g2 := rand_int_in_range_le h1 (by omega)
  obtain ⟨d1, e1, inv1, s1⟩ := place_stair_spec d (d.rooms (Int.tmod a d.num_rooms).toNat)
    .STAIR_UP b c (e :: f :: g :: rest) inv.cells (inv.rooms _ (by omega))
  have rooms1 := inv.rooms.shape s1
  have h3 := rand_int_in_range_cons 0 ((d.num_rooms : Int) - 1) e (f :: g :: rest) hnz
  rw [en, add_zero] at h3
  have g3 := rand_int_in_range_ge h3
  have g4 := rand_int_in_range_le h3 (by omega)
  obtain ⟨d2, e2, _, _⟩ := place_stair_spec d1 (d1.rooms (Int.tmod e d.num_rooms).toNat)
    .STAIR_DOWN f g rest inv1 (rooms1 _ (by rw [s1.num_rooms]; omega))
  refine ⟨d2, ?_⟩
  unfold place_stairs
  rw [h1]; simp only
  rw [e1]; simp only
  obtain ⟨k, rfl⟩ : ∃ k, fuel = k + 1 := ⟨fuel - 1, by omega⟩
  simp only [pick_other_room, s1.num_rooms, h3, if_neg hne]
  exact e2

/-- A point drawn inside a room is interior. -/
theorem room_point_interior {d : Dungeon} {r : Room_T} {y x : Int} {rng rng1 rng2 : List Nat}
    (hr : RoomOk d r) (h1 : rand_int_in_range r.y (r.y + r.height - 1) rng = some (y, rng1))
    (h2 : rand_int_in_range r.x (r.x + r.width - 1) rng1 = some (x, rng2)) :
    Interior d y x := by
  obtain ⟨r1, r2, r3, r4, r5, r6⟩ := hr
  simp only [MIN_ROOM_HEIGHT, MIN_ROOM_WIDTH] at r3 r4
  have a1 := rand_int_in_range_ge h1
  have a2 := rand_int_in_range_le h1 (by omega)
  have b1 := rand_int_in_range_ge h2
  have b2 := rand_int_in_range_le h2 (by omega)
  unfold Interior
  omega

/-- `place_pc` keeps the border, hardness values in `0..254` and the room records. -/
theorem place_pc_some {d d2 : Dungeon_T} {rng rng2 : List Nat}
    (h : place_pc d rng = some (d2, rng2)) (inv : GenInv Mutable d) :
    GenInv Mutable d2 ∧ SameShape d d2 := by
  unfold place_pc at h
  cases h1 : rand_int_in_range 0 ((d.num_rooms : Int) - 1) rng with
  | none => rw [h1] at h; simp at h
  | some v1 =>
    obtain ⟨room, rng1⟩ := v1
    rw [h1] at h
    simp only at h
    obtain ⟨a, _, hne, _⟩ := rand_int_in_range_some h1
    have g1 := rand_int_in_range_ge h1
    have g2 := rand_int_in_range_le h1 (by omega)
    have hr := inv.rooms room.toNat (by omega)
    cases h2 : rand_int_in_range (d.rooms room.toNat).y
        ((d.rooms room.toNat).y + (d.rooms room.toNat).height - 1) rng1 with
    | none => rw [h2] at h; simp at h
    | some v2 =>
      obtain ⟨y, rng2b⟩ := v2
      rw [h2] at h
      simp only at h
      cases h3 : rand_int_in_range (d.rooms room.toNat).x
          ((d.rooms room.toNat).x + (d.rooms room.toNat).width - 1) rng2b with
      | none => rw [h3] at h; simp at h
      | some v3 =>
        obtain ⟨x, rng3⟩ := v3
        rw [h3] at h
        simp only at h
        have hi := room_point_interior hr h2 h3
        have hg := InGrid_of_interior hi
        rw [getCell_of_InGrid hg] at h
        simp only at h
        have hg2 : InGrid ({ d with player := some (y, x) } : Dungeon_T).toDungeon y x := hg
        rw [setCell_of_InGrid _ hg2] at h
        simp only [Option.some.injEq, Prod.mk.injEq] at h
        rw [← h.1]
        have inv0 : CellInv Mutable ({ d with player := some (y, x) } : Dungeon_T).toDungeon :=
          inv.cells
        have s0 : SameShape d (putCell { d with player := some (y, x) } y x
            { d.MAP y x with character := some 0 }) := ⟨rfl, rfl, rfl, rfl⟩
        exact ⟨⟨putCell_inv inv0 hi (inv.cells.inner y x hi), inv.rooms.shape s0⟩, s0⟩

/-- `place_pc` returns when the stream holds three more draws. -/
theorem place_pc_total (d : Dungeon_T) (a b c : Nat) (rest : List Nat)
    (inv : GenInv Mutable d) (hn : 1 ≤ d.num_rooms) :
    ∃ d2, place_pc d (a :: b :: c :: rest) = some (d2, rest) := by
  obtain ⟨room, e1, g1, g2⟩ := rand_int_in_range_total 0 ((d.num_rooms : Int) - 1) a
    (b :: c :: rest) (by omega)
  have hr := inv.rooms room.toNat (by omega)
  have hr2 := hr
  obtain ⟨r1, r2, r3, r4, r5, r6⟩ := hr2
  simp only [MIN_ROOM_HEIGHT, MIN_ROOM_WIDTH] at r3 r4
  obtain ⟨y, e2, _, _⟩ := rand_int_in_range_total (d.rooms room.toNat).y
    ((d.rooms room.toNat).y + (d.rooms room.toNat).height - 1) b (c :: rest) (by omega)
  obtain ⟨x, e3, _, _⟩ := rand_int_in_range_total (d.rooms room.toNat).x
    ((d.rooms room.toNat).x + (d.rooms room.toNat).width - 1) c rest (by omega)
  have hi := room_point_interior hr e2 e3
  have hg := InGrid_of_interior hi
  have hg2 : InGrid ({ d with player := some (y, x) } : Dungeon_T).toDungeon y x := hg
  unfold place_pc
  rw [e1]; simp only
  rw [e2]; simp only
  rw [e3]; simp only
  rw [getCell_of_InGrid hg]; simp only
  rw [setCell_of_InGrid _ hg2]
  exact ⟨_, rfl⟩

/-! ### The corridors -/

/-- `shuffle_int_array` keeps the entries below `n` and consumes one draw per step. -/
theorem shuffle_int_array_some (n : Nat) : ∀ (i : Nat) (arr : Nat → Nat) (rng : List Nat)
    (arr2 : Nat → Nat) (rng2 : List Nat),
    shuffle_int_array i arr rng = some (arr2, rng2) → i < n → (∀ k < n, arr k < n) →
    (∀ k < n, arr2 k < n) ∧ rng2 = rng.drop i := by
  intro i
  induction i with
  | zero =>
    intro arr rng arr2 rng2 h _ ha
    simp only [shuffle_int_array, Option.some.injEq, Prod.mk.injEq] at h
    rw [← h.1, ← h.2]
    exact ⟨ha, rfl⟩
  | succ i ih =>
    intro arr rng arr2 rng2 h hi ha
    simp only [shuffle_int_array] at h
    cases h1 : rand_int_in_range 0 ((i : Int) + 1) rng with
    | none => rw [h1] at h; simp at h
    | some v =>
      obtain ⟨swap, rng1⟩ := v
      rw [h1] at h
      simp only at h
      have g1 := rand_int_in_range_ge h1
      have g2 := rand_int_in_range_le h1 (by omega)
      obtain ⟨q1, q2⟩ := ih _ rng1 arr2 rng2 h (by omega) (fun k hk => by
        split
        · exact ha _ hi
        · split
          · exact ha _ (by omega)
          · exact ha k hk)
      refine ⟨q1, ?_⟩
      rw [q2, rand_int_in_range_length h1, List.drop_drop]
      congr 1
      omega

theorem shuffle_int_array_total : ∀ (i : Nat) (arr : Nat → Nat) (rng : List Nat),
    i ≤ rng.length → ∃ arr2, shuffle_int_array i arr rng = some (arr2, rng.drop i) := by
  intro i
  induction i with
  | zero => intro arr rng _; exact ⟨arr, rfl⟩
  | succ i ih =>
    intro arr rng hl
    cases rng with
    | nil => simp at hl
    | cons r rest =>
      obtain ⟨swap, e, _, _⟩ := rand_int_in_range_total 0 ((i : Int) + 1) r rest (by omega)
      simp only [List.length_cons] at hl
      obtain ⟨arr2, e2⟩ := ih (fun k => if k = swap.toNat then arr (i + 1)
        else if k = i + 1 then arr swap.toNat else arr k) rest (by omega)
      refine ⟨arr2, ?_⟩
      simp only [shuffle_int_array, e]
      rw [e2]
      rfl

theorem SmallGrid_shape {d1 d2 : Dungeon_T} (s : SameShape d1 d2) (h : SmallGrid d1.toDungeon) :
    SmallGrid d2.toDungeon := by
  unfold SmallGrid at h ⊢
  rw [s.height, s.width]
  exact h

theorem FuelOk_shape {d1 d2 : Dungeon_T} {fuel : Nat} (s : SameShape d1 d2)
    (h : FuelOk d1.toDungeon fuel) : FuelOk d2.toDungeon fuel := by
  unfold FuelOk at h ⊢
  rw [s.height, s.width]
  exact h

/-- The connecting loop keeps the border, hardness values in `0..254` and the room
records. -/
theorem generate_corridors_loop_some (fuel : Nat) (m0 : Mem) (v0 : Nat → Vertex)
    (c0 : Nat → Int) (shuffle : Nat → Nat) : ∀ (is : List Nat) (d : Dungeon_T)
    (rng : List Nat) (d2 : Dungeon_T) (rng2 : List Nat),
    generate_corridors_loop fuel m0 v0 c0 shuffle is d rng = some (d2, rng2) →
    GenInv Mutable d → SmallGrid d.toDungeon → FuelOk d.toDungeon fuel →
    (∀ i ∈ is, shuffle i < d.num_rooms ∧ shuffle (i + 1) < d.num_rooms) →
    GenInv Mutable d2 ∧ SameShape d d2 := by
  intro is
  induction is with
  | nil =>
    intro d rng d2 rng2 h inv _ _ _
    simp only [generate_corridors_loop, Option.some.injEq, Prod.mk.injEq] at h
    rw [← h.1]
    exact ⟨inv, SameShape.refl d⟩
  | cons i is ih =>
    intro d rng d2 rng2 h inv hsm hf hsh
    obtain ⟨hi1, hi2⟩ := hsh i (List.mem_cons_self _ _)
    have hr1 := inv.rooms _ hi1
    have hr2 := inv.rooms _ hi2
    simp only [generate_corridors_loop] at h
    cases h1 : rand_int_in_range (d.rooms (shuffle i)).y
        ((d.rooms (shuffle i)).y + (d.rooms (shuffle i)).height - 1) rng with
    | none => rw [h1] at h; simp at h
    | some v1 =>
      obtain ⟨sy, rng1⟩ := v1
      rw [h1] at h
      simp only at h
      cases h2 : rand_int_in_range (d.rooms (shuffle i)).x
          ((d.rooms (shuffle i)).x + (d.rooms (shuffle i)).width - 1) rng1 with
      | none => rw [h2] at h; simp at h
      | some v2 =>
        obtain ⟨sx, rng2b⟩ := v2
        rw [h2] at h
        simp only at h
        cases h3 : rand_int_in_range (d.rooms (shuffle (i + 1))).y
            ((d.rooms (shuffle (i + 1))).y + (d.rooms (shuffle (i + 1))).height - 1) rng2b with
        | none => rw [h3] at h; simp at h
        | some v3 =>
          obtain ⟨ty, rng3⟩ := v3
          rw [h3] at h
          simp only at h
          cases h4 : rand_int_in_range (d.rooms (shuffle (i + 1))).x
              ((d.rooms (shuffle (i + 1))).x + (d.rooms (shuffle (i + 1))).width - 1) rng3 with
          | none => rw [h4] at h; simp at h
          | some v4 =>
            obtain ⟨tx, rng4⟩ := v4
            rw [h4] at h
            simp only at h
            obtain ⟨d1, e1, inv1, s1⟩ := paint_corridor_spec fuel m0 v0 c0 d sy sx ty tx
              inv.cells hsm hf (room_point_interior hr1 h1 h2) (room_point_interior hr2 h3 h4)
            rw [e1] at h
            simp only at h
            obtain ⟨inv2, s2⟩ := ih d1 rng4 d2 rng2 h ⟨inv1, inv.rooms.shape s1⟩
              (SmallGrid_shape s1 hsm) (FuelOk_shape s1 hf)
              (fun k hk => by
                rw [s1.num_rooms]
                exact hsh k (List.mem_cons_of_mem _ hk))
            exact ⟨inv2, s1.shapeTrans s2⟩

/-- The connecting loop returns when the stream holds four draws per corridor. -/
theorem generate_corridors_loop_total (fuel : Nat) (m0 : Mem) (v0 : Nat → Vertex)
    (c0 : Nat → Int) (shuffle : Nat → Nat) : ∀ (is : List Nat) (d : Dungeon_T)
    (rng : List Nat),
    GenInv Mutable d → SmallGrid d.toDungeon → FuelOk d.toDungeon fuel →
    (∀ i ∈ is, shuffle i < d.num_rooms ∧ shuffle (i + 1) < d.num_rooms) →
    4 * is.length ≤ rng.length →
    ∃ d2, generate_corridors_loop fuel m0 v0 c0 shuffle is d rng =
      some (d2, rng.drop (4 * is.length)) := by
  intro is
  induction is with
  | nil => intro d rng _ _ _ _ _; exact ⟨d, rfl⟩
  | cons i is ih =>
    intro d rng inv hsm hf hsh hl
    obtain ⟨hi1, hi2⟩ := hsh i (List.mem_cons_self _ _)
    have hr1 := inv.rooms _ hi1
    have hr2 := inv.rooms _ hi2
    have q1 := hr1
    have q2 := hr2
    obtain ⟨_, _, a3, a4, _, _⟩ := q1
    obtain ⟨_, _, b3, b4, _, _⟩ := q2
    simp only [MIN_ROOM_HEIGHT, MIN_ROOM_WIDTH] at a3 a4 b3 b4
    simp only [List.length_cons] at hl
    match rng, hl with
    | a :: b :: c :: e :: rest, hl =>
      simp only [List.length_cons] at hl
      obtain ⟨sy, h1, _, _⟩ := rand_int_in_range_total (d.rooms (shuffle i)).y
        ((d.rooms (shuffle i)).y + (d.rooms (shuffle i)).height - 1) a (b :: c :: e :: rest)
        (by omega)
      obtain ⟨sx, h2, _, _⟩ := rand_int_in_range_total (d.rooms (shuffle i)).x
        ((d.rooms (shuffle i)).x + (d.rooms (shuffle i)).width - 1) b (c :: e :: rest)
        (by omega)
      obtain ⟨ty, h3, _, _⟩ := rand_int_in_range_total (d.rooms (shuffle (i + 1))).y
        ((d.rooms (shuffle (i + 1))).y + (d.rooms (shuffle (i + 1))).height - 1) c (e :: rest)
        (by omega)
      obtain ⟨tx, h4, _, _⟩ := rand_int_in_range_total (d.rooms (shuffle (i + 1))).x
        ((d.rooms (shuffle (i + 1))).x + (d.rooms (shuffle (i + 1))).width - 1) e rest
        (by omega)
      obtain ⟨d1, e1, inv1, s1⟩ := paint_corridor_spec fuel m0 v0 c0 d sy sx ty tx
        inv.cells hsm hf (room_point_interior hr1 h1 h2) (room_point_interior hr2 h3 h4)
      obtain ⟨d2, e2⟩ := ih d1 rest ⟨inv1, inv.rooms.shape s1⟩
        (SmallGrid_shape s1 hsm) (FuelOk_shape s1 hf)
        (fun k hk => by
          rw [s1.num_rooms]
          exact hsh k (List.mem_cons_of_mem _ hk)) (by omega)
      refine ⟨d2, ?_⟩
      simp only [generate_corridors_loop, h1, h2, h3, h4, e1, e2]
      congr 2

theorem shuffle_range {n : Nat} {shuffle : Nat → Nat} (h : ∀ k < n, shuffle k < n) :
    ∀ i ∈ List.range (n - 1), shuffle i < n ∧ shuffle (i + 1) < n := by
  intro i hi
  have := List.mem_range.mp hi
  exact ⟨h i (by omega), h (i + 1) (by omega)⟩

/-- `generate_corridors` keeps the border, hardness values in `0..254` and the room
records. -/
theorem generate_corridors_some {fuel : Nat} {m0 : Mem} {v0 : Nat → Vertex} {c0 : Nat → Int}
    {d d2 : Dungeon_T} {rng rng2 : List Nat}
    (h : generate_corridors fuel m0 v0 c0 d rng = some (d2, rng2)) (inv : GenInv Mutable d)
    (hsm : SmallGrid d.toDungeon) (hf : FuelOk d.toDungeon fuel) :
    GenInv Mutable d2 ∧ SameShape d d2 := by
  unfold generate_corridors at h
  cases h1 : shuffle_int_array (d.num_rooms - 1) (fun i => i) rng with
  | none => rw [h1] at h; simp at h
  | some v =>
    obtain ⟨shuffle, rng1⟩ := v
    rw [h1] at h
    simp only at h
    by_cases hn : d.num_rooms = 0
    · rw [hn] at h
      simp only [Nat.zero_sub, List.range_zero, generate_corridors_loop, Option.some.injEq,
        Prod.mk.injEq] at h
      rw [← h.1]
      exact ⟨inv, SameShape.refl d⟩
    · obtain ⟨q, _⟩ := shuffle_int_array_some d.num_rooms _ _ _ _ _ h1 (by omega)
        (fun k hk => hk)
      exact generate_corridors_loop_some fuel m0 v0 c0 shuffle _ d rng1 d2 rng2 h inv hsm hf
        (shuffle_range q)

/-- `generate_corridors` returns when the stream holds five draws per corridor. -/
theorem generate_corridors_total (fuel : Nat) (m0 : Mem) (v0 : Nat → Vertex) (c0 : Nat → Int)
    (d : Dungeon_T) (rng : List Nat) (inv : GenInv Mutable d)
    (hsm : SmallGrid d.toDungeon) (hf : FuelOk d.toDungeon fuel) (hn : 1 ≤ d.num_rooms)
    (hl : 5 * (d.num_rooms - 1) ≤ rng.length) :
    ∃ d2, generate_corridors fuel m0 v0 c0 d rng = some (d2, rng.drop (5 * (d.num_rooms - 1))) := by
  obtain ⟨shuffle, e1⟩ := shuffle_int_array_total (d.num_rooms - 1) (fun i => i) rng (by omega)
  obtain ⟨q, _⟩ := shuffle_int_array_some d.num_rooms _ _ _ _ _ e1 (by omega) (fun k hk => hk)
  obtain ⟨d2, e2⟩ := generate_corridors_loop_total fuel m0 v0 c0 shuffle
    (List.range (d.num_rooms - 1)) d (rng.drop (d.num_rooms - 1)) inv hsm hf (shuffle_range q)
    (by rw [List.length_range, List.length_drop]; omega)
  refine ⟨d2, ?_⟩
  unfold generate_corridors
  rw [e1]
  simp only
  rw [e2, List.length_range, List.drop_drop]
  congr 3
  omega

theorem set_immutable_dims {d d2 : Dungeon_T} {a b : Int} (h : set_immutable d a b = some d2) :
    SameDims d d2 := by
  unfold set_immutable at h
  cases h1 : getCell d.toDungeon a b with
  | none => rw [h1] at h; cases h
  | some c =>
    rw [h1] at h
    simp only at h
    rw [setCell_some h]
    exact ⟨rfl, rfl⟩

theorem border_sides_dims : ∀ (is : List Int) (d d2 : Dungeon_T),
    border_sides is d = some d2 → SameDims d d2
  | [], d, d2, h => by
    simp only [border_sides, Option.some.injEq] at h
    rw [← h]
    exact ⟨rfl, rfl⟩
  | i :: is, d, d2, h => by
    simp only [border_sides] at h
    cases h1 : set_immutable d i 0 with
    | none => rw [h1] at h; cases h
    | some d1 =>
      rw [h1] at h
      simp only at h
      cases h2 : set_immutable d1 i ((d.width : Int) - 1) with
      | none => rw [h2] at h; cases h
      | some d3 =>
        rw [h2] at h
        simp only at h
        exact ((set_immutable_dims h1).dimsTrans (set_immutable_dims h2)).dimsTrans
          (border_sides_dims is d3 d2 h)

theorem border_ends_dims : ∀ (is : List Int) (d d2 : Dungeon_T),
    border_ends is d = some d2 → SameDims d d2
  | [], d, d2, h => by
    simp only [border_ends, Option.some.injEq] at h
    rw [← h]
    exact ⟨rfl, rfl⟩
  | i :: is, d, d2, h => by
    simp only [border_ends] at h
    cases h1 : set_immutable d 0 i with
    | none => rw [h1] at h; cases h
    | some d1 =>
      rw [h1] at h
      simp only at h
      cases h2 : set_immutable d1 ((d.height : Int) - 1) i with
      | none => rw [h2] at h; cases h
      | some d3 =>
        rw [h2] at h
        simp only at h
        exact ((set_immutable_dims h1).dimsTrans (set_immutable_dims h2)).dimsTrans
          (border_ends_dims is d3 d2 h)

theorem generate_dungeon_border_dims {d d2 : Dungeon_T}
    (h : generate_dungeon_border d = some d2) : SameDims d d2 := by
  unfold generate_dungeon_border at h
  cases h1 : border_sides (intRange 1 (d.height - 2)) d with
  | none => rw [h1] at h; cases h
  | some d1 =>
    rw [h1] at h
    simp only at h
    exact (border_sides_dims _ _ _ h1).dimsTrans (border_ends_dims _ _ _ h)

/-- The inner loop of `randomize_hardness` returns on in-grid cells when the stream holds
one draw per cell, and consumes at most that many. -/
theorem randomize_hardness_row_total (i : Int) : ∀ (js : List Int) (d : Dungeon_T)
    (rng : List Nat), (∀ j ∈ js, InGrid d.toDungeon i j) → js.length ≤ rng.length →
    ∃ d2 k, k ≤ js.length ∧ randomize_hardness_row i js d rng = some (d2, rng.drop k) ∧
      SameDims d d2
  | [], d, rng, _, _ => ⟨d, 0, le_refl _, rfl, rfl, rfl⟩
  | j :: js, d, rng, hint, hl => by
    have hg := hint j (List.mem_cons_self _ _)
    simp only [List.length_cons] at hl
    simp only [randomize_hardness_row, getCell_of_InGrid hg]
    split
    · match rng, hl with
      | r :: rest, hl =>
        simp only [List.length_cons] at hl
        obtain ⟨v, e1, _, _⟩ := rand_int_in_range_total MIN_ROCK_HARDNESS MAX_ROCK_HARDNESS r
          rest (by decide)
        rw [e1]
        simp only [setCell_of_InGrid _ hg]
        obtain ⟨d2, k, hk, e2, s2⟩ := randomize_hardness_row_total i js
          (putCell d i j { d.MAP i j with hardness := (d.MAP i j).hardness + v }) rest
          (fun j2 hj2 => hint j2 (List.mem_cons_of_mem _ hj2)) (by omega)
        exact ⟨d2, k + 1, by simp only [List.length_cons]; omega, by rw [e2]; rfl,
          SameDims.dimsTrans ⟨rfl, rfl⟩ s2⟩
    · obtain ⟨d2, k, hk, e2, s2⟩ := randomize_hardness_row_total i js d rng
        (fun j2 hj2 => hint j2 (List.mem_cons_of_mem _ hj2)) (by omega)
      exact ⟨d2, k, by simp only [List.length_cons]; omega, e2, s2⟩

theorem InGrid_dims {d1 d2 : Dungeon_T} (s : SameDims d1 d2) {y x : Int}
    (h : InGrid d1.toDungeon y x) : InGrid d2.toDungeon y x := by
  unfold InGrid at h ⊢
  rw [s.1, s.2]
  exact h

theorem randomize_hardness_rows_total (cols : List Int) : ∀ (is : List Int) (d : Dungeon_T)
    (rng : List Nat), (∀ i ∈ is, ∀ j ∈ cols, InGrid d.toDungeon i j) →
    is.length * cols.length ≤ rng.length →
    ∃ d2 k, k ≤ is.length * cols.length ∧
      randomize_hardness_rows cols is d rng = some (d2, rng.drop k)
  | [], d, rng, _, _ => ⟨d, 0, Nat.zero_le _, rfl⟩
  | i :: is, d, rng, hint, hl => by
    simp only [List.length_cons, Nat.add_mul, Nat.one_mul] at hl
    obtain ⟨d1, k1, hk1, e1, s1⟩ := randomize_hardness_row_total i cols d rng
      (hint i (List.mem_cons_self _ _)) (by omega)
    obtain ⟨d2, k2, hk2, e2⟩ := randomize_hardness_rows_total cols is d1 (rng.drop k1)
      (fun i2 hi2 j hj => InGrid_dims s1 (hint i2 (List.mem_cons_of_mem _ hi2) j hj))
      (by rw [List.length_drop]; omega)
    refine ⟨d2, k1 + k2, by simp only [List.length_cons, Nat.add_mul, Nat.one_mul]; omega, ?_⟩
    simp only [randomize_hardness_rows, e1, e2, List.drop_drop]

/-- `randomize_hardness` returns when the stream holds one draw per interior cell, and
consumes at most that many. -/
theorem randomize_hardness_total (d : Dungeon_T) (rng : List Nat)
    (hl : (d.height - 2) * (d.width - 2) ≤ rng.length) :
    ∃ d2 k, k ≤ (d.height - 2) * (d.width - 2) ∧
      randomize_hardness d rng = some (d2, rng.drop k) := by
  have hlen : ∀ (lo : Int) (n : Nat), (intRange lo n).length = n := by
    intro lo n; simp [intRange]
  obtain ⟨d2, k, hk, e⟩ := randomize_hardness_rows_total (intRange 1 (d.width - 2))
    (intRange 1 (d.height - 2)) d rng
    (fun i hi j hj => by
      have := mem_intRange.mp hi
      have := mem_intRange.mp hj
      unfold InGrid
      omega) (by rw [hlen, hlen]; exact hl)
  rw [hlen, hlen] at hk
  exact ⟨d2, k, hk, e⟩

/-- The stages of a returning run of `new_dungeon`: the dungeon that leaves the retry loop
satisfies the invariant of the generator, and the later stages keep the border, the
dimensions and the room records. -/
theorem new_dungeon_some {fuel : Nat} {m0 : Mem} {v0 : Nat → Vertex} {c0 : Nat → Int}
    {height width : Nat} {min_rooms max_rooms : Int} {covered : Nat → Nat → Bool}
    {rng : List Nat} {d : Dungeon_T}
    (h : new_dungeon fuel m0 v0 c0 height width min_rooms max_rooms covered rng = some d)
    (hsm : 7 * ((((height - 2) * (width - 2) : Nat) : Int) + 1) < INT_MAX)
    (hf : 7 * ((height - 2) * (width - 2)) < fuel) :
    ∃ d0 d1 rng1, generate_dungeon_border (init_dungeon height width) = some d0 ∧
      new_dungeon_loop fuel min_rooms max_rooms covered (FAILED_DUNGEON_GENERATION.toNat + 2) 0
        d0 rng = some (d1, rng1) ∧
      GenInv Soft d1 ∧ GenInv Mutable d ∧ d.height = height ∧ d.width = width ∧
      d.rooms = d1.rooms ∧ d.num_rooms = d1.num_rooms := by
  unfold new_dungeon at h
  cases hb : generate_dungeon_border (init_dungeon height width) with
  | none => rw [hb] at h; cases h
  | some d0 =>
    rw [hb] at h
    simp only at h
    cases hl : new_dungeon_loop fuel min_rooms max_rooms covered
        (FAILED_DUNGEON_GENERATION.toNat + 2) 0 d0 rng with
    | none => rw [hl] at h; cases h
    | some p1 =>
      obtain ⟨d1, rng1⟩ := p1
      rw [hl] at h
      simp only at h
      cases hr : randomize_hardness { d1 with rooms_size := d1.num_rooms } rng1 with
      | none => rw [hr] at h; cases h
      | some p2 =>
        obtain ⟨d2, rng2⟩ := p2
        rw [hr] at h
        simp only at h
        cases hc : generate_corridors fuel m0 v0 c0 d2 rng2 with
        | none => rw [hc] at h; cases h
        | some p3 =>
          obtain ⟨d3, rng3⟩ := p3
          rw [hc] at h
          simp only at h
          cases hs : place_stairs fuel d3 rng3 with
          | none => rw [hs] at h; cases h
          | some p4 =>
            obtain ⟨d4, rng4⟩ := p4
            rw [hs] at h
            simp only at h
            cases hp : place_pc d4 rng4 with
            | none => rw [hp] at h; cases h
            | some p5 =>
              obtain ⟨d5, rng5⟩ := p5
              rw [hp] at h
              simp only [Option.some.injEq] at h
              subst h
              have dims0 := generate_dungeon_border_dims hb
              have hQ : ∀ c : Cell, Soft { c with type := .ROOM, hardness := OPEN_SPACE_HARDNESS } :=
                fun _ => rfl
              obtain ⟨dims1, hsp, hinv⟩ := new_dungeon_loop_spec hQ _ _ _ _ _ _ hl
              have e0h : d0.height = height := dims0.1
              have e0w : d0.width = width := dims0.2
              obtain ⟨p1, p2, _⟩ := hsp
              simp only [rootPartition] at p1 p2
              rw [e0h] at p1
              rw [e0w] at p2
              obtain ⟨d0b, hb2, _, inv0⟩ := generate_dungeon_border_spec height width
                (by omega) (by omega)
              rw [hb] at hb2
              simp only [Option.some.injEq] at hb2
              subst hb2
              have inv1 := hinv inv0
              have inv1b : GenInv Soft { d1 with rooms_size := d1.num_rooms } :=
                ⟨inv1.cells, inv1.rooms⟩
              obtain ⟨inv2, s2⟩ := randomize_hardness_spec hr inv1b
              have h2h : d2.height = height := by
                rw [s2.height]; exact dims1.1.trans e0h
              have h2w : d2.width = width := by
                rw [s2.width]; exact dims1.2.trans e0w
              have hsm2 : SmallGrid d2.toDungeon := by
                unfold SmallGrid; rw [h2h, h2w]; exact hsm
              have hf2 : FuelOk d2.toDungeon fuel := by
                unfold FuelOk; rw [h2h, h2w]; exact hf
              obtain ⟨inv3, s3⟩ := generate_corridors_some hc inv2 hsm2 hf2
              obtain ⟨inv4, s4⟩ := place_stairs_some hs inv3
              obtain ⟨inv5, s5⟩ := place_pc_some hp inv4
              have s := (s2.shapeTrans s3).shapeTrans (s4.shapeTrans s5)
              exact ⟨d0, d1, rng1, rfl, hl, inv1, inv5, s.height.trans (dims1.1.trans e0h),
                s.width.trans (dims1.2.trans e0w), s.rooms, s.num_rooms⟩

/-- What the later stages of `new_dungeon` need from the stream that is left after
`randomize_hardness`: five draws per corridor, six for the stairs with distinct rooms on the
first try, and three for the player. -/
def StreamOk (n : Nat) (l : List Nat) : Prop :=
  5 * (n - 1) + 9 ≤ l.length ∧
    Int.tmod ((l.getD (5 * (n - 1)) 0 : Nat) : Int) n ≠
      Int.tmod ((l.getD (5 * (n - 1) + 3) 0 : Nat) : Int) n

instance (n : Nat) (l : List Nat) : Decidable (StreamOk n l) := by
  unfold StreamOk; infer_instance

theorem drop_nine (l : List Nat) (m : Nat) (h : m + 9 ≤ l.length) :
    ∃ b c f g p q r rest, l.drop m =
      l.getD m 0 :: b :: c :: l.getD (m + 3) 0 :: f :: g :: p :: q :: r :: rest := by
  have hlen : 9 ≤ (l.drop m).length := by rw [List.length_drop]; omega
  have e0 : l.getD m 0 = (l.drop m).getD 0 0 := by
    simp [List.getD_eq_getElem?_getD, List.getElem?_drop]
  have e3 : l.getD (m + 3) 0 = (l.drop m).getD 3 0 := by
    simp [List.getD_eq_getElem?_getD, List.getElem?_drop]
  rw [e0, e3]
  generalize l.drop m = t at hlen
  match t, hlen with
  | a :: b :: c :: e :: f :: g :: p :: q :: r :: rest, _ =>
    exact ⟨b, c, f, g, p, q, r, rest, rfl⟩

/-- The later stages of `new_dungeon` return on a stream that is long enough. -/
theorem new_dungeon_total (fuel : Nat) (m0 : Mem) (v0 : Nat → Vertex) (c0 : Nat → Int)
    (height width : Nat) (min_rooms max_rooms : Int) (covered : Nat → Nat → Bool)
    (rng : List Nat) (d0 d1 : Dungeon_T) (rng1 : List Nat)
    (hb : generate_dungeon_border (init_dungeon height width) = some d0)
    (hl : new_dungeon_loop fuel min_rooms max_rooms covered
      (FAILED_DUNGEON_GENERATION.toNat + 2) 0 d0 rng = some (d1, rng1))
    (hsm : 7 * ((((height - 2) * (width - 2) : Nat) : Int) + 1) < INT_MAX)
    (hf : 7 * ((height - 2) * (width - 2)) < fuel) (hn : 1 ≤ d1.num_rooms)
    (hlen : (height - 2) * (width - 2) ≤ rng1.length)
    (hs : ∀ k ≤ (height - 2) * (width - 2), StreamOk d1.num_rooms (rng1.drop k)) :
    ∃ d, new_dungeon fuel m0 v0 c0 height width min_rooms max_rooms covered rng = some d := by
  have dims0 := generate_dungeon_border_dims hb
  have hQ : ∀ c : Cell, Soft { c with type := .ROOM, hardness := OPEN_SPACE_HARDNESS } :=
    fun _ => rfl
  obtain ⟨dims1, hsp, hinv⟩ := new_dungeon_loop_spec hQ _ _ _ _ _ _ hl
  have e0h : d0.height = height := dims0.1
  have e0w : d0.width = width := dims0.2
  obtain ⟨p1, p2, _⟩ := hsp
  simp only [rootPartition] at p1 p2
  rw [e0h] at p1
  rw [e0w] at p2
  obtain ⟨d0b, hb2, _, inv0⟩ := generate_dungeon_border_spec height width (by omega) (by omega)
  rw [hb] at hb2
  simp only [Option.some.injEq] at hb2
  subst hb2
  have inv1 := hinv inv0
  have inv1b : GenInv Soft { d1 with rooms_size := d1.num_rooms } := ⟨inv1.cells, inv1.rooms⟩
  have e1h : d1.height = height := dims1.1.trans e0h
  have e1w : d1.width = width := dims1.2.trans e0w
  obtain ⟨d2, k, hk, hr⟩ := randomize_hardness_total { d1 with rooms_size := d1.num_rooms } rng1
    (by show (d1.height - 2) * (d1.width - 2) ≤ rng1.length; rw [e1h, e1w]; exact hlen)
  have hk2 : k ≤ (height - 2) * (width - 2) := by
    have : k ≤ (d1.height - 2) * (d1.width - 2) := hk
    rw [e1h, e1w] at this
    exact this
  obtain ⟨inv2, s2⟩ := randomize_hardness_spec hr inv1b
  have n2 : d2.num_rooms = d1.num_rooms := s2.num_rooms
  have h2h : d2.height = height := by rw [s2.height]; exact e1h
  have h2w : d2.width = width := by rw [s2.width]; exact e1w
  have hsm2 : SmallGrid d2.toDungeon := by unfold SmallGrid; rw [h2h, h2w]; exact hsm
  have hf2 : FuelOk d2.toDungeon fuel := by unfold FuelOk; rw [h2h, h2w]; exact hf
  obtain ⟨q1, q2⟩ := hs k hk2
  obtain ⟨d3, hc⟩ := generate_corridors_total fuel m0 v0 c0 d2 (rng1.drop k) inv2 hsm2 hf2
    (by omega) (by rw [n2]; omega)
  obtain ⟨inv3, s3⟩ := generate_corridors_some hc inv2 hsm2 hf2
  have n3 : d3.num_rooms = d1.num_rooms := s3.num_rooms.trans n2
  obtain ⟨b, c, f, g, p, q, r, rest, hd⟩ := drop_nine (rng1.drop k) (5 * (d1.num_rooms - 1)) q1
  rw [n2, hd] at hc
  obtain ⟨d4, hst⟩ := place_stairs_total fuel d3 _ b c _ f g (p :: q :: r :: rest) inv3
    (by omega) (by omega) (by rw [n3]; exact q2)
  obtain ⟨inv4, s4⟩ := place_stairs_some hst inv3
  obtain ⟨d5, hp⟩ := place_pc_total d4 p q r rest inv4 (by rw [s4.num_rooms]; omega)
  refine ⟨d5, ?_⟩
  unfold new_dungeon
  rw [hb]
  simp only
  rw [hl]
  simp only
  rw [hr]
  simp only
  rw [hc]
  simp only
  rw [hst]
  simp only
  rw [hp]

/-! ### A returning run of `new_dungeon` with a rejected first attempt -/

/-- The coverage test `count / cells > 0.3` of `is_room_percentage_covered`. -/
def exCovered : Nat → Nat → Bool := fun count cells => decide (10 * count > 3 * cells)

/-- The draws left when the retry loop is done. -/
def exTail : List Nat := (List.range 256).map (fun k => k % 2)

/-- A stream of draws: the first attempt places two rooms of four rows, which cover too
little of the grid; the second attempt places two rooms of seven rows over them. -/
def exStream : List Nat := [0, 0, 0, 0, 0, 0, 0, 0, 0, 0, 0, 0, 3, 0, 0, 0, 3, 0] ++ exTail

/-- The grid of 9 rows and 28 columns after `generate_dungeon_border`. -/
def exBorder : Dungeon_T :=
  (generate_dungeon_border (init_dungeon 9 28)).getD (init_dungeon 9 28)

theorem exBorder_spec : generate_dungeon_border (init_dungeon 9 28) = some exBorder := by
  obtain ⟨d0, e, _⟩ := generate_dungeon_border_spec 9 28 (by decide) (by decide)
  unfold exBorder
  rw [e]
  rfl

set_option maxRecDepth 100000 in
theorem exLoop_spec :
    (new_dungeon_loop 2000 2 4 exCovered (FAILED_DUNGEON_GENERATION.toNat + 2) 0 exBorder
      exStream).map (fun p => (p.1.num_rooms, p.1.rooms 0, p.1.rooms 2, p.2)) =
    some (4, ⟨1, 1, 4, 7⟩, ⟨1, 1, 7, 7⟩, exTail) := by
  decide

set_option maxRecDepth 100000 in
theorem exTail_ok : ∀ k ≤ (9 - 2) * (28 - 2), StreamOk 4 (exTail.drop k) := by
  decide

/-- The run of `new_dungeon` on `exStream` returns; the room records of the rejected first
attempt are still in the array. -/
theorem exRun : ∃ d, new_dungeon 2000 Mem.empty exVertices (fun _ => 0) 9 28 2 4 exCovered
    exStream = some d ∧ d.num_rooms = 4 ∧ d.rooms 0 = ⟨1, 1, 4, 7⟩ ∧
    d.rooms 2 = ⟨1, 1, 7, 7⟩ := by
  have hl := exLoop_spec
  cases hl1 : new_dungeon_loop 2000 2 4 exCovered (FAILED_DUNGEON_GENERATION.toNat + 2) 0
      exBorder exStream with
  | none => rw [hl1] at hl; cases hl
  | some p =>
    obtain ⟨d1, rng1⟩ := p
    rw [hl1] at hl
    simp only [Option.map_some', Option.some.injEq, Prod.mk.injEq] at hl
    obtain ⟨n1, r0, r2, e1⟩ := hl
    obtain ⟨d, hd⟩ := new_dungeon_total 2000 Mem.empty exVertices (fun _ => 0) 9 28 2 4
      exCovered exStream exBorder d1 rng1 exBorder_spec hl1 (by decide) (by decide)
      (by rw [n1]; decide) (by rw [e1]; simp [exTail]) (by rw [n1, e1]; exact exTail_ok)
    obtain ⟨d0, d1b, rng1b, hb, hl2, _, _, _, _, er, en⟩ :=
      new_dungeon_some hd (by decide) (by decide)
    rw [exBorder_spec] at hb
    simp only [Option.some.injEq] at hb
    subst hb
    rw [hl1] at hl2
    simp only [Option.some.injEq, Prod.mk.injEq] at hl2
    obtain ⟨e2, _⟩ := hl2
    subst e2
    exact ⟨d, hd, en.trans n1, by rw [er]; exact r0, by rw [er]; exact r2⟩

/-- C9: whenever `new_dungeon` returns (on a grid small enough for path costs to fit in an
`int`, the loops without a counter being given enough fuel to finish), the returned dungeon
has the requested dimensions and every cell in row 0, row `height - 1`, column 0 and column
`width - 1` has hardness 255 and type Rock. -/
theorem new_dungeon_border_immutable (fuel : Nat) (m0 : Mem) (v0 : Nat → Vertex)
    (c0 : Nat → Int) (height width : Nat) (min_rooms max_rooms : Int)
    (covered : Nat → Nat → Bool) (rng : List Nat) (d : Dungeon_T)
    (hsm : 7 * ((((height - 2) * (width - 2) : Nat) : Int) + 1) < INT_MAX)
    (hf : 7 * ((height - 2) * (width - 2)) < fuel)
    (h : new_dungeon fuel m0 v0 c0 height width min_rooms max_rooms covered rng = some d) :
    d.height = height ∧ d.width = width ∧
    ∀ y x : Int, 0 ≤ y → y < height → 0 ≤ x → x < width →
      (y = 0 ∨ y = (height : Int) - 1 ∨ x = 0 ∨ x = (width : Int) - 1) →
      (d.MAP y x).hardness = 255 ∧ (d.MAP y x).type = .ROCK := by
  obtain ⟨_, _, _, _, _, _, inv, eh, ew, _, _⟩ := new_dungeon_some h hsm hf
  refine ⟨eh, ew, ?_⟩
  intro y x y0 y1 x0 x1 hb
  have hg : InGrid d.toDungeon y x := by
    unfold InGrid; rw [eh, ew]; omega
  have hni : ¬ Interior d.toDungeon y x := by
    unfold Interior; rw [eh, ew]; omega
  have := inv.cells.border y x hg hni
  exact ⟨this.2, this.1⟩

theorem new_dungeon_border_immutable_witness :
    ∃ d, 7 * (((((9 : Nat) - 2) * ((28 : Nat) - 2) : Nat) : Int) + 1) < INT_MAX ∧
    7 * (((9 : Nat) - 2) * ((28 : Nat) - 2)) < 2000 ∧
    new_dungeon 2000 Mem.empty exVertices (fun _ => 0) 9 28 2 4 exCovered exStream = some d ∧
    d.height = 9 ∧ d.width = 28 ∧
    ∀ y x : Int, 0 ≤ y → y < (9 : Nat) → 0 ≤ x → x < (28 : Nat) →
      (y = 0 ∨ y = ((9 : Nat) : Int) - 1 ∨ x = 0 ∨ x = ((28 : Nat) : Int) - 1) →
      (d.MAP y x).hardness = 255 ∧ (d.MAP y x).type = .ROCK := by
  obtain ⟨d, hd, _⟩ := exRun
  exact ⟨d, by decide, by decide, hd,
    new_dungeon_border_immutable 2000 Mem.empty exVertices (fun _ => 0) 9 28 2 4 exCovered
      exStream d (by decide) (by decide) hd⟩

/-- The cell `(y, x)` belongs to the room. -/
def inRoom (r : Room_T) (y x : Int) : Prop :=
  r.y ≤ y ∧ y < r.y + r.height ∧ r.x ≤ x ∧ x < r.x + r.width

/-- The two rooms are disjoint and no cell of one is orthogonally or diagonally adjacent to
a cell of the other. -/
def RoomsApart (r s : Room_T) : Prop :=
  ∀ y x y2 x2 : Int, inRoom r y x → inRoom s y2 x2 → 1 < |y - y2| ∨ 1 < |x - x2|

/-- C10: a run of `new_dungeon` that returns a dungeon in which two distinct recorded rooms
overlap. On a grid of 9 rows and 28 columns with 2 to 4 rooms and a coverage of 0.3, the
first attempt places two rooms of four rows and is rejected for its coverage; the loop keeps
the map and the room count, and the second attempt places two rooms of seven rows over
them. -/
theorem new_dungeon_rooms_overlap :
    ∃ d, new_dungeon 2000 Mem.empty exVertices (fun _ => 0) 9 28 2 4 exCovered exStream =
        some d ∧
      ∃ a b, a < d.num_rooms ∧ b < d.num_rooms ∧ a ≠ b ∧
        ¬ RoomsApart (d.rooms a) (d.rooms b) := by
  obtain ⟨d, hd, n, r0, r2⟩ := exRun
  refine ⟨d, hd, 0, 2, by omega, by omega, by omega, ?_⟩
  intro hap
  have := hap 1 1 1 1 (by rw [r0]; unfold inRoom; decide) (by rw [r2]; unfold inRoom; decide)
  simp at this

/-! ### The walker of `paint_corridor` -/

/-- The roll-downhill loop of `paint_corridor` together with the cells the walker steps
onto, in order. -/
def roll_trace (cost : Nat → Int) (src_y src_x : Int) :
    Nat → Dungeon_T → Int → Int → Option (Dungeon_T × List (Int × Int))
  | fuel, d, i, j =>
    if i ≠ src_y ∨ j ≠ src_x then
      match fuel with
      | 0 => none
      | fuel + 1 =>
        match getCost d.toDungeon cost (i - 1) j, getCost d.toDungeon cost (i + 1) j,
            getCost d.toDungeon cost i (j - 1), getCost d.toDungeon cost i (j + 1) with
        | some up, some down, some left, some right =>
          let i1 := (travel i j (pick_direction up down left right)).1
          let j1 := (travel i j (pick_direction up down left right)).2
          match getCell d.toDungeon i1 j1 with
          | none => none
          | some c =>
            if c.type = .ROCK then
              match setCell d i1 j1 { c with type := .CORRIDOR, hardness := OPEN_SPACE_HARDNESS } with
              | none => none
              | some d1 =>
                (roll_trace cost src_y src_x fuel d1 i1 j1).map (fun r => (r.1, (i1, j1) :: r.2))
            else (roll_trace cost src_y src_x fuel d i1 j1).map (fun r => (r.1, (i1, j1) :: r.2))
        | _, _, _, _ => none
    else some (d, [])

/-- The trace does not change what the loop computes. -/
theorem roll_trace_fst (D : Nat → Int) (sy sx : Int) : ∀ (fuel : Nat) (d : Dungeon_T)
    (i j : Int), (roll_trace D sy sx fuel d i j).map Prod.fst = roll_downhill D sy sx fuel d i j := by
  intro fuel
  induction fuel with
  | zero =>
    intro d i j
    rw [roll_trace, roll_downhill]
    split <;> rfl
  | succ fuel ih =>
    intro d i j
    rw [roll_trace, roll_downhill]
    split
    · simp only
      cases getCost d.toDungeon D (i - 1) j <;> cases getCost d.toDungeon D (i + 1) j <;>
        cases getCost d.toDungeon D i (j - 1) <;> cases getCost d.toDungeon D i (j + 1) <;>
        try rfl
      simp only
      cases getCell d.toDungeon (travel i j (pick_direction _ _ _ _)).1
          (travel i j (pick_direction _ _ _ _)).2 with
      | none => rfl
      | some c =>
        simp only
        split
        · cases setCell d (travel i j (pick_direction _ _ _ _)).1
            (travel i j (pick_direction _ _ _ _)).2
            { c with type := .CORRIDOR, hardness := OPEN_SPACE_HARDNESS } with
          | none => rfl
          | some d1 =>
            simp only [Option.map_map]
            exact ih _ _ _
        · simp only [Option.map_map]
          exact ih _ _ _
    · rfl

/-- The interior cells of the grid. -/
def interiorCells (d : Dungeon) : List (Int × Int) :=
  List.product (intRange 1 (d.height - 2)) (intRange 1 (d.width - 2))

/-- The number of interior cells whose cost is below `v`. -/
def below (D : Nat → Int) (d : Dungeon) (v : Int) : Nat :=
  (interiorCells d).countP (fun p => decide (D (COST d p.1 p.2) < v))

theorem mem_interiorCells {d : Dungeon} {y x : Int} :
    (y, x) ∈ interiorCells d ↔ Interior d y x := by
  unfold interiorCells Interior
  rw [List.pair_mem_product, mem_intRange, mem_intRange]
  omega

theorem intRange_length (lo : Int) (n : Nat) : (intRange lo n).length = n := by
  simp [intRange]

theorem below_le (D : Nat → Int) (d : Dungeon) (v : Int) :
    below D d v ≤ (d.height - 2) * (d.width - 2) := by
  unfold below
  refine le_trans (List.countP_le_length _) ?_
  unfold interiorCells
  have e := List.length_product (intRange 1 (d.height - 2)) (intRange 1 (d.width - 2))
  rw [intRange_length, intRange_length] at e
  exact le_of_eq e

theorem countP_lt_of {α : Type} (p q : α → Bool) : ∀ (l : List α),
    (∀ a ∈ l, p a = true → q a = true) → (∃ a ∈ l, q a = true ∧ p a = false) →
    l.countP p < l.countP q
  | [], _, h => by obtain ⟨a, ha, _⟩ := h; cases ha
  | b :: l, hpq, h => by
    have hle : l.countP p ≤ l.countP q :=
      List.countP_mono_left (fun a ha => hpq a (List.mem_cons_of_mem _ ha))
    rw [List.countP_cons, List.countP_cons]
    obtain ⟨a, ha, hq, hp⟩ := h
    rcases List.mem_cons.mp ha with e | hmem
    · subst e
      simp only [hq, hp, if_true, Bool.false_eq_true, if_false]
      omega
    · have := countP_lt_of p q l (fun a ha => hpq a (List.mem_cons_of_mem _ ha))
        ⟨a, hmem, hq, hp⟩
      have hb := hpq b (List.mem_cons_self _ _)
      have h1 : (if p b = true then 1 else 0) ≤ (if q b = true then 1 else 0) := by
        by_cases e : p b = true
        · rw [if_pos e, if_pos (hb e)]
        · rw [if_neg e]
          exact Nat.zero_le _
      omega

/-- An interior cell of cost below `v` has fewer cells below it than `v` has. -/
theorem below_lt {D : Nat → Int} {d : Dungeon} {a b : Int} {v : Int} (hi : Interior d a b)
    (hlt : D (COST d a b) < v) : below D d (D (COST d a b)) < below D d v := by
  unfold below
  apply countP_lt_of
  · intro p _ hp
    simp only [decide_eq_true_eq] at hp ⊢
    omega
  · exact ⟨(a, b), mem_interiorCells.mpr hi, by simpa using hlt, by simp⟩

theorem below_shape (D : Nat → Int) {d1 d2 : Dungeon_T} (s : SameShape d1 d2) (v : Int) :
    below D d2.toDungeon v = below D d1.toDungeon v := by
  unfold below interiorCells COST
  rw [s.height, s.width]

theorem COST_shape {d1 d2 : Dungeon_T} (s : SameShape d1 d2) (a b : Int) :
    COST d2.toDungeon a b = COST d1.toDungeon a b := by
  unfold COST
  rw [s.width]

theorem Downhill_shape {d1 d2 : Dungeon_T} {sy sx : Int} {D : Nat → Int}
    (s : SameShape d1 d2) (dh : Downhill d1.toDungeon sy sx D) :
    Downhill d2.toDungeon sy sx D := by
  refine ⟨?_, ?_, ?_, ?_⟩
  · intro y x hg hnint
    rw [COST_shape s]
    exact dh.border y x ((InGrid_shape s.height s.width).mp hg)
      (fun h => hnint ((Interior_shape s.height s.width).mpr h))
  · intro y x hg
    rw [COST_shape s]
    exact dh.nonneg y x ((InGrid_shape s.height s.width).mp hg)
  · intro y x hg
    rw [COST_shape s]
    exact dh.le_max y x ((InGrid_shape s.height s.width).mp hg)
  · intro y x hint hf hs
    simp only [COST_shape s] at hf ⊢
    exact dh.pred y x ((Interior_shape s.height s.width).mp hint) hf hs

/-- What the walker does to the cell it steps onto: rock becomes corridor of hardness 0. -/
def paintCell (c : Cell) : Cell :=
  if c.type = .ROCK then { c with type := .CORRIDOR, hardness := OPEN_SPACE_HARDNESS } else c

theorem walkPaint_shape (d : Dungeon_T) (a b : Int) : SameShape d (walkPaint d a b) := by
  unfold walkPaint
  split
  · exact putCell_shape _ _ _ _
  · exact SameShape.refl d

theorem walkPaint_MAP {d : Dungeon_T} {a b y x : Int} (hg : InGrid d.toDungeon a b)
    (hg2 : InGrid d.toDungeon y x) :
    (walkPaint d a b).MAP y x =
      if y = a ∧ x = b then paintCell (d.MAP y x) else d.MAP y x := by
  unfold walkPaint paintCell
  by_cases e : y = a ∧ x = b
  · obtain ⟨e1, e2⟩ := e
    subst e1 e2
    simp only [and_self, if_true]
    split
    · exact putCell_MAP_same _ _ _ _
    · rfl
  · rw [if_neg e]
    split
    · exact putCell_MAP_other _ hg hg2 e
    · rfl

/-- Two cells next to each other in a row or in a column. -/
def Adjacent (p q : Int × Int) : Prop :=
  (p.1 = q.1 ∧ (p.2 = q.2 + 1 ∨ q.2 = p.2 + 1)) ∨ (p.2 = q.2 ∧ (p.1 = q.1 + 1 ∨ q.1 = p.1 + 1))

theorem walkNext_adjacent (D : Nat → Int) (d : Dungeon) (i j : Int) :
    Adjacent (i, j) (walkNext D d i j) := by
  unfold Adjacent
  rcases walkNext_cases D d i j with e | e | e | e <;> rw [e] <;> simp

/-- One iteration of the traced loop from an interior cell other than the source. -/
theorem roll_trace_succ (D : Nat → Int) (sy sx : Int) (fuel : Nat) (d : Dungeon_T)
    (i j : Int) (hi : Interior d.toDungeon i j) (hne : i ≠ sy ∨ j ≠ sx) :
    roll_trace D sy sx (fuel + 1) d i j =
      (roll_trace D sy sx fuel
        (walkPaint d (walkNext D d.toDungeon i j).1 (walkNext D d.toDungeon i j).2)
        (walkNext D d.toDungeon i j).1 (walkNext D d.toDungeon i j).2).map
        (fun r => (r.1, walkNext D d.toDungeon i j :: r.2)) := by
  have hn := walkNext_inGrid (D := D) hi
  have g1 : InGrid d.toDungeon (i - 1) j := by unfold Interior at hi; unfold InGrid; omega
  have g2 : InGrid d.toDungeon (i + 1) j := by unfold Interior at hi; unfold InGrid; omega
  have g3 : InGrid d.toDungeon i (j - 1) := by unfold Interior at hi; unfold InGrid; omega
  have g4 : InGrid d.toDungeon i (j + 1) := by unfold Interior at hi; unfold InGrid; omega
  rw [roll_trace]
  simp only [if_pos hne, getCost_of_InGrid D g1, getCost_of_InGrid D g2,
    getCost_of_InGrid D g3, getCost_of_InGrid D g4]
  unfold walkPaint walkNext
  unfold walkNext at hn
  generalize travel i j (pick_direction (D (COST d.toDungeon (i - 1) j))
    (D (COST d.toDungeon (i + 1) j)) (D (COST d.toDungeon i (j - 1)))
    (D (COST d.toDungeon i (j + 1)))) = n at hn ⊢
  rw [getCell_of_InGrid hn]
  simp only
  by_cases hr : (d.MAP n.1 n.2).type = .ROCK
  · rw [if_pos hr, if_pos hr, setCell_of_InGrid _ hn]
  · rw [if_neg hr, if_neg hr]

theorem roll_trace_source (D : Nat → Int) (sy sx : Int) (fuel : Nat) (d : Dungeon_T) :
    roll_trace D sy sx fuel d sy sx = some (d, []) := by
  cases fuel <;> simp [roll_trace]

/-- The roll-downhill loop reaches the source within as many steps as there are interior
cells of smaller cost than the start; the walker moves between adjacent interior cells of
decreasing cost and paints exactly the cells it steps onto. -/
theorem roll_trace_spec {D : Nat → Int} {sy sx : Int} : ∀ (fuel : Nat) (d : Dungeon_T)
    (i j : Int), Downhill d.toDungeon sy sx D → Interior d.toDungeon i j →
    D (COST d.toDungeon i j) ≠ INT_MAX →
    below D d.toDungeon (D (COST d.toDungeon i j)) ≤ fuel →
    ∃ d2 path, roll_trace D sy sx fuel d i j = some (d2, path) ∧ SameShape d d2 ∧
      path.length ≤ below D d.toDungeon (D (COST d.toDungeon i j)) ∧
      List.Chain Adjacent (i, j) path ∧
      ((i, j) :: path).getLast? = some (sy, sx) ∧
      (∀ p ∈ path, Interior d.toDungeon p.1 p.2 ∧
        D (COST d.toDungeon p.1 p.2) < D (COST d.toDungeon i j)) ∧
      (∀ y x, InGrid d.toDungeon y x →
        d2.MAP y x = if (y, x) ∈ path then paintCell (d.MAP y x) else d.MAP y x) := by
  intro fuel
  induction fuel with
  | zero =>
    intro d i j dh hi hfin hlt
    by_cases hsrc : i = sy ∧ j = sx
    · obtain ⟨e1, e2⟩ := hsrc
      subst e1 e2
      refine ⟨d, [], roll_trace_source D i j _ d, SameShape.refl d, Nat.zero_le _,
        List.Chain.nil, rfl, ?_, ?_⟩
      · intro p hp
        exact absurd hp (List.not_mem_nil p)
      · intro y x _
        rw [if_neg (List.not_mem_nil _)]
    · exfalso
      have hmin := walkNext_min D d.toDungeon i j
      have hp := dh.pred i j hi hfin hsrc
      have hn := walkNext_inGrid (D := D) hi
      have hmax := dh.le_max i j (InGrid_of_interior hi)
      have hlt2 : D (COST d.toDungeon (walkNext D d.toDungeon i j).1
          (walkNext D d.toDungeon i j).2) < D (COST d.toDungeon i j) := by omega
      have hni : Interior d.toDungeon (walkNext D d.toDungeon i j).1
          (walkNext D d.toDungeon i j).2 := by
        by_contra hc
        have := dh.border _ _ hn hc
        omega
      have := below_lt hni hlt2
      omega
  | succ fuel ih =>
    intro d i j dh hi hfin hlt
    by_cases hsrc : i = sy ∧ j = sx
    · obtain ⟨e1, e2⟩ := hsrc
      subst e1 e2
      refine ⟨d, [], roll_trace_source D i j _ d, SameShape.refl d, Nat.zero_le _,
        List.Chain.nil, rfl, ?_, ?_⟩
      · intro p hp
        exact absurd hp (List.not_mem_nil p)
      · intro y x _
        rw [if_neg (List.not_mem_nil _)]
    · have hne : i ≠ sy ∨ j ≠ sx := by
        by_contra hc
        exact hsrc ⟨by_contra (fun h => hc (Or.inl h)), by_contra (fun h => hc (Or.inr h))⟩
      rw [roll_trace_succ D sy sx fuel d i j hi hne]
      have hn := walkNext_inGrid (D := D) hi
      have hmin := walkNext_min D d.toDungeon i j
      have hp := dh.pred i j hi hfin hsrc
      have hadj := walkNext_adjacent D d.toDungeon i j
      have hmax := dh.le_max i j (InGrid_of_interior hi)
      generalize walkNext D d.toDungeon i j = n at hn hmin hadj ⊢
      have hlt2 : D (COST d.toDungeon n.1 n.2) < D (COST d.toDungeon i j) := by omega
      have hni : Interior d.toDungeon n.1 n.2 := by
        by_contra hc
        have := dh.border _ _ hn hc
        omega
      have s1 := walkPaint_shape d n.1 n.2
      have hbl := below_lt hni hlt2
      obtain ⟨d2, path, e2, s2, hlen, hch, hlast, hpath, hmap⟩ := ih (walkPaint d n.1 n.2)
        n.1 n.2 (Downhill_shape s1 dh) ((Interior_shape s1.height s1.width).mpr hni)
        (by rw [COST_shape s1]; omega)
        (by rw [below_shape D s1, COST_shape s1]; omega)
      rw [below_shape D s1, COST_shape s1] at hlen
      simp only [COST_shape s1] at hpath
      refine ⟨d2, n :: path, by rw [e2]; rfl, s1.shapeTrans s2, ?_, ?_, ?_, ?_, ?_⟩
      · simp only [List.length_cons]; omega
      · exact List.Chain.cons hadj hch
      · rw [List.getLast?_cons_cons]
        exact hlast
      · intro p hp
        rcases List.mem_cons.mp hp with e | hm
        · subst e
          exact ⟨hni, hlt2⟩
        · obtain ⟨q1, q2⟩ := hpath p hm
          exact ⟨(Interior_shape s1.height s1.width).mp q1, by omega⟩
      · intro y x hg
        have hg1 : InGrid (walkPaint d n.1 n.2).toDungeon y x :=
          (InGrid_shape s1.height s1.width).mpr hg
        rw [hmap y x hg1, walkPaint_MAP hn hg]
        by_cases e : y = n.1 ∧ x = n.2
        · have en : (y, x) = n := by
            obtain ⟨e1, e2⟩ := e
            rw [e1, e2]
          have hnot : (y, x) ∉ path := by
            intro hm
            have := (hpath _ hm).2
            rw [en] at this
            omega
          rw [if_neg hnot, if_pos e, en, if_pos (List.mem_cons_self _ _)]
        · have hnn : (y, x) ≠ n := by
            intro en
            apply e
            rw [← en]
            exact ⟨rfl, rfl⟩
          rw [if_neg e]
          by_cases hm : (y, x) ∈ path
          · rw [if_pos hm, if_pos (List.mem_cons_of_mem _ hm)]
          · rw [if_neg hm, if_neg (by
              intro h2
              rcases List.mem_cons.mp h2 with e3 | e3
              · exact hnn e3
              · exact hm e3)]

/-- An immutable border, hardness values in `0..255` and no interior cell of hardness 255
give the invariant of the generator on the cells. -/
theorem cellInv_of_ok {d : Dungeon} (hbo : BorderOk d) (hh : HardnessOk d)
    (hm : InteriorMutable d) : CellInv Mutable d := by
  have hnat : ∀ y x : Int, InGrid d y x →
      ∃ a b : Nat, a < d.height ∧ b < d.width ∧ y = a ∧ x = b := by
    intro y x hg
    unfold InGrid at hg
    exact ⟨y.toNat, x.toNat, by omega, by omega, by omega, by omega⟩
  constructor
  · intro y x hg hni
    obtain ⟨a, b, ha, hb, ey, ex⟩ := hnat y x hg
    subst ey ex
    exact hbo a ha b hb hni
  · intro y x hi
    obtain ⟨a, b, ha, hb, ey, ex⟩ := hnat y x (InGrid_of_interior hi)
    subst ey ex
    have h1 := hh a ha b hb
    have h2 := hm a ha b hb hi
    unfold IMMUTABLE_ROCK_HARDNESS at h2
    unfold Mutable
    omega

/-- The 5 x 5 example as a dungeon without rooms. -/
def exGrid : Dungeon_T :=
  { exDungeon with
    rooms := fun _ => ⟨0, 0, 0, 0⟩
    num_rooms := 0
    player := none
    rooms_size := 0
    rooms_overflow := false }

/-- The cost field of `paint_corridor` and what the walker needs from it. -/
theorem corridor_field (fuel : Nat) (m0 : Mem) (v0 : Nat → Vertex) (c0 : Nat → Int)
    (d : Dungeon) (sy sx : Int) (inv : CellInv Mutable d)
    (hsm : 7 * ((((d.height - 2) * (d.width - 2) : Nat) : Int) + 1) < INT_MAX)
    (hs : Interior d sy sx) (hf : (d.height - 2) * (d.width - 2) ≤ fuel) :
    ∃ D, Old.generate_dijkstra_map fuel m0 v0 c0 d sy sx false .CORRIDOR_MAP = some D ∧
      SingleFacts .CORRIDOR_MAP false d sy sx D ∧ Downhill d sy sx D ∧
      ∀ y x, Interior d y x → D (COST d y x) ≠ INT_MAX := by
  obtain ⟨D, e, F⟩ := old_generate_facts fuel m0 v0 c0 d sy sx .CORRIDOR_MAP
    (by decide) inv.borderOk inv.hardnessOk inv.interiorMutable hsm hs hf
  exact ⟨D, e, F, downhill_of_facts F inv.borderOk inv.hardnessOk, fun y x hi =>
    all_finite_of_weights F (by decide) (fun y x hi => corridor_weight_finite inv hi)
      hs _ y x hi (le_refl _)⟩

/-- C11: for a dungeon with an immutable border whose interior cells have hardness other
than 255 (hardness values in `0..255`, the grid small enough for path costs to fit in an
`int`) and interior points A = `(sy, sx)` and B = `(ty, tx)`, `paint_corridor` builds its
cost field and the roll-downhill loop from B terminates: the walker makes at most
`height * width` steps, steps on interior cells only and ends on A. -/
theorem paint_corridor_walker_reaches_source (fuel : Nat) (m0 : Mem) (v0 : Nat → Vertex)
    (c0 : Nat → Int) (d : Dungeon_T) (sy sx ty tx : Int)
    (hbo : BorderOk d.toDungeon) (hh : HardnessOk d.toDungeon)
    (hm : InteriorMutable d.toDungeon)
    (hsm : 7 * ((((d.height - 2) * (d.width - 2) : Nat) : Int) + 1) < INT_MAX)
    (hs : Interior d.toDungeon sy sx) (ht : Interior d.toDungeon ty tx)
    (hf : (d.height - 2) * (d.width - 2) ≤ fuel) :
    ∃ cost d2 path,
      Old.generate_dijkstra_map fuel m0 v0 c0 d.toDungeon sy sx false .CORRIDOR_MAP =
        some cost ∧
      roll_trace cost sy sx fuel d ty tx = some (d2, path) ∧
      paint_corridor fuel m0 v0 c0 d sy sx ty tx = some d2 ∧
      path.length ≤ d.height * d.width ∧
      ((ty, tx) :: path).getLast? = some (sy, sx) ∧
      ∀ p ∈ path, Interior d.toDungeon p.1 p.2 := by
  have inv := cellInv_of_ok hbo hh hm
  obtain ⟨D, e, _, dh, hfin⟩ := corridor_field fuel m0 v0 c0 d.toDungeon sy sx inv hsm hs hf
  have hb := below_le D d.toDungeon (D (COST d.toDungeon ty tx))
  obtain ⟨d2, path, e2, _, hlen, _, hlast, hpath, _⟩ := roll_trace_spec fuel d ty tx dh ht
    (hfin ty tx ht) (le_trans hb hf)
  refine ⟨D, d2, path, e, e2, ?_, ?_, hlast, fun p hp => (hpath p hp).1⟩
  · unfold paint_corridor
    rw [e]
    show roll_downhill D sy sx fuel d ty tx = some d2
    rw [← roll_trace_fst, e2]
    rfl
  · have h1 : (d.height - 2) * (d.width - 2) ≤ d.height * d.width :=
      Nat.mul_le_mul (Nat.sub_le _ _) (Nat.sub_le _ _)
    omega

theorem paint_corridor_walker_reaches_source_witness :
    BorderOk exGrid.toDungeon ∧ HardnessOk exGrid.toDungeon ∧
    InteriorMutable exGrid.toDungeon ∧
    7 * ((((exGrid.height - 2) * (exGrid.width - 2) : Nat) : Int) + 1) < INT_MAX ∧
    Interior exGrid.toDungeon 1 1 ∧ Interior exGrid.toDungeon 3 3 ∧
    (exGrid.height - 2) * (exGrid.width - 2) ≤ 9 ∧
    ∃ cost d2 path,
      Old.generate_dijkstra_map 9 Mem.empty exVertices (fun _ => 0) exGrid.toDungeon 1 1 false
        .CORRIDOR_MAP = some cost ∧
      roll_trace cost 1 1 9 exGrid 3 3 = some (d2, path) ∧
      paint_corridor 9 Mem.empty exVertices (fun _ => 0) exGrid 1 1 3 3 = some d2 ∧
      path.length ≤ exGrid.height * exGrid.width ∧
      ((3, 3) :: path).getLast? = some (1, 1) ∧
      ∀ p ∈ path, Interior exGrid.toDungeon p.1 p.2 :=
  ⟨by decide, by decide, by decide, by decide, by decide, by decide, by decide,
    paint_corridor_walker_reaches_source 9 Mem.empty exVertices (fun _ => 0) exGrid 1 1 3 3
      (by decide) (by decide) (by decide) (by decide) (by decide) (by decide) (by decide)⟩

/-- What `paint_corridor` does between two interior points: the walker goes from
`(ty, tx)` to `(sy, sx)` over adjacent interior cells, none of them the start, and the
returned map is the old one with the cells stepped on painted. -/
theorem paint_corridor_trace (fuel : Nat) (m0 : Mem) (v0 : Nat → Vertex) (c0 : Nat → Int)
    (d : Dungeon_T) (sy sx ty tx : Int) (inv : CellInv Mutable d.toDungeon)
    (hsm : 7 * ((((d.height - 2) * (d.width - 2) : Nat) : Int) + 1) < INT_MAX)
    (hs : Interior d.toDungeon sy sx) (ht : Interior d.toDungeon ty tx)
    (hf : (d.height - 2) * (d.width - 2) ≤ fuel) :
    ∃ d2 path, paint_corridor fuel m0 v0 c0 d sy sx ty tx = some d2 ∧
      List.Chain Adjacent (ty, tx) path ∧ ((ty, tx) :: path).getLast? = some (sy, sx) ∧
      (∀ p ∈ path, Interior d.toDungeon p.1 p.2) ∧ (ty, tx) ∉ path ∧
      (∀ y x, InGrid d.toDungeon y x →
        d2.MAP y x = if (y, x) ∈ path then paintCell (d.MAP y x) else d.MAP y x) := by
  obtain ⟨D, e, _, dh, hfin⟩ := corridor_field fuel m0 v0 c0 d.toDungeon sy sx inv hsm hs hf
  have hb := below_le D d.toDungeon (D (COST d.toDungeon ty tx))
  obtain ⟨d2, path, e2, _, _, hch, hlast, hpath, hmap⟩ := roll_trace_spec fuel d ty tx dh ht
    (hfin ty tx ht) (le_trans hb hf)
  refine ⟨d2, path, ?_, hch, hlast, fun p hp => (hpath p hp).1, ?_, hmap⟩
  · unfold paint_corridor
    rw [e]
    show roll_downhill D sy sx fuel d ty tx = some d2
    rw [← roll_trace_fst, e2]
    rfl
  · intro hm
    have := (hpath _ hm).2
    simp only at this
    omega

/-- A grid with a 3 x 3 interior: rooms of one cell at the corners `(1, 1)` and `(3, 3)`,
rock of hardness 100 between them. -/
def exCorners : Dungeon_T :=
  { map := fun i =>
      if i = 6 ∨ i = 18 then ⟨.ROOM, 0, none⟩
      else if i ∈ [7, 8, 11, 12, 13, 16, 17] then ⟨.ROCK, 100, none⟩
      else ⟨.ROCK, 255, none⟩
    height := 5
    width := 5
    rooms := fun k => if k = 0 then ⟨1, 1, 1, 1⟩ else ⟨3, 3, 1, 1⟩
    num_rooms := 2
    player := none
    rooms_size := 2
    rooms_overflow := false }

/-- Every cell of the grid that is not rock has hardness 0. -/
def OpenCells (d : Dungeon) : Prop :=
  ∀ y < d.height, ∀ x < d.width, (d.MAP y x).type ≠ .ROCK → (d.MAP y x).hardness = 0

instance (d : Dungeon) : Decidable (OpenCells d) := by
  unfold OpenCells; infer_instance

/-- The walker paints the cells it moves to, never the cell it starts from: were
`paint_corridor` handed an interior rock cell as B, which `generate_corridors` never does
(it draws both points inside painted rooms), B would still be rock afterwards. On `exGrid`
with A = `(1, 1)` and B = `(2, 2)` the call returns and no chain of open cells starts at
B. -/
theorem rock_start_stays_rock :
    OpenCells exGrid.toDungeon ∧
    ∃ d2, paint_corridor 9 Mem.empty exVertices (fun _ => 0) exGrid 1 1 2 2 = some d2 ∧
      ¬ ∃ path : List (Int × Int), List.Chain Adjacent (2, 2) path ∧
        ((2, 2) :: path).getLast? = some (1, 1) ∧
        ∀ p ∈ (2, 2) :: path, (d2.MAP p.1 p.2).type ≠ .ROCK ∧ (d2.MAP p.1 p.2).hardness = 0 := by
  refine ⟨by decide, ?_⟩
  obtain ⟨d2, path, e, _, _, _, hnot, hmap⟩ := paint_corridor_trace 9 Mem.empty exVertices
    (fun _ => 0) exGrid 1 1 2 2 (cellInv_of_ok (by decide) (by decide) (by decide))
    (by decide) (by decide) (by decide) (by decide)
  refine ⟨d2, e, ?_⟩
  rintro ⟨path2, _, _, h⟩
  have h1 := (h (2, 2) (List.mem_cons_self _ _)).1
  have h2 := hmap 2 2 (by decide)
  rw [if_neg hnot] at h2
  apply h1
  show (d2.MAP 2 2).type = .ROCK
  rw [h2]
  decide

/-- C12: for a dungeon with an immutable border whose interior cells have hardness other
than 255 and whose cells other than rock have hardness 0, interior points A = `(sy, sx)`
and B = `(ty, tx)`, B not a rock cell (as at every call, `generate_corridors` drawing both
points inside painted rooms): `paint_corridor` returns, and there is a chain of
cells from B to A, each next to the one before in its row or column, in which every cell
has a type other than Rock and hardness 0 in the returned dungeon; the cells of the chain
that were rock are Corridor cells. -/
theorem paint_corridor_open_chain (fuel : Nat) (m0 : Mem) (v0 : Nat → Vertex)
    (c0 : Nat → Int) (d : Dungeon_T) (sy sx ty tx : Int)
    (hbo : BorderOk d.toDungeon) (hh : HardnessOk d.toDungeon)
    (hm : InteriorMutable d.toDungeon)
    (hsm : 7 * ((((d.height - 2) * (d.width - 2) : Nat) : Int) + 1) < INT_MAX)
    (hs : Interior d.toDungeon sy sx) (ht : Interior d.toDungeon ty tx)
    (hf : (d.height - 2) * (d.width - 2) ≤ fuel)
    (hopen : OpenCells d.toDungeon) (hB : (d.MAP ty tx).type ≠ .ROCK) :
    ∃ d2 path, paint_corridor fuel m0 v0 c0 d sy sx ty tx = some d2 ∧
      List.Chain Adjacent (ty, tx) path ∧ ((ty, tx) :: path).getLast? = some (sy, sx) ∧
      (∀ p ∈ (ty, tx) :: path,
        (d2.MAP p.1 p.2).type ≠ .ROCK ∧ (d2.MAP p.1 p.2).hardness = 0) ∧
      (∀ p ∈ path, (d.MAP p.1 p.2).type = .ROCK → (d2.MAP p.1 p.2).type = .CORRIDOR) := by
  obtain ⟨d2, path, e, hch, hlast, hpath, hnot, hmap⟩ := paint_corridor_trace fuel m0 v0 c0 d
    sy sx ty tx (cellInv_of_ok hbo hh hm) hsm hs ht hf
  have hopen2 : ∀ y x : Int, InGrid d.toDungeon y x → (d.MAP y x).type ≠ .ROCK →
      (d.MAP y x).hardness = 0 := by
    intro y x hg hne
    unfold InGrid at hg
    have := hopen y.toNat (by omega) x.toNat (by omega)
    rw [Int.toNat_of_nonneg hg.1, Int.toNat_of_nonneg hg.2.2.1] at this
    exact this hne
  have hpaint : ∀ p ∈ path, d2.MAP p.1 p.2 = paintCell (d.MAP p.1 p.2) := by
    intro p hp
    rw [hmap p.1 p.2 (InGrid_of_interior (hpath p hp)), if_pos hp]
  refine ⟨d2, path, e, hch, hlast, ?_, ?_⟩
  · intro p hp
    rcases List.mem_cons.mp hp with e1 | hmem
    · subst e1
      have h2 := hmap ty tx (InGrid_of_interior ht)
      rw [if_neg hnot] at h2
      show (d2.MAP ty tx).type ≠ .ROCK ∧ (d2.MAP ty tx).hardness = 0
      rw [h2]
      exact ⟨hB, hopen2 ty tx (InGrid_of_interior ht) hB⟩
    · rw [hpaint p hmem]
      unfold paintCell
      split
      · exact ⟨by simp, rfl⟩
      · rename_i hr
        exact ⟨hr, hopen2 p.1 p.2 (InGrid_of_interior (hpath p hmem)) hr⟩
  · intro p hp hr
    rw [hpaint p hp]
    unfold paintCell
    rw [if_pos hr]

theorem paint_corridor_open_chain_witness :
    BorderOk exCorners.toDungeon ∧ HardnessOk exCorners.toDungeon ∧
    InteriorMutable exCorners.toDungeon ∧
    7 * ((((exCorners.height - 2) * (exCorners.width - 2) : Nat) : Int) + 1) < INT_MAX ∧
    Interior exCorners.toDungeon 1 1 ∧ Interior exCorners.toDungeon 3 3 ∧
    (exCorners.height - 2) * (exCorners.width - 2) ≤ 9 ∧
    OpenCells exCorners.toDungeon ∧ (exCorners.MAP 3 3).type ≠ .ROCK ∧
    ∃ d2 path, paint_corridor 9 Mem.empty exVertices (fun _ => 0) exCorners 1 1 3 3 = some d2 ∧
      List.Chain Adjacent (3, 3) path ∧ ((3, 3) :: path).getLast? = some (1, 1) ∧
      (∀ p ∈ (3, 3) :: path,
        (d2.MAP p.1 p.2).type ≠ .ROCK ∧ (d2.MAP p.1 p.2).hardness = 0) ∧
      (∀ p ∈ path, (exCorners.MAP p.1 p.2).type = .ROCK →
        (d2.MAP p.1 p.2).type = .CORRIDOR) :=
  ⟨by decide, by decide, by decide, by decide, by decide, by decide, by decide, by decide,
    by decide,
    paint_corridor_open_chain 9 Mem.empty exVertices (fun _ => 0) exCorners 1 1 3 3
      (by decide) (by decide) (by decide) (by decide) (by decide) (by decide) (by decide)
      (by decide) (by decide)⟩

/-! ### A returning run of `new_dungeon` with one room too many -/

/-- The coverage test `count / cells > 0.1`. -/
def exCoveredTenth : Nat → Nat → Bool := fun count cells => decide (10 * count > cells)

/-- A stream of draws on which the first attempt places two rooms of four rows. -/
def exStreamTwo : List Nat := [0, 0, 0, 0, 0, 0, 0, 0, 0] ++ exTail

set_option maxRecDepth 100000 in
theorem exLoopTwo_spec :
    (new_dungeon_loop 2000 1 1 exCoveredTenth (FAILED_DUNGEON_GENERATION.toNat + 2) 0 exBorder
      exStreamTwo).map (fun p => (p.1.num_rooms, p.1.rooms_overflow, p.2)) =
    some (2, true, exTail) := by
  decide

set_option maxRecDepth 100000 in
theorem exTail_two : ∀ k ≤ (9 - 2) * (28 - 2), StreamOk 2 (exTail.drop k) := by
  decide

/-- C13: a run of `new_dungeon` that returns with more rooms than `max_rooms`. On a grid of
9 rows and 28 columns with `min_rooms = max_rooms = 1`, `generate_rooms` tests
`d->num_rooms > max_rooms` before it fills a partition, so with one room placed the second
partition is still filled: the room is written at index 1 of an array of one entry, the
work stack is empty, `generate_rooms` returns true and `new_dungeon` returns a dungeon with
two rooms. -/
theorem new_dungeon_exceeds_max_rooms :
    ∃ d, new_dungeon 2000 Mem.empty exVertices (fun _ => 0) 9 28 1 1 exCoveredTenth
        exStreamTwo = some d ∧ d.num_rooms = 2 ∧ ¬ ((d.num_rooms : Int) ≤ 1) ∧
      ∃ d0 d1 rng1, generate_dungeon_border (init_dungeon 9 28) = some d0 ∧
        new_dungeon_loop 2000 1 1 exCoveredTenth (FAILED_DUNGEON_GENERATION.toNat + 2) 0 d0
          exStreamTwo = some (d1, rng1) ∧ d1.rooms_overflow = true := by
  have hl := exLoopTwo_spec
  cases hl1 : new_dungeon_loop 2000 1 1 exCoveredTenth (FAILED_DUNGEON_GENERATION.toNat + 2) 0
      exBorder exStreamTwo with
  | none => rw [hl1] at hl; cases hl
  | some p =>
    obtain ⟨d1, rng1⟩ := p
    rw [hl1] at hl
    simp only [Option.map_some', Option.some.injEq, Prod.mk.injEq] at hl
    obtain ⟨n1, o1, e1⟩ := hl
    obtain ⟨d, hd⟩ := new_dungeon_total 2000 Mem.empty exVertices (fun _ => 0) 9 28 1 1
      exCoveredTenth exStreamTwo exBorder d1 rng1 exBorder_spec hl1 (by decide) (by decide)
      (by rw [n1]; decide) (by rw [e1]; simp [exTail]) (by rw [n1, e1]; exact exTail_two)
    obtain ⟨d0, d1b, rng1b, hb, hl2, _, _, _, _, _, en⟩ :=
      new_dungeon_some hd (by decide) (by decide)
    rw [exBorder_spec] at hb
    simp only [Option.some.injEq] at hb
    subst hb
    rw [hl1] at hl2
    simp only [Option.some.injEq, Prod.mk.injEq] at hl2
    obtain ⟨e2, _⟩ := hl2
    subst e2
    have hn : d.num_rooms = 2 := en.trans n1
    exact ⟨d, hd, hn, by rw [hn]; decide, exBorder, d1, rng1, exBorder_spec, hl1, o1⟩

set_option maxRecDepth 100000 in
theorem exFirstAttempt_spec :
    (generate_rooms 2000 { exBorder with rooms_size := (4 : Int).toNat } 4 exStream).map
      (fun r => (r.1, r.2.1.num_rooms, (r.2.1.MAP 1 1).type, r.2.1.rooms 0,
        is_room_percentage_covered r.2.1.toDungeon exCovered)) =
    some (true, 2, .ROOM, ⟨1, 1, 4, 7⟩, false) := by
  decide

/-- C14: a retry of the generation loop that does not start from scratch. On the grid of
9 rows and 28 columns with 2 to 4 rooms and a coverage of 0.3, the first call of
`generate_rooms` places two rooms and is rejected for its coverage; the loop hands the very
same dungeon to the second call, which therefore starts with a room count of 2 and with
Room cells on the map, and the room of the rejected attempt is still `rooms[0]` of the
dungeon that `new_dungeon` returns. -/
theorem new_dungeon_retry_keeps_rooms :
    ∃ d1 rng1,
      generate_rooms 2000 { exBorder with rooms_size := (4 : Int).toNat } 4 exStream =
        some (true, d1, rng1) ∧
      is_room_percentage_covered d1.toDungeon exCovered = false ∧
      new_dungeon_loop 2000 2 4 exCovered (FAILED_DUNGEON_GENERATION.toNat + 2) 0 exBorder
          exStream =
        new_dungeon_loop 2000 2 4 exCovered (FAILED_DUNGEON_GENERATION.toNat + 1) 1 d1 rng1 ∧
      d1.num_rooms = 2 ∧ (d1.MAP 1 1).type = .ROOM ∧ d1.rooms 0 = ⟨1, 1, 4, 7⟩ ∧
      ∃ d, new_dungeon 2000 Mem.empty exVertices (fun _ => 0) 9 28 2 4 exCovered exStream =
          some d ∧ d.num_rooms = 4 ∧ d.rooms 0 = d1.rooms 0 := by
  have h := exFirstAttempt_spec
  cases h1 : generate_rooms 2000 { exBorder with rooms_size := (4 : Int).toNat } 4 exStream with
  | none => rw [h1] at h; cases h
  | some r =>
    obtain ⟨ok, d1, rng1⟩ := r
    rw [h1] at h
    simp only [Option.map_some', Option.some.injEq, Prod.mk.injEq] at h
    obtain ⟨hok, hn, hroom, hr0, hcov⟩ := h
    subst hok
    obtain ⟨d, hd, hdn, hd0, _⟩ := exRun
    refine ⟨d1, rng1, rfl, hcov, ?_, hn, hroom, hr0, d, hd, hdn, hd0.trans hr0.symm⟩
    have e : FAILED_DUNGEON_GENERATION.toNat + 2 = (FAILED_DUNGEON_GENERATION.toNat + 1) + 1 :=
      rfl
    rw [e, new_dungeon_loop, if_neg (by decide), h1]
    simp only
    rw [if_pos (Or.inr (Or.inl hcov))]
    rfl

/-! ## Characters: `Source/Character/character.c`

Characters are records in a store indexed by their address; a cell of the map points to
the character standing on it.  The random number generator is the stream of values that
`rand()` returns. -/

namespace Source

/-- Embedding of `Direction_T` of `character.c`. -/
inductive Direction_T where
  | NORTH | SOUTH | WEST | EAST | NORTHWEST | NORTHEAST | SOUTHWEST | SOUTHEAST | STUCK
  deriving DecidableEq

def INTELLIGENT : Nat := 1
def TELEPATHIC : Nat := 2
def TUNNELER : Nat := 4
def ERRATIC : Nat := 8
def GAME_SPEED : Int := 1000
def PC_SPEED : Int := 10
def CHARACTER_DIAGONAL_TRAVEL : Bool := true

/-- The test `behavior & flag`. -/
def hasFlag (behavior flag : Nat) : Bool := decide (behavior &&& flag ≠ 0)

/-- Embedding of `Character_T`; `cost` is the array `c->cost` points to (`none` is `NULL`).
The display members are left out. -/
structure Character_T where
  y : Int
  x : Int
  last_y : Int
  last_x : Int
  speed : Int
  behavior : Nat
  player : Bool
  cost : Option (Nat → Int)

/-- Embedding of `Dungeon_T` of `Source/Dungeon/dungeon.h` together with the `Character_T`
records it points to: `chars` is the store of characters, `player` and `monsters` hold
addresses in it. -/
structure Dungeon_T extends Dungeon where
  chars : Nat → Character_T
  player : Option Nat
  monsters : Nat → Option Nat
  num_monsters : Int
  regular_cost : Option (Nat → Int)
  tunnel_cost : Option (Nat → Int)

/-- A write to `d->MAP(a, b)`. -/
def setMap (d : Dungeon_T) (a b : Int) (c : Cell) : Option Dungeon_T :=
  if inMap d.toDungeon a b then
    some { d with map := fun k => if k = (a * d.width + b).toNat then c else d.map k }
  else none

/-- A write to the record of character `c`. -/
def setChar (d : Dungeon_T) (c : Nat) (v : Character_T) : Dungeon_T :=
  { d with chars := fun k => if k = c then v else d.chars k }

/-- Embedding of `manhattan_distance`. -/
def manhattan_distance (y0 x0 y1 x1 : Int) : Int := |y0 - y1| + |x0 - x1|

/-- The loop of `can_see_player`: the walker stands on `(i, j)`. -/
def can_see_player_loop (d : Dungeon) (dir_y dir_x delta_y delta_x : Int) :
    Nat → Int → Int → Int → Int → Option Bool
  | fuel, i, j, error, r =>
    if r > 0 then
      match fuel with
      | 0 => none
      | fuel + 1 =>
        match getCell d i j with
        | none => none
        | some cell =>
          if cell.type = .ROCK then some false
          else if error > 0 then
            can_see_player_loop d dir_y dir_x delta_y delta_x fuel (i + dir_y) j
              (error - delta_y) (r + 1)
          else
            can_see_player_loop d dir_y dir_x delta_y delta_x fuel i (j + dir_x)
              (error + delta_x) (r + 1)
    else some true

/-- Embedding of `can_see_player`. -/
def can_see_player (fuel : Nat) (d : Dungeon_T) (c : Character_T) : Option Bool :=
  match d.player with
  | none => none
  | some p =>
    let delta_y := |c.y - (d.chars p).y|
    let delta_x := |c.x - (d.chars p).x|
    let dir_y : Int := if (d.chars p).y > c.y then 1 else -1
    let dir_x : Int := if (d.chars p).x > c.x then 1 else -1
    can_see_player_loop d.toDungeon dir_y dir_x (delta_y * 2) (delta_x * 2) fuel c.y c.x
      (delta_y - delta_x) (1 + delta_y + delta_x)

/-- The test `bounds && (c->behavior & TUNNELER || d->MAP(a, b).type != ROCK)`; the map is
read only when the bounds hold and the character is no tunneler. -/
def can_enter (d : Dungeon) (behavior : Nat) (bounds : Bool) (a b : Int) : Option Bool :=
  if bounds then
    if hasFlag behavior TUNNELER then some true
    else
      match getCell d a b with
      | none => none
      | some cell => some (decide (cell.type ≠ .ROCK))
  else some false

/-- One block of `calculate_random_move`: the direction is appended when it is open. -/
def add_direction (d : Dungeon) (behavior : Nat) (bounds : Bool) (a b : Int)
    (dir : Direction_T) (directions : List Direction_T) : Option (List Direction_T) :=
  match can_enter d behavior bounds a b with
  | none => none
  | some ok => some (if ok then directions ++ [dir] else directions)

/-- The array `directions` that `calculate_random_move` fills. -/
def random_directions (d : Dungeon) (c : Character_T) : Option (List Direction_T) :=
  (add_direction d c.behavior (decide (c.y - 1 > 0)) (c.y - 1) c.x .NORTH []).bind fun l1 =>
  (add_direction d c.behavior (decide (c.y + 1 < d.height)) (c.y + 1) c.x .SOUTH l1).bind
    fun l2 =>
  (add_direction d c.behavior (decide (c.x - 1 > 0)) c.y (c.x - 1) .WEST l2).bind fun l3 =>
  (add_direction d c.behavior (decide (c.x + 1 < d.width)) c.y (c.x + 1) .EAST l3).bind
    fun l4 =>
  (add_direction d c.behavior (decide (c.y - 1 > 0 ∧ c.x - 1 > 0)) (c.y - 1) (c.x - 1)
    .NORTHWEST l4).bind fun l5 =>
  (add_direction d c.behavior (decide (c.y - 1 > 0 ∧ c.x + 1 < d.width)) (c.y - 1) (c.x + 1)
    .NORTHEAST l5).bind fun l6 =>
  (add_direction d c.behavior (decide (c.y + 1 < d.height ∧ c.x - 1 > 0)) (c.y + 1) (c.x - 1)
    .SOUTHWEST l6).bind fun l7 =>
  add_direction d c.behavior (decide (c.y + 1 < d.height ∧ c.x + 1 < d.width)) (c.y + 1)
    (c.x + 1) .SOUTHEAST l7

/-- Embedding of `calculate_random_move`. -/
def calculate_random_move (d : Dungeon) (c : Character_T) (rng : List Nat) :
    Option (Direction_T × List Nat) :=
  match random_directions d c with
  | none => none
  | some directions =>
    if directions.length = 0 then some (.STUCK, rng)
    else
      match rand_int_in_range 0 ((directions.length : Int) - 1) rng with
      | none => none
      | some (k, rng1) =>
        match directions.get? k.toNat with
        | none => none
        | some dir => some (dir, rng1)

/-- The test `c->behavior & ERRATIC && rand() % 2`; `rand()` is called only for an erratic
character. -/
def erratic_roll (behavior : Nat) (rng : List Nat) : Option (Bool × List Nat) :=
  if hasFlag behavior ERRATIC then
    match rng with
    | [] => none
    | r :: rng1 => some (decide (r % 2 ≠ 0), rng1)
  else some (false, rng)

end Source

namespace Source

/-- One block of the scan of `calculate_intelligent_monster_move`:
`if (bounds && COST(a, b) < best_cost) { direction = dir; best_cost = COST(a, b); }`; the
cost array is read only when the bounds hold. -/
def consider (d : Dungeon) (cost : Nat → Int) (bounds : Bool) (a b : Int) (dir : Direction_T)
    (st : Direction_T × Int) : Option (Direction_T × Int) :=
  if bounds then
    match getCost d cost a b with
    | none => none
    | some v => some (if v < st.2 then (dir, v) else st)
  else some st

/-- The scan of `calculate_intelligent_monster_move` over the eight neighbours, from
`direction = STUCK` and `best_cost = INT_MAX`. -/
def intelligent_scan (d : Dungeon) (c : Character_T) (cost : Nat → Int) : Option Direction_T :=
  (consider d cost (decide (c.y - 1 > 0)) (c.y - 1) c.x .NORTH (.STUCK, INT_MAX)).bind fun s1 =>
  (consider d cost (decide (c.y + 1 < d.height)) (c.y + 1) c.x .SOUTH s1).bind fun s2 =>
  (consider d cost (decide (c.x - 1 > 0)) c.y (c.x - 1) .WEST s2).bind fun s3 =>
  (consider d cost (decide (c.x + 1 < d.width)) c.y (c.x + 1) .EAST s3).bind fun s4 =>
  (consider d cost (decide (c.y - 1 > 0 ∧ c.x - 1 > 0)) (c.y - 1) (c.x - 1) .NORTHWEST s4).bind
    fun s5 =>
  (consider d cost (decide (c.y - 1 > 0 ∧ c.x + 1 < d.width)) (c.y - 1) (c.x + 1)
    .NORTHEAST s5).bind fun s6 =>
  (consider d cost (decide (c.y + 1 < d.height ∧ c.x - 1 > 0)) (c.y + 1) (c.x - 1)
    .SOUTHWEST s6).bind fun s7 =>
  (consider d cost (decide (c.y + 1 < d.height ∧ c.x + 1 < d.width)) (c.y + 1) (c.x + 1)
    .SOUTHEAST s7).map fun s8 => s8.1

/-- Embedding of `calculate_intelligent_monster_move`. -/
def calculate_intelligent_monster_move (d : Dungeon) (c : Character_T) (rng : List Nat) :
    Option (Direction_T × List Nat) :=
  match erratic_roll c.behavior rng with
  | none => none
  | some (true, rng1) => calculate_random_move d c rng1
  | some (false, rng1) =>
    match c.cost with
    | none => none
    | some cost => (intelligent_scan d c cost).map fun dir => (dir, rng1)

/-- One block of the scan of `calculate_unintelligent_monster_move`: an open neighbour
closer to the player than the best so far replaces it. -/
def consider_distance (d : Dungeon) (behavior : Nat) (py px : Int) (bounds : Bool) (a b : Int)
    (dir : Direction_T) (st : Direction_T × Int) : Option (Direction_T × Int) :=
  match can_enter d behavior bounds a b with
  | none => none
  | some false => some st
  | some true =>
    some (if manhattan_distance a b py px < st.2 then (dir, manhattan_distance a b py px)
      else st)

/-- The first block of that scan takes north whenever it is open. -/
def consider_north (d : Dungeon) (behavior : Nat) (py px : Int) (bounds : Bool) (a b : Int)
    (st : Direction_T × Int) : Option (Direction_T × Int) :=
  match can_enter d behavior bounds a b with
  | none => none
  | some false => some st
  | some true => some (.NORTH, manhattan_distance a b py px)

/-- Embedding of `calculate_unintelligent_monster_move`. -/
def calculate_unintelligent_monster_move (d : Dungeon_T) (c : Character_T) (rng : List Nat) :
    Option (Direction_T × List Nat) :=
  match erratic_roll c.behavior rng with
  | none => none
  | some (true, rng1) => calculate_random_move d.toDungeon c rng1
  | some (false, rng1) =>
    match d.player with
    | none => none
    | some p =>
      let py := (d.chars p).y
      let px := (d.chars p).x
      let g := d.toDungeon
      let b := c.behavior
      ((consider_north g b py px (decide (c.y - 1 > 0)) (c.y - 1) c.x (.STUCK, INT_MAX)).bind
        fun s1 =>
      (consider_distance g b py px (decide (c.y + 1 < d.height)) (c.y + 1) c.x .SOUTH s1).bind
        fun s2 =>
      (consider_distance g b py px (decide (c.x - 1 > 0)) c.y (c.x - 1) .WEST s2).bind fun s3 =>
      (consider_distance g b py px (decide (c.x + 1 < d.width)) c.y (c.x + 1) .EAST s3).bind
        fun s4 =>
      (consider_distance g b py px (decide (c.y - 1 > 0 ∧ c.x - 1 > 0)) (c.y - 1) (c.x - 1)
        .NORTHWEST s4).bind fun s5 =>
      (consider_distance g b py px (decide (c.y - 1 > 0 ∧ c.x + 1 < d.width)) (c.y - 1)
        (c.x + 1) .NORTHEAST s5).bind fun s6 =>
      (consider_distance g b py px (decide (c.y + 1 < d.height ∧ c.x - 1 > 0)) (c.y + 1)
        (c.x - 1) .SOUTHWEST s6).bind fun s7 =>
      consider_distance g b py px (decide (c.y + 1 < d.height ∧ c.x + 1 < d.width)) (c.y + 1)
        (c.x + 1) .SOUTHEAST s7).map fun s8 => (s8.1, rng1)

/-- The `switch (direction)` of `do_character_move`: the target cell, `none` for `STUCK`. -/
def target (y x : Int) : Direction_T → Option (Int × Int)
  | .NORTH => some (y - 1, x)
  | .SOUTH => some (y + 1, x)
  | .WEST => some (y, x - 1)
  | .EAST => some (y, x + 1)
  | .NORTHWEST => some (y - 1, x - 1)
  | .NORTHEAST => some (y - 1, x + 1)
  | .SOUTHWEST => some (y + 1, x - 1)
  | .SOUTHEAST => some (y + 1, x + 1)
  | .STUCK => none

/-- Embedding of `build_dungeon_cost_maps`; `fuel`, `m0`, `v0` are handed to
`generate_dijkstra_map`. -/
def build_dungeon_cost_maps (fuel : Nat) (m0 : Mem) (v0 : Nat → Vertex) (d : Dungeon_T)
    (regular_map tunnel_map : Bool) : Option Dungeon_T :=
  match d.player with
  | none => none
  | some p =>
    let sources := [(d.chars p).y, (d.chars p).x]
    match (if regular_map then
        (generate_dijkstra_map fuel m0 v0 d.toDungeon 1 sources CHARACTER_DIAGONAL_TRAVEL
          .REGULAR_MAP).map fun D => { d with regular_cost := some D }
      else some d) with
    | none => none
    | some d1 =>
      if tunnel_map then
        (generate_dijkstra_map fuel m0 v0 d1.toDungeon 1 sources CHARACTER_DIAGONAL_TRAVEL
          .TUNNEL_MAP).map fun D => { d1 with tunnel_cost := some D }
      else some d1

/-- The block `d->MAP(y, x).character = c; d->MAP(c->y, c->x).character = NULL; c->y = y;
c->x = x;` of `do_character_move`. -/
def relocate (d : Dungeon_T) (c : Nat) (y x : Int) : Option Dungeon_T :=
  match getCell d.toDungeon y x with
  | none => none
  | some cell =>
    match setMap d y x { cell with character := some c } with
    | none => none
    | some d1 =>
      match getCell d1.toDungeon (d1.chars c).y (d1.chars c).x with
      | none => none
      | some old =>
        match setMap d1 (d1.chars c).y (d1.chars c).x { old with character := none } with
        | none => none
        | some d2 => some (setChar d2 c { d2.chars c with y := y, x := x })

/-- Embedding of `do_character_move`: returns the character found on the target cell. -/
def do_character_move (fuel : Nat) (m0 : Mem) (v0 : Nat → Vertex) (d : Dungeon_T) (c : Nat)
    (direction : Direction_T) : Option (Option Nat × Dungeon_T) :=
  match target (d.chars c).y (d.chars c).x direction with
  | none => some (none, d)
  | some (y, x) =>
    match getCell d.toDungeon y x with
    | none => none
    | some cell =>
      let killed := cell.character
      if cell.hardness ≠ 0 then
        let hardness := if cell.hardness - 85 > 0 then cell.hardness - 85 else 0
        match setMap d y x { cell with hardness := hardness } with
        | none => none
        | some d1 =>
          if hardness = 0 then
            match setMap d1 y x { cell with hardness := hardness, type := .CORRIDOR } with
            | none => none
            | some d2 =>
              match build_dungeon_cost_maps fuel m0 v0 d2 true true with
              | none => none
              | some d3 => (relocate d3 c y x).map fun d4 => (killed, d4)
          else (build_dungeon_cost_maps fuel m0 v0 d1 false true).map fun d2 => (killed, d2)
      else (relocate d c y x).map fun d1 => (killed, d1)

end Source

namespace Source

/-- Embedding of `build_character_cost_map` with one source. -/
def build_character_cost_map (fuel : Nat) (m0 : Mem) (v0 : Nat → Vertex) (d : Dungeon_T)
    (c : Nat) (sy sx : Int) : Option Dungeon_T :=
  (generate_dijkstra_map fuel m0 v0 d.toDungeon 1 [sy, sx] CHARACTER_DIAGONAL_TRAVEL
    (if hasFlag (d.chars c).behavior TUNNELER then .TUNNEL_MAP else .REGULAR_MAP)).map
    fun D => setChar d c { d.chars c with cost := some D }

/-- The block of `move_monster` shared by the telepathic and the line-of-sight case: the
monster follows the shared cost field of the dungeon. -/
def follow_shared_field (fuel : Nat) (m0 : Mem) (v0 : Nat → Vertex) (d : Dungeon_T) (c : Nat)
    (rng : List Nat) : Option (Option Nat × Dungeon_T × List Nat) :=
  let d1 := setChar d c { d.chars c with
    cost := if hasFlag (d.chars c).behavior TUNNELER then d.tunnel_cost else d.regular_cost }
  match calculate_intelligent_monster_move d1.toDungeon (d1.chars c) rng with
  | none => none
  | some (direction, rng1) =>
    match do_character_move fuel m0 v0 d1 c direction with
    | none => none
    | some (killed, d2) => some (killed, setChar d2 c { d2.chars c with cost := none }, rng1)

/-- Embedding of `move_monster`: returns the character killed, if any. -/
def move_monster (fuel : Nat) (m0 : Mem) (v0 : Nat → Vertex) (d : Dungeon_T) (c : Nat)
    (rng : List Nat) : Option (Option Nat × Dungeon_T × List Nat) :=
  let b := (d.chars c).behavior
  if hasFlag b INTELLIGENT ∧ hasFlag b TELEPATHIC then follow_shared_field fuel m0 v0 d c rng
  else if hasFlag b INTELLIGENT then
    match can_see_player fuel d (d.chars c) with
    | none => none
    | some true =>
      match d.player with
      | none => none
      | some p =>
        follow_shared_field fuel m0 v0
          (setChar d c { d.chars c with last_y := (d.chars p).y, last_x := (d.chars p).x }) c rng
    | some false =>
      if (d.chars c).last_y = -1 ∧ (d.chars c).last_x = -1 then
        some (none, setChar d c { d.chars c with
          last_y := (d.chars c).y, last_x := (d.chars c).x }, rng)
      else if (d.chars c).y = (d.chars c).last_y ∧ (d.chars c).x = (d.chars c).last_x then
        some (none, d, rng)
      else
        match build_character_cost_map fuel m0 v0 d c (d.chars c).last_y (d.chars c).last_x with
        | none => none
        | some d1 =>
          match calculate_intelligent_monster_move d1.toDungeon (d1.chars c) rng with
          | none => none
          | some (direction, rng1) =>
            (do_character_move fuel m0 v0 d1 c direction).map fun r => (r.1, r.2, rng1)
  else
    match (if hasFlag b TELEPATHIC then some true else can_see_player fuel d (d.chars c)) with
    | none => none
    | some true =>
      match calculate_unintelligent_monster_move d (d.chars c) rng with
      | none => none
      | some (direction, rng1) =>
        (do_character_move fuel m0 v0 d c direction).map fun r => (r.1, r.2, rng1)
    | some false =>
      match calculate_random_move d.toDungeon (d.chars c) rng with
      | none => none
      | some (direction, rng1) =>
        (do_character_move fuel m0 v0 d c direction).map fun r => (r.1, r.2, rng1)

/-- Embedding of `move_player`, which returns `NULL`. -/
def move_player (d : Dungeon_T) (_c : Nat) (rng : List Nat) :
    Option (Option Nat × Dungeon_T × List Nat) :=
  some (none, d, rng)

/-- The call `cn->c->player ? move_player(cn->c) : move_monster(cn->c)` of `play_dungeon`. -/
def move_character (fuel : Nat) (m0 : Mem) (v0 : Nat → Vertex) (d : Dungeon_T) (c : Nat)
    (rng : List Nat) : Option (Option Nat × Dungeon_T × List Nat) :=
  if (d.chars c).player then move_player d c rng else move_monster fuel m0 v0 d c rng

end Source

namespace Source

/-! ### The scan of `calculate_intelligent_monster_move` -/

/-- The eight directions in the order of the scan. -/
def scanOrder : List Direction_T :=
  [.NORTH, .SOUTH, .WEST, .EAST, .NORTHWEST, .NORTHEAST, .SOUTHWEST, .SOUTHEAST]

/-- The bounds test the scan makes before it inspects the neighbour in a direction. -/
def inspects (d : Dungeon) (c : Character_T) : Direction_T → Prop
  | .NORTH => c.y - 1 > 0
  | .SOUTH => c.y + 1 < d.height
  | .WEST => c.x - 1 > 0
  | .EAST => c.x + 1 < d.width
  | .NORTHWEST => c.y - 1 > 0 ∧ c.x - 1 > 0
  | .NORTHEAST => c.y - 1 > 0 ∧ c.x + 1 < d.width
  | .SOUTHWEST => c.y + 1 < d.height ∧ c.x - 1 > 0
  | .SOUTHEAST => c.y + 1 < d.height ∧ c.x + 1 < d.width
  | .STUCK => False

instance (d : Dungeon) (c : Character_T) (dir : Direction_T) : Decidable (inspects d c dir) := by
  cases dir <;> unfold inspects <;> infer_instance

/-- The cost of the neighbour in a direction (`INT_MAX` for `STUCK`). -/
def costAt (d : Dungeon) (c : Character_T) (cost : Nat → Int) (dir : Direction_T) : Int :=
  match target c.y c.x dir with
  | some (y, x) => cost (COST d y x)
  | none => INT_MAX

/-- The state of the scan after the directions `ds`, as a fold. -/
def scanFold (d : Dungeon) (c : Character_T) (cost : Nat → Int) :
    List Direction_T → Direction_T × Int → Direction_T × Int
  | [], st => st
  | dir :: ds, st =>
    scanFold d c cost ds
      (if inspects d c dir ∧ costAt d c cost dir < st.2 then (dir, costAt d c cost dir) else st)

theorem consider_eq {d : Dungeon} {c : Character_T} {cost : Nat → Int} (dir : Direction_T)
    {y x : Int} (ht : target c.y c.x dir = some (y, x)) (hg : inspects d c dir → InGrid d y x)
    (st : Direction_T × Int) :
    consider d cost (decide (inspects d c dir)) y x dir st =
      some (if inspects d c dir ∧ costAt d c cost dir < st.2 then (dir, costAt d c cost dir)
        else st) := by
  unfold consider costAt
  rw [ht]
  by_cases hb : inspects d c dir
  · simp only [hb, decide_True, if_true, true_and, getCost_of_InGrid cost (hg hb)]
  · simp only [hb, decide_False, false_and, if_false]
    rfl

/-- For a character inside the grid the scan reads inside the cost array and computes the
fold over the eight directions. -/
theorem intelligent_scan_eq (d : Dungeon) (c : Character_T) (cost : Nat → Int)
    (hg : InGrid d c.y c.x) :
    intelligent_scan d c cost = some (scanFold d c cost scanOrder (.STUCK, INT_MAX)).1 := by
  unfold InGrid at hg
  unfold intelligent_scan
  rw [show decide (c.y - 1 > 0) = decide (inspects d c .NORTH) from rfl,
    consider_eq .NORTH rfl (fun h => by unfold inspects at h; unfold InGrid; omega)]
  simp only [Option.some_bind]
  rw [show decide (c.y + 1 < (d.height : Int)) = decide (inspects d c .SOUTH) from rfl,
    consider_eq .SOUTH rfl (fun h => by unfold inspects at h; unfold InGrid; omega)]
  simp only [Option.some_bind]
  rw [show decide (c.x - 1 > 0) = decide (inspects d c .WEST) from rfl,
    consider_eq .WEST rfl (fun h => by unfold inspects at h; unfold InGrid; omega)]
  simp only [Option.some_bind]
  rw [show decide (c.x + 1 < (d.width : Int)) = decide (inspects d c .EAST) from rfl,
    consider_eq .EAST rfl (fun h => by unfold inspects at h; unfold InGrid; omega)]
  simp only [Option.some_bind]
  rw [show decide (c.y - 1 > 0 ∧ c.x - 1 > 0) = decide (inspects d c .NORTHWEST) from rfl,
    consider_eq .NORTHWEST rfl
      (fun h => by unfold inspects at h; unfold InGrid; omega)]
  simp only [Option.some_bind]
  rw [show decide (c.y - 1 > 0 ∧ c.x + 1 < (d.width : Int)) =
      decide (inspects d c .NORTHEAST) from rfl,
    consider_eq .NORTHEAST rfl
      (fun h => by unfold inspects at h; unfold InGrid; omega)]
  simp only [Option.some_bind]
  rw [show decide (c.y + 1 < (d.height : Int) ∧ c.x - 1 > 0) =
      decide (inspects d c .SOUTHWEST) from rfl,
    consider_eq .SOUTHWEST rfl
      (fun h => by unfold inspects at h; unfold InGrid; omega)]
  simp only [Option.some_bind]
  rw [show decide (c.y + 1 < (d.height : Int) ∧ c.x + 1 < (d.width : Int)) =
      decide (inspects d c .SOUTHEAST) from rfl,
    consider_eq .SOUTHEAST rfl
      (fun h => by unfold inspects at h; unfold InGrid; omega)]
  rfl

end Source

namespace Source

/-- What the scan holds after a list of directions: either nothing beat the start, or the
first direction that attains the minimum below the start. -/
theorem scanFold_spec (d : Dungeon) (c : Character_T) (cost : Nat → Int) :
    ∀ (ds : List Direction_T) (st : Direction_T × Int),
    (scanFold d c cost ds st = st ∧
      ∀ dir ∈ ds, inspects d c dir → st.2 ≤ costAt d c cost dir) ∨
    ∃ pre post, ds = pre ++ (scanFold d c cost ds st).1 :: post ∧
      inspects d c (scanFold d c cost ds st).1 ∧
      (scanFold d c cost ds st).2 = costAt d c cost (scanFold d c cost ds st).1 ∧
      (scanFold d c cost ds st).2 < st.2 ∧
      (∀ dir ∈ pre, inspects d c dir → (scanFold d c cost ds st).2 < costAt d c cost dir) ∧
      (∀ dir ∈ post, inspects d c dir → (scanFold d c cost ds st).2 ≤ costAt d c cost dir)
  | [], st => Or.inl ⟨rfl, fun _ h => absurd h (List.not_mem_nil _)⟩
  | dir :: ds, st => by
    by_cases hb : inspects d c dir ∧ costAt d c cost dir < st.2
    · have e : scanFold d c cost (dir :: ds) st =
          scanFold d c cost ds (dir, costAt d c cost dir) := by
        simp only [scanFold, if_pos hb]
      rw [e]
      rcases scanFold_spec d c cost ds (dir, costAt d c cost dir) with ⟨h1, h2⟩ |
        ⟨pre, post, h1, h2, h3, h4, h5, h6⟩
      · right
        rw [h1]
        exact ⟨[], ds, rfl, hb.1, rfl, hb.2, fun _ h => absurd h (List.not_mem_nil _), h2⟩
      · right
        refine ⟨dir :: pre, post, by rw [List.cons_append, ← h1], h2, h3,
          lt_trans h4 hb.2, ?_, h6⟩
        intro x hx hi
        rcases List.mem_cons.mp hx with e1 | e1
        · rw [e1]; exact h4
        · exact h5 x e1 hi
    · have e : scanFold d c cost (dir :: ds) st = scanFold d c cost ds st := by
        simp only [scanFold, if_neg hb]
      rw [e]
      have hdir : inspects d c dir → st.2 ≤ costAt d c cost dir := by
        intro hi
        by_contra hlt
        exact hb ⟨hi, by omega⟩
      rcases scanFold_spec d c cost ds st with ⟨h1, h2⟩ | ⟨pre, post, h1, h2, h3, h4, h5, h6⟩
      · left
        refine ⟨h1, ?_⟩
        intro x hx hi
        rcases List.mem_cons.mp hx with e1 | e1
        · rw [e1] at hi ⊢; exact hdir hi
        · exact h2 x e1 hi
      · right
        refine ⟨dir :: pre, post, by rw [List.cons_append, ← h1], h2, h3, h4, ?_, h6⟩
        intro x hx hi
        rcases List.mem_cons.mp hx with e1 | e1
        · rw [e1] at hi ⊢; have := hdir hi; omega
        · exact h5 x e1 hi

/-- C20: in its non-erratic branch, for a character inside the grid and a cost array of C
`int` values, `calculate_intelligent_monster_move` returns `STUCK` exactly when every
neighbour it may inspect has cost `INT_MAX`; otherwise it returns a direction it may
inspect whose neighbour has the minimum cost among the neighbours it may inspect, and every
direction before it in the order N, S, W, E, NW, NE, SW, SE has a strictly larger cost (a
later direction of equal cost never replaces an earlier one). -/
theorem calculate_intelligent_monster_move_first_minimum (d : Dungeon) (c : Character_T)
    (cost : Nat → Int) (rng rng1 : List Nat) (hg : InGrid d c.y c.x)
    (hc : c.cost = some cost) (hint : ∀ i, cost i ≤ INT_MAX)
    (hroll : erratic_roll c.behavior rng = some (false, rng1)) :
    ∃ r, calculate_intelligent_monster_move d c rng = some (r, rng1) ∧
      (r = .STUCK ↔ ∀ dir ∈ scanOrder, inspects d c dir → costAt d c cost dir = INT_MAX) ∧
      (r ≠ .STUCK → inspects d c r ∧
        (∀ dir ∈ scanOrder, inspects d c dir → costAt d c cost r ≤ costAt d c cost dir) ∧
        ∃ pre post, scanOrder = pre ++ r :: post ∧
          ∀ dir ∈ pre, inspects d c dir → costAt d c cost r < costAt d c cost dir) := by
  have hmax : ∀ dir, costAt d c cost dir ≤ INT_MAX := by
    intro dir
    unfold costAt
    split
    · exact hint _
    · exact le_refl _
  refine ⟨(scanFold d c cost scanOrder (.STUCK, INT_MAX)).1, ?_, ?_⟩
  · unfold calculate_intelligent_monster_move
    rw [hroll]
    simp only [hc, intelligent_scan_eq d c cost hg, Option.map_some']
  rcases scanFold_spec d c cost scanOrder (.STUCK, INT_MAX) with ⟨h1, h2⟩ |
    ⟨pre, post, h1, h2, h3, h4, h5, h6⟩
  · rw [h1]
    refine ⟨⟨fun _ dir hd hi => le_antisymm (hmax dir) (h2 dir hd hi), fun _ => rfl⟩,
      fun h => absurd rfl h⟩
  · generalize scanFold d c cost scanOrder (.STUCK, INT_MAX) = res at h1 h2 h3 h4 h5 h6
    have hmem : res.1 ∈ scanOrder := by rw [h1]; simp
    have hns : res.1 ≠ .STUCK := by
      intro e
      rw [e] at hmem
      simp [scanOrder] at hmem
    refine ⟨⟨fun e => absurd e hns, ?_⟩, fun _ => ⟨h2, ?_, pre, post, h1, ?_⟩⟩
    · intro hall
      have := hall res.1 hmem h2
      simp only at h4
      omega
    · intro dir hd hi
      rw [h1] at hd
      rw [← h3]
      rcases List.mem_append.mp hd with e | e
      · exact le_of_lt (h5 dir e hi)
      · rcases List.mem_cons.mp e with e2 | e2
        · rw [e2, h3]
        · exact h6 dir e2 hi
    · intro dir hd hi
      rw [← h3]
      exact h5 dir hd hi

/-- A cost array for the 5 x 5 example: 3 north and west of the centre, 9 elsewhere. -/
def exCost : Nat → Int := fun i => if i = 7 then 3 else if i = 11 then 3 else 9

/-- An intelligent and telepathic monster on the centre cell of the 5 x 5 example. -/
def exMonster : Character_T :=
  { y := 2, x := 2, last_y := -1, last_x := -1, speed := 20, behavior := 3, player := false,
    cost := some exCost }

theorem exCost_le (i : Nat) : exCost i ≤ INT_MAX := by
  unfold exCost INT_MAX
  split
  · omega
  · split <;> omega

theorem calculate_intelligent_monster_move_first_minimum_witness :
    InGrid exDungeon exMonster.y exMonster.x ∧ exMonster.cost = some exCost ∧
    (∀ i, exCost i ≤ INT_MAX) ∧ erratic_roll exMonster.behavior [] = some (false, []) ∧
    ∃ r, calculate_intelligent_monster_move exDungeon exMonster [] = some (r, []) ∧
      (r = .STUCK ↔
        ∀ dir ∈ scanOrder, inspects exDungeon exMonster dir →
          costAt exDungeon exMonster exCost dir = INT_MAX) ∧
      (r ≠ .STUCK → inspects exDungeon exMonster r ∧
        (∀ dir ∈ scanOrder, inspects exDungeon exMonster dir →
          costAt exDungeon exMonster exCost r ≤ costAt exDungeon exMonster exCost dir) ∧
        ∃ pre post, scanOrder = pre ++ r :: post ∧
          ∀ dir ∈ pre, inspects exDungeon exMonster dir →
            costAt exDungeon exMonster exCost r < costAt exDungeon exMonster exCost dir) :=
  ⟨by decide, rfl, exCost_le, by decide,
    calculate_intelligent_monster_move_first_minimum exDungeon exMonster exCost [] []
      (by decide) rfl exCost_le (by decide)⟩

end Source

namespace Source

/-! ### Moving onto a cell: `do_character_move` -/

/-- The dungeon after a write to `d->MAP(a, b)` inside the map. -/
def putMap (d : Dungeon_T) (a b : Int) (c : Cell) : Dungeon_T :=
  { d with map := fun k => if k = (a * d.width + b).toNat then c else d.map k }

theorem setMap_of_InGrid {d : Dungeon_T} {a b : Int} (c : Cell) (h : InGrid d.toDungeon a b) :
    setMap d a b c = some (putMap d a b c) := by
  unfold setMap
  rw [if_pos (inMap_of_InGrid h)]
  rfl

theorem putMap_same (d : Dungeon_T) (a b : Int) (c : Cell) : (putMap d a b c).MAP a b = c := by
  simp [putMap, Dungeon.MAP]

theorem putMap_other {d : Dungeon_T} {a b a2 b2 : Int} (c : Cell)
    (hg : InGrid d.toDungeon a b) (hg2 : InGrid d.toDungeon a2 b2) (hne : ¬ (a2 = a ∧ b2 = b)) :
    (putMap d a b c).MAP a2 b2 = d.MAP a2 b2 := by
  have hc : COST d.toDungeon a2 b2 ≠ COST d.toDungeon a b := fun e => hne (COST_inj hg2 hg e)
  unfold COST at hc
  simp only [putMap, Dungeon.MAP]
  rw [if_neg hc]

theorem target_ne {y x a b : Int} {dir : Direction_T} (h : target y x dir = some (a, b)) :
    ¬ (y = a ∧ x = b) := by
  rintro ⟨e1, e2⟩
  subst e1 e2
  cases dir <;> simp [target] at h

/-- The two dungeons differ in their shared cost fields only. -/
def SameButCosts (d d2 : Dungeon_T) : Prop :=
  d2.toDungeon = d.toDungeon ∧ d2.chars = d.chars ∧ d2.player = d.player ∧
  d2.monsters = d.monsters ∧ d2.num_monsters = d.num_monsters

/-- `build_dungeon_cost_maps` returns when the player stands inside the grid, and changes
the shared cost fields only. -/
theorem build_dungeon_cost_maps_spec (fuel : Nat) (m0 : Mem) (v0 : Nat → Vertex)
    (d : Dungeon_T) (regular_map tunnel_map : Bool) {p : Nat} (hp : d.player = some p)
    (hpg : InGrid d.toDungeon (d.chars p).y (d.chars p).x)
    (hf : (d.height - 2) * (d.width - 2) ≤ fuel) :
    ∃ d2, build_dungeon_cost_maps fuel m0 v0 d regular_map tunnel_map = some d2 ∧
      SameButCosts d d2 := by
  obtain ⟨D1, e1, _⟩ := generate_single_spec fuel m0 v0 d.toDungeon (d.chars p).y (d.chars p).x
    CHARACTER_DIAGONAL_TRAVEL .REGULAR_MAP hpg hf
  obtain ⟨D2, e2, _⟩ := generate_single_spec fuel m0 v0 d.toDungeon (d.chars p).y (d.chars p).x
    CHARACTER_DIAGONAL_TRAVEL .TUNNEL_MAP hpg hf
  have e3 : generate_dijkstra_map fuel m0 v0
      ({ d with regular_cost := some D1 } : Dungeon_T).toDungeon 1
      [(d.chars p).y, (d.chars p).x] CHARACTER_DIAGONAL_TRAVEL .TUNNEL_MAP = some D2 := e2
  unfold build_dungeon_cost_maps
  rw [hp]
  simp only
  cases regular_map <;> cases tunnel_map
  · exact ⟨d, rfl, rfl, rfl, rfl, rfl, rfl⟩
  · simp only [Bool.false_eq_true, if_false, if_true, e2, Option.map_some']
    exact ⟨_, rfl, rfl, rfl, rfl, rfl, rfl⟩
  · simp only [Bool.false_eq_true, if_false, if_true, e1, Option.map_some']
    exact ⟨_, rfl, rfl, rfl, hp.symm, rfl, rfl⟩
  · simp only [if_true, e1, Option.map_some', e3]
    exact ⟨_, rfl, rfl, rfl, hp.symm, rfl, rfl⟩

/-- `relocate` puts the character on the target cell. -/
theorem relocate_spec (d : Dungeon_T) (c : Nat) (y x : Int) (hg : InGrid d.toDungeon y x)
    (hm : InGrid d.toDungeon (d.chars c).y (d.chars c).x)
    (hne : ¬ ((d.chars c).y = y ∧ (d.chars c).x = x)) :
    ∃ d2, relocate d c y x = some d2 ∧ d2.height = d.height ∧ d2.width = d.width ∧
      d2.player = d.player ∧
      d2.MAP y x = { d.MAP y x with character := some c } ∧
      (d2.chars c).y = y ∧ (d2.chars c).x = x := by
  have hm1 : InGrid (putMap d y x { d.MAP y x with character := some c }).toDungeon
      (d.chars c).y (d.chars c).x := hm
  have hg1 : InGrid (putMap d y x { d.MAP y x with character := some c }).toDungeon y x := hg
  refine ⟨setChar (putMap (putMap d y x { d.MAP y x with character := some c }) (d.chars c).y
    (d.chars c).x { (putMap d y x { d.MAP y x with character := some c }).MAP (d.chars c).y
      (d.chars c).x with character := none }) c { d.chars c with y := y, x := x },
    ?_, ?_, ?_, ?_, ?_, ?_, ?_⟩
  · unfold relocate
    rw [getCell_of_InGrid hg]
    simp only
    rw [setMap_of_InGrid _ hg]
    simp only
    rw [show (putMap d y x { d.MAP y x with character := some c }).chars = d.chars from rfl,
      getCell_of_InGrid hm1]
    simp only
    rw [setMap_of_InGrid _ hm1]
    rfl
  · rfl
  · rfl
  · rfl
  · show (putMap (putMap d y x { d.MAP y x with character := some c }) (d.chars c).y
      (d.chars c).x _).MAP y x = _
    rw [putMap_other _ hm1 hg1 (fun e => hne ⟨e.1.symm, e.2.symm⟩), putMap_same]
  · simp [setChar]
  · simp [setChar]

end Source

namespace Source

/-- One `do_character_move` onto a cell of hardness `1..254`: the hardness drops by 85,
floored at 0; at 0 the cell becomes a corridor and the mover relocates, otherwise only the
hardness of that cell changes. -/
theorem do_character_move_dig (fuel : Nat) (m0 : Mem) (v0 : Nat → Vertex) (d : Dungeon_T)
    (c p : Nat) (direction : Direction_T) (y x : Int)
    (ht : target (d.chars c).y (d.chars c).x direction = some (y, x))
    (hg : InGrid d.toDungeon y x) (hm : InGrid d.toDungeon (d.chars c).y (d.chars c).x)
    (hp : d.player = some p) (hpg : InGrid d.toDungeon (d.chars p).y (d.chars p).x)
    (hpos : 0 < (d.MAP y x).hardness)
    (hf : (d.height - 2) * (d.width - 2) ≤ fuel) :
    ∃ d2, do_character_move fuel m0 v0 d c direction = some ((d.MAP y x).character, d2) ∧
      d2.height = d.height ∧ d2.width = d.width ∧ d2.player = d.player ∧
      (85 < (d.MAP y x).hardness → d2.chars = d.chars ∧
        d2.MAP y x = { d.MAP y x with hardness := (d.MAP y x).hardness - 85 } ∧
        ∀ a b, InGrid d.toDungeon a b → ¬ (a = y ∧ b = x) → d2.MAP a b = d.MAP a b) ∧
      ((d.MAP y x).hardness ≤ 85 →
        d2.MAP y x = { d.MAP y x with hardness := 0, type := .CORRIDOR, character := some c } ∧
        (d2.chars c).y = y ∧ (d2.chars c).x = x) := by
  have hne0 : (d.MAP y x).hardness ≠ 0 := by omega
  unfold do_character_move
  rw [ht]
  simp only
  rw [getCell_of_InGrid hg]
  simp only [hne0, ne_eq, not_false_eq_true, if_true]
  rw [setMap_of_InGrid _ hg]
  simp only
  by_cases hbig : 85 < (d.MAP y x).hardness
  · have h1 : (d.MAP y x).hardness - 85 > 0 := by omega
    have h2 : ¬ ((d.MAP y x).hardness - 85 = 0) := by omega
    simp only [h1, if_true, h2, if_false]
    obtain ⟨d2, e2, s1, s2, s3, _⟩ := build_dungeon_cost_maps_spec fuel m0 v0
      (putMap d y x { d.MAP y x with hardness := (d.MAP y x).hardness - 85 }) false true
      (p := p) hp hpg hf
    rw [e2]
    refine ⟨d2, rfl, ?_, ?_, ?_, ?_, fun h => absurd h (by omega)⟩
    · rw [show d2.height = d2.toDungeon.height from rfl, s1]; rfl
    · rw [show d2.width = d2.toDungeon.width from rfl, s1]; rfl
    · rw [s3]; rfl
    · intro _
      refine ⟨by rw [s2]; rfl, ?_, ?_⟩
      · rw [show d2.MAP y x = d2.toDungeon.MAP y x from rfl, s1]
        exact putMap_same _ _ _ _
      · intro a b hab hne
        rw [show d2.MAP a b = d2.toDungeon.MAP a b from rfl, s1]
        exact putMap_other _ hg hab hne
  · have h1 : ¬ ((d.MAP y x).hardness - 85 > 0) := by omega
    simp only [h1, if_false, if_true]
    have hg1 : InGrid (putMap d y x { d.MAP y x with hardness := 0 }).toDungeon y x := hg
    rw [setMap_of_InGrid _ hg1]
    simp only
    obtain ⟨d3, e3, s1, s2, s3, _⟩ := build_dungeon_cost_maps_spec fuel m0 v0
      (putMap (putMap d y x { d.MAP y x with hardness := 0 }) y x
        { d.MAP y x with hardness := 0, type := .CORRIDOR }) true true (p := p) hp hpg hf
    rw [e3]
    simp only
    have hd3h : d3.height = d.height := by
      rw [show d3.height = d3.toDungeon.height from rfl, s1]; rfl
    have hd3w : d3.width = d.width := by
      rw [show d3.width = d3.toDungeon.width from rfl, s1]; rfl
    have hg3 : InGrid d3.toDungeon y x := by
      unfold InGrid at hg ⊢; rw [hd3h, hd3w]; exact hg
    have hm3 : InGrid d3.toDungeon (d3.chars c).y (d3.chars c).x := by
      rw [s2]
      unfold InGrid at hm ⊢; rw [hd3h, hd3w]; exact hm
    have hne3 : ¬ ((d3.chars c).y = y ∧ (d3.chars c).x = x) := by
      rw [s2]
      exact target_ne ht
    obtain ⟨d4, e4, t1, t2, t3, t4, t5, t6⟩ := relocate_spec d3 c y x hg3 hm3 hne3
    rw [e4]
    refine ⟨d4, rfl, t1.trans hd3h, t2.trans hd3w, ?_, fun h => absurd h hbig, ?_⟩
    · rw [t3, s3]; rfl
    · intro _
      refine ⟨?_, t5, t6⟩
      rw [t4, show d3.MAP y x = d3.toDungeon.MAP y x from rfl, s1, putMap_same]

end Source

namespace Source

/-- Repeated attempts: `n` calls of `do_character_move` for the same character and
direction. -/
def attempts (fuel : Nat) (m0 : Mem) (v0 : Nat → Vertex) (c : Nat) (direction : Direction_T) :
    Nat → Dungeon_T → Option Dungeon_T
  | 0, d => some d
  | n + 1, d =>
    match do_character_move fuel m0 v0 d c direction with
    | none => none
    | some (_, d1) => attempts fuel m0 v0 c direction n d1

/-- As long as the hardness stays positive the attempts only lower it. -/
theorem attempts_fail (fuel : Nat) (m0 : Mem) (v0 : Nat → Vertex) (c p : Nat)
    (direction : Direction_T) (y x : Int) : ∀ (j : Nat) (d : Dungeon_T),
    target (d.chars c).y (d.chars c).x direction = some (y, x) →
    InGrid d.toDungeon y x → InGrid d.toDungeon (d.chars c).y (d.chars c).x →
    d.player = some p → InGrid d.toDungeon (d.chars p).y (d.chars p).x →
    (d.height - 2) * (d.width - 2) ≤ fuel → 85 * (j : Int) < (d.MAP y x).hardness →
    ∃ dj, attempts fuel m0 v0 c direction j d = some dj ∧
      dj.height = d.height ∧ dj.width = d.width ∧ dj.player = d.player ∧ dj.chars = d.chars ∧
      dj.MAP y x = { d.MAP y x with hardness := (d.MAP y x).hardness - 85 * j } := by
  intro j
  induction j with
  | zero =>
    intro d _ _ _ _ _ _ _
    exact ⟨d, rfl, rfl, rfl, rfl, rfl, by simp⟩
  | succ j ih =>
    intro d ht hg hm hp hpg hf hj
    push_cast at hj
    obtain ⟨d1, e1, a1, a2, a3, a4, _⟩ := do_character_move_dig fuel m0 v0 d c p direction y x
      ht hg hm hp hpg (by omega) hf
    obtain ⟨b1, b2, _⟩ := a4 (by omega)
    have hg1 : InGrid d1.toDungeon y x := by
      unfold InGrid at hg ⊢; rw [a1, a2]; exact hg
    obtain ⟨dj, e2, c1, c2, c3, c4, c5⟩ := ih d1 (by rw [b1]; exact ht) hg1
      (by rw [b1]; unfold InGrid at hm ⊢; rw [a1, a2]; exact hm) (a3.trans hp)
      (by rw [b1]; unfold InGrid at hpg ⊢; rw [a1, a2]; exact hpg)
      (by rw [a1, a2]; exact hf) (by rw [b2]; simp only; omega)
    refine ⟨dj, ?_, c1.trans a1, c2.trans a2, c3.trans a3, c4.trans b1, ?_⟩
    · simp only [attempts, e1]
      exact e2
    · rw [c5, b2]
      simp only [Cell.mk.injEq, true_and, and_true]
      push_cast
      ring

/-- One more attempt after `n` attempts. -/
theorem attempts_succ (fuel : Nat) (m0 : Mem) (v0 : Nat → Vertex) (c : Nat)
    (direction : Direction_T) : ∀ (n : Nat) (d d0 : Dungeon_T) (r : Option Nat × Dungeon_T),
    attempts fuel m0 v0 c direction n d = some d0 →
    do_character_move fuel m0 v0 d0 c direction = some r →
    attempts fuel m0 v0 c direction (n + 1) d = some r.2 := by
  intro n
  induction n with
  | zero =>
    intro d d0 r h1 h2
    simp only [attempts, Option.some.injEq] at h1
    subst h1
    simp only [attempts, h2]
  | succ n ih =>
    intro d d0 r h1 h2
    rw [attempts] at h1 ⊢
    cases h3 : do_character_move fuel m0 v0 d c direction with
    | none => rw [h3] at h1; simp at h1
    | some q =>
      rw [h3] at h1
      simp only at h1 ⊢
      exact ih q.2 d0 r h1 h2

/-- C15: one `do_character_move` onto a cell of hardness `h > 0` (in particular
`0 < h < 255`) sets its hardness to `max (h - 85) 0`; if that is 0 the cell becomes a
corridor and the mover relocates onto it, otherwise the type is unchanged and the mover
stays where it was. Hence with `85 * k < h ≤ 85 * (k + 1)` the first `k` attempts leave
the cell closed and the mover in place, and attempt `k + 1`, the `ceil(h / 85)`-th, opens
the cell. -/
theorem do_character_move_lowers_hardness (fuel : Nat) (m0 : Mem) (v0 : Nat → Vertex)
    (d : Dungeon_T) (c p : Nat) (direction : Direction_T) (y x : Int)
    (ht : target (d.chars c).y (d.chars c).x direction = some (y, x))
    (hg : InGrid d.toDungeon y x) (hm : InGrid d.toDungeon (d.chars c).y (d.chars c).x)
    (hp : d.player = some p) (hpg : InGrid d.toDungeon (d.chars p).y (d.chars p).x)
    (hpos : 0 < (d.MAP y x).hardness)
    (hf : (d.height - 2) * (d.width - 2) ≤ fuel) :
    (∃ d2, do_character_move fuel m0 v0 d c direction = some ((d.MAP y x).character, d2) ∧
      (d2.MAP y x).hardness = max ((d.MAP y x).hardness - 85) 0 ∧
      ((d.MAP y x).hardness ≤ 85 → (d2.MAP y x).type = .CORRIDOR ∧
        (d2.MAP y x).character = some c ∧ (d2.chars c).y = y ∧ (d2.chars c).x = x) ∧
      (85 < (d.MAP y x).hardness → (d2.MAP y x).type = (d.MAP y x).type ∧
        (d2.chars c).y = (d.chars c).y ∧ (d2.chars c).x = (d.chars c).x)) ∧
    ∀ k : Nat, 85 * (k : Int) < (d.MAP y x).hardness →
      (d.MAP y x).hardness ≤ 85 * ((k : Int) + 1) →
      (∀ j ≤ k, ∃ dj, attempts fuel m0 v0 c direction j d = some dj ∧
        (dj.MAP y x).hardness = (d.MAP y x).hardness - 85 * j ∧
        (dj.MAP y x).type = (d.MAP y x).type ∧
        (dj.chars c).y = (d.chars c).y ∧ (dj.chars c).x = (d.chars c).x) ∧
      ∃ dn, attempts fuel m0 v0 c direction (k + 1) d = some dn ∧
        (dn.MAP y x).hardness = 0 ∧ (dn.MAP y x).type = .CORRIDOR ∧
        (dn.chars c).y = y ∧ (dn.chars c).x = x := by
  constructor
  · obtain ⟨d2, e, _, _, _, a4, a5⟩ := do_character_move_dig fuel m0 v0 d c p direction y x
      ht hg hm hp hpg hpos hf
    refine ⟨d2, e, ?_, ?_, ?_⟩
    · by_cases hbig : 85 < (d.MAP y x).hardness
      · rw [(a4 hbig).2.1]
        simp only
        rw [max_eq_left (by omega)]
      · rw [(a5 (by omega)).1]
        simp only
        rw [max_eq_right (by omega)]
    · intro h
      obtain ⟨b1, b2, b3⟩ := a5 h
      rw [b1]
      exact ⟨rfl, rfl, b2, b3⟩
    · intro h
      obtain ⟨b1, b2, _⟩ := a4 h
      rw [b1, b2]
      exact ⟨rfl, rfl, rfl⟩
  · intro k hk1 hk2
    have hfail : ∀ j ≤ k, ∃ dj, attempts fuel m0 v0 c direction j d = some dj ∧
        dj.height = d.height ∧ dj.width = d.width ∧ dj.player = d.player ∧
        dj.chars = d.chars ∧
        dj.MAP y x = { d.MAP y x with hardness := (d.MAP y x).hardness - 85 * j } := by
      intro j hj
      exact attempts_fail fuel m0 v0 c p direction y x j d ht hg hm hp hpg hf
        (by have : (j : Int) ≤ k := by exact_mod_cast hj
            omega)
    constructor
    · intro j hj
      obtain ⟨dj, e, _, _, _, c4, c5⟩ := hfail j hj
      refine ⟨dj, e, ?_, ?_, ?_, ?_⟩
      · rw [c5]
      · rw [c5]
      · rw [c4]
      · rw [c4]
    · obtain ⟨dk, e, c1, c2, c3, c4, c5⟩ := hfail k (le_refl k)
      have hgk : InGrid dk.toDungeon y x := by
        unfold InGrid at hg ⊢; rw [c1, c2]; exact hg
      obtain ⟨dn, e2, _, _, _, _, a5⟩ := do_character_move_dig fuel m0 v0 dk c p direction y x
        (by rw [c4]; exact ht) hgk
        (by rw [c4]; unfold InGrid at hm ⊢; rw [c1, c2]; exact hm) (c3.trans hp)
        (by rw [c4]; unfold InGrid at hpg ⊢; rw [c1, c2]; exact hpg)
        (by rw [c5]; simp only; omega) (by rw [c1, c2]; exact hf)
      obtain ⟨b1, b2, b3⟩ := a5 (by rw [c5]; simp only; omega)
      refine ⟨dn, ?_, ?_, ?_, b2, b3⟩
      · exact attempts_succ fuel m0 v0 c direction k d dk _ e e2
      · rw [b1]
      · rw [b1]

/-- The 5 x 5 example with the player on `(1, 1)` and a tunnelling monster on `(2, 1)`,
west of the rock cell of hardness 100. -/
def exWorld : Dungeon_T :=
  { exDungeon with
    chars := fun k =>
      if k = 0 then
        { y := 1, x := 1, last_y := -1, last_x := -1, speed := 10, behavior := 0,
          player := true, cost := none }
      else
        { y := 2, x := 1, last_y := -1, last_x := -1, speed := 20, behavior := 4,
          player := false, cost := none }
    player := some 0
    monsters := fun k => if k = 0 then some 1 else none
    num_monsters := 1
    regular_cost := none
    tunnel_cost := none }

theorem do_character_move_lowers_hardness_witness :
    target (exWorld.chars 1).y (exWorld.chars 1).x .EAST = some (2, 2) ∧
    InGrid exWorld.toDungeon 2 2 ∧
    InGrid exWorld.toDungeon (exWorld.chars 1).y (exWorld.chars 1).x ∧
    exWorld.player = some 0 ∧
    InGrid exWorld.toDungeon (exWorld.chars 0).y (exWorld.chars 0).x ∧
    0 < (exWorld.MAP 2 2).hardness ∧ (exWorld.height - 2) * (exWorld.width - 2) ≤ 9 ∧
    (∃ d2, do_character_move 9 Mem.empty exVertices exWorld 1 .EAST =
        some ((exWorld.MAP 2 2).character, d2) ∧
      (d2.MAP 2 2).hardness = max ((exWorld.MAP 2 2).hardness - 85) 0 ∧
      ((exWorld.MAP 2 2).hardness ≤ 85 → (d2.MAP 2 2).type = .CORRIDOR ∧
        (d2.MAP 2 2).character = some 1 ∧ (d2.chars 1).y = 2 ∧ (d2.chars 1).x = 2) ∧
      (85 < (exWorld.MAP 2 2).hardness → (d2.MAP 2 2).type = (exWorld.MAP 2 2).type ∧
        (d2.chars 1).y = (exWorld.chars 1).y ∧ (d2.chars 1).x = (exWorld.chars 1).x)) ∧
    ∀ k : Nat, 85 * (k : Int) < (exWorld.MAP 2 2).hardness →
      (exWorld.MAP 2 2).hardness ≤ 85 * ((k : Int) + 1) →
      (∀ j ≤ k, ∃ dj, attempts 9 Mem.empty exVertices 1 .EAST j exWorld = some dj ∧
        (dj.MAP 2 2).hardness = (exWorld.MAP 2 2).hardness - 85 * j ∧
        (dj.MAP 2 2).type = (exWorld.MAP 2 2).type ∧
        (dj.chars 1).y = (exWorld.chars 1).y ∧ (dj.chars 1).x = (exWorld.chars 1).x) ∧
      ∃ dn, attempts 9 Mem.empty exVertices 1 .EAST (k + 1) exWorld = some dn ∧
        (dn.MAP 2 2).hardness = 0 ∧ (dn.MAP 2 2).type = .CORRIDOR ∧
        (dn.chars 1).y = 2 ∧ (dn.chars 1).x = 2 :=
  ⟨by decide, by decide, by decide, rfl, by decide, by decide, by decide,
    do_character_move_lowers_hardness 9 Mem.empty exVertices exWorld 1 0 .EAST 2 2
      (by decide) (by decide) (by decide) rfl (by decide) (by decide) (by decide)⟩

end Source

namespace Source

/-- The 5 x 5 example with the player on `(1, 1)` and a tunnelling monster (neither
intelligent nor telepathic) on `(3, 1)`, next to the bottom border. -/
def exEdge : Dungeon_T :=
  { exDungeon with
    chars := fun k =>
      if k = 0 then
        { y := 1, x := 1, last_y := -1, last_x := -1, speed := 10, behavior := 0,
          player := true, cost := none }
      else
        { y := 3, x := 1, last_y := -1, last_x := -1, speed := 20, behavior := 4,
          player := false, cost := none }
    player := some 0
    monsters := fun k => if k = 0 then some 1 else none
    num_monsters := 1
    regular_cost := none
    tunnel_cost := none }

theorem exEdge_sees : can_see_player 9 exEdge (exEdge.chars 1) = some false := by decide

theorem exEdge_random :
    calculate_random_move exEdge.toDungeon (exEdge.chars 1) [1] = some (.SOUTH, []) := by
  decide

/-- C16: a move of a monster that changes a cell of hardness 255. The tunnelling monster
of `exEdge` stands on `(3, 1)`; `calculate_random_move` admits south because
`c->y + 1 < d->height` holds for the border row, the draw 1 selects it, and
`do_character_move` lowers the hardness of the border cell `(4, 1)` from 255 to 170. -/
theorem move_monster_digs_border :
    BorderOk exEdge.toDungeon ∧ Interior exEdge.toDungeon (exEdge.chars 1).y (exEdge.chars 1).x ∧
    (exEdge.MAP 4 1).hardness = 255 ∧
    ∃ d2, move_monster 9 Mem.empty exVertices exEdge 1 [1] = some (none, d2, []) ∧
      (d2.MAP 4 1).hardness = 170 := by
  refine ⟨by decide, by decide, by decide, ?_⟩
  obtain ⟨d2, e, _, _, _, a4, _⟩ := do_character_move_dig 9 Mem.empty exVertices exEdge 1 0
    .SOUTH 4 1 (by decide) (by decide) (by decide) rfl (by decide) (by decide) (by decide)
  obtain ⟨_, b2, _⟩ := a4 (by decide)
  refine ⟨d2, ?_, ?_⟩
  · have hb : (exEdge.chars 1).behavior = 4 := rfl
    have h1 : hasFlag 4 INTELLIGENT = false := by decide
    have h2 : hasFlag 4 TELEPATHIC = false := by decide
    unfold move_monster
    simp only [hb, h1, h2, Bool.false_eq_true, false_and, if_false, exEdge_sees, exEdge_random,
      e, Option.map_some']
    rfl
  · rw [b2]
    decide

end Source

namespace Source

/-- An interior cell next to the character is the target of a direction that the scan
inspects. -/
theorem neighbour_direction {d : Dungeon} {c : Character_T} {y2 x2 : Int}
    (hi : Interior d y2 x2) (hd : Dir true (c.y - y2) (c.x - x2)) :
    ∃ dir, dir ∈ scanOrder ∧ inspects d c dir ∧ target c.y c.x dir = some (y2, x2) := by
  unfold Interior at hi
  unfold Dir at hd
  rcases hd with h | h | h | h | ⟨_, h | h | h | h⟩
  · exact ⟨.SOUTH, by simp [scanOrder], by unfold inspects; omega, by
      simp only [target, Option.some.injEq, Prod.mk.injEq]; omega⟩
  · exact ⟨.NORTH, by simp [scanOrder], by unfold inspects; omega, by
      simp only [target, Option.some.injEq, Prod.mk.injEq]; omega⟩
  · exact ⟨.EAST, by simp [scanOrder], by unfold inspects; omega, by
      simp only [target, Option.some.injEq, Prod.mk.injEq]; omega⟩
  · exact ⟨.WEST, by simp [scanOrder], by unfold inspects; omega, by
      simp only [target, Option.some.injEq, Prod.mk.injEq]; omega⟩
  · exact ⟨.SOUTHEAST, by simp [scanOrder], by unfold inspects; omega, by
      simp only [target, Option.some.injEq, Prod.mk.injEq]; omega⟩
  · exact ⟨.SOUTHWEST, by simp [scanOrder], by unfold inspects; omega, by
      simp only [target, Option.some.injEq, Prod.mk.injEq]; omega⟩
  · exact ⟨.NORTHEAST, by simp [scanOrder], by unfold inspects; omega, by
      simp only [target, Option.some.injEq, Prod.mk.injEq]; omega⟩
  · exact ⟨.NORTHWEST, by simp [scanOrder], by unfold inspects; omega, by
      simp only [target, Option.some.injEq, Prod.mk.injEq]; omega⟩

/-- When some inspected neighbour costs less than `v`, the scan returns a direction whose
neighbour costs less than `v`. -/
theorem scan_below (d : Dungeon) (c : Character_T) (cost : Nat → Int) (v : Int)
    (hv : v ≤ INT_MAX) {dir0 : Direction_T} (hmem : dir0 ∈ scanOrder)
    (hins : inspects d c dir0) (hlt : costAt d c cost dir0 < v) :
    ∃ y x, target c.y c.x (scanFold d c cost scanOrder (.STUCK, INT_MAX)).1 = some (y, x) ∧
      cost (COST d y x) < v := by
  rcases scanFold_spec d c cost scanOrder (.STUCK, INT_MAX) with ⟨_, h2⟩ |
    ⟨pre, post, h1, h2, h3, h4, h5, h6⟩
  · have := h2 dir0 hmem hins
    simp only at this
    omega
  · generalize scanFold d c cost scanOrder (.STUCK, INT_MAX) = res at h1 h2 h3 h4 h5 h6
    have hle : costAt d c cost res.1 ≤ costAt d c cost dir0 := by
      rw [h1] at hmem
      rw [← h3]
      rcases List.mem_append.mp hmem with e | e
      · exact le_of_lt (h5 dir0 e hins)
      · rcases List.mem_cons.mp e with e2 | e2
        · rw [e2, h3]
        · exact h6 dir0 e2 hins
    cases ht : target c.y c.x res.1 with
    | none =>
      have : res.1 = .STUCK := by
        cases hr : res.1 <;> rw [hr] at ht <;> simp [target] at ht
      rw [this] at h2
      exact absurd h2 (by unfold inspects; exact not_false)
    | some t =>
      obtain ⟨y, x⟩ := t
      refine ⟨y, x, rfl, ?_⟩
      have e : costAt d c cost res.1 = cost (COST d y x) := by
        unfold costAt
        rw [ht]
      omega

/-- C19: an Intelligent and Telepathic monster whose cell has a finite positive cost in the
shared field matching its Tunneler flag, the field being the one `generate_dijkstra_map`
computes from the player's cell (an interior cell that the policy enqueues), whatever the
border of the dungeon holds: when the erratic branch is not taken, the direction that
`move_monster` hands to `do_character_move` leads to a neighbour whose cost in that field
is strictly smaller than the cost of the monster's own cell. `can_see_player` is not
consulted. -/
theorem move_monster_follows_shared_field (fuel : Nat) (m0 : Mem) (v0 : Nat → Vertex)
    (d : Dungeon_T) (c p : Nat) (D : Nat → Int) (rng rng1 : List Nat)
    (hh : HardnessOk d.toDungeon)
    (hsm : 7 * ((((d.height - 2) * (d.width - 2) : Nat) : Int) + 1) < INT_MAX)
    (hf : (d.height - 2) * (d.width - 2) ≤ fuel)
    (hi : hasFlag (d.chars c).behavior INTELLIGENT = true)
    (ht : hasFlag (d.chars c).behavior TELEPATHIC = true)
    (hp : d.player = some p) (hpi : Interior d.toDungeon (d.chars p).y (d.chars p).x)
    (hpe : hasFlag (d.chars c).behavior TUNNELER = false →
      (d.MAP (d.chars p).y (d.chars p).x).type ≠ .ROCK)
    (hshared : (if hasFlag (d.chars c).behavior TUNNELER then d.tunnel_cost
      else d.regular_cost) = some D)
    (hfresh : generate_dijkstra_map fuel m0 v0 d.toDungeon 1 [(d.chars p).y, (d.chars p).x]
      CHARACTER_DIAGONAL_TRAVEL
      (if hasFlag (d.chars c).behavior TUNNELER then .TUNNEL_MAP else .REGULAR_MAP) = some D)
    (hg : InGrid d.toDungeon (d.chars c).y (d.chars c).x)
    (hfin : D (COST d.toDungeon (d.chars c).y (d.chars c).x) ≠ INT_MAX)
    (hpos : 0 < D (COST d.toDungeon (d.chars c).y (d.chars c).x))
    (hroll : erratic_roll (d.chars c).behavior rng = some (false, rng1)) :
    ∃ dir y x, target (d.chars c).y (d.chars c).x dir = some (y, x) ∧
      D (COST d.toDungeon y x) < D (COST d.toDungeon (d.chars c).y (d.chars c).x) ∧
      move_monster fuel m0 v0 d c rng =
        match do_character_move fuel m0 v0
          (setChar d c { d.chars c with cost := some D }) c dir with
        | none => none
        | some (killed, d2) => some (killed, setChar d2 c { d2.chars c with cost := none }, rng1) := by
  obtain ⟨D2, e2, R⟩ := generate_single_spec fuel m0 v0 d.toDungeon (d.chars p).y (d.chars p).x
    CHARACTER_DIAGONAL_TRAVEL
    (if hasFlag (d.chars c).behavior TUNNELER then .TUNNEL_MAP else .REGULAR_MAP)
    (InGrid_of_interior hpi) hf
  rw [hfresh] at e2
  simp only [Option.some.injEq] at e2
  subst e2
  obtain ⟨hborder, hlemax, hpred⟩ := field_predecessor R hh hsm hpi (by
    intro e
    apply hpe
    by_contra hc
    simp only [Bool.not_eq_false] at hc
    rw [hc] at e
    simp at e)
  have hint : Interior d.toDungeon (d.chars c).y (d.chars c).x := by
    by_contra hc
    exact hfin (hborder _ _ hg hc)
  have hmax := hlemax _ _ hg
  -- the predecessor on a shortest path is an inspected neighbour of smaller cost
  obtain ⟨y2, x2, hi2, hdir, hlt2⟩ := hpred _ _ hint hfin hpos
  set c1 : Character_T := { d.chars c with cost := some D } with hc1
  obtain ⟨dir0, hm0, hins0, ht0⟩ := neighbour_direction (d := d.toDungeon) (c := c1) hi2 hdir
  have hlt0 : costAt d.toDungeon c1 D dir0 < D (COST d.toDungeon (d.chars c).y (d.chars c).x) := by
    unfold costAt
    rw [ht0]
    simp only
    omega
  obtain ⟨y, x, htar, hless⟩ := scan_below d.toDungeon c1 D _ hmax hm0 hins0 hlt0
  refine ⟨_, y, x, htar, hless, ?_⟩
  unfold move_monster
  simp only [hi, ht, and_self, if_true]
  unfold follow_shared_field
  simp only [hshared]
  have e1 : (setChar d c { d.chars c with cost := some D }).chars c = c1 := by
    simp [setChar, hc1]
  have e3 : (setChar d c { d.chars c with cost := some D }).toDungeon = d.toDungeon := rfl
  rw [e1, e3]
  have e4 : calculate_intelligent_monster_move d.toDungeon c1 rng =
      some ((scanFold d.toDungeon c1 D scanOrder (.STUCK, INT_MAX)).1, rng1) := by
    unfold calculate_intelligent_monster_move
    rw [show c1.behavior = (d.chars c).behavior from rfl, hroll]
    simp only [show c1.cost = some D from rfl, intelligent_scan_eq d.toDungeon c1 D hg,
      Option.map_some']
  rw [e4]

/-- The 5 x 5 example with the player on `(1, 1)`, an intelligent, telepathic, tunnelling
monster on `(3, 3)` and the shared tunnelling field `D`. -/
def exTelepath (D : Nat → Int) : Dungeon_T :=
  { exDungeon with
    chars := fun k =>
      if k = 0 then
        { y := 1, x := 1, last_y := -1, last_x := -1, speed := 10, behavior := 0,
          player := true, cost := none }
      else
        { y := 3, x := 3, last_y := -1, last_x := -1, speed := 20, behavior := 7,
          player := false, cost := none }
    player := some 0
    monsters := fun k => if k = 0 then some 1 else none
    num_monsters := 1
    regular_cost := none
    tunnel_cost := some D }

theorem move_monster_follows_shared_field_witness :
    ∃ D : Nat → Int,
    HardnessOk (exTelepath D).toDungeon ∧
    7 * (((((exTelepath D).height - 2) * ((exTelepath D).width - 2) : Nat) : Int) + 1) <
      INT_MAX ∧
    ((exTelepath D).height - 2) * ((exTelepath D).width - 2) ≤ 9 ∧
    hasFlag ((exTelepath D).chars 1).behavior INTELLIGENT = true ∧
    hasFlag ((exTelepath D).chars 1).behavior TELEPATHIC = true ∧
    (exTelepath D).player = some 0 ∧
    Interior (exTelepath D).toDungeon ((exTelepath D).chars 0).y ((exTelepath D).chars 0).x ∧
    (hasFlag ((exTelepath D).chars 1).behavior TUNNELER = false →
      ((exTelepath D).MAP ((exTelepath D).chars 0).y ((exTelepath D).chars 0).x).type ≠ .ROCK) ∧
    (if hasFlag ((exTelepath D).chars 1).behavior TUNNELER then (exTelepath D).tunnel_cost
      else (exTelepath D).regular_cost) = some D ∧
    generate_dijkstra_map 9 Mem.empty exVertices (exTelepath D).toDungeon 1
      [((exTelepath D).chars 0).y, ((exTelepath D).chars 0).x] CHARACTER_DIAGONAL_TRAVEL
      (if hasFlag ((exTelepath D).chars 1).behavior TUNNELER then .TUNNEL_MAP
        else .REGULAR_MAP) = some D ∧
    InGrid (exTelepath D).toDungeon ((exTelepath D).chars 1).y ((exTelepath D).chars 1).x ∧
    D (COST (exTelepath D).toDungeon ((exTelepath D).chars 1).y ((exTelepath D).chars 1).x) ≠
      INT_MAX ∧
    0 < D (COST (exTelepath D).toDungeon ((exTelepath D).chars 1).y
      ((exTelepath D).chars 1).x) ∧
    erratic_roll ((exTelepath D).chars 1).behavior [] = some (false, []) ∧
    ∃ dir y x, target ((exTelepath D).chars 1).y ((exTelepath D).chars 1).x dir = some (y, x) ∧
      D (COST (exTelepath D).toDungeon y x) <
        D (COST (exTelepath D).toDungeon ((exTelepath D).chars 1).y
          ((exTelepath D).chars 1).x) ∧
      move_monster 9 Mem.empty exVertices (exTelepath D) 1 [] =
        match do_character_move 9 Mem.empty exVertices
          (setChar (exTelepath D) 1 { (exTelepath D).chars 1 with cost := some D }) 1 dir with
        | none => none
        | some (killed, d2) => some (killed, setChar d2 1 { d2.chars 1 with cost := none }, []) := by
  obtain ⟨D, e, R⟩ := generate_single_spec 9 Mem.empty exVertices exDungeon 1 1 true .TUNNEL_MAP
    (by decide) (by decide)
  have F := single_facts R exDungeon_border exDungeon_hardness exDungeon_small (by decide)
    (fun h => by cases h)
  have hfin : D (COST exDungeon 3 3) ≠ INT_MAX :=
    tunnel_all_finite F exDungeon_hardness (by decide) (by decide) _ 3 3 (by decide) (le_refl _)
  have hpos : 0 < D (COST exDungeon 3 3) := by
    have h1 := F.nonneg 3 3 (by decide)
    have h2 : D (COST exDungeon 3 3) ≠ 0 := fun h0 => by
      have := F.zero 3 3 (by decide) h0
      omega
    omega
  have hh : HardnessOk (exTelepath D).toDungeon := exDungeon_hardness
  have hs : 7 * (((((exTelepath D).height - 2) * ((exTelepath D).width - 2) : Nat) : Int) + 1) <
      INT_MAX := exDungeon_small
  have hf : ((exTelepath D).height - 2) * ((exTelepath D).width - 2) ≤ 9 := le_refl 9
  have hpi : Interior (exTelepath D).toDungeon ((exTelepath D).chars 0).y
      ((exTelepath D).chars 0).x := (by decide : Interior exDungeon 1 1)
  have hg : InGrid (exTelepath D).toDungeon ((exTelepath D).chars 1).y
      ((exTelepath D).chars 1).x := (by decide : InGrid exDungeon 3 3)
  have hflag : hasFlag ((exTelepath D).chars 1).behavior TUNNELER = true :=
    (by decide : hasFlag 7 TUNNELER = true)
  have hpe : hasFlag ((exTelepath D).chars 1).behavior TUNNELER = false →
      ((exTelepath D).MAP ((exTelepath D).chars 0).y ((exTelepath D).chars 0).x).type ≠ .ROCK :=
    fun h => by rw [hflag] at h; cases h
  have hshared : (if hasFlag ((exTelepath D).chars 1).behavior TUNNELER then
      (exTelepath D).tunnel_cost else (exTelepath D).regular_cost) = some D := by
    rw [hflag]; rfl
  have hfresh : generate_dijkstra_map 9 Mem.empty exVertices (exTelepath D).toDungeon 1
      [((exTelepath D).chars 0).y, ((exTelepath D).chars 0).x] CHARACTER_DIAGONAL_TRAVEL
      (if hasFlag ((exTelepath D).chars 1).behavior TUNNELER then .TUNNEL_MAP
        else .REGULAR_MAP) = some D := by
    rw [hflag]; exact e
  exact ⟨D, hh, hs, hf, (by decide : hasFlag 7 INTELLIGENT = true),
    (by decide : hasFlag 7 TELEPATHIC = true), rfl, hpi, hpe, hshared, hfresh, hg, hfin, hpos,
    (by decide : erratic_roll 7 [] = some (false, [])),
    move_monster_follows_shared_field 9 Mem.empty exVertices (exTelepath D) 1 0 D [] []
      hh hs hf (by decide : hasFlag 7 INTELLIGENT = true)
      (by decide : hasFlag 7 TELEPATHIC = true) rfl hpi hpe hshared hfresh hg hfin hpos
      (by decide : erratic_roll 7 [] = some (false, []))⟩

end Source

namespace Source

/-! ## The scheduler: `play_dungeon` of `Source/Dungeon/dungeon.c`

The array `characters` of `play_dungeon` holds one `Character_Node_T` per actor; the heap
node embedded in entry `i` is the node at address `i` of the store of the heap, and its
payload points back to entry `i`. -/

/-- The local state of `play_dungeon`: the dungeon, the heap `h`, the members
`characters[i].c` and `character_len`. -/
structure Play where
  d : Dungeon_T
  h : Heap
  characters : Nat → Option Nat
  character_len : Nat

/-- The call `heap_intrusive_insert(h, &characters[i].n, GAME_SPEED / characters[i].c->speed,
&characters[i])` of the set-up loops. -/
def play_insert (s : Play) (i : Nat) : Option Play :=
  match s.characters i with
  | none => none
  | some c =>
    if (s.d.chars c).speed = 0 then none
    else
      (heap_intrusive_insert s.h i (Int.tdiv GAME_SPEED (s.d.chars c).speed) (some i)).map
        fun h => { s with h := h }

/-- The loop that adds the monsters to the array and to the heap. -/
def play_add_monsters : List Nat → Play → Option Play
  | [], s => some s
  | i :: is, s =>
    match play_insert ({ s with
      characters := fun k => if k = i then s.d.monsters i else s.characters k }) i with
    | none => none
    | some s1 => play_add_monsters is s1

/-- The set-up of `play_dungeon` up to the main loop; `hm` is the store the heap nodes live
in. -/
def play_setup (fuel : Nat) (m0 : Mem) (v0 : Nat → Vertex) (hm : Mem) (d : Dungeon_T) :
    Option Play :=
  let character_len := d.num_monsters.toNat + 1
  match play_add_monsters (List.range d.num_monsters.toNat)
      { d := d, h := new_heap hm true, characters := fun _ => none,
        character_len := character_len } with
  | none => none
  | some s1 =>
    match play_insert ({ s1 with
      characters := fun k => if k = character_len - 1 then d.player else s1.characters k })
        (character_len - 1) with
    | none => none
    | some s2 =>
      (build_dungeon_cost_maps fuel m0 v0 s2.d true true).map fun d1 => { s2 with d := d1 }

/-- The search `for (i = 0; i < character_len; i++) if (characters[i].c == killed) cn2 =
&characters[i];` for the entry of the killed character: the last match wins. -/
def find_character (characters : Nat → Option Nat) (killed : Nat) : List Nat → Option Nat →
    Option Nat
  | [], cn2 => cn2
  | i :: is, cn2 =>
    find_character characters killed is (if characters i = some killed then some i else cn2)

/-- The last statement of the loop body: the mover is put back with key
`cn->n.key + GAME_SPEED / cn->c->speed`. -/
def play_reinsert (s : Play) (cn : Nat) : Option Play :=
  match s.characters cn with
  | none => none
  | some c =>
    if (s.d.chars c).speed = 0 then none
    else
      (heap_intrusive_insert s.h cn
        (s.h.mem.key cn + Int.tdiv GAME_SPEED (s.d.chars c).speed) (some cn)).map
        fun h => { s with h := h }

/-- The removal of a killed monster: it is taken off the map, the monster count and the
heap, and its entry in `characters` is cleared. -/
def play_remove_monster (fuel : Nat) (s : Play) (cn2 : Nat) : Option Play :=
  match s.characters cn2 with
  | none => none
  | some k =>
    match getCell s.d.toDungeon (s.d.chars k).y (s.d.chars k).x with
    | none => none
    | some cell =>
      match setMap s.d (s.d.chars k).y (s.d.chars k).x { cell with character := none } with
      | none => none
      | some d1 =>
        match heap_delete fuel s.h cn2 with
        | none => none
        | some h1 =>
          some { s with
            d := { d1 with num_monsters := d1.num_monsters - 1 }
            h := h1
            characters := fun i => if i = cn2 then none else s.characters i }

/-- One iteration of the main loop of `play_dungeon`. `move` is the call
`cn->c->player ? move_player(cn->c) : move_monster(cn->c)`, which sees the dungeon and the
random numbers but neither the heap nor the array. The flag is `false` when the loop is
left through `break`. -/
def play_turn (move : Dungeon_T → Nat → List Nat → Option (Option Nat × Dungeon_T × List Nat))
    (fuel : Nat) (s : Play) (rng : List Nat) : Option (Bool × Play × List Nat) :=
  match heap_remove_min fuel s.h with
  | none => none
  | some (none, _) => none
  | some (some n, h1) =>
    match h1.mem.data n with
    | none => none
    | some cn =>
      match s.characters cn with
      | none => none
      | some c =>
        match move s.d c rng with
        | none => none
        | some (none, d1, rng1) =>
          (play_reinsert { s with d := d1, h := h1 } cn).map fun s2 => (true, s2, rng1)
        | some (some killed, d1, rng1) =>
          match find_character s.characters killed (List.range s.character_len) none with
          | none => none
          | some cn2 =>
            if (d1.chars killed).player then
              some (false, { s with
                d := { d1 with player := none }
                h := h1
                characters := fun i => if i = cn2 then none else s.characters i }, rng1)
            else
              match play_remove_monster fuel ({ s with d := d1, h := h1 }) cn2 with
              | none => none
              | some s2 => (play_reinsert s2 cn).map fun s3 => (true, s3, rng1)

/-- The main loop of `play_dungeon`, at most `n` iterations: returns the characters that
moved, in order. -/
def play_loop (move : Dungeon_T → Nat → List Nat → Option (Option Nat × Dungeon_T × List Nat))
    (fuel : Nat) : Nat → Play → List Nat → Option (List Nat × Play × List Nat)
  | 0, s, rng => some ([], s, rng)
  | n + 1, s, rng =>
    if s.h.size > 1 then
      match heap_min s.h with
      | none => none
      | some top =>
        match play_turn move fuel s rng with
        | none => none
        | some (false, s1, rng1) => some ([top], s1, rng1)
        | some (true, s1, rng1) =>
          (play_loop move fuel n s1 rng1).map fun r => (top :: r.1, r.2)
    else some ([], s, rng)

/-- The iteration of `play_dungeon` with the moves of `character.c`. -/
def play_dungeon_turn (fuel : Nat) (m0 : Mem) (v0 : Nat → Vertex) (s : Play) (rng : List Nat) :
    Option (Bool × Play × List Nat) :=
  play_turn (move_character fuel m0 v0) fuel s rng

end Source

namespace Source

/-! ### Heaps of one and two nodes -/

theorem meldTree_single (key : Nat → Int) (b : Nat) :
    meldTree key (.node b .nil .nil) = .node b .nil .nil := by
  simp [meldTree, meldT, pass1T, pass2T]

/-- `heap_remove_min` on a heap of two nodes returns the root and leaves the other node. -/
theorem remove_min_two {h : Heap} {a b : Nat} {fuel : Nat}
    (w : WF h (.node a (.node b .nil .nil) .nil)) (hf : 1 ≤ fuel) :
    ∃ h2, heap_remove_min fuel h = some (some a, h2) ∧ WF h2 (.node b .nil .nil) ∧
      h2.intrusive = h.intrusive ∧ h2.mem.key = h.mem.key ∧ h2.mem.data = h.mem.data ∧
      h2.size = h.size - 1 := by
  obtain ⟨h2, e, w2, hi, hk, hd, hs, _⟩ := heap_remove_min_wf w
    (by simpa [PTree.addrs] using hf)
  rw [meldTree_single] at w2
  exact ⟨h2, e, w2, hi, hk, hd, hs⟩

/-- `heap_intrusive_insert` into a heap of one node: the new node goes on top exactly when
its key is strictly smaller. -/
theorem insert_one {h : Heap} {b : Nat} (w : WF h (.node b .nil .nil))
    (hi : h.intrusive = true) (a : Nat) (k : Int) (dt : Option Nat) (hab : a ≠ b) :
    ∃ h2, heap_intrusive_insert h a k dt = some h2 ∧
      WF h2 (if h.mem.key b > k then .node a (.node b .nil .nil) .nil
        else .node b (.node a .nil .nil) .nil) ∧
      h2.intrusive = true ∧ h2.size = h.size + 1 ∧
      (∀ x, h2.mem.key x = if x = a then k else h.mem.key x) ∧
      (∀ x, h2.mem.data x = if x = a then dt else h.mem.data x) := by
  have hn : a ∉ (PTree.node b .nil .nil).addrs := by simp [PTree.addrs, hab]
  obtain ⟨hw, _, hk, hd⟩ := insert_core w a k dt hn
  have e : insertTree
      (((((h.mem.setKey a k).setData a dt).setChild a none).setNext a none).setPrev a none).key
      (.node b .nil .nil) a =
      (if h.mem.key b > k then PTree.node a (.node b .nil .nil) .nil
        else .node b (.node a .nil .nil) .nil) := by
    simp only [insertTree, linkT, key_setPrev, key_setNext, key_setChild, key_setData,
      key_setKey, if_true, if_neg hab.symm]
    split <;> rfl
  rw [e] at hw
  refine ⟨_, by simp only [heap_intrusive_insert, hi]; rfl, hw, hi, rfl, ?_, ?_⟩
  · intro x; simp only [hk]; simp
  · intro x; simp only [hd]; simp

end Source

namespace Source

/-! ### Two actors of speeds 20 and 10 -/

/-- The scheduler heap holds entry `a` (key `ka`) on top of entry `b` (key `kb`). -/
structure Sched (s : Play) (a b : Nat) (ka kb : Int) : Prop where
  wf : WF s.h (.node a (.node b .nil .nil) .nil)
  intr : s.h.intrusive = true
  size : s.h.size = 2
  keyA : s.h.mem.key a = ka
  keyB : s.h.mem.key b = kb
  dataA : s.h.mem.data a = some a
  dataB : s.h.mem.data b = some b
  sep : a ≠ b

/-- Entry 0 of `characters` is a monster of speed 20 and entry 1 the player, of speed 10. -/
structure TwoActors (s : Play) : Prop where
  monster : ∃ m, s.characters 0 = some m ∧ (s.d.chars m).speed = 20
  player : ∃ p, s.characters 1 = some p ∧ (s.d.chars p).speed = PC_SPEED

/-- The moves never kill and leave the speeds alone. -/
def Peaceful (move : Dungeon_T → Nat → List Nat → Option (Option Nat × Dungeon_T × List Nat)) :
    Prop :=
  ∀ d c rng, ∃ d2 rng2, move d c rng = some (none, d2, rng2) ∧
    ∀ k, (d2.chars k).speed = (d.chars k).speed

/-- The time `GAME_SPEED / speed` between two turns of entry `i`. -/
def period (i : Nat) : Int := if i = 0 then 50 else 100

/-- One turn of two actors: the entry on top moves and is put back `period` later; it
stays on top only when its new key is strictly smaller than the other key. -/
theorem play_turn_sched {move : Dungeon_T → Nat → List Nat →
    Option (Option Nat × Dungeon_T × List Nat)} (hmove : Peaceful move) {fuel : Nat}
    (hf : 1 ≤ fuel) {s : Play} {a b : Nat} {ka kb : Int} (hs : Sched s a b ka kb)
    (ha : a = 0 ∨ a = 1) (ht : TwoActors s) (rng : List Nat) :
    ∃ s2 rng2, play_turn move fuel s rng = some (true, s2, rng2) ∧ TwoActors s2 ∧
      heap_min s.h = some a ∧
      (kb > ka + period a → Sched s2 a b (ka + period a) kb) ∧
      (¬ kb > ka + period a → Sched s2 b a kb (ka + period a)) := by
  obtain ⟨h1, e1, w1, i1, k1, d1, z1⟩ := remove_min_two hs.wf hf
  obtain ⟨m, hm1, hm2⟩ := ht.monster
  obtain ⟨p, hp1, hp2⟩ := ht.player
  have hact : ∃ c, s.characters a = some c ∧
      Int.tdiv GAME_SPEED (s.d.chars c).speed = period a ∧ (s.d.chars c).speed ≠ 0 := by
    rcases ha with e | e
    · subst e
      exact ⟨m, hm1, by rw [hm2]; decide, by rw [hm2]; decide⟩
    · subst e
      exact ⟨p, hp1, by rw [hp2]; decide, by rw [hp2]; decide⟩
  obtain ⟨c, hc1, hc2, hc3⟩ := hact
  obtain ⟨dm, rng2, em, hsp⟩ := hmove s.d c rng
  obtain ⟨h2, e2, w2, i2, z2, k2, d2⟩ := insert_one w1 (i1.trans hs.intr) a
    (h1.mem.key a + Int.tdiv GAME_SPEED (dm.chars c).speed) (some a) hs.sep
  have hk : h1.mem.key a + Int.tdiv GAME_SPEED (dm.chars c).speed = ka + period a := by
    rw [hsp, hc2, k1, hs.keyA]
  rw [hk] at e2 w2 k2
  have hkb : h1.mem.key b = kb := by rw [k1, hs.keyB]
  rw [hkb] at w2
  have hturn : play_turn move fuel s rng =
      some (true, { s with d := dm, h := h2 }, rng2) := by
    unfold play_turn
    rw [e1]
    simp only
    rw [d1, hs.dataA]
    simp only
    rw [hc1]
    simp only
    rw [em]
    simp only [play_reinsert, hc1]
    rw [if_neg (by rw [hsp]; exact hc3), hk, e2]
    rfl
  have ht2 : TwoActors { s with d := dm, h := h2 } :=
    ⟨⟨m, hm1, by rw [← hm2]; exact hsp m⟩, ⟨p, hp1, by rw [← hp2]; exact hsp p⟩⟩
  have hsz : h2.size = 2 := by rw [z2, z1, hs.size]; norm_num
  have hmin : heap_min s.h = some a := by
    have hne : s.h.size ≠ 0 := by rw [hs.size]; decide
    have hroot : s.h.root = some a := hs.wf.root
    simp [heap_min, hne, hroot]
  refine ⟨_, rng2, hturn, ht2, hmin, ?_, ?_⟩
  · intro hgt
    rw [if_pos hgt] at w2
    exact ⟨w2, i2, hsz, by rw [k2]; simp, by rw [k2, if_neg hs.sep.symm, hkb],
      by rw [d2]; simp, by rw [d2, if_neg hs.sep.symm, d1, hs.dataB], hs.sep⟩
  · intro hgt
    rw [if_neg hgt] at w2
    exact ⟨w2, i2, hsz, by rw [k2, if_neg hs.sep.symm, hkb], by rw [k2]; simp,
      by rw [d2, if_neg hs.sep.symm, d1, hs.dataB], by rw [d2]; simp, hs.sep.symm⟩

end Source

namespace Source

/-- The entry that moves in turn `t`: the player (entry 1) in the turns `1, 4, 7, ...`, the
monster (entry 0) in all others. -/
def mover (t : Nat) : Nat := if t % 3 = 1 then 1 else 0

theorem range_map_shift (f : Nat → Nat) (n : Nat) :
    (List.range (n + 1)).map f = f 0 :: (List.range n).map (fun t => f (t + 1)) := by
  rw [List.range_succ_eq_map, List.map_cons, List.map_map]
  rfl

/-- The main loop on two actors, from each of the three states the heap cycles through. -/
theorem play_loop_sched {move : Dungeon_T → Nat → List Nat →
    Option (Option Nat × Dungeon_T × List Nat)} (hmove : Peaceful move) {fuel : Nat}
    (hf : 1 ≤ fuel) : ∀ (n k : Nat) (s : Play) (rng : List Nat), TwoActors s →
    (Sched s 0 1 (50 + 100 * k) (100 + 100 * k) →
      ∃ s2 rng2, play_loop move fuel n s rng =
        some ((List.range n).map (fun t => mover t), s2, rng2)) ∧
    (Sched s 1 0 (100 + 100 * k) (100 + 100 * k) →
      ∃ s2 rng2, play_loop move fuel n s rng =
        some ((List.range n).map (fun t => mover (t + 1)), s2, rng2)) ∧
    (Sched s 0 1 (100 + 100 * k) (200 + 100 * k) →
      ∃ s2 rng2, play_loop move fuel n s rng =
        some ((List.range n).map (fun t => mover (t + 2)), s2, rng2)) := by
  intro n
  induction n with
  | zero =>
    intro k s rng _
    exact ⟨fun _ => ⟨s, rng, rfl⟩, fun _ => ⟨s, rng, rfl⟩, fun _ => ⟨s, rng, rfl⟩⟩
  | succ n ih =>
    intro k s rng ht
    have hstep : ∀ (a b : Nat) (ka kb : Int), Sched s a b ka kb → (a = 0 ∨ a = 1) →
        ∀ (l : List Nat), (∀ s2 rng2, TwoActors s2 →
          (kb > ka + period a → Sched s2 a b (ka + period a) kb) →
          (¬ kb > ka + period a → Sched s2 b a kb (ka + period a)) →
          ∃ s3 rng3, play_loop move fuel n s2 rng2 = some (l, s3, rng3)) →
        ∃ s3 rng3, play_loop move fuel (n + 1) s rng = some (a :: l, s3, rng3) := by
      intro a b ka kb hs ha l hnext
      obtain ⟨s2, rng2, e, ht2, hmin, h1, h2⟩ := play_turn_sched hmove hf hs ha ht rng
      obtain ⟨s3, rng3, e3⟩ := hnext s2 rng2 ht2 h1 h2
      refine ⟨s3, rng3, ?_⟩
      have hsz : s.h.size > 1 := by rw [hs.size]; decide
      simp only [play_loop, hsz, if_true, hmin, e, e3, Option.map_some']
    refine ⟨?_, ?_, ?_⟩
    · intro hs
      rw [range_map_shift]
      refine hstep 0 1 _ _ hs (Or.inl rfl) _ ?_
      intro s2 rng2 ht2 _ h2
      have hs2 := h2 (by simp only [period, if_true]; omega)
      have e : (50 : Int) + 100 * k + period 0 = 100 + 100 * k := by
        simp only [period, if_true]; ring
      rw [e] at hs2
      exact (ih k s2 rng2 ht2).2.1 hs2
    · intro hs
      rw [range_map_shift]
      refine hstep 1 0 _ _ hs (Or.inr rfl) _ ?_
      intro s2 rng2 ht2 _ h2
      have hp : period 1 = 100 := by decide
      have hs2 := h2 (by rw [hp]; omega)
      have e : (100 : Int) + 100 * k + period 1 = 200 + 100 * k := by rw [hp]; ring
      rw [e] at hs2
      have := (ih k s2 rng2 ht2).2.2 hs2
      simpa [Nat.add_assoc] using this
    · intro hs
      rw [range_map_shift]
      refine hstep 0 1 _ _ hs (Or.inl rfl) _ ?_
      intro s2 rng2 ht2 h1 _
      have hp : period 0 = 50 := by decide
      have hs2 := h1 (by rw [hp]; omega)
      have e1 : (100 : Int) + 100 * k + period 0 = 50 + 100 * ((k + 1 : Nat) : Int) := by
        rw [hp]; push_cast; ring
      have e2 : (200 : Int) + 100 * k = 100 + 100 * ((k + 1 : Nat) : Int) := by
        push_cast; ring
      rw [e1, e2] at hs2
      obtain ⟨s3, rng3, e3⟩ := (ih (k + 1) s2 rng2 ht2).1 hs2
      refine ⟨s3, rng3, ?_⟩
      rw [e3]
      congr 2
      apply List.map_congr_left
      intro t _
      simp only [mover]
      have : (t + 1 + 2) % 3 = t % 3 := by omega
      rw [this]

end Source

namespace Source

/-- `heap_intrusive_insert` into the empty heap. -/
theorem insert_empty {h : Heap} (w : WF h .nil) (hi : h.intrusive = true) (a : Nat) (k : Int)
    (dt : Option Nat) :
    ∃ h2, heap_intrusive_insert h a k dt = some h2 ∧ WF h2 (.node a .nil .nil) ∧
      h2.intrusive = true ∧ h2.size = h.size + 1 ∧
      (∀ x, h2.mem.key x = if x = a then k else h.mem.key x) ∧
      (∀ x, h2.mem.data x = if x = a then dt else h.mem.data x) := by
  have hn : a ∉ PTree.nil.addrs := by simp [PTree.addrs]
  obtain ⟨hw, _, hk, hd⟩ := insert_core w a k dt hn
  refine ⟨_, by simp only [heap_intrusive_insert, hi]; rfl, hw, hi, rfl, ?_, ?_⟩
  · intro x; simp only [hk]; simp
  · intro x; simp only [hd]; simp

/-- The set-up of `play_dungeon` with one monster of speed 20 and the player of speed 10:
the monster (key 50) is on top of the player (key 100). -/
theorem play_setup_two (fuel : Nat) (m0 : Mem) (v0 : Nat → Vertex) (hm : Mem) (d : Dungeon_T)
    (m p : Nat) (hnum : d.num_monsters = 1) (hmon : d.monsters 0 = some m)
    (hpl : d.player = some p) (hsm : (d.chars m).speed = 20)
    (hsp : (d.chars p).speed = PC_SPEED)
    (hpg : InGrid d.toDungeon (d.chars p).y (d.chars p).x)
    (hf : (d.height - 2) * (d.width - 2) ≤ fuel) :
    ∃ s0, play_setup fuel m0 v0 hm d = some s0 ∧ s0.characters 0 = some m ∧
      s0.characters 1 = some p ∧ TwoActors s0 ∧ Sched s0 0 1 50 100 := by
  obtain ⟨h1, e1, w1, i1, z1, k1, d1⟩ := insert_empty (new_heap_wf hm true) rfl 0 50 (some 0)
  obtain ⟨h2, e2, w2, i2, z2, k2, d2⟩ := insert_one w1 i1 1 100 (some 1) (by decide)
  have hk0 : h1.mem.key 0 = 50 := by rw [k1]; simp
  rw [hk0, if_neg (by decide)] at w2
  obtain ⟨d3, e3, s1, s2, s3, _⟩ := build_dungeon_cost_maps_spec fuel m0 v0 d true true hpl hpg hf
  have hspeed : ∀ c, (d3.chars c).speed = (d.chars c).speed := fun c => by rw [s2]
  refine ⟨Play.mk d3 h2 (fun k => if k = 1 then some p else if k = 0 then some m else none) 2,
    ?_, rfl, rfl,
    ⟨⟨m, rfl, by rw [← hsm]; exact hspeed m⟩, ⟨p, rfl, by rw [← hsp]; exact hspeed p⟩⟩,
    ⟨w2, i2, by rw [z2, z1]; rfl, by rw [k2]; simp [hk0], by rw [k2]; simp,
      by rw [d2, d1]; simp, by rw [d2]; simp, by decide⟩⟩
  unfold play_setup
  rw [hnum]
  have hr : List.range (1 : Int).toNat = [0] := by decide
  rw [hr]
  simp only [play_add_monsters, play_insert, hmon, if_true, hsm]
  rw [if_neg (by decide), show Int.tdiv GAME_SPEED 20 = 50 from by decide, e1]
  simp only [Option.map_some']
  rw [show (1 : Int).toNat + 1 - 1 = 1 from by decide]
  simp only [if_true, hpl, hsp]
  rw [if_neg (by decide), show Int.tdiv GAME_SPEED PC_SPEED = 100 from by decide, e2]
  simp only [Option.map_some']
  rw [e3]
  simp only [Option.map_some', Option.some.injEq]
  congr 1

end Source

namespace Source

/-! ### A turn that kills -/

/-- The search finds the entry of a character that sits in exactly one entry. -/
theorem find_character_spec (characters : Nat → Option Nat) (k j : Nat)
    (hj : characters j = some k) : ∀ (l : List Nat) (acc : Option Nat),
    (∀ i ∈ l, characters i = some k → i = j) →
    find_character characters k l acc = if j ∈ l then some j else acc
  | [], acc, _ => by simp [find_character]
  | i :: l, acc, h => by
    have ih := find_character_spec characters k j hj l
      (if characters i = some k then some i else acc)
      (fun x hx => h x (List.mem_cons_of_mem _ hx))
    simp only [find_character, ih]
    by_cases hjl : j ∈ l
    · simp [hjl]
    · by_cases hij : j = i
      · subst hij
        simp [hjl, hj]
      · have hne : ¬ characters i = some k := fun e => hij (h i (List.mem_cons_self _ _) e).symm
        simp [hjl, hij, hne]

/-- The heap and the array of `play_dungeon` agree: the heap is well formed with shape `t`,
its nodes are the entries of live actors, each pointing back to its entry, and no character
sits in two entries. -/
structure PlayInv (s : Play) (t : PTree) : Prop where
  wf : WF s.h t
  intr : s.h.intrusive = true
  data : ∀ i ∈ t.addrs, s.h.mem.data i = some i
  live : ∀ i, i ∈ t.addrs ↔ (i < s.character_len ∧ s.characters i ≠ none)
  inj : ∀ i j c, i < s.character_len → j < s.character_len → s.characters i = some c →
    s.characters j = some c → i = j
  size : s.h.size = s.d.num_monsters + 1

/-- The first half of a turn: the entry on top is extracted. -/
theorem play_turn_extract {s : Play} {a : Nat} {c0 : PTree} {fuel : Nat}
    (inv : PlayInv s (.node a c0 .nil)) (hf : c0.addrs.length + 1 ≤ fuel) :
    ∃ h1, heap_remove_min fuel s.h = some (some a, h1) ∧ h1.mem.data = s.h.mem.data ∧
      h1.mem.key = s.h.mem.key ∧
      WF h1 (meldTree s.h.mem.key c0) ∧ h1.intrusive = true ∧ h1.size = s.h.size - 1 ∧
      a ∉ (meldTree s.h.mem.key c0).addrs ∧
      (∀ i, i ∈ (meldTree s.h.mem.key c0).addrs ↔ i ∈ c0.addrs) ∧
      (meldTree s.h.mem.key c0).addrs.length = c0.addrs.length := by
  obtain ⟨h1, e1, w1, i1, k1, d1, z1, _⟩ := @heap_remove_min_wf _ _ _ fuel inv.wf (by omega)
  have hperm := meldTree_perm s.h.mem.key c0
  have hnd : (a :: c0.addrs).Nodup := by simpa [PTree.addrs] using inv.wf.nodup
  refine ⟨h1, e1, d1, k1, w1, i1.trans inv.intr, z1, ?_, fun i => hperm.mem_iff,
    hperm.length_eq⟩
  intro h
  exact (List.nodup_cons.mp hnd).1 (hperm.mem_iff.mp h)

end Source

namespace Source

/-- The removal of a killed monster whose entry `j` is in the heap. -/
theorem play_remove_monster_spec {s : Play} {t : PTree} {fuel j k : Nat} (w : WF s.h t)
    (hk : s.characters j = some k) (hj : j ∈ t.addrs) (hf : t.addrs.length ≤ fuel)
    (hg : InGrid s.d.toDungeon (s.d.chars k).y (s.d.chars k).x) :
    ∃ s2 t2, play_remove_monster fuel s j = some s2 ∧ WF s2.h t2 ∧
      (j :: t2.addrs).Perm t.addrs ∧ s2.h.intrusive = s.h.intrusive ∧
      s2.h.mem.key = s.h.mem.key ∧ s2.h.mem.data = s.h.mem.data ∧
      s2.characters = (fun i => if i = j then none else s.characters i) ∧
      s2.character_len = s.character_len ∧ s2.d.chars = s.d.chars ∧
      s2.d.num_monsters = s.d.num_monsters - 1 ∧ s2.d.player = s.d.player ∧
      (s2.d.MAP (s.d.chars k).y (s.d.chars k).x).character = none := by
  obtain ⟨h2, t2, e2, w2, p2, i2, _, k2, d2⟩ := heap_delete_wf w hj hf
  have e : play_remove_monster fuel s j = some (Play.mk
      { putMap s.d (s.d.chars k).y (s.d.chars k).x
          { s.d.MAP (s.d.chars k).y (s.d.chars k).x with character := none } with
        num_monsters := s.d.num_monsters - 1 }
      h2 (fun i => if i = j then none else s.characters i) s.character_len) := by
    unfold play_remove_monster
    rw [hk]
    simp only
    rw [getCell_of_InGrid hg]
    simp only
    rw [setMap_of_InGrid _ hg]
    simp only
    rw [e2]
    rfl
  refine ⟨_, t2, e, w2, p2, i2, k2, d2, rfl, rfl, rfl, rfl, rfl, ?_⟩
  show ((putMap s.d (s.d.chars k).y (s.d.chars k).x _).MAP (s.d.chars k).y
    (s.d.chars k).x).character = none
  rw [putMap_same]

/-- C18: when the move of the actor on top of the scheduler heap of `play_dungeon` kills
the actor of another entry `j`, then, for a monster victim, the turn ends with the victim out
of the heap, the heap (without sharing) holding exactly the entries of the surviving actors,
the mover included, and the heap size equal to the monster count plus one; for the player as
victim the loop is left with the heap as the extraction left it, the mover not reinserted. -/
theorem play_turn_kill_heap
    (move : Dungeon_T → Nat → List Nat → Option (Option Nat × Dungeon_T × List Nat))
    (fuel : Nat) (s : Play) (a : Nat) (c0 : PTree) (c k j : Nat) (rng rng1 : List Nat)
    (d1 : Dungeon_T) (inv : PlayInv s (.node a c0 .nil)) (hf : c0.addrs.length + 1 ≤ fuel)
    (hc : s.characters a = some c) (hmv : move s.d c rng = some (some k, d1, rng1))
    (hnum : d1.num_monsters = s.d.num_monsters) (hj : j < s.character_len)
    (hk : s.characters j = some k) (hja : j ≠ a) (hsp : (d1.chars c).speed ≠ 0) :
    ((d1.chars k).player = false → InGrid d1.toDungeon (d1.chars k).y (d1.chars k).x →
      ∃ s2 t2, play_turn move fuel s rng = some (true, s2, rng1) ∧ PlayInv s2 t2 ∧
        s2.character_len = s.character_len ∧ s2.characters j = none ∧
        (∀ i, i ≠ j → s2.characters i = s.characters i) ∧
        ¬ InHeap s2.h j ∧ InHeap s2.h a ∧
        (∀ i, i ∈ t2.addrs ↔ i ≠ j ∧ i ∈ (PTree.node a c0 .nil).addrs) ∧
        s2.d.num_monsters = s.d.num_monsters - 1 ∧ s2.h.size = s2.d.num_monsters + 1) ∧
    ((d1.chars k).player = true →
      ∃ s2 h1 t1, play_turn move fuel s rng = some (false, s2, rng1) ∧
        heap_remove_min fuel s.h = some (some a, h1) ∧ s2.h = h1 ∧ WF h1 t1 ∧
        ¬ InHeap s2.h a ∧ s2.h.size = s.h.size - 1 ∧ s2.d.player = none ∧
        s2.characters j = none ∧
        ∀ n, play_loop move fuel (n + 1) s rng = some ([a], s2, rng1)) := by
  obtain ⟨h1, e1, hd1, hk1, w1, i1, z1, ha1, hm1, hl1⟩ := play_turn_extract inv hf
  have hda : h1.mem.data a = some a := by
    rw [hd1]; exact inv.data a (by simp [PTree.addrs])
  have hjt : j ∈ (PTree.node a c0 .nil).addrs := (inv.live j).mpr ⟨hj, by rw [hk]; simp⟩
  have hjc : j ∈ c0.addrs := by
    simp only [PTree.addrs, List.append_nil, List.mem_cons] at hjt
    rcases hjt with h | h
    · exact absurd h hja
    · exact h
  have hfind : find_character s.characters k (List.range s.character_len) none = some j := by
    rw [find_character_spec s.characters k j hk _ _
      (fun i hi e => inv.inj i j k (List.mem_range.mp hi) hj e hk)]
    rw [if_pos (List.mem_range.mpr hj)]
  have hsz : s.h.size = (c0.addrs.length : Int) + 1 := by
    rw [inv.wf.size]; simp [PTree.addrs]
  constructor
  · intro hpl hg
    obtain ⟨s2, t2, e2, w2, p2, i2, k2, dd2, c2, l2, ch2, n2, _, _⟩ :=
      @play_remove_monster_spec (Play.mk d1 h1 s.characters s.character_len) _ fuel j k w1 hk
        ((hm1 j).mpr hjc) (by rw [hl1]; omega) hg
    have hca : s2.characters a = some c := by
      rw [c2]; simp only; rw [if_neg (fun e => hja e.symm)]; exact hc
    have hat2 : a ∉ t2.addrs := fun h =>
      ha1 (p2.mem_iff.mp (List.mem_cons_of_mem _ h))
    have hjt2 : j ∉ t2.addrs :=
      (List.nodup_cons.mp (p2.nodup_iff.mpr w1.nodup)).1
    have hsp2 : ¬ (s2.d.chars c).speed = 0 := by rw [ch2]; exact hsp
    obtain ⟨h3, t3, e3, w3, p3, i3, k3, dd3⟩ := heap_intrusive_insert_wf w2 (i2.trans i1) a
      (s2.h.mem.key a + Int.tdiv GAME_SPEED (s2.d.chars c).speed) (some a) hat2
    have mem3 : ∀ i, i ∈ t3.addrs ↔ i ≠ j ∧ i ∈ (PTree.node a c0 .nil).addrs := by
      intro i
      have m2 : i ∈ c0.addrs ↔ i = j ∨ i ∈ t2.addrs := by
        rw [← hm1 i, ← p2.mem_iff, List.mem_cons]
      rw [p3.mem_iff]
      simp only [PTree.addrs, List.append_nil, List.mem_cons, m2]
      constructor
      · rintro (h | h)
        · exact ⟨fun e => hja (e.symm.trans h), Or.inl h⟩
        · exact ⟨fun e => hjt2 (e ▸ h), Or.inr (Or.inr h)⟩
      · rintro ⟨h0, h | h | h⟩
        · exact Or.inl h
        · exact absurd h h0
        · exact Or.inr h
    have hlen : (t3.addrs.length : Int) = c0.addrs.length := by
      have l3 := p3.length_eq
      have l2 := p2.length_eq
      simp only [List.length_cons] at l3 l2
      rw [hl1] at l2
      omega
    refine ⟨{ s2 with h := h3 }, t3, ?_, ⟨w3, i3.trans (i2.trans i1), ?_, ?_, ?_, ?_⟩, l2, ?_,
      ?_, ?_, ?_, mem3, ?_, ?_⟩
    · unfold play_turn
      rw [e1]
      simp only
      rw [hda]
      simp only
      rw [hc]
      simp only
      rw [hmv]
      simp only
      rw [hfind]
      simp only
      rw [hpl]
      simp only [Bool.false_eq_true, if_false]
      rw [e2]
      simp only
      unfold play_reinsert
      rw [hca]
      simp only
      rw [if_neg hsp2, e3]
      rfl
    · intro i hi
      show h3.mem.data i = some i
      rw [dd3]
      split
      · rename_i h; rw [h]
      · rw [dd2]
        show h1.mem.data i = some i
        rw [hd1]
        exact inv.data i ((mem3 i).mp hi).2
    · intro i
      show i ∈ t3.addrs ↔ i < s2.character_len ∧ s2.characters i ≠ none
      rw [mem3, l2, c2, inv.live i]
      by_cases h : i = j
      · simp [h]
      · simp [h]
    · intro i i2 q hi hi2 e e2
      have hi3 : i < s.character_len := l2 ▸ hi
      have hi4 : i2 < s.character_len := l2 ▸ hi2
      change s2.characters i = some q at e
      change s2.characters i2 = some q at e2
      rw [c2] at e e2
      simp only at e e2
      by_cases h : i = j
      · rw [if_pos h] at e; cases e
      · by_cases h2 : i2 = j
        · rw [if_pos h2] at e2; cases e2
        · rw [if_neg h] at e
          rw [if_neg h2] at e2
          exact inv.inj i i2 q hi3 hi4 e e2
    · show h3.size = s2.d.num_monsters + 1
      have := inv.size
      rw [w3.size, hlen, n2]
      show (c0.addrs.length : Int) = d1.num_monsters - 1 + 1
      rw [hnum]
      omega
    · show s2.characters j = none
      rw [c2]; simp
    · intro i hi
      show s2.characters i = s.characters i
      rw [c2]; simp only; rw [if_neg hi]
    · rw [WF.inHeap_iff (show WF (Play.h { s2 with h := h3 }) t3 from w3), mem3]
      exact fun h => h.1 rfl
    · rw [WF.inHeap_iff (show WF (Play.h { s2 with h := h3 }) t3 from w3), mem3]
      exact ⟨fun e => hja e.symm, by simp [PTree.addrs]⟩
    · show s2.d.num_monsters = s.d.num_monsters - 1
      rw [n2]
      show d1.num_monsters - 1 = s.d.num_monsters - 1
      rw [hnum]
    · show h3.size = s2.d.num_monsters + 1
      have := inv.size
      rw [w3.size, hlen, n2]
      show (c0.addrs.length : Int) = d1.num_monsters - 1 + 1
      rw [hnum]
      omega
  · intro hpl
    have ht : play_turn move fuel s rng = some (false, Play.mk { d1 with player := none } h1
        (fun i => if i = j then none else s.characters i) s.character_len, rng1) := by
      unfold play_turn
      rw [e1]
      simp only
      rw [hda]
      simp only
      rw [hc]
      simp only
      rw [hmv]
      simp only
      rw [hfind]
      simp only
      rw [hpl]
      simp only [if_true]
    refine ⟨_, h1, _, ht, e1, rfl, w1, ?_, z1, rfl, by simp, ?_⟩
    · rw [WF.inHeap_iff (show WF (Play.h (Play.mk { d1 with player := none } h1
        (fun i => if i = j then none else s.characters i) s.character_len)) _ from w1)]
      exact ha1
    · intro n
      have hgt : s.h.size > 1 := by
        have : 0 < c0.addrs.length := List.length_pos_of_mem hjc
        omega
      have hmin : heap_min s.h = some a := by
        unfold heap_min
        rw [if_neg (by omega), inv.wf.root]
        rfl
      unfold play_loop
      rw [if_pos hgt, hmin]
      simp only
      rw [ht]

end Source

namespace Source

/-- The store of the scheduler heap after the set-up with two monsters of speed 20 (entries
0 and 1, key 50) and the player of speed 10 (entry 2, key 100): entry 0 is the root, its
children are entry 2 and then entry 1. -/
def exQueueMem : Mem :=
  { key := fun i => if i = 2 then 100 else 50
    data := fun i => some i
    prev := fun i => if i = 2 then some 0 else if i = 1 then some 2 else none
    next := fun i => if i = 2 then some 1 else none
    child := fun i => if i = 0 then some 2 else none }

/-- The state of `play_dungeon` at the head of the main loop, with two monsters (characters 1
and 2) and the player (character 0). -/
def exPlay : Play :=
  { d := { exWorld with
      monsters := fun k => if k < 2 then some (k + 1) else none
      num_monsters := 2 }
    h := { mem := exQueueMem, size := 3, intrusive := true, root := some 0 }
    characters := fun i => if i < 2 then some (i + 1) else if i = 2 then some 0 else none
    character_len := 3 }

/-- The shape of the heap of `exPlay`. -/
def exShape : PTree := .node 0 (.node 2 .nil (.node 1 .nil .nil)) .nil

/-- A move that kills character `k` and changes nothing else. -/
def exKiller (k : Nat) : Dungeon_T → Nat → List Nat → Option (Option Nat × Dungeon_T × List Nat) :=
  fun d _ rng => some (some k, d, rng)

theorem exPlay_inv : PlayInv exPlay exShape := by
  refine ⟨⟨rfl, Or.inr ⟨_, _, rfl⟩, ?_, by decide, ?_, rfl⟩, rfl, ?_, ?_, ?_, rfl⟩
  · simp [Rep, exPlay, exQueueMem, PTree.ptr]
  · simp [Ord, chainGe, exPlay, exQueueMem]
  · intro i hi
    rfl
  · intro i
    show i ∈ [0, 2, 1] ↔ i < 3 ∧ exPlay.characters i ≠ none
    constructor
    · intro h
      simp only [List.mem_cons, List.mem_singleton, List.not_mem_nil, or_false] at h
      rcases h with rfl | rfl | rfl <;> exact ⟨by decide, by decide⟩
    · rintro ⟨h, _⟩
      interval_cases i <;> decide
  · intro i j c hi hj e1 e2
    change i < 3 at hi
    change j < 3 at hj
    interval_cases i <;> interval_cases j <;> simp [exPlay] at e1 e2 ⊢ <;> omega

theorem play_turn_kill_heap_witness :
    PlayInv exPlay (.node 0 (.node 2 .nil (.node 1 .nil .nil)) .nil) ∧
    (PTree.node 2 .nil (.node 1 .nil .nil)).addrs.length + 1 ≤ 3 ∧
    exPlay.characters 0 = some 1 ∧
    exKiller 2 exPlay.d 1 [] = some (some 2, exPlay.d, []) ∧
    exKiller 0 exPlay.d 1 [] = some (some 0, exPlay.d, []) ∧
    exPlay.d.num_monsters = exPlay.d.num_monsters ∧ 1 < exPlay.character_len ∧
    2 < exPlay.character_len ∧ exPlay.characters 1 = some 2 ∧ exPlay.characters 2 = some 0 ∧
    1 ≠ 0 ∧ 2 ≠ 0 ∧ (exPlay.d.chars 1).speed ≠ 0 ∧
    (∃ s2 t2, play_turn (exKiller 2) 3 exPlay [] = some (true, s2, []) ∧ PlayInv s2 t2 ∧
      s2.character_len = exPlay.character_len ∧ s2.characters 1 = none ∧
      (∀ i, i ≠ 1 → s2.characters i = exPlay.characters i) ∧
      ¬ InHeap s2.h 1 ∧ InHeap s2.h 0 ∧
      (∀ i, i ∈ t2.addrs ↔ i ≠ 1 ∧
        i ∈ (PTree.node 0 (.node 2 .nil (.node 1 .nil .nil)) .nil).addrs) ∧
      s2.d.num_monsters = exPlay.d.num_monsters - 1 ∧ s2.h.size = s2.d.num_monsters + 1) ∧
    (∃ s2 h1 t1, play_turn (exKiller 0) 3 exPlay [] = some (false, s2, []) ∧
      heap_remove_min 3 exPlay.h = some (some 0, h1) ∧ s2.h = h1 ∧ WF h1 t1 ∧
      ¬ InHeap s2.h 0 ∧ s2.h.size = exPlay.h.size - 1 ∧ s2.d.player = none ∧
      s2.characters 2 = none ∧
      ∀ n, play_loop (exKiller 0) 3 (n + 1) exPlay [] = some ([0], s2, [])) :=
  ⟨exPlay_inv, by decide, rfl, rfl, rfl, rfl, by decide, by decide, rfl, rfl, by decide,
    by decide, by decide,
    (play_turn_kill_heap (exKiller 2) 3 exPlay 0 (.node 2 .nil (.node 1 .nil .nil)) 1 2 1 [] []
      exPlay.d exPlay_inv (by decide) rfl rfl rfl (by decide) rfl (by decide) (by decide)).1
      rfl (by decide),
    (play_turn_kill_heap (exKiller 0) 3 exPlay 0 (.node 2 .nil (.node 1 .nil .nil)) 1 0 2 [] []
      exPlay.d exPlay_inv (by decide) rfl rfl rfl (by decide) rfl (by decide) (by decide)).2
      rfl⟩

end Source

/-! ## The weight of the tunnelling policy -/

/-- The `static int difference` of `tunnel_cost` is 84. -/
theorem tunnel_difference :
    Int.tdiv (MAX_ROCK_HARDNESS - MIN_ROCK_HARDNESS) TUNNEL_NUM_HARDNESS_LEVELS = 84 := by
  decide

/-- Truncated division of a C `int` by 84 stays far below `INT_MAX`. -/
theorem tdiv_84_bound (h : Int) (hlo : -2147483648 ≤ h) (hhi : h ≤ 2147483647) :
    -25565282 ≤ Int.tdiv h 84 ∧ Int.tdiv h 84 ≤ 25565281 := by
  rcases Int.le_total 0 h with hp | hn
  · rw [Int.tdiv_eq_ediv hp (by decide)]
    omega
  · have e : Int.tdiv h 84 = -((-h) / 84) := by
      have : h = -(-h) := by omega
      rw [this, Int.neg_tdiv, Int.tdiv_eq_ediv (by omega) (by decide)]
      simp
    rw [e]
    omega

/-- C27: `tunnel_cost` on the cell `(y + 1, x + 1)`, whose hardness is a C `int`: the result
is `INT_MAX` exactly when the hardness is 255; otherwise it is `1 + hardness / 84` with the
truncating division of C, where 84 is `(254 - 1) / 3`; for a hardness in `0..254` the
result lies between 1 and 4. -/
theorem tunnel_cost_values (d : Dungeon) (y x : Int)
    (hlo : -2147483648 ≤ (d.MAP (y + 1) (x + 1)).hardness)
    (hhi : (d.MAP (y + 1) (x + 1)).hardness ≤ INT_MAX) :
    (tunnel_cost d y x = INT_MAX ↔ (d.MAP (y + 1) (x + 1)).hardness = 255) ∧
    ((d.MAP (y + 1) (x + 1)).hardness ≠ 255 →
      tunnel_cost d y x = 1 + Int.tdiv (d.MAP (y + 1) (x + 1)).hardness 84) ∧
    (0 ≤ (d.MAP (y + 1) (x + 1)).hardness → (d.MAP (y + 1) (x + 1)).hardness ≤ 254 →
      1 ≤ tunnel_cost d y x ∧ tunnel_cost d y x ≤ 4 ∧
      tunnel_cost d y x = 1 + (d.MAP (y + 1) (x + 1)).hardness / 84) ∧
    (MAX_ROCK_HARDNESS - MIN_ROCK_HARDNESS) / TUNNEL_NUM_HARDNESS_LEVELS = 84 := by
  have hb := tdiv_84_bound (d.MAP (y + 1) (x + 1)).hardness hlo (by unfold INT_MAX at hhi; omega)
  unfold tunnel_cost
  rw [tunnel_difference]
  refine ⟨?_, ?_, ?_, by decide⟩
  · constructor
    · intro h
      by_contra hne
      rw [if_neg (by unfold IMMUTABLE_ROCK_HARDNESS; exact hne)] at h
      unfold INT_MAX at h
      omega
    · intro h
      rw [if_pos (by unfold IMMUTABLE_ROCK_HARDNESS; exact h)]
  · intro hne
    rw [if_neg (by unfold IMMUTABLE_ROCK_HARDNESS; exact hne)]
  · intro h0 h254
    rw [if_neg (by unfold IMMUTABLE_ROCK_HARDNESS; omega), Int.tdiv_eq_ediv h0 (by decide)]
    omega

theorem tunnel_cost_values_witness :
    -2147483648 ≤ (exDungeon.MAP (1 + 1) (1 + 1)).hardness ∧
    (exDungeon.MAP (1 + 1) (1 + 1)).hardness ≤ INT_MAX ∧
    (tunnel_cost exDungeon 1 1 = INT_MAX ↔ (exDungeon.MAP (1 + 1) (1 + 1)).hardness = 255) ∧
    ((exDungeon.MAP (1 + 1) (1 + 1)).hardness ≠ 255 →
      tunnel_cost exDungeon 1 1 = 1 + Int.tdiv (exDungeon.MAP (1 + 1) (1 + 1)).hardness 84) ∧
    (0 ≤ (exDungeon.MAP (1 + 1) (1 + 1)).hardness →
      (exDungeon.MAP (1 + 1) (1 + 1)).hardness ≤ 254 →
      1 ≤ tunnel_cost exDungeon 1 1 ∧ tunnel_cost exDungeon 1 1 ≤ 4 ∧
      tunnel_cost exDungeon 1 1 = 1 + (exDungeon.MAP (1 + 1) (1 + 1)).hardness / 84) ∧
    (MAX_ROCK_HARDNESS - MIN_ROCK_HARDNESS) / TUNNEL_NUM_HARDNESS_LEVELS = 84 :=
  ⟨by decide, by decide, tunnel_cost_values exDungeon 1 1 (by decide) (by decide)⟩

/-! ## The frame of `paint_corridor` -/

/-- C28: `paint_corridor` between two interior points of a dungeon with an immutable border
and interior hardness in `0..254` returns a dungeon of the same dimensions in which, with
`path` the cells the walker stepped onto: every cell whose type is not Rock is unchanged,
every Rock cell off the path is unchanged, and every Rock cell on the path differs from
before only in having type Corridor and hardness 0. -/
theorem paint_corridor_changes_rock_only (fuel : Nat) (m0 : Mem) (v0 : Nat → Vertex)
    (c0 : Nat → Int) (d : Dungeon_T) (sy sx ty tx : Int)
    (hbo : BorderOk d.toDungeon) (hh : HardnessOk d.toDungeon)
    (hm : InteriorMutable d.toDungeon)
    (hsm : 7 * ((((d.height - 2) * (d.width - 2) : Nat) : Int) + 1) < INT_MAX)
    (hs : Interior d.toDungeon sy sx) (ht : Interior d.toDungeon ty tx)
    (hf : (d.height - 2) * (d.width - 2) ≤ fuel) :
    ∃ d2 path, paint_corridor fuel m0 v0 c0 d sy sx ty tx = some d2 ∧
      List.Chain Adjacent (ty, tx) path ∧ ((ty, tx) :: path).getLast? = some (sy, sx) ∧
      ∀ y x, InGrid d.toDungeon y x →
        ((d.MAP y x).type ≠ .ROCK → d2.MAP y x = d.MAP y x) ∧
        ((y, x) ∉ path → d2.MAP y x = d.MAP y x) ∧
        ((d.MAP y x).type = .ROCK → (y, x) ∈ path →
          d2.MAP y x = { d.MAP y x with type := .CORRIDOR, hardness := 0 }) := by
  obtain ⟨d2, path, e, hch, hlast, _, _, hmap⟩ := paint_corridor_trace fuel m0 v0 c0 d
    sy sx ty tx (cellInv_of_ok hbo hh hm) hsm hs ht hf
  refine ⟨d2, path, e, hch, hlast, ?_⟩
  intro y x hg
  have h := hmap y x hg
  refine ⟨?_, ?_, ?_⟩
  · intro hne
    rw [h]
    split
    · unfold paintCell
      rw [if_neg hne]
    · rfl
  · intro hnot
    rw [h, if_neg hnot]
  · intro hr hp
    rw [h, if_pos hp]
    unfold paintCell
    rw [if_pos hr]
    rfl

theorem paint_corridor_changes_rock_only_witness :
    BorderOk exCorners.toDungeon ∧ HardnessOk exCorners.toDungeon ∧
    InteriorMutable exCorners.toDungeon ∧
    7 * ((((exCorners.height - 2) * (exCorners.width - 2) : Nat) : Int) + 1) < INT_MAX ∧
    Interior exCorners.toDungeon 1 1 ∧ Interior exCorners.toDungeon 3 3 ∧
    (exCorners.height - 2) * (exCorners.width - 2) ≤ 9 ∧
    ∃ d2 path, paint_corridor 9 Mem.empty exVertices (fun _ => 0) exCorners 1 1 3 3 = some d2 ∧
      List.Chain Adjacent (3, 3) path ∧ ((3, 3) :: path).getLast? = some (1, 1) ∧
      ∀ y x, InGrid exCorners.toDungeon y x →
        ((exCorners.MAP y x).type ≠ .ROCK → d2.MAP y x = exCorners.MAP y x) ∧
        ((y, x) ∉ path → d2.MAP y x = exCorners.MAP y x) ∧
        ((exCorners.MAP y x).type = .ROCK → (y, x) ∈ path →
          d2.MAP y x = { exCorners.MAP y x with type := .CORRIDOR, hardness := 0 }) :=
  ⟨by decide, by decide, by decide, by decide, by decide, by decide, by decide,
    paint_corridor_changes_rock_only 9 Mem.empty exVertices (fun _ => 0) exCorners 1 1 3 3
      (by decide) (by decide) (by decide) (by decide) (by decide) (by decide) (by decide)⟩

/-! ## More claims about the pairing heap -/

/-- C23 fails as written: `heap_decrease_key` with a key larger than the current one returns
and leaves a child below a parent of larger key. In the three-node heap (root 2 with key 3, its first
child 3 with key 4) the call with node 2 and key 10 returns a heap with the same links in
which node 3 has a smaller key than its parent 2, so the result is not well formed. -/
theorem heap_decrease_key_accepts_larger_key :
    exHeap3.root = some 2 ∧ exHeap3.mem.key 2 = 3 ∧
    ∃ h2, heap_decrease_key exHeap3 2 10 = some h2 ∧ h2.root = some 2 ∧
      h2.mem.child 2 = some 3 ∧ h2.mem.prev 3 = some 2 ∧ h2.mem.key 2 = 10 ∧
      h2.mem.key 3 = 4 ∧ h2.mem.key 3 < h2.mem.key 2 ∧ ¬ ∃ t, WF h2 t := by
  refine ⟨rfl, rfl, _, rfl, rfl, rfl, rfl, rfl, rfl, by decide, ?_⟩
  rintro ⟨t, w⟩
  rcases w.top with ht | ⟨a, c, ht⟩
  · subst ht
    have := w.root
    simp [PTree.ptr] at this
    cases this
  · subst ht
    have hroot := w.root
    have ha : a = 2 := by
      have e : (some 2 : Ptr) = some a := hroot
      cases e
      rfl
    subst ha
    have h3 := w.root_min 3 ((w.inHeap_iff 3).mp (Linked.child 2 3 (Linked.here 3)))
    revert h3
    decide

theorem merge_keeps_payload (m : Mem) (a b : Ptr) :
    (merge m a b).1.key = m.key ∧ (merge m a b).1.data = m.data := by
  cases a with
  | none => exact ⟨rfl, rfl⟩
  | some a0 =>
    cases b with
    | none => exact ⟨rfl, rfl⟩
    | some b0 =>
      simp only [merge]
      split <;> exact ⟨rfl, rfl⟩

theorem remove_siblings_keeps_payload {m m2 : Mem} {n : Nat}
    (h : remove_siblings m n = some m2) : m2.key = m.key ∧ m2.data = m.data := by
  unfold remove_siblings at h
  cases hp : m.prev n with
  | none => rw [hp] at h; cases h
  | some p =>
    rw [hp] at h
    simp only [Option.some.injEq] at h
    subst h
    split <;> split <;> exact ⟨rfl, rfl⟩

/-- C23 (amended): `heap_decrease_key` makes no test of the key and has no exit: for every
heap, node and key the call returns, with the key stored in the node and every other key,
every payload, the size and the mode as they were. A key larger than the current one is
outside the contract of the function (`newKey <= key`), and the call returns all the same.
Within the contract, on a node of a well-formed heap, the returned heap is well formed on
the same nodes, so no node has a key smaller than its parent's. -/
theorem heap_decrease_key_makes_no_test (h : Heap) (n : Nat) (k : Int) :
    ∃ h2, heap_decrease_key h n k = some h2 ∧
      (∀ x, h2.mem.key x = if x = n then k else h.mem.key x) ∧
      h2.mem.data = h.mem.data ∧ h2.size = h.size ∧ h2.intrusive = h.intrusive ∧
      (h.mem.prev n = none → h2.root = h.root ∧ h2.mem.child = h.mem.child ∧
        h2.mem.prev = h.mem.prev ∧ h2.mem.next = h.mem.next) ∧
      ∀ t, WF h t → n ∈ t.addrs → k ≤ h.mem.key n →
        ∃ t2, WF h2 t2 ∧ t2.addrs.Perm t.addrs := by
  have hwf : ∀ h2, heap_decrease_key h n k = some h2 → ∀ t, WF h t → n ∈ t.addrs →
      k ≤ h.mem.key n → ∃ t2, WF h2 t2 ∧ t2.addrs.Perm t.addrs := by
    intro h2 e t w hn hk
    obtain ⟨h3, t2, e3, w2, hperm, _⟩ := heap_decrease_key_wf w hn hk
    rw [e] at e3
    simp only [Option.some.injEq] at e3
    subst e3
    exact ⟨t2, w2, hperm⟩
  cases hp : h.mem.prev n with
  | none =>
    have e : heap_decrease_key h n k = some { h with mem := h.mem.setKey n k } := by
      unfold heap_decrease_key
      simp only [prev_setKey, hp]
    refine ⟨_, e, fun x => rfl, rfl, rfl, rfl, fun _ => ⟨rfl, rfl, rfl, rfl⟩, hwf _ e⟩
  | some p =>
    have hrs : ∃ m2, remove_siblings (h.mem.setKey n k) n = some m2 := by
      unfold remove_siblings
      simp only [prev_setKey, hp]
      exact ⟨_, rfl⟩
    obtain ⟨m2, e2⟩ := hrs
    have e : heap_decrease_key h n k =
        some { h with mem := (merge m2 h.root (some n)).1, root := (merge m2 h.root (some n)).2 } := by
      unfold heap_decrease_key
      simp only [prev_setKey, hp, e2]
    obtain ⟨k1, d1⟩ := remove_siblings_keeps_payload e2
    obtain ⟨k2, d2⟩ := merge_keeps_payload m2 h.root (some n)
    refine ⟨_, e, ?_, ?_, rfl, rfl, fun hc => (by cases hc), hwf _ e⟩
    · intro x
      show (merge m2 h.root (some n)).1.key x = _
      rw [k2, k1]
      rfl
    · show (merge m2 h.root (some n)).1.data = _
      rw [d2, d1]
      rfl

/-- The heap when `heap_dynamic_insert` is left, and whether it is left through `kill`: the
mode test is the first statement of the function. -/
def heap_dynamic_insert_state (h : Heap) (n : Nat) (key : Int) (data : Option Nat) :
    Heap × Bool :=
  if h.intrusive then (h, true)
  else
    let m1 := ((((h.mem.setKey n key).setData n data).setChild n none).setNext n none).setPrev n none
    let r := merge m1 h.root (some n)
    ({ h with mem := r.1, root := r.2, size := h.size + 1 }, false)

/-- The heap when `heap_intrusive_insert` is left, and whether it is left through `kill`. -/
def heap_intrusive_insert_state (h : Heap) (n : Nat) (key : Int) (data : Option Nat) :
    Heap × Bool :=
  if !h.intrusive then (h, true)
  else
    let m1 := ((((h.mem.setKey n key).setData n data).setChild n none).setNext n none).setPrev n none
    let r := merge m1 h.root (some n)
    ({ h with mem := r.1, root := r.2, size := h.size + 1 }, false)

theorem heap_dynamic_insert_of_state (h : Heap) (n : Nat) (key : Int) (data : Option Nat) :
    heap_dynamic_insert h n key data =
      if (heap_dynamic_insert_state h n key data).2 then none
      else some ((heap_dynamic_insert_state h n key data).1, n) := by
  unfold heap_dynamic_insert heap_dynamic_insert_state
  cases h.intrusive <;> rfl

theorem heap_intrusive_insert_of_state (h : Heap) (n : Nat) (key : Int) (data : Option Nat) :
    heap_intrusive_insert h n key data =
      if (heap_intrusive_insert_state h n key data).2 then none
      else some (heap_intrusive_insert_state h n key data).1 := by
  unfold heap_intrusive_insert heap_intrusive_insert_state
  cases h.intrusive <;> rfl

/-- What a successful insert of node `n` does to the heap `h`. -/
def Inserted (h h2 : Heap) (n : Nat) (key : Int) (data : Option Nat) : Prop :=
  (∃ t2, WF h2 t2) ∧ InHeap h2 n ∧ (∀ a, InHeap h2 a ↔ a = n ∨ InHeap h a) ∧
  h2.mem.key n = key ∧ h2.mem.data n = data ∧
  (∀ a, a ≠ n → h2.mem.key a = h.mem.key a ∧ h2.mem.data a = h.mem.data a) ∧
  h2.size = h.size + 1 ∧ h2.intrusive = h.intrusive

theorem inserted_of_wf {h h2 : Heap} {t t2 : PTree} {n : Nat} {key : Int} {data : Option Nat}
    (w : WF h t) (w2 : WF h2 t2) (hp : t2.addrs.Perm (n :: t.addrs))
    (hi : h2.intrusive = h.intrusive)
    (hk : ∀ x, h2.mem.key x = if x = n then key else h.mem.key x)
    (hd : ∀ x, h2.mem.data x = if x = n then data else h.mem.data x) :
    Inserted h h2 n key data := by
  refine ⟨⟨t2, w2⟩, ?_, ?_, by rw [hk]; simp, by rw [hd]; simp, ?_, ?_, hi⟩
  · rw [w2.inHeap_iff, hp.mem_iff]
    exact List.mem_cons_self _ _
  · intro a
    rw [w2.inHeap_iff, hp.mem_iff, List.mem_cons, w.inHeap_iff]
  · intro a ha
    rw [hk, hd, if_neg ha, if_neg ha]
    exact ⟨rfl, rfl⟩
  · rw [w2.size, w.size, hp.length_eq]
    simp

/-- C24: on a well-formed heap and a node `n` that is not in it, `heap_dynamic_insert` takes
the fatal exit exactly when the heap is intrusive and `heap_intrusive_insert` exactly when
it is dynamic; at the fatal exit the heap is as it was; otherwise the call returns a
well-formed heap that holds `n` with the given key and payload next to the old nodes, which
keep theirs, and the size is one more. -/
theorem heap_insert_checks_mode (h : Heap) (hw : ∃ t, WF h t) (n : Nat) (key : Int)
    (data : Option Nat) (hn : ¬ InHeap h n) :
    (heap_dynamic_insert h n key data = none ↔ h.intrusive = true) ∧
    (heap_intrusive_insert h n key data = none ↔ h.intrusive = false) ∧
    (h.intrusive = true → heap_dynamic_insert_state h n key data = (h, true)) ∧
    (h.intrusive = false → heap_intrusive_insert_state h n key data = (h, true)) ∧
    (h.intrusive = false → ∃ h2, heap_dynamic_insert h n key data = some (h2, n) ∧
      heap_dynamic_insert_state h n key data = (h2, false) ∧ Inserted h h2 n key data) ∧
    (h.intrusive = true → ∃ h2, heap_intrusive_insert h n key data = some h2 ∧
      heap_intrusive_insert_state h n key data = (h2, false) ∧ Inserted h h2 n key data) := by
  obtain ⟨t, w⟩ := hw
  have hnt : n ∉ t.addrs := fun e => hn ((w.inHeap_iff n).mpr e)
  refine ⟨?_, ?_, ?_, ?_, ?_, ?_⟩
  · unfold heap_dynamic_insert
    cases h.intrusive <;> simp
  · unfold heap_intrusive_insert
    cases h.intrusive <;> simp
  · intro hi
    unfold heap_dynamic_insert_state
    rw [hi]
    rfl
  · intro hi
    unfold heap_intrusive_insert_state
    rw [hi]
    rfl
  · intro hi
    obtain ⟨h2, t2, e, w2, hp, hi2, hk, hd⟩ := heap_dynamic_insert_wf w hi n key data hnt
    refine ⟨h2, e, ?_, inserted_of_wf w w2 hp hi2 hk hd⟩
    have := heap_dynamic_insert_of_state h n key data
    rw [e] at this
    unfold heap_dynamic_insert_state at this ⊢
    rw [hi] at this ⊢
    simp only [Bool.false_eq_true, if_false, Option.some.injEq, Prod.mk.injEq] at this ⊢
    exact ⟨this.1.symm, trivial⟩
  · intro hi
    obtain ⟨h2, t2, e, w2, hp, hi2, hk, hd⟩ := heap_intrusive_insert_wf w hi n key data hnt
    refine ⟨h2, e, ?_, inserted_of_wf w w2 hp hi2 hk hd⟩
    have := heap_intrusive_insert_of_state h n key data
    rw [e] at this
    unfold heap_intrusive_insert_state at this ⊢
    rw [hi] at this ⊢
    simp only [Bool.not_true, Bool.false_eq_true, if_false, Option.some.injEq,
      Prod.mk.injEq] at this ⊢
    exact ⟨this.symm, trivial⟩

/-- The nodes of the three-node example heap are 1, 2 and 3. -/
theorem exHeap3_nodes (n : Nat) : InHeap exHeap3 n ↔ n = 2 ∨ n = 3 ∨ n = 1 := by
  show Linked exHeap3.mem (some 2) n ↔ _
  have h1 : exHeap3.mem.child 2 = some 3 := rfl
  have h2 : exHeap3.mem.next 2 = none := rfl
  have h3 : exHeap3.mem.child 3 = none := rfl
  have h4 : exHeap3.mem.next 3 = some 1 := rfl
  have h5 : exHeap3.mem.child 1 = none := rfl
  have h6 : exHeap3.mem.next 1 = none := rfl
  rw [Linked_some_iff, h1, h2, Linked_some_iff, h3, h4, Linked_some_iff, h5, h6]
  simp [Linked_none]

theorem heap_insert_checks_mode_witness :
    (∃ t, WF exHeap3 t) ∧ ¬ InHeap exHeap3 7 ∧
    (∃ t, WF (new_heap Mem.empty false) t) ∧ ¬ InHeap (new_heap Mem.empty false) 7 ∧
    exHeap3.intrusive = true ∧ (new_heap Mem.empty false).intrusive = false ∧
    heap_dynamic_insert exHeap3 7 1 none = none ∧
    heap_dynamic_insert_state exHeap3 7 1 none = (exHeap3, true) ∧
    (∃ h2, heap_intrusive_insert exHeap3 7 1 none = some h2 ∧
      heap_intrusive_insert_state exHeap3 7 1 none = (h2, false) ∧
      Inserted exHeap3 h2 7 1 none) ∧
    heap_intrusive_insert (new_heap Mem.empty false) 7 1 none = none ∧
    ∃ h2, heap_dynamic_insert (new_heap Mem.empty false) 7 1 none = some (h2, 7) ∧
      heap_dynamic_insert_state (new_heap Mem.empty false) 7 1 none = (h2, false) ∧
      Inserted (new_heap Mem.empty false) h2 7 1 none :=
  ⟨exHeap3_reach.wf, fun h => by have := (exHeap3_nodes 7).mp h; omega,
    ⟨.nil, new_heap_wf _ _⟩, Linked_none _ _, rfl, rfl,
    (heap_insert_checks_mode exHeap3 exHeap3_reach.wf 7 1 none
      (fun h => by have := (exHeap3_nodes 7).mp h; omega)).1.mpr rfl,
    (heap_insert_checks_mode exHeap3 exHeap3_reach.wf 7 1 none
      (fun h => by have := (exHeap3_nodes 7).mp h; omega)).2.2.1 rfl,
    (heap_insert_checks_mode exHeap3 exHeap3_reach.wf 7 1 none
      (fun h => by have := (exHeap3_nodes 7).mp h; omega)).2.2.2.2.2 rfl,
    (heap_insert_checks_mode (new_heap Mem.empty false) ⟨.nil, new_heap_wf _ _⟩ 7 1 none
      (Linked_none _ _)).2.1.mpr rfl,
    (heap_insert_checks_mode (new_heap Mem.empty false) ⟨.nil, new_heap_wf _ _⟩ 7 1 none
      (Linked_none _ _)).2.2.2.2.1 rfl⟩

/-- C25: for a well-formed heap and a node `n` of it, the root or any other node,
`heap_delete` (with fuel for one pass over the heap) returns a well-formed heap whose nodes
are the old ones without `n`, with every key and payload as before and the size one less. -/
theorem heap_delete_removes_exactly (h : Heap) (hw : ∃ t, WF h t) (n : Nat) (hn : InHeap h n)
    (fuel : Nat) (hf : h.size ≤ (fuel : Int)) :
    ∃ h2, heap_delete fuel h n = some h2 ∧ (∃ t2, WF h2 t2) ∧ ¬ InHeap h2 n ∧
      (∀ a, InHeap h2 a ↔ InHeap h a ∧ a ≠ n) ∧
      (∀ a, h2.mem.key a = h.mem.key a ∧ h2.mem.data a = h.mem.data a) ∧
      h2.size = h.size - 1 ∧ h2.intrusive = h.intrusive := by
  obtain ⟨t, w⟩ := hw
  have hnt := (w.inHeap_iff n).mp hn
  have hlen : t.addrs.length ≤ fuel := by
    have := w.size
    omega
  obtain ⟨h2, t2, e, w2, hp, hi, hs, hk, hd⟩ := heap_delete_wf w hnt hlen
  have hnd : (n :: t2.addrs).Nodup := hp.nodup_iff.mpr w.nodup
  have hn2 : n ∉ t2.addrs := (List.nodup_cons.mp hnd).1
  refine ⟨h2, e, ⟨t2, w2⟩, fun hc => hn2 ((w2.inHeap_iff n).mp hc), ?_, ?_, hs, hi⟩
  · intro a
    rw [w2.inHeap_iff, w.inHeap_iff, ← hp.mem_iff, List.mem_cons]
    constructor
    · intro ha
      exact ⟨Or.inr ha, fun e => hn2 (e ▸ ha)⟩
    · rintro ⟨h1 | h1, h2⟩
      · exact absurd h1 h2
      · exact h1
  · intro a
    rw [hk, hd]
    exact ⟨rfl, rfl⟩

theorem heap_delete_removes_exactly_witness :
    (∃ t, WF exHeap3 t) ∧ InHeap exHeap3 2 ∧ InHeap exHeap3 1 ∧
    exHeap3.size ≤ ((3 : Nat) : Int) ∧ exHeap3.root = some 2 ∧
    (∃ h2, heap_delete 3 exHeap3 2 = some h2 ∧ (∃ t2, WF h2 t2) ∧ ¬ InHeap h2 2 ∧
      (∀ a, InHeap h2 a ↔ InHeap exHeap3 a ∧ a ≠ 2) ∧
      (∀ a, h2.mem.key a = exHeap3.mem.key a ∧ h2.mem.data a = exHeap3.mem.data a) ∧
      h2.size = exHeap3.size - 1 ∧ h2.intrusive = exHeap3.intrusive) ∧
    ∃ h2, heap_delete 3 exHeap3 1 = some h2 ∧ (∃ t2, WF h2 t2) ∧ ¬ InHeap h2 1 ∧
      (∀ a, InHeap h2 a ↔ InHeap exHeap3 a ∧ a ≠ 1) ∧
      (∀ a, h2.mem.key a = exHeap3.mem.key a ∧ h2.mem.data a = exHeap3.mem.data a) ∧
      h2.size = exHeap3.size - 1 ∧ h2.intrusive = exHeap3.intrusive :=
  ⟨exHeap3_reach.wf, (exHeap3_nodes 2).mpr (Or.inl rfl), (exHeap3_nodes 1).mpr (by simp),
    by decide, rfl,
    heap_delete_removes_exactly exHeap3 exHeap3_reach.wf 2 ((exHeap3_nodes 2).mpr (Or.inl rfl))
      3 (by decide),
    heap_delete_removes_exactly exHeap3 exHeap3_reach.wf 1 ((exHeap3_nodes 1).mpr (by simp))
      3 (by decide)⟩

/-! ### Well-formedness, node by node -/

/-- The node `b` is on the sibling list that starts at `p`. -/
inductive OnList (m : Mem) : Ptr → Nat → Prop where
  | here (a : Nat) : OnList m (some a) a
  | next (b a : Nat) : OnList m (m.next b) a → OnList m (some b) a

theorem Rep_child_prev {m : Mem} : ∀ (t : PTree) (pv : Ptr) (a b : Nat), Rep m pv t →
    a ∈ t.addrs → m.child a = some b → m.prev b = some a
  | .nil, _, a, _, _, h, _ => by simp [PTree.addrs] at h
  | .node x c n, pv, a, b, hr, h, hc => by
    obtain ⟨_, r2, _, r4, r5⟩ := hr
    simp only [PTree.addrs, List.mem_cons, List.mem_append] at h
    by_cases hax : a = x
    · subst hax
      rw [r2] at hc
      cases c with
      | nil => cases hc
      | node y cc nn =>
        have e : y = b := by
          have e2 : (some y : Ptr) = some b := hc
          cases e2
          rfl
        subst e
        exact r4.1
    · rcases h with h | h | h
      · exact absurd h hax
      · exact Rep_child_prev c (some x) a b r4 h hc
      · exact Rep_child_prev n (some x) a b r5 h hc

theorem Rep_next_prev {m : Mem} : ∀ (t : PTree) (pv : Ptr) (a b : Nat), Rep m pv t →
    a ∈ t.addrs → m.next a = some b → m.prev b = some a
  | .nil, _, a, _, _, h, _ => by simp [PTree.addrs] at h
  | .node x c n, pv, a, b, hr, h, hc => by
    obtain ⟨_, _, r3, r4, r5⟩ := hr
    simp only [PTree.addrs, List.mem_cons, List.mem_append] at h
    by_cases hax : a = x
    · subst hax
      rw [r3] at hc
      cases n with
      | nil => cases hc
      | node y cc nn =>
        have e : y = b := by
          have e2 : (some y : Ptr) = some b := hc
          cases e2
          rfl
        subst e
        exact r5.1
    · rcases h with h | h | h
      · exact absurd h hax
      · exact Rep_next_prev c (some x) a b r4 h hc
      · exact Rep_next_prev n (some x) a b r5 h hc

theorem chainGe_onList {m : Mem} {k : Int} {b : Nat} : ∀ (t : PTree) (pv : Ptr), Rep m pv t →
    chainGe m k t → OnList m t.ptr b → k ≤ m.key b
  | .nil, _, _, _, h => by cases h
  | .node x c n, pv, hr, hc, h => by
    obtain ⟨_, _, r3, _, r5⟩ := hr
    have h2 : OnList m (some x) b := h
    cases h2 with
    | here => exact hc.1
    | next _ _ h3 =>
      rw [r3] at h3
      exact chainGe_onList n (some x) r5 hc.2 h3

theorem Ord_child_key {m : Mem} : ∀ (t : PTree) (pv : Ptr) (a b : Nat), Rep m pv t →
    Ord m t → a ∈ t.addrs → OnList m (m.child a) b → m.key a ≤ m.key b
  | .nil, _, a, _, _, _, h, _ => by simp [PTree.addrs] at h
  | .node x c n, pv, a, b, hr, ho, h, hc => by
    obtain ⟨_, r2, _, r4, r5⟩ := hr
    obtain ⟨o1, o2, o3⟩ := ho
    simp only [PTree.addrs, List.mem_cons, List.mem_append] at h
    by_cases hax : a = x
    · subst hax
      rw [r2] at hc
      exact chainGe_onList c (some a) r4 o1 hc
    · rcases h with h | h | h
      · exact absurd h hax
      · exact Ord_child_key c (some x) a b r4 o2 h hc
      · exact Ord_child_key n (some x) a b r5 o3 h hc

/-- C30: every heap that arises from `new_heap` by inserts of nodes that are not in the
heap, `heap_remove_min`, `heap_delete` of nodes of the heap and `heap_decrease_key` with a
key that is not larger is well formed: the nodes linked from the root form one tree laid
out without sharing; the root has neither `prev` nor `next`; a first child points back to
its parent and a right sibling to its left sibling; no node on the child list of a node has
a smaller key than that node; and `size` is the number of nodes linked from the root.
On such a heap each of these operations returns again (the two loops of the melding pass
need fuel for one pass over the heap) and yields a heap of the same kind. -/
theorem heap_operations_keep_wellformed (h : Heap) (hr : HeapReach h) :
    (∃ t, WF h t) ∧
    (∀ a, h.root = some a → h.mem.prev a = none ∧ h.mem.next a = none) ∧
    (∀ a b, InHeap h a → h.mem.child a = some b → h.mem.prev b = some a) ∧
    (∀ a b, InHeap h a → h.mem.next a = some b → h.mem.prev b = some a) ∧
    (∀ a b, InHeap h a → OnList h.mem (h.mem.child a) b → h.mem.key a ≤ h.mem.key b) ∧
    (∃ l : List Nat, l.Nodup ∧ (∀ a, a ∈ l ↔ InHeap h a) ∧ h.size = l.length) ∧
    (h.root = none ↔ h.size = 0) ∧
    (∀ fuel : Nat, h.size ≤ (fuel : Int) →
      (∃ p h2, heap_remove_min fuel h = some (p, h2) ∧ HeapReach h2) ∧
      ∀ n, InHeap h n → ∃ h2, heap_delete fuel h n = some h2 ∧ HeapReach h2) ∧
    (∀ n k, InHeap h n → k ≤ h.mem.key n →
      ∃ h2, heap_decrease_key h n k = some h2 ∧ HeapReach h2) ∧
    (∀ n k dt, ¬ InHeap h n →
      if h.intrusive then ∃ h2, heap_intrusive_insert h n k dt = some h2 ∧ HeapReach h2
      else ∃ h2, heap_dynamic_insert h n k dt = some (h2, n) ∧ HeapReach h2) := by
  obtain ⟨t, w⟩ := hr.wf
  refine ⟨⟨t, w⟩, ?_, ?_, ?_, ?_, ⟨t.addrs, w.nodup, fun a => (w.inHeap_iff a).symm, w.size⟩, ?_,
    ?_, ?_, ?_⟩
  · intro a ha
    rcases w.top with ht | ⟨x, c, ht⟩
    · subst ht
      have := w.root
      rw [ha] at this
      cases this
    · subst ht
      have e : (some a : Ptr) = some x := ha.symm.trans w.root
      cases e
      exact ⟨w.rep.1, w.rep.2.2.1⟩
  · intro a b ha hc
    exact Rep_child_prev t none a b w.rep ((w.inHeap_iff a).mp ha) hc
  · intro a b ha hc
    exact Rep_next_prev t none a b w.rep ((w.inHeap_iff a).mp ha) hc
  · intro a b ha hc
    exact Ord_child_key t none a b w.rep w.ord ((w.inHeap_iff a).mp ha) hc
  · rw [w.root, w.size]
    cases t with
    | nil => simp [PTree.ptr, PTree.addrs]
    | node x c n =>
      simp only [PTree.ptr, PTree.addrs, List.length_cons, List.length_append]
      constructor
      · intro e
        cases e
      · intro e
        push_cast at e
        omega
  · intro fuel hf
    have hlen : t.addrs.length ≤ fuel := by
      have := w.size
      omega
    constructor
    · rcases w.top with ht | ⟨x, c, ht⟩
      · subst ht
        have hs : h.size = 0 := by rw [w.size]; simp [PTree.addrs]
        have e : heap_remove_min fuel h = some (none, h) := by simp [heap_remove_min, hs]
        exact ⟨none, h, e, hr⟩
      · subst ht
        have hfc : c.addrs.length ≤ fuel := by
          simp only [PTree.addrs, List.length_cons, List.length_append, List.length_nil] at hlen
          omega
        obtain ⟨h2, e, _⟩ := heap_remove_min_wf w hfc
        exact ⟨some x, h2, e, HeapReach.remove_min fuel (some x) hr e⟩
    · intro n hn
      obtain ⟨h2, t2, e, _⟩ := heap_delete_wf w ((w.inHeap_iff n).mp hn) hlen
      exact ⟨h2, e, HeapReach.delete fuel n hr hn e⟩
  · intro n k hn hk
    obtain ⟨h2, t2, e, _⟩ := heap_decrease_key_wf w ((w.inHeap_iff n).mp hn) hk
    exact ⟨h2, e, HeapReach.decrease_key n k hr hn hk e⟩
  · intro n k dt hn
    have hnt : n ∉ t.addrs := fun e => hn ((w.inHeap_iff n).mpr e)
    cases hi : h.intrusive with
    | true =>
      obtain ⟨h2, t2, e, _⟩ := heap_intrusive_insert_wf w hi n k dt hnt
      exact ⟨h2, e, HeapReach.intrusive_insert n k dt hr hn e⟩
    | false =>
      obtain ⟨h2, t2, e, _⟩ := heap_dynamic_insert_wf w hi n k dt hnt
      exact ⟨h2, e, HeapReach.dynamic_insert n k dt hr hn e⟩

theorem heap_operations_keep_wellformed_witness :
    HeapReach exHeap3 ∧
    (∃ t, WF exHeap3 t) ∧
    (∀ a, exHeap3.root = some a → exHeap3.mem.prev a = none ∧ exHeap3.mem.next a = none) ∧
    (∀ a b, InHeap exHeap3 a → exHeap3.mem.child a = some b → exHeap3.mem.prev b = some a) ∧
    (∀ a b, InHeap exHeap3 a → exHeap3.mem.next a = some b → exHeap3.mem.prev b = some a) ∧
    (∀ a b, InHeap exHeap3 a → OnList exHeap3.mem (exHeap3.mem.child a) b →
      exHeap3.mem.key a ≤ exHeap3.mem.key b) ∧
    (∃ l : List Nat, l.Nodup ∧ (∀ a, a ∈ l ↔ InHeap exHeap3 a) ∧ exHeap3.size = l.length) ∧
    (exHeap3.root = none ↔ exHeap3.size = 0) ∧
    (∀ fuel : Nat, exHeap3.size ≤ (fuel : Int) →
      (∃ p h2, heap_remove_min fuel exHeap3 = some (p, h2) ∧ HeapReach h2) ∧
      ∀ n, InHeap exHeap3 n → ∃ h2, heap_delete fuel exHeap3 n = some h2 ∧ HeapReach h2) ∧
    (∀ n k, InHeap exHeap3 n → k ≤ exHeap3.mem.key n →
      ∃ h2, heap_decrease_key exHeap3 n k = some h2 ∧ HeapReach h2) ∧
    (∀ n k dt, ¬ InHeap exHeap3 n →
      if exHeap3.intrusive then
        ∃ h2, heap_intrusive_insert exHeap3 n k dt = some h2 ∧ HeapReach h2
      else ∃ h2, heap_dynamic_insert exHeap3 n k dt = some (h2, n) ∧ HeapReach h2) :=
  ⟨exHeap3_reach, heap_operations_keep_wellformed exHeap3 exHeap3_reach⟩

namespace Source

/-! ### Line of sight -/

/-- With a rock border, a cell of the grid that is not rock is interior. -/
theorem interior_of_not_rock {d : Dungeon} (hbo : BorderOk d) {i j : Int} (hg : InGrid d i j)
    (hne : (d.MAP i j).type ≠ .ROCK) : Interior d i j := by
  by_contra hni
  unfold InGrid at hg
  have := hbo i.toNat (by omega) j.toNat (by omega)
  rw [Int.toNat_of_nonneg hg.1, Int.toNat_of_nonneg hg.2.2.1] at this
  exact hne (this hni).1

/-- The loop of `can_see_player` leaves through `return false` only: the counter `r` grows,
so the walker goes on, away from its start in both coordinates, until it stands on rock,
at the latest on the border. -/
theorem can_see_player_loop_false {d : Dungeon} (hbo : BorderOk d) {dir_y dir_x : Int}
    (hy : dir_y = 1 ∨ dir_y = -1) (hx : dir_x = 1 ∨ dir_x = -1) (delta_y delta_x : Int) :
    ∀ (fuel : Nat) (i j error r : Int), InGrid d i j → 0 < r →
      (if dir_y = 1 then (d.height : Int) - 1 - i else i) +
        (if dir_x = 1 then (d.width : Int) - 1 - j else j) < fuel →
      can_see_player_loop d dir_y dir_x delta_y delta_x fuel i j error r = some false := by
  intro fuel
  induction fuel with
  | zero =>
    intro i j error r hg _ hlt
    exfalso
    unfold InGrid at hg
    split at hlt <;> split at hlt <;> simp only [Nat.cast_zero] at hlt <;> omega
  | succ fuel ih =>
    intro i j error r hg hr hlt
    rw [can_see_player_loop, if_pos hr]
    rw [getCell_of_InGrid hg]
    simp only
    by_cases hrock : (d.MAP i j).type = .ROCK
    · rw [if_pos hrock]
    · rw [if_neg hrock]
      have hi := interior_of_not_rock hbo hg hrock
      unfold Interior at hi
      push_cast at hlt
      split
      · apply ih
        · unfold InGrid; rcases hy with e | e <;> rw [e] <;> omega
        · omega
        · rcases hy with e | e <;> rcases hx with e2 | e2 <;> subst e <;> subst e2 <;>
            norm_num at hlt ⊢ <;> omega
      · apply ih
        · unfold InGrid; rcases hx with e | e <;> rw [e] <;> omega
        · omega
        · rcases hy with e | e <;> rcases hx with e2 | e2 <;> subst e <;> subst e2 <;>
            norm_num at hlt ⊢ <;> omega

/-- In a dungeon with a rock border `can_see_player` returns `false` for every character
that stands in the grid. -/
theorem can_see_player_border (fuel : Nat) (d : Dungeon_T) (c : Character_T) (p : Nat)
    (hbo : BorderOk d.toDungeon) (hp : d.player = some p)
    (hc : InGrid d.toDungeon c.y c.x) (hf : d.height + d.width ≤ fuel) :
    can_see_player fuel d c = some false := by
  unfold can_see_player
  rw [hp]
  simp only
  apply can_see_player_loop_false hbo
  · split
    · exact Or.inl rfl
    · exact Or.inr rfl
  · split
    · exact Or.inl rfl
    · exact Or.inr rfl
  · exact hc
  · have h1 := abs_nonneg (c.y - (d.chars p).y)
    have h2 := abs_nonneg (c.x - (d.chars p).x)
    omega
  · unfold InGrid at hc
    have : ((d.height + d.width : Nat) : Int) ≤ fuel := by exact_mod_cast hf
    push_cast at this
    split <;> split <;> omega

/-- C21: in a dungeon with a rock border whose dimensions leave the counters of
`can_see_player` inside a C `int`, with the player in the grid, `can_see_player` returns
`false` for every character standing in the grid, whatever lies between it and the player:
the loop counter is incremented instead of decremented, so `return true` is never
reached. -/
theorem can_see_player_never_true (fuel : Nat) (d : Dungeon_T) (c : Character_T) (p : Nat)
    (hbo : BorderOk d.toDungeon) (hp : d.player = some p)
    (_hpg : InGrid d.toDungeon (d.chars p).y (d.chars p).x)
    (_hsm : 4 * ((d.height : Int) + d.width) < INT_MAX)
    (hc : InGrid d.toDungeon c.y c.x) (hf : d.height + d.width ≤ fuel) :
    can_see_player fuel d c = some false :=
  can_see_player_border fuel d c p hbo hp hc hf

theorem can_see_player_never_true_witness :
    BorderOk exWorld.toDungeon ∧ exWorld.player = some 0 ∧
    InGrid exWorld.toDungeon (exWorld.chars 0).y (exWorld.chars 0).x ∧
    4 * ((exWorld.height : Int) + exWorld.width) < INT_MAX ∧
    InGrid exWorld.toDungeon (exWorld.chars 1).y (exWorld.chars 1).x ∧
    exWorld.height + exWorld.width ≤ 10 ∧
    ((exWorld.chars 1).y, (exWorld.chars 1).x) = (2, 1) ∧
    ((exWorld.chars 0).y, (exWorld.chars 0).x) = (1, 1) ∧
    (exWorld.MAP 2 1).type = .ROOM ∧ (exWorld.MAP 1 1).type = .ROOM ∧
    can_see_player 10 exWorld (exWorld.chars 1) = some false :=
  ⟨by decide, rfl, by decide, by decide, by decide, by decide, rfl, rfl, by decide, by decide,
    can_see_player_never_true 10 exWorld (exWorld.chars 1) 0 (by decide) rfl (by decide)
      (by decide) (by decide) (by decide)⟩

end Source

namespace Source

/-- The 5 x 5 example with the player on `(1, 1)` and, on `(2, 1)`, a monster that is
intelligent and erratic (behavior 9), not telepathic, and has not seen the player yet. -/
def exErratic : Dungeon_T :=
  { exDungeon with
    chars := fun k =>
      if k = 0 then
        { y := 1, x := 1, last_y := -1, last_x := -1, speed := 10, behavior := 0,
          player := true, cost := none }
      else
        { y := 2, x := 1, last_y := -1, last_x := -1, speed := 20, behavior := 9,
          player := false, cost := none }
    player := some 0
    monsters := fun k => if k = 0 then some 1 else none
    num_monsters := 1
    regular_cost := none
    tunnel_cost := none }

/-- The monster of `exErratic` after its first turn. -/
def exErraticNext : Dungeon_T :=
  setChar exErratic 1 { exErratic.chars 1 with last_y := 2, last_x := 1 }

/-- C22: an erratic monster for which the erratic rule is not applied. The monster of
`exErratic` has the flags INTELLIGENT and ERRATIC and stands next to the player; the next
draw of `rand()` is odd, so the coin flip would succeed, and `calculate_random_move` would
send it north. `move_monster` calls `can_see_player` first, which returns `false`, stores
the monster's own position as the last seen one and returns without a move and without a
draw; in every later turn it returns at once because the monster stands on that position. -/
theorem move_monster_erratic_stands_still :
    hasFlag (exErratic.chars 1).behavior ERRATIC = true ∧
    hasFlag (exErratic.chars 1).behavior INTELLIGENT = true ∧
    erratic_roll (exErratic.chars 1).behavior [1, 0] = some (true, [0]) ∧
    calculate_random_move exErratic.toDungeon (exErratic.chars 1) [0] = some (.NORTH, []) ∧
    move_monster 10 Mem.empty exVertices exErratic 1 [1, 0] =
      some (none, exErraticNext, [1, 0]) ∧
    ((exErraticNext.chars 1).y, (exErraticNext.chars 1).x) = (2, 1) ∧
    move_monster 10 Mem.empty exVertices exErraticNext 1 [1, 0] =
      some (none, exErraticNext, [1, 0]) := by
  have hsee : can_see_player 10 exErratic (exErratic.chars 1) = some false :=
    can_see_player_border 10 exErratic _ 0 (by decide) rfl (by decide) (by decide)
  have hsee2 : can_see_player 10 exErraticNext (exErraticNext.chars 1) = some false :=
    can_see_player_border 10 exErraticNext _ 0 (by decide) rfl (by decide) (by decide)
  refine ⟨by decide, by decide, by decide, by decide, ?_, rfl, ?_⟩
  · unfold move_monster
    simp only
    rw [if_neg (by decide), if_pos (by decide), hsee]
    simp only
    rw [if_pos (by decide)]
    rfl
  · unfold move_monster
    simp only
    rw [if_neg (by decide), if_pos (by decide), hsee2]
    simp only
    rw [if_neg (by decide), if_pos (by decide)]

end Source

/-! ## The cost field depends on the terrain only -/

/-- The dungeon `d2` has the dimensions and the cell types of `d`, and, unless the policy is
`REGULAR_MAP`, its hardness values, which is all `generate_dijkstra_map` reads. -/
def SameTerrain (type : Dijkstra_T) (d d2 : Dungeon) : Prop :=
  d2.height = d.height ∧ d2.width = d.width ∧ (∀ k, (d2.map k).type = (d.map k).type) ∧
  (type ≠ .REGULAR_MAP → ∀ k, (d2.map k).hardness = (d.map k).hardness)

theorem cost_function_terrain {type : Dijkstra_T} {m m2 : Nat → Cell} {h w : Nat}
    (ht : ∀ k, (m2 k).type = (m k).type)
    (hh : type ≠ .REGULAR_MAP → ∀ k, (m2 k).hardness = (m k).hardness) (y x : Int) :
    cost_function type ⟨m2, h, w⟩ y x = cost_function type ⟨m, h, w⟩ y x := by
  cases type
  · simp only [cost_function, corridor_cost, Dungeon.MAP, ht, hh (by decide)]
  · simp only [cost_function, tunnel_cost, Dungeon.MAP, hh (by decide)]
  · simp only [cost_function, regular_cost, Dungeon.MAP, ht]

theorem dijkstra_init_cell_terrain {type : Dijkstra_T} {m m2 : Nat → Cell} {h w : Nat}
    (ht : ∀ k, (m2 k).type = (m k).type)
    (hh : type ≠ .REGULAR_MAP → ∀ k, (m2 k).hardness = (m k).hardness)
    (cost : Nat → Int) (s : DInit) (i j : Nat) :
    dijkstra_init_cell ⟨m2, h, w⟩ cost type s i j = dijkstra_init_cell ⟨m, h, w⟩ cost type s i j := by
  unfold dijkstra_init_cell
  simp only [cost_function_terrain ht hh, Dungeon.MAP, ht]
  rfl

theorem dijkstra_init_row_terrain {type : Dijkstra_T} {m m2 : Nat → Cell} {h w : Nat}
    (ht : ∀ k, (m2 k).type = (m k).type)
    (hh : type ≠ .REGULAR_MAP → ∀ k, (m2 k).hardness = (m k).hardness)
    (cost : Nat → Int) (i : Nat) : ∀ (js : List Nat) (s : DInit),
    dijkstra_init_row ⟨m2, h, w⟩ cost type i js s = dijkstra_init_row ⟨m, h, w⟩ cost type i js s
  | [], s => rfl
  | j :: js, s => by
    unfold dijkstra_init_row
    rw [dijkstra_init_cell_terrain ht hh]
    cases dijkstra_init_cell ⟨m, h, w⟩ cost type s i j with
    | none => rfl
    | some s1 => exact dijkstra_init_row_terrain ht hh cost i js s1

theorem dijkstra_init_terrain {type : Dijkstra_T} {m m2 : Nat → Cell} {h w : Nat}
    (ht : ∀ k, (m2 k).type = (m k).type)
    (hh : type ≠ .REGULAR_MAP → ∀ k, (m2 k).hardness = (m k).hardness)
    (cost : Nat → Int) : ∀ (is : List Nat) (s : DInit),
    dijkstra_init ⟨m2, h, w⟩ cost type is s = dijkstra_init ⟨m, h, w⟩ cost type is s
  | [], s => rfl
  | i :: is, s => by
    unfold dijkstra_init
    rw [dijkstra_init_row_terrain ht hh]
    cases dijkstra_init_row ⟨m, h, w⟩ cost type i (List.range ((⟨m, h, w⟩ : Dungeon).width - 2))
        s with
    | none => rfl
    | some s1 => exact dijkstra_init_terrain ht hh cost is s1

theorem dijkstra_loop_terrain (m m2 : Nat → Cell) (h w : Nat) (dijkstra : Nat → Vertex)
    (diagonal : Bool) (type : Dijkstra_T) : ∀ (fuel : Nat) (hp : Heap) (cost : Nat → Int),
    dijkstra_loop ⟨m2, h, w⟩ dijkstra diagonal type fuel hp cost =
      dijkstra_loop ⟨m, h, w⟩ dijkstra diagonal type fuel hp cost := by
  intro fuel
  induction fuel with
  | zero =>
    intro hp cost
    rw [dijkstra_loop, dijkstra_loop]
  | succ fuel ih =>
    intro hp cost
    rw [dijkstra_loop, dijkstra_loop]
    split
    · simp only
      cases heap_remove_min (fuel + 1) hp with
      | none => rfl
      | some r =>
        obtain ⟨p, h1⟩ := r
        cases p with
        | none => rfl
        | some a =>
          simp only
          cases h1.mem.data a with
          | none => rfl
          | some vi =>
            simp only
            have e1 : COST_TRANSLATE ⟨m2, h, w⟩ (dijkstra vi).y (dijkstra vi).x =
                COST_TRANSLATE ⟨m, h, w⟩ (dijkstra vi).y (dijkstra vi).x := rfl
            have e2 : ∀ hq, check_neighbors hq ⟨m2, h, w⟩ dijkstra cost (dijkstra vi) diagonal
                type = check_neighbors hq ⟨m, h, w⟩ dijkstra cost (dijkstra vi) diagonal type :=
              fun _ => rfl
            rw [e1, e2]
            split
            · exact ih _ _
            · cases check_neighbors { h1 with mem := h1.mem.setData vi none } ⟨m, h, w⟩ dijkstra
                  cost (dijkstra vi) diagonal type with
              | none => rfl
              | some q => exact ih _ _
    · rfl

theorem fill_sources_terrain (m m2 : Nat → Cell) (h w : Nat) (num_sources : Nat)
    (sources : List Int) : ∀ (is : List Nat) (cost : Nat → Int),
    fill_sources ⟨m2, h, w⟩ num_sources sources is cost =
      fill_sources ⟨m, h, w⟩ num_sources sources is cost
  | [], cost => rfl
  | i :: is, cost => by
    unfold fill_sources
    cases sources.get? (i * num_sources + 0) with
    | none => rfl
    | some sy =>
      cases sources.get? (i * num_sources + 1) with
      | none => rfl
      | some sx =>
        simp only
        split
        · exact fill_sources_terrain m m2 h w num_sources sources is _
        · rfl

/-- Two dungeons of the same terrain have the same cost fields. -/
theorem generate_dijkstra_map_terrain {type : Dijkstra_T} {d d2 : Dungeon}
    (hs : SameTerrain type d d2) (fuel : Nat) (m0 : Mem) (v0 : Nat → Vertex) (num_sources : Nat)
    (sources : List Int) (diagonal : Bool) :
    generate_dijkstra_map fuel m0 v0 d2 num_sources sources diagonal type =
      generate_dijkstra_map fuel m0 v0 d num_sources sources diagonal type := by
  obtain ⟨m, h, w⟩ := d
  obtain ⟨m2, h2, w2⟩ := d2
  obtain ⟨e1, e2, ht, hh⟩ := hs
  simp only at e1 e2 ht hh
  subst e1 e2
  unfold generate_dijkstra_map
  rw [fill_sources_terrain]
  cases fill_sources ⟨m, h2, w2⟩ num_sources sources (List.range num_sources)
      (fun _ => INT_MAX) with
  | none => rfl
  | some cost =>
    simp only
    unfold dijkstra_helper
    rw [dijkstra_init_terrain ht hh]
    cases dijkstra_init ⟨m, h2, w2⟩ cost type (List.range ((⟨m, h2, w2⟩ : Dungeon).height - 2))
        { h := new_heap m0 true, dijkstra := v0 } with
    | none => rfl
    | some s => exact dijkstra_loop_terrain m m2 h2 w2 s.dijkstra diagonal type fuel s.h cost

namespace Source

/-! ### The shared cost fields stay current -/

/-- The shared cost fields `d->regular_cost` and `d->tunnel_cost` are the arrays that
`generate_dijkstra_map` computes from the grid of `d` and the position of the player. -/
def CostsCurrent (fuel : Nat) (m0 : Mem) (v0 : Nat → Vertex) (d : Dungeon_T) : Prop :=
  ∃ p R T, d.player = some p ∧ d.regular_cost = some R ∧ d.tunnel_cost = some T ∧
    generate_dijkstra_map fuel m0 v0 d.toDungeon 1 [(d.chars p).y, (d.chars p).x]
      CHARACTER_DIAGONAL_TRAVEL .REGULAR_MAP = some R ∧
    generate_dijkstra_map fuel m0 v0 d.toDungeon 1 [(d.chars p).y, (d.chars p).x]
      CHARACTER_DIAGONAL_TRAVEL .TUNNEL_MAP = some T

/-- What `build_dungeon_cost_maps` stores in the two shared fields. -/
theorem build_dungeon_cost_maps_fields (fuel : Nat) (m0 : Mem) (v0 : Nat → Vertex)
    (d : Dungeon_T) (regular_map tunnel_map : Bool) {p : Nat} (hp : d.player = some p)
    (hpg : InGrid d.toDungeon (d.chars p).y (d.chars p).x)
    (hf : (d.height - 2) * (d.width - 2) ≤ fuel) :
    ∃ d2 R T, build_dungeon_cost_maps fuel m0 v0 d regular_map tunnel_map = some d2 ∧
      SameButCosts d d2 ∧
      generate_dijkstra_map fuel m0 v0 d.toDungeon 1 [(d.chars p).y, (d.chars p).x]
        CHARACTER_DIAGONAL_TRAVEL .REGULAR_MAP = some R ∧
      generate_dijkstra_map fuel m0 v0 d.toDungeon 1 [(d.chars p).y, (d.chars p).x]
        CHARACTER_DIAGONAL_TRAVEL .TUNNEL_MAP = some T ∧
      d2.regular_cost = (if regular_map then some R else d.regular_cost) ∧
      d2.tunnel_cost = (if tunnel_map then some T else d.tunnel_cost) := by
  obtain ⟨D1, e1, _⟩ := generate_single_spec fuel m0 v0 d.toDungeon (d.chars p).y (d.chars p).x
    CHARACTER_DIAGONAL_TRAVEL .REGULAR_MAP hpg hf
  obtain ⟨D2, e2, _⟩ := generate_single_spec fuel m0 v0 d.toDungeon (d.chars p).y (d.chars p).x
    CHARACTER_DIAGONAL_TRAVEL .TUNNEL_MAP hpg hf
  have e3 : generate_dijkstra_map fuel m0 v0
      ({ d with regular_cost := some D1 } : Dungeon_T).toDungeon 1
      [(d.chars p).y, (d.chars p).x] CHARACTER_DIAGONAL_TRAVEL .TUNNEL_MAP = some D2 := e2
  have key : ∃ d2, build_dungeon_cost_maps fuel m0 v0 d regular_map tunnel_map = some d2 ∧
      SameButCosts d d2 ∧
      d2.regular_cost = (if regular_map then some D1 else d.regular_cost) ∧
      d2.tunnel_cost = (if tunnel_map then some D2 else d.tunnel_cost) := by
    unfold build_dungeon_cost_maps
    rw [hp]
    simp only
    cases regular_map <;> cases tunnel_map
    · exact ⟨d, rfl, ⟨rfl, rfl, rfl, rfl, rfl⟩, rfl, rfl⟩
    · simp only [Bool.false_eq_true, if_false, if_true, e2, Option.map_some']
      exact ⟨_, rfl, ⟨rfl, rfl, rfl, rfl, rfl⟩, rfl, rfl⟩
    · simp only [Bool.false_eq_true, if_false, if_true, e1, Option.map_some']
      exact ⟨_, rfl, ⟨rfl, rfl, hp.symm, rfl, rfl⟩, rfl, rfl⟩
    · simp only [if_true, e1, Option.map_some', e3]
      exact ⟨_, rfl, ⟨rfl, rfl, hp.symm, rfl, rfl⟩, rfl, rfl⟩
  obtain ⟨d2, h1, h2, h3, h4⟩ := key
  exact ⟨d2, D1, D2, h1, h2, e1, e2, h3, h4⟩

/-- The block that moves the character touches the occupant pointers of two cells and the
position of the mover, nothing else. -/
theorem relocate_terrain (d : Dungeon_T) (c : Nat) (y x : Int) (hg : InGrid d.toDungeon y x)
    (hm : InGrid d.toDungeon (d.chars c).y (d.chars c).x) :
    ∃ d2, relocate d c y x = some d2 ∧ d2.height = d.height ∧ d2.width = d.width ∧
      (∀ k, (d2.map k).type = (d.map k).type ∧ (d2.map k).hardness = (d.map k).hardness) ∧
      d2.player = d.player ∧ d2.regular_cost = d.regular_cost ∧
      d2.tunnel_cost = d.tunnel_cost ∧ ∀ k, k ≠ c → d2.chars k = d.chars k := by
  have hm1 : InGrid (putMap d y x { d.MAP y x with character := some c }).toDungeon
      (d.chars c).y (d.chars c).x := hm
  refine ⟨setChar (putMap (putMap d y x { d.MAP y x with character := some c }) (d.chars c).y
    (d.chars c).x { (putMap d y x { d.MAP y x with character := some c }).MAP (d.chars c).y
      (d.chars c).x with character := none }) c { d.chars c with y := y, x := x },
    ?_, rfl, rfl, ?_, rfl, rfl, rfl, ?_⟩
  · unfold relocate
    rw [getCell_of_InGrid hg]
    simp only
    rw [setMap_of_InGrid _ hg]
    simp only
    rw [show (putMap d y x { d.MAP y x with character := some c }).chars = d.chars from rfl,
      getCell_of_InGrid hm1]
    simp only
    rw [setMap_of_InGrid _ hm1]
    rfl
  · intro k
    show ((if k = _ then _ else if k = _ then _ else d.map k : Cell).type = (d.map k).type) ∧
      ((if k = _ then _ else if k = _ then _ else d.map k : Cell).hardness = (d.map k).hardness)
    split
    · rename_i e
      simp only [putMap, Dungeon.MAP]
      split
      · rename_i e2
        have ek : k = (y * (d.width : Int) + x).toNat := e.trans e2
        rw [ek]
        exact ⟨rfl, rfl⟩
      · rw [e]
        exact ⟨rfl, rfl⟩
    · split
      · rename_i e2
        rw [e2]
        exact ⟨rfl, rfl⟩
      · exact ⟨rfl, rfl⟩
  · intro k hk
    simp only [setChar, putMap]
    rw [if_neg hk]

end Source

namespace Source

/-- A write to one cell that keeps its type keeps the terrain of the regular policy. -/
theorem putMap_terrain_regular (d : Dungeon_T) (y x : Int) (cell : Cell)
    (ht : cell.type = (d.MAP y x).type) :
    SameTerrain .REGULAR_MAP d.toDungeon (putMap d y x cell).toDungeon := by
  refine ⟨rfl, rfl, ?_, fun h => absurd rfl h⟩
  intro k
  show (if k = (y * (d.width : Int) + x).toNat then cell else d.map k).type = (d.map k).type
  split
  · rename_i e
    rw [ht, e]
    rfl
  · rfl

/-- C29: `do_character_move` keeps the shared cost fields current. In a state where
`d->regular_cost` and `d->tunnel_cost` are the arrays `generate_dijkstra_map` computes from
the grid and the position of the player, for a mover other than the player (`move_monster`
is the only caller) that stands in the grid, with the target cell of the direction and the
player in the grid: the call returns, and in the new state both fields are again the
arrays `generate_dijkstra_map` computes from the new grid and the position of the player.
When the hardness of the target stays above 0 the regular field is the old array. -/
theorem do_character_move_keeps_costs_current (fuel : Nat) (m0 : Mem) (v0 : Nat → Vertex)
    (d : Dungeon_T) (c p : Nat) (direction : Direction_T)
    (hcur : CostsCurrent fuel m0 v0 d) (hp : d.player = some p) (hcp : c ≠ p)
    (hm : InGrid d.toDungeon (d.chars c).y (d.chars c).x)
    (hpg : InGrid d.toDungeon (d.chars p).y (d.chars p).x)
    (ht : ∀ y x, target (d.chars c).y (d.chars c).x direction = some (y, x) →
      InGrid d.toDungeon y x)
    (hf : (d.height - 2) * (d.width - 2) ≤ fuel) :
    ∃ killed d2, do_character_move fuel m0 v0 d c direction = some (killed, d2) ∧
      CostsCurrent fuel m0 v0 d2 ∧ d2.player = d.player ∧ d2.chars p = d.chars p ∧
      (∀ y x, target (d.chars c).y (d.chars c).x direction = some (y, x) →
        85 < (d.MAP y x).hardness → d2.regular_cost = d.regular_cost) := by
  obtain ⟨p2, R, T, hp2, hR, hT, gR, gT⟩ := hcur
  have ep : p2 = p := by
    rw [hp] at hp2
    cases hp2
    rfl
  subst ep
  unfold do_character_move
  cases htg : target (d.chars c).y (d.chars c).x direction with
  | none =>
    exact ⟨none, d, rfl, ⟨p2, R, T, hp, hR, hT, gR, gT⟩, rfl, rfl, fun y x e => by cases e⟩
  | some yx =>
    obtain ⟨y, x⟩ := yx
    have hg := ht y x htg
    simp only
    rw [getCell_of_InGrid hg]
    simp only
    by_cases h0 : (d.MAP y x).hardness = 0
    · rw [if_neg (not_not.mpr h0)]
      obtain ⟨d2, e, eh, ew, hmap, epl, er, et, ech⟩ := relocate_terrain d c y x hg hm
      rw [e]
      have st : ∀ type, SameTerrain type d.toDungeon d2.toDungeon := fun type =>
        ⟨eh, ew, fun k => (hmap k).1, fun _ k => (hmap k).2⟩
      refine ⟨_, d2, rfl, ⟨p2, R, T, epl.trans hp, er.trans hR, et.trans hT, ?_, ?_⟩, epl,
        ech p2 (Ne.symm hcp), ?_⟩
      · rw [ech p2 (Ne.symm hcp), generate_dijkstra_map_terrain (st _)]
        exact gR
      · rw [ech p2 (Ne.symm hcp), generate_dijkstra_map_terrain (st _)]
        exact gT
      · intro y2 x2 e2 hb
        cases e2
        omega
    · rw [if_pos h0]
      rw [setMap_of_InGrid _ hg]
      simp only
      by_cases hbig : (d.MAP y x).hardness - 85 > 0
      · have hne : ¬ ((d.MAP y x).hardness - 85 = 0) := by omega
        simp only [hbig, if_true, hne, if_false]
        obtain ⟨d2, R2, T2, e, sb, g1, g2, f1, f2⟩ := build_dungeon_cost_maps_fields fuel m0 v0
          (putMap d y x { d.MAP y x with hardness := (d.MAP y x).hardness - 85 }) false true
          (p := p2) hp hpg hf
        obtain ⟨s1, s2, s3, _, _⟩ := sb
        rw [e]
        have er : d2.regular_cost = d.regular_cost := f1
        refine ⟨_, d2, rfl, ⟨p2, R, T2, s3.trans hp, er.trans hR, f2, ?_, ?_⟩, s3,
          by rw [s2]; rfl, fun _ _ _ _ => er⟩
        · rw [s1, s2]
          rw [generate_dijkstra_map_terrain (putMap_terrain_regular d y x
            { d.MAP y x with hardness := (d.MAP y x).hardness - 85 } rfl)]
          exact gR
        · rw [s1, s2]
          exact g2
      · simp only [hbig, if_false, if_true]
        rw [setMap_of_InGrid (d := putMap d y x _) _ hg]
        simp only
        obtain ⟨d3, R3, T3, e, sb, g1, g2, f1, f2⟩ := build_dungeon_cost_maps_fields fuel m0 v0
          (putMap (putMap d y x { d.MAP y x with hardness := 0 }) y x
            { d.MAP y x with hardness := 0, type := .CORRIDOR }) true true
          (p := p2) hp hpg hf
        obtain ⟨s1, s2, s3, _, _⟩ := sb
        rw [e]
        simp only
        have hg3 : InGrid d3.toDungeon y x := by rw [s1]; exact hg
        have hm3 : InGrid d3.toDungeon (d3.chars c).y (d3.chars c).x := by
          rw [s1, s2]; exact hm
        obtain ⟨d4, e4, eh, ew, hmap, epl, er, et, ech⟩ := relocate_terrain d3 c y x hg3 hm3
        rw [e4]
        have st : ∀ type, SameTerrain type d3.toDungeon d4.toDungeon := fun type =>
          ⟨eh, ew, fun k => (hmap k).1, fun _ k => (hmap k).2⟩
        have ec : d4.chars p2 = d.chars p2 := by
          rw [ech p2 (Ne.symm hcp), s2]
          rfl
        refine ⟨_, d4, rfl, ⟨p2, R3, T3, epl.trans (s3.trans hp), er.trans f1, et.trans f2, ?_,
          ?_⟩, epl.trans s3, ec, ?_⟩
        · rw [ec, generate_dijkstra_map_terrain (st _), s1]
          exact g1
        · rw [ec, generate_dijkstra_map_terrain (st _), s1]
          exact g2
        · intro y2 x2 e2 hb
          cases e2
          omega

theorem do_character_move_keeps_costs_current_witness :
    ∃ d, build_dungeon_cost_maps 9 Mem.empty exVertices exWorld true true = some d ∧
      CostsCurrent 9 Mem.empty exVertices d ∧ d.player = some 0 ∧ (1 : Nat) ≠ 0 ∧
      InGrid d.toDungeon (d.chars 1).y (d.chars 1).x ∧
      InGrid d.toDungeon (d.chars 0).y (d.chars 0).x ∧
      (∀ y x, target (d.chars 1).y (d.chars 1).x .EAST = some (y, x) →
        InGrid d.toDungeon y x) ∧
      (d.height - 2) * (d.width - 2) ≤ 9 ∧
      target (d.chars 1).y (d.chars 1).x .EAST = some (2, 2) ∧ (d.MAP 2 2).hardness = 100 ∧
      ∃ killed d2, do_character_move 9 Mem.empty exVertices d 1 .EAST = some (killed, d2) ∧
        CostsCurrent 9 Mem.empty exVertices d2 ∧ d2.player = d.player ∧
        d2.chars 0 = d.chars 0 ∧
        (∀ y x, target (d.chars 1).y (d.chars 1).x .EAST = some (y, x) →
          85 < (d.MAP y x).hardness → d2.regular_cost = d.regular_cost) := by
  obtain ⟨d, R, T, e, sb, g1, g2, f1, f2⟩ := build_dungeon_cost_maps_fields 9 Mem.empty
    exVertices exWorld true true (p := 0) rfl (by decide) (by decide)
  obtain ⟨s1, s2, s3, _, _⟩ := sb
  have hcur : CostsCurrent 9 Mem.empty exVertices d :=
    ⟨0, R, T, s3, f1, f2, by rw [s1, s2]; exact g1, by rw [s1, s2]; exact g2⟩
  have hm : InGrid d.toDungeon (d.chars 1).y (d.chars 1).x := by rw [s1, s2]; decide
  have hpg : InGrid d.toDungeon (d.chars 0).y (d.chars 0).x := by rw [s1, s2]; decide
  have htg : target (d.chars 1).y (d.chars 1).x .EAST = some (2, 2) := by rw [s2]; rfl
  have ht : ∀ y x, target (d.chars 1).y (d.chars 1).x .EAST = some (y, x) →
      InGrid d.toDungeon y x := by
    intro y x h
    rw [htg] at h
    cases h
    rw [s1]
    decide
  have hf : (d.height - 2) * (d.width - 2) ≤ 9 := by
    rw [show d.height = d.toDungeon.height from rfl, show d.width = d.toDungeon.width from rfl,
      s1]
    decide
  have hh : (d.MAP 2 2).hardness = 100 := by
    rw [show d.MAP 2 2 = d.toDungeon.MAP 2 2 from rfl, s1]
    decide
  exact ⟨d, e, hcur, s3, by decide, hm, hpg, ht, hf, htg, hh,
    do_character_move_keeps_costs_current 9 Mem.empty exVertices d 1 0 .EAST hcur s3 (by decide)
      hm hpg ht hf⟩

end Source

namespace Source

/-! ## The loader `load_dungeon` of `Source/Dungeon/Loaders/dungeon-disk.c` -/

def DUNGEON_HEIGHT : Nat := 21
def DUNGEON_WIDTH : Nat := 80
def MAX_DUNGEON_FILE_SIZE : Nat := 11788
def FILE_VERSION : Nat := 0

/-- The bytes of the string `FILE_MARKER`, which is "RLG327-S2021". -/
def FILE_MARKER : List Nat := [82, 76, 71, 51, 50, 55, 45, 83, 50, 48, 50, 49]

/-- The file as `fread` delivers it: `size` bytes `buffer[0]`, ..., `buffer[size - 1]`. -/
structure Disk_File where
  size : Nat
  buffer : Nat → Nat

/-- How a stretch of `load_dungeon` ends: `fault` is an access outside an array (or the
model running out of fuel or of random numbers), `bail` is one of the `goto cleanup...`
exits, after which the file is discarded and `generate_dungeon` is returned, and `ok` goes
on with a value. -/
inductive Load (α : Type) where
  | fault : Load α
  | bail : Load α
  | ok : α → Load α
  deriving DecidableEq

/-- Sequencing: the first `fault` or `bail` ends the run. -/
def Load.bind {α β : Type} (x : Load α) (f : α → Load β) : Load β :=
  match x with
  | .fault => .fault
  | .bail => .bail
  | .ok a => f a

/-- The value carried by `ok`, seen through `g`. -/
def Load.map {α β : Type} (g : α → β) (x : Load α) : Load β :=
  x.bind fun a => .ok (g a)

/-- A read of `buffer[p]`. -/
def Disk_File.read (f : Disk_File) (p : Nat) : Load Nat :=
  if p < f.size then .ok (f.buffer p) else .fault

/-- The expression `ntohl(*(uint32_t *) &buffer[p])`: four bytes, most significant first. -/
def read_ntohl (f : Disk_File) (p : Nat) : Load Nat :=
  (f.read p).bind fun b0 =>
  (f.read (p + 1)).bind fun b1 =>
  (f.read (p + 2)).bind fun b2 =>
  (f.read (p + 3)).bind fun b3 => .ok (b0 * 16777216 + b1 * 65536 + b2 * 256 + b3)

/-- The expression `ntohs(*(uint16_t *) &buffer[p])`. -/
def read_ntohs (f : Disk_File) (p : Nat) : Load Nat :=
  (f.read p).bind fun b0 =>
  (f.read (p + 1)).bind fun b1 => .ok (b0 * 256 + b1)

/-- The test `strncmp((char *) &buffer[p], FILE_MARKER, sizeof(FILE_MARKER) - 1) != 0` for the
marker, which holds no zero byte. -/
def marker_differs (f : Disk_File) (p : Nat) : Bool :=
  decide ((List.range FILE_MARKER.length).map (fun i => f.buffer (p + i)) ≠ FILE_MARKER)

/-- A read of `d->MAP(a, b)`. -/
def readMap (d : Dungeon_T) (a b : Int) : Load Cell :=
  match getCell d.toDungeon a b with
  | none => .fault
  | some c => .ok c

/-- A write to `d->MAP(a, b)`. -/
def writeMap (d : Dungeon_T) (a b : Int) (c : Cell) : Load Dungeon_T :=
  match setMap d a b c with
  | none => .fault
  | some d1 => .ok d1

/-- The dungeon under construction: `d->rooms` and `d->num_rooms` next to the members of
`Dungeon_T` used by the game. -/
structure Loaded_T where
  d : Dungeon_T
  rooms : Nat → Room_T
  num_rooms : Nat

/-- Embedding of `init_dungeon`; the store of characters starts zeroed. -/
def init_dungeon (height width : Nat) : Loaded_T :=
  { d :=
      { map := fun _ => ⟨.ROCK, DEFAULT_HARDNESS, none⟩
        height := height
        width := width
        chars := fun _ => ⟨0, 0, 0, 0, 0, 0, false, none⟩
        player := none
        monsters := fun _ => none
        num_monsters := 0
        regular_cost := none
        tunnel_cost := none }
    rooms := fun _ => ⟨0, 0, 0, 0⟩
    num_rooms := 0 }

/-- Embedding of `new_character`; `id` is the address handed out by `safe_malloc`. -/
def new_character (d : Dungeon_T) (id : Nat) (y x speed : Int) (behavior : Nat)
    (player : Bool) : Dungeon_T :=
  setChar d id
    { y := y, x := x, last_y := -1, last_x := -1, speed := speed, behavior := behavior,
      player := player, cost := none }

/-- The body of the loops that read the hardness map: the cell `(i, j)` from `buffer[p]`. -/
def load_map_cell (f : Disk_File) (d : Dungeon_T) (p i j : Nat) : Load Dungeon_T :=
  (f.read p).bind fun b =>
  if (i = 0 ∨ i = DUNGEON_HEIGHT - 1 ∨ j = 0 ∨ j = DUNGEON_WIDTH - 1) ∧
      (b : Int) ≠ IMMUTABLE_ROCK_HARDNESS then .bail
  else
    (readMap d i j).bind fun c =>
    if b = 0 then writeMap d i j { c with type := .CORRIDOR, hardness := 0 }
    else writeMap d i j { c with type := .ROCK, hardness := b }

/-- The loop `for (j = 0; j < DUNGEON_WIDTH; j++)` of the hardness map. -/
def load_map_row (f : Disk_File) (i : Nat) : List Nat → Dungeon_T → Nat → Load (Dungeon_T × Nat)
  | [], d, p => .ok (d, p)
  | j :: js, d, p =>
    (load_map_cell f d p i j).bind fun d1 => load_map_row f i js d1 (p + 1)

/-- The loop `for (i = 0; i < DUNGEON_HEIGHT; i++)` of the hardness map. -/
def load_map (f : Disk_File) : List Nat → Dungeon_T → Nat → Load (Dungeon_T × Nat)
  | [], d, p => .ok (d, p)
  | i :: is, d, p =>
    (load_map_row f i (List.range DUNGEON_WIDTH) d p).bind fun r => load_map f is r.1 r.2

/-- The loop `for (j = x; j < x + width; j++)` over one row of a room. -/
def load_room_row (i : Int) : List Int → Dungeon_T → Load Dungeon_T
  | [], d => .ok d
  | j :: js, d =>
    (readMap d i j).bind fun c =>
    if c.hardness ≠ 0 then .bail
    else (writeMap d i j { c with type := .ROOM }).bind fun d1 => load_room_row i js d1

/-- The loop `for (i = y; i < y + height; i++)` over the rows of a room. -/
def load_room_cells (js : List Int) : List Int → Dungeon_T → Load Dungeon_T
  | [], d => .ok d
  | i :: is, d => (load_room_row i js d).bind fun d1 => load_room_cells js is d1

/-- The loop `for (r = 0; r < d->num_rooms; r++)` that reads the rooms. -/
def load_rooms (f : Disk_File) : List Nat → Loaded_T → Nat → Load (Loaded_T × Nat)
  | [], s, p => .ok (s, p)
  | r :: rs, s, p =>
    (f.read p).bind fun x =>
    (f.read (p + 1)).bind fun y =>
    (f.read (p + 2)).bind fun width =>
    (f.read (p + 3)).bind fun height =>
    if y + height > DUNGEON_HEIGHT - 1 ∨ x + width > DUNGEON_WIDTH - 1 then .bail
    else
      (load_room_cells (intRange x width) (intRange y height) s.d).bind fun d1 =>
      load_rooms f rs
        { s with
          d := d1
          rooms := fun k => if k = r then ⟨y, x, height, width⟩ else s.rooms k } (p + 4)

/-- The loops that place the stairs listed in the file; `n` is the number still to read. -/
def load_stairs (f : Disk_File) (type : Cell_Type) :
    Nat → Dungeon_T → Nat → Bool → Load (Dungeon_T × Nat × Bool)
  | 0, d, p, placed => .ok (d, p, placed)
  | n + 1, d, p, _ =>
    (f.read (p + 1)).bind fun y =>
    (if y > DUNGEON_HEIGHT - 1 then (.ok true : Load Bool)
      else (f.read p).bind fun x => .ok (decide (x > DUNGEON_WIDTH - 1))).bind fun out =>
    if out then .bail
    else
      (f.read p).bind fun x =>
      (readMap d y x).bind fun c =>
      if c.hardness ≠ 0 then .bail
      else
        (writeMap d y x { c with type := type }).bind fun d1 =>
        load_stairs f type n d1 (p + 2) true

end Source

namespace Source

/-- The assignment `d->MAP(d->rooms[r].y, d->rooms[r].x).type = type` of `place_stairs`. -/
def set_stair (s : Loaded_T) (r : Nat) (type : Cell_Type) : Load Loaded_T :=
  (readMap s.d (s.rooms r).y (s.rooms r).x).bind fun c =>
  (writeMap s.d (s.rooms r).y (s.rooms r).x { c with type := type }).bind fun d1 =>
  .ok { s with d := d1 }

/-- The two `do ... while` loops of `place_stairs`: a room is drawn until its corner is not
the player's cell and it is not the room `other`. -/
def draw_stair_room (s : Loaded_T) (py px : Int) (other : Option Int) :
    Nat → List Nat → Load (Int × List Nat)
  | 0, _ => .fault
  | fuel + 1, rng =>
    match rand_int_in_range 0 ((s.num_rooms : Int) - 1) rng with
    | none => .fault
    | some (r, rng1) =>
      if ((s.rooms r.toNat).y = py ∧ (s.rooms r.toNat).x = px) ∨ other = some r then
        draw_stair_room s py px other fuel rng1
      else .ok (r, rng1)

/-- Embedding of `place_stairs` of dungeon-disk.c. -/
def place_stairs (s : Loaded_T) (fuel : Nat) (rng : List Nat) : Load (Loaded_T × List Nat) :=
  match s.d.player with
  | none => .fault
  | some pc =>
    if s.num_rooms > 2 then
      (draw_stair_room s (s.d.chars pc).y (s.d.chars pc).x none fuel rng).bind fun a =>
      (set_stair s a.1.toNat .STAIR_UP).bind fun s1 =>
      (draw_stair_room s1 (s1.d.chars pc).y (s1.d.chars pc).x (some a.1) fuel a.2).bind fun b =>
      (set_stair s1 b.1.toNat .STAIR_DOWN).bind fun s2 => .ok (s2, b.2)
    else
      match rng with
      | [] => .fault
      | r :: rng1 =>
        if s.num_rooms > 1 then
          if r % 2 ≠ 0 then
            (set_stair s 0 .STAIR_UP).bind fun s1 =>
            (set_stair s1 1 .STAIR_DOWN).bind fun s2 => .ok (s2, rng1)
          else
            (set_stair s 0 .STAIR_DOWN).bind fun s1 =>
            (set_stair s1 1 .STAIR_UP).bind fun s2 => .ok (s2, rng1)
        else if r % 2 ≠ 0 then (set_stair s 0 .STAIR_UP).bind fun s1 => .ok (s1, rng1)
        else (set_stair s 0 .STAIR_DOWN).bind fun s1 => .ok (s1, rng1)

/-- The part of `load_dungeon` from the number of rooms to the end. -/
def load_rooms_and_stairs (f : Disk_File) (stairs : Bool) (fuel : Nat) (rng : List Nat)
    (s : Loaded_T) (p : Nat) : Load (Loaded_T × List Nat) :=
  if p + 2 > f.size then .bail
  else
    (read_ntohs f p).bind fun n =>
    if n = 0 then .bail
    else if p + 2 + n * 4 > f.size then .bail
    else
      (load_rooms f (List.range n) { s with num_rooms := n } (p + 2)).bind fun r =>
      if r.2 + 2 > f.size then .bail
      else
        (read_ntohs f r.2).bind fun up =>
        if r.2 + 2 + up > f.size then .bail
        else
          (load_stairs f .STAIR_UP up r.1.d (r.2 + 2) false).bind fun u =>
          if u.2.1 + 2 > f.size then .bail
          else
            (read_ntohs f u.2.1).bind fun down =>
            if u.2.1 + 2 + down > f.size then .bail
            else
              (load_stairs f .STAIR_DOWN down u.1 (u.2.1 + 2) u.2.2).bind fun w =>
              if !w.2.2 then
                if stairs then place_stairs { r.1 with d := w.1 } fuel rng
                else .ok ({ r.1 with d := w.1 }, rng)
              else .ok ({ r.1 with d := w.1 }, rng)

/-- The part of `load_dungeon` that reads the player and the hardness map; `p` stands at
the coordinates of the player. -/
def load_player_and_map (f : Disk_File) (p : Nat) : Load (Loaded_T × Nat) :=
  if p + 2 > f.size then .bail
  else
    (f.read p).bind fun x =>
    (f.read (p + 1)).bind fun y =>
    if x ≥ DUNGEON_WIDTH ∧ y ≥ DUNGEON_HEIGHT then .bail
    else if p + 2 + DUNGEON_HEIGHT * DUNGEON_WIDTH > f.size then .bail
    else
      (load_map f (List.range DUNGEON_HEIGHT) (init_dungeon DUNGEON_HEIGHT DUNGEON_WIDTH).d
        (p + 2)).bind fun r =>
      (readMap r.1 y x).bind fun c =>
      if c.type = .ROCK then .bail
      else
        (readMap r.1 y x).bind fun c1 =>
        (writeMap { new_character r.1 0 y x PC_SPEED 0 true with player := some 0 } y x
          { c1 with character := some 0 }).bind fun d1 =>
        .ok ({ init_dungeon DUNGEON_HEIGHT DUNGEON_WIDTH with d := d1 }, r.2)

/-- Embedding of `load_dungeon`. `file` is `none` when the file cannot be opened; the result
`bail` stands for `return generate_dungeon(...)`. -/
def load_dungeon (file : Option Disk_File) (stairs : Bool) (fuel : Nat) (rng : List Nat) :
    Load (Loaded_T × List Nat) :=
  match file with
  | none => .bail
  | some f =>
    if f.size > MAX_DUNGEON_FILE_SIZE then .bail
    else if FILE_MARKER.length > f.size then .bail
    else if marker_differs f 0 then .bail
    else if FILE_MARKER.length + 4 > f.size then .bail
    else
      (read_ntohl f FILE_MARKER.length).bind fun version =>
      if version ≠ FILE_VERSION then .bail
      else if FILE_MARKER.length + 4 + 4 > f.size then .bail
      else
        (read_ntohl f (FILE_MARKER.length + 4)).bind fun size =>
        if size ≠ f.size then .bail
        else
          (load_player_and_map f (FILE_MARKER.length + 4 + 4)).bind fun r =>
          load_rooms_and_stairs f stairs fuel rng r.1 r.2

/-- A file of 1712 bytes: marker, version 0, size 1712, player `x = 200`, `y = 5`, a map of
hardness 255 with the one cell `(7, 40)` of hardness 0, one room of one cell on `(7, 40)`,
no stairs. -/
def exSave : Disk_File :=
  { size := 1712
    buffer := fun p =>
      if p < 12 then FILE_MARKER.getD p 0
      else if p = 18 then 6
      else if p = 19 then 176
      else if p = 20 then 200
      else if p = 21 then 5
      else if p < 22 then 0
      else if p = 22 + 600 then 0
      else if p < 1702 then 255
      else if p = 1703 then 1
      else if p = 1704 then 40
      else if p = 1705 then 7
      else if p = 1706 then 1
      else if p = 1707 then 1
      else 0 }

/-- The same file with the player on `x = 5`, `y = 25`. -/
def exSaveLow : Disk_File :=
  { exSave with buffer := fun p => if p = 20 then 5 else if p = 21 then 25 else exSave.buffer p }

end Source

namespace Source

/-- What is looked at in a loaded dungeon: the player pointer with the player's `y` and `x`,
and the number of rooms with the type and the occupant of `map[600]`, the cell `(7, 40)`. -/
def load_summary (r : Loaded_T × List Nat) :
    (Option Nat × Int × Int) × (Nat × Cell_Type × Option Nat) :=
  ((r.1.d.player, (r.1.d.chars 0).y, (r.1.d.chars 0).x),
    (r.1.num_rooms, (r.1.d.map 600).type, (r.1.d.map 600).character))

/-- The file `exSave` with the player on `x = 200`, `y = 25`. -/
def exSaveBoth : Disk_File :=
  { exSave with buffer := fun p => if p = 21 then 25 else exSave.buffer p }

set_option maxRecDepth 1000000 in
theorem exSave_loads :
    (load_dungeon (some exSave) false 0 []).map load_summary =
      .ok ((some 0, 5, 200), (1, .ROOM, some 0)) := by
  decide

set_option maxRecDepth 1000000 in
theorem exSaveLow_faults :
    (load_dungeon (some exSaveLow) false 0 []).map load_summary = .fault := by
  decide

set_option maxRecDepth 1000000 in
theorem exSaveBoth_bails :
    (load_dungeon (some exSaveBoth) false 0 []).map load_summary = .bail := by
  decide

/-- C26: files with a player coordinate outside the grid that `load_dungeon` does not
discard at the range test, which is `x >= DUNGEON_WIDTH && y >= DUNGEON_HEIGHT`. The file
`exSave` stores `x = 200`, `y = 5`: it is loaded, the player stands on `(5, 200)`, and the
test of the player's cell and the occupant pointer went to `map[5 * 80 + 200]`, the cell
`(7, 40)`. The file `exSaveLow` stores `x = 5`, `y = 25`: the run passes the range test and
reads `map[25 * 80 + 5]`, past the 1680 cells of the map. Only with both coordinates out of
range (`exSaveBoth`) is the file discarded there. -/
theorem load_dungeon_accepts_player_off_grid :
    (exSave.buffer 20 = 200 ∧ exSave.buffer 21 = 5 ∧ DUNGEON_WIDTH ≤ 200 ∧
      (load_dungeon (some exSave) false 0 []).map load_summary =
        .ok ((some 0, 5, 200), (1, .ROOM, some 0))) ∧
    (exSaveLow.buffer 20 = 5 ∧ exSaveLow.buffer 21 = 25 ∧ DUNGEON_HEIGHT ≤ 25 ∧
      (load_dungeon (some exSaveLow) false 0 []).map load_summary = .fault) ∧
    (exSaveBoth.buffer 20 = 200 ∧ exSaveBoth.buffer 21 = 25 ∧
      (load_dungeon (some exSaveBoth) false 0 []).map load_summary = .bail) :=
  ⟨⟨by decide, by decide, by decide, exSave_loads⟩,
    ⟨by decide, by decide, by decide, exSaveLow_faults⟩,
    ⟨by decide, by decide, exSaveBoth_bails⟩⟩

end Source

/-! ## `merge` and `two_pass_merge` against their descriptions -/

/-- The children `c1, ..., cn` of a node in sibling order, each as a rooted tree: the
address of the child and the list of its own children. -/
def PTree.roots : PTree → List (Nat × PTree)
  | .nil => []
  | .node a c n => (a, c) :: n.roots

/-- The first pass as the specification words it: the adjacent pairs `(c1, c2)`,
`(c3, c4)`, ... are merged from left to right and a last unpaired child is kept as it is.
`linkT` is the tree `merge` builds from two rooted trees (`merge_spec`). -/
def merge_pairs (key : Nat → Int) : List (Nat × PTree) → List (Nat × PTree)
  | x :: y :: L => linkT key x.1 x.2 y.1 y.2 :: merge_pairs key L
  | [x] => [x]
  | [] => []

/-- The second pass as the specification words it: `merge` is folded over the trees from
the rightmost to the leftmost one, the accumulated tree being its first argument. -/
def merge_from_right (key : Nat → Int) : List (Nat × PTree) → Option (Nat × PTree)
  | [] => none
  | x :: L =>
    match merge_from_right key L with
    | none => some x
    | some acc => some (linkT key acc.1 acc.2 x.1 x.2)

theorem pass1T_eq_pairs (key : Nat → Int) : ∀ (t : PTree) (L : List (Nat × PTree)),
    pass1T key t L = (merge_pairs key t.roots).reverse ++ L
  | .nil, L => by simp [pass1T, PTree.roots, merge_pairs]
  | .node a ca .nil, L => by simp [pass1T, PTree.roots, merge_pairs]
  | .node a ca (.node b cb rest), L => by
    have ih := pass1T_eq_pairs key rest (linkT key a ca b cb :: L)
    simp only [pass1T, PTree.roots, merge_pairs, List.reverse_cons, List.append_assoc,
      List.singleton_append]
    exact ih

theorem merge_from_right_append (key : Nat → Int) (B C : List (Nat × PTree))
    (h : merge_from_right key B = merge_from_right key C) :
    ∀ A : List (Nat × PTree), merge_from_right key (A ++ B) = merge_from_right key (A ++ C)
  | [] => h
  | x :: A => by
    have ih := merge_from_right_append key B C h A
    show merge_from_right key (x :: (A ++ B)) = merge_from_right key (x :: (A ++ C))
    simp only [merge_from_right, ih]

theorem pass2T_eq_fold (key : Nat → Int) : ∀ (L : List (Nat × PTree)) (x : Nat × PTree),
    merge_from_right key (L.reverse ++ [x]) = some (pass2T key x L)
  | [], x => by simp [merge_from_right, pass2T]
  | y :: L, x => by
    have ih := pass2T_eq_fold key L (linkT key x.1 x.2 y.1 y.2)
    simp only [pass2T, List.reverse_cons, List.append_assoc, List.singleton_append]
    rw [← ih]
    exact merge_from_right_append key _ _ (by simp [merge_from_right]) _

/-- The ghost result of `two_pass_merge` is the tree the two described passes build. -/
theorem meldT_eq_passes (key : Nat → Int) (c : PTree) :
    meldT key c = merge_from_right key (merge_pairs key c.roots) := by
  unfold meldT
  have h := pass1T_eq_pairs key c []
  rw [List.append_nil] at h
  cases hL : pass1T key c [] with
  | nil =>
    rw [hL] at h
    have : merge_pairs key c.roots = [] := by
      have := congrArg List.reverse h
      simpa using this.symm
    rw [this]; rfl
  | cons x L =>
    rw [hL] at h
    have : merge_pairs key c.roots = L.reverse ++ [x] := by
      have := congrArg List.reverse h
      simpa using this.symm
    rw [this, pass2T_eq_fold]

theorem merge_pairs_nil_iff (key : Nat → Int) : ∀ (L : List (Nat × PTree)),
    merge_pairs key L = [] ↔ L = []
  | [] => by simp [merge_pairs]
  | [x] => by simp [merge_pairs]
  | x :: y :: L => by simp [merge_pairs]

theorem merge_from_right_none_iff (key : Nat → Int) (L : List (Nat × PTree)) :
    merge_from_right key L = none ↔ L = [] := by
  cases L with
  | nil => simp [merge_from_right]
  | cons x L =>
    simp only [merge_from_right]
    cases merge_from_right key L <;> simp

theorem roots_nil_iff (c : PTree) : c.roots = [] ↔ c = .nil := by
  cases c <;> simp [PTree.roots]

/-- A node with three children: node 0 has the children 1 (key 5), 2 (key 3) and 3
(key 4), in this order. -/
def exFamily : Mem :=
  { key := fun a => if a = 1 then 5 else if a = 2 then 3 else if a = 3 then 4 else 0
    data := fun _ => none
    prev := fun a => if a = 1 then some 0 else if a = 2 then some 1 else if a = 3 then some 2
      else none
    next := fun a => if a = 1 then some 2 else if a = 2 then some 3 else none
    child := fun a => if a = 0 then some 1 else none }

/-- The shape of the children of node 0 in `exFamily`. -/
def exFamilyShape : PTree := .node 1 .nil (.node 2 .nil (.node 3 .nil .nil))

theorem exFamily_tree : TreeAt exFamily 0 exFamilyShape :=
  ⟨rfl, rfl, rfl, rfl, trivial, rfl, rfl, rfl, trivial, rfl, rfl, rfl, trivial, trivial⟩

/-- C32: for two disjoint, heap-ordered trees rooted at `a` and `b` (children `ca`, `cb`),
`merge(a, b)` returns the root `top` with the smaller key, which is `a` when the keys are
equal; the other root `sub` is the first child of `top`, followed by the former children
of `top`; the result is heap ordered, its nodes are exactly the nodes of both trees, each
once, and no key or payload changes. `merge` with a `NULL` argument returns the other
argument and leaves the store as it is. -/
theorem merge_smaller_key_on_top {m : Mem} {a b : Nat} {ca cb : PTree}
    (ha : TreeAt m a ca) (hb : TreeAt m b cb)
    (hnd : (a :: b :: (ca.addrs ++ cb.addrs)).Nodup)
    (hoa : Ord m (.node a ca .nil)) (hob : Ord m (.node b cb .nil)) :
    (∃ top sub ct cs,
      (top, ct, sub, cs) = (if m.key b < m.key a then (b, cb, a, ca) else (a, ca, b, cb)) ∧
      (merge m (some a) (some b)).2 = some top ∧
      (merge m (some a) (some b)).1.child top = some sub ∧
      (merge m (some a) (some b)).1.prev top = none ∧
      (merge m (some a) (some b)).1.next top = none ∧
      Rep (merge m (some a) (some b)).1 none (.node top (.node sub cs ct) .nil) ∧
      Ord (merge m (some a) (some b)).1 (.node top (.node sub cs ct) .nil) ∧
      (top :: sub :: (cs.addrs ++ ct.addrs)).Nodup ∧
      (∀ x, Linked (merge m (some a) (some b)).1 (merge m (some a) (some b)).2 x ↔
        x = a ∨ x ∈ ca.addrs ∨ x = b ∨ x ∈ cb.addrs) ∧
      (merge m (some a) (some b)).1.key = m.key ∧
      (merge m (some a) (some b)).1.data = m.data) ∧
    (∀ (s : Mem) (q : Ptr), merge s none q = (s, q)) ∧
    (∀ (s : Mem) (p : Ptr), merge s p none = (s, p)) := by
  refine ⟨?_, fun s q => rfl, fun s p => by cases p <;> rfl⟩
  obtain ⟨h1, h2, h3, h4, _⟩ := merge_spec ha hb hnd
  have ho := @linkT_ord m a b ca cb hoa hob
  have hp := linkT_perm m.key a b ca cb
  have hord : ∀ t, Ord m t → Ord (merge m (some a) (some b)).1 t := fun t h =>
    @Ord_congr m _ t (fun x _ => by rw [h3]) h
  by_cases hk : m.key a > m.key b
  · have hl : linkT m.key a ca b cb = (b, .node a ca cb) := by simp [linkT, hk]
    rw [hl] at h1 h2 ho hp
    refine ⟨b, a, cb, ca, by simp [hk], h1, h2.2.1, h2.1, h2.2.2.1, h2, hord _ ho, ?_, ?_,
      h3, h4⟩
    · exact hp.nodup_iff.mpr hnd
    · intro x
      rw [h1]
      constructor
      · intro hx
        have := mem_of_Linked hx (.node b (.node a ca cb) .nil) none rfl h2
        simp only [PTree.addrs, List.mem_cons, List.mem_append, List.append_nil,
          List.not_mem_nil, or_false] at this
        tauto
      · intro hx
        have := Linked_of_mem (.node b (.node a ca cb) .nil) none x h2 (by
          simp only [PTree.addrs, List.mem_cons, List.mem_append, List.append_nil]
          tauto)
        exact this
  · have hl : linkT m.key a ca b cb = (a, .node b cb ca) := by simp [linkT, hk]
    rw [hl] at h1 h2 ho hp
    refine ⟨a, b, ca, cb, by simp [not_lt.mpr (not_lt.mp hk)], h1, h2.2.1, h2.1, h2.2.2.1, h2,
      hord _ ho, ?_, ?_, h3, h4⟩
    · exact hp.nodup_iff.mpr hnd
    · intro x
      rw [h1]
      constructor
      · intro hx
        have := mem_of_Linked hx (.node a (.node b cb ca) .nil) none rfl h2
        simp only [PTree.addrs, List.mem_cons, List.mem_append, List.append_nil,
          List.not_mem_nil, or_false] at this
        tauto
      · intro hx
        have := Linked_of_mem (.node a (.node b cb ca) .nil) none x h2 (by
          simp only [PTree.addrs, List.mem_cons, List.mem_append, List.append_nil]
          tauto)
        exact this

theorem merge_smaller_key_on_top_witness :
    TreeAt Mem.empty 1 .nil ∧ TreeAt Mem.empty 2 .nil ∧
    (1 :: 2 :: (PTree.nil.addrs ++ PTree.nil.addrs)).Nodup ∧
    Ord Mem.empty (.node 1 .nil .nil) ∧ Ord Mem.empty (.node 2 .nil .nil) ∧
    (merge Mem.empty (some 1) (some 2)).2 = some 1 :=
  ⟨⟨rfl, trivial⟩, ⟨rfl, trivial⟩, by decide, ⟨trivial, trivial, trivial⟩,
    ⟨trivial, trivial, trivial⟩, by
      obtain ⟨⟨top, sub, ct, cs, e, h, _⟩, _⟩ := @merge_smaller_key_on_top Mem.empty 1 2 .nil .nil
        ⟨rfl, trivial⟩ ⟨rfl, trivial⟩ (by decide) ⟨trivial, trivial, trivial⟩
        ⟨trivial, trivial, trivial⟩
      exact h.trans (by
        have : top = 1 := by
          have := congrArg Prod.fst e
          simpa [Mem.empty] using this
        rw [this])⟩

/-- C31: for a node `r` whose children, in sibling order, are the rooted trees
`c.roots = [c1, ..., cn]`, `two_pass_merge` returns (with one unit of fuel per node below
`r`), detaches the children from `r` and leaves the keys alone; its result is the root of
the tree obtained by merging adjacent pairs from left to right and folding `merge` over
the outcome from right to left (laid out in the store as a tree without siblings).
The result is `NULL` exactly when `r` has no child, and also when the node is `NULL`. -/
theorem two_pass_merge_pairs_then_folds {m : Mem} {r : Nat} {c : PTree} {fuel : Nat}
    (ht : TreeAt m r c) (hnd : (r :: c.addrs).Nodup) (hf : c.addrs.length ≤ fuel) :
    (∃ m2 p, two_pass_merge fuel m (some r) = some (m2, p) ∧ m2.child r = none ∧
      m2.key = m.key ∧
      match merge_from_right m.key (merge_pairs m.key c.roots) with
      | none => c = .nil ∧ p = none
      | some t => c ≠ .nil ∧ p = some t.1 ∧ Rep m2 none (.node t.1 t.2 .nil)) ∧
    two_pass_merge fuel m none = some (m, none) ∧
    (m.child r = none → two_pass_merge fuel m (some r) = some (m, none)) := by
  refine ⟨?_, rfl, fun h => by simp [two_pass_merge, h]⟩
  obtain ⟨m2, p, e, hk, _, hc, _, _, _, _, hm⟩ := two_pass_merge_spec ht hnd hf
  refine ⟨m2, p, e, hc, hk, ?_⟩
  rw [meldT_eq_passes] at hm
  cases hv : merge_from_right m.key (merge_pairs m.key c.roots) with
  | none =>
    rw [hv] at hm
    refine ⟨?_, hm⟩
    have := (merge_from_right_none_iff _ _).mp hv
    exact (roots_nil_iff c).mp ((merge_pairs_nil_iff _ _).mp this)
  | some t =>
    rw [hv] at hm
    refine ⟨?_, hm⟩
    intro hn
    subst hn
    simp [PTree.roots, merge_pairs, merge_from_right] at hv

theorem two_pass_merge_pairs_then_folds_witness :
    TreeAt exFamily 0 exFamilyShape ∧ (0 :: exFamilyShape.addrs).Nodup ∧
    exFamilyShape.addrs.length ≤ 3 ∧
    ∃ m2, two_pass_merge 3 exFamily (some 0) = some (m2, some 2) ∧ m2.child 0 = none ∧
      Rep m2 none (.node 2 (.node 3 .nil (.node 1 .nil .nil)) .nil) := by
  refine ⟨exFamily_tree, by decide, by decide, ?_⟩
  obtain ⟨⟨m2, p, e, hc, _, hm⟩, _⟩ :=
    @two_pass_merge_pairs_then_folds exFamily 0 exFamilyShape 3 exFamily_tree (by decide)
      (by decide)
  have hv : merge_from_right exFamily.key (merge_pairs exFamily.key exFamilyShape.roots) =
      some (2, .node 3 .nil (.node 1 .nil .nil)) := by decide
  rw [hv] at hm
  obtain ⟨_, hp, hr⟩ := hm
  subst hp
  exact ⟨m2, e, hc, hr⟩

/-! ## The north-west relaxation of `src/Dungeon/dijkstra.c` -/

/-- A 4 x 4 dungeon with an immutable border: the interior cell `(1, 1)` is rock of
hardness 200, the interior cells `(1, 2)`, `(2, 1)` and `(2, 2)` are room cells. -/
def exTiny : Dungeon :=
  { map := fun i =>
      if i = 5 then ⟨.ROCK, 200, none⟩
      else if i = 6 ∨ i = 9 ∨ i = 10 then ⟨.ROOM, 0, none⟩
      else ⟨.ROCK, 255, none⟩
    height := 4
    width := 4 }

/-- C34: on the 4 x 4 example with the source on `(2, 2)`, the tunnelling policy and
diagonal steps, the first iteration extracts the source `v` (cost 0, weight 1) and relaxes
its north-west neighbour `n = (1, 1)`, whose weight is 3. The cost recorded for `n` is
`cost(v) + weight(v) = 1` and not `cost(v) + weight(n) = 3`; it is never corrected, so the
returned field holds 1 at `(1, 1)`, a cell that no path enters for less than 3. -/
theorem generate_dijkstra_map_north_west_adds_own_weight :
    cost_function .TUNNEL_MAP exTiny 1 1 = 1 ∧ cost_function .TUNNEL_MAP exTiny 0 0 = 3 ∧
    (Old.generate_dijkstra_map 4 Mem.empty exVertices (fun _ => 0) exTiny 2 2 true
      .TUNNEL_MAP).map (fun D => (D (COST exTiny 2 2), D (COST exTiny 1 1))) = some (0, 1) := by
  decide!

namespace Source

/-! ## Occupancy after a monster kills a monster -/

/-- Occupancy is consistent: every live actor of the array `characters` is the occupant
recorded in the cell at its own position, and the occupant of every cell is a live actor
standing on that cell. -/
def Occupancy (s : Play) : Prop :=
  (∀ i < s.character_len, ∀ c ∈ s.characters i,
    (s.d.MAP (s.d.chars c).y (s.d.chars c).x).character = some c) ∧
  (∀ y < s.d.height, ∀ x < s.d.width, ∀ c ∈ (s.d.MAP y x).character,
    (∃ i < s.character_len, s.characters i = some c) ∧
      (s.d.chars c).y = y ∧ (s.d.chars c).x = x)

instance (s : Play) : Decidable (Occupancy s) := by
  unfold Occupancy; infer_instance

/-- The 5 x 5 example with the player (character 0) on `(1, 1)`, a telepathic monster
(character 1) on `(3, 1)` and a second monster (character 2) on `(2, 1)`, between the
two. -/
def exBrawl : Dungeon_T :=
  { map := fun i =>
      if i = 6 then ⟨.ROOM, 0, some 0⟩
      else if i = 11 then ⟨.ROOM, 0, some 2⟩
      else if i = 16 then ⟨.ROOM, 0, some 1⟩
      else exDungeon.map i
    height := 5
    width := 5
    chars := fun k =>
      if k = 0 then
        { y := 1, x := 1, last_y := -1, last_x := -1, speed := 10, behavior := 0,
          player := true, cost := none }
      else if k = 1 then
        { y := 3, x := 1, last_y := -1, last_x := -1, speed := 20, behavior := 2,
          player := false, cost := none }
      else
        { y := 2, x := 1, last_y := -1, last_x := -1, speed := 20, behavior := 0,
          player := false, cost := none }
    player := some 0
    monsters := fun k => if k = 0 then some 1 else if k = 1 then some 2 else none
    num_monsters := 2
    regular_cost := none
    tunnel_cost := none }

/-- What is checked of the first turn of `play_dungeon`: occupancy is consistent before
the turn, the loop goes on, character 1 is still in the array and stands on `(2, 1)`, the
cell `(2, 1)` has no occupant, the victim is gone, and occupancy is no longer
consistent. -/
def turn_check (s1 : Play) (r : Bool × Play × List Nat) : Bool :=
  decide (Occupancy s1) && r.1 && decide (r.2.2 = []) &&
  decide (r.2.1.characters 0 = some 1) && decide ((r.2.1.d.chars 1).y = 2) &&
  decide ((r.2.1.d.chars 1).x = 1) && decide ((r.2.1.d.MAP 2 1).character = none) &&
  decide (r.2.1.characters 1 = none) && decide (r.2.1.d.num_monsters = 1) &&
  decide (¬ Occupancy r.2.1)

theorem exBrawl_turn :
    ((play_setup 9 Mem.empty exVertices Mem.empty exBrawl).bind fun s1 =>
      (play_dungeon_turn 9 Mem.empty exVertices s1 []).map (turn_check s1)) = some true := by
  decide!

/-- C39: in the 5 x 5 example the set-up of `play_dungeon` yields a state with consistent
occupancy. In the first turn the telepathic monster (character 1) steps north onto the
cell `(2, 1)` of the other monster (character 2) and so kills it; `play_dungeon` then
clears the occupant of the cell at the victim's position, which is the cell the mover has
just been recorded in. After the turn character 1 is alive at `(2, 1)` but the cell
`(2, 1)` has no occupant: occupancy is no longer consistent. -/
theorem play_dungeon_kill_clears_mover :
    ∃ s1 s2, play_setup 9 Mem.empty exVertices Mem.empty exBrawl = some s1 ∧ Occupancy s1 ∧
      play_dungeon_turn 9 Mem.empty exVertices s1 [] = some (true, s2, []) ∧
      s2.characters 0 = some 1 ∧ (s2.d.chars 1).y = 2 ∧ (s2.d.chars 1).x = 1 ∧
      (s2.d.MAP 2 1).character = none ∧ s2.characters 1 = none ∧ s2.d.num_monsters = 1 ∧
      ¬ Occupancy s2 := by
  have h := exBrawl_turn
  cases h1 : play_setup 9 Mem.empty exVertices Mem.empty exBrawl with
  | none => rw [h1] at h; cases h
  | some s1 =>
    rw [h1] at h
    simp only [Option.some_bind] at h
    cases h2 : play_dungeon_turn 9 Mem.empty exVertices s1 [] with
    | none => rw [h2] at h; cases h
    | some r =>
      obtain ⟨b, s2, rng⟩ := r
      rw [h2] at h
      simp only [Option.map_some', Option.some.injEq, turn_check, Bool.and_eq_true,
        decide_eq_true_eq] at h
      obtain ⟨⟨⟨⟨⟨⟨⟨⟨⟨a1, a2⟩, a0⟩, a3⟩, a4⟩, a5⟩, a6⟩, a7⟩, a8⟩, a9⟩ := h
      subst a2
      subst a0
      exact ⟨s1, s2, rfl, a1, h2, a3, a4, a5, a6, a7, a8, a9⟩

end Source

/-! ## The candidate rooms of `fill_partition` -/

namespace Old

/-- The `do ... while` loop of `fill_partition` together with the candidate rectangles it
draws (a candidate is listed once its four draws are made), whatever the outcome of the
loop. -/
def fill_partition_candidates (d : Dungeon_T) (p : Partition_T) :
    Nat → Int → List Nat → Option (Option Room_T × List Nat) × List Room_T
  | 0, _, _ => (none, [])
  | fuel + 1, tries, rng =>
    if tries > FAILED_ROOM_PLACEMENT then (some (none, rng), [])
    else
      match rand_int_in_range p.y (p.y + p.height - MIN_ROOM_HEIGHT) rng with
      | none => (none, [])
      | some (y, rng1) =>
      match rand_int_in_range p.x (p.x + p.height - MIN_ROOM_WIDTH) rng1 with
      | none => (none, [])
      | some (x, rng2) =>
      match rand_int_in_range MIN_ROOM_HEIGHT (p.y + p.height - y) rng2 with
      | none => (none, [])
      | some (height, rng3) =>
      match rand_int_in_range MIN_ROOM_WIDTH (p.x + p.height - x) rng3 with
      | none => (none, [])
      | some (width, rng4) =>
      match is_valid_room d.toDungeon y x height width with
      | none => (none, [⟨y, x, height, width⟩])
      | some true => (some (some ⟨y, x, height, width⟩, rng4), [⟨y, x, height, width⟩])
      | some false =>
        ((fill_partition_candidates d p fuel (tries + 1) rng4).1,
          ⟨y, x, height, width⟩ :: (fill_partition_candidates d p fuel (tries + 1) rng4).2)

end Old

/-- The listing does not change what the loop computes. -/
theorem fill_partition_candidates_fst (d : Dungeon_T) (p : Partition_T) :
    ∀ (fuel : Nat) (tries : Int) (rng : List Nat),
    (fill_partition_candidates d p fuel tries rng).1 = fill_partition_try d p fuel tries rng := by
  intro fuel
  induction fuel with
  | zero => intro tries rng; rfl
  | succ fuel ih =>
    intro tries rng
    simp only [fill_partition_candidates, fill_partition_try]
    split
    · rfl
    · cases rand_int_in_range p.y (p.y + p.height - MIN_ROOM_HEIGHT) rng with
      | none => rfl
      | some v1 =>
        obtain ⟨y, rng1⟩ := v1
        simp only
        cases rand_int_in_range p.x (p.x + p.height - MIN_ROOM_WIDTH) rng1 with
        | none => rfl
        | some v2 =>
          obtain ⟨x, rng2⟩ := v2
          simp only
          cases rand_int_in_range MIN_ROOM_HEIGHT (p.y + p.height - y) rng2 with
          | none => rfl
          | some v3 =>
            obtain ⟨height, rng3⟩ := v3
            simp only
            cases rand_int_in_range MIN_ROOM_WIDTH (p.x + p.height - x) rng3 with
            | none => rfl
            | some v4 =>
              obtain ⟨width, rng4⟩ := v4
              simp only
              cases is_valid_room d.toDungeon y x height width with
              | none => rfl
              | some b =>
                cases b with
                | false => exact ih _ _
                | true => rfl

/-- A rectangle of at least the minimum room size inside the partition. -/
def RoomIn (p : Partition_T) (c : Room_T) : Prop :=
  MIN_ROOM_HEIGHT ≤ c.height ∧ MIN_ROOM_WIDTH ≤ c.width ∧ p.y ≤ c.y ∧
  c.y + c.height ≤ p.y + p.height ∧ p.x ≤ c.x ∧ c.x + c.width ≤ p.x + p.width

/-- Every candidate of a partition in the stop-splitting range is a room inside it. -/
theorem fill_partition_candidates_in (d : Dungeon_T) (p : Partition_T)
    (hh : 7 ≤ p.height) (hw : p.height ≤ p.width) :
    ∀ (fuel : Nat) (tries : Int) (rng : List Nat),
    ∀ c ∈ (fill_partition_candidates d p fuel tries rng).2, RoomIn p c := by
  intro fuel
  induction fuel with
  | zero => intro tries rng c hc; simp [fill_partition_candidates] at hc
  | succ fuel ih =>
    intro tries rng c hc
    simp only [fill_partition_candidates] at hc
    split at hc
    · simp at hc
    · cases h1 : rand_int_in_range p.y (p.y + p.height - MIN_ROOM_HEIGHT) rng with
      | none => rw [h1] at hc; simp at hc
      | some v1 =>
        obtain ⟨y, rng1⟩ := v1
        rw [h1] at hc
        simp only at hc
        cases h2 : rand_int_in_range p.x (p.x + p.height - MIN_ROOM_WIDTH) rng1 with
        | none => rw [h2] at hc; simp at hc
        | some v2 =>
          obtain ⟨x, rng2⟩ := v2
          rw [h2] at hc
          simp only at hc
          cases h3 : rand_int_in_range MIN_ROOM_HEIGHT (p.y + p.height - y) rng2 with
          | none => rw [h3] at hc; simp at hc
          | some v3 =>
            obtain ⟨height, rng3⟩ := v3
            rw [h3] at hc
            simp only at hc
            cases h4 : rand_int_in_range MIN_ROOM_WIDTH (p.x + p.height - x) rng3 with
            | none => rw [h4] at hc; simp at hc
            | some v4 =>
              obtain ⟨width, rng4⟩ := v4
              rw [h4] at hc
              simp only at hc
              have hin : RoomIn p ⟨y, x, height, width⟩ := by
                simp only [MIN_ROOM_HEIGHT, MIN_ROOM_WIDTH] at h1 h2 h3 h4
                have a1 := rand_int_in_range_ge h1
                have a2 := rand_int_in_range_le h1 (by omega)
                have b1 := rand_int_in_range_ge h2
                have b2 := rand_int_in_range_le h2 (by omega)
                have c1 := rand_int_in_range_ge h3
                have c2 := rand_int_in_range_le h3 (by omega)
                have e1 := rand_int_in_range_ge h4
                have e2 := rand_int_in_range_le h4 (by omega)
                simp only [RoomIn, MIN_ROOM_HEIGHT, MIN_ROOM_WIDTH]
                omega
              cases h5 : is_valid_room d.toDungeon y x height width with
              | none =>
                rw [h5] at hc
                simp only [List.mem_singleton] at hc
                rw [hc]; exact hin
              | some b =>
                rw [h5] at hc
                cases b with
                | true =>
                  simp only [List.mem_singleton] at hc
                  rw [hc]; exact hin
                | false =>
                  simp only [List.mem_cons] at hc
                  rcases hc with e | hc
                  · rw [e]; exact hin
                  · exact ih _ _ c hc

/-- The room a successful loop settles on is its last candidate. -/
theorem fill_partition_try_mem (d : Dungeon_T) (p : Partition_T) :
    ∀ (fuel : Nat) (tries : Int) (rng : List Nat) (r : Room_T) (rng2 : List Nat),
    fill_partition_try d p fuel tries rng = some (some r, rng2) →
    r ∈ (fill_partition_candidates d p fuel tries rng).2 := by
  intro fuel
  induction fuel with
  | zero => intro tries rng r rng2 h; simp [fill_partition_try] at h
  | succ fuel ih =>
    intro tries rng r rng2 h
    simp only [fill_partition_try] at h
    simp only [fill_partition_candidates]
    split at h
    · simp at h
    · rename_i ht
      rw [if_neg ht]
      cases h1 : rand_int_in_range p.y (p.y + p.height - MIN_ROOM_HEIGHT) rng with
      | none => rw [h1] at h; simp at h
      | some v1 =>
        obtain ⟨y, rng1⟩ := v1
        rw [h1] at h
        simp only at h ⊢
        cases h2 : rand_int_in_range p.x (p.x + p.height - MIN_ROOM_WIDTH) rng1 with
        | none => rw [h2] at h; simp at h
        | some v2 =>
          obtain ⟨x, rng2b⟩ := v2
          rw [h2] at h
          simp only at h ⊢
          cases h3 : rand_int_in_range MIN_ROOM_HEIGHT (p.y + p.height - y) rng2b with
          | none => rw [h3] at h; simp at h
          | some v3 =>
            obtain ⟨height, rng3⟩ := v3
            rw [h3] at h
            simp only at h ⊢
            cases h4 : rand_int_in_range MIN_ROOM_WIDTH (p.x + p.height - x) rng3 with
            | none => rw [h4] at h; simp at h
            | some v4 =>
              obtain ⟨width, rng4⟩ := v4
              rw [h4] at h
              simp only at h ⊢
              cases h5 : is_valid_room d.toDungeon y x height width with
              | none => rw [h5] at h; simp at h
              | some b =>
                rw [h5] at h
                cases b with
                | false =>
                  simp only at h ⊢
                  exact List.mem_cons_of_mem _ (ih _ _ _ _ h)
                | true =>
                  simp only [Option.some.injEq, Prod.mk.injEq] at h
                  simp only [List.mem_singleton]
                  exact h.1.symm

theorem paint_room_row_rooms (i : Int) : ∀ (js : List Int) (d d2 : Dungeon_T),
    paint_room_row i js d = some d2 → d2.rooms = d.rooms ∧ d2.num_rooms = d.num_rooms
  | [], d, d2, h => by
    simp only [paint_room_row, Option.some.injEq] at h
    subst h
    exact ⟨rfl, rfl⟩
  | j :: js, d, d2, h => by
    simp only [paint_room_row] at h
    cases h1 : setCell d i j { d.MAP i j with type := .ROOM, hardness := OPEN_SPACE_HARDNESS } with
    | none => rw [h1] at h; simp at h
    | some d1 =>
      rw [h1] at h
      have e := paint_room_row_rooms i js d1 d2 h
      have e1 : d1.rooms = d.rooms ∧ d1.num_rooms = d.num_rooms := by
        unfold setCell at h1
        split at h1
        · simp only [Option.some.injEq] at h1
          subst h1
          exact ⟨rfl, rfl⟩
        · cases h1
      exact ⟨e.1.trans e1.1, e.2.trans e1.2⟩

theorem paint_room_rooms (x : Int) (width : Nat) : ∀ (is : List Int) (d d2 : Dungeon_T),
    paint_room x width is d = some d2 → d2.rooms = d.rooms ∧ d2.num_rooms = d.num_rooms
  | [], d, d2, h => by
    simp only [paint_room, Option.some.injEq] at h
    subst h
    exact ⟨rfl, rfl⟩
  | i :: is, d, d2, h => by
    simp only [paint_room] at h
    cases h1 : paint_room_row i (intRange x width) d with
    | none => rw [h1] at h; simp at h
    | some d1 =>
      rw [h1] at h
      have e1 := paint_room_row_rooms i _ d d1 h1
      have e := paint_room_rooms x width is d1 d2 h
      exact ⟨e.1.trans e1.1, e.2.trans e1.2⟩

/-- The room `fill_partition` records is the one its loop settles on. -/
theorem fill_partition_room {d d2 : Dungeon_T} {p : Partition_T} {rng rng2 : List Nat}
    (h : fill_partition d p rng = some (true, d2, rng2)) :
    d2.num_rooms = d.num_rooms + 1 ∧
    ∃ rng1, fill_partition_try d p (FAILED_ROOM_PLACEMENT.toNat + 2) 0 rng =
      some (some (d2.rooms d.num_rooms), rng1) := by
  unfold fill_partition at h
  cases h1 : fill_partition_try d p (FAILED_ROOM_PLACEMENT.toNat + 2) 0 rng with
  | none => rw [h1] at h; simp at h
  | some v =>
    obtain ⟨ro, rng1⟩ := v
    rw [h1] at h
    cases ro with
    | none => simp at h
    | some r =>
      simp only at h
      split at h
      · cases h
      · rename_i d3 e3
        simp only [Option.some.injEq, Prod.mk.injEq, true_and] at h
        obtain ⟨e, _⟩ := h
        subst e
        obtain ⟨q1, q2⟩ := paint_room_rooms _ _ _ _ _ e3
        refine ⟨by rw [q2], rng1, ?_⟩
        rw [q1]
        simp

/-- C36: for a partition `p` whose height lies in 7..13 and whose width lies in 13..27, a
dungeon and a stream of draws, every candidate rectangle `fill_partition` draws (the
listing loop computes what the loop of `fill_partition` computes) has height at least
`MIN_ROOM_HEIGHT`, width at least `MIN_ROOM_WIDTH` and lies inside `p`; the room that
`fill_partition` places, when it places one, is such a candidate. -/
theorem fill_partition_candidates_inside (d : Dungeon_T) (p : Partition_T) (rng : List Nat)
    (fuel : Nat) (tries : Int)
    (hh : MIN_PARTITION_HEIGHT ≤ p.height ∧ p.height ≤ MAX_PARTITION_HEIGHT)
    (hw : MIN_PARTITION_WIDTH ≤ p.width ∧ p.width ≤ MAX_PARTITION_WIDTH) :
    (fill_partition_candidates d p fuel tries rng).1 = fill_partition_try d p fuel tries rng ∧
    (∀ c ∈ (fill_partition_candidates d p fuel tries rng).2,
      MIN_ROOM_HEIGHT ≤ c.height ∧ MIN_ROOM_WIDTH ≤ c.width ∧ p.y ≤ c.y ∧
      c.y + c.height ≤ p.y + p.height ∧ p.x ≤ c.x ∧ c.x + c.width ≤ p.x + p.width) ∧
    (∀ d2 rng2, fill_partition d p rng = some (true, d2, rng2) →
      d2.num_rooms = d.num_rooms + 1 ∧
      d2.rooms d.num_rooms ∈
        (fill_partition_candidates d p (FAILED_ROOM_PLACEMENT.toNat + 2) 0 rng).2 ∧
      p.y ≤ (d2.rooms d.num_rooms).y ∧
      (d2.rooms d.num_rooms).y + (d2.rooms d.num_rooms).height ≤ p.y + p.height ∧
      p.x ≤ (d2.rooms d.num_rooms).x ∧
      (d2.rooms d.num_rooms).x + (d2.rooms d.num_rooms).width ≤ p.x + p.width) := by
  simp only [MIN_PARTITION_HEIGHT, MAX_PARTITION_HEIGHT, MIN_PARTITION_WIDTH,
    MAX_PARTITION_WIDTH] at hh hw
  have hin := fill_partition_candidates_in d p hh.1 (by omega)
  refine ⟨fill_partition_candidates_fst d p fuel tries rng, hin fuel tries rng, ?_⟩
  intro d2 rng2 h
  obtain ⟨hn, rng1, ht⟩ := fill_partition_room h
  have hm := fill_partition_try_mem d p _ _ _ _ _ ht
  have := hin _ _ _ _ hm
  exact ⟨hn, hm, this.2.2.1, this.2.2.2.1, this.2.2.2.2.1, this.2.2.2.2.2⟩

theorem fill_partition_candidates_inside_witness :
    (MIN_PARTITION_HEIGHT ≤ (7 : Int) ∧ (7 : Int) ≤ MAX_PARTITION_HEIGHT) ∧
    (MIN_PARTITION_WIDTH ≤ (13 : Int) ∧ (13 : Int) ≤ MAX_PARTITION_WIDTH) ∧
    ∀ c ∈ (fill_partition_candidates exBorder ⟨1, 1, 7, 13⟩ 3 0 [3, 5, 2, 9]).2,
      MIN_ROOM_HEIGHT ≤ c.height ∧ MIN_ROOM_WIDTH ≤ c.width ∧ 1 ≤ c.y ∧
      c.y + c.height ≤ 1 + 7 ∧ 1 ≤ c.x ∧ c.x + c.width ≤ 1 + 13 :=
  ⟨by decide, by decide,
    (fill_partition_candidates_inside exBorder ⟨1, 1, 7, 13⟩ [3, 5, 2, 9] 3 0 (by decide)
      (by decide)).2.1⟩

/-! ## The partitions `generate_rooms` pops -/

namespace Old

/-- The work-stack loop of `generate_rooms` together with the partitions it pops, in order,
whatever the outcome of the loop. -/
def generate_rooms_trace (max_rooms : Int) :
    Nat → List Partition_T → Dungeon_T → List Nat →
    Option (Bool × Dungeon_T × List Nat) × List Partition_T
  | _, [], d, rng => (some (true, d, rng), [])
  | 0, _ :: _, _, _ => (none, [])
  | fuel + 1, p :: s, d, rng =>
    match split_horizontal p rng with
    | none => (none, [p])
    | some (horizontal, rng1) =>
    match (if horizontal then
        rand_int_in_range MIN_PARTITION_HEIGHT (p.height - MIN_PARTITION_HEIGHT) rng1
      else rand_int_in_range MIN_PARTITION_WIDTH (p.width - MIN_PARTITION_WIDTH) rng1) with
    | none => (none, [p])
    | some (split, rng2) =>
      let left : Partition_T :=
        if horizontal then ⟨p.y, p.x, split, p.width⟩ else ⟨p.y, p.x, p.height, split⟩
      let right : Partition_T :=
        if horizontal then ⟨p.y + split, p.x, p.height - split, p.width⟩
        else ⟨p.y, p.x + split, p.height, p.width - split⟩
      match place_child max_rooms left s d rng2 with
      | none => (none, [p])
      | some (false, _, d1, rng3) => (some (false, d1, rng3), [p])
      | some (true, s1, d1, rng3) =>
        match place_child max_rooms right s1 d1 rng3 with
        | none => (none, [p])
        | some (false, _, d2, rng4) => (some (false, d2, rng4), [p])
        | some (true, s2, d2, rng4) =>
          ((generate_rooms_trace max_rooms fuel s2 d2 rng4).1,
            p :: (generate_rooms_trace max_rooms fuel s2 d2 rng4).2)

end Old

/-- One iteration of the listing loop, with the children named. -/
theorem generate_rooms_trace_succ (max_rooms : Int) (fuel : Nat) (p : Partition_T)
    (s : List Partition_T) (d : Dungeon_T) (rng : List Nat) :
    generate_rooms_trace max_rooms (fuel + 1) (p :: s) d rng =
      match split_horizontal p rng with
      | none => (none, [p])
      | some (horizontal, rng1) =>
      match (if horizontal then
          rand_int_in_range MIN_PARTITION_HEIGHT (p.height - MIN_PARTITION_HEIGHT) rng1
        else rand_int_in_range MIN_PARTITION_WIDTH (p.width - MIN_PARTITION_WIDTH) rng1) with
      | none => (none, [p])
      | some (split, rng2) =>
        match place_child max_rooms (leftChild p horizontal split) s d rng2 with
        | none => (none, [p])
        | some (false, _, d1, rng3) => (some (false, d1, rng3), [p])
        | some (true, s1, d1, rng3) =>
          match place_child max_rooms (rightChild p horizontal split) s1 d1 rng3 with
          | none => (none, [p])
          | some (false, _, d2, rng4) => (some (false, d2, rng4), [p])
          | some (true, s2, d2, rng4) =>
            ((generate_rooms_trace max_rooms fuel s2 d2 rng4).1,
              p :: (generate_rooms_trace max_rooms fuel s2 d2 rng4).2) := by
  rfl

/-- The listing does not change what the loop computes. -/
theorem generate_rooms_trace_fst (max_rooms : Int) :
    ∀ (fuel : Nat) (s : List Partition_T) (d : Dungeon_T) (rng : List Nat),
    (generate_rooms_trace max_rooms fuel s d rng).1 = generate_rooms_loop max_rooms fuel s d rng := by
  intro fuel
  induction fuel with
  | zero =>
    intro s d rng
    cases s <;> rfl
  | succ fuel ih =>
    intro s d rng
    cases s with
    | nil => rfl
    | cons p s =>
      rw [generate_rooms_trace_succ, generate_rooms_loop_succ]
      cases split_horizontal p rng with
      | none => rfl
      | some v1 =>
        obtain ⟨hz, rng1⟩ := v1
        simp only
        cases (if hz = true then
            rand_int_in_range MIN_PARTITION_HEIGHT (p.height - MIN_PARTITION_HEIGHT) rng1
          else rand_int_in_range MIN_PARTITION_WIDTH (p.width - MIN_PARTITION_WIDTH) rng1) with
        | none => rfl
        | some v2 =>
          obtain ⟨split, rng2⟩ := v2
          simp only
          cases place_child max_rooms (leftChild p hz split) s d rng2 with
          | none => rfl
          | some v3 =>
            obtain ⟨ok1, s1, d1, rng3⟩ := v3
            cases ok1 with
            | false => rfl
            | true =>
              simp only
              cases place_child max_rooms (rightChild p hz split) s1 d1 rng3 with
              | none => rfl
              | some v4 =>
                obtain ⟨ok2, s2, d2, rng4⟩ := v4
                cases ok2 with
                | false => rfl
                | true => exact ih _ _ _

/-- The stack after `generate_rooms` has dealt with one child and goes on. -/
theorem place_child_stack_eq {max_rooms : Int} {c : Partition_T} {s s2 : List Partition_T}
    {d d2 : Dungeon_T} {rng rng2 : List Nat}
    (h : place_child max_rooms c s d rng = some (true, s2, d2, rng2)) :
    s2 = if in_range c = false then c :: s else s := by
  unfold place_child at h
  by_cases hr : in_range c = false
  · rw [if_pos hr] at h
    simp only [Option.some.injEq, Prod.mk.injEq] at h
    rw [if_pos hr]
    exact h.2.1.symm
  · rw [if_neg hr] at h
    rw [if_neg hr]
    split at h
    · simp at h
    · cases h1 : fill_partition d c rng with
      | none => rw [h1] at h; simp at h
      | some v =>
        obtain ⟨ok1, d1, rng1⟩ := v
        rw [h1] at h
        simp only [Option.some.injEq, Prod.mk.injEq] at h
        exact h.2.1.symm

/-- The split position drawn for a splittable partition and the sizes of its children. -/
theorem split_children {p : Partition_T} {rng rng1 rng2 : List Nat} {hz : Bool} {split : Int}
    (hp : Splittable p) (h1 : split_horizontal p rng = some (hz, rng1))
    (h2 : (if hz = true then
        rand_int_in_range MIN_PARTITION_HEIGHT (p.height - MIN_PARTITION_HEIGHT) rng1
      else rand_int_in_range MIN_PARTITION_WIDTH (p.width - MIN_PARTITION_WIDTH) rng1) =
        some (split, rng2)) :
    7 ≤ (leftChild p hz split).height ∧ 13 ≤ (leftChild p hz split).width ∧
    7 ≤ (rightChild p hz split).height ∧ 13 ≤ (rightChild p hz split).width ∧
    (leftChild p hz split).height * (leftChild p hz split).width +
      (rightChild p hz split).height * (rightChild p hz split).width = p.height * p.width := by
  obtain ⟨z1, z2⟩ := split_horizontal_spec h1 hp
  obtain ⟨b1, b2, _⟩ := hp
  cases hz with
  | true =>
    have := z1 rfl
    simp only [if_true, MIN_PARTITION_HEIGHT] at h2
    have g1 := rand_int_in_range_ge h2
    have g2 := rand_int_in_range_le h2 (by omega)
    simp only [leftChild, rightChild, if_true]
    refine ⟨g1, b2, by omega, b2, by ring⟩
  | false =>
    have := z2 rfl
    simp only [Bool.false_eq_true, if_false, MIN_PARTITION_WIDTH] at h2
    have g1 := rand_int_in_range_ge h2
    have g2 := rand_int_in_range_le h2 (by omega)
    simp only [leftChild, rightChild, Bool.false_eq_true, if_false]
    refine ⟨b1, g1, b1, by omega, by ring⟩

theorem splittable_of_dims {c : Partition_T} (h1 : 7 ≤ c.height) (h2 : 13 ≤ c.width)
    (hr : in_range c = false) : Splittable c := by
  refine ⟨h1, h2, ?_⟩
  intro h3
  by_contra h4
  have : in_range c = true := (in_range_iff c).mpr ⟨h1, h3, h2, by omega⟩
  rw [hr] at this
  cases this

/-- Every partition the loop pops is splittable when the stack holds splittable partitions
only. -/
theorem generate_rooms_trace_splittable (max_rooms : Int) :
    ∀ (fuel : Nat) (s : List Partition_T) (d : Dungeon_T) (rng : List Nat),
    (∀ q ∈ s, Splittable q) →
    ∀ p ∈ (generate_rooms_trace max_rooms fuel s d rng).2, Splittable p := by
  intro fuel
  induction fuel with
  | zero =>
    intro s d rng hs p hp
    cases s <;> simp [generate_rooms_trace] at hp
  | succ fuel ih =>
    intro s d rng hs p hp
    cases s with
    | nil => simp [generate_rooms_trace] at hp
    | cons q s =>
      have hq := hs q (List.mem_cons_self _ _)
      have hs2 : ∀ r ∈ s, Splittable r := fun r hr => hs r (List.mem_cons_of_mem _ hr)
      rw [generate_rooms_trace_succ] at hp
      cases h1 : split_horizontal q rng with
      | none =>
        rw [h1] at hp
        simp only [List.mem_singleton] at hp
        rw [hp]; exact hq
      | some v1 =>
        obtain ⟨hz, rng1⟩ := v1
        rw [h1] at hp
        simp only at hp
        cases h2 : (if hz = true then
            rand_int_in_range MIN_PARTITION_HEIGHT (q.height - MIN_PARTITION_HEIGHT) rng1
          else rand_int_in_range MIN_PARTITION_WIDTH (q.width - MIN_PARTITION_WIDTH) rng1) with
        | none =>
          rw [h2] at hp
          simp only [List.mem_singleton] at hp
          rw [hp]; exact hq
        | some v2 =>
          obtain ⟨split, rng2⟩ := v2
          rw [h2] at hp
          simp only at hp
          obtain ⟨c1, c2, c3, c4, _⟩ := split_children hq h1 h2
          cases h3 : place_child max_rooms (leftChild q hz split) s d rng2 with
          | none =>
            rw [h3] at hp
            simp only [List.mem_singleton] at hp
            rw [hp]; exact hq
          | some v3 =>
            obtain ⟨ok1, s1, d1, rng3⟩ := v3
            rw [h3] at hp
            cases ok1 with
            | false =>
              simp only [List.mem_singleton] at hp
              rw [hp]; exact hq
            | true =>
              simp only at hp
              have e1 := place_child_stack_eq h3
              have hs1 : ∀ r ∈ s1, Splittable r := by
                intro r hr
                rw [e1] at hr
                by_cases hin : in_range (leftChild q hz split) = false
                · rw [if_pos hin] at hr
                  rcases List.mem_cons.mp hr with e | hr
                  · rw [e]; exact splittable_of_dims c1 c2 hin
                  · exact hs2 r hr
                · rw [if_neg hin] at hr
                  exact hs2 r hr
              cases h4 : place_child max_rooms (rightChild q hz split) s1 d1 rng3 with
              | none =>
                rw [h4] at hp
                simp only [List.mem_singleton] at hp
                rw [hp]; exact hq
              | some v4 =>
                obtain ⟨ok2, s2, d2, rng4⟩ := v4
                rw [h4] at hp
                cases ok2 with
                | false =>
                  simp only [List.mem_singleton] at hp
                  rw [hp]; exact hq
                | true =>
                  simp only [List.mem_cons] at hp
                  rcases hp with e | hp
                  · rw [e]; exact hq
                  · have e2 := place_child_stack_eq h4
                    refine ih s2 d2 rng4 ?_ p hp
                    intro r hr
                    rw [e2] at hr
                    by_cases hin : in_range (rightChild q hz split) = false
                    · rw [if_pos hin] at hr
                      rcases List.mem_cons.mp hr with e | hr
                      · rw [e]; exact splittable_of_dims c3 c4 hin
                      · exact hs1 r hr
                    · rw [if_neg hin] at hr
                      exact hs1 r hr

/-- C35: on a dungeon of 21 rows and 80 columns, for every stream of draws, room bound and
fuel, every partition `p` that the work-stack loop of `generate_rooms` pops (the listing
loop computes what `generate_rooms` computes) has height at least 7 and width at least 13;
whatever direction `split_horizontal` chooses for it, the interval the split position is
drawn from is non-empty, so that the divisor of the remainder in `rand_int_in_range` is
positive and the draw succeeds on a non-empty stream; and both children of every split
drawn have height at least `MIN_PARTITION_HEIGHT` and width at least
`MIN_PARTITION_WIDTH`. -/
theorem generate_rooms_partitions_large (d : Dungeon_T) (max_rooms : Int) (fuel : Nat)
    (rng : List Nat) (hh : d.height = 21) (hw : d.width = 80) :
    (generate_rooms_trace max_rooms fuel [⟨1, 1, (d.height : Int) - 2, (d.width : Int) - 2⟩]
      d rng).1 = generate_rooms fuel d max_rooms rng ∧
    ∀ p ∈ (generate_rooms_trace max_rooms fuel
        [⟨1, 1, (d.height : Int) - 2, (d.width : Int) - 2⟩] d rng).2,
      7 ≤ p.height ∧ 13 ≤ p.width ∧
      ∀ (rng0 rng1 : List Nat) (hz : Bool), split_horizontal p rng0 = some (hz, rng1) →
        (hz = true → MIN_PARTITION_HEIGHT ≤ p.height - MIN_PARTITION_HEIGHT ∧
          0 < p.height - MIN_PARTITION_HEIGHT - MIN_PARTITION_HEIGHT + 1) ∧
        (hz = false → MIN_PARTITION_WIDTH ≤ p.width - MIN_PARTITION_WIDTH ∧
          0 < p.width - MIN_PARTITION_WIDTH - MIN_PARTITION_WIDTH + 1) ∧
        (∀ r rest, ∃ split,
          (if hz = true then
            rand_int_in_range MIN_PARTITION_HEIGHT (p.height - MIN_PARTITION_HEIGHT) (r :: rest)
          else
            rand_int_in_range MIN_PARTITION_WIDTH (p.width - MIN_PARTITION_WIDTH) (r :: rest)) =
            some (split, rest)) ∧
        ∀ (split : Int) (rng2 : List Nat),
          (if hz = true then
            rand_int_in_range MIN_PARTITION_HEIGHT (p.height - MIN_PARTITION_HEIGHT) rng1
          else rand_int_in_range MIN_PARTITION_WIDTH (p.width - MIN_PARTITION_WIDTH) rng1) =
            some (split, rng2) →
          MIN_PARTITION_HEIGHT ≤ (leftChild p hz split).height ∧
          MIN_PARTITION_WIDTH ≤ (leftChild p hz split).width ∧
          MIN_PARTITION_HEIGHT ≤ (rightChild p hz split).height ∧
          MIN_PARTITION_WIDTH ≤ (rightChild p hz split).width := by
  refine ⟨generate_rooms_trace_fst _ _ _ _ _, ?_⟩
  intro p hp
  have hroot : ∀ q ∈ [(⟨1, 1, (d.height : Int) - 2, (d.width : Int) - 2⟩ : Partition_T)],
      Splittable q := by
    intro q hq
    simp only [List.mem_singleton] at hq
    rw [hq, hh, hw]
    unfold Splittable
    simp only
    omega
  have hsp := generate_rooms_trace_splittable max_rooms fuel _ d rng hroot p hp
  refine ⟨hsp.1, hsp.2.1, ?_⟩
  intro rng0 rng1 hz h1
  obtain ⟨z1, z2⟩ := split_horizontal_spec h1 hsp
  simp only [MIN_PARTITION_HEIGHT, MIN_PARTITION_WIDTH]
  refine ⟨fun e => by have := z1 e; omega, fun e => by have := z2 e; omega, ?_, ?_⟩
  · intro r rest
    cases hz with
    | true =>
      have := z1 rfl
      obtain ⟨v, e, _⟩ := rand_int_in_range_total 7 (p.height - 7) r rest (by omega)
      exact ⟨v, by simpa using e⟩
    | false =>
      have := z2 rfl
      obtain ⟨v, e, _⟩ := rand_int_in_range_total 13 (p.width - 13) r rest (by omega)
      exact ⟨v, by simpa using e⟩
  · intro split rng2 h2
    have := @split_children p rng0 rng1 rng2 hz split hsp h1 (by
      simpa only [MIN_PARTITION_HEIGHT, MIN_PARTITION_WIDTH] using h2)
    exact ⟨this.1, this.2.1, this.2.2.1, this.2.2.2.1⟩

theorem generate_rooms_partitions_large_witness :
    (init_dungeon 21 80).height = 21 ∧ (init_dungeon 21 80).width = 80 ∧
    ∀ p ∈ (generate_rooms_trace 10 5 [⟨1, 1, 19, 78⟩] (init_dungeon 21 80) [0, 0, 0]).2,
      7 ≤ p.height ∧ 13 ≤ p.width :=
  ⟨rfl, rfl, fun p hp =>
    ⟨((generate_rooms_partitions_large (init_dungeon 21 80) 10 5 [0, 0, 0] rfl rfl).2 p hp).1,
      ((generate_rooms_partitions_large (init_dungeon 21 80) 10 5 [0, 0, 0] rfl rfl).2 p
        hp).2.1⟩⟩

/-! ## Termination of the work-stack loop of `generate_rooms` -/

/-- The bound on the iterations still to come: every partition on the stack counts with
its area less 90 (a partition that is filled has an area of at least 91). -/
def slack (s : List Partition_T) : Nat :=
  (s.map fun q => (q.height * q.width - 90).toNat).sum

theorem slack_cons (q : Partition_T) (s : List Partition_T) :
    slack (q :: s) = (q.height * q.width - 90).toNat + slack s := by
  simp [slack]

theorem area_ge {h w : Int} (h1 : 7 ≤ h) (h2 : 13 ≤ w) : 91 ≤ h * w := by
  have := Int.mul_le_mul h1 h2 (by norm_num) (by omega)
  omega

theorem splittable_area {p : Partition_T} (hp : Splittable p) : 182 ≤ p.height * p.width := by
  obtain ⟨h1, h2, h3⟩ := hp
  by_cases h : p.height ≤ 13
  · have := Int.mul_le_mul h1 (h3 h) (by norm_num) (by omega)
    omega
  · have := Int.mul_le_mul (by omega : (14 : Int) ≤ p.height) h2 (by norm_num) (by omega)
    omega

/-- The stack after an iteration that goes on: the children that are pushed are splittable
and the bound on the iterations to come drops. -/
theorem stack_step {q l r : Partition_T} {s s1 s2 : List Partition_T}
    (hs : ∀ t ∈ s, Splittable t)
    (c1 : 7 ≤ l.height) (c2 : 13 ≤ l.width) (c3 : 7 ≤ r.height) (c4 : 13 ≤ r.width)
    (c5 : l.height * l.width + r.height * r.width = q.height * q.width)
    (e1 : s1 = if in_range l = false then l :: s else s)
    (e2 : s2 = if in_range r = false then r :: s1 else s1) :
    (∀ t ∈ s2, Splittable t) ∧ slack s2 + 1 ≤ slack (q :: s) := by
  have aL := area_ge c1 c2
  have aR := area_ge c3 c4
  have hs1 : ∀ t ∈ s1, Splittable t := by
    intro t ht
    rw [e1] at ht
    by_cases hin : in_range l = false
    · rw [if_pos hin] at ht
      rcases List.mem_cons.mp ht with e | ht
      · rw [e]; exact splittable_of_dims c1 c2 hin
      · exact hs t ht
    · rw [if_neg hin] at ht
      exact hs t ht
  constructor
  · intro t ht
    rw [e2] at ht
    by_cases hin : in_range r = false
    · rw [if_pos hin] at ht
      rcases List.mem_cons.mp ht with e | ht
      · rw [e]; exact splittable_of_dims c3 c4 hin
      · exact hs1 t ht
    · rw [if_neg hin] at ht
      exact hs1 t ht
  · have k1 : slack s1 ≤ (l.height * l.width - 90).toNat + slack s := by
      rw [e1]
      split
      · rw [slack_cons]
      · omega
    have k2 : slack s2 ≤ (r.height * r.width - 90).toNat + slack s1 := by
      rw [e2]
      split
      · rw [slack_cons]
      · omega
    rw [slack_cons]
    generalize l.height * l.width = L at *
    generalize r.height * r.width = R at *
    generalize q.height * q.width = A at *
    by_cases hinL : in_range l = false
    · by_cases hinR : in_range r = false
      · omega
      · have : slack s2 = slack s1 := by rw [e2, if_neg hinR]
        omega
    · have : slack s1 = slack s := by rw [e1, if_neg hinL]
      by_cases hinR : in_range r = false
      · omega
      · have : slack s2 = slack s1 := by rw [e2, if_neg hinR]
        omega

/-- The loop pops at most `slack` partitions. -/
theorem generate_rooms_trace_length (max_rooms : Int) :
    ∀ (fuel : Nat) (s : List Partition_T) (d : Dungeon_T) (rng : List Nat),
    (∀ q ∈ s, Splittable q) →
    (generate_rooms_trace max_rooms fuel s d rng).2.length ≤ slack s := by
  intro fuel
  induction fuel with
  | zero =>
    intro s d rng hs
    cases s <;> simp [generate_rooms_trace]
  | succ fuel ih =>
    intro s d rng hs
    cases s with
    | nil => simp [generate_rooms_trace]
    | cons q s =>
      have hq := hs q (List.mem_cons_self _ _)
      have hs2 : ∀ r ∈ s, Splittable r := fun r hr => hs r (List.mem_cons_of_mem _ hr)
      have hqa := splittable_area hq
      have one : [q].length ≤ slack (q :: s) := by
        rw [slack_cons]
        simp only [List.length_singleton]
        omega
      rw [generate_rooms_trace_succ]
      cases h1 : split_horizontal q rng with
      | none => exact one
      | some v1 =>
        obtain ⟨hz, rng1⟩ := v1
        simp only
        cases h2 : (if hz = true then
            rand_int_in_range MIN_PARTITION_HEIGHT (q.height - MIN_PARTITION_HEIGHT) rng1
          else rand_int_in_range MIN_PARTITION_WIDTH (q.width - MIN_PARTITION_WIDTH) rng1) with
        | none => exact one
        | some v2 =>
          obtain ⟨split, rng2⟩ := v2
          simp only
          obtain ⟨c1, c2, c3, c4, c5⟩ := split_children hq h1 h2
          cases h3 : place_child max_rooms (leftChild q hz split) s d rng2 with
          | none => exact one
          | some v3 =>
            obtain ⟨ok1, s1, d1, rng3⟩ := v3
            cases ok1 with
            | false => exact one
            | true =>
              simp only
              cases h4 : place_child max_rooms (rightChild q hz split) s1 d1 rng3 with
              | none => exact one
              | some v4 =>
                obtain ⟨ok2, s2, d2, rng4⟩ := v4
                cases ok2 with
                | false => exact one
                | true =>
                  simp only [List.length_cons]
                  obtain ⟨hs3, hsl⟩ := stack_step hs2 c1 c2 c3 c4 c5 (place_child_stack_eq h3)
                    (place_child_stack_eq h4)
                  have hl := ih s2 d2 rng4 hs3
                  omega

/-! ### The loop returns -/

theorem is_valid_room_sides_total (d : Dungeon) (x width : Int) :
    ∀ (is : List Int), (∀ i ∈ is, InGrid d i (x - 1) ∧ InGrid d i (x + width)) →
    ∃ b, is_valid_room_sides d x width is = some b
  | [], _ => ⟨true, rfl⟩
  | i :: is, h => by
    obtain ⟨g1, g2⟩ := h i (List.mem_cons_self _ _)
    obtain ⟨b, e⟩ := is_valid_room_sides_total d x width is
      (fun j hj => h j (List.mem_cons_of_mem _ hj))
    simp only [is_valid_room_sides, getCell_of_InGrid g1, getCell_of_InGrid g2]
    split
    · exact ⟨false, rfl⟩
    · split
      · exact ⟨false, rfl⟩
      · exact ⟨b, e⟩

theorem is_valid_room_ends_total (d : Dungeon) (y height : Int) :
    ∀ (is : List Int), (∀ i ∈ is, InGrid d (y - 1) i ∧ InGrid d (y + height) i) →
    ∃ b, is_valid_room_ends d y height is = some b
  | [], _ => ⟨true, rfl⟩
  | i :: is, h => by
    obtain ⟨g1, g2⟩ := h i (List.mem_cons_self _ _)
    obtain ⟨b, e⟩ := is_valid_room_ends_total d y height is
      (fun j hj => h j (List.mem_cons_of_mem _ hj))
    simp only [is_valid_room_ends, getCell_of_InGrid g1, getCell_of_InGrid g2]
    split
    · exact ⟨false, rfl⟩
    · split
      · exact ⟨false, rfl⟩
      · exact ⟨b, e⟩

/-- The validity test of a room inside a partition of the interior reads the map only. -/
theorem is_valid_room_total {d : Dungeon} {p : Partition_T} {c : Room_T}
    (hin : PInside d p) (hc : RoomIn p c) :
    ∃ b, is_valid_room d c.y c.x c.height c.width = some b := by
  obtain ⟨p1, p2, p3, p4⟩ := hin
  obtain ⟨q1, q2, q3, q4, q5, q6⟩ := hc
  simp only [MIN_ROOM_HEIGHT, MIN_ROOM_WIDTH] at q1 q2
  have eh : (((c.height + 2).toNat : Nat) : Int) = c.height + 2 :=
    Int.toNat_of_nonneg (by omega)
  have ew : ((c.width.toNat : Nat) : Int) = c.width := Int.toNat_of_nonneg (by omega)
  obtain ⟨b1, e1⟩ := is_valid_room_sides_total d c.x c.width
    (intRange (c.y - 1) (c.height + 2).toNat) (fun i hi => by
      have := mem_intRange.mp hi
      unfold InGrid
      omega)
  obtain ⟨b2, e2⟩ := is_valid_room_ends_total d c.y c.height (intRange c.x c.width.toNat)
    (fun i hi => by
      have := mem_intRange.mp hi
      unfold InGrid
      omega)
  unfold is_valid_room
  rw [e1]
  cases b1 with
  | false => exact ⟨false, rfl⟩
  | true => exact ⟨b2, e2⟩

/-- The loop of `fill_partition` returns on a partition in the stop-splitting range inside
the interior, given four draws for each try still allowed. -/
theorem fill_partition_try_total (d : Dungeon_T) (p : Partition_T)
    (hr : in_range p = true) (hin : PInside d.toDungeon p) :
    ∀ (fuel : Nat) (tries : Int) (rng : List Nat), 0 ≤ tries → tries ≤ 2001 →
    2002 ≤ tries + fuel → 4 * (2001 - tries) ≤ (rng.length : Int) →
    ∃ r rng2, fill_partition_try d p fuel tries rng = some (r, rng2) ∧
      (rng.length : Int) ≤ rng2.length + 4 * (2001 - tries) := by
  have hr2 := (in_range_iff p).mp hr
  intro fuel
  induction fuel with
  | zero => intro tries rng h0 h1 h2 _; omega
  | succ fuel ih =>
    intro tries rng h0 h1 h2 hl
    simp only [fill_partition_try, FAILED_ROOM_PLACEMENT]
    by_cases ht : tries > 2000
    · rw [if_pos ht]
      exact ⟨none, rng, rfl, by omega⟩
    · rw [if_neg ht]
      match rng, hl with
      | a :: b :: c :: e :: rest, hl =>
        simp only [MIN_ROOM_HEIGHT, MIN_ROOM_WIDTH]
        obtain ⟨y, ey, y1, y2⟩ := rand_int_in_range_total p.y (p.y + p.height - 4) a
          (b :: c :: e :: rest) (by omega)
        obtain ⟨x, ex, x1, x2⟩ := rand_int_in_range_total p.x (p.x + p.height - 7) b
          (c :: e :: rest) (by omega)
        obtain ⟨hgt, eh, g1, g2⟩ := rand_int_in_range_total 4 (p.y + p.height - y) c
          (e :: rest) (by omega)
        obtain ⟨wid, ew, w1, w2⟩ := rand_int_in_range_total 7 (p.x + p.height - x) e rest
          (by omega)
        rw [ey]; simp only
        rw [ex]; simp only
        rw [eh]; simp only
        rw [ew]; simp only
        have hc : RoomIn p ⟨y, x, hgt, wid⟩ := by
          simp only [RoomIn, MIN_ROOM_HEIGHT, MIN_ROOM_WIDTH]
          omega
        obtain ⟨bv, ev⟩ := is_valid_room_total hin hc
        simp only at ev
        rw [ev]
        cases bv with
        | true =>
          refine ⟨_, _, rfl, ?_⟩
          simp only [List.length_cons]
          push_cast
          omega
        | false =>
          simp only
          obtain ⟨r, rng2, e2, l2⟩ := ih (tries + 1) rest (by omega) (by omega) (by
            push_cast at h2 ⊢; omega) (by
            simp only [List.length_cons] at hl
            push_cast at hl
            omega)
          refine ⟨r, rng2, e2, ?_⟩
          simp only [List.length_cons]
          push_cast
          omega
      | [], hl => simp at hl; omega
      | [_], hl => simp at hl; omega
      | [_, _], hl => simp at hl; omega
      | [_, _, _], hl => simp at hl; omega

/-- The loop of `fill_partition` draws at most one candidate for each try still allowed. -/
theorem fill_partition_candidates_length (d : Dungeon_T) (p : Partition_T) :
    ∀ (fuel : Nat) (tries : Int) (rng : List Nat), tries ≤ 2001 →
    ((fill_partition_candidates d p fuel tries rng).2.length : Int) ≤ 2001 - tries := by
  intro fuel
  induction fuel with
  | zero => intro tries rng h; simp [fill_partition_candidates]; omega
  | succ fuel ih =>
    intro tries rng h
    simp only [fill_partition_candidates, FAILED_ROOM_PLACEMENT]
    by_cases ht : tries > 2000
    · rw [if_pos ht]; simp; omega
    · rw [if_neg ht]
      cases rand_int_in_range p.y (p.y + p.height - MIN_ROOM_HEIGHT) rng with
      | none => simp; omega
      | some v1 =>
        obtain ⟨y, rng1⟩ := v1
        simp only
        cases rand_int_in_range p.x (p.x + p.height - MIN_ROOM_WIDTH) rng1 with
        | none => simp; omega
        | some v2 =>
          obtain ⟨x, rng2⟩ := v2
          simp only
          cases rand_int_in_range MIN_ROOM_HEIGHT (p.y + p.height - y) rng2 with
          | none => simp; omega
          | some v3 =>
            obtain ⟨height, rng3⟩ := v3
            simp only
            cases rand_int_in_range MIN_ROOM_WIDTH (p.x + p.height - x) rng3 with
            | none => simp; omega
            | some v4 =>
              obtain ⟨width, rng4⟩ := v4
              simp only
              cases is_valid_room d.toDungeon y x height width with
              | none => simp; omega
              | some b =>
                cases b with
                | true => simp; omega
                | false =>
                  simp only [List.length_cons]
                  have := ih (tries + 1) rng4 (by omega)
                  push_cast
                  omega

theorem paint_room_row_total (i : Int) : ∀ (js : List Int) (d : Dungeon_T),
    (∀ j ∈ js, InGrid d.toDungeon i j) → ∃ d2, paint_room_row i js d = some d2
  | [], d, _ => ⟨d, rfl⟩
  | j :: js, d, h => by
    have hg := h j (List.mem_cons_self _ _)
    simp only [paint_room_row, setCell_of_InGrid _ hg]
    exact paint_room_row_total i js _ (fun j2 hj2 => h j2 (List.mem_cons_of_mem _ hj2))

theorem paint_room_total (x : Int) (width : Nat) : ∀ (is : List Int) (d : Dungeon_T),
    (∀ i ∈ is, ∀ j ∈ intRange x width, InGrid d.toDungeon i j) →
    ∃ d2, paint_room x width is d = some d2
  | [], d, _ => ⟨d, rfl⟩
  | i :: is, d, h => by
    obtain ⟨d1, e1⟩ := paint_room_row_total i (intRange x width) d (h i (List.mem_cons_self _ _))
    have sd := paint_room_row_dims i _ d d1 e1
    obtain ⟨d2, e2⟩ := paint_room_total x width is d1 (fun i2 hi2 j hj => by
      have := h i2 (List.mem_cons_of_mem _ hi2) j hj
      unfold InGrid at this ⊢
      rw [sd.1, sd.2]
      exact this)
    exact ⟨d2, by simp only [paint_room, e1, e2]⟩

/-- `fill_partition` returns on a partition in the stop-splitting range inside the
interior, given 8004 draws. -/
theorem fill_partition_total (d : Dungeon_T) (p : Partition_T) (rng : List Nat)
    (hr : in_range p = true) (hin : PInside d.toDungeon p) (hl : 8004 ≤ rng.length) :
    ∃ ok d2 rng2, fill_partition d p rng = some (ok, d2, rng2) ∧
      rng.length ≤ rng2.length + 8004 := by
  obtain ⟨r, rng1, e1, l1⟩ := fill_partition_try_total d p hr hin
    (FAILED_ROOM_PLACEMENT.toNat + 2) 0 rng (le_refl _) (by norm_num) (by
      simp [FAILED_ROOM_PLACEMENT]) (by push_cast; omega)
  unfold fill_partition
  rw [e1]
  cases r with
  | none => exact ⟨false, d, rng1, rfl, by omega⟩
  | some r =>
    simp only
    have hr2 := (in_range_iff p).mp hr
    obtain ⟨q1, q2, q3, q4, q5, q6⟩ := fill_partition_try_spec d p hr2.1 _ _ _ _ _ e1
    obtain ⟨p1, p2, p3, p4⟩ := hin
    have hrh : ((r.height.toNat : Nat) : Int) = r.height := Int.toNat_of_nonneg (by omega)
    have hrw : ((r.width.toNat : Nat) : Int) = r.width := Int.toNat_of_nonneg (by omega)
    obtain ⟨d3, e3⟩ := paint_room_total r.x r.width.toNat (intRange r.y r.height.toNat)
      { d with
        num_rooms := d.num_rooms + 1
        rooms := fun k => if k = d.num_rooms then r else d.rooms k
        rooms_overflow := d.rooms_overflow || decide (d.rooms_size ≤ d.num_rooms) }
      (fun i hi j hj => by
        have hi2 := mem_intRange.mp hi
        have hj2 := mem_intRange.mp hj
        show InGrid d.toDungeon i j
        unfold InGrid
        omega)
    rw [e3]
    exact ⟨true, d3, rng1, rfl, by omega⟩

/-- What `generate_rooms` does with a child of a proper split returns, given 8004 draws. -/
theorem place_child_total (max_rooms : Int) (c : Partition_T) (s : List Partition_T)
    (d : Dungeon_T) (rng : List Nat) (hin : PInside d.toDungeon c)
    (hl : 8004 ≤ rng.length) :
    ∃ ok s2 d2 rng2, place_child max_rooms c s d rng = some (ok, s2, d2, rng2) ∧
      rng.length ≤ rng2.length + 8004 := by
  unfold place_child
  by_cases hr : in_range c = false
  · rw [if_pos hr]
    exact ⟨true, c :: s, d, rng, rfl, by omega⟩
  · rw [if_neg hr]
    split
    · exact ⟨false, s, d, rng, rfl, by omega⟩
    · have hr2 : in_range c = true := by
        cases hrc : in_range c
        · exact absurd hrc hr
        · rfl
      obtain ⟨ok, d2, rng2, e, l⟩ := fill_partition_total d c rng hr2 hin hl
      rw [e]
      exact ⟨ok, s, d2, rng2, rfl, l⟩

theorem split_horizontal_total (p : Partition_T) (r : Nat) (rest : List Nat) :
    ∃ hz rng1, split_horizontal p (r :: rest) = some (hz, rng1) ∧
      (r :: rest).length ≤ rng1.length + 1 := by
  unfold split_horizontal
  split
  · exact ⟨_, _, rfl, by omega⟩
  · split
    · exact ⟨_, _, rfl, by omega⟩
    · split
      · exact ⟨_, _, rfl, by omega⟩
      · split
        · exact ⟨_, _, rfl, by omega⟩
        · exact ⟨_, _, rfl, by simp⟩

/-- The work-stack loop returns when the stack holds splittable partitions inside the
interior, the fuel covers the bound on the iterations and the stream holds 16010 draws for
each of them. -/
theorem generate_rooms_loop_total (max_rooms : Int) :
    ∀ (fuel : Nat) (s : List Partition_T) (d : Dungeon_T) (rng : List Nat),
    (∀ q ∈ s, PInside d.toDungeon q ∧ Splittable q) → slack s ≤ fuel →
    16010 * slack s ≤ rng.length →
    ∃ r, generate_rooms_loop max_rooms fuel s d rng = some r := by
  intro fuel
  induction fuel with
  | zero =>
    intro s d rng hs hf _
    cases s with
    | nil => exact ⟨_, rfl⟩
    | cons q s =>
      have := splittable_area (hs q (List.mem_cons_self _ _)).2
      rw [slack_cons] at hf
      omega
  | succ fuel ih =>
    intro s d rng hs hf hl
    cases s with
    | nil => exact ⟨_, rfl⟩
    | cons q s =>
      obtain ⟨hqin, hq⟩ := hs q (List.mem_cons_self _ _)
      have hs2 : ∀ t ∈ s, Splittable t := fun t ht => (hs t (List.mem_cons_of_mem _ ht)).2
      have hqa := splittable_area hq
      have hsl : 92 ≤ slack (q :: s) := by rw [slack_cons]; omega
      rw [generate_rooms_loop_succ]
      cases rng with
      | nil => simp only [List.length_nil] at hl; omega
      | cons r rest =>
        obtain ⟨hz, rng1, h1, l1⟩ := split_horizontal_total q r rest
        rw [h1]
        simp only
        obtain ⟨z1, z2⟩ := split_horizontal_spec h1 hq
        cases rng1 with
        | nil => simp only [List.length_cons, List.length_nil] at l1 hl; omega
        | cons r1 rng2 =>
          have h2 : ∃ split, (if hz = true then
              rand_int_in_range MIN_PARTITION_HEIGHT (q.height - MIN_PARTITION_HEIGHT)
                (r1 :: rng2)
            else rand_int_in_range MIN_PARTITION_WIDTH (q.width - MIN_PARTITION_WIDTH)
              (r1 :: rng2)) = some (split, rng2) := by
            cases hz with
            | true =>
              have := z1 rfl
              obtain ⟨v, e, _⟩ := rand_int_in_range_total 7 (q.height - 7) r1 rng2 (by omega)
              exact ⟨v, by simpa [MIN_PARTITION_HEIGHT] using e⟩
            | false =>
              have := z2 rfl
              obtain ⟨v, e, _⟩ := rand_int_in_range_total 13 (q.width - 13) r1 rng2 (by omega)
              exact ⟨v, by simpa [MIN_PARTITION_WIDTH] using e⟩
          obtain ⟨split, h2⟩ := h2
          rw [h2]
          simp only
          obtain ⟨c1, c2, c3, c4, c5⟩ := split_children hq h1 h2
          have hch : ChildOk d.toDungeon (leftChild q hz split) ∧
              ChildOk d.toDungeon (rightChild q hz split) := by
            refine children_ok hqin hq ?_ ?_
            · intro e
              have := z1 e
              rw [if_pos e] at h2
              simp only [MIN_PARTITION_HEIGHT] at h2
              exact ⟨rand_int_in_range_ge h2, rand_int_in_range_le h2 (by omega)⟩
            · intro e
              have := z2 e
              rw [e] at h2
              simp only [Bool.false_eq_true, if_false, MIN_PARTITION_WIDTH] at h2
              exact ⟨rand_int_in_range_ge h2, rand_int_in_range_le h2 (by omega)⟩
          simp only [List.length_cons] at l1 hl
          obtain ⟨ok1, s1, d1, rng3, h3, l3⟩ := place_child_total max_rooms
            (leftChild q hz split) s d rng2 hch.1.1 (by omega)
          rw [h3]
          obtain ⟨sd1, _, _⟩ := place_child_stack h3
          cases ok1 with
          | false => exact ⟨_, rfl⟩
          | true =>
            simp only
            obtain ⟨ok2, s2, d2, rng4, h4, l4⟩ := place_child_total max_rooms
              (rightChild q hz split) s1 d1 rng3 (PInside_dims sd1.1 sd1.2 hch.2.1) (by omega)
            rw [h4]
            obtain ⟨sd2, _, _⟩ := place_child_stack h4
            cases ok2 with
            | false => exact ⟨_, rfl⟩
            | true =>
              simp only
              have e1 := place_child_stack_eq h3
              have e2 := place_child_stack_eq h4
              obtain ⟨hs3, hstep⟩ := stack_step hs2 c1 c2 c3 c4 c5 e1 e2
              have sd := sd1.dimsTrans sd2
              refine ih s2 d2 rng4 ?_ (by omega) (by omega)
              intro t ht
              refine ⟨PInside_dims sd.1 sd.2 ?_, hs3 t ht⟩
              rw [e2] at ht
              have hin1 : ∀ u ∈ s1, PInside d.toDungeon u := by
                intro u hu
                rw [e1] at hu
                split at hu
                · rcases List.mem_cons.mp hu with e | hu
                  · rw [e]; exact hch.1.1
                  · exact (hs u (List.mem_cons_of_mem _ hu)).1
                · exact (hs u (List.mem_cons_of_mem _ hu)).1
              split at ht
              · rcases List.mem_cons.mp ht with e | ht
                · rw [e]; exact hch.2.1
                · exact hin1 t ht
              · exact hin1 t ht

instance (p : Partition_T) : Decidable (Splittable p) := by
  unfold Splittable; infer_instance

/-- A grid of 9 rows and 20 columns after `generate_dungeon_border`: its interior of 7 rows
and 18 columns is too narrow to be split into two partitions of 13 columns. -/
def exNarrow : Dungeon_T :=
  (generate_dungeon_border (init_dungeon 9 20)).getD (init_dungeon 9 20)

/-- A stream of draws: the first split, four draws for the first room, then the draw 15
over and over. -/
def exDraws : List Nat := [0, 0, 0, 0, 0] ++ List.replicate 200 15

/-- On the grid of 9 rows and 20 columns the only split of the root partition `7 x 18` is
along the width, with positions drawn from 13..19: the draw 6 gives a left child of area
`7 * 19`, more than the area `7 * 18` of the partition split. On the stream `exDraws` the
first iteration fills the left child and pushes a right child of width 5; from then on
every iteration pops a partition of width at most 5 and pushes both its children, so the
loop is still running after 200 iterations, more than the area 126 of the initial
partition. -/
theorem generate_rooms_narrow_grid_runs_on :
    ¬ Splittable ⟨1, 1, (exNarrow.height : Int) - 2, (exNarrow.width : Int) - 2⟩ ∧
    split_horizontal ⟨1, 1, 7, 18⟩ [6] = some (false, [6]) ∧
    rand_int_in_range MIN_PARTITION_WIDTH (18 - MIN_PARTITION_WIDTH) [6] = some (19, []) ∧
    (leftChild ⟨1, 1, 7, 18⟩ false 19).height * (leftChild ⟨1, 1, 7, 18⟩ false 19).width >
      7 * 18 ∧
    (generate_rooms 200 exNarrow 10 exDraws).isSome = false ∧
    (generate_rooms_trace 10 200 [⟨1, 1, (exNarrow.height : Int) - 2,
      (exNarrow.width : Int) - 2⟩] exNarrow exDraws).2.length = 200 ∧
    (7 : Int) * 18 < 200 := by
  decide!

/-- C37: for a dungeon whose interior can be split (at least 14 rows and 13 columns, or at
least 7 rows and 26 columns, as in the dungeon of 21 rows and 80 columns), fuel for as many
iterations as the initial partition has cells and a stream of 16010 draws for each of
them: `generate_rooms` returns; the loop pops at most as many partitions as the initial
partition has cells; every split of a popped partition yields two children of positive
and strictly smaller area; and `fill_partition` draws at most `FAILED_ROOM_PLACEMENT + 1`
candidates, on every dungeon, partition and stream. -/
theorem generate_rooms_terminates (d : Dungeon_T) (max_rooms : Int) (fuel : Nat)
    (rng : List Nat)
    (hroot : Splittable ⟨1, 1, (d.height : Int) - 2, (d.width : Int) - 2⟩)
    (hfuel : ((d.height : Int) - 2) * ((d.width : Int) - 2) ≤ fuel)
    (hlen : 16010 * (((d.height : Int) - 2) * ((d.width : Int) - 2)) ≤ rng.length) :
    (∃ r, generate_rooms fuel d max_rooms rng = some r) ∧
    ((generate_rooms_trace max_rooms fuel
      [⟨1, 1, (d.height : Int) - 2, (d.width : Int) - 2⟩] d rng).2.length : Int) ≤
      ((d.height : Int) - 2) * ((d.width : Int) - 2) ∧
    (∀ p ∈ (generate_rooms_trace max_rooms fuel
        [⟨1, 1, (d.height : Int) - 2, (d.width : Int) - 2⟩] d rng).2,
      ∀ (rng0 rng1 rng2 : List Nat) (hz : Bool) (split : Int),
        split_horizontal p rng0 = some (hz, rng1) →
        (if hz = true then
          rand_int_in_range MIN_PARTITION_HEIGHT (p.height - MIN_PARTITION_HEIGHT) rng1
        else rand_int_in_range MIN_PARTITION_WIDTH (p.width - MIN_PARTITION_WIDTH) rng1) =
          some (split, rng2) →
        0 < (leftChild p hz split).height * (leftChild p hz split).width ∧
        (leftChild p hz split).height * (leftChild p hz split).width < p.height * p.width ∧
        0 < (rightChild p hz split).height * (rightChild p hz split).width ∧
        (rightChild p hz split).height * (rightChild p hz split).width <
          p.height * p.width) ∧
    (∀ (d0 : Dungeon_T) (p0 : Partition_T) (rng0 : List Nat),
      ((fill_partition_candidates d0 p0 (FAILED_ROOM_PLACEMENT.toNat + 2) 0 rng0).2.length : Int)
        ≤ FAILED_ROOM_PLACEMENT + 1) := by
  have hs : ∀ q ∈ [(⟨1, 1, (d.height : Int) - 2, (d.width : Int) - 2⟩ : Partition_T)],
      PInside d.toDungeon q ∧ Splittable q := by
    intro q hq
    simp only [List.mem_singleton] at hq
    rw [hq]
    refine ⟨?_, hroot⟩
    unfold PInside
    simp only
    omega
  have hs2 : ∀ q ∈ [(⟨1, 1, (d.height : Int) - 2, (d.width : Int) - 2⟩ : Partition_T)],
      Splittable q := fun q hq => (hs q hq).2
  have ha := splittable_area hroot
  simp only at ha
  have hsl : ((slack [(⟨1, 1, (d.height : Int) - 2, (d.width : Int) - 2⟩ : Partition_T)] :
      Nat) : Int) ≤ ((d.height : Int) - 2) * ((d.width : Int) - 2) := by
    rw [slack_cons]
    simp only [slack, List.map_nil, List.sum_nil, add_zero]
    generalize ((d.height : Int) - 2) * ((d.width : Int) - 2) = A at *
    omega
  refine ⟨?_, ?_, ?_, ?_⟩
  · refine generate_rooms_loop_total max_rooms fuel _ d rng hs ?_ ?_
    · generalize ((d.height : Int) - 2) * ((d.width : Int) - 2) = A at *
      omega
    · generalize ((d.height : Int) - 2) * ((d.width : Int) - 2) = A at *
      omega
  · have := generate_rooms_trace_length max_rooms fuel _ d rng hs2
    generalize ((d.height : Int) - 2) * ((d.width : Int) - 2) = A at *
    omega
  · intro p hp rng0 rng1 rng2 hz split h1 h2
    have hsp := generate_rooms_trace_splittable max_rooms fuel _ d rng hs2 p hp
    obtain ⟨c1, c2, c3, c4, c5⟩ := split_children hsp h1 h2
    have aL := area_ge c1 c2
    have aR := area_ge c3 c4
    generalize (leftChild p hz split).height * (leftChild p hz split).width = L at *
    generalize (rightChild p hz split).height * (rightChild p hz split).width = R at *
    generalize p.height * p.width = A at *
    omega
  · intro d0 p0 rng0
    have := fill_partition_candidates_length d0 p0 (FAILED_ROOM_PLACEMENT.toNat + 2) 0 rng0
      (by norm_num)
    show (_ : Int) ≤ 2000 + 1
    omega

theorem generate_rooms_terminates_witness :
    Splittable ⟨1, 1, ((init_dungeon 9 28).height : Int) - 2,
      ((init_dungeon 9 28).width : Int) - 2⟩ ∧
    (((init_dungeon 9 28).height : Int) - 2) * (((init_dungeon 9 28).width : Int) - 2) ≤
      ((182 : Nat) : Int) ∧
    16010 * ((((init_dungeon 9 28).height : Int) - 2) *
      (((init_dungeon 9 28).width : Int) - 2)) ≤ ((List.replicate 2913820 0).length : Int) ∧
    ∃ r, generate_rooms 182 (init_dungeon 9 28) 4 (List.replicate 2913820 0) = some r :=
  ⟨by decide, by decide, by rw [List.length_replicate]; decide,
    (generate_rooms_terminates (init_dungeon 9 28) 4 182 (List.replicate 2913820 0)
      (by decide) (by decide) (by rw [List.length_replicate]; decide)).1⟩

/-! ## The run of `dijkstra_helper`, iteration by iteration -/

/-- One call `heap_decrease_key(h, &n->node, key)` made by `check_neighbor`: the heap at
the call, the node `n`, the key passed, and the two summands of the key, the cost of the
extracted vertex and the weight of `n`. -/
structure Decrease where
  h : Heap
  n : Nat
  key : Int
  self : Int
  weight : Int

/-- Embedding of `check_neighbor` together with the calls of `heap_decrease_key` it makes
(none or one). -/
def check_neighbor_traced (h : Heap) (d : Dungeon) (dijkstra : Nat → Vertex) (cost : Nat → Int)
    (v : Vertex) (y_dir x_dir : Int) (type : Dijkstra_T) :
    Option (Heap × (Nat → Int)) × List Decrease :=
  if v.y + y_dir < 0 ∨ (d.height : Int) - 3 < v.y + y_dir then (some (h, cost), [])
  else if v.x + x_dir < 0 ∨ (d.width : Int) - 3 < v.x + x_dir then (some (h, cost), [])
  else if h.mem.data (DIJKSTRA d (v.y + y_dir) (v.x + x_dir)) = none then (some (h, cost), [])
  else if (dijkstra (DIJKSTRA d (v.y + y_dir) (v.x + x_dir))).cost = INT_MAX then
    (some (h, cost), [])
  else if type = .REGULAR_MAP ∧ (dijkstra (DIJKSTRA d (v.y + y_dir) v.x)).cost = INT_MAX ∧
      (dijkstra (DIJKSTRA d v.y (v.x + x_dir))).cost = INT_MAX then (some (h, cost), [])
  else if cost (COST_TRANSLATE d (v.y + y_dir) (v.x + x_dir)) ≤
      add32 (cost (COST_TRANSLATE d v.y v.x))
        (dijkstra (DIJKSTRA d (v.y + y_dir) (v.x + x_dir))).cost then (some (h, cost), [])
  else
    let cost1 := setCost cost (COST_TRANSLATE d (v.y + y_dir) (v.x + x_dir))
      (add32 (cost (COST_TRANSLATE d v.y v.x))
        (dijkstra (DIJKSTRA d (v.y + y_dir) (v.x + x_dir))).cost)
    ((heap_decrease_key h (DIJKSTRA d (v.y + y_dir) (v.x + x_dir))
        (cost1 (COST_TRANSLATE d (v.y + y_dir) (v.x + x_dir)))).map fun h1 => (h1, cost1),
      [⟨h, DIJKSTRA d (v.y + y_dir) (v.x + x_dir),
        cost1 (COST_TRANSLATE d (v.y + y_dir) (v.x + x_dir)),
        cost (COST_TRANSLATE d v.y v.x),
        (dijkstra (DIJKSTRA d (v.y + y_dir) (v.x + x_dir))).cost⟩])

/-- The calls of `check_neighbor` in the given directions, one after the other. -/
def scan_traced (d : Dungeon) (dijkstra : Nat → Vertex) (v : Vertex) (type : Dijkstra_T) :
    List (Int × Int) → Heap → (Nat → Int) → Option (Heap × (Nat → Int)) × List Decrease
  | [], h, cost => (some (h, cost), [])
  | p :: ds, h, cost =>
    match check_neighbor_traced h d dijkstra cost v p.1 p.2 type with
    | (none, l) => (none, l)
    | (some (h1, c1), l) =>
      ((scan_traced d dijkstra v type ds h1 c1).1,
        l ++ (scan_traced d dijkstra v type ds h1 c1).2)

/-- The directions of the eight calls of `check_neighbor` in the main loop, in the order of
the calls; the last four are made under `if (diagonal)`. -/
def directions (diagonal : Bool) : List (Int × Int) :=
  [(-1, 0), (1, 0), (0, -1), (0, 1)] ++
    if diagonal then [(-1, -1), (-1, 1), (1, -1), (1, 1)] else []

/-- The calls of `check_neighbor` of one iteration of the main loop together with the calls
of `heap_decrease_key` they make. -/
def check_neighbors_traced (h : Heap) (d : Dungeon) (dijkstra : Nat → Vertex)
    (cost : Nat → Int) (v : Vertex) (diagonal : Bool) (type : Dijkstra_T) :
    Option (Heap × (Nat → Int)) × List Decrease :=
  scan_traced d dijkstra v type (directions diagonal) h cost

/-- One iteration of the main loop of `dijkstra_helper`: the vertex extracted, the cost
array at the extraction, the calls of `heap_decrease_key` of the iteration, and the cost
array and the heap at the end of the iteration. -/
structure Visit where
  v : Nat
  before : Nat → Int
  calls : List Decrease
  after : Nat → Int
  h : Heap

/-- The main loop of `dijkstra_helper` together with the list of its iterations. -/
def dijkstra_loop_traced (d : Dungeon) (dijkstra : Nat → Vertex) (diagonal : Bool)
    (type : Dijkstra_T) : Nat → Heap → (Nat → Int) → Option (Nat → Int) × List Visit
  | fuel, h, cost =>
    if h.size > 0 then
      match fuel with
      | 0 => (none, [])
      | fuel + 1 =>
        match heap_remove_min (fuel + 1) h with
        | none => (none, [])
        | some (none, _) => (none, [])
        | some (some r, h1) =>
          match h1.mem.data r with
          | none => (none, [])
          | some vi =>
            let h2 : Heap := { h1 with mem := h1.mem.setData vi none }
            if cost (COST_TRANSLATE d (dijkstra vi).y (dijkstra vi).x) = INT_MAX then
              ((dijkstra_loop_traced d dijkstra diagonal type fuel h2 cost).1,
                ⟨vi, cost, [], cost, h2⟩ ::
                  (dijkstra_loop_traced d dijkstra diagonal type fuel h2 cost).2)
            else
              match check_neighbors_traced h2 d dijkstra cost (dijkstra vi) diagonal type with
              | (none, l) => (none, [⟨vi, cost, l, cost, h2⟩])
              | (some (h3, cost3), l) =>
                ((dijkstra_loop_traced d dijkstra diagonal type fuel h3 cost3).1,
                  ⟨vi, cost, l, cost3, h3⟩ ::
                    (dijkstra_loop_traced d dijkstra diagonal type fuel h3 cost3).2)
    else (some cost, [])

/-- Embedding of `dijkstra_helper` together with the list of the iterations of its main
loop. -/
def dijkstra_helper_traced (fuel : Nat) (m0 : Mem) (v0 : Nat → Vertex) (d : Dungeon)
    (cost : Nat → Int) (diagonal : Bool) (type : Dijkstra_T) :
    Option (Nat → Int) × List Visit :=
  match dijkstra_init d cost type (List.range (d.height - 2))
      { h := new_heap m0 true, dijkstra := v0 } with
  | none => (none, [])
  | some s => dijkstra_loop_traced d s.dijkstra diagonal type fuel s.h cost

/-! ### The listing does not change what is computed -/

theorem check_neighbor_traced_fst (h : Heap) (d : Dungeon) (dijkstra : Nat → Vertex)
    (cost : Nat → Int) (v : Vertex) (y_dir x_dir : Int) (type : Dijkstra_T) :
    (check_neighbor_traced h d dijkstra cost v y_dir x_dir type).1 =
      check_neighbor h d dijkstra cost v y_dir x_dir type := by
  unfold check_neighbor_traced check_neighbor
  split
  · rfl
  · split
    · rfl
    · split
      · rfl
      · split
        · rfl
        · split
          · rfl
          · split
            · rfl
            · simp only
              cases heap_decrease_key h (DIJKSTRA d (v.y + y_dir) (v.x + x_dir))
                (setCost cost (COST_TRANSLATE d (v.y + y_dir) (v.x + x_dir))
                  (add32 (cost (COST_TRANSLATE d v.y v.x))
                    (dijkstra (DIJKSTRA d (v.y + y_dir) (v.x + x_dir))).cost)
                  (COST_TRANSLATE d (v.y + y_dir) (v.x + x_dir))) <;> rfl

theorem scan_traced_cons (d : Dungeon) (dijkstra : Nat → Vertex) (v : Vertex)
    (type : Dijkstra_T) (p : Int × Int) (ds : List (Int × Int)) (h : Heap) (cost : Nat → Int) :
    (scan_traced d dijkstra v type (p :: ds) h cost).1 =
      match check_neighbor h d dijkstra cost v p.1 p.2 type with
      | none => none
      | some (h1, c1) => (scan_traced d dijkstra v type ds h1 c1).1 := by
  rw [← check_neighbor_traced_fst]
  simp only [scan_traced]
  rcases check_neighbor_traced h d dijkstra cost v p.1 p.2 type with ⟨_ | ⟨h1, c1⟩, l⟩ <;> rfl

theorem check_neighbors_traced_fst (h : Heap) (d : Dungeon) (dijkstra : Nat → Vertex)
    (cost : Nat → Int) (v : Vertex) (diagonal : Bool) (type : Dijkstra_T) :
    (check_neighbors_traced h d dijkstra cost v diagonal type).1 =
      check_neighbors h d dijkstra cost v diagonal type := by
  unfold check_neighbors_traced check_neighbors directions
  cases diagonal with
  | false =>
    simp only [Bool.false_eq_true, if_false, List.append_nil, scan_traced_cons]
    cases check_neighbor h d dijkstra cost v (-1) 0 type with
    | none => rfl
    | some r1 =>
      obtain ⟨h1, c1⟩ := r1
      simp only
      cases check_neighbor h1 d dijkstra c1 v 1 0 type with
      | none => rfl
      | some r2 =>
        obtain ⟨h2, c2⟩ := r2
        simp only
        cases check_neighbor h2 d dijkstra c2 v 0 (-1) type with
        | none => rfl
        | some r3 =>
          obtain ⟨h3, c3⟩ := r3
          simp only
          cases check_neighbor h3 d dijkstra c3 v 0 1 type with
          | none => rfl
          | some r4 =>
            obtain ⟨h4, c4⟩ := r4
            rfl
  | true =>
    simp only [if_true, List.cons_append, List.nil_append, scan_traced_cons]
    cases check_neighbor h d dijkstra cost v (-1) 0 type with
    | none => rfl
    | some r1 =>
      obtain ⟨h1, c1⟩ := r1
      simp only
      cases check_neighbor h1 d dijkstra c1 v 1 0 type with
      | none => rfl
      | some r2 =>
        obtain ⟨h2, c2⟩ := r2
        simp only
        cases check_neighbor h2 d dijkstra c2 v 0 (-1) type with
        | none => rfl
        | some r3 =>
          obtain ⟨h3, c3⟩ := r3
          simp only
          cases check_neighbor h3 d dijkstra c3 v 0 1 type with
          | none => rfl
          | some r4 =>
            obtain ⟨h4, c4⟩ := r4
            simp only
            cases check_neighbor h4 d dijkstra c4 v (-1) (-1) type with
            | none => rfl
            | some r5 =>
              obtain ⟨h5, c5⟩ := r5
              simp only
              cases check_neighbor h5 d dijkstra c5 v (-1) 1 type with
              | none => rfl
              | some r6 =>
                obtain ⟨h6, c6⟩ := r6
                simp only
                cases check_neighbor h6 d dijkstra c6 v 1 (-1) type with
                | none => rfl
                | some r7 =>
                  obtain ⟨h7, c7⟩ := r7
                  simp only
                  cases check_neighbor h7 d dijkstra c7 v 1 1 type with
                  | none => rfl
                  | some r8 =>
                    obtain ⟨h8, c8⟩ := r8
                    rfl

theorem dijkstra_loop_traced_fst (d : Dungeon) (dijkstra : Nat → Vertex) (diagonal : Bool)
    (type : Dijkstra_T) : ∀ (fuel : Nat) (h : Heap) (cost : Nat → Int),
    (dijkstra_loop_traced d dijkstra diagonal type fuel h cost).1 =
      dijkstra_loop d dijkstra diagonal type fuel h cost := by
  intro fuel
  induction fuel with
  | zero =>
    intro h cost
    unfold dijkstra_loop_traced dijkstra_loop
    split <;> rfl
  | succ fuel ih =>
    intro h cost
    unfold dijkstra_loop_traced dijkstra_loop
    split
    · simp only
      cases heap_remove_min (fuel + 1) h with
      | none => rfl
      | some r1 =>
        obtain ⟨r, h1⟩ := r1
        cases r with
        | none => rfl
        | some r =>
          simp only
          cases h1.mem.data r with
          | none => rfl
          | some vi =>
            simp only
            split
            · exact ih _ _
            · rw [← check_neighbors_traced_fst]
              rcases check_neighbors_traced { h1 with mem := h1.mem.setData vi none } d dijkstra
                cost (dijkstra vi) diagonal type with ⟨_ | ⟨h3, c3⟩, l⟩
              · rfl
              · exact ih _ _
    · rfl

theorem dijkstra_helper_traced_fst (fuel : Nat) (m0 : Mem) (v0 : Nat → Vertex) (d : Dungeon)
    (cost : Nat → Int) (diagonal : Bool) (type : Dijkstra_T) :
    (dijkstra_helper_traced fuel m0 v0 d cost diagonal type).1 =
      dijkstra_helper fuel m0 v0 d cost diagonal type := by
  unfold dijkstra_helper_traced dijkstra_helper
  cases dijkstra_init d cost type (List.range (d.height - 2))
      { h := new_heap m0 true, dijkstra := v0 } with
  | none => rfl
  | some s => exact dijkstra_loop_traced_fst _ _ _ _ _ _ _

/-! ### The calls of `heap_decrease_key` -/

/-- A call of `heap_decrease_key` made while the neighbours of a vertex of cost `L` are
scanned is sound: the node is in the heap, the key passed is below the key of the node and
is the 32-bit sum of `L` and the finite weight of the node; under the side conditions of
the shortest-path invariant the sum does not leave the range of `int`. -/
structure CallOk (d : Dungeon) (type : Dijkstra_T) (dijkstra : Nat → Vertex)
    (cost0 : Nat → Int) (L : Int) (c : Decrease) : Prop where
  inheap : InHeap c.h c.n
  lt : c.key < c.h.mem.key c.n
  key : c.key = add32 c.self c.weight
  self : c.self = L
  weight : c.weight = (dijkstra c.n).cost ∧ c.weight ≠ INT_MAX ∧
    ∃ y x, InB d y x ∧ c.n = DIJKSTRA d y x ∧ c.weight = cost_function type d y x
  range : Hyp d type cost0 →
    -2147483648 ≤ c.self + c.weight ∧ c.self + c.weight ≤ 2147483647

/-- The calls of `heap_decrease_key` of one `check_neighbor` call from the off-heap vertex
`(y, x)`. -/
theorem check_neighbor_traced_calls {d : Dungeon} {type : Dijkstra_T} {diagonal : Bool}
    {dijkstra : Nat → Vertex} {cost0 : Nat → Int} {y x : Int} {k : Nat} {L : Int}
    {ds : List (Int × Int)} {h : Heap} {cost : Nat → Int} {t : PTree}
    (mi : MInv d type diagonal dijkstra cost0 y x k L ds h cost t)
    (hu : InB d y x) (hL : L ≠ INT_MAX)
    (hk : Hyp d type cost0 → L + 7 ≤ 7 * (k : Int)) (dy dx : Int) :
    ∀ c ∈ (check_neighbor_traced h d dijkstra cost (dijkstra (DIJKSTRA d y x)) dy dx type).2,
      CallOk d type dijkstra cost0 L c := by
  have inv := mi.linv
  have hv := inv.verts y x hu
  intro c hc
  unfold check_neighbor_traced at hc
  rw [hv] at hc
  simp only at hc
  by_cases c1 : y + dy < 0 ∨ (d.height : Int) - 3 < y + dy
  · rw [if_pos c1] at hc; simp at hc
  rw [if_neg c1] at hc
  by_cases c2 : x + dx < 0 ∨ (d.width : Int) - 3 < x + dx
  · rw [if_pos c2] at hc; simp at hc
  rw [if_neg c2] at hc
  have hn : InB d (y + dy) (x + dx) := by unfold InB; omega
  have hn1 : InB d (y + dy) x := by unfold InB at hu hn ⊢; omega
  have hn2 : InB d y (x + dx) := by unfold InB at hu hn ⊢; omega
  by_cases c3 : h.mem.data (DIJKSTRA d (y + dy) (x + dx)) = none
  · rw [if_pos c3] at hc; simp at hc
  rw [if_neg c3] at hc
  have hmem : DIJKSTRA d (y + dy) (x + dx) ∈ t.addrs := by
    by_contra hcon
    exact c3 (inv.off _ _ hn hcon)
  have hvn := inv.verts _ _ hn
  rw [hvn, inv.verts _ _ hn1, inv.verts _ _ hn2] at hc
  simp only at hc
  by_cases c4 : cost_function type d (y + dy) (x + dx) = INT_MAX
  · rw [if_pos c4] at hc; simp at hc
  rw [if_neg c4] at hc
  by_cases c5 : type = .REGULAR_MAP ∧ cost_function type d (y + dy) x = INT_MAX ∧
      cost_function type d y (x + dx) = INT_MAX
  · rw [if_pos c5] at hc; simp at hc
  rw [if_neg c5] at hc
  by_cases c6 : cost (COST_TRANSLATE d (y + dy) (x + dx)) ≤
      add32 (cost (COST_TRANSLATE d y x)) (cost_function type d (y + dy) (x + dx))
  · rw [if_pos c6] at hc; simp at hc
  rw [if_neg c6] at hc
  simp only [List.mem_singleton] at hc
  have hkey := inv.key _ _ hn hmem
  have hsc : setCost cost (COST_TRANSLATE d (y + dy) (x + dx))
      (add32 (cost (COST_TRANSLATE d y x)) (cost_function type d (y + dy) (x + dx)))
      (COST_TRANSLATE d (y + dy) (x + dx)) =
      add32 (cost (COST_TRANSLATE d y x)) (cost_function type d (y + dy) (x + dx)) := by
    simp [setCost]
  rw [hsc] at hc
  subst hc
  refine ⟨(inv.wf.inHeap_iff _).mpr hmem, ?_, rfl, mi.cu, ⟨?_, c4, _, _, hn, rfl, rfl⟩, ?_⟩
  · show add32 _ _ < h.mem.key _
    rw [hkey.1]
    exact not_le.mp c6
  · show cost_function type d (y + dy) (x + dx) = (dijkstra (DIJKSTRA d (y + dy) (x + dx))).cost
    rw [hvn]
  · intro hyp
    show -2147483648 ≤ cost (COST_TRANSLATE d y x) + cost_function type d (y + dy) (x + dx) ∧
      cost (COST_TRANSLATE d y x) + cost_function type d (y + dy) (x + dx) ≤ 2147483647
    have hw := hyp.wpos _ _ hn c4
    have hL0 := ((mi.dinv hyp).bound y x hu (by rw [mi.cu]; exact hL)).1
    have hkb : 7 * (k : Int) < INT_MAX := by
      have h1 := (mi.dinv hyp).cnt
      have h2 := hyp.small
      have : (k : Int) ≤ (((d.height - 2) * (d.width - 2) : Nat) : Int) := by
        exact_mod_cast (by omega : k ≤ (d.height - 2) * (d.width - 2))
      omega
    have hk2 := hk hyp
    rw [mi.cu] at hL0 ⊢
    unfold INT_MAX at hkb
    omega

/-- One step of the scan, with what it does to the heap content and the cost array. -/
theorem check_neighbor_scan_step {d : Dungeon} {type : Dijkstra_T} {diagonal : Bool}
    {dijkstra : Nat → Vertex} {cost0 : Nat → Int} {y x : Int} {k : Nat} {L : Int}
    {ds : List (Int × Int)} {h : Heap} {cost : Nat → Int} {t : PTree}
    (mi : MInv d type diagonal dijkstra cost0 y x k L ds h cost t)
    (hu : InB d y x) (hue : Enq type d y x) (hL : L ≠ INT_MAX)
    (hk : Hyp d type cost0 → L + 7 ≤ 7 * (k : Int)) (dy dx : Int)
    (hdir : Dir diagonal dy dx) :
    ∃ h2 cost2 t2, check_neighbor h d dijkstra cost (dijkstra (DIJKSTRA d y x)) dy dx type =
        some (h2, cost2) ∧
      MInv d type diagonal dijkstra cost0 y x k L ((dy, dx) :: ds) h2 cost2 t2 ∧
      h2.size = h.size ∧ t2.addrs.Perm t.addrs ∧
      (∀ y2 x2, InB d y2 x2 → DIJKSTRA d y2 x2 ∉ t.addrs →
        cost2 (COST_TRANSLATE d y2 x2) = cost (COST_TRANSLATE d y2 x2)) := by
  obtain ⟨h2, cost2, t2, he, linv2, hperm, hsz, hle, hrel, hch⟩ :=
    check_neighbor_spec mi.linv hu dy dx
  have hmem : ∀ a, a ∈ t2.addrs ↔ a ∈ t.addrs := fun a => hperm.mem_iff
  have hfr : ∀ y2 x2, InB d y2 x2 → DIJKSTRA d y2 x2 ∉ t.addrs →
      cost2 (COST_TRANSLATE d y2 x2) = cost (COST_TRANSLATE d y2 x2) := by
    intro y2 x2 hb ho
    by_contra hne
    obtain ⟨hr, hm, hi, _⟩ := hch _ hne
    obtain ⟨e1, e2⟩ := COST_TRANSLATE_inj hb hr.1 hi
    rw [e1, e2] at ho
    exact ho hm
  have hcu2 : cost2 (COST_TRANSLATE d y x) = cost (COST_TRANSLATE d y x) := hfr y x hu mi.huo
  refine ⟨h2, cost2, t2, he, ⟨linv2, fun e => mi.huo ((hmem _).mp e), by rw [hcu2, mi.cu],
    ?_, ?_⟩, hsz, hperm, hfr⟩
  · intro hyp
    exact check_neighbor_DInv hyp (mi.dinv hyp) hu hue mi.huo mi.cu hL (hk hyp) hdir hperm hle hch
  · intro hyp p hp hr hm
    simp only [List.mem_cons] at hp
    rcases hp with rfl | hp
    · simp only at hr hm ⊢
      have h1 := hrel hr ((hmem _).mp hm)
      have hw := hyp.wpos _ _ hr.1 hr.2.1
      have hL0 := ((mi.dinv hyp).bound y x hu (by rw [mi.cu]; exact hL)).1
      have hkb : 7 * (k : Int) < INT_MAX := by
        have h1 := (mi.dinv hyp).cnt
        have h2 := hyp.small
        have : (k : Int) ≤ (((d.height - 2) * (d.width - 2) : Nat) : Int) := by
          exact_mod_cast (by omega : k ≤ (d.height - 2) * (d.width - 2))
        omega
      have hk2 := hk hyp
      rw [mi.cu] at h1 hL0
      unfold INT_MAX at hkb
      rw [add32_eq (by omega) (by omega)] at h1
      exact h1
    · exact le_trans (hle _) (mi.rel hyp p hp hr ((hmem _).mp hm))

/-- The scan of the neighbours of the extracted vertex `(y, x)` in the directions `ds`. -/
theorem scan_traced_spec {d : Dungeon} {type : Dijkstra_T} {diagonal : Bool}
    {dijkstra : Nat → Vertex} {cost0 : Nat → Int} {y x : Int} {k : Nat} {L : Int}
    (hu : InB d y x) (hue : Enq type d y x) (hL : L ≠ INT_MAX)
    (hk : Hyp d type cost0 → L + 7 ≤ 7 * (k : Int)) :
    ∀ (ds ds0 : List (Int × Int)) (h : Heap) (cost : Nat → Int) (t : PTree),
    MInv d type diagonal dijkstra cost0 y x k L ds0 h cost t →
    (∀ p ∈ ds, Dir diagonal p.1 p.2) →
    ∃ h2 cost2 t2 l,
      scan_traced d dijkstra (dijkstra (DIJKSTRA d y x)) type ds h cost = (some (h2, cost2), l) ∧
      MInv d type diagonal dijkstra cost0 y x k L (ds.reverse ++ ds0) h2 cost2 t2 ∧
      h2.size = h.size ∧ t2.addrs.Perm t.addrs ∧
      (∀ y2 x2, InB d y2 x2 → DIJKSTRA d y2 x2 ∉ t.addrs →
        cost2 (COST_TRANSLATE d y2 x2) = cost (COST_TRANSLATE d y2 x2)) ∧
      ∀ c ∈ l, CallOk d type dijkstra cost0 L c
  | [], ds0, h, cost, t, mi, _ =>
    ⟨h, cost, t, [], rfl, by simpa using mi, rfl, List.Perm.refl _, fun _ _ _ _ => rfl,
      fun c hc => by simp at hc⟩
  | p :: ds, ds0, h, cost, t, mi, hd => by
    have hdir := hd p (List.mem_cons_self _ _)
    obtain ⟨h1, c1, t1, e1, m1, s1, hperm1, hfr1⟩ :=
      check_neighbor_scan_step mi hu hue hL hk p.1 p.2 hdir
    have hcalls := check_neighbor_traced_calls mi hu hL hk p.1 p.2
    obtain ⟨h2, c2, t2, l2, e2, m2, s2, hperm2, hfr2, hc2⟩ :=
      scan_traced_spec hu hue hL hk ds (p :: ds0) h1 c1 t1 m1
        (fun q hq => hd q (List.mem_cons_of_mem _ hq))
    have e1t := check_neighbor_traced_fst h d dijkstra cost (dijkstra (DIJKSTRA d y x)) p.1 p.2
      type
    rw [e1] at e1t
    refine ⟨h2, c2, t2,
      (check_neighbor_traced h d dijkstra cost (dijkstra (DIJKSTRA d y x)) p.1 p.2 type).2 ++ l2,
      ?_, ?_, by rw [s2, s1], hperm2.trans hperm1, ?_, ?_⟩
    · simp only [scan_traced]
      rcases hct : check_neighbor_traced h d dijkstra cost (dijkstra (DIJKSTRA d y x)) p.1 p.2
        type with ⟨r, l⟩
      rw [hct] at e1t
      simp only at e1t
      subst e1t
      simp only [e2]
    · simpa using m2
    · intro y2 x2 hb ho
      rw [hfr2 y2 x2 hb (fun e => ho (hperm1.mem_iff.mp e)), hfr1 y2 x2 hb ho]
    · intro c hc
      rcases List.mem_append.mp hc with hc | hc
      · exact hcalls c hc
      · exact hc2 c hc

theorem Dir_directions (diagonal : Bool) : ∀ p ∈ directions diagonal, Dir diagonal p.1 p.2 := by
  intro p hp
  unfold directions at hp
  unfold Dir
  cases diagonal <;> simp at hp <;> rcases hp with rfl | rfl | rfl | rfl | hp <;> simp
  all_goals rcases hp with rfl | rfl | rfl | rfl <;> simp

theorem mem_directions {diagonal : Bool} {dy dx : Int} (h : Dir diagonal dy dx) :
    (dy, dx) ∈ directions diagonal := by
  unfold directions
  rcases h with ⟨rfl, rfl⟩ | ⟨rfl, rfl⟩ | ⟨rfl, rfl⟩ | ⟨rfl, rfl⟩ | ⟨hd, h⟩
  · simp
  · simp
  · simp
  · simp
  · subst hd
    rcases h with ⟨rfl, rfl⟩ | ⟨rfl, rfl⟩ | ⟨rfl, rfl⟩ | ⟨rfl, rfl⟩ <;> simp

/-! ### The list of iterations -/

/-- The entry of the cost array that belongs to the vertex extracted in an iteration. -/
def Visit.entry (d : Dungeon) (dijkstra : Nat → Vertex) (r : Visit) : Nat :=
  COST_TRANSLATE d (dijkstra r.v).y (dijkstra r.v).x

/-- The cost arrays of consecutive iterations fit together: the first iteration starts
from `cost`, each one from what the one before leaves, and the last one leaves `D`. -/
def Chained : (Nat → Int) → List Visit → (Nat → Int) → Prop
  | cost, [], D => D = cost
  | cost, r :: rest, D => r.before = cost ∧ Chained r.after rest D

/-- Every extracted vertex is settled: after its iteration the heap holds exactly the
vertices of the later iterations, and the cost of the vertex is the same at the end of its
iteration, throughout all later iterations and in the result `D` as it was at the
extraction. -/
def Settled (d : Dungeon) (dijkstra : Nat → Vertex) : List Visit → (Nat → Int) → Prop
  | [], _ => True
  | r :: rest, D =>
    (∀ a, InHeap r.h a ↔ a ∈ rest.map Visit.v) ∧
    r.after (r.entry d dijkstra) = r.before (r.entry d dijkstra) ∧
    (∀ r2 ∈ rest, r2.before (r.entry d dijkstra) = r.before (r.entry d dijkstra) ∧
      r2.after (r.entry d dijkstra) = r.before (r.entry d dijkstra)) ∧
    D (r.entry d dijkstra) = r.before (r.entry d dijkstra) ∧ Settled d dijkstra rest D

/-- What holds of the list of iterations `log` of the main loop started with the heap
content `t` and the cost array `cost`, `D` being the result. -/
structure LogOk (d : Dungeon) (type : Dijkstra_T) (dijkstra : Nat → Vertex)
    (cost0 : Nat → Int) (t : PTree) (cost : Nat → Int) (log : List Visit) (D : Nat → Int) :
    Prop where
  perm : (log.map Visit.v).Perm t.addrs
  frame : ∀ y x, InB d y x → DIJKSTRA d y x ∉ t.addrs →
    D (COST_TRANSLATE d y x) = cost (COST_TRANSLATE d y x) ∧
    ∀ r ∈ log, r.before (COST_TRANSLATE d y x) = cost (COST_TRANSLATE d y x) ∧
      r.after (COST_TRANSLATE d y x) = cost (COST_TRANSLATE d y x)
  settled : Settled d dijkstra log D
  inf : ∀ r ∈ log, r.before (r.entry d dijkstra) = INT_MAX → r.calls = [] ∧ r.after = r.before
  calls : ∀ r ∈ log, ∀ c ∈ r.calls,
    CallOk d type dijkstra cost0 (r.before (r.entry d dijkstra)) c
  chain : Chained cost log D

/-- Specification of the main loop with its list of iterations. -/
theorem dijkstra_loop_traced_spec {d : Dungeon} {type : Dijkstra_T} {diagonal : Bool}
    {dijkstra : Nat → Vertex} {cost0 : Nat → Int} : ∀ (fuel : Nat) (h : Heap)
    (cost : Nat → Int) (t : PTree) (k : Nat) (L : Int),
    LInv d type dijkstra cost0 h cost t →
    (Hyp d type cost0 → DInv d type diagonal cost0 none k L cost t) →
    t.addrs.length ≤ fuel →
    ∃ D log, dijkstra_loop_traced d dijkstra diagonal type fuel h cost = (some D, log) ∧
      LogOk d type dijkstra cost0 t cost log D := by
  intro fuel
  induction fuel with
  | zero =>
    intro h cost t k L inv dinv hf
    have ht : t = .nil := by
      cases t with
      | nil => rfl
      | node a c n => simp [PTree.addrs] at hf
    subst ht
    have hs : h.size = 0 := by rw [inv.wf.size]; simp [PTree.addrs]
    refine ⟨cost, [], ?_, ⟨by simp [PTree.addrs], fun _ _ _ _ => ⟨rfl, fun r hr => by simp at hr⟩,
      trivial, fun r hr => by simp at hr, fun r hr => by simp at hr, rfl⟩⟩
    unfold dijkstra_loop_traced
    simp [hs]
  | succ fuel ih =>
    intro h cost t k L inv dinv hf
    rcases inv.wf.top with ht | ⟨r, c, ht⟩
    · subst ht
      have hs : h.size = 0 := by rw [inv.wf.size]; simp [PTree.addrs]
      refine ⟨cost, [], ?_, ⟨by simp [PTree.addrs],
        fun _ _ _ _ => ⟨rfl, fun r hr => by simp at hr⟩,
        trivial, fun r hr => by simp at hr, fun r hr => by simp at hr, rfl⟩⟩
      unfold dijkstra_loop_traced
      simp [hs]
    · subst ht
      have hs : h.size > 0 := by
        rw [inv.wf.size]; simp only [PTree.addrs, List.length_cons]; push_cast; omega
      have hfc : c.addrs.length ≤ fuel := by
        simp only [PTree.addrs, List.length_cons, List.length_append, List.length_nil] at hf
        omega
      obtain ⟨h1, he1, w1, _, hk1, hd1, _, _⟩ :=
        @heap_remove_min_wf h r c (fuel + 1) inv.wf (by omega)
      have hperm := meldTree_perm h.mem.key c
      have hrt : r ∈ (PTree.node r c .nil).addrs := by simp [PTree.addrs]
      obtain ⟨yr, xr, hb, hr, hen⟩ := inv.mem r hrt
      have hkr := inv.key yr xr hb (hr ▸ hrt)
      have hnd : (r :: c.addrs).Nodup := by simpa [PTree.addrs] using inv.wf.nodup
      have hrc : r ∉ c.addrs := (List.nodup_cons.mp hnd).1
      have hdata : h1.mem.data r = some r := by rw [hd1, hr]; rw [← hr] at hkr ⊢; exact hr ▸ hkr.2
      have hvert := inv.verts yr xr hb
      rw [← hr] at hvert
      have inv2 : LInv d type dijkstra cost0 { h1 with mem := h1.mem.setData r none } cost
          (meldTree h.mem.key c) := by
        refine ⟨WF_setData w1 r none, inv.verts, ?_, ?_, ?_, inv.mono, inv.frame⟩
        · intro a ha
          exact inv.mem a (by simp [PTree.addrs, hperm.mem_iff.mp ha])
        · intro y x hyx hm
          have hmc := hperm.mem_iff.mp hm
          have hne : DIJKSTRA d y x ≠ r := fun e => hrc (e ▸ hmc)
          have := inv.key y x hyx (by simp [PTree.addrs, hmc])
          simp only [data_setData, key_setData, hne, if_false, hk1, hd1]
          exact this
        · intro y x hyx hm
          by_cases hne : DIJKSTRA d y x = r
          · simp [hne]
          · simp only [data_setData, hne, if_false, hd1]
            refine inv.off y x hyx ?_
            simp only [PTree.addrs, List.mem_cons, List.mem_append, List.not_mem_nil, or_false]
            rintro (e | e)
            · exact hne e
            · exact hm (hperm.mem_iff.mpr e)
      have hro : DIJKSTRA d yr xr ∉ (meldTree h.mem.key c).addrs := by
        rw [← hr]; exact fun e => hrc (hperm.mem_iff.mp e)
      have dinv2 : Hyp d type cost0 → DInv d type diagonal cost0 (some (yr, xr)) (k + 1)
          (cost (COST_TRANSLATE d yr xr)) cost (meldTree h.mem.key c) :=
        fun hyp => extract_DInv inv (dinv hyp) hb hr hperm
      have hlen : (meldTree h.mem.key c).addrs.length ≤ fuel := by
        rw [hperm.length_eq]; exact hfc
      have hent : ∀ (cs : List Decrease) (a b : Nat → Int) (g : Heap),
          (Visit.mk r a cs b g).entry d dijkstra = COST_TRANSLATE d yr xr := by
        intro cs a b g
        simp only [Visit.entry, hvert]
      have hsub : ∀ y x, DIJKSTRA d y x ∉ (PTree.node r c .nil).addrs →
          DIJKSTRA d y x ∉ (meldTree h.mem.key c).addrs := by
        intro y x ho hm
        exact ho (by simp [PTree.addrs, hperm.mem_iff.mp hm])
      unfold dijkstra_loop_traced
      simp only [hs, if_true, he1, hdata, hvert]
      by_cases hinf : cost (COST_TRANSLATE d yr xr) = INT_MAX
      · rw [if_pos hinf]
        obtain ⟨D, log, e, ok⟩ := ih _ cost _ (k + 1) (cost (COST_TRANSLATE d yr xr)) inv2
          (fun hyp => close_DInv (dinv2 hyp) (fun hf => absurd hinf hf)) hlen
        rw [e]
        refine ⟨D, _, rfl, ⟨?_, ?_, ?_, ?_, ?_, ?_⟩⟩
        · simp only [List.map_cons, PTree.addrs, List.append_nil]
          exact (ok.perm.trans hperm).cons r
        · intro y x hyx ho
          obtain ⟨f1, f2⟩ := ok.frame y x hyx (hsub y x ho)
          refine ⟨f1, ?_⟩
          intro r2 hr2
          rcases List.mem_cons.mp hr2 with e2 | hr2
          · subst e2; exact ⟨rfl, rfl⟩
          · exact f2 r2 hr2
        · obtain ⟨f1, f2⟩ := ok.frame yr xr hb hro
          refine ⟨?_, ?_, ?_, ?_, ok.settled⟩
          · intro a
            show InHeap { h1 with mem := h1.mem.setData r none } a ↔ _
            rw [inv2.wf.inHeap_iff, ← ok.perm.mem_iff]
          · rfl
          · intro r2 hr2
            rw [hent]
            exact f2 r2 hr2
          · rw [hent]; exact f1
        · intro r2 hr2 _
          rcases List.mem_cons.mp hr2 with e2 | hr2
          · subst e2; exact ⟨rfl, rfl⟩
          · exact ok.inf r2 hr2 (by assumption)
        · intro r2 hr2
          rcases List.mem_cons.mp hr2 with e2 | hr2
          · subst e2; intro c hc; simp at hc
          · exact ok.calls r2 hr2
        · exact ⟨rfl, ok.chain⟩
      · rw [if_neg hinf]
        have mi : MInv d type diagonal dijkstra cost0 yr xr (k + 1)
            (cost (COST_TRANSLATE d yr xr)) [] { h1 with mem := h1.mem.setData r none } cost
            (meldTree h.mem.key c) :=
          ⟨inv2, hro, rfl, dinv2, fun _ p hp => by simp at hp⟩
        have hkb : Hyp d type cost0 →
            cost (COST_TRANSLATE d yr xr) + 7 ≤ 7 * ((k + 1 : Nat) : Int) := by
          intro hyp
          have := ((dinv hyp).bound yr xr hb hinf).2
          push_cast
          omega
        obtain ⟨h3, cost3, t3, l, e3, m3, _, hperm3, hfr3, hc3⟩ :=
          scan_traced_spec hb hen hinf hkb (directions diagonal) [] _ cost _ mi
            (Dir_directions diagonal)
        rw [← hr] at e3
        rw [hvert] at e3
        unfold check_neighbors_traced
        rw [e3]
        simp only
        have hlen3 : t3.addrs.length ≤ fuel := by rw [hperm3.length_eq]; exact hlen
        obtain ⟨D, log, e, ok⟩ := ih h3 cost3 t3 (k + 1) (cost (COST_TRANSLATE d yr xr)) m3.linv
          (by
            intro hyp
            refine close_DInv (m3.dinv hyp) ?_
            intro hf dy dx hd hrel
            rw [m3.cu]
            by_cases hm : DIJKSTRA d (yr + dy) (xr + dx) ∈ t3.addrs
            · exact m3.rel hyp (dy, dx) (by simpa using mem_directions hd) hrel hm
            · have hw := hyp.wpos _ _ hrel.1 hrel.2.1
              have := (m3.dinv hyp).hi _ _ hrel.1 (enq_of_finite hrel.2.1) hm
              omega) hlen3
        rw [e]
        have hsub3 : ∀ y x, DIJKSTRA d y x ∉ (PTree.node r c .nil).addrs →
            DIJKSTRA d y x ∉ t3.addrs :=
          fun y x ho hm => hsub y x ho (hperm3.mem_iff.mp hm)
        refine ⟨D, _, rfl, ⟨?_, ?_, ?_, ?_, ?_, ?_⟩⟩
        · simp only [List.map_cons, PTree.addrs, List.append_nil]
          exact ((ok.perm.trans hperm3).trans hperm).cons r
        · intro y x hyx ho
          obtain ⟨f1, f2⟩ := ok.frame y x hyx (hsub3 y x ho)
          have f3 := hfr3 y x hyx (hsub y x ho)
          refine ⟨f1.trans f3, ?_⟩
          intro r2 hr2
          rcases List.mem_cons.mp hr2 with e2 | hr2
          · subst e2; exact ⟨rfl, f3⟩
          · exact ⟨(f2 r2 hr2).1.trans f3, (f2 r2 hr2).2.trans f3⟩
        · obtain ⟨f1, f2⟩ := ok.frame yr xr hb m3.huo
          have f3 := hfr3 yr xr hb hro
          refine ⟨?_, ?_, ?_, ?_, ok.settled⟩
          · intro a
            rw [m3.linv.wf.inHeap_iff, ← ok.perm.mem_iff]
          · rw [hent]; exact f3
          · intro r2 hr2
            rw [hent]
            exact ⟨(f2 r2 hr2).1.trans f3, (f2 r2 hr2).2.trans f3⟩
          · rw [hent]; exact f1.trans f3
        · intro r2 hr2 hi
          rcases List.mem_cons.mp hr2 with e2 | hr2
          · subst e2
            rw [hent] at hi
            exact absurd hi hinf
          · exact ok.inf r2 hr2 hi
        · intro r2 hr2
          rcases List.mem_cons.mp hr2 with e2 | hr2
          · subst e2
            rw [hent]
            exact hc3
          · exact ok.calls r2 hr2
        · exact ⟨rfl, ok.chain⟩

/-- The facts of `Settled` for an iteration anywhere in the list. -/
theorem Settled.split {d : Dungeon} {dijkstra : Nat → Vertex} {D : Nat → Int} :
    ∀ (l1 : List Visit) (log : List Visit), Settled d dijkstra log D →
    ∀ (r : Visit) (l2 : List Visit), log = l1 ++ r :: l2 →
    (∀ a, InHeap r.h a ↔ a ∈ l2.map Visit.v) ∧
    (∀ r2 ∈ r :: l2, r2.after (r.entry d dijkstra) = r.before (r.entry d dijkstra)) ∧
    (∀ r2 ∈ l2, r2.before (r.entry d dijkstra) = r.before (r.entry d dijkstra)) ∧
    D (r.entry d dijkstra) = r.before (r.entry d dijkstra)
  | [], log, hs, r, l2, e => by
    subst e
    obtain ⟨a1, a2, a3, a4, _⟩ := hs
    refine ⟨a1, ?_, fun r2 hr2 => (a3 r2 hr2).1, a4⟩
    intro r2 hr2
    rcases List.mem_cons.mp hr2 with e2 | hr2
    · subst e2; exact a2
    · exact (a3 r2 hr2).2
  | q :: l1, log, hs, r, l2, e => by
    subst e
    exact Settled.split l1 _ hs.2.2.2.2 r l2 rfl

/-- The state the set-up loops of `dijkstra_helper` leave: the heap holds exactly the
vertices they enqueue and the invariants of the main loop hold. -/
theorem dijkstra_init_state (m0 : Mem) (v0 : Nat → Vertex) (d : Dungeon) (cost : Nat → Int)
    (diagonal : Bool) (type : Dijkstra_T) :
    ∃ s t, dijkstra_init d cost type (List.range (d.height - 2))
        { h := new_heap m0 true, dijkstra := v0 } = some s ∧
      LInv d type s.dijkstra cost s.h cost t ∧
      (Hyp d type cost → DInv d type diagonal cost none 0 0 cost t) ∧
      t.addrs.length ≤ (d.height - 2) * (d.width - 2) ∧
      (∀ a, a ∈ t.addrs ↔ ∃ y x, InB d y x ∧ Enq type d y x ∧ a = DIJKSTRA d y x) := by
  have inv0 : IInv d type cost [] { h := new_heap m0 true, dijkstra := v0 } .nil :=
    ⟨new_heap_wf m0 true, rfl, fun p hp => by simp at hp,
      fun a ha => by simp [PTree.addrs] at ha, fun p hp => by simp at hp,
      by simp [PTree.addrs]⟩
  obtain ⟨s, t, S, e1, inv, hmS, hlS⟩ := dijkstra_init_spec (List.range (d.height - 2)) []
    { h := new_heap m0 true, dijkstra := v0 } .nil inv0
    (fun i hi => by have := List.mem_range.mp hi; omega) (fun p hp => by simp at hp)
    (List.nodup_range _)
  have hall : ∀ y x, InB d y x → (y.toNat, x.toNat) ∈ S ∧ ((y.toNat : Nat) : Int) = y ∧
      ((x.toNat : Nat) : Int) = x := by
    intro y x hb
    obtain ⟨a1, a2, a3, a4⟩ := hb
    refine ⟨?_, Int.toNat_of_nonneg a1, Int.toNat_of_nonneg a3⟩
    rw [hmS]
    refine Or.inr ⟨List.mem_range.mpr ?_, ?_⟩ <;> simp only <;> omega
  have hon : ∀ y x, InB d y x → Enq type d y x → DIJKSTRA d y x ∈ t.addrs := by
    intro y x hb hen
    obtain ⟨hmS2, ey, ex⟩ := hall y x hb
    have hc := inv.cells _ hmS2
    simp only [ey, ex] at hc
    exact (hc.2.1 hen).1
  have linv : LInv d type s.dijkstra cost s.h cost t := by
    refine ⟨inv.wf, ?_, ?_, ?_, ?_, fun _ => le_refl _, fun i hi => absurd rfl hi⟩
    · intro y x hb
      obtain ⟨hm, ey, ex⟩ := hall y x hb
      have := (inv.cells _ hm).1
      simp only [ey, ex] at this
      exact this
    · intro a ha
      obtain ⟨p, hp, e, hpe⟩ := inv.mem a ha
      exact ⟨p.1, p.2, inv.inb p hp, e, hpe⟩
    · intro y x hb hm
      obtain ⟨hmS2, ey, ex⟩ := hall y x hb
      obtain ⟨p, hp, e, hpe⟩ := inv.mem _ hm
      obtain ⟨e1, e2⟩ := DIJKSTRA_inj hb (inv.inb p hp) e
      have hen : Enq type d y x := by rw [e1, e2]; exact hpe
      have := (inv.cells _ hmS2).2.1
      simp only [ey, ex] at this
      exact ⟨(this hen).2.1, (this hen).2.2⟩
    · intro y x hb hm
      obtain ⟨hmS2, ey, ex⟩ := hall y x hb
      have hc := inv.cells _ hmS2
      simp only [ey, ex] at hc
      by_cases hen : Enq type d y x
      · exact absurd (hc.2.1 hen).1 hm
      · exact hc.2.2 hen
  have hlen : t.addrs.length ≤ (d.height - 2) * (d.width - 2) := by
    have := inv.len
    simp only [List.length_nil, List.length_range, zero_add] at hlS
    omega
  refine ⟨s, t, e1, linv, ?_, hlen, ?_⟩
  · intro hyp
    refine ⟨?_, ?_, ?_, ?_, ?_, ?_⟩
    · intro y x hb _
      rcases hyp.init y x hb with h | h <;> rw [h]
      unfold INT_MAX; omega
    · intro y x hb hen ho
      exact absurd (hon y x hb hen) ho
    · intro y x hb hen ho
      exact absurd (hon y x hb hen) ho
    · intro y x _ hne
      exact absurd rfl hne
    · intro y x hb hfin
      rcases hyp.init y x hb with h | h
      · rw [h]; simp
      · exact absurd h hfin
    · simpa using hlen
  · intro a
    constructor
    · intro ha
      obtain ⟨p, hp, e, hpe⟩ := inv.mem a ha
      exact ⟨p.1, p.2, inv.inb p hp, hpe, e⟩
    · rintro ⟨y, x, hb, hen, rfl⟩
      exact hon y x hb hen

/-- The run of `dijkstra_helper` with its list of iterations. -/
theorem dijkstra_helper_traced_spec (fuel : Nat) (m0 : Mem) (v0 : Nat → Vertex) (d : Dungeon)
    (cost : Nat → Int) (diagonal : Bool) (type : Dijkstra_T)
    (hf : (d.height - 2) * (d.width - 2) ≤ fuel) :
    ∃ s t D log, dijkstra_init d cost type (List.range (d.height - 2))
        { h := new_heap m0 true, dijkstra := v0 } = some s ∧ WF s.h t ∧
      (∀ a, a ∈ t.addrs ↔ ∃ y x, InB d y x ∧ Enq type d y x ∧ a = DIJKSTRA d y x) ∧
      dijkstra_helper_traced fuel m0 v0 d cost diagonal type = (some D, log) ∧
      LogOk d type s.dijkstra cost t cost log D := by
  obtain ⟨s, t, e1, linv, dinv, hlen, hmem⟩ := dijkstra_init_state m0 v0 d cost diagonal type
  obtain ⟨D, log, e2, ok⟩ := dijkstra_loop_traced_spec fuel s.h cost t 0 0 linv dinv
    (le_trans hlen hf)
  refine ⟨s, t, D, log, e1, linv.wf, hmem, ?_, ok⟩
  simp only [dijkstra_helper_traced, e1, e2]

/-- C33: with fuel for one iteration per vertex, `dijkstra_helper` returns, for every
dungeon, policy and initial cost array. Its main loop makes exactly as many iterations as
the set-up loops enqueued vertices (the size of the heap they leave), and the vertices
extracted are exactly the enqueued ones, each once. After the iteration of a vertex the
heap holds exactly the vertices extracted later, so no vertex is ever back in the heap. An
iteration whose vertex has cost `INT_MAX` calls `heap_decrease_key` for no neighbour and
leaves the cost array as it is. The cost of an extracted vertex is the same at the end of
its iteration, before and after every later iteration and in the returned array as it was
when the vertex was extracted. -/
theorem dijkstra_helper_extracts_each_once (fuel : Nat) (m0 : Mem) (v0 : Nat → Vertex)
    (d : Dungeon) (cost : Nat → Int) (diagonal : Bool) (type : Dijkstra_T)
    (hf : (d.height - 2) * (d.width - 2) ≤ fuel) :
    ∃ s D log, dijkstra_init d cost type (List.range (d.height - 2))
        { h := new_heap m0 true, dijkstra := v0 } = some s ∧
      dijkstra_helper_traced fuel m0 v0 d cost diagonal type = (some D, log) ∧
      dijkstra_helper fuel m0 v0 d cost diagonal type = some D ∧
      (log.length : Int) = s.h.size ∧
      (log.map Visit.v).Nodup ∧
      (∀ a, a ∈ log.map Visit.v ↔ InHeap s.h a) ∧
      (∀ a, InHeap s.h a ↔ ∃ y x, InB d y x ∧ Enq type d y x ∧ a = DIJKSTRA d y x) ∧
      Chained cost log D ∧
      (∀ (l1 : List Visit) (r : Visit) (l2 : List Visit), log = l1 ++ r :: l2 →
        (∀ a, InHeap r.h a ↔ a ∈ l2.map Visit.v) ∧
        (∀ r2 ∈ r :: l2, r2.after (r.entry d s.dijkstra) = r.before (r.entry d s.dijkstra)) ∧
        (∀ r2 ∈ l2, r2.before (r.entry d s.dijkstra) = r.before (r.entry d s.dijkstra)) ∧
        D (r.entry d s.dijkstra) = r.before (r.entry d s.dijkstra)) ∧
      (∀ r ∈ log, r.before (r.entry d s.dijkstra) = INT_MAX →
        r.calls = [] ∧ r.after = r.before) := by
  obtain ⟨s, t, D, log, e1, w, hmem, e2, ok⟩ :=
    dijkstra_helper_traced_spec fuel m0 v0 d cost diagonal type hf
  refine ⟨s, D, log, e1, e2, ?_, ?_, ?_, ?_, ?_, ok.chain, ?_, ok.inf⟩
  · rw [← dijkstra_helper_traced_fst, e2]
  · rw [w.size, ← ok.perm.length_eq, List.length_map]
  · exact ok.perm.nodup_iff.mpr w.nodup
  · intro a
    rw [w.inHeap_iff, ok.perm.mem_iff]
  · intro a
    rw [w.inHeap_iff, hmem]
  · intro l1 r l2 e
    exact Settled.split l1 log ok.settled r l2 e

theorem dijkstra_helper_extracts_each_once_witness :
    (exDungeon.height - 2) * (exDungeon.width - 2) ≤ 9 ∧
    ∃ D log, dijkstra_helper_traced 9 Mem.empty exVertices exDungeon
        (setCost (fun _ => INT_MAX) (COST exDungeon 1 1) 0) true .REGULAR_MAP = (some D, log) ∧
      (log.map Visit.v).Nodup := by
  refine ⟨by decide, ?_⟩
  obtain ⟨s, D, log, _, e, _, _, hn, _⟩ := dijkstra_helper_extracts_each_once 9 Mem.empty
    exVertices exDungeon (setCost (fun _ => INT_MAX) (COST exDungeon 1 1) 0) true .REGULAR_MAP
    (by decide)
  exact ⟨D, log, e, hn⟩

/-- C40: with fuel for one iteration per vertex, `dijkstra_helper` returns, and every call
of `heap_decrease_key` that `check_neighbor` makes during the run passes a node that is in
the heap at the call and a key strictly below the key the node has at the call; the key is
the 32-bit sum of the cost the extracted vertex had at its extraction and the finite weight
of the node. When the finite weights lie in 1..7 (as they do when every hardness lies in
0..255), the initial cost array holds 0 or `INT_MAX` at every vertex and seven times the
number of vertices is below `INT_MAX` (the side conditions `Hyp`), the sum lies in the
range of `int`, so the key is the sum itself: nothing overflows. -/
theorem check_neighbor_decrease_key_sound (fuel : Nat) (m0 : Mem) (v0 : Nat → Vertex)
    (d : Dungeon) (cost : Nat → Int) (diagonal : Bool) (type : Dijkstra_T)
    (hf : (d.height - 2) * (d.width - 2) ≤ fuel) :
    ∃ s D log, dijkstra_init d cost type (List.range (d.height - 2))
        { h := new_heap m0 true, dijkstra := v0 } = some s ∧
      dijkstra_helper_traced fuel m0 v0 d cost diagonal type = (some D, log) ∧
      dijkstra_helper fuel m0 v0 d cost diagonal type = some D ∧
      ∀ r ∈ log, ∀ c ∈ r.calls,
        InHeap c.h c.n ∧ c.key < c.h.mem.key c.n ∧ c.key ≤ c.h.mem.key c.n ∧
        c.key = add32 c.self c.weight ∧
        c.self = r.before (r.entry d s.dijkstra) ∧
        c.weight = (s.dijkstra c.n).cost ∧ c.weight ≠ INT_MAX ∧
        (∃ y x, InB d y x ∧ c.n = DIJKSTRA d y x ∧ c.weight = cost_function type d y x) ∧
        (Hyp d type cost →
          -2147483648 ≤ c.self + c.weight ∧ c.self + c.weight ≤ 2147483647 ∧
          c.key = c.self + c.weight) := by
  obtain ⟨s, t, D, log, e1, w, hmem, e2, ok⟩ :=
    dijkstra_helper_traced_spec fuel m0 v0 d cost diagonal type hf
  refine ⟨s, D, log, e1, e2, by rw [← dijkstra_helper_traced_fst, e2], ?_⟩
  intro r hr c hc
  have k := ok.calls r hr c hc
  refine ⟨k.inheap, k.lt, le_of_lt k.lt, k.key, k.self, k.weight.1, k.weight.2.1,
    k.weight.2.2, ?_⟩
  intro hyp
  obtain ⟨r1, r2⟩ := k.range hyp
  exact ⟨r1, r2, by rw [k.key]; exact add32_eq r1 r2⟩

theorem check_neighbor_decrease_key_sound_witness :
    (exDungeon.height - 2) * (exDungeon.width - 2) ≤ 9 ∧
    Hyp exDungeon .TUNNEL_MAP (setCost (fun _ => INT_MAX) (COST exDungeon 1 1) 0) ∧
    ∃ D log, dijkstra_helper_traced 9 Mem.empty exVertices exDungeon
        (setCost (fun _ => INT_MAX) (COST exDungeon 1 1) 0) true .TUNNEL_MAP = (some D, log) ∧
      ∀ r ∈ log, ∀ c ∈ r.calls, InHeap c.h c.n ∧ c.key < c.h.mem.key c.n ∧
        c.key = c.self + c.weight := by
  have hyp := hyp_single (d := exDungeon) .TUNNEL_MAP 1 1 exDungeon_hardness exDungeon_small
  refine ⟨by decide, hyp, ?_⟩
  obtain ⟨s, D, log, _, e, _, hc⟩ := check_neighbor_decrease_key_sound 9 Mem.empty
    exVertices exDungeon (setCost (fun _ => INT_MAX) (COST exDungeon 1 1) 0) true .TUNNEL_MAP
    (by decide)
  exact ⟨D, log, e, fun r hr c hcm =>
    ⟨(hc r hr c hcm).1, (hc r hr c hcm).2.1, ((hc r hr c hcm).2.2.2.2.2.2.2.2 hyp).2.2⟩⟩

/-! ## Connectivity of the rooms -/

/-- The cell is an interior cell of type other than Rock. -/
def OpenAt (d : Dungeon) (p : Int × Int) : Prop :=
  Interior d p.1 p.2 ∧ (d.MAP p.1 p.2).type ≠ .ROCK

/-- A chain of orthogonally adjacent interior cells of type other than Rock joins the two
cells. -/
inductive Joined (d : Dungeon) : Int × Int → Int × Int → Prop where
  | refl (p : Int × Int) : OpenAt d p → Joined d p p
  | step (p q r : Int × Int) : OpenAt d p → Adjacent p q → Joined d q r → Joined d p r

/-- The second dungeon has the dimensions of the first and no cell of the first that is
not rock is rock in the second. -/
def Grow (d d2 : Dungeon) : Prop :=
  d2.height = d.height ∧ d2.width = d.width ∧
  ∀ y x : Int, (d.MAP y x).type ≠ .ROCK → (d2.MAP y x).type ≠ .ROCK

/-- Every cell of every recorded room has a type other than Rock. -/
def RoomsOpen (d : Dungeon_T) : Prop :=
  ∀ k < d.num_rooms, ∀ y x : Int, inRoom (d.rooms k) y x → (d.MAP y x).type ≠ .ROCK

theorem Grow.growRefl (d : Dungeon) : Grow d d := ⟨rfl, rfl, fun _ _ h => h⟩

theorem Grow.growTrans {d1 d2 d3 : Dungeon} (h1 : Grow d1 d2) (h2 : Grow d2 d3) : Grow d1 d3 :=
  ⟨h2.1.trans h1.1, h2.2.1.trans h1.2.1, fun y x h => h2.2.2 y x (h1.2.2 y x h)⟩

theorem OpenAt.openGrow {d d2 : Dungeon} {p : Int × Int} (h : OpenAt d p) (g : Grow d d2) :
    OpenAt d2 p :=
  ⟨(Interior_shape g.1 g.2.1).mpr h.1, g.2.2 _ _ h.2⟩

theorem Joined.joinedGrow {d d2 : Dungeon} {p q : Int × Int} (h : Joined d p q) (g : Grow d d2) :
    Joined d2 p q := by
  induction h with
  | refl p hp => exact Joined.refl p (hp.openGrow g)
  | step p q r hp ha _ ih => exact Joined.step p q r (hp.openGrow g) ha ih

theorem Joined.left_open {d : Dungeon} {p q : Int × Int} (h : Joined d p q) : OpenAt d p := by
  cases h with
  | refl _ hp => exact hp
  | step _ _ _ hp _ _ => exact hp

theorem Joined.right_open {d : Dungeon} {p q : Int × Int} (h : Joined d p q) : OpenAt d q := by
  induction h with
  | refl p hp => exact hp
  | step p q r _ _ _ ih => exact ih

theorem Joined.joinedTrans {d : Dungeon} {p q r : Int × Int} (h1 : Joined d p q)
    (h2 : Joined d q r) : Joined d p r := by
  induction h1 with
  | refl p _ => exact h2
  | step p q s hp ha _ ih => exact Joined.step p q r hp ha (ih h2)

theorem Adjacent.adjSymm {p q : Int × Int} (h : Adjacent p q) : Adjacent q p := by
  unfold Adjacent at h ⊢
  omega

theorem Joined.joinedSymm {d : Dungeon} {p q : Int × Int} (h : Joined d p q) : Joined d q p := by
  induction h with
  | refl p hp => exact Joined.refl p hp
  | step p q r hp ha _ ih =>
    exact ih.joinedTrans (Joined.step q p p ih.right_open ha.adjSymm (Joined.refl p hp))

/-- A chain of open cells, each next to the one before, joins its ends. -/
theorem Joined.of_chain {d : Dungeon} : ∀ (path : List (Int × Int)) (p q : Int × Int),
    List.Chain Adjacent p path → (p :: path).getLast? = some q →
    (∀ c ∈ p :: path, OpenAt d c) → Joined d p q
  | [], p, q, _, hl, ho => by
    simp only [List.getLast?_singleton, Option.some.injEq] at hl
    subst hl
    exact Joined.refl p (ho p (List.mem_cons_self _ _))
  | c :: path, p, q, hc, hl, ho => by
    rw [List.getLast?_cons_cons] at hl
    cases hc with
    | cons ha hc2 =>
      exact Joined.step p c q (ho p (List.mem_cons_self _ _)) ha
        (Joined.of_chain path c q hc2 hl (fun c2 h2 => ho c2 (List.mem_cons_of_mem _ h2)))

/-- Two joined cells are the ends of a chain of open cells, each next to the one before. -/
theorem Joined.path {d : Dungeon} {p q : Int × Int} (h : Joined d p q) :
    ∃ path : List (Int × Int), List.Chain Adjacent p path ∧ (p :: path).getLast? = some q ∧
      ∀ c ∈ p :: path, OpenAt d c := by
  induction h with
  | refl p hp =>
    refine ⟨[], List.Chain.nil, rfl, ?_⟩
    intro c hc
    rw [List.mem_singleton] at hc
    subst hc
    exact hp
  | step p q r hp ha _ ih =>
    obtain ⟨path, h1, h2, h3⟩ := ih
    refine ⟨q :: path, List.Chain.cons ha h1, ?_, ?_⟩
    · rw [List.getLast?_cons_cons]
      exact h2
    · intro c hc
      rcases List.mem_cons.mp hc with e | hc
      · subst e; exact hp
      · exact h3 c hc

/-- A run of open cells in a row joins its ends. -/
theorem joined_row {d : Dungeon} (y : Int) : ∀ (n : Nat) (x : Int),
    (∀ k : Nat, k ≤ n → OpenAt d (y, x + k)) → Joined d (y, x) (y, x + n)
  | 0, x, h => by
    have := h 0 (le_refl _)
    simp only [Nat.cast_zero, add_zero] at this ⊢
    exact Joined.refl _ this
  | n + 1, x, h => by
    have h0 := h 0 (Nat.zero_le _)
    simp only [Nat.cast_zero, add_zero] at h0
    have ih := joined_row y n (x + 1) (fun k hk => by
      have := h (k + 1) (by omega)
      have e : x + ((k + 1 : Nat) : Int) = x + 1 + (k : Int) := by push_cast; omega
      rw [e] at this
      exact this)
    have e : x + ((n + 1 : Nat) : Int) = x + 1 + (n : Int) := by push_cast; omega
    rw [e]
    refine Joined.step _ (y, x + 1) _ h0 ?_ ih
    unfold Adjacent
    simp

/-- A run of open cells in a column joins its ends. -/
theorem joined_col {d : Dungeon} (x : Int) : ∀ (n : Nat) (y : Int),
    (∀ k : Nat, k ≤ n → OpenAt d (y + k, x)) → Joined d (y, x) (y + n, x)
  | 0, y, h => by
    have := h 0 (le_refl _)
    simp only [Nat.cast_zero, add_zero] at this ⊢
    exact Joined.refl _ this
  | n + 1, y, h => by
    have h0 := h 0 (Nat.zero_le _)
    simp only [Nat.cast_zero, add_zero] at h0
    have ih := joined_col x n (y + 1) (fun k hk => by
      have := h (k + 1) (by omega)
      have e : y + ((k + 1 : Nat) : Int) = y + 1 + (k : Int) := by push_cast; omega
      rw [e] at this
      exact this)
    have e : y + ((n + 1 : Nat) : Int) = y + 1 + (n : Int) := by push_cast; omega
    rw [e]
    refine Joined.step _ (y + 1, x) _ h0 ?_ ih
    unfold Adjacent
    simp

/-- Any two cells of a rectangle of open cells are joined. -/
theorem joined_rect {d : Dungeon} {y0 y1 x0 x1 : Int}
    (h : ∀ y x : Int, y0 ≤ y → y < y1 → x0 ≤ x → x < x1 → OpenAt d (y, x))
    {a b a2 b2 : Int} (ha : y0 ≤ a ∧ a < y1) (hb : x0 ≤ b ∧ b < x1)
    (ha2 : y0 ≤ a2 ∧ a2 < y1) (hb2 : x0 ≤ b2 ∧ b2 < x1) : Joined d (a, b) (a2, b2) := by
  have hrow : Joined d (a, b) (a, b2) := by
    rcases le_total b b2 with hle | hle
    · have := joined_row (d := d) a (b2 - b).toNat b (fun k hk => h _ _ ha.1 ha.2
        (by omega) (by omega))
      rw [Int.toNat_of_nonneg (by omega)] at this
      have e : b + (b2 - b) = b2 := by omega
      rw [e] at this
      exact this
    · have := joined_row (d := d) a (b - b2).toNat b2 (fun k hk => h _ _ ha.1 ha.2
        (by omega) (by omega))
      rw [Int.toNat_of_nonneg (by omega)] at this
      have e : b2 + (b - b2) = b := by omega
      rw [e] at this
      exact this.joinedSymm
  have hcol : Joined d (a, b2) (a2, b2) := by
    rcases le_total a a2 with hle | hle
    · have := joined_col (d := d) b2 (a2 - a).toNat a (fun k hk => h _ _ (by omega) (by omega)
        hb2.1 hb2.2)
      rw [Int.toNat_of_nonneg (by omega)] at this
      have e : a + (a2 - a) = a2 := by omega
      rw [e] at this
      exact this
    · have := joined_col (d := d) b2 (a - a2).toNat a2 (fun k hk => h _ _ (by omega) (by omega)
        hb2.1 hb2.2)
      rw [Int.toNat_of_nonneg (by omega)] at this
      have e : a2 + (a - a2) = a := by omega
      rw [e] at this
      exact this.joinedSymm
  exact hrow.joinedTrans hcol

/-- An assignment to a cell that does not turn a cell other than rock into rock. -/
theorem setCell_grow {d d2 : Dungeon_T} {a b : Int} {c : Cell} (h : setCell d a b c = some d2)
    (hc : (d.MAP a b).type ≠ .ROCK → c.type ≠ .ROCK) : Grow d.toDungeon d2.toDungeon := by
  rw [setCell_some h]
  refine ⟨rfl, rfl, ?_⟩
  intro y x hne
  by_cases e : (y * (d.width : Int) + x).toNat = (a * (d.width : Int) + b).toNat
  · have e2 : d.MAP y x = d.MAP a b := by
      unfold Dungeon.MAP
      rw [e]
    rw [e2] at hne
    have e3 : (putCell d a b c).MAP y x = c := by
      simp [putCell, Dungeon.MAP, e]
    rw [e3]
    exact hc hne
  · have e3 : (putCell d a b c).MAP y x = d.MAP y x := by
      simp [putCell, Dungeon.MAP, e]
    rw [e3]
    exact hne

theorem getCell_some {d : Dungeon} {a b : Int} {c : Cell} (h : getCell d a b = some c) :
    c = d.MAP a b := by
  unfold getCell at h
  split at h
  · simp only [Option.some.injEq] at h
    exact h.symm
  · cases h

theorem RoomsOpen.roomsGrow {d d2 : Dungeon_T} (h : RoomsOpen d) (g : Grow d.toDungeon d2.toDungeon)
    (hr : d2.rooms = d.rooms) (hn : d2.num_rooms = d.num_rooms) : RoomsOpen d2 := by
  intro k hk y x hin
  rw [hn] at hk
  rw [hr] at hin
  exact g.2.2 y x (h k hk y x hin)

/-! ### The rooms are painted -/

theorem paint_room_row_open (i : Int) : ∀ (js : List Int) (d d2 : Dungeon_T),
    paint_room_row i js d = some d2 →
    Grow d.toDungeon d2.toDungeon ∧ d2.rooms = d.rooms ∧ d2.num_rooms = d.num_rooms ∧
      ∀ j ∈ js, (d2.MAP i j).type ≠ .ROCK
  | [], d, d2, h => by
    simp only [paint_room_row, Option.some.injEq] at h
    subst h
    exact ⟨Grow.growRefl _, rfl, rfl, fun j hj => absurd hj (List.not_mem_nil j)⟩
  | j :: js, d, d2, h => by
    simp only [paint_room_row] at h
    cases h1 : setCell d i j { d.MAP i j with type := .ROOM, hardness := OPEN_SPACE_HARDNESS } with
    | none => rw [h1] at h; cases h
    | some d1 =>
      rw [h1] at h
      simp only at h
      have g1 := setCell_grow h1 (fun _ => by simp)
      obtain ⟨g2, r2, n2, o2⟩ := paint_room_row_open i js d1 d2 h
      have e1 := setCell_some h1
      refine ⟨g1.growTrans g2, ?_, ?_, ?_⟩
      · rw [r2, e1]; rfl
      · rw [n2, e1]; rfl
      · intro j2 hj2
        rcases List.mem_cons.mp hj2 with e | hj2
        · subst e
          apply g2.2.2
          rw [e1, putCell_MAP_same]
          simp
        · exact o2 j2 hj2

theorem paint_room_open (x : Int) (width : Nat) : ∀ (is : List Int) (d d2 : Dungeon_T),
    paint_room x width is d = some d2 →
    Grow d.toDungeon d2.toDungeon ∧ d2.rooms = d.rooms ∧ d2.num_rooms = d.num_rooms ∧
      ∀ i ∈ is, ∀ j ∈ intRange x width, (d2.MAP i j).type ≠ .ROCK
  | [], d, d2, h => by
    simp only [paint_room, Option.some.injEq] at h
    subst h
    exact ⟨Grow.growRefl _, rfl, rfl, fun i hi => absurd hi (List.not_mem_nil i)⟩
  | i :: is, d, d2, h => by
    simp only [paint_room] at h
    cases h1 : paint_room_row i (intRange x width) d with
    | none => rw [h1] at h; cases h
    | some d1 =>
      rw [h1] at h
      simp only at h
      obtain ⟨g1, r1, n1, o1⟩ := paint_room_row_open i _ d d1 h1
      obtain ⟨g2, r2, n2, o2⟩ := paint_room_open x width is d1 d2 h
      refine ⟨g1.growTrans g2, r2.trans r1, n2.trans n1, ?_⟩
      intro i2 hi2 j hj
      rcases List.mem_cons.mp hi2 with e | hi2
      · subst e
        exact g2.2.2 _ _ (o1 j hj)
      · exact o2 i2 hi2 j hj

/-- The room `fill_partition` records is painted, and the rooms recorded before stay
painted. -/
theorem fill_partition_open {d d2 : Dungeon_T} {p : Partition_T} {rng rng2 : List Nat}
    {ok : Bool} (h : fill_partition d p rng = some (ok, d2, rng2)) (ho : RoomsOpen d) :
    RoomsOpen d2 := by
  unfold fill_partition at h
  cases h1 : fill_partition_try d p (FAILED_ROOM_PLACEMENT.toNat + 2) 0 rng with
  | none => rw [h1] at h; simp at h
  | some v =>
    obtain ⟨ro, rng1⟩ := v
    rw [h1] at h
    cases ro with
    | none =>
      simp only [Option.some.injEq, Prod.mk.injEq] at h
      obtain ⟨_, e, _⟩ := h
      subst e
      exact ho
    | some r =>
      simp only at h
      split at h
      · cases h
      · rename_i d3 e3
        simp only [Option.some.injEq, Prod.mk.injEq] at h
        obtain ⟨_, e, _⟩ := h
        subst e
        obtain ⟨g, hr, hn, hp⟩ := paint_room_open _ _ _ _ _ e3
        intro k hk y x hin
        rw [hn] at hk
        rw [hr] at hin
        simp only at hk hin
        by_cases e : k = d.num_rooms
        · rw [if_pos e] at hin
          obtain ⟨a1, a2, a3, a4⟩ := hin
          refine hp y (mem_intRange.mpr ?_) x (mem_intRange.mpr ?_)
          · rw [Int.toNat_of_nonneg (by omega)]
            omega
          · rw [Int.toNat_of_nonneg (by omega)]
            omega
        · rw [if_neg e] at hin
          exact g.2.2 y x (ho k (by omega) y x hin)

theorem place_child_open {max_rooms : Int} {c : Partition_T} {s s2 : List Partition_T}
    {d d2 : Dungeon_T} {rng rng2 : List Nat} {ok : Bool}
    (h : place_child max_rooms c s d rng = some (ok, s2, d2, rng2)) (ho : RoomsOpen d) :
    RoomsOpen d2 := by
  unfold place_child at h
  split at h
  · simp only [Option.some.injEq, Prod.mk.injEq] at h
    obtain ⟨_, _, e, _⟩ := h
    subst e
    exact ho
  · split at h
    · simp only [Option.some.injEq, Prod.mk.injEq] at h
      obtain ⟨_, _, e, _⟩ := h
      subst e
      exact ho
    · cases h1 : fill_partition d c rng with
      | none => rw [h1] at h; simp at h
      | some v =>
        obtain ⟨ok1, d1, rng1⟩ := v
        rw [h1] at h
        simp only [Option.some.injEq, Prod.mk.injEq] at h
        obtain ⟨_, _, e, _⟩ := h
        subst e
        exact fill_partition_open h1 ho

theorem generate_rooms_loop_open {max_rooms : Int} :
    ∀ (fuel : Nat) (s : List Partition_T) (d : Dungeon_T) (rng : List Nat) (b : Bool)
      (d2 : Dungeon_T) (rng2 : List Nat),
    generate_rooms_loop max_rooms fuel s d rng = some (b, d2, rng2) → RoomsOpen d →
    RoomsOpen d2 := by
  intro fuel
  induction fuel with
  | zero =>
    intro s d rng b d2 rng2 h ho
    cases s with
    | nil =>
      simp only [generate_rooms_loop, Option.some.injEq, Prod.mk.injEq] at h
      obtain ⟨_, e, _⟩ := h
      subst e
      exact ho
    | cons p s => simp [generate_rooms_loop] at h
  | succ fuel ih =>
    intro s d rng b d2 rng2 h ho
    cases s with
    | nil =>
      simp only [generate_rooms_loop, Option.some.injEq, Prod.mk.injEq] at h
      obtain ⟨_, e, _⟩ := h
      subst e
      exact ho
    | cons p s =>
      rw [generate_rooms_loop_succ] at h
      cases h1 : split_horizontal p rng with
      | none => rw [h1] at h; simp at h
      | some v1 =>
        obtain ⟨hz, rng1⟩ := v1
        rw [h1] at h
        simp only at h
        cases h2 : (if hz = true then
            rand_int_in_range MIN_PARTITION_HEIGHT (p.height - MIN_PARTITION_HEIGHT) rng1
          else rand_int_in_range MIN_PARTITION_WIDTH (p.width - MIN_PARTITION_WIDTH) rng1) with
        | none => rw [h2] at h; simp at h
        | some v2 =>
          obtain ⟨split, rng2b⟩ := v2
          rw [h2] at h
          simp only at h
          cases h3 : place_child max_rooms (leftChild p hz split) s d rng2b with
          | none => rw [h3] at h; simp at h
          | some v3 =>
            obtain ⟨ok1, s1, d1, rng3⟩ := v3
            rw [h3] at h
            have o1 := place_child_open h3 ho
            cases ok1 with
            | false =>
              simp only [Option.some.injEq, Prod.mk.injEq] at h
              obtain ⟨_, e, _⟩ := h
              subst e
              exact o1
            | true =>
              simp only at h
              cases h4 : place_child max_rooms (rightChild p hz split) s1 d1 rng3 with
              | none => rw [h4] at h; simp at h
              | some v4 =>
                obtain ⟨ok2, s2, d2b, rng4⟩ := v4
                rw [h4] at h
                have o2 := place_child_open h4 o1
                cases ok2 with
                | false =>
                  simp only [Option.some.injEq, Prod.mk.injEq] at h
                  obtain ⟨_, e, _⟩ := h
                  subst e
                  exact o2
                | true =>
                  simp only at h
                  exact ih s2 d2b rng4 b d2 rng2 h o2

theorem new_dungeon_loop_open {fuel : Nat} {min_rooms max_rooms : Int}
    {covered : Nat → Nat → Bool} :
    ∀ (n : Nat) (tries : Int) (d : Dungeon_T) (rng : List Nat) (d2 : Dungeon_T)
      (rng2 : List Nat),
    new_dungeon_loop fuel min_rooms max_rooms covered n tries d rng = some (d2, rng2) →
    RoomsOpen d → RoomsOpen d2 := by
  intro n
  induction n with
  | zero => intro tries d rng d2 rng2 h; simp [new_dungeon_loop] at h
  | succ n ih =>
    intro tries d rng d2 rng2 h ho
    simp only [new_dungeon_loop] at h
    split at h
    · cases h
    · cases h1 : generate_rooms fuel { d with rooms_size := max_rooms.toNat } max_rooms rng with
      | none => rw [h1] at h; simp at h
      | some v =>
        obtain ⟨success, d1, rng1⟩ := v
        rw [h1] at h
        simp only at h
        unfold generate_rooms at h1
        have o1 : RoomsOpen d1 := generate_rooms_loop_open _ _ _ _ _ _ _ h1 ho
        split at h
        · exact ih _ _ _ _ _ h o1
        · simp only [Option.some.injEq, Prod.mk.injEq] at h
          rw [← h.1]
          exact o1

/-! ### The later stages turn no cell into rock -/

theorem randomize_hardness_row_grow (i : Int) : ∀ (js : List Int) (d : Dungeon_T)
    (rng : List Nat) (d2 : Dungeon_T) (rng2 : List Nat),
    randomize_hardness_row i js d rng = some (d2, rng2) → Grow d.toDungeon d2.toDungeon
  | [], d, rng, d2, rng2, h => by
    simp only [randomize_hardness_row, Option.some.injEq, Prod.mk.injEq] at h
    rw [← h.1]
    exact Grow.growRefl _
  | j :: js, d, rng, d2, rng2, h => by
    simp only [randomize_hardness_row] at h
    cases h1 : getCell d.toDungeon i j with
    | none => rw [h1] at h; cases h
    | some c =>
      rw [h1] at h
      simp only at h
      have ec := getCell_some h1
      split at h
      · cases h2 : rand_int_in_range MIN_ROCK_HARDNESS MAX_ROCK_HARDNESS rng with
        | none => rw [h2] at h; cases h
        | some v =>
          obtain ⟨r, rng1⟩ := v
          rw [h2] at h
          simp only at h
          cases h3 : setCell d i j { c with hardness := c.hardness + r } with
          | none => rw [h3] at h; cases h
          | some d1 =>
            rw [h3] at h
            simp only at h
            have g1 := setCell_grow h3 (fun hne => by rw [← ec] at hne; exact hne)
            exact g1.growTrans (randomize_hardness_row_grow i js d1 rng1 d2 rng2 h)
      · exact randomize_hardness_row_grow i js d rng d2 rng2 h

theorem randomize_hardness_rows_grow (cols : List Int) : ∀ (is : List Int) (d : Dungeon_T)
    (rng : List Nat) (d2 : Dungeon_T) (rng2 : List Nat),
    randomize_hardness_rows cols is d rng = some (d2, rng2) → Grow d.toDungeon d2.toDungeon
  | [], d, rng, d2, rng2, h => by
    simp only [randomize_hardness_rows, Option.some.injEq, Prod.mk.injEq] at h
    rw [← h.1]
    exact Grow.growRefl _
  | i :: is, d, rng, d2, rng2, h => by
    simp only [randomize_hardness_rows] at h
    cases h1 : randomize_hardness_row i cols d rng with
    | none => rw [h1] at h; cases h
    | some v =>
      obtain ⟨d1, rng1⟩ := v
      rw [h1] at h
      simp only at h
      exact (randomize_hardness_row_grow i cols d rng d1 rng1 h1).growTrans
        (randomize_hardness_rows_grow cols is d1 rng1 d2 rng2 h)

theorem roll_downhill_grow (cost : Nat → Int) (sy sx : Int) : ∀ (fuel : Nat) (d : Dungeon_T)
    (i j : Int) (d2 : Dungeon_T), roll_downhill cost sy sx fuel d i j = some d2 →
    Grow d.toDungeon d2.toDungeon := by
  intro fuel
  induction fuel with
  | zero =>
    intro d i j d2 h
    rw [roll_downhill] at h
    split at h
    · cases h
    · simp only [Option.some.injEq] at h
      rw [← h]
      exact Grow.growRefl _
  | succ fuel ih =>
    intro d i j d2 h
    rw [roll_downhill] at h
    split at h
    · simp only at h
      cases g1 : getCost d.toDungeon cost (i - 1) j with
      | none => rw [g1] at h; cases h
      | some up =>
      cases g2 : getCost d.toDungeon cost (i + 1) j with
      | none => rw [g1, g2] at h; cases h
      | some down =>
      cases g3 : getCost d.toDungeon cost i (j - 1) with
      | none => rw [g1, g2, g3] at h; cases h
      | some left =>
      cases g4 : getCost d.toDungeon cost i (j + 1) with
      | none => rw [g1, g2, g3, g4] at h; cases h
      | some right =>
        rw [g1, g2, g3, g4] at h
        simp only at h
        cases h1 : getCell d.toDungeon (travel i j (pick_direction up down left right)).1
            (travel i j (pick_direction up down left right)).2 with
        | none => rw [h1] at h; cases h
        | some c =>
          rw [h1] at h
          simp only at h
          split at h
          · cases h2 : setCell d (travel i j (pick_direction up down left right)).1
                (travel i j (pick_direction up down left right)).2
                { c with type := .CORRIDOR, hardness := OPEN_SPACE_HARDNESS } with
            | none => rw [h2] at h; cases h
            | some d1 =>
              rw [h2] at h
              simp only at h
              exact (setCell_grow h2 (fun _ => by simp)).growTrans (ih _ _ _ _ h)
          · exact ih _ _ _ _ h
    · simp only [Option.some.injEq] at h
      rw [← h]
      exact Grow.growRefl _

theorem place_stair_grow {d d2 : Dungeon_T} {r : Room_T} {t : Cell_Type} {rng rng2 : List Nat}
    (h : place_stair d r t rng = some (d2, rng2)) (ht : t ≠ .ROCK) :
    Grow d.toDungeon d2.toDungeon := by
  unfold place_stair at h
  cases h1 : rand_int_in_range (r.y + 1) (r.y + r.height - 2) rng with
  | none => rw [h1] at h; cases h
  | some v1 =>
    obtain ⟨y, rng1⟩ := v1
    rw [h1] at h
    simp only at h
    cases h2 : rand_int_in_range (r.x + 1) (r.x + r.width - 2) rng1 with
    | none => rw [h2] at h; cases h
    | some v2 =>
      obtain ⟨x, rng2b⟩ := v2
      rw [h2] at h
      simp only at h
      cases h3 : getCell d.toDungeon y x with
      | none => rw [h3] at h; cases h
      | some c =>
        rw [h3] at h
        simp only at h
        cases h4 : setCell d y x { c with type := t } with
        | none => rw [h4] at h; cases h
        | some d1 =>
          rw [h4] at h
          simp only [Option.some.injEq, Prod.mk.injEq] at h
          rw [← h.1]
          exact setCell_grow h4 (fun _ => ht)

theorem place_stairs_grow {fuel : Nat} {d d2 : Dungeon_T} {rng rng2 : List Nat}
    (h : place_stairs fuel d rng = some (d2, rng2)) : Grow d.toDungeon d2.toDungeon := by
  unfold place_stairs at h
  cases h1 : rand_int_in_range 0 ((d.num_rooms : Int) - 1) rng with
  | none => rw [h1] at h; cases h
  | some v1 =>
    obtain ⟨r1, rng1⟩ := v1
    rw [h1] at h
    simp only at h
    cases h2 : place_stair d (d.rooms r1.toNat) .STAIR_UP rng1 with
    | none => rw [h2] at h; cases h
    | some v2 =>
      obtain ⟨d1, rng2b⟩ := v2
      rw [h2] at h
      simp only at h
      cases h3 : pick_other_room d1.num_rooms r1 fuel rng2b with
      | none => rw [h3] at h; cases h
      | some v3 =>
        obtain ⟨r2, rng3⟩ := v3
        rw [h3] at h
        simp only at h
        exact (place_stair_grow h2 (by decide)).growTrans (place_stair_grow h (by decide))

theorem place_pc_grow {d d2 : Dungeon_T} {rng rng2 : List Nat}
    (h : place_pc d rng = some (d2, rng2)) : Grow d.toDungeon d2.toDungeon := by
  unfold place_pc at h
  cases h1 : rand_int_in_range 0 ((d.num_rooms : Int) - 1) rng with
  | none => rw [h1] at h; cases h
  | some v1 =>
    obtain ⟨room, rng1⟩ := v1
    rw [h1] at h
    simp only at h
    cases h2 : rand_int_in_range (d.rooms room.toNat).y
        ((d.rooms room.toNat).y + (d.rooms room.toNat).height - 1) rng1 with
    | none => rw [h2] at h; cases h
    | some v2 =>
      obtain ⟨y, rng2b⟩ := v2
      rw [h2] at h
      simp only at h
      cases h3 : rand_int_in_range (d.rooms room.toNat).x
          ((d.rooms room.toNat).x + (d.rooms room.toNat).width - 1) rng2b with
      | none => rw [h3] at h; cases h
      | some v3 =>
        obtain ⟨x, rng3⟩ := v3
        rw [h3] at h
        simp only at h
        cases h4 : getCell d.toDungeon y x with
        | none => rw [h4] at h; cases h
        | some c =>
          rw [h4] at h
          simp only at h
          have ec := getCell_some h4
          cases h5 : setCell { d with player := some (y, x) } y x
              { c with character := some 0 } with
          | none => rw [h5] at h; cases h
          | some d1 =>
            rw [h5] at h
            simp only [Option.some.injEq, Prod.mk.injEq] at h
            rw [← h.1]
            have g : Grow ({ d with player := some (y, x) } : Dungeon_T).toDungeon
                d1.toDungeon :=
              setCell_grow h5 (fun hne => by
                have hne2 : (d.MAP y x).type ≠ .ROCK := hne
                rw [← ec] at hne2
                exact hne2)
            exact g

/-! ### The corridors join the rooms -/

/-- A corridor painted between two interior points, the second not a rock cell, joins
them. -/
theorem paint_corridor_joined {fuel : Nat} {m0 : Mem} {v0 : Nat → Vertex} {c0 : Nat → Int}
    {d d2 : Dungeon_T} {sy sx ty tx : Int}
    (h : paint_corridor fuel m0 v0 c0 d sy sx ty tx = some d2)
    (inv : CellInv Mutable d.toDungeon) (hsm : SmallGrid d.toDungeon)
    (hf : FuelOk d.toDungeon fuel) (hs : Interior d.toDungeon sy sx)
    (ht : Interior d.toDungeon ty tx) (ho : (d.MAP ty tx).type ≠ .ROCK) :
    Grow d.toDungeon d2.toDungeon ∧ Joined d2.toDungeon (ty, tx) (sy, sx) := by
  have g : Grow d.toDungeon d2.toDungeon := by
    unfold paint_corridor at h
    cases h1 : Old.generate_dijkstra_map fuel m0 v0 c0 d.toDungeon sy sx false .CORRIDOR_MAP with
    | none => rw [h1] at h; cases h
    | some cost =>
      rw [h1] at h
      exact roll_downhill_grow cost sy sx fuel d ty tx d2 h
  unfold FuelOk at hf
  obtain ⟨d3, path, e, hch, hlast, hpath, _, hmap⟩ := paint_corridor_trace fuel m0 v0 c0 d
    sy sx ty tx inv hsm hs ht (by omega)
  rw [h] at e
  simp only [Option.some.injEq] at e
  subst e
  refine ⟨g, Joined.of_chain path (ty, tx) (sy, sx) hch hlast ?_⟩
  intro c hc
  rcases List.mem_cons.mp hc with e1 | hm
  · subst e1
    exact ⟨(Interior_shape g.1 g.2.1).mpr ht, g.2.2 _ _ ho⟩
  · refine ⟨(Interior_shape g.1 g.2.1).mpr (hpath c hm), ?_⟩
    rw [hmap c.1 c.2 (InGrid_of_interior (hpath c hm)), if_pos hm]
    unfold paintCell
    split
    · simp
    · assumption

/-- A point drawn inside a room belongs to the room. -/
theorem room_point_in {d : Dungeon} {r : Room_T} {y x : Int} {rng rng1 rng2 : List Nat}
    (hr : RoomOk d r) (h1 : rand_int_in_range r.y (r.y + r.height - 1) rng = some (y, rng1))
    (h2 : rand_int_in_range r.x (r.x + r.width - 1) rng1 = some (x, rng2)) :
    inRoom r y x := by
  obtain ⟨r1, r2, r3, r4, r5, r6⟩ := hr
  simp only [MIN_ROOM_HEIGHT, MIN_ROOM_WIDTH] at r3 r4
  have a1 := rand_int_in_range_ge h1
  have a2 := rand_int_in_range_le h1 (by omega)
  have b1 := rand_int_in_range_ge h2
  have b2 := rand_int_in_range_le h2 (by omega)
  unfold inRoom
  omega

/-- The connecting loop joins a point of each room to a point of the next room in the
shuffled order, and turns no cell into rock. -/
theorem generate_corridors_loop_joined (fuel : Nat) (m0 : Mem) (v0 : Nat → Vertex)
    (c0 : Nat → Int) (shuffle : Nat → Nat) : ∀ (is : List Nat) (d : Dungeon_T)
    (rng : List Nat) (d2 : Dungeon_T) (rng2 : List Nat),
    generate_corridors_loop fuel m0 v0 c0 shuffle is d rng = some (d2, rng2) →
    GenInv Mutable d → SmallGrid d.toDungeon → FuelOk d.toDungeon fuel → RoomsOpen d →
    (∀ i ∈ is, shuffle i < d.num_rooms ∧ shuffle (i + 1) < d.num_rooms) →
    Grow d.toDungeon d2.toDungeon ∧
      ∀ i ∈ is, ∃ p q : Int × Int, inRoom (d.rooms (shuffle i)) p.1 p.2 ∧
        inRoom (d.rooms (shuffle (i + 1))) q.1 q.2 ∧ Joined d2.toDungeon q p := by
  intro is
  induction is with
  | nil =>
    intro d rng d2 rng2 h _ _ _ _ _
    simp only [generate_corridors_loop, Option.some.injEq, Prod.mk.injEq] at h
    rw [← h.1]
    exact ⟨Grow.growRefl _, fun i hi => absurd hi (List.not_mem_nil i)⟩
  | cons i is ih =>
    intro d rng d2 rng2 h inv hsm hf ho hsh
    obtain ⟨hi1, hi2⟩ := hsh i (List.mem_cons_self _ _)
    have hr1 := inv.rooms _ hi1
    have hr2 := inv.rooms _ hi2
    simp only [generate_corridors_loop] at h
    cases h1 : rand_int_in_range (d.rooms (shuffle i)).y
        ((d.rooms (shuffle i)).y + (d.rooms (shuffle i)).height - 1) rng with
    | none => rw [h1] at h; simp at h
    | some v1 =>
      obtain ⟨sy, rng1⟩ := v1
      rw [h1] at h
      simp only at h
      cases h2 : rand_int_in_range (d.rooms (shuffle i)).x
          ((d.rooms (shuffle i)).x + (d.rooms (shuffle i)).width - 1) rng1 with
      | none => rw [h2] at h; simp at h
      | some v2 =>
        obtain ⟨sx, rng2b⟩ := v2
        rw [h2] at h
        simp only at h
        cases h3 : rand_int_in_range (d.rooms (shuffle (i + 1))).y
            ((d.rooms (shuffle (i + 1))).y + (d.rooms (shuffle (i + 1))).height - 1) rng2b with
        | none => rw [h3] at h; simp at h
        | some v3 =>
          obtain ⟨ty, rng3⟩ := v3
          rw [h3] at h
          simp only at h
          cases h4 : rand_int_in_range (d.rooms (shuffle (i + 1))).x
              ((d.rooms (shuffle (i + 1))).x + (d.rooms (shuffle (i + 1))).width - 1) rng3 with
          | none => rw [h4] at h; simp at h
          | some v4 =>
            obtain ⟨tx, rng4⟩ := v4
            rw [h4] at h
            simp only at h
            have is1 := room_point_interior hr1 h1 h2
            have is2 := room_point_interior hr2 h3 h4
            have in1 := room_point_in hr1 h1 h2
            have in2 := room_point_in hr2 h3 h4
            obtain ⟨d1, e1, inv1, s1⟩ := paint_corridor_spec fuel m0 v0 c0 d sy sx ty tx
              inv.cells hsm hf is1 is2
            rw [e1] at h
            simp only at h
            obtain ⟨g1, j1⟩ := paint_corridor_joined e1 inv.cells hsm hf is1 is2
              (ho _ hi2 ty tx in2)
            obtain ⟨g2, j2⟩ := ih d1 rng4 d2 rng2 h ⟨inv1, inv.rooms.shape s1⟩
              (SmallGrid_shape s1 hsm) (FuelOk_shape s1 hf)
              (ho.roomsGrow g1 s1.rooms s1.num_rooms)
              (fun k hk => by
                rw [s1.num_rooms]
                exact hsh k (List.mem_cons_of_mem _ hk))
            refine ⟨g1.growTrans g2, ?_⟩
            intro k hk
            rcases List.mem_cons.mp hk with e | hk
            · subst e
              exact ⟨(sy, sx), (ty, tx), in1, in2, j1.joinedGrow g2⟩
            · obtain ⟨p, q, a1, a2, a3⟩ := j2 k hk
              rw [s1.rooms] at a1 a2
              exact ⟨p, q, a1, a2, a3⟩

/-- Every value below `n` stays in the array through `shuffle_int_array`. -/
theorem shuffle_int_array_onto (n : Nat) : ∀ (i : Nat) (arr : Nat → Nat) (rng : List Nat)
    (arr2 : Nat → Nat) (rng2 : List Nat),
    shuffle_int_array i arr rng = some (arr2, rng2) → i < n →
    (∀ t < n, ∃ j < n, arr j = t) → ∀ t < n, ∃ j < n, arr2 j = t := by
  intro i
  induction i with
  | zero =>
    intro arr rng arr2 rng2 h _ ha
    simp only [shuffle_int_array, Option.some.injEq, Prod.mk.injEq] at h
    rw [← h.1]
    exact ha
  | succ i ih =>
    intro arr rng arr2 rng2 h hi ha
    simp only [shuffle_int_array] at h
    cases h1 : rand_int_in_range 0 ((i : Int) + 1) rng with
    | none => rw [h1] at h; simp at h
    | some v =>
      obtain ⟨swap, rng1⟩ := v
      rw [h1] at h
      simp only at h
      have g1 := rand_int_in_range_ge h1
      have g2 := rand_int_in_range_le h1 (by omega)
      refine ih _ rng1 arr2 rng2 h (by omega) ?_
      intro t ht
      obtain ⟨j, hj, ej⟩ := ha t ht
      by_cases c1 : j = swap.toNat
      · refine ⟨i + 1, hi, ?_⟩
        by_cases c2 : i + 1 = swap.toNat
        · rw [if_pos c2, ← ej, c1, ← c2]
        · rw [if_neg c2, if_pos rfl, ← ej, c1]
      · by_cases c2 : j = i + 1
        · refine ⟨swap.toNat, by omega, ?_⟩
          rw [if_pos rfl, ← ej, c2]
        · refine ⟨j, hj, ?_⟩
          rw [if_neg c1, if_neg c2, ej]

/-- Any two cells of a painted room inside the interior are joined. -/
theorem room_joined {d : Dungeon} {r : Room_T} (hr : RoomOk d r)
    (ho : ∀ y x : Int, inRoom r y x → (d.MAP y x).type ≠ .ROCK) {p q : Int × Int}
    (hp : inRoom r p.1 p.2) (hq : inRoom r q.1 q.2) : Joined d p q := by
  obtain ⟨r1, r2, r3, r4, r5, r6⟩ := hr
  have hrect : ∀ y x : Int, r.y ≤ y → y < r.y + r.height → r.x ≤ x → x < r.x + r.width →
      OpenAt d (y, x) := by
    intro y x a1 a2 a3 a4
    refine ⟨?_, ho y x ⟨a1, a2, a3, a4⟩⟩
    show Interior d y x
    unfold Interior
    omega
  obtain ⟨a1, a2, a3, a4⟩ := hp
  obtain ⟨b1, b2, b3, b4⟩ := hq
  exact joined_rect hrect ⟨a1, a2⟩ ⟨a3, a4⟩ ⟨b1, b2⟩ ⟨b3, b4⟩

/-- After `generate_corridors` any two cells of recorded rooms are joined. -/
theorem generate_corridors_joined {fuel : Nat} {m0 : Mem} {v0 : Nat → Vertex}
    {c0 : Nat → Int} {d d2 : Dungeon_T} {rng rng2 : List Nat}
    (h : generate_corridors fuel m0 v0 c0 d rng = some (d2, rng2)) (inv : GenInv Mutable d)
    (hsm : SmallGrid d.toDungeon) (hf : FuelOk d.toDungeon fuel) (ho : RoomsOpen d) :
    Grow d.toDungeon d2.toDungeon ∧
      ∀ k1 < d.num_rooms, ∀ k2 < d.num_rooms, ∀ p q : Int × Int,
        inRoom (d.rooms k1) p.1 p.2 → inRoom (d.rooms k2) q.1 q.2 →
        Joined d2.toDungeon p q := by
  unfold generate_corridors at h
  cases h1 : shuffle_int_array (d.num_rooms - 1) (fun i => i) rng with
  | none => rw [h1] at h; simp at h
  | some v =>
    obtain ⟨shuffle, rng1⟩ := v
    rw [h1] at h
    simp only at h
    by_cases hn : d.num_rooms = 0
    · rw [hn] at h
      simp only [Nat.zero_sub, List.range_zero, generate_corridors_loop, Option.some.injEq,
        Prod.mk.injEq] at h
      rw [← h.1]
      exact ⟨Grow.growRefl _, fun k1 hk1 => absurd hk1 (by omega)⟩
    · obtain ⟨q, _⟩ := shuffle_int_array_some d.num_rooms _ _ _ _ _ h1 (by omega)
        (fun k hk => hk)
      have onto := shuffle_int_array_onto d.num_rooms _ _ _ _ _ h1 (by omega)
        (fun t ht => ⟨t, ht, rfl⟩)
      obtain ⟨g, hj⟩ := generate_corridors_loop_joined fuel m0 v0 c0 shuffle _ d rng1 d2 rng2 h
        inv hsm hf ho (shuffle_range q)
      refine ⟨g, ?_⟩
      have hroom : ∀ k < d.num_rooms, ∀ p q : Int × Int, inRoom (d.rooms k) p.1 p.2 →
          inRoom (d.rooms k) q.1 q.2 → Joined d2.toDungeon p q := by
        intro k hk p q hp hq
        have hr := inv.rooms k hk
        have hr2 : RoomOk d2.toDungeon (d.rooms k) := by
          unfold RoomOk at hr ⊢
          rw [g.1, g.2.1]
          exact hr
        exact room_joined hr2 (fun y x hin => g.2.2 y x (ho k hk y x hin)) hp hq
      have hanchor : inRoom (d.rooms (shuffle 0)) (d.rooms (shuffle 0)).y
          (d.rooms (shuffle 0)).x := by
        obtain ⟨_, _, r3, r4, _, _⟩ := inv.rooms _ (q 0 (by omega))
        simp only [MIN_ROOM_HEIGHT, MIN_ROOM_WIDTH] at r3 r4
        unfold inRoom
        omega
      have hall : ∀ j : Nat, j < d.num_rooms → ∀ p : Int × Int,
          inRoom (d.rooms (shuffle j)) p.1 p.2 →
          Joined d2.toDungeon p ((d.rooms (shuffle 0)).y, (d.rooms (shuffle 0)).x) := by
        intro j
        induction j with
        | zero =>
          intro h0 p hp
          exact hroom _ (q 0 h0) p _ hp hanchor
        | succ j ihj =>
          intro hj1 p hp
          obtain ⟨a, b, ha, hb, hab⟩ := hj j (List.mem_range.mpr (by omega))
          exact ((hroom _ (q (j + 1) hj1) p b hp hb).joinedTrans hab).joinedTrans
            (ihj (by omega) a ha)
      intro k1 hk1 k2 hk2 p q2 hp hq
      obtain ⟨j1, hj1, e1⟩ := onto k1 hk1
      obtain ⟨j2, hj2, e2⟩ := onto k2 hk2
      rw [← e1] at hp
      rw [← e2] at hq
      exact (hall j1 hj1 p hp).joinedTrans (hall j2 hj2 q2 hq).joinedSymm

/-- C38: whenever `new_dungeon` returns (on a grid small enough for path costs to fit in an
`int`, the loops without a counter being given enough fuel to finish), the recorded rooms
are mutually connected: any two cells that belong to rooms of the returned dungeon are the
ends of a chain of cells, each next to the one before in its row or column, all of them
interior cells of a type other than Rock. -/
theorem new_dungeon_rooms_connected (fuel : Nat) (m0 : Mem) (v0 : Nat → Vertex)
    (c0 : Nat → Int) (height width : Nat) (min_rooms max_rooms : Int)
    (covered : Nat → Nat → Bool) (rng : List Nat) (d : Dungeon_T)
    (hsm : 7 * ((((height - 2) * (width - 2) : Nat) : Int) + 1) < INT_MAX)
    (hf : 7 * ((height - 2) * (width - 2)) < fuel)
    (h : new_dungeon fuel m0 v0 c0 height width min_rooms max_rooms covered rng = some d) :
    ∀ k1 < d.num_rooms, ∀ k2 < d.num_rooms, ∀ p q : Int × Int,
      inRoom (d.rooms k1) p.1 p.2 → inRoom (d.rooms k2) q.1 q.2 →
      ∃ path : List (Int × Int), List.Chain Adjacent p path ∧
        (p :: path).getLast? = some q ∧
        ∀ c ∈ p :: path, Interior d.toDungeon c.1 c.2 ∧ (d.MAP c.1 c.2).type ≠ .ROCK := by
  unfold new_dungeon at h
  cases hb : generate_dungeon_border (init_dungeon height width) with
  | none => rw [hb] at h; cases h
  | some d0 =>
    rw [hb] at h
    simp only at h
    cases hl : new_dungeon_loop fuel min_rooms max_rooms covered
        (FAILED_DUNGEON_GENERATION.toNat + 2) 0 d0 rng with
    | none => rw [hl] at h; cases h
    | some p1 =>
      obtain ⟨d1, rng1⟩ := p1
      rw [hl] at h
      simp only at h
      cases hr : randomize_hardness { d1 with rooms_size := d1.num_rooms } rng1 with
      | none => rw [hr] at h; cases h
      | some p2 =>
        obtain ⟨d2, rng2⟩ := p2
        rw [hr] at h
        simp only at h
        cases hc : generate_corridors fuel m0 v0 c0 d2 rng2 with
        | none => rw [hc] at h; cases h
        | some p3 =>
          obtain ⟨d3, rng3⟩ := p3
          rw [hc] at h
          simp only at h
          cases hs : place_stairs fuel d3 rng3 with
          | none => rw [hs] at h; cases h
          | some p4 =>
            obtain ⟨d4, rng4⟩ := p4
            rw [hs] at h
            simp only at h
            cases hp : place_pc d4 rng4 with
            | none => rw [hp] at h; cases h
            | some p5 =>
              obtain ⟨d5, rng5⟩ := p5
              rw [hp] at h
              simp only [Option.some.injEq] at h
              subst h
              have dims0 := generate_dungeon_border_dims hb
              have hQ : ∀ c : Cell, Soft { c with type := .ROOM, hardness := OPEN_SPACE_HARDNESS } :=
                fun _ => rfl
              obtain ⟨dims1, hsp, hinv⟩ := new_dungeon_loop_spec hQ _ _ _ _ _ _ hl
              have e0h : d0.height = height := dims0.1
              have e0w : d0.width = width := dims0.2
              obtain ⟨q1, q2, _⟩ := hsp
              simp only [rootPartition] at q1 q2
              rw [e0h] at q1
              rw [e0w] at q2
              obtain ⟨d0b, hb2, s0, inv0⟩ := generate_dungeon_border_spec height width
                (by omega) (by omega)
              rw [hb] at hb2
              simp only [Option.some.injEq] at hb2
              subst hb2
              have open0 : RoomsOpen d0 := by
                intro k hk
                rw [s0.num_rooms] at hk
                exact absurd hk (Nat.not_lt_zero k)
              have open1 : RoomsOpen d1 := new_dungeon_loop_open _ _ _ _ _ _ hl open0
              have inv1 := hinv inv0
              have inv1b : GenInv Soft { d1 with rooms_size := d1.num_rooms } :=
                ⟨inv1.cells, inv1.rooms⟩
              obtain ⟨inv2, s2⟩ := randomize_hardness_spec hr inv1b
              have g2 : Grow d1.toDungeon d2.toDungeon := by
                have hr2 := hr
                unfold randomize_hardness at hr2
                exact randomize_hardness_rows_grow _ _
                  { d1 with rooms_size := d1.num_rooms } _ _ _ hr2
              have open2 : RoomsOpen d2 := open1.roomsGrow g2 s2.rooms s2.num_rooms
              have h2h : d2.height = height := by
                rw [s2.height]; exact dims1.1.trans e0h
              have h2w : d2.width = width := by
                rw [s2.width]; exact dims1.2.trans e0w
              have hsm2 : SmallGrid d2.toDungeon := by
                unfold SmallGrid; rw [h2h, h2w]; exact hsm
              have hf2 : FuelOk d2.toDungeon fuel := by
                unfold FuelOk; rw [h2h, h2w]; exact hf
              obtain ⟨inv3, s3⟩ := generate_corridors_some hc inv2 hsm2 hf2
              obtain ⟨g3, hj⟩ := generate_corridors_joined hc inv2 hsm2 hf2 open2
              obtain ⟨inv4, s4⟩ := place_stairs_some hs inv3
              obtain ⟨inv5, s5⟩ := place_pc_some hp inv4
              have g5 : Grow d3.toDungeon d5.toDungeon :=
                (place_stairs_grow hs).growTrans (place_pc_grow hp)
              have s := s3.shapeTrans (s4.shapeTrans s5)
              intro k1 hk1 k2 hk2 p q hp1 hq1
              rw [s.num_rooms] at hk1 hk2
              rw [s.rooms] at hp1 hq1
              obtain ⟨path, c1, c2, c3⟩ := ((hj k1 hk1 k2 hk2 p q hp1 hq1).joinedGrow g5).path
              exact ⟨path, c1, c2, c3⟩

theorem new_dungeon_rooms_connected_witness :
    7 * (((((9 : Nat) - 2) * ((28 : Nat) - 2) : Nat) : Int) + 1) < INT_MAX ∧
    7 * ((9 - 2) * (28 - 2)) < 2000 ∧
    ∃ d, new_dungeon 2000 Mem.empty exVertices (fun _ => 0) 9 28 2 4 exCovered exStream =
        some d ∧ d.num_rooms = 4 ∧
      ∀ k1 < d.num_rooms, ∀ k2 < d.num_rooms, ∀ p q : Int × Int,
        inRoom (d.rooms k1) p.1 p.2 → inRoom (d.rooms k2) q.1 q.2 →
        ∃ path : List (Int × Int), List.Chain Adjacent p path ∧
          (p :: path).getLast? = some q ∧
          ∀ c ∈ p :: path, Interior d.toDungeon c.1 c.2 ∧ (d.MAP c.1 c.2).type ≠ .ROCK := by
  obtain ⟨d, hd, hn, _⟩ := exRun
  exact ⟨by decide, by decide, d, hd, hn,
    new_dungeon_rooms_connected 2000 Mem.empty exVertices (fun _ => 0) 9 28 2 4 exCovered
      exStream d (by decide) (by decide) hd⟩

end Rogue
